import Mathlib

/-! # CUI core: node tree, components, traversal, position reconstruction

A shallow embedding of the retained-mode core of the CUI library
(`include/cui/core`, `lib/cui/core`).  Nodes live in a store addressed by
natural numbers (the embedding of object addresses); the intrusive links
(`parent_`, `next_sibling_`, ...) are optional addresses.  `Point` is
`std::int16_t`: every arithmetic result that the source converts back to
`Point` goes through `wrapPoint`.
-/

namespace Cui

/-! ## Geometry (`def.hpp`, `math.hpp`, `vector.hpp`, `rect.hpp`) -/

/-- Conversion of an `int` result back to `Point` (`std::int16_t`). -/
def wrapPoint (v : Int) : Int := (v + 32768) % 65536 - 32768

/-- Smallest value of `Point`. -/
def pointMin : Int := -32768

/-- Largest value of `Point`. -/
def pointMax : Int := 32767

/-- Test: the integer is representable as a `Point`. -/
def inPoint (v : Int) : Bool := decide (pointMin ≤ v) && decide (v ≤ pointMax)

/-- The function `max` of `math.hpp`: `(left < right) ? right : left`. -/
def pmax (l r : Int) : Int := if l < r then r else l

/-- The function `min` of `math.hpp`: `(left < right) ? left : right`. -/
def pmin (l r : Int) : Int := if l < r then l else r

/-- The struct `Vec2`. -/
structure Vec2 where
  x : Int
  y : Int
deriving DecidableEq, Repr

namespace Vec2

/-- `Vec2::origin()`. -/
def origin : Vec2 := ⟨0, 0⟩

/-- `Vec2::min()`. -/
def min : Vec2 := ⟨pointMin, pointMin⟩

/-- `Vec2::max()`. -/
def max : Vec2 := ⟨pointMax, pointMax⟩

/-- `Vec2::operator+(Vec2)`. -/
def add (a b : Vec2) : Vec2 := ⟨wrapPoint (a.x + b.x), wrapPoint (a.y + b.y)⟩

/-- `Vec2::operator-(Vec2)`. -/
def sub (a b : Vec2) : Vec2 := ⟨wrapPoint (a.x - b.x), wrapPoint (a.y - b.y)⟩

/-- `Vec2::operator+(Point)`. -/
def addP (a : Vec2) (p : Int) : Vec2 := ⟨wrapPoint (a.x + p), wrapPoint (a.y + p)⟩

/-- `Vec2::operator-(Point)`. -/
def subP (a : Vec2) (p : Int) : Vec2 := ⟨wrapPoint (a.x - p), wrapPoint (a.y - p)⟩

/-- `Vec2::transpose()`. -/
def transpose (a : Vec2) : Vec2 := ⟨a.y, a.x⟩

end Vec2

/-- The free function `min(Vec2, Vec2)`. -/
def vmin (l r : Vec2) : Vec2 := ⟨pmin l.x r.x, pmin l.y r.y⟩

/-- The free function `max(Vec2, Vec2)`. -/
def vmax (l r : Vec2) : Vec2 := ⟨pmax l.x r.x, pmax l.y r.y⟩

/-- The struct `Rect`: top left and bottom right corner, both inclusive. -/
structure Rect where
  low : Vec2
  high : Vec2
deriving DecidableEq, Repr

namespace Rect

/-- `Rect::none()`, also the default constructed `Rect`. -/
def none : Rect := ⟨⟨0, 0⟩, ⟨-1, -1⟩⟩

/-- `Rect::all()`. -/
def all : Rect := ⟨Vec2.min, Vec2.max⟩

/-- `Rect::with(Vec2 size)`. -/
def withSize (size : Vec2) : Rect := ⟨Vec2.origin, size.subP 1⟩

/-- `Rect::with(Vec2 start, Vec2 size)`. -/
def withStart (start size : Vec2) : Rect := ⟨start, (start.add size).subP 1⟩

/-- `Rect::empty()`. -/
def empty (r : Rect) : Bool := decide (r.high.x < r.low.x) || decide (r.high.y < r.low.y)

/-- `Rect::operator bool()`. -/
def nonempty (r : Rect) : Bool := !r.empty

/-- `Rect::width()`. -/
def width (r : Rect) : Int := if r.empty then 0 else wrapPoint (r.high.x - r.low.x + 1)

/-- `Rect::height()`. -/
def height (r : Rect) : Int := if r.empty then 0 else wrapPoint (r.high.y - r.low.y + 1)

/-- `Rect::size()`. -/
def size (r : Rect) : Vec2 :=
  if r.empty then Vec2.origin
  else ⟨wrapPoint (r.high.x - r.low.x + 1), wrapPoint (r.high.y - r.low.y + 1)⟩

/-- `Rect::operator+(Vec2)`. -/
def translate (r : Rect) (v : Vec2) : Rect := ⟨r.low.add v, r.high.add v⟩

/-- `Rect::operator-(Vec2)`. -/
def untranslate (r : Rect) (v : Vec2) : Rect := ⟨r.low.sub v, r.high.sub v⟩

/-- `Rect::contains(Vec2)`. -/
def containsPoint (r : Rect) (p : Vec2) : Bool :=
  (decide (p.x ≥ r.low.x) && decide (p.x ≤ r.high.x)) &&
  (decide (p.y ≥ r.low.y) && decide (p.y ≤ r.high.y))

/-- `Rect::contains(Rect const&)`. -/
def contains (r other : Rect) : Bool :=
  (decide (other.low.x ≥ r.low.x) && decide (other.high.x ≤ r.high.x)) &&
  (decide (other.low.y ≥ r.low.y) && decide (other.high.y ≤ r.high.y))

/-- `Rect::overlaps(Rect const&)`. -/
def overlaps (r other : Rect) : Bool :=
  !(decide (r.low.x > other.high.x) || decide (r.high.x < other.low.x) ||
    decide (r.low.y > other.high.y) || decide (r.high.y < other.low.y))

/-- `Rect::relocate(Vec2 start)`. -/
def relocate (r : Rect) (start : Vec2) : Rect :=
  ⟨start, (start.add r.size).subP 1⟩

/-- `Rect::resize(Vec2 size)`. -/
def resize (r : Rect) (size : Vec2) : Rect := ⟨r.low, (r.low.add size).subP 1⟩

/-- `Rect::clip(Rect const& area)`. -/
def clip (r area : Rect) : Rect :=
  if r.overlaps area then ⟨vmax area.low r.low, vmin area.high r.high⟩ else Rect.none

/-- `Rect::ofUnion`. -/
def ofUnion (l r : Rect) : Rect := ⟨vmin l.low r.low, vmax l.high r.high⟩

/-- `Rect::ofIntersect`. -/
def ofIntersect (l r : Rect) : Rect := ⟨vmax l.low r.low, vmin l.high r.high⟩

end Rect

/-! ## Nodes (`node.hpp`) -/

/-- The bits of `Node::flags_`, one field per enumerator of `Node::Flag`
(`WidgetKind = 0x0001`, `LayoutDirty = 0x0002`, `PaintDirty = 0x0004`,
`PaintRepositioned = 0x0008`, `GarbageCollected = 0x0010`,
`Unreferenced = 0x0020`, `SharesParentLifetime = 0x0040`,
`LayoutChildDirty = 0x0080`, `PaintChildDirty = 0x0100`,
`PaintChildDirtyDiverged = 0x0200`); the enumerators are pairwise disjoint
single bits, so the word is the record of its bits. -/
structure Flags where
  WidgetKind : Bool := false
  LayoutDirty : Bool := false
  PaintDirty : Bool := false
  PaintRepositioned : Bool := false
  GarbageCollected : Bool := false
  Unreferenced : Bool := false
  SharesParentLifetime : Bool := false
  LayoutChildDirty : Bool := false
  PaintChildDirty : Bool := false
  PaintChildDirtyDiverged : Bool := false
deriving DecidableEq, Repr

/-- `Container::InitFlags`. -/
def Flags.containerInit : Flags :=
  { LayoutChildDirty := true, LayoutDirty := true, PaintChildDirtyDiverged := true }

/-- `Widget::InitFlags`. -/
def Flags.widgetInit : Flags :=
  { WidgetKind := true, LayoutDirty := true }

/-- The data members of `Node` together with the two members a `Container`
adds (`first_child_`, `last_child_`; both stay null for a `Widget`). -/
structure Node where
  flags : Flags
  constraints : Vec2 := Vec2.max
  area : Rect := Rect.none
  clip_space : Rect := Rect.none
  parent : Option Nat := Option.none
  next_sibling : Option Nat := Option.none
  prev_sibling : Option Nat := Option.none
  first_child : Option Nat := Option.none
  last_child : Option Nat := Option.none
deriving DecidableEq, Repr

/-- A default constructed `Container`. -/
def Node.freshContainer : Node := { flags := Flags.containerInit }

/-- A default constructed `Widget`. -/
def Node.freshWidget : Node := { flags := Flags.widgetInit }

/-- The objects of the program: `size` nodes at the addresses `0 .. size-1`. -/
structure Store where
  size : Nat
  node : Nat → Node

namespace Store

/-- Overwrite the node at address `i`. -/
def set (s : Store) (i : Nat) (n : Node) : Store :=
  { s with node := fun j => if j = i then n else s.node j }

/-- Apply `f` to the node at address `i`. -/
def modify (s : Store) (i : Nat) (f : Node → Node) : Store :=
  s.set i (f (s.node i))

/-- Apply `f` to the flag word of the node at address `i`. -/
def modifyFlags (s : Store) (i : Nat) (f : Flags → Flags) : Store :=
  s.modify i (fun n => { n with flags := f n.flags })

/-- The accessor `Node::parent()`. -/
def parent (s : Store) (i : Nat) : Option Nat := (s.node i).parent

/-- The accessor `Node::isAttached()`. -/
def isAttached (s : Store) (i : Nat) : Bool := (s.parent i).isSome

/-- The accessor `Node::isLayoutDirty()`. -/
def isLayoutDirty (s : Store) (i : Nat) : Bool := (s.node i).flags.LayoutDirty

/-- The accessor `Node::isChildLayoutDirty()`. -/
def isChildLayoutDirty (s : Store) (i : Nat) : Bool := (s.node i).flags.LayoutChildDirty

/-- The accessor `Node::isPaintDirty()`. -/
def isPaintDirty (s : Store) (i : Nat) : Bool := (s.node i).flags.PaintDirty

/-- The accessor `Node::isPaintRepositioned()`. -/
def isPaintRepositioned (s : Store) (i : Nat) : Bool := (s.node i).flags.PaintRepositioned

/-- The accessor `Container::isChildPaintDirty()`:
`has(PaintChildDirty | PaintChildDirtyDiverged)`. -/
def isChildPaintDirty (s : Store) (i : Nat) : Bool :=
  (s.node i).flags.PaintChildDirty || (s.node i).flags.PaintChildDirtyDiverged

/-- The accessor `Container::isChildPaintDirtyDiverged()`. -/
def isChildPaintDirtyDiverged (s : Store) (i : Nat) : Bool :=
  (s.node i).flags.PaintChildDirtyDiverged

/-- The test `isa<Widget>(node)`. -/
def isWidget (s : Store) (i : Nat) : Bool := (s.node i).flags.WidgetKind

/-- The test `isa<Container>(node)`. -/
def isContainer (s : Store) (i : Nat) : Bool := !(s.node i).flags.WidgetKind

end Store

/-- The addresses visited by following `parent_` from `cur`, at most `fuel` of them. -/
def parentChain (s : Store) : Nat → Option Nat → List Nat
  | 0, _ => []
  | _ + 1, Option.none => []
  | fuel + 1, some p => p :: parentChain s fuel (s.node p).parent

/-- The range `parents(node)` of `traverse.hpp`: the proper ancestors of `i`,
nearest first.  A store of `size` nodes whose parent links are acyclic has
chains shorter than `size`. -/
def parents (s : Store) (i : Nat) : List Nat := parentChain s s.size (s.node i).parent

/-- The function `is_transitive_parent(parent, child)` of `algorithm.cpp`. -/
def is_transitive_parent (s : Store) (p child : Nat) : Bool :=
  (parents s child).any (fun c => c == p)

/-! ## Layout flag propagation and child list mutation (`node.cpp`) -/

/-- The loop of `Node::reflow` over `parents(*this)`. -/
def reflowParents (s : Store) : List Nat → Store
  | [] => s
  | p :: ps =>
    if s.isLayoutDirty p || s.isChildLayoutDirty p then s
    else reflowParents (s.modifyFlags p (fun f => { f with LayoutChildDirty := true })) ps

/-- The method `Node::reflow`. -/
def reflow (s : Store) (i : Nat) : Store :=
  if !s.isLayoutDirty i then
    (reflowParents s (parents s i)).modifyFlags i (fun f => { f with LayoutDirty := true })
  else s

/-- The method `Node::setConstraints`; the Boolean is the returned value. -/
def setConstraints (s : Store) (i : Nat) (c : Vec2) : Store × Bool :=
  if (s.node i).constraints ≠ c then
    (reflow (s.modify i (fun n => { n with constraints := c })) i, true)
  else (s, false)

/-- The method `Container::insert(pos, child)` called on the container `c`, in a
build with `CUI_ASSERT` and `CUI_HAS_PEDANTIC_ASSERT` active: `Option.none` is a
failed assertion.  `pos = Option.none` is `end()`.  The mount hooks and
`onChildAttached` are the default no-ops. -/
def insert (s : Store) (c : Nat) (pos : Option Nat) (child : Nat) : Option Store :=
  -- CUI_ASSERT(&child != this)
  if child = c then Option.none
  -- for (Node& current : parents(child)) CUI_ASSERT(current != *this)
  else if (parents s child).any (fun current => current == c) then Option.none
  -- CUI_ASSERT(!child.isAttached()), (!child.next_sibling_), (!child.prev_sibling_)
  else if s.isAttached child then Option.none
  else if (s.node child).next_sibling.isSome then Option.none
  else if (s.node child).prev_sibling.isSome then Option.none
  else
    let s := s.modify c (fun n => { n with clip_space := Rect.none })
    let left : Option Nat :=
      match pos with
      | some p => (s.node p).prev_sibling
      | Option.none => (s.node c).last_child
    let s :=
      match left with
      | some l =>
        (s.modify child (fun n => { n with prev_sibling := some l })).modify l
          (fun n => { n with next_sibling := some child })
      | Option.none => s.modify c (fun n => { n with first_child := some child })
    let s :=
      match pos with
      | some p =>
        (s.modify child (fun n => { n with next_sibling := some p })).modify p
          (fun n => { n with prev_sibling := some child })
      | Option.none => s.modify c (fun n => { n with last_child := some child })
    let s := s.modify child (fun n => { n with parent := some c })
    let nc := s.node child
    let nthis := s.node c
    if nthis.first_child.isSome && nthis.last_child.isSome && nc.parent == some c
        && (nc.next_sibling.isSome || nthis.last_child == some child)
        && (nc.prev_sibling.isSome || nthis.first_child == some child)
        && (!nc.next_sibling.isSome || nc.prev_sibling != nc.next_sibling) then
      let s := s.modify child (fun n => { n with constraints := Vec2.max, area := Rect.none })
      some (reflow s c)
    else Option.none

/-- The method `Container::push_front`. -/
def push_front (s : Store) (c child : Nat) : Option Store :=
  insert s c (s.node c).first_child child

/-- The method `Container::push_back`. -/
def push_back (s : Store) (c child : Nat) : Option Store :=
  insert s c Option.none child

/-! ## Components (`component.hpp`, `NodeImpl` in `node.cpp`)

`TypeID` is declared in `cui/util/type.hpp`; it is a 16 bit unsigned integer
(`static_assert(sizeof(Component) == 8)` with three 16 bit offsets,
`Component::none = 0xFFFF`, `type_of` is a `crc16`).  `Component::Offset` is
`std::int16_t`.  A component is addressed by its offset from the owning node
(`-owner_offset_`); the offset `0` is the null link. -/

/-- The data members of `Component` except `owner_offset_`, which is the
negated address of the component in `Owner.comp`. -/
structure Component where
  type : Nat
  next_stranger_offset : Int := 0
  next_sibling_offset : Int := 0
deriving DecidableEq, Repr

/-- The members `first_component_offset_` and `components_filter_` of a `Node`
together with the component objects placed around it, by offset. -/
structure Owner where
  first_component_offset : Int := 0
  components_filter : Nat := 0
  comp : Int → Component := fun _ => { type := 0 }

/-- The function `NodeImpl::bloomFilterHash`; `bits` is
`sizeof(Node::BloomFilter) * 8 = 16`. -/
def bloomFilterHash (id : Nat) : Nat :=
  let bits := 16
  let mask := 0
  let mask := mask ||| (1 <<< (id % bits))
  let mask := mask ||| (1 <<< (((id &&& 0xFF) ^^^ ((id >>> 8) &&& 0xFF)) % bits))
  mask

/-- The function `NodeImpl::bloomFilterContains`. -/
def bloomFilterContains (filter id : Nat) : Bool :=
  filter != 0 && (filter &&& bloomFilterHash id) != 0

/-- Bound on the length of a chain of 16 bit offsets without a repetition. -/
def offsetFuel : Nat := 65536

/-- The range `Node::components()`: the offsets reached from `off` through
`next_stranger_offset_` (`Component::iterator::increment`). -/
def strangerChain (o : Owner) : Nat → Int → List Int
  | 0, _ => []
  | fuel + 1, off =>
    if off = 0 then [] else off :: strangerChain o fuel (o.comp off).next_stranger_offset

/-- The range `Node::components()`. -/
def components (o : Owner) : List Int := strangerChain o offsetFuel o.first_component_offset

/-- The range `Component::siblings()` of the component at `off`
(`Component::sibling_iterator::increment`). -/
def siblingChain (o : Owner) : Nat → Int → List Int
  | 0, _ => []
  | fuel + 1, off =>
    if off = 0 then [] else off :: siblingChain o fuel (o.comp off).next_sibling_offset

/-- The range `Component::siblings()`. -/
def siblings (o : Owner) (off : Int) : List Int := siblingChain o offsetFuel off

/-- Overwrite the component at offset `off`. -/
def Owner.setComp (o : Owner) (off : Int) (c : Component) : Owner :=
  { o with comp := fun j => if j = off then c else o.comp j }

/-- The `for (;;)` loop of `NodeImpl::attachComponent`; `itr` is the offset of
the component the iterator designates on entry, `off` and `type` those of the
component being attached.  `Option.none` is a failed assertion. -/
def attachLoop (o : Owner) (off : Int) (type : Nat) : Nat → Int → Option Owner
  | 0, _ => Option.none
  | fuel + 1, itr =>
    -- Component& previous = *itr; ++itr;
    let previous := itr
    let itr := (o.comp previous).next_stranger_offset
    if itr = 0 then
      -- previous.next_stranger_offset_ = offset
      some (o.setComp previous { o.comp previous with next_stranger_offset := off })
    else
      let current_type := (o.comp itr).type
      if current_type > type then
        -- component.next_stranger_offset_ = exchange(itr->next_stranger_offset_, offset)
        let o := o.setComp off { o.comp off with
          next_stranger_offset := (o.comp itr).next_stranger_offset }
        some (o.setComp itr { o.comp itr with next_stranger_offset := off })
      else if type = current_type then
        -- component.next_sibling_offset_ = exchange(itr->next_sibling_offset_, offset)
        let o := o.setComp off { o.comp off with
          next_sibling_offset := (o.comp itr).next_sibling_offset }
        some (o.setComp itr { o.comp itr with next_sibling_offset := off })
      else attachLoop o off type fuel itr

/-- The function `NodeImpl::attachComponent` for the component at offset `off`. -/
def attachComponent (o : Owner) (off : Int) : Option Owner :=
  -- CUI_ASSERT(component.owner_offset_)
  if off = 0 then Option.none
  else
    let type := (o.comp off).type
    let o := { o with components_filter := o.components_filter ||| bloomFilterHash type }
    if o.first_component_offset ≠ 0 then
      let itr := o.first_component_offset
      let first_type := (o.comp itr).type
      if type < first_type then
        let o := o.setComp off { o.comp off with
          next_stranger_offset := o.first_component_offset }
        some { o with first_component_offset := off }
      else if type = first_type then
        let o := o.setComp off { o.comp off with
          next_sibling_offset := (o.comp itr).next_sibling_offset }
        some (o.setComp itr { o.comp itr with next_sibling_offset := off })
      else attachLoop o off type offsetFuel itr
    else
      some { o with first_component_offset := off }

/-- The constructor `Component::Component(type, owner)` of a component placed at
offset `off` from its owner; `narrow<Component::Offset>` asserts that the
offset fits 16 bits. -/
def Component.construct (o : Owner) (off : Int) (type : Nat) : Option Owner :=
  if pointMin ≤ off ∧ off ≤ pointMax then
    attachComponent (o.setComp off { type := type }) off
  else Option.none

/-- Construct components of the given types one after another, the k-th at
offset `8 * (k + 1)` (`sizeof(Component) == 8`), the layout of consecutive
members of a widget class. -/
def attachAll (o : Owner) : Int → List Nat → Option Owner
  | _, [] => some o
  | off, t :: ts => (Component.construct o off t).bind (fun o => attachAll o (off + 8) ts)

/-- The loop of `Node::find` over `components()`. -/
def findLoop (o : Owner) (type : Nat) : List Int → Option Int
  | [] => Option.none
  | c :: cs =>
    if (o.comp c).type = type then some c
    else if (o.comp c).type > type then Option.none
    else findLoop o type cs

/-- The method `Node::find(TypeID)`: the offset of the component found. -/
def find (o : Owner) (type : Nat) : Option Int :=
  if bloomFilterContains o.components_filter type then findLoop o type (components o)
  else Option.none

/-! ## Paint flag propagation and geometry setters (`node.cpp`) -/

/-- The loop of `NodeImpl::flag_parent_child_paint_dirty` over `parents(node)`. -/
def flagParents (s : Store) : List Nat → Store
  | [] => s
  | p :: ps =>
    if s.isPaintDirty p then s
    else if !(s.node p).flags.PaintChildDirty then
      flagParents (s.modifyFlags p (fun f => { f with PaintChildDirty := true })) ps
    else if !(s.node p).flags.PaintChildDirtyDiverged then
      s.modifyFlags p (fun f => { f with PaintChildDirtyDiverged := true })
    else s

/-- The function `NodeImpl::flag_parent_child_paint_dirty`. -/
def flag_parent_child_paint_dirty (s : Store) (i : Nat) : Store :=
  flagParents s (parents s i)

/-- The assignment `set(node, Flag::PaintDirty | Flag::PaintRepositioned)`. -/
def setDirtyRepositioned (s : Store) (i : Nat) : Store :=
  s.modifyFlags i (fun f => { f with PaintDirty := true, PaintRepositioned := true })

/-- The function `NodeImpl::repaint_repositioned`. -/
def repaint_repositioned (s : Store) (i : Nat) : Store :=
  match s.parent i with
  | some p =>
    if !s.isPaintDirty p then
      setDirtyRepositioned (flag_parent_child_paint_dirty s p) p
    else if !s.isPaintRepositioned p then
      setDirtyRepositioned s p
    else s
  | Option.none =>
    if !s.isPaintRepositioned i then setDirtyRepositioned s i else s

/-- The method `Node::setArea`; the Boolean is the returned value. -/
def setArea (s : Store) (i : Nat) (area : Rect) : Store × Bool :=
  if (s.node i).area ≠ area then
    (repaint_repositioned (s.modify i (fun n => { n with area := area })) i, true)
  else (s, false)

/-- The method `Node::setPosition`; the Boolean is the returned value. -/
def setPosition (s : Store) (i : Nat) (relative : Vec2) : Store × Bool :=
  if (s.node i).area.low ≠ relative then
    (repaint_repositioned (s.modify i (fun n => { n with area := n.area.relocate relative })) i,
      true)
  else (s, false)

/-- The method `Node::setSize`; the Boolean is the returned value. -/
def setSize (s : Store) (i : Nat) (size : Vec2) : Store × Bool :=
  if (s.node i).area.size ≠ size then
    (repaint_repositioned (s.modify i (fun n => { n with area := n.area.resize size })) i, true)
  else (s, false)

/-- The method `Widget::repaint`. -/
def Widget.repaint (s : Store) (i : Nat) : Store :=
  if !s.isPaintDirty i then
    flag_parent_child_paint_dirty (s.modifyFlags i (fun f => { f with PaintDirty := true })) i
  else s

/-- The method `Container::repaint`. -/
def Container.repaint (s : Store) (i : Nat) : Store :=
  flag_parent_child_paint_dirty (s.modifyFlags i (fun f => { f with PaintDirty := true })) i

/-- The method `Container::erase(child)` called on the container `c`, with its
entry assertions (`Option.none` is a failed assertion); `onChildDetached` and
the mount hooks are the default no-ops.  The second component is the address
the returned iterator designates. -/
def erase (s : Store) (c child : Nat) : Option (Store × Option Nat) :=
  let nc := s.node child
  let nthis := s.node c
  if nc.parent == some c && nthis.first_child.isSome && nthis.last_child.isSome
      && (!nc.next_sibling.isSome || nc.prev_sibling != nc.next_sibling) then
    let s := reflow s c
    let s := s.modify child (fun n => { n with parent := Option.none })
    let left := (s.node child).prev_sibling
    let right := (s.node child).next_sibling
    let s :=
      match left with
      | some l =>
        (s.modify l (fun n => { n with next_sibling := right })).modify child
          (fun n => { n with prev_sibling := Option.none })
      | Option.none => s.modify c (fun n => { n with first_child := right })
    let s :=
      match right with
      | some r =>
        (s.modify r (fun n => { n with prev_sibling := left })).modify child
          (fun n => { n with next_sibling := Option.none })
      | Option.none => s.modify c (fun n => { n with last_child := left })
    some (s, right)
  else Option.none

/-- The method `Node::detach`. -/
def detach (s : Store) (i : Nat) : Option Store :=
  match s.parent i with
  | some p => (erase s p i).map Prod.fst
  | Option.none => some s

/-! ## `NodeAccess` (`access.hpp`) -/

/-- `NodeAccess::clearLayoutDirty`. -/
def clearLayoutDirty (s : Store) (i : Nat) : Store :=
  s.modifyFlags i (fun f => { f with LayoutDirty := false, LayoutChildDirty := false })

/-- `NodeAccess::clearPaintDirty`. -/
def clearPaintDirty (s : Store) (i : Nat) : Store :=
  s.modifyFlags i (fun f =>
    { f with
      PaintDirty := false
      PaintRepositioned := false
      PaintChildDirty := false
      PaintChildDirtyDiverged := false })

/-- `NodeAccess::setClipSpace`. -/
def setClipSpace (s : Store) (i : Nat) (clip : Rect) : Store :=
  s.modify i (fun n => { n with clip_space := clip })

/-- `NodeAccess::repaint(Node&)`. -/
def NodeAccess.repaint (s : Store) (i : Nat) : Store :=
  if s.isWidget i then Widget.repaint s i else Container.repaint s i

/-- `NodeAccess::repaint_all`. -/
def repaint_all (s : Store) (i : Nat) : Store :=
  let s := NodeAccess.repaint s i
  if s.isContainer i then s.modifyFlags i (fun f => { f with PaintRepositioned := true }) else s

/-! ## Traversal (`traverse.hpp`, `traverse.cpp`) -/

/-- The enumeration `Accept::State`. -/
inductive AcceptState where
  | Pre
  | Post
  | Leaf
deriving DecidableEq, Repr

/-- The struct `Accept`; a null `node` is `Option.none`. -/
structure Accept where
  node : Option Nat := Option.none
  state : AcceptState := AcceptState.Post
deriving DecidableEq, Repr

namespace Accept

/-- `Accept::isPre()`. -/
def isPre (a : Accept) : Bool := a.state != AcceptState.Post

/-- `Accept::isPost()`. -/
def isPost (a : Accept) : Bool := a.state != AcceptState.Pre

/-- `Accept::isLeaf()`. -/
def isLeaf (a : Accept) : Bool := a.state == AcceptState.Leaf

/-- `Accept::skip()`. -/
def skip (a : Accept) : Accept := { a with state := AcceptState.Post }

/-- `Accept::repeat()`. -/
def again (a : Accept) : Accept := { a with state := AcceptState.Pre }

/-- `Accept::operator==`: the comparison the iterators of a range use. -/
def same (a b : Accept) : Bool := a.node == b.node && a.isPre == b.isPre

end Accept

/-- The function `pre_or_leaf`. -/
def pre_or_leaf (s : Store) (i : Nat) : AcceptState :=
  if s.isContainer i && (s.node i).first_child.isSome then AcceptState.Pre
  else AcceptState.Leaf

/-- The function `next_sibling_or_parent<true>`. -/
def next_sibling_or_parent (s : Store) (i : Nat) : Accept :=
  match (s.node i).next_sibling with
  | some n => { node := some n, state := pre_or_leaf s n }
  | Option.none => { node := s.parent i, state := AcceptState.Post }

/-- The function `next_child`. -/
def next_child (s : Store) (i : Nat) : Option Nat :=
  if s.isContainer i then (s.node i).first_child else Option.none

/-- The method `TraverseIterator::increment` on an iterator whose `Accept`
designates node `i` in state `st`. -/
def increment (s : Store) (i : Nat) (st : AcceptState) : Accept :=
  if st != AcceptState.Post then
    match next_child s i with
    | some c => { node := some c, state := pre_or_leaf s c }
    | Option.none => next_sibling_or_parent s i
  else next_sibling_or_parent s i

/-- The first iterator of the range `traverse(node)`. -/
def traverseBegin (s : Store) (i : Nat) : Accept := { node := some i, state := pre_or_leaf s i }

/-- The second (end) iterator of the range `traverse(node)`. -/
def traverseEnd (s : Store) (i : Nat) : Accept := next_sibling_or_parent s i

/-! ## Position reconstruction (`algorithm.hpp`, `algorithm.cpp`)

The assertions of `push` and `pop` only compare values and are not part of the
embedding (`CUI_ASSERT` is `void(0)` under `NDEBUG`). -/

/-- The struct `AbsolutePosition`. -/
structure AbsolutePosition where
  clip : Rect := Rect.none
  translation : Vec2 := Vec2.origin
deriving DecidableEq, Repr

/-- The data members of the class `PositionRebuilder`. -/
structure PositionRebuilder where
  translation : Vec2 := Vec2.origin
  clip : Rect := Rect.all
deriving DecidableEq, Repr

/-- The method `PositionRebuilder::push`. -/
def PositionRebuilder.push (s : Store) (st : PositionRebuilder) (current : Nat) :
    Store × PositionRebuilder :=
  let area := (s.node current).area
  let clip := Rect.ofIntersect st.clip (area.translate st.translation)
  let translation := st.translation.add area.low
  (setClipSpace s current clip, { translation := translation, clip := clip })

/-- The method `PositionRebuilder::pop`. -/
def PositionRebuilder.pop (s : Store) (st : PositionRebuilder) (current : Nat) :
    PositionRebuilder :=
  match s.parent current with
  | some p =>
    let area := (s.node current).area
    { translation := st.translation.sub area.low, clip := (s.node p).clip_space }
  | Option.none => st

/-- The loop of `absolute` over `parents(node)`. -/
def absoluteLoop (s : Store) (acc : AbsolutePosition) : List Nat → AbsolutePosition
  | [] => acc
  | p :: ps =>
    let offset := (s.node p).area
    absoluteLoop s
      { clip := Rect.ofIntersect offset (acc.clip.translate offset.low),
        translation := acc.translation.add offset.low } ps

/-- The function `absolute`. -/
def absolute (s : Store) (i : Nat) : AbsolutePosition :=
  absoluteLoop s { clip := (s.node i).area, translation := (s.node i).area.low } (parents s i)

/-- One visit of the loop of the unit test "nodes absolute positions can be
calculated": the node, its state, and the store and the rebuilder at the point
where the test compares `stack.clip()` with `absolute(*current).clip`. -/
structure Visit where
  node : Nat
  state : AcceptState
  store : Store
  stack : PositionRebuilder

/-- The loop `for (Accept& current : traverse(root))` of that test, with
`stack.push` on every pre visit and `stack.pop` on every post visit: the visits
of at most `fuel` iterations, from the iterator position `cur`. -/
def rebuildLoop (last : Accept) : Nat → Store → PositionRebuilder → Accept → List Visit
  | 0, _, _, _ => []
  | fuel + 1, s, stack, cur =>
    if cur.same last then []
    else
      match cur.node with
      | Option.none => []
      | some i =>
        let pushed := if cur.isPre then stack.push s i else (s, stack)
        let popped := if cur.isPost then pushed.2.pop pushed.1 i else pushed.2
        { node := i, state := cur.state, store := pushed.1, stack := pushed.2 } ::
          rebuildLoop last fuel pushed.1 popped (increment pushed.1 i cur.state)

/-- The visits of the whole test loop over `traverse(root)` with a fresh
`PositionRebuilder`. -/
def rebuildTrace (s : Store) (root : Nat) (fuel : Nat) : List Visit :=
  rebuildLoop (traverseEnd s root) fuel s {} (traverseBegin s root)

/-! ## The paint pipeline (`pipeline.hpp`, `detail/pipeline_impl.hpp`)

The surface is a parameter: its `resolution()` and its `split`, which maps the
requested area to the returned window and to the value the area has
afterwards.  The calls the surface and the widgets receive are recorded as a
trace.  The assertions of the pipeline are not part of the embedding. -/

/-- The part of a `Surface` the core reads. -/
structure Surface where
  resolution : Vec2
  split : Rect → Rect × Rect
  changed : Bool := false

/-- The method `Surface::split` of the base class: `std::exchange(area, {})`. -/
def Surface.wholeSplit (area : Rect) : Rect × Rect := (area, Rect.none)

/-- A call made by the pipeline: `surface.begin(window)`, the construction of
a `Canvas(surface, translation, clip)` followed by `NodeAccess::paint(widget,
canvas)`, `surface.end()`, `surface.flush()`. -/
inductive Event where
  | begin (window : Rect)
  | paint (widget : Nat) (translation : Vec2) (clip : Rect)
  | finish
  | flush
deriving DecidableEq, Repr

/-- The store, the calls made so far, and whether every loop has run to its
end within its iteration budget. -/
structure PaintState where
  store : Store
  trace : List Event := []
  complete : Bool := true

/-- The body of the loop of `paint_impl<ClearFlags>` for the `Accept` that
designates node `i` in state `st`: the state and the rebuilder afterwards and
the state of the `Accept` when the iterator is incremented. -/
def paint_impl_visit (clearFlags : Bool) (window : Rect) (ps : PaintState)
    (stack : PositionRebuilder) (i : Nat) (st : AcceptState) :
    PaintState × PositionRebuilder × AcceptState :=
  if st != AcceptState.Post then
    let pushed := stack.push ps.store i
    let clip := Rect.ofIntersect window pushed.2.clip
    if clip.nonempty then
      let trace :=
        if pushed.1.isWidget i then ps.trace ++ [Event.paint i pushed.2.translation clip]
        else ps.trace
      if st != AcceptState.Pre then
        let s2 := if clearFlags then clearPaintDirty pushed.1 i else pushed.1
        ({ ps with store := s2, trace := trace }, pushed.2.pop s2 i, st)
      else
        ({ ps with store := pushed.1, trace := trace }, pushed.2, st)
    else
      -- stack.pop(*current); current.skip(); continue;
      ({ ps with store := pushed.1 }, pushed.2.pop pushed.1 i, AcceptState.Post)
  else
    let s2 := if clearFlags then clearPaintDirty ps.store i else ps.store
    ({ ps with store := s2 }, stack.pop s2 i, st)

/-- The loop `for (Accept& current : traverse(node))` of `paint_impl`. -/
def paint_impl_loop (clearFlags : Bool) (window : Rect) (last : Accept) :
    Nat → PaintState → PositionRebuilder → Accept → PaintState
  | 0, ps, _, cur => if cur.same last then ps else { ps with complete := false }
  | fuel + 1, ps, stack, cur =>
    if cur.same last then ps
    else
      match cur.node with
      | Option.none => { ps with complete := false }
      | some i =>
        let r := paint_impl_visit clearFlags window ps stack i cur.state
        paint_impl_loop clearFlags window last fuel r.1 r.2.1 (increment r.1.store i r.2.2)

/-- The function `paint_impl<ClearFlags>(node, surface, window, stack)`. -/
def paint_impl (clearFlags : Bool) (fuel : Nat) (ps : PaintState) (node : Nat) (window : Rect)
    (stack : PositionRebuilder) : PaintState :=
  let ps := { ps with trace := ps.trace ++ [Event.begin window] }
  let ps := paint_impl_loop clearFlags window (traverseEnd ps.store node) fuel ps stack
    (traverseBegin ps.store node)
  if ps.complete then { ps with trace := ps.trace ++ [Event.finish] } else ps

/-- The function `paint_full(node, surface, clip)`. -/
def paint_full (fuel : Nat) (s : Store) (node : Nat) (clip : Rect) : PaintState :=
  paint_impl false fuel { store := s } node clip {}

/-- The function `affected_area`. -/
def affected_area (s : Store) (surface : Surface) (current : Nat) (clip : Rect) : Rect :=
  if !s.isAttached current && s.isPaintRepositioned current then
    Rect.withSize surface.resolution
  else Rect.ofIntersect clip (Rect.withSize surface.resolution)

/-- The function `paint_into`. -/
def paint_into (fuel : Nat) (ps : PaintState) (root current : Nat) (clip window : Rect)
    (stack : PositionRebuilder) : PaintState :=
  if clip.contains window then
    paint_impl true fuel ps current window (stack.pop ps.store current)
  else
    paint_impl true fuel ps root window {}

/-- The loop `while (remaining)` of `paint_partial_impl`. -/
def splitLoop (surface : Surface) (inner : Nat) (root current : Nat) (clip : Rect)
    (stack : PositionRebuilder) : Nat → PaintState → Rect → PaintState
  | 0, ps, remaining => if remaining.nonempty then { ps with complete := false } else ps
  | fuel + 1, ps, remaining =>
    if remaining.nonempty then
      let r := surface.split remaining
      let ps := paint_into inner ps root current clip r.1 stack
      if ps.complete then splitLoop surface inner root current clip stack fuel ps r.2 else ps
    else ps

/-- The state of the loop of `paint_partial_impl` after one body. -/
structure PartialStep where
  state : PaintState
  stack : PositionRebuilder
  accept : AcceptState
  updated : Bool

/-- The statement `if (current.isPost()) { clearPaintDirty; stack.pop }` that
ends the body of the loop of `paint_partial_impl`. -/
def paint_partial_post (ps : PaintState) (stack : PositionRebuilder) (i : Nat)
    (st : AcceptState) (updated : Bool) : PartialStep :=
  if st != AcceptState.Pre then
    let s2 := clearPaintDirty ps.store i
    { state := { ps with store := s2 }, stack := stack.pop s2 i, accept := st,
      updated := updated }
  else { state := ps, stack := stack, accept := st, updated := updated }

/-- The body of the loop of `paint_partial_impl` for the `Accept` that
designates node `i` in state `st`. -/
def paint_partial_visit (fuel : Nat) (surface : Surface) (root : Nat) (ps : PaintState)
    (stack : PositionRebuilder) (i : Nat) (st : AcceptState) (updated : Bool) : PartialStep :=
  if st != AcceptState.Post then
    let pushed := stack.push ps.store i
    let ps : PaintState := { ps with store := pushed.1 }
    let stack := pushed.2
    let clip := stack.clip
    if clip.nonempty then
      if ps.store.isPaintDirty i then
        let remaining := affected_area ps.store surface i clip
        let ps := splitLoop surface fuel root i clip stack fuel ps remaining
        let s2 := clearPaintDirty ps.store i
        { state := { ps with store := s2 }, stack := stack.pop s2 i,
          accept := AcceptState.Post, updated := true }
      else if !ps.store.isContainer i || !ps.store.isChildPaintDirty i then
        { state := ps, stack := stack.pop ps.store i, accept := AcceptState.Post,
          updated := updated }
      else if ps.store.isChildPaintDirtyDiverged i then
        let remaining := affected_area ps.store surface i clip
        let r := surface.split remaining
        if !r.2.nonempty then
          let ps := paint_into fuel ps root i clip r.1 stack
          let s2 := clearPaintDirty ps.store i
          { state := { ps with store := s2 }, stack := stack.pop s2 i,
            accept := AcceptState.Post, updated := true }
        else paint_partial_post ps stack i st updated
      else paint_partial_post ps stack i st updated
    else
      { state := ps, stack := stack.pop ps.store i, accept := AcceptState.Post,
        updated := updated }
  else paint_partial_post ps stack i st updated

/-- The loop `for (Accept& current : traverse(node))` of `paint_partial_impl`;
the Boolean is the variable `updated`. -/
def paint_partial_loop (inner : Nat) (surface : Surface) (root : Nat) (last : Accept) :
    Nat → PaintState → PositionRebuilder → Accept → Bool → PaintState × Bool
  | 0, ps, _, cur, updated =>
    if cur.same last then (ps, updated) else ({ ps with complete := false }, updated)
  | fuel + 1, ps, stack, cur, updated =>
    if cur.same last then (ps, updated)
    else
      match cur.node with
      | Option.none => ({ ps with complete := false }, updated)
      | some i =>
        let r := paint_partial_visit inner surface root ps stack i cur.state updated
        if r.state.complete then
          paint_partial_loop inner surface root last fuel r.state r.stack
            (increment r.state.store i r.accept) r.updated
        else (r.state, r.updated)

/-- The function `paint_partial_impl(node, surface)` (`paint_partial`), every
loop with an iteration budget of `fuel`. -/
def paint_partial_impl (fuel : Nat) (surface : Surface) (s : Store) (node : Nat) :
    PaintState :=
  let r := paint_partial_loop fuel surface node (traverseEnd s node) fuel { store := s } {}
    (traverseBegin s node) false
  if r.1.complete && r.2 then { r.1 with trace := r.1.trace ++ [Event.flush] } else r.1

/-! ## The raster split (`lib/cui/surface/raster/raster.cpp`), unrotated -/

/-- The function `round_byte_mask`. -/
def round_byte_mask (value : Int) : Int := wrapPoint (value + 7 - Int.tmod value 8)

/-- The function `basic_split` for an unrotated display: the returned window
and the area afterwards.  `narrow<Point>` is the conversion to `Point`.  The
division is that of the positive sizes the assertions of the function require
(`CUI_ASSERT(size.x > 0)`, `CUI_ASSERT(size.y > 0)`). -/
def basic_split (area : Rect) (capacity : Nat) : Rect × Rect :=
  let size := area.size
  let height := pmin size.y (wrapPoint (Int.tdiv (capacity : Int) size.x))
  let split := Rect.withStart area.low ⟨size.x, height⟩
  (split, { area with low := ⟨area.low.x, wrapPoint (area.low.y + height)⟩ })

/-- The function `round` for an unrotated display. -/
def roundArea (area : Rect) (resolution : Vec2) : Rect :=
  let lowx := wrapPoint (area.low.x - Int.tmod area.low.x 8)
  let highx := pmin (round_byte_mask area.high.x) (wrapPoint (resolution.x - 1))
  ⟨⟨lowx, area.low.y⟩, ⟨highx, area.high.y⟩⟩

/-- The function `detail::WxH::split` for an unrotated display. -/
def WxH.split (capacity : Nat) (area : Rect) : Rect × Rect := basic_split area capacity

/-- The function `detail::BitCompressed::split` for an unrotated display. -/
def BitCompressed.split (resolution : Vec2) (capacity : Nat) (area : Rect) : Rect × Rect :=
  basic_split (roundArea area resolution) (capacity * 8)

/-- An unrotated `RasterSurface<_, detail::WxH>` with a buffer of `capacity`
elements. -/
def Surface.wxh (resolution : Vec2) (capacity : Nat) : Surface :=
  { resolution := resolution, split := WxH.split capacity }

/-- An unrotated `RasterSurface<_, detail::BitCompressed>` (`BitRasterSurface`)
with a buffer of `capacity` bytes. -/
def Surface.bitCompressed (resolution : Vec2) (capacity : Nat) : Surface :=
  { resolution := resolution, split := BitCompressed.split resolution capacity }

/-- A surface with the `split` of the base class `Surface`. -/
def Surface.whole (resolution : Vec2) : Surface :=
  { resolution := resolution, split := Surface.wholeSplit }

/-! ## Layout (`algorithm.cpp`)

The virtual functions of `Widget` and `Container` that `layout` calls are a
parameter; they compute their result from the tree.  `onLayoutBegin` has no
result and, as in the base class, no effect on the tree.  Overriding functions
of derived classes that write to the tree are the subject of the section
"Layout with overriding functions that change the tree" (`Overrides`). -/

/-- The overridable functions `Widget::preferredSize`,
`Container::onLayoutConstrain(child)` and `Container::onLayoutEnd`. -/
structure Hooks where
  preferredSize : Store → Nat → Vec2
  onLayoutConstrain : Store → Nat → Nat → Vec2
  onLayoutEnd : Store → Nat → Vec2

/-- The range `Container::children()`: the addresses reached from `cur`
through `next_sibling_`, at most `fuel` of them. -/
def siblingList (s : Store) : Nat → Option Nat → List Nat
  | 0, _ => []
  | _ + 1, Option.none => []
  | fuel + 1, some c => c :: siblingList s fuel (s.node c).next_sibling

/-- The range `Container::children()`. -/
def children (s : Store) (c : Nat) : List Nat := siblingList s s.size (s.node c).first_child

/-- The method `Container::onLayoutEnd` of the base class. -/
def Container.onLayoutEnd (s : Store) (c : Nat) : Vec2 :=
  let size := (children s c).foldl (fun size child => vmax size ((s.node child).area.high.addP 1))
    Vec2.origin
  vmin size (s.node c).constraints

/-- The functions of the base classes `Widget` and `Container`. -/
def Hooks.base : Hooks :=
  { preferredSize := fun _ _ => Vec2.origin,
    onLayoutConstrain := fun s c _ => (s.node c).constraints,
    onLayoutEnd := Container.onLayoutEnd }

/-- The function `reset`. -/
def reset (s : Store) (i : Nat) : Store := repaint_all (reflow s i) i

/-- The function `layout_init`; the Boolean is the returned value. -/
def layout_init (hooks : Hooks) (surface : Surface) (s : Store) (node : Nat) : Store × Bool :=
  let s :=
    if surface.changed then (setConstraints (reset s node) node surface.resolution).1
    else if !s.isAttached node then (setConstraints s node surface.resolution).1
    else s
  if s.isWidget node then
    let s :=
      if !s.isAttached node then (setSize s node (s.node node).constraints).1
      else (setSize s node (hooks.preferredSize s node)).1
    (clearLayoutDirty s node, false)
  else (s, true)

/-- The function `layout_end(context, node, current)`; the Boolean is the
returned value. -/
def layout_end (hooks : Hooks) (s : Store) (node current : Nat) : Store × Bool :=
  if s.isContainer current then
    let size := hooks.onLayoutEnd s current
    if current ≠ node then setSize s current size
    else ((setSize s current (s.node current).constraints).1, false)
  else setSize s current (hooks.preferredSize s current)

/-- The result of one pass through the body of the loop `while (true)` of
`layout`: the loop is left with `break` (`again = false`) or re-entered with
`continue` (`again = true`), with the `Accept` designating `node` in `state`. -/
structure LayoutStep where
  store : Store
  node : Nat
  state : AcceptState
  again : Bool

/-- One pass through the body of the loop `while (true)` of `layout` for the
`Accept` that designates node `i` in state `st`; `Option.none` is the
dereference of a null parent. -/
def layout_pass (hooks : Hooks) (node : Nat) (s : Store) (i : Nat) (st : AcceptState) :
    Option LayoutStep :=
  -- if (current.isPre()) { if (*current != node && parent->isLayoutDirty()) setConstraints }
  let pre : Option Store :=
    if st != AcceptState.Post then
      if i ≠ node then
        match s.parent i with
        | some p =>
          if s.isLayoutDirty p then
            some (setConstraints s i (hooks.onLayoutConstrain s p i)).1
          else some s
        | Option.none => Option.none
      else some s
    else some s
  match pre with
  | Option.none => Option.none
  | some s =>
    if st != AcceptState.Post && !s.isLayoutDirty i && !s.isChildLayoutDirty i then
      -- current.skip(); break;
      some { store := s, node := i, state := AcceptState.Post, again := false }
    else if st != AcceptState.Pre then
      let dirty := s.isLayoutDirty i
      let s := clearLayoutDirty s i
      if dirty then
        let r := layout_end hooks s node i
        if r.2 then
          match r.1.parent i with
          | some p =>
            if !r.1.isLayoutDirty p then
              -- current.node = parent; current.state = Pre; reflow(*parent); continue;
              some { store := reflow r.1 p, node := p, state := AcceptState.Pre, again := true }
            else some { store := r.1, node := i, state := st, again := false }
          | Option.none => Option.none
        else some { store := r.1, node := i, state := st, again := false }
      else some { store := s, node := i, state := st, again := false }
    else some { store := s, node := i, state := st, again := false }

/-- The loop `while (true)` of `layout`, at most `fuel` passes. -/
def layout_while (hooks : Hooks) (node : Nat) : Nat → Store → Nat → AcceptState →
    Option LayoutStep
  | 0, _, _, _ => Option.none
  | fuel + 1, s, i, st =>
    match layout_pass hooks node s i st with
    | Option.none => Option.none
    | some r => if r.again then layout_while hooks node fuel r.store r.node r.state else some r

/-- The loop `for (Accept& current : traverse(node))` of `layout`;
`Option.none` when the iteration budget is used up or a null pointer is
dereferenced. -/
def layout_loop (hooks : Hooks) (node : Nat) (last : Accept) : Nat → Store → Accept →
    Option Store
  | 0, s, cur => if cur.same last then some s else Option.none
  | fuel + 1, s, cur =>
    if cur.same last then some s
    else
      match cur.node with
      | Option.none => Option.none
      | some i =>
        match layout_while hooks node (fuel + 1) s i cur.state with
        | Option.none => Option.none
        | some r => layout_loop hooks node last fuel r.store (increment r.store r.node r.state)

/-- The function `layout(node, surface)`, every loop with an iteration budget
of `fuel`. -/
def layout (hooks : Hooks) (fuel : Nat) (surface : Surface) (s : Store) (node : Nat) :
    Option Store :=
  let r := layout_init hooks surface s node
  if !r.2 then some r.1
  else if !r.1.isLayoutDirty node && !r.1.isChildLayoutDirty node then some r.1
  else layout_loop hooks node (traverseEnd r.1 node) fuel r.1 (traverseBegin r.1 node)

/-! ## The absolute position as the specification words it

Sums and translations below are over the integers, without conversion to
`Point`. -/

/-- Translation of a rectangle by an integer vector, without conversion. -/
def Rect.shift (r : Rect) (dx dy : Int) : Rect :=
  ⟨⟨r.low.x + dx, r.low.y + dy⟩, ⟨r.high.x + dx, r.high.y + dy⟩⟩

/-- Test: the four coordinates of the rectangle are representable as `Point`. -/
def inRect (r : Rect) : Bool :=
  inPoint r.low.x && inPoint r.low.y && inPoint r.high.x && inPoint r.high.y

/-- The sum of the `low.x` of the rectangles. -/
def sumLowX (l : List Rect) : Int := (l.map (fun a => a.low.x)).sum

/-- The sum of the `low.y` of the rectangles. -/
def sumLowY (l : List Rect) : Int := (l.map (fun a => a.low.y)).sum

/-- The areas of node `i` and of its proper ancestors, nearest first. -/
def chainAreas (s : Store) (i : Nat) : List Rect :=
  (i :: parents s i).map (fun j => (s.node j).area)

/-- "The sum of `area().low` over n and all its ancestors", for the areas of a
node and its ancestors. -/
def specTranslation (areas : List Rect) : Vec2 := ⟨sumLowX areas, sumLowY areas⟩

/-- Every area of the chain "translated by the sum of `area().low` of its own
proper ancestors" (the areas that follow it in the list). -/
def translatedAreas : List Rect → List Rect
  | [] => []
  | a :: rest => a.shift (sumLowX rest) (sumLowY rest) :: translatedAreas rest

/-- The intersection of a family of rectangles. -/
def intersectAll : List Rect → Rect
  | [] => Rect.all
  | [a] => a
  | a :: b :: rest => Rect.ofIntersect a (intersectAll (b :: rest))

/-- "The intersection of n's area and every ancestor's area, each translated by
the sum of `area().low` of its own proper ancestors". -/
def specClip (areas : List Rect) : Rect := intersectAll (translatedAreas areas)

/-- Test: rectangle `c`, translated successively by the `low` corners of the
areas in the list, stays representable at every step. -/
def fitsAlong : Rect → List Rect → Bool
  | _, [] => true
  | c, a :: rest =>
    inRect (c.shift a.low.x a.low.y) && fitsAlong (c.shift a.low.x a.low.y) rest

/-- Test: no coordinate sum along the chain overflows `Point`: every area of
the chain is representable and stays so when translated into the coordinate
system of each of its ancestors. -/
def chainFits : List Rect → Bool
  | [] => true
  | a :: rest => inRect a && fitsAlong a rest && chainFits rest

/-- Test: no coordinate sum overflows `Point` along the ancestor chain of any
node of the store. -/
def noOverflow (s : Store) : Bool :=
  (List.range s.size).all (fun i => chainFits (chainAreas s i))

/-- Test: the links of the nodes are those of a forest: every link designates
a node of the store, a first child and a next sibling have the expected
parent, a node without parent has no next sibling, and following `parent_`
from any node ends at a root. -/
def wfLinks (s : Store) : Bool :=
  (List.range s.size).all (fun i =>
    (match s.parent i with
      | some p => decide (p < s.size)
      | Option.none => (s.node i).next_sibling.isNone) &&
    (match (s.node i).first_child with
      | some c => decide (c < s.size) && s.parent c == some i
      | Option.none => true) &&
    (match (s.node i).next_sibling with
      | some m => decide (m < s.size) && s.parent m == s.parent i
      | Option.none => true) &&
    decide ((parents s i).length < s.size))

/-! ## Paths of the paint flag propagation -/

/-- The test `isPaintDirty() || has(PaintChildDirty)`. -/
def Store.paintFlagged (s : Store) (i : Nat) : Bool :=
  s.isPaintDirty i || (s.node i).flags.PaintChildDirty

/-- The nodes of a chain of ancestors (nearest first) up to and including the
first one that carries `PaintDirty` or `PaintChildDirty`; the whole chain when
there is none. -/
def pathUpTo (s : Store) : List Nat → List Nat
  | [] => []
  | a :: rest => if s.paintFlagged a then [a] else a :: pathUpTo s rest

/-- The ancestors of `n` from its parent up to and including the nearest one
that carries `PaintDirty` or `PaintChildDirty`. -/
def repaintPath (s : Store) (n : Nat) : List Nat := pathUpTo s (parents s n)

/-- The ancestors of `n` from its parent up to and including the nearest one
that carries `PaintDirty`, or that lies above the parent and carries
`PaintChildDirty`. -/
def setterPath (s : Store) (n : Nat) : List Nat :=
  match parents s n with
  | [] => []
  | p :: above => if s.isPaintDirty p then [p] else p :: pathUpTo s above

/-! ## The paint dirty invariant -/

/-- The test `has(PaintDirty | PaintChildDirty | PaintChildDirtyDiverged)`. -/
def Store.anyPaintFlag (s : Store) (i : Nat) : Bool :=
  s.isPaintDirty i || (s.node i).flags.PaintChildDirty ||
    (s.node i).flags.PaintChildDirtyDiverged

/-- Every proper ancestor of a node that carries `PaintDirty` carries at least
one of `PaintDirty`, `PaintChildDirty` or `PaintChildDirtyDiverged`. -/
def PaintDirtyCovered (s : Store) : Prop :=
  ∀ x a, a ∈ parents s x → s.isPaintDirty x = true → s.anyPaintFlag a = true

/-- Every proper ancestor of a node that carries `PaintDirty` or
`PaintChildDirty` carries at least one of `PaintDirty`, `PaintChildDirty` or
`PaintChildDirtyDiverged`. -/
def PaintInv (s : Store) : Prop :=
  ∀ x a, a ∈ parents s x → s.paintFlagged x = true → s.anyPaintFlag a = true

/-- The paint bits of a flag word. -/
def paintBits (f : Flags) : Bool × Bool × Bool × Bool :=
  (f.PaintDirty, f.PaintRepositioned, f.PaintChildDirty, f.PaintChildDirtyDiverged)

/-- The second store has the size, the parent links and the flags of the first. -/
def KeepsParentFlags (s t : Store) : Prop :=
  t.size = s.size ∧ ∀ j, (t.node j).parent = (s.node j).parent ∧
    (t.node j).flags = (s.node j).flags

/-! ## Stores of the same shape -/

/-- The second store has the size, the links and the kinds of the first: only
flags other than `WidgetKind`, areas, constraints and cached clips differ. -/
def SameShape (s t : Store) : Prop :=
  t.size = s.size ∧ ∀ j,
    (t.node j).parent = (s.node j).parent ∧
    (t.node j).next_sibling = (s.node j).next_sibling ∧
    (t.node j).prev_sibling = (s.node j).prev_sibling ∧
    (t.node j).first_child = (s.node j).first_child ∧
    (t.node j).last_child = (s.node j).last_child ∧
    (t.node j).flags.WidgetKind = (s.node j).flags.WidgetKind

/-- The update of a node keeps its links and its kind. -/
def KeepsShape (f : Node → Node) : Prop :=
  ∀ n, (f n).parent = n.parent ∧ (f n).next_sibling = n.next_sibling ∧
    (f n).prev_sibling = n.prev_sibling ∧ (f n).first_child = n.first_child ∧
    (f n).last_child = n.last_child ∧ (f n).flags.WidgetKind = n.flags.WidgetKind

/-- A property of stores kept by the primitive operations `layout` is made of. -/
structure LayoutStable (Q : Store → Prop) : Prop where
  wf : ∀ s, Q s → wfLinks s = true
  reflow : ∀ s i, Q s → i < s.size → Q (reflow s i)
  setConstraints : ∀ s i c, Q s → i < s.size → Q (setConstraints s i c).1
  setSize : ∀ s i v, Q s → i < s.size → Q (setSize s i v).1
  clearLayoutDirty : ∀ s i, Q s → i < s.size → Q (clearLayoutDirty s i)
  reset : ∀ s i, Q s → i < s.size → Q (reset s i)

/-! ## Auxiliary definitions of the proofs about position reconstruction -/

/-- The rebuilder that holds an absolute position. -/
def asRebuilder (a : AbsolutePosition) : PositionRebuilder :=
  { translation := a.translation, clip := a.clip }

/-- The rebuilder expected before node `i` is pushed: the position of its
parent, or a fresh rebuilder for a node without parent. -/
def stackBefore (s : Store) (i : Nat) : PositionRebuilder :=
  match s.parent i with
  | some p => asRebuilder (absolute s p)
  | Option.none => {}

/-- The loop invariant of the traversal with a rebuilder: before a pre visit
the rebuilder holds the position of the parent, at a post visit that of the
node, and the clip cached in every ancestor is its absolute clip. -/
def RebuildInv (s : Store) (stack : PositionRebuilder) (cur : Accept) : Prop :=
  match cur.node with
  | Option.none => True
  | some i =>
    i < s.size ∧ (∀ a ∈ parents s i, (s.node a).clip_space = (absolute s a).clip) ∧
      (if cur.state = AcceptState.Post then stack = asRebuilder (absolute s i)
       else stack = stackBefore s i ∧ cur.state = pre_or_leaf s i)

/-! ## Concrete stores -/

/-- Two default constructed containers `a` (address 0) and `b` (address 1). -/
def twoContainers : Store := { size := 2, node := fun _ => Node.freshContainer }

/-- `Container a; Container b(a);`: `b` is the only child of the root `a`. -/
def nestedContainers : Store := (push_back twoContainers 0 1).getD twoContainers

/-- Four default constructed containers. -/
def fourContainers : Store := { size := 4, node := fun _ => Node.freshContainer }

/-- The tree of the unit test "nodes absolute positions can be calculated":
`Container a; Container b(a); Container c1(b); Container c2(b);` at the
addresses 0, 1, 2, 3, before any `setArea`. -/
def positionTestLinks : Store :=
  ((push_back fourContainers 0 1).bind (fun s =>
    (push_back s 1 2).bind (fun s => push_back s 1 3))).getD fourContainers

/-- That tree after the calls of the section "areas without clipping". -/
def positionTestTree : Store :=
  let s := (setArea positionTestLinks 0 ⟨⟨0, 0⟩, ⟨100, 100⟩⟩).1
  let s := (setArea s 1 ⟨⟨10, 10⟩, ⟨90, 90⟩⟩).1
  let s := (setArea s 2 ⟨⟨20, 20⟩, ⟨70, 70⟩⟩).1
  (setArea s 3 ⟨⟨30, 30⟩, ⟨60, 60⟩⟩).1

/-- That tree after the calls of the section "areas with active clipping". -/
def clippingTestTree : Store :=
  let s := (setArea positionTestLinks 0 ⟨⟨0, 0⟩, ⟨100, 100⟩⟩).1
  let s := (setArea s 1 ⟨⟨-10, -10⟩, ⟨120, 120⟩⟩).1
  let s := (setArea s 2 ⟨⟨5, 5⟩, ⟨70, 70⟩⟩).1
  (setArea s 3 ⟨⟨20, 20⟩, ⟨200, 200⟩⟩).1

/-- A chain `a > b > c1` whose middle area, translated by the origin of the
root, leaves the range of `Point` (20000 + 20000). -/
def overflowTree : Store :=
  let s := (setArea positionTestLinks 0 ⟨⟨20000, 0⟩, ⟨30000, 10⟩⟩).1
  let s := (setArea s 1 ⟨⟨20000, 0⟩, ⟨30000, 10⟩⟩).1
  (setArea s 2 ⟨⟨-20000, 0⟩, ⟨-15000, 10⟩⟩).1

/-- Two containers (addresses 0, 1) and two widgets (addresses 2, 3), default
constructed. -/
def fourMixed : Store :=
  { size := 4, node := fun i => if i < 2 then Node.freshContainer else Node.freshWidget }

/-- The tree `R > P > {n, w}` (addresses 0, 1, 2, 3) with areas assigned, after
a first `paint_partial` on a 16 x 16 surface that paints the whole display: no
node carries a paint flag. -/
def paintedTree : Store :=
  let s := ((push_back fourMixed 0 1).bind (fun s =>
    (push_back s 1 2).bind (fun s => push_back s 1 3))).getD fourMixed
  let s := (setArea s 0 ⟨⟨0, 0⟩, ⟨15, 15⟩⟩).1
  let s := (setArea s 1 ⟨⟨0, 0⟩, ⟨15, 15⟩⟩).1
  let s := (setArea s 2 ⟨⟨0, 0⟩, ⟨3, 7⟩⟩).1
  let s := (setArea s 3 ⟨⟨4, 0⟩, ⟨7, 15⟩⟩).1
  (paint_partial_impl 20 (Surface.whole ⟨16, 16⟩) s 0).store

/-- That tree after `w.repaint()`: `w` is `PaintDirty`, `P` and `R` carry
`PaintChildDirty`. -/
def oneDirty : Store := Widget.repaint paintedTree 3

/-- A container (address 0) and a widget (address 1), default constructed. -/
def twoNodes : Store :=
  { size := 2, node := fun i => if i = 0 then Node.freshContainer else Node.freshWidget }

/-- `Container x; Widget d(x); d.repaint(); x.setArea({0, 0, 9, 9});`: the
widget `d` keeps the area `Rect::none()` that `insert` gave it. -/
def hiddenDirtyChild : Store :=
  let s := (push_back twoNodes 0 1).getD twoNodes
  let s := Widget.repaint s 1
  (setArea s 0 ⟨⟨0, 0⟩, ⟨9, 9⟩⟩).1

/-- `Container x; Widget d; x.setArea({0, 0, 9, 9}); paint_partial(x, surface);
d.setArea({0, 0, 3, 3}); x.push_back(d);` on a 10 x 10 surface that paints the
whole display at once. -/
def dirtyChildInserted : Option Store :=
  let s := (setArea twoNodes 0 ⟨⟨0, 0⟩, ⟨9, 9⟩⟩).1
  let s := (paint_partial_impl 10 (Surface.whole ⟨10, 10⟩) s 0).store
  let s := (setArea s 1 ⟨⟨0, 0⟩, ⟨3, 3⟩⟩).1
  push_back s 0 1

/-- The painted tree `R > P > {n, w}` after `n.repaint(); w.repaint();`: both
widgets are `PaintDirty`, `P` carries `PaintChildDirty` and
`PaintChildDirtyDiverged`, `R` carries `PaintChildDirty`. -/
def twoDirty : Store := Widget.repaint (Widget.repaint paintedTree 2) 3

/-! ## Auxiliary definitions of the proofs about partial painting -/

/-- The rebuilder after `push` of the nodes of a chain of ancestors (nearest
first) from the farthest to the nearest, starting from a fresh rebuilder. -/
def rebuiltChain (s : Store) : List Nat → PositionRebuilder
  | [] => {}
  | p :: ps => ((rebuiltChain s ps).push s p).2

/-- The rebuilder after `push` of the ancestors of node `i` from the root
downward and of `i`. -/
def rebuilt (s : Store) (i : Nat) : PositionRebuilder := rebuiltChain s (i :: parents s i)

/-- Test: the coordinates of the area of every node are representable as `Point`. -/
def areasTyped (s : Store) : Bool :=
  (List.range s.size).all (fun i => inRect (s.node i).area)

/-- Test: no node carries `PaintDirty`, `PaintRepositioned`, `PaintChildDirty`
or `PaintChildDirtyDiverged`. -/
def noPaintFlags (s : Store) : Bool :=
  (List.range s.size).all (fun i => paintBits (s.node i).flags == (false, false, false, false))

/-- The `split` of the surface returns a window inside the requested area and
leaves an area that is empty or inside the requested area. -/
def SplitsInside (surface : Surface) : Prop :=
  ∀ r : Rect, r.nonempty = true →
    r.contains (surface.split r).1 = true ∧
      ((surface.split r).2.nonempty = true → r.contains (surface.split r).2 = true)

/-- The call recorded by the event stays inside the rectangle `bound` and
paints no widget other than `w`. -/
def Event.within (bound : Rect) (w : Nat) : Event → Prop
  | Event.begin window => bound.contains window = true
  | Event.paint widget _ clip => widget = w ∧ bound.contains clip = true
  | Event.finish => True
  | Event.flush => True

/-- The second node has the links, the kind and the area of the first and
carries none of `PaintDirty`, `PaintRepositioned`, `PaintChildDirtyDiverged`
that the first does not carry. -/
def Node.shrinks (n m : Node) : Prop :=
  m.parent = n.parent ∧ m.next_sibling = n.next_sibling ∧ m.prev_sibling = n.prev_sibling ∧
  m.first_child = n.first_child ∧ m.last_child = n.last_child ∧
  m.flags.WidgetKind = n.flags.WidgetKind ∧ m.area = n.area ∧
  (m.flags.PaintDirty = true → n.flags.PaintDirty = true) ∧
  (m.flags.PaintRepositioned = true → n.flags.PaintRepositioned = true) ∧
  (m.flags.PaintChildDirtyDiverged = true → n.flags.PaintChildDirtyDiverged = true)

/-- The second store differs from the first at most in the node `i`, of which
the cached clip may differ and paint flags may have been cleared. -/
def PaintFrame (i : Nat) (s t : Store) : Prop :=
  t.size = s.size ∧ Node.shrinks (s.node i) (t.node i) ∧ ∀ j, j ≠ i → t.node j = s.node j

/-- The part of the loop invariant of `paint_partial_impl` about the rebuilder:
before a pre visit of a node it is the rebuilder pushed down to the parent, at
a post visit the one pushed down to the node, and the clip cached in every
ancestor is the clip of the rebuilder pushed down to it.  Links and areas are
read in `s0`, cached clips in `t`. -/
def StackInv (s0 t : Store) (stk : PositionRebuilder) (cur : Accept) : Prop :=
  match cur.node with
  | Option.none => True
  | some i =>
    i < s0.size ∧ (∀ a ∈ parents s0 i, (t.node a).clip_space = (rebuilt s0 a).clip) ∧
      (if cur.state = AcceptState.Post then stk = rebuilt s0 i
       else stk = rebuiltChain s0 (parents s0 i) ∧ cur.state = pre_or_leaf s0 i)

/-- The loop invariant of `paint_partial_impl` started on the store `s0` in
which `w` is the only node that carries `PaintDirty`. -/
def PartialInv (s0 : Store) (w : Nat) (ps : PaintState) (stk : PositionRebuilder)
    (cur : Accept) : Prop :=
  SameShape s0 ps.store ∧
  (∀ j, (ps.store.node j).area = (s0.node j).area) ∧
  (∀ j, j < s0.size → (ps.store.isPaintDirty j = true → j = w) ∧
      ps.store.isPaintRepositioned j = false ∧ ps.store.isChildPaintDirtyDiverged j = false) ∧
  (∀ e ∈ ps.trace, Event.within (absolute s0 w).clip w e) ∧
  StackInv s0 ps.store stk cur

/-! ## The layout dirty invariant -/

/-- The test `isLayoutDirty() || isChildLayoutDirty()`. -/
def Store.layoutFlagged (s : Store) (i : Nat) : Bool :=
  s.isLayoutDirty i || s.isChildLayoutDirty i

/-- Every proper ancestor of a node of the store that carries `LayoutDirty`
carries at least one of `LayoutDirty` or `LayoutChildDirty`. -/
def LayoutDirtyCovered (s : Store) : Prop :=
  ∀ x a, x < s.size → a ∈ parents s x → s.isLayoutDirty x = true → s.layoutFlagged a = true

/-- The parent of a node of the store is a node of the store, and it carries
`LayoutDirty` or `LayoutChildDirty` when the node does. -/
def LayoutInv (s : Store) : Prop :=
  ∀ x p, x < s.size → s.parent x = some p →
    p < s.size ∧ (s.layoutFlagged x = true → s.layoutFlagged p = true)

/-- The property `LayoutInv` in which the parent links that lead to the node
`i`, or to the node `y`, need not propagate the flags. -/
def LayoutInvExcept (s : Store) (i : Nat) (y : Option Nat) : Prop :=
  ∀ x p, x < s.size → s.parent x = some p →
    p < s.size ∧ (s.layoutFlagged x = true → s.layoutFlagged p = true ∨ p = i ∨ y = some p)

/-- The layout bits of a flag word. -/
def layoutBits (f : Flags) : Bool × Bool := (f.LayoutDirty, f.LayoutChildDirty)

/-- Test: the store is a forest.  Its links are well formed, the parent of
every node is a container that has the node on its list of children, and every
list of children ends, has no repetition and holds nodes of the store whose
parent is the container. -/
def wfTree (s : Store) : Bool :=
  wfLinks s &&
  (List.range s.size).all (fun x =>
    match s.parent x with
    | some p => s.isContainer p && (children s p).contains x
    | Option.none => true) &&
  (List.range s.size).all (fun p =>
    decide ((children s p).Nodup) && decide ((children s p).length < s.size) &&
    (children s p).all (fun x => decide (x < s.size) && s.parent x == some p))

/-- The second store has the shape and the layout bits of the first. -/
def SameLayout (s t : Store) : Prop :=
  SameShape s t ∧ ∀ j, layoutBits (t.node j).flags = layoutBits (s.node j).flags

/-- The nodes on the way from `node` down to a node of its subtree, with the
list of the siblings that precede a node of the way on a list of children. -/
inductive PathTo (s : Store) (node : Nat) : Nat → List Nat → Prop where
  | root : PathTo s node node []
  | child (y p : Nat) (pre post done : List Nat) :
      s.parent y = some p → children s p = pre ++ y :: post → PathTo s node p done →
      PathTo s node y (pre ++ done)

/-- The loop invariant of `layout(node, surface)` at the head of the loop
`while (true)`, for the `Accept` that designates node `i` in state `st`: the
store `t` has the shape of `s0` and the property `LayoutInv`, the siblings that
precede a node of the way from `node` to `i` carry no layout flag, and at a
post visit no child of `i` carries one. -/
structure LayoutVisit (s0 : Store) (node : Nat) (t : Store) (i : Nat) (st : AcceptState) :
    Prop where
  shape : SameShape s0 t
  inv : LayoutInv t
  lt : i < s0.size
  path : ∃ done, PathTo s0 node i done ∧ ∀ x ∈ done, t.layoutFlagged x = false
  post : st = AcceptState.Post →
    ∀ x, x < s0.size → s0.parent x = some i → t.layoutFlagged x = false
  pre : st ≠ AcceptState.Post → st = pre_or_leaf s0 i

/-- The state after the loop `while (true)` of `layout` is left, before the
iterator is incremented. -/
structure LayoutDone (s0 : Store) (node : Nat) (t : Store) (i : Nat) (st : AcceptState) :
    Prop where
  shape : SameShape s0 t
  inv : LayoutInv t
  lt : i < s0.size
  path : ∃ done, PathTo s0 node i done ∧ ∀ x ∈ done, t.layoutFlagged x = false
  descend : st = AcceptState.Pre → pre_or_leaf s0 i = AcceptState.Pre
  clean : st ≠ AcceptState.Pre → t.layoutFlagged i = false
  leaf : st = AcceptState.Leaf → pre_or_leaf s0 i = AcceptState.Leaf

/-- The tree states reached from freshly constructed containers and widgets
through `insert`, `push_back`, `push_front`, `erase`, `detach`,
`setConstraints`, `reflow` and `layout`.  The container of an insertion is a
node of the store and the inserted child is not one of its ancestors; an
operation that calls `reflow` is applied to a node whose chain of ancestors
ends; `layout` is applied to a node of a forest. -/
inductive LayoutReach (hooks : Hooks) : Store → Prop where
  | fresh (s : Store) :
      (∀ i, s.node i = Node.freshContainer ∨ s.node i = Node.freshWidget) →
      LayoutReach hooks s
  | insert (s t : Store) (c : Nat) (pos : Option Nat) (child : Nat) :
      LayoutReach hooks s → c < s.size → (parents s c).length < s.size →
      child ∉ parents s c → Cui.insert s c pos child = some t → LayoutReach hooks t
  | push_back (s t : Store) (c child : Nat) :
      LayoutReach hooks s → c < s.size → (parents s c).length < s.size →
      child ∉ parents s c → Cui.push_back s c child = some t → LayoutReach hooks t
  | push_front (s t : Store) (c child : Nat) :
      LayoutReach hooks s → c < s.size → (parents s c).length < s.size →
      child ∉ parents s c → Cui.push_front s c child = some t → LayoutReach hooks t
  | erase (s t : Store) (c child : Nat) (r : Option Nat) :
      LayoutReach hooks s → (parents s c).length < s.size →
      Cui.erase s c child = some (t, r) → LayoutReach hooks t
  | detach (s t : Store) (i : Nat) :
      LayoutReach hooks s → (∀ p, s.parent i = some p → (parents s p).length < s.size) →
      Cui.detach s i = some t → LayoutReach hooks t
  | setConstraints (s : Store) (n : Nat) (c : Vec2) :
      LayoutReach hooks s → (parents s n).length < s.size →
      LayoutReach hooks (Cui.setConstraints s n c).1
  | reflow (s : Store) (n : Nat) :
      LayoutReach hooks s → (parents s n).length < s.size → LayoutReach hooks (Cui.reflow s n)
  | layout (s t : Store) (fuel : Nat) (surface : Surface) (node : Nat) :
      LayoutReach hooks s → wfTree s = true → node < s.size →
      Cui.layout hooks fuel surface s node = some t → LayoutReach hooks t

/-- `Container x; Widget d(x);`. -/
def attachedTwo : Store := (push_back twoNodes 0 1).getD twoNodes

/-- That tree after `layout(x, surface)` on a 10 x 10 surface. -/
def laidOutTwo : Store :=
  (layout Hooks.base 10 (Surface.whole ⟨10, 10⟩) attachedTwo 0).getD attachedTwo

/-- That tree after `d.setConstraints({5, 5})`. -/
def constrainedTwo : Store := (setConstraints laidOutTwo 1 ⟨5, 5⟩).1

/-! ## Auxiliary definitions of the claims about the setters and `insert` -/

/-- The second store has the areas and the constraints of the first. -/
def SameData (s t : Store) : Prop :=
  ∀ j, (t.node j).area = (s.node j).area ∧ (t.node j).constraints = (s.node j).constraints

/-- The paint flags after a geometry change of node `n` that led from `s` to
`t`: the parent of an attached node carries `PaintDirty` and
`PaintRepositioned` and the flags of the node are unchanged; a node without
parent carries `PaintRepositioned`, and `PaintDirty` unless it carried
`PaintRepositioned` without `PaintDirty` before. -/
def GeometryFlagged (s t : Store) (n : Nat) : Prop :=
  match s.parent n with
  | some p =>
    t.isPaintDirty p = true ∧ t.isPaintRepositioned p = true ∧
      (t.node n).flags = (s.node n).flags
  | Option.none =>
    t.isPaintRepositioned n = true ∧
      (s.isPaintRepositioned n = false ∨ s.isPaintDirty n = true → t.isPaintDirty n = true)

/-- One default constructed widget. -/
def oneWidget : Store := { size := 1, node := fun _ => Node.freshWidget }

/-- `Widget w; w.setPosition({32767, 0});`. -/
def edgeWidget : Store := (setPosition oneWidget 0 ⟨32767, 0⟩).1

/-- The method `Container::insert(pos, child)` with its result: the store and
the address the returned iterator `iterator{&child}` designates. -/
def Container.insert (s : Store) (c : Nat) (pos : Option Nat) (child : Nat) :
    Option (Store × Nat) :=
  (Cui.insert s c pos child).map (fun t => (t, child))

/-- Test: the nodes of the list are linked to one another in this order through
`prev_sibling_` and `next_sibling_`, the first one having `prev` before it and
the last one nothing behind it. -/
def linkedFrom (s : Store) : Option Nat → List Nat → Bool
  | _, [] => true
  | prev, x :: rest =>
    (s.node x).prev_sibling == prev && (s.node x).next_sibling == rest.head? &&
      linkedFrom s (some x) rest

/-- Test: `L` is the list of children of the container `c`: `first_child_` and
`last_child_` designate its ends, its nodes are linked in this order and have
`c` as parent, and it has no repetition and does not hold `c`. -/
def childList (s : Store) (c : Nat) (L : List Nat) : Bool :=
  (s.node c).first_child == L.head? && (s.node c).last_child == L.getLast? &&
    linkedFrom s Option.none L && decide L.Nodup && decide (c ∉ L) &&
    L.all (fun x => s.parent x == some c)

/-- `Container a; Container b(a); Container c(a); Container d;` at the
addresses 0, 1, 2, 3: `a` has the children `b`, `c`, and `d` is unattached. -/
def twoChildren : Store :=
  ((push_back fourContainers 0 1).bind (fun s => push_back s 0 2)).getD fourContainers

/-- The first node of the list, or `E` when the list is empty. -/
def headOr (L : List Nat) (E : Option Nat) : Option Nat :=
  match L with
  | [] => E
  | y :: _ => some y

/-- The nodes of the list are linked to one another in this order through
`next_sibling_`, the last one to `E`. -/
def nextLinked (s : Store) : List Nat → Option Nat → Prop
  | [], _ => True
  | x :: rest, E => (s.node x).next_sibling = headOr rest E ∧ nextLinked s rest E

/-- Widgets whose `preferredSize` is 4 x 8 in containers with the functions of
the base class. -/
def fixedSizeHooks : Hooks :=
  { preferredSize := fun _ _ => ⟨4, 8⟩,
    onLayoutConstrain := Hooks.base.onLayoutConstrain,
    onLayoutEnd := Hooks.base.onLayoutEnd }

/-- A container (address 0) and two widgets (addresses 1, 2), default
constructed. -/
def threeNodes : Store :=
  { size := 3, node := fun i => if i = 0 then Node.freshContainer else Node.freshWidget }

/-- `Container x; Widget u(x); Widget v(x); v.setPosition({4, 0}); layout(x,
surface); paint_partial(x, surface);` on a 16 x 16 surface that paints the
whole display at once, with widgets of preferred size 4 x 8. -/
def twoWidgetsPainted : Option Store :=
  (((push_back threeNodes 0 1).bind (fun s => push_back s 0 2)).bind (fun s =>
    layout fixedSizeHooks 20 (Surface.whole ⟨16, 16⟩) (setPosition s 2 ⟨4, 0⟩).1 0)).map
      (fun s => (paint_partial_impl 20 (Surface.whole ⟨16, 16⟩) s 0).store)

/-- That tree after `x.erase(u); layout(x, surface);`. -/
def childErased : Option Store :=
  (twoWidgetsPainted.bind (fun s => erase s 0 1)).bind (fun r =>
    layout fixedSizeHooks 20 (Surface.whole ⟨16, 16⟩) r.1 0)

/-! ## Auxiliary definitions of the claim about two passes in succession -/

/-- A node without what painting writes: the cached clip and the flags
`PaintDirty`, `PaintRepositioned`, `PaintChildDirty`,
`PaintChildDirtyDiverged`. -/
def Node.unpainted (n : Node) : Node :=
  { n with
    clip_space := Rect.none
    flags :=
      { n.flags with
        PaintDirty := false
        PaintRepositioned := false
        PaintChildDirty := false
        PaintChildDirtyDiverged := false } }

/-- The second store differs from the first at most in cached clips and paint
flags. -/
def SamePaint (s t : Store) : Prop :=
  t.size = s.size ∧ ∀ j, (t.node j).unpainted = (s.node j).unpainted

/-- The clip of the rebuilder after `push` of the node on a fresh rebuilder. -/
def rootClip (s : Store) (root : Nat) : Rect :=
  ((({} : PositionRebuilder).push s root).2).clip

/-- The node is one `paint_partial_impl` started on it leaves at once: its clip
is empty, or it does not carry `PaintDirty` and is a widget or a container
that carries neither `PaintChildDirty` nor `PaintChildDirtyDiverged`. -/
def PaintIdle (s : Store) (root : Nat) : Prop :=
  (rootClip s root).nonempty = true →
    s.isPaintDirty root = false ∧ (!s.isContainer root || !s.isChildPaintDirty root) = true

/-- The loop invariant of `paint_partial_impl(root, surface)` about the place of
the traversal: the `Accept` designates the node `i` of the subtree of `root`
in state `st`, and the rebuilder is fresh at the first visit of `root`. -/
structure PaintWalk (s0 : Store) (root : Nat) (stk : PositionRebuilder) (i : Nat)
    (st : AcceptState) : Prop where
  lt : i < s0.size
  sub : (i = root ∧ (st ≠ AcceptState.Post → stk = {})) ∨ root ∈ parents s0 i
  pre : st ≠ AcceptState.Post → st = pre_or_leaf s0 i

/-- The loop invariant of `layout(node, surface)` about the place of the
traversal: the store `t` has the shape of `s0` and the `Accept` designates the
node `i` of the subtree of `node` in state `st`. -/
structure LayoutWalk (s0 : Store) (node : Nat) (t : Store) (i : Nat) (st : AcceptState) :
    Prop where
  shape : SameShape s0 t
  lt : i < s0.size
  sub : i = node ∨ node ∈ parents s0 i
  pre : st ≠ AcceptState.Post → st = pre_or_leaf s0 i

/-- The place of the traversal after the loop `while (true)` of `layout` is
left: when the visit of `node` itself is over, `node` carries no layout flag. -/
structure LayoutLeft (s0 : Store) (node : Nat) (t : Store) (i : Nat) (st : AcceptState) :
    Prop where
  shape : SameShape s0 t
  lt : i < s0.size
  sub : i = node ∨ node ∈ parents s0 i
  descend : st = AcceptState.Pre → pre_or_leaf s0 i = AcceptState.Pre
  leaf : st = AcceptState.Leaf → pre_or_leaf s0 i = AcceptState.Leaf
  clean : st ≠ AcceptState.Pre → i = node → t.layoutFlagged node = false

/-- `Container x; Widget u(x); Widget v(x); v.setPosition({4, 0});`. -/
def layoutTestTree : Store :=
  (setPosition (((push_back threeNodes 0 1).bind (fun s => push_back s 0 2)).getD threeNodes)
    2 ⟨4, 0⟩).1

/-- Construct components one after another, each given by its offset from the
owner and its type. -/
def attachSeq (o : Owner) : List (Int × Nat) → Option Owner
  | [] => some o
  | p :: rest => (Component.construct o p.1 p.2).bind (fun o => attachSeq o rest)

/-- The range `each<T>(node)` of `algorithm.hpp`: the siblings of the component
`find` returns, the empty range when it returns null. -/
def each (o : Owner) (type : Nat) : List Int :=
  match find o type with
  | some c => siblings o c
  | Option.none => []

/-- The components at the offsets of the list are linked to one another in
this order through `next_sibling_offset_`, the last one to the null link. -/
def offLinked (o : Owner) : List Int → Prop
  | [] => True
  | x :: rest => (o.comp x).next_sibling_offset = rest.headD 0 ∧ offLinked o rest

/-! ## The ranges of `traverse.hpp` as lists -/

/-- The loop `for (Accept& current : traverse(node))` whose body calls
`current.skip()` at the pre visit (state `Pre`) of the nodes selected by `sk`:
the list of the `Accept` values the iterator yields.  The iterator is compared
with the end iterator through `Accept::operator==`; `Option.none` when the
iteration budget is used up or `increment` is called on a null node. -/
def traverseLoop (s : Store) (sk : Nat → Bool) (last : Accept) : Nat → Accept →
    Option (List Accept)
  | 0, cur => if cur.same last then some [] else Option.none
  | fuel + 1, cur =>
    if cur.same last then some []
    else
      match cur.node with
      | Option.none => Option.none
      | some i =>
        let st := if cur.state == AcceptState.Pre && sk i then (Accept.skip cur).state
          else cur.state
        (traverseLoop s sk last fuel (increment s i st)).map (fun l => cur :: l)

/-- The values yielded by the range `traverse(node)`, with `skip()` called at
the pre visits selected by `sk`. -/
def traverse (s : Store) (sk : Nat → Bool) (fuel : Nat) (n : Nat) : Option (List Accept) :=
  traverseLoop s sk (traverseEnd s n) fuel (traverseBegin s n)

/-- The sequence of the specification, to depth `d`: `[Leaf m]` for a widget
or a container without children, otherwise `[Pre m]`, the sequences of the
children in list order, `[Post m]`; for a container skipped at its pre visit
`[Pre m]` alone. -/
def specSeq (s : Store) (sk : Nat → Bool) : Nat → Nat → List Accept
  | 0, _ => []
  | d + 1, m =>
    if s.isWidget m || (children s m).isEmpty then [{ node := some m, state := AcceptState.Leaf }]
    else if sk m then [{ node := some m, state := AcceptState.Pre }]
    else
      [{ node := some m, state := AcceptState.Pre }] ++
        (children s m).flatMap (specSeq s sk d) ++
        [{ node := some m, state := AcceptState.Post }]

/-- From the iterator `cur` the loop yields the values of `L` one after another
and arrives at the iterator `next`, whatever follows. -/
def Runs (s : Store) (sk : Nat → Bool) (last : Accept) (cur : Accept) (L : List Accept)
    (next : Accept) : Prop :=
  ∀ F, traverseLoop s sk last (F + L.length) cur =
    (traverseLoop s sk last F next).map (fun l => L ++ l)

/-- The function `next_sibling_or_parent<false>`: the next sibling of the node
or of its nearest ancestor that has one, the null `Accept` when there is none.
The loop `do ... while (current)` climbs one parent per round; the fuel bounds
its rounds. -/
def next_sibling_or_parent_false (s : Store) : Nat → Nat → Option Accept
  | 0, _ => Option.none
  | fuel + 1, i =>
    match (s.node i).next_sibling with
    | some n => some { node := some n, state := pre_or_leaf s n }
    | Option.none =>
      match s.parent i with
      | some p => next_sibling_or_parent_false s fuel p
      | Option.none => some {}

/-- The function `advance_accept`, the increment of `PreTraverseIterator`. -/
def advance_accept (s : Store) (fuel : Nat) (current : Accept) : Option Accept :=
  match current.node with
  | Option.none => Option.none
  | some i =>
    if current.isPre then
      match next_child s i with
      | some child => some { node := some child, state := AcceptState.Leaf }
      | Option.none => next_sibling_or_parent_false s fuel i
    else next_sibling_or_parent_false s fuel i

/-- The loop `for (Accept& current : traverse(node, preorder))`: the list of
the values the iterator yields until it compares equal to `last`. -/
def preTraverseLoop (s : Store) (cf : Nat) (last : Accept) : Nat → Accept →
    Option (List Accept)
  | 0, cur => if cur.same last then some [] else Option.none
  | fuel + 1, cur =>
    if cur.same last then some []
    else (advance_accept s cf cur).bind (fun nx =>
      (preTraverseLoop s cf last fuel nx).map (fun l => cur :: l))

/-- The values yielded by the range `traverse(node, preorder)`. -/
def traversePreorder (s : Store) (fuel : Nat) (n : Nat) : Option (List Accept) :=
  (next_sibling_or_parent_false s fuel n).bind (fun last =>
    preTraverseLoop s fuel last fuel { node := some n, state := pre_or_leaf s n })

/-- The method `VisitIterator::increment` on an iterator at node `i`. -/
def VisitIterator.increment (s : Store) (fuel : Nat) (i : Nat) : Option (Option Nat) :=
  match next_child s i with
  | some child => some (some child)
  | Option.none => (next_sibling_or_parent_false s fuel i).map (fun a => a.node)

/-- The loop `for (Node& node : visit(n))`: the nodes the iterator yields until
it equals `last`. -/
def visitLoop (s : Store) (cf : Nat) (last : Option Nat) : Nat → Option Nat →
    Option (List Nat)
  | 0, cur => if cur = last then some [] else Option.none
  | fuel + 1, cur =>
    if cur = last then some []
    else
      match cur with
      | Option.none => Option.none
      | some i => (VisitIterator.increment s cf i).bind (fun nx =>
          (visitLoop s cf last fuel nx).map (fun l => i :: l))

/-- The nodes yielded by the range `visit(node)`. -/
def visit (s : Store) (fuel : Nat) (n : Nat) : Option (List Nat) :=
  (next_sibling_or_parent_false s fuel n).bind (fun last =>
    visitLoop s fuel last.node fuel (some n))

/-- The depth-first pre-order of the subtree of `m`, to depth `d`: the node,
then the pre-orders of its children in list order. -/
def preorder (s : Store) : Nat → Nat → List Nat
  | 0, _ => []
  | d + 1, m => m :: (if s.isContainer m then (children s m).flatMap (preorder s d) else [])

/-- From the iterator `cur` the loop of `visit` yields the nodes of `L` one
after another and arrives at the iterator `next`. -/
def VRuns (s : Store) (cf : Nat) (last : Option Nat) (cur : Option Nat) (L : List Nat)
    (next : Option Nat) : Prop :=
  ∀ F, visitLoop s cf last (F + L.length) cur =
    (visitLoop s cf last F next).map (fun l => L ++ l)

/-- An `Accept` is null exactly when its state is `Post`: the shape of the
iterators of the pre-order range. -/
def Accept.preShaped (a : Accept) : Prop := a.node = Option.none ↔ a.state = AcceptState.Post

/-- The loop `for (Accept& current : traverse(node))` of `layout` goes in `K`
rounds from the iterator `cur` with the tree `t` to the iterator `next` with
the tree `u`, whatever the iteration budget that remains. -/
def LSteps (hooks : Hooks) (node : Nat) (last : Accept) (t : Store) (cur : Accept) (K : Nat)
    (u : Store) (next : Accept) : Prop :=
  ∀ F, 1 ≤ F →
    layout_loop hooks node last (F + K) t cur = layout_loop hooks node last F u next

/-- What the loop of `layout(node)` does from the first visit of `m`, in `K`
rounds that lead from the tree `t` to the tree `u`.  No node outside the
subtree of `m` loses `LayoutDirty`.  Either the iterator arrives behind the
subtree of `m`, or the parent of `m`, which did not carry `LayoutDirty`,
carries it and the iterator is at the first child of that parent again. -/
def LayoutOutcome (hooks : Hooks) (s0 : Store) (node : Nat) (Inv Fin : Store → Prop)
    (m : Nat) (t : Store) (K : Nat) (u : Store) : Prop :=
  SameShape s0 u ∧
  (∀ x, x < s0.size → ¬ (x = m ∨ m ∈ parents s0 x) → t.isLayoutDirty x = true →
    u.isLayoutDirty x = true) ∧
  ((LSteps hooks node (traverseEnd s0 node) t { node := some m, state := pre_or_leaf s0 m } K u
      (next_sibling_or_parent s0 m) ∧ (m = node → Fin u) ∧ (m ≠ node → Inv u)) ∨
   (∃ p, s0.parent m = some p ∧ m ≠ node ∧ t.isLayoutDirty p = false ∧
      u.isLayoutDirty p = true ∧ Inv u ∧
      LSteps hooks node (traverseEnd s0 node) t { node := some m, state := pre_or_leaf s0 m } K u
        (increment s0 p AcceptState.Pre)))

/-- A property `Inv` of the tree that every pass of the loop `while (true)` of
`layout(node)` keeps until the visit of `node` itself is over, when `Fin`
holds. -/
structure PassInv (hooks : Hooks) (s0 : Store) (node : Nat) (Inv Fin : Store → Prop) :
    Prop where
  keep : ∀ (t : Store) (i : Nat) (st : AcceptState) (r : LayoutStep), SameShape s0 t →
    i < s0.size → (i = node ∨ node ∈ parents s0 i) →
    (st ≠ AcceptState.Post → st = pre_or_leaf s0 i) → Inv t →
    layout_pass hooks node t i st = some r → (i ≠ node ∨ r.state = AcceptState.Pre) →
    Inv r.store
  fin : ∀ (t : Store) (st : AcceptState) (r : LayoutStep), SameShape s0 t →
    (st ≠ AcceptState.Post → st = pre_or_leaf s0 node) → Inv t →
    layout_pass hooks node t node st = some r → r.state ≠ AcceptState.Pre → Fin r.store

/-- The loop `while (true)` of `layout` with a count of the `continue`
statements it executes, the forced re-evaluations of a parent. -/
def layout_while_count (hooks : Hooks) (node : Nat) : Nat → Store → Nat → AcceptState →
    Option (LayoutStep × Nat)
  | 0, _, _, _ => Option.none
  | fuel + 1, s, i, st =>
    match layout_pass hooks node s i st with
    | Option.none => Option.none
    | some r =>
      if r.again then
        (layout_while_count hooks node fuel r.store r.node r.state).map (fun q => (q.1, q.2 + 1))
      else some (r, 0)

/-- The loop `for (Accept& current : traverse(node))` of `layout` with the
count of the re-evaluations. -/
def layout_loop_count (hooks : Hooks) (node : Nat) (last : Accept) : Nat → Store → Accept →
    Option (Store × Nat)
  | 0, s, cur => if cur.same last then some (s, 0) else Option.none
  | fuel + 1, s, cur =>
    if cur.same last then some (s, 0)
    else
      match cur.node with
      | Option.none => Option.none
      | some i =>
        match layout_while_count hooks node (fuel + 1) s i cur.state with
        | Option.none => Option.none
        | some q =>
          (layout_loop_count hooks node last fuel q.1.store
            (increment q.1.store q.1.node q.1.state)).map (fun x => (x.1, x.2 + q.2))

/-- The function `layout(node, surface)` with the count of the re-evaluations
it performs. -/
def layout_count (hooks : Hooks) (fuel : Nat) (surface : Surface) (s : Store) (node : Nat) :
    Option (Store × Nat) :=
  let r := layout_init hooks surface s node
  if !r.2 then some (r.1, 0)
  else if !r.1.isLayoutDirty node && !r.1.isChildLayoutDirty node then some (r.1, 0)
  else layout_loop_count hooks node (traverseEnd r.1 node) fuel r.1 (traverseBegin r.1 node)

/-- The depth of a forest: the largest number of ancestors of a node. -/
def treeDepth (s : Store) : Nat :=
  ((List.range s.size).map (fun i => (parents s i).length)).foldl max 0

/-- Nine default constructed nodes: containers at the addresses 0, 1, 3, 5, 7,
widgets at 2, 4, 6, 8. -/
def nineNodes : Store :=
  { size := 9,
    node := fun i => if i = 0 ∨ i % 2 = 1 then Node.freshContainer else Node.freshWidget }

/-- A sequence of calls `container.push_back(child)`. -/
def pushAll (s : Store) : List (Nat × Nat) → Option Store
  | [] => some s
  | (c, x) :: rest => (push_back s c x).bind (fun s => pushAll s rest)

/-- The tree `R > {A1 > w1, A2 > w2, A3 > w3, A4 > w4}` (R at 0, the containers
`A` at 1, 3, 5, 7, the widgets at 2, 4, 6, 8) after `layout(R, surface)` on a
16 x 16 surface. -/
def combTree : Store :=
  ((pushAll nineNodes [(0, 1), (1, 2), (0, 3), (3, 4), (0, 5), (5, 6), (0, 7), (7, 8)]).bind
    (fun s => layout Hooks.base 40 (Surface.whole ⟨16, 16⟩) s 0)).getD nineNodes

/-- `w.setArea({0, 0, 2, 2}); w.setConstraints({8, 8});`. -/
def touch (s : Store) (w : Nat) : Store :=
  (setConstraints (setArea s w ⟨⟨0, 0⟩, ⟨2, 2⟩⟩).1 w ⟨8, 8⟩).1

/-- The tree `combTree` after the four widgets were given an area and
constraints. -/
def combDirty : Store := touch (touch (touch (touch combTree 2) 4) 6) 8

/-- One default constructed container. -/
def oneContainer : Store := { size := 1, node := fun _ => Node.freshContainer }

/-- `Container c; c.setPosition({32767, 0});`. -/
def edgeContainer : Store := (setPosition oneContainer 0 ⟨32767, 0⟩).1

/-- Widgets whose `preferredSize` returns `pref w` for the widget `w`, in
containers with the functions of the base class `Container`. -/
def prefHooks (pref : Nat → Vec2) : Hooks :=
  { preferredSize := fun _ w => pref w,
    onLayoutConstrain := Hooks.base.onLayoutConstrain,
    onLayoutEnd := Hooks.base.onLayoutEnd }

/-- The area that `setSize(v)` leaves on a node of area `a`. -/
def Rect.sized (a : Rect) (v : Vec2) : Rect := if a.size ≠ v then a.resize v else a

/-- The node `x` lies in the subtree of one of the nodes of `L`. -/
def Under (s0 : Store) (L : List Nat) (x : Nat) : Prop :=
  ∃ c, c ∈ L ∧ (x = c ∨ c ∈ parents s0 x)

/-- The state of a node `x` other than the root of the layout when its visit
is over, in a tree whose nodes all carried `LayoutDirty`: its constraints are
those of its parent, and its area is the area `a` it had, given the preferred
size (widget) or the result of `Container::onLayoutEnd` (container) by
`setSize`. -/
def FinalAt (pref : Nat → Vec2) (s0 : Store) (a : Rect) (u : Store) (x : Nat) : Prop :=
  (∃ p, s0.parent x = some p ∧ (u.node x).constraints = (u.node p).constraints) ∧
  (u.node x).area = a.sized (if s0.isWidget x then pref x else Container.onLayoutEnd u x)

/-- What the loop of `layout(node)` does from the first visit of `m` in a tree
`t` in which the nodes of the subtree of `m` and the parent of `m` carry
`LayoutDirty`: in `K` rounds it arrives behind the subtree of `m` with the tree
`u`; outside the subtree no area and no constraints change, inside every node
is in its final state. -/
def AllDirtyOutcome (pref : Nat → Vec2) (s0 : Store) (node m : Nat) (t : Store) (K : Nat)
    (u : Store) : Prop :=
  SameShape s0 u ∧
  LSteps (prefHooks pref) node (traverseEnd s0 node) t
    { node := some m, state := pre_or_leaf s0 m } K u (next_sibling_or_parent s0 m) ∧
  (∀ x, x < s0.size → ¬ (x = m ∨ m ∈ parents s0 x) →
    (u.node x).area = (t.node x).area ∧ (u.node x).constraints = (t.node x).constraints ∧
    (t.isLayoutDirty x = true → u.isLayoutDirty x = true)) ∧
  (m = node → (u.node m).constraints = (t.node m).constraints) ∧
  (∀ x, x < s0.size → x ≠ node → (x = m ∨ m ∈ parents s0 x) →
    FinalAt pref s0 (t.node x).area u x)

/-- The size `v` has positive components and an area of that size with the top
left corner `low` does not leave the range of `Point`. -/
def sizeFits (low v : Vec2) : Prop :=
  0 < v.x ∧ 0 < v.y ∧ inPoint v.x = true ∧ inPoint v.y = true ∧
  inPoint low.x = true ∧ inPoint low.y = true ∧ low.x + v.x ≤ 32768 ∧ low.y + v.y ≤ 32768

/-- Two containers (addresses 0, 1) and a widget (address 2), default
constructed. -/
def threeDeep : Store :=
  { size := 3, node := fun i => if i < 2 then Node.freshContainer else Node.freshWidget }

/-- `Container r; Container c(r); Widget w(c);`: the tree `r > c > w`. -/
def threeDeepTree : Store :=
  ((push_back threeDeep 0 1).bind (fun s => push_back s 1 2)).getD threeDeep

/-! ## The raster split with rotation and the buffer capacity (`raster.hpp`, `raster.cpp`) -/

/-- The enumeration `Rotation`. -/
inductive Rotation where
  | Rotate_0
  | Rotate_90
  | Rotate_180
  | Rotate_270
deriving DecidableEq, Repr

/-- The value of a `Rotation` as `std::uint8_t`. -/
def Rotation.value : Rotation → Nat
  | Rotation.Rotate_0 => 0
  | Rotation.Rotate_90 => 1
  | Rotation.Rotate_180 => 2
  | Rotation.Rotate_270 => 3

/-- The function `isRotated`. -/
def isRotated (rotation : Rotation) : Bool := rotation.value % 2 != 0

/-- The conversion of a `Point` to `std::size_t`, taken with 64 bits. -/
def toSize (v : Int) : Nat := (v % 2 ^ 64).toNat

/-- The function `basic_split(rotation, area, capacity)`: the returned window
and the area afterwards.  The division is that of the positive sizes the
assertions of the function require. -/
def basic_split_at (rotation : Rotation) (area : Rect) (capacity : Nat) : Rect × Rect :=
  if isRotated rotation then
    let size := area.size
    let width := pmin size.x (wrapPoint (Int.tdiv (capacity : Int) size.y))
    let split := Rect.withStart area.low ⟨width, size.y⟩
    (split, { area with low := ⟨wrapPoint (area.low.x + width), area.low.y⟩ })
  else basic_split area capacity

/-- The function `round(rotation, area, resolution)`. -/
def roundArea_at (rotation : Rotation) (area : Rect) (resolution : Vec2) : Rect :=
  if isRotated rotation then
    let resolution := resolution.transpose
    let lowy := wrapPoint (area.low.y - Int.tmod area.low.y 8)
    let highy := pmin (round_byte_mask area.high.y) (wrapPoint (resolution.y - 1))
    ⟨⟨area.low.x, lowy⟩, ⟨area.high.x, highy⟩⟩
  else roundArea area resolution

/-- The two characteristics of a `RasterSurface`. -/
inductive Characteristics where
  | WxH
  | BitCompressed
deriving DecidableEq, Repr

/-- The function `detail::WxH::capacity`. -/
def WxH.capacity (size : Vec2) : Nat := (toSize size.x * toSize size.y) % 2 ^ 64

/-- The function `detail::BitCompressed::capacity`. -/
def BitCompressed.capacity (size : Vec2) : Nat :=
  ((toSize size.x + 7) % 2 ^ 64 / 8 * toSize size.y) % 2 ^ 64

/-- The function `Characteristics::capacity`. -/
def Characteristics.capacity : Characteristics → Vec2 → Nat
  | Characteristics.WxH, size => WxH.capacity size
  | Characteristics.BitCompressed, size => BitCompressed.capacity size

/-- The function `Characteristics::split(rotation, area, resolution, capacity)`. -/
def Characteristics.split (c : Characteristics) (rotation : Rotation) (area : Rect)
    (resolution : Vec2) (capacity : Nat) : Rect × Rect :=
  match c with
  | Characteristics.WxH => basic_split_at rotation area capacity
  | Characteristics.BitCompressed =>
    basic_split_at rotation (roundArea_at rotation area resolution) (capacity * 8)

/-- The data members of a `RasterSurface` that `capacity`, `resolution` and
`split` read; `buffer` is `buffer_.size()`. -/
structure RasterSurface where
  characteristics : Characteristics
  resolution_ : Vec2
  rotation_ : Rotation := Rotation.Rotate_0
  buffer : Nat

/-- The function `RasterSurface::capacity(size, rotation)`. -/
def RasterSurface.capacity (c : Characteristics) (size : Vec2) (rotation : Rotation) : Nat :=
  if isRotated rotation then c.capacity size.transpose else c.capacity size

/-- The method `RasterSurface::resolution`. -/
def RasterSurface.resolution (r : RasterSurface) : Vec2 :=
  if isRotated r.rotation_ then r.resolution_.transpose else r.resolution_

/-- The method `RasterSurface::split`: the returned window and the area
afterwards. -/
def RasterSurface.split (r : RasterSurface) (area : Rect) : Rect × Rect :=
  r.characteristics.split r.rotation_ area r.resolution_ r.buffer

/-- The value `used` that `RasterSurface::begin(window)` compares with
`buffer_.size()`. -/
def RasterSurface.used (r : RasterSurface) (window : Rect) : Nat :=
  RasterSurface.capacity r.characteristics window.size r.rotation_

/-! ## Auxiliary definitions of the proofs about a traversal with a rebuilder -/

/-- The elements of a chain of ancestors up to and including `r`. -/
def upTo (r : Nat) : List Nat → List Nat
  | [] => []
  | p :: ps => if p = r then [p] else p :: upTo r ps

/-- The proper ancestors of `n` that belong to the subtree of `r`, nearest
first. -/
def insideChain (s : Store) (r n : Nat) : List Nat :=
  if n = r then [] else upTo r (parents s n)

/-- The rebuilder `start` after `push` of the nodes of a chain of ancestors
(nearest first) from the farthest to the nearest. -/
def rebuiltFrom (s : Store) (start : PositionRebuilder) : List Nat → PositionRebuilder
  | [] => start
  | p :: ps => ((rebuiltFrom s start ps).push s p).2

/-- The rebuilder before `push` of node `n` in a traversal of the subtree of
`r` that starts with the rebuilder `start`. -/
def beforePush (s : Store) (start : PositionRebuilder) (r n : Nat) : PositionRebuilder :=
  rebuiltFrom s start (insideChain s r n)

/-- The rebuilder after `push` of node `n` in that traversal. -/
def afterPush (s : Store) (start : PositionRebuilder) (r n : Nat) : PositionRebuilder :=
  ((beforePush s start r n).push s n).2

/-- The loop invariant of a traversal of the subtree of `r` that pushes at pre
visits and pops at post visits: before a pre visit of a node the rebuilder is
the one pushed down to its parent, at a post visit the one pushed down to the
node, and the clip cached in every ancestor inside the subtree is the clip of
the rebuilder pushed down to it.  Links and areas are read in `s0`, cached
clips in `t`. -/
def WalkInv (s0 : Store) (r : Nat) (start : PositionRebuilder) (t : Store)
    (stk : PositionRebuilder) (cur : Accept) : Prop :=
  match cur.node with
  | Option.none => True
  | some i =>
    i < s0.size ∧ (i = r ∨ r ∈ parents s0 i) ∧
      (∀ a ∈ insideChain s0 r i, (t.node a).clip_space = (afterPush s0 start r a).clip) ∧
      (if cur.state = AcceptState.Post then stk = afterPush s0 start r i
       else stk = beforePush s0 start r i ∧ cur.state = pre_or_leaf s0 i)

/-- The nodes at whose pre visit `paint_impl` calls `skip()`: the window does
not meet the clip of the rebuilder pushed down to the node. -/
def paintSkips (s : Store) (start : PositionRebuilder) (r : Nat) (window : Rect) (i : Nat) :
    Bool :=
  !(Rect.ofIntersect window (afterPush s start r i).clip).nonempty

/-- The call of the paint hook that `paint_impl` makes at a value of the
iterator: at the pre visit of a widget whose clip meets the window. -/
def paintEvent (s : Store) (start : PositionRebuilder) (r : Nat) (window : Rect)
    (a : Accept) : Option Event :=
  match a.node with
  | some i =>
    if a.state != AcceptState.Post && s.isWidget i &&
        (Rect.ofIntersect window (afterPush s start r i).clip).nonempty then
      some (Event.paint i (afterPush s start r i).translation
        (Rect.ofIntersect window (afterPush s start r i).clip))
    else Option.none
  | Option.none => Option.none

/-- The number of pixels of a rectangle. -/
def Rect.pixels (r : Rect) : Nat :=
  if r.empty then 0 else ((r.high.x - r.low.x + 1) * (r.high.y - r.low.y + 1)).toNat

/-- The `split` of the surface, given an area that is not empty, returns a
window that is not empty and leaves a remainder with fewer pixels. -/
def SplitProgress (surface : Surface) : Prop :=
  ∀ area : Rect, area.nonempty = true →
    (surface.split area).1.nonempty = true ∧ (surface.split area).2.pixels < area.pixels

/-- The windows that at most `n` successive calls of `split` return, the first
on `remaining`, until the area is empty. -/
def splitWindows (surface : Surface) : Nat → Rect → List Rect
  | 0, _ => []
  | n + 1, remaining =>
    if remaining.nonempty then
      (surface.split remaining).1 :: splitWindows surface n (surface.split remaining).2
    else []

/-- The window of a call `surface.begin(window)`. -/
def Event.beginWindow : Event → Option Rect
  | Event.begin w => some w
  | _ => Option.none

/-- The windows of the calls `surface.begin(window)` of a trace, in order. -/
def beginWindows (trace : List Event) : List Rect := trace.filterMap Event.beginWindow

/-- The tree `R > P > w` (containers at 0 and 1, widget at 2) with the areas
(5,5)-(50,50), (10,10)-(30,30) and (1,1)-(3,3). -/
def offsetTree : Store :=
  let s := (setArea threeDeepTree 0 ⟨⟨5, 5⟩, ⟨50, 50⟩⟩).1
  let s := (setArea s 1 ⟨⟨10, 10⟩, ⟨30, 30⟩⟩).1
  (setArea s 2 ⟨⟨1, 1⟩, ⟨3, 3⟩⟩).1

/-- The tree `R > P > w` with the areas (20000,0)-(30000,10),
(20000,0)-(30000,10) and (-20000,0)-(-15000,10): the area of `P`, translated
by the origin of `R`, leaves the range of `Point`. -/
def overflowWidgetTree : Store :=
  let s := (setArea threeDeepTree 0 ⟨⟨20000, 0⟩, ⟨30000, 10⟩⟩).1
  let s := (setArea s 1 ⟨⟨20000, 0⟩, ⟨30000, 10⟩⟩).1
  (setArea s 2 ⟨⟨-20000, 0⟩, ⟨-15000, 10⟩⟩).1

/-- One body of a loop over `traverse(root)` that calls `stack.push` at pre
visits and `stack.pop` at post visits: the node, its state, and the rebuilder
when the body starts and when it ends. -/
structure Passage where
  node : Nat
  state : AcceptState
  before : PositionRebuilder
  after : PositionRebuilder

/-- The loop `for (Accept& current : traverse(root))` with `if
(current.isPre()) stack.push(*current);` and `if (current.isPost())
stack.pop(*current);`, as in the unit test of the positions and in
`paint_impl`: the bodies of at most `fuel` iterations, from the iterator
position `cur`. -/
def pushPopLoop (last : Accept) : Nat → Store → PositionRebuilder → Accept → List Passage
  | 0, _, _, _ => []
  | fuel + 1, s, stack, cur =>
    if cur.same last then []
    else
      match cur.node with
      | Option.none => []
      | some i =>
        let pushed := if cur.isPre then stack.push s i else (s, stack)
        let popped := if cur.isPost then pushed.2.pop pushed.1 i else pushed.2
        { node := i, state := cur.state, before := stack, after := popped } ::
          pushPopLoop last fuel pushed.1 popped (increment pushed.1 i cur.state)

/-- The bodies of the whole loop over `traverse(root)` with a fresh
`PositionRebuilder`. -/
def pushPopTrace (s : Store) (root : Nat) (fuel : Nat) : List Passage :=
  pushPopLoop (traverseEnd s root) fuel s {} (traverseBegin s root)

/-! ## The function `collides` (`algorithm.cpp`)

The virtual function `Widget::collides(area)` is a parameter.  The assertion
at the head of the function is not part of the embedding.  The result is
`Option.none` when the function dereferences a null pointer or the iteration
budget is used up. -/

/-- The body of both loops of `collides`: the test whether the node, of area
`area` and clipped by `clip`, collides with `sibling`. -/
def collidesWith (hook : Nat → Rect → Bool) (s : Store) (node : Nat) (clip area : Rect)
    (sibling : Nat) : Bool :=
  (clip.overlaps (s.node sibling).area && area.overlaps (s.node sibling).area) &&
    (!s.isWidget node || !s.isWidget sibling ||
      (hook node (s.node sibling).area && hook sibling area))

/-- The loop `for (Node const& sibling : siblings)` over the range
`node.siblings()`, which starts at the node itself: whether it executes
`return true`. -/
def collidesRight (hook : Nat → Rect → Bool) (s : Store) (node : Nat) (clip area : Rect) :
    Bool :=
  (siblingList s s.size (some node)).any (collidesWith hook s node clip area)

/-- The loop over `Range(std::make_reverse_iterator(siblings.begin()),
std::make_reverse_iterator(siblings.end()))`, from the reverse iterator with
the base `base`: the loop runs while the base is not null, and each body
dereferences the previous sibling of the base. -/
def collidesLeft (hook : Nat → Rect → Bool) (s : Store) (node : Nat) (clip area : Rect) :
    Nat → Option Nat → Option Bool
  | 0, _ => Option.none
  | _ + 1, Option.none => some false
  | fuel + 1, some b =>
    match (s.node b).prev_sibling with
    | Option.none => Option.none
    | some x =>
      if collidesWith hook s node clip area x then some true
      else collidesLeft hook s node clip area fuel (some x)

/-- The function `collides(node)`. -/
def collides (hook : Nat → Rect → Bool) (s : Store) (node : Nat) : Option Bool :=
  match s.parent node with
  | Option.none => some false
  | some p =>
    let clip := Rect.withSize (s.node p).area.size
    let area := (s.node node).area
    if !clip.overlaps area then some false
    else if collidesRight hook s node clip area then some true
    else collidesLeft hook s node clip area (s.size + 1) (some node)

/-- `Container a; Container b(a);` with the areas (0,0)-(9,9) and (0,0)-(3,3):
`b` is the only child of `a`. -/
def onlyChildTree : Store :=
  let s := (setArea nestedContainers 0 ⟨⟨0, 0⟩, ⟨9, 9⟩⟩).1
  (setArea s 1 ⟨⟨0, 0⟩, ⟨3, 3⟩⟩).1

/-- `Container x; Widget d(x);` with the areas (0,0)-(9,9) and (0,0)-(3,3). -/
def onlyWidgetTree : Store :=
  let s := (push_back twoNodes 0 1).getD twoNodes
  let s := (setArea s 0 ⟨⟨0, 0⟩, ⟨9, 9⟩⟩).1
  (setArea s 1 ⟨⟨0, 0⟩, ⟨3, 3⟩⟩).1

/-! ## The child lists of a store and the operations on them (`node.cpp`) -/

/-- The loop of `detail::safe_for_each(begin(), end(), callback)` with the
callback `child.detach()` of `Container::clear`, from the iterator `cur`: the
iterator is incremented before the callback runs.  `Option.none` is a failed
assertion or a used up iteration budget. -/
def clearLoop : Nat → Store → Option Nat → Option Store
  | _, s, Option.none => some s
  | 0, _, some _ => Option.none
  | fuel + 1, s, some x =>
    (detach s x).bind (fun t => clearLoop fuel t (s.node x).next_sibling)

/-- The method `Container::clear` with its assertion `CUI_ASSERT(empty())`. -/
def Container.clear (s : Store) (c : Nat) : Option Store :=
  (clearLoop s.size s (s.node c).first_child).bind (fun t =>
    if (t.node c).first_child.isNone then some t else Option.none)

/-- Test: the intrusive child lists of the store are well formed.  For every
node `c`, the nodes reached from `first_child_` through `next_sibling_` form
the list of children of `c` in the sense of `childList`, they are nodes of the
store, and every node whose parent is `c` is among them; the parent of a node
is a node of the store, and a node without parent has no sibling links. -/
def wfLists (s : Store) : Bool :=
  (List.range s.size).all (fun c =>
    childList s c (children s c) &&
    (children s c).all (fun x => decide (x < s.size)) &&
    (List.range s.size).all (fun x => !(s.parent x == some c) || (children s c).contains x)) &&
  (List.range s.size).all (fun x =>
    match s.parent x with
    | some p => decide (p < s.size)
    | Option.none => (s.node x).next_sibling.isNone && (s.node x).prev_sibling.isNone)

/-- A call of one of the functions that change the child lists. -/
inductive ListOp where
  | insert (c : Nat) (pos : Option Nat) (child : Nat)
  | push_back (c child : Nat)
  | push_front (c child : Nat)
  | erase (c child : Nat)
  | detach (i : Nat)
  | clear (c : Nat)

/-- Test: the arguments of the call designate nodes of the store, and the
iterator `pos` of `insert` is `end()` or designates a child of the container. -/
def ListOp.valid (s : Store) : ListOp → Bool
  | ListOp.insert c pos child =>
    decide (c < s.size) && decide (child < s.size) &&
      (match pos with
        | some p => decide (p < s.size) && s.parent p == some c
        | Option.none => true)
  | ListOp.push_back c child => decide (c < s.size) && decide (child < s.size)
  | ListOp.push_front c child => decide (c < s.size) && decide (child < s.size)
  | ListOp.erase c child => decide (c < s.size) && decide (child < s.size)
  | ListOp.detach i => decide (i < s.size)
  | ListOp.clear c => decide (c < s.size)

/-- The store after the call; `Option.none` is a failed assertion. -/
def ListOp.apply (s : Store) : ListOp → Option Store
  | ListOp.insert c pos child => Cui.insert s c pos child
  | ListOp.push_back c child => Cui.push_back s c child
  | ListOp.push_front c child => Cui.push_front s c child
  | ListOp.erase c child => (Cui.erase s c child).map Prod.fst
  | ListOp.detach i => Cui.detach s i
  | ListOp.clear c => Container.clear s c

/-- The store after a sequence of calls with valid arguments. -/
def applyOps (s : Store) : List ListOp → Option Store
  | [] => some s
  | op :: rest => if op.valid s then (op.apply s).bind (fun t => applyOps t rest) else Option.none

/-- The nodes of the list are linked to one another in this order through
`prev_sibling_` and `next_sibling_`, the first one having `p` before it and the
last one `e` behind it. -/
def Linked (s : Store) : Option Nat → List Nat → Option Nat → Prop
  | _, [], _ => True
  | p, x :: rest, e =>
    (s.node x).prev_sibling = p ∧ (s.node x).next_sibling = headOr rest e ∧
      Linked s (some x) rest e

/-- The last node of the list, or `p` when the list is empty. -/
def lastOr : List Nat → Option Nat → Option Nat
  | [], p => p
  | x :: rest, _ => lastOr rest (some x)

/-- The child lists of the store are well formed: every node `c` has a list of
children `L` in the sense of `childList` that holds exactly the nodes whose
parent is `c`; the parent of a node is a node of the store, and a node without
parent has no sibling links. -/
def ListsWF (s : Store) : Prop :=
  (∀ c, c < s.size → ∃ L, childList s c L = true ∧ (∀ x ∈ L, x < s.size) ∧
    (∀ x, x < s.size → s.parent x = some c → x ∈ L)) ∧
  (∀ x, x < s.size → s.parent x = Option.none →
    (s.node x).next_sibling = Option.none ∧ (s.node x).prev_sibling = Option.none) ∧
  (∀ x p, x < s.size → s.parent x = some p → p < s.size)

/-- A sequence of calls on `twoChildren`: `a.push_front(d); a.erase(b);
a.insert(c, b); c.detach(); d.push_back(c); a.clear();`. -/
def sampleOps : List ListOp :=
  [ListOp.push_front 0 3, ListOp.erase 0 1, ListOp.insert 0 (some 2) 1, ListOp.detach 2,
    ListOp.push_back 3 2, ListOp.clear 0]

/-! ## Layout after `reflow` against layout of a tree marked dirty as a whole -/

/-- Every node of the store marked `LayoutDirty`. -/
def markAll (s : Store) : Store :=
  { size := s.size,
    node := fun i => { s.node i with flags := { (s.node i).flags with LayoutDirty := true } } }

/-- Test: the second store has the areas and the constraints of the first. -/
def sameGeometry (s u : Store) : Bool :=
  (List.range s.size).all (fun x =>
    decide ((u.node x).area = (s.node x).area) &&
      decide ((u.node x).constraints = (s.node x).constraints))

/-- Test: the tree is at a layout fixpoint for widgets of the preferred sizes
`pref`: `layout(root, surface)` of the tree with every node marked
`LayoutDirty` returns within the iteration budget `fuel` and changes no area
and no constraints. -/
def isLayoutFixpoint (pref : Nat → Vec2) (surface : Surface) (s : Store) (root fuel : Nat) :
    Bool :=
  match layout (prefHooks pref) fuel surface (markAll s) root with
  | some u => sameGeometry s u
  | Option.none => false

/-- The size `layout` asks for the node `x` of the tree `t` when the visit of
`x` ends: the constraints for the root of the layout, the preferred size for
a widget, the result of `Container::onLayoutEnd` for a container. -/
def layoutTarget (pref : Nat → Vec2) (s0 : Store) (node : Nat) (R : Vec2) (t : Store)
    (x : Nat) : Vec2 :=
  if x = node then R else if s0.isWidget x then pref x else Container.onLayoutEnd t x

/-- Every node of the subtree of `node` has the constraints `R` and the area
`a0` of the beginning given the size `layoutTarget` by `setSize`. -/
def Settled (pref : Nat → Vec2) (s0 : Store) (node : Nat) (R : Vec2) (a0 : Nat → Rect)
    (z : Store) : Prop :=
  ∀ x, x < s0.size → (x = node ∨ node ∈ parents s0 x) →
    (z.node x).constraints = R ∧
    (z.node x).area = (a0 x).sized (layoutTarget pref s0 node R z x)

/-- The invariant of `layout(node)` on a tree at a fixpoint in which `reflow`
has been called: every node of the subtree has the constraints `R`; a node
that carries `LayoutDirty` has the area `a0` of the beginning; a node that does
not carry it has the area `a0` given its size `layoutTarget`, and it either
still has the area `a0` or carries no layout flag. -/
def ReflowInv (pref : Nat → Vec2) (s0 : Store) (node : Nat) (R : Vec2) (a0 : Nat → Rect)
    (t : Store) : Prop :=
  ∀ x, x < s0.size → (x = node ∨ node ∈ parents s0 x) →
    (t.node x).constraints = R ∧
    (t.isLayoutDirty x = true → (t.node x).area = a0 x) ∧
    (t.isLayoutDirty x = false →
      (t.node x).area = (a0 x).sized (layoutTarget pref s0 node R t x) ∧
      ((t.node x).area = a0 x ∨ t.layoutFlagged x = false))


/-- The tree `r > c > w` of `threeDeepTree` after `layout(r, surface)` on a
16 x 16 surface, with a widget of preferred size 4 x 8. -/
def settledTree : Store :=
  (layout (prefHooks (fun _ => ⟨4, 8⟩)) 20 (Surface.whole ⟨16, 16⟩) threeDeepTree 0).getD
    threeDeepTree

/-- The tree `R > P > w` of `offsetTree` painted once on a 64 x 64 surface that
paints the whole display at once, then `R.repaint()`: the root `R`, whose area
is (5,5)-(50,50), is `PaintDirty` and not `PaintRepositioned`, no other node
carries a paint flag. -/
def rootRepainted : Store :=
  Container.repaint (paint_partial_impl 20 (Surface.whole ⟨64, 64⟩) offsetTree 0).store 0

/-- Test: the container `x` carries `LayoutChildDirty` and not `LayoutDirty`. -/
def Store.awaitsChild (s : Store) (x : Nat) : Bool :=
  s.isContainer x && s.isChildLayoutDirty x && !s.isLayoutDirty x

/-- Test: `x` is `node` or one of the nodes below it. -/
def inSubtree (s : Store) (node x : Nat) : Bool :=
  decide (x = node) || (parents s x).contains node

/-- The number of the containers of the subtree of `node`, a subtree of the
tree `s0`, that carry `LayoutChildDirty` and not `LayoutDirty` in `t`. -/
def pendingIn (s0 : Store) (node : Nat) (t : Store) : Nat :=
  (List.range s0.size).countP (fun x => inSubtree s0 node x && t.awaitsChild x)

/-- The number of the containers of the subtree of `node` that carry
`LayoutChildDirty` and not `LayoutDirty`. -/
def pendingContainers (s : Store) (node : Nat) : Nat := pendingIn s node s

/-- An invariant of the loop of `layout(node, surface)` at the head of the loop
`while (true)`, for the `Accept` that designates node `i` in state `st`: the
node lies in the subtree of `node`, a container, and every node on the way from
`node` down to the parent of `i` carries `LayoutDirty` or `LayoutChildDirty`. -/
structure RepeatInv (s0 : Store) (node : Nat) (t : Store) (i : Nat) (st : AcceptState) :
    Prop where
  shape : SameShape s0 t
  lt : i < s0.size
  inside : i = node ∨ node ∈ parents s0 i
  chain : ∀ a ∈ insideChain s0 node i, t.layoutFlagged a = true
  pre : st ≠ AcceptState.Post → st = pre_or_leaf s0 i

/-- The components at the offsets of the list are linked to one another in
this order through `next_stranger_offset_`, the last one to the null link. -/
def strangerLinked (o : Owner) : List Int → Prop
  | [] => True
  | x :: rest => (o.comp x).next_stranger_offset = rest.headD 0 ∧ strangerLinked o rest

/-- The offsets of the components of type `t` among the constructed ones, in
the order of their construction. -/
def ofType (l : List (Int × Nat)) (t : Nat) : List Int :=
  (l.filter (fun p => p.2 == t)).map (fun p => p.1)

/-- The first element of a list followed by the others from the last to the
second. -/
def headThenLatest : List Int → List Int
  | [] => []
  | a :: rest => a :: rest.reverse

/-- Test: the type of each constructed component is the type of a component
constructed before, or less than the types of all of them, or greater than the
types of all of them (`seen` holds the types constructed before). -/
def keepsOrder (seen : List Nat) : List (Int × Nat) → Bool
  | [] => true
  | p :: rest =>
    (seen.contains p.2 || seen.all (fun u => decide (p.2 < u)) ||
      seen.all (fun u => decide (u < p.2))) && keepsOrder (p.2 :: seen) rest

/-- The assignment `component.next_sibling_offset_ =
std::exchange(itr->next_sibling_offset_, offset)` for the component at `x` and
the iterator at `h`. -/
def linkSibling (o : Owner) (x h : Int) : Owner :=
  let o := o.setComp x { o.comp x with next_sibling_offset := (o.comp h).next_sibling_offset }
  o.setComp h { o.comp h with next_sibling_offset := x }

/-- The assignment `node.components_filter_ |= bloomFilterHash(type)`. -/
def withFilter (o : Owner) (type : Nat) : Owner :=
  { o with components_filter := o.components_filter ||| bloomFilterHash type }

/-- The state of an owner after the construction of the components of `D`:
`C` is the list `components()`, sorted by type, which holds the first
constructed component of every type, and the components of one type are linked
through `next_sibling_offset_` from the first constructed one to the latest and
on to the second. -/
structure ChainInv (o : Owner) (D : List (Int × Nat)) (C : List Int) : Prop where
  first : o.first_component_offset = C.headD 0
  linked : strangerLinked o C
  sorted : (C.map (fun x => (o.comp x).type)).Pairwise (fun a b => a < b)
  sub : ∀ x ∈ C, ∃ p ∈ D, p.1 = x
  types : ∀ p ∈ D, (o.comp p.1).type = p.2
  dnz : ∀ p ∈ D, p.1 ≠ 0
  heads : ∀ t a rest, ofType D t = a :: rest → a ∈ C
  sib : ∀ t, offLinked o (headThenLatest (ofType D t))

/-! ## Layout with overriding functions that change the tree (`algorithm.cpp`)

`Hooks` above holds overriding functions that compute a value from the tree
and leave it as it is, which is what the functions of the base classes
`Widget` and `Container` do.  An override of a derived class may in addition
write to the tree (`CenterContainer::onLayoutEnd` calls `setPosition` on the
children) and to data members of its own (`AlignContainer::available_`).
This section repeats the definitions of `layout` with such functions: the state
`σ` of the additional data members and the tree are passed to every function
and returned by it. -/

/-- The overridable functions `Widget::preferredSize` (a `const` member
function), `Container::onLayoutBegin`, `Container::onLayoutConstrain(child)`
and `Container::onLayoutEnd`, with their effects on the data members of the
derived classes (`σ`) and on the tree. -/
structure Overrides (σ : Type) where
  preferredSize : σ → Store → Nat → Vec2
  onLayoutBegin : σ → Store → Nat → σ × Store
  onLayoutConstrain : σ → Store → Nat → Nat → (σ × Store) × Vec2
  onLayoutEnd : σ → Store → Nat → (σ × Store) × Vec2

namespace Overrides

/-- The function `layout_init`; the Boolean is the returned value. -/
def layout_init {σ : Type} (ov : Overrides σ) (surface : Surface) (w : σ) (s : Store)
    (node : Nat) : Store × Bool :=
  let s :=
    if surface.changed then (setConstraints (reset s node) node surface.resolution).1
    else if !s.isAttached node then (setConstraints s node surface.resolution).1
    else s
  if s.isWidget node then
    let s :=
      if !s.isAttached node then (setSize s node (s.node node).constraints).1
      else (setSize s node (ov.preferredSize w s node)).1
    (clearLayoutDirty s node, false)
  else (s, true)

/-- The function `layout_end(context, node, current)`; the Boolean is the
returned value. -/
def layout_end {σ : Type} (ov : Overrides σ) (w : σ) (s : Store) (node current : Nat) :
    (σ × Store) × Bool :=
  if s.isContainer current then
    let r := ov.onLayoutEnd w s current
    if current ≠ node then ((r.1.1, (setSize r.1.2 current r.2).1), (setSize r.1.2 current r.2).2)
    else ((r.1.1, (setSize r.1.2 current (r.1.2.node current).constraints).1), false)
  else
    ((w, (setSize s current (ov.preferredSize w s current)).1),
      (setSize s current (ov.preferredSize w s current)).2)

/-- One pass through the body of the loop `while (true)` of `layout` for the
`Accept` that designates node `i` in state `st`; `Option.none` is the
dereference of a null parent. -/
def layout_pass {σ : Type} (ov : Overrides σ) (node : Nat) (w : σ) (s : Store) (i : Nat)
    (st : AcceptState) : Option (σ × LayoutStep) :=
  -- if (current.isPre()) { if (*current != node && parent->isLayoutDirty()) setConstraints }
  let pre : Option (σ × Store) :=
    if st != AcceptState.Post then
      if i ≠ node then
        match s.parent i with
        | some p =>
          if s.isLayoutDirty p then
            let r := ov.onLayoutConstrain w s p i
            some (r.1.1, (setConstraints r.1.2 i r.2).1)
          else some (w, s)
        | Option.none => Option.none
      else some (w, s)
    else some (w, s)
  match pre with
  | Option.none => Option.none
  | some q =>
    if st != AcceptState.Post && !q.2.isLayoutDirty i && !q.2.isChildLayoutDirty i then
      -- current.skip(); break;
      some (q.1, { store := q.2, node := i, state := AcceptState.Post, again := false })
    else
      -- if (current->isLayoutDirty()) if (container) onLayoutBegin(*container, context)
      let b : σ × Store :=
        if st != AcceptState.Post && q.2.isLayoutDirty i && q.2.isContainer i then
          ov.onLayoutBegin q.1 q.2 i
        else q
      if st != AcceptState.Pre then
        let dirty := b.2.isLayoutDirty i
        let s := clearLayoutDirty b.2 i
        if dirty then
          let r := ov.layout_end b.1 s node i
          if r.2 then
            match r.1.2.parent i with
            | some p =>
              if !r.1.2.isLayoutDirty p then
                -- current.node = parent; current.state = Pre; reflow(*parent); continue;
                some (r.1.1,
                  { store := reflow r.1.2 p, node := p, state := AcceptState.Pre, again := true })
              else some (r.1.1, { store := r.1.2, node := i, state := st, again := false })
            | Option.none => Option.none
          else some (r.1.1, { store := r.1.2, node := i, state := st, again := false })
        else some (b.1, { store := s, node := i, state := st, again := false })
      else some (b.1, { store := b.2, node := i, state := st, again := false })

/-- The loop `while (true)` of `layout`, at most `fuel` passes. -/
def layout_while {σ : Type} (ov : Overrides σ) (node : Nat) :
    Nat → σ → Store → Nat → AcceptState → Option (σ × LayoutStep)
  | 0, _, _, _, _ => Option.none
  | fuel + 1, w, s, i, st =>
    match ov.layout_pass node w s i st with
    | Option.none => Option.none
    | some r =>
      if r.2.again then layout_while ov node fuel r.1 r.2.store r.2.node r.2.state else some r

/-- The loop `for (Accept& current : traverse(node))` of `layout`;
`Option.none` when the iteration budget is used up or a null pointer is
dereferenced. -/
def layout_loop {σ : Type} (ov : Overrides σ) (node : Nat) (last : Accept) :
    Nat → σ → Store → Accept → Option (σ × Store)
  | 0, w, s, cur => if cur.same last then some (w, s) else Option.none
  | fuel + 1, w, s, cur =>
    if cur.same last then some (w, s)
    else
      match cur.node with
      | Option.none => Option.none
      | some i =>
        match ov.layout_while node (fuel + 1) w s i cur.state with
        | Option.none => Option.none
        | some r =>
          layout_loop ov node last fuel r.1 r.2.store (increment r.2.store r.2.node r.2.state)

/-- The function `layout(node, surface)`, every loop with an iteration budget
of `fuel`. -/
def layout {σ : Type} (ov : Overrides σ) (fuel : Nat) (surface : Surface) (w : σ) (s : Store)
    (node : Nat) : Option (σ × Store) :=
  let r := ov.layout_init surface w s node
  if !r.2 then some (w, r.1)
  else if !r.1.isLayoutDirty node && !r.1.isChildLayoutDirty node then some (w, r.1)
  else ov.layout_loop node (traverseEnd r.1 node) fuel w r.1 (traverseBegin r.1 node)

/-- The overriding functions do not call `reflow`, directly or through
`insert`, `erase` or `setConstraints`: they leave the links, the kind and the
flags `LayoutDirty` and `LayoutChildDirty` of every node as they are. -/
def Quiet {σ : Type} (ov : Overrides σ) : Prop :=
  (∀ w s c, SameLayout s (ov.onLayoutBegin w s c).2) ∧
  (∀ w s c child, SameLayout s (ov.onLayoutConstrain w s c child).1.2) ∧
  (∀ w s c, SameLayout s (ov.onLayoutEnd w s c).1.2)

/-- Overriding functions that compute a value from the tree and leave the tree
as it is. -/
def ofHooks (hooks : Hooks) : Overrides Unit :=
  { preferredSize := fun _ s n => hooks.preferredSize s n,
    onLayoutBegin := fun w s _ => (w, s),
    onLayoutConstrain := fun w s c child => ((w, s), hooks.onLayoutConstrain s c child),
    onLayoutEnd := fun w s c => ((w, s), hooks.onLayoutEnd s c) }

end Overrides

/-- The method `CenterContainer::onLayoutEnd` (`widget/center.cpp`): the tree
after the calls of `setPosition` on the children, and the returned size. -/
def CenterContainer.onLayoutEnd (s : Store) (c : Nat) : Store × Vec2 :=
  let maximum := (children s c).foldl (fun m child => vmax m (s.node child).area.size)
    Vec2.origin
  let midpoint : Vec2 := ⟨wrapPoint (Int.tdiv maximum.x 2), wrapPoint (Int.tdiv maximum.y 2)⟩
  ((children s c).foldl (fun t child =>
      (setPosition t child
        ⟨wrapPoint (midpoint.x - wrapPoint (Int.tdiv (t.node child).area.size.x 2)),
          wrapPoint (midpoint.y - wrapPoint (Int.tdiv (t.node child).area.size.y 2))⟩).1) s,
    maximum)

/-- The first statement of the body of the loop `while (true)` of `layout`. -/
def layout_pass_pre (hooks : Hooks) (node : Nat) (s : Store) (i : Nat) (st : AcceptState) :
    Option Store :=
  if st != AcceptState.Post then
    if i ≠ node then
      match s.parent i with
      | some p =>
        if s.isLayoutDirty p then
          some (setConstraints s i (hooks.onLayoutConstrain s p i)).1
        else some s
      | Option.none => Option.none
    else some s
  else some s

/-- The body of the loop `while (true)` of `layout` after its first statement. -/
def layout_pass_rest (hooks : Hooks) (node : Nat) (s : Store) (i : Nat) (st : AcceptState) :
    Option LayoutStep :=
  if st != AcceptState.Post && !s.isLayoutDirty i && !s.isChildLayoutDirty i then
    some { store := s, node := i, state := AcceptState.Post, again := false }
  else if st != AcceptState.Pre then
    let dirty := s.isLayoutDirty i
    let s := clearLayoutDirty s i
    if dirty then
      let r := layout_end hooks s node i
      if r.2 then
        match r.1.parent i with
        | some p =>
          if !r.1.isLayoutDirty p then
            some { store := reflow r.1 p, node := p, state := AcceptState.Pre, again := true }
          else some { store := r.1, node := i, state := st, again := false }
        | Option.none => Option.none
      else some { store := r.1, node := i, state := st, again := false }
    else some { store := s, node := i, state := st, again := false }
  else some { store := s, node := i, state := st, again := false }

/-- The first statement of the body of the loop `while (true)` of `layout`,
with overriding functions that change the tree. -/
def Overrides.layout_pass_pre {σ : Type} (ov : Overrides σ) (node : Nat) (w : σ) (s : Store)
    (i : Nat) (st : AcceptState) : Option (σ × Store) :=
  if st != AcceptState.Post then
    if i ≠ node then
      match s.parent i with
      | some p =>
        if s.isLayoutDirty p then
          let r := ov.onLayoutConstrain w s p i
          some (r.1.1, (setConstraints r.1.2 i r.2).1)
        else some (w, s)
      | Option.none => Option.none
    else some (w, s)
  else some (w, s)

/-- The body of the loop `while (true)` of `layout` after its first statement,
with overriding functions that change the tree. -/
def Overrides.layout_pass_rest {σ : Type} (ov : Overrides σ) (node : Nat) (q : σ × Store)
    (i : Nat) (st : AcceptState) : Option (σ × LayoutStep) :=
  if st != AcceptState.Post && !q.2.isLayoutDirty i && !q.2.isChildLayoutDirty i then
    some (q.1, { store := q.2, node := i, state := AcceptState.Post, again := false })
  else
    let b : σ × Store :=
      if st != AcceptState.Post && q.2.isLayoutDirty i && q.2.isContainer i then
        ov.onLayoutBegin q.1 q.2 i
      else q
    if st != AcceptState.Pre then
      let dirty := b.2.isLayoutDirty i
      let s := clearLayoutDirty b.2 i
      if dirty then
        let r := ov.layout_end b.1 s node i
        if r.2 then
          match r.1.2.parent i with
          | some p =>
            if !r.1.2.isLayoutDirty p then
              some (r.1.1,
                { store := reflow r.1.2 p, node := p, state := AcceptState.Pre, again := true })
            else some (r.1.1, { store := r.1.2, node := i, state := st, again := false })
          | Option.none => Option.none
        else some (r.1.1, { store := r.1.2, node := i, state := st, again := false })
      else some (b.1, { store := s, node := i, state := st, again := false })
    else some (b.1, { store := b.2, node := i, state := st, again := false })

/-! ## Auxiliary definitions of the claims about the paint flags after `paint_partial` -/

/-- The paint bits of a node that carries none of `PaintDirty`,
`PaintRepositioned`, `PaintChildDirty`, `PaintChildDirtyDiverged`. -/
def noBits : Bool × Bool × Bool × Bool := (false, false, false, false)

/-- The values of the iterator at which `paint_impl<true>` calls
`clearPaintDirty` on node `j`: its post visit, and its visit as a leaf when its
clip meets the window. -/
def clearsAt (s : Store) (start : PositionRebuilder) (r : Nat) (window : Rect) (j : Nat)
    (a : Accept) : Bool :=
  a.node == some j && (a.state == AcceptState.Post ||
    (a.state == AcceptState.Leaf && !paintSkips s start r window j))


/-- The tree `paint_partial_impl(root, surface)` is called on: the store is a
forest, `root` has no parent, and its area is representable as `Point`s and
starts at the origin. -/
structure PaintSetting (s : Store) (root : Nat) : Prop where
  wf : wfTree s = true
  lt : root < s.size
  top : s.parent root = Option.none
  origin : (s.node root).area.low = Vec2.origin
  typed : inRect (s.node root).area = true

/-- The clip of the rebuilder of `paint_partial_impl(root, surface)` after the
push of node `x`: `stack.clip()`. -/
def clipAt (s : Store) (root x : Nat) : Rect := (afterPush s {} root x).clip


/-- What a part of `paint_partial_impl(root, surface)` that runs to its end does
to a state: every node keeps its paint bits or has them cleared, and they are
cleared only at a node of the tree whose clip is not empty; a cached clip is
kept or becomes the clip of the node in the traversal; the paint hook is called
only for nodes of the tree whose clip is not empty. -/
structure PaintStep (s0 : Store) (root : Nat) (ps res : PaintState) : Prop where
  complete : res.complete = true
  same : SamePaint ps.store res.store
  bits : ∀ j, paintBits (res.store.node j).flags = paintBits (ps.store.node j).flags ∨
    (paintBits (res.store.node j).flags = noBits ∧ j < s0.size ∧
      (j = root ∨ root ∈ parents s0 j) ∧ (clipAt s0 root j).nonempty = true)
  cache : ∀ j, (res.store.node j).clip_space = (ps.store.node j).clip_space ∨
    (res.store.node j).clip_space = clipAt s0 root j
  trace : ∃ evs, res.trace = ps.trace ++ evs ∧
    ∀ w t cl, Event.paint w t cl ∈ evs →
      w < s0.size ∧ (w = root ∨ root ∈ parents s0 w) ∧ (clipAt s0 root w).nonempty = true


/-- Every point of an area passed to `split` lies in the returned window or in
the area that is left. -/
def SplitCovers (surface : Surface) : Prop :=
  ∀ (r : Rect) (pt : Vec2), r.containsPoint pt = true →
    (surface.split r).1.containsPoint pt = true ∨ (surface.split r).2.containsPoint pt = true

/-- The `split` of an empty area returns an empty window. -/
def SplitEmpty (surface : Surface) : Prop :=
  ∀ r : Rect, r.nonempty = false → (surface.split r).1.nonempty = false


/-- The test with which `paint_partial_impl` paints or enters a node whose clip
is not empty: `isPaintDirty()`, or a container with `isChildPaintDirty()`. -/
def Store.paintWalked (s : Store) (a : Nat) : Bool :=
  s.isPaintDirty a || (s.isContainer a && s.isChildPaintDirty a)

/-- Test: `paint_partial_impl` finds the node `x`.  The node itself or one of
its ancestors that carries `PaintDirty` passes, together with each of its own
ancestors, the test `paintWalked`. -/
def paintCovered (s : Store) (x : Nat) : Bool :=
  (x :: parents s x).any (fun a =>
    (decide (a = x) || s.isPaintDirty a) && (a :: parents s a).all (fun b => s.paintWalked b))

/-- Test: the absolute clip of the node meets the display of the surface. -/
def visibleOn (surface : Surface) (s : Store) (x : Nat) : Bool :=
  (Rect.ofIntersect (absolute s x).clip (Rect.withSize surface.resolution)).nonempty

/-- The part of the loop invariant of `paint_partial_impl` about the nodes that
are still to be found: every node of the tree that carries a paint bit selected
by `K` and whose clip meets the display passes the test `paintCovered`. -/
def CoverInv (K : Bool × Bool × Bool × Bool → Bool) (surface : Surface) (s0 : Store)
    (root : Nat) (t : Store) : Prop :=
  ∀ x, x < s0.size → (x = root ∨ root ∈ parents s0 x) →
    (Rect.ofIntersect (clipAt s0 root x) (Rect.withSize surface.resolution)).nonempty = true →
    K (paintBits (t.node x).flags) = true → paintCovered t x = true

/-- No node of the subtree of `m` whose clip meets the display carries a paint
bit selected by `K`. -/
def CleanSub (K : Bool × Bool × Bool × Bool → Bool) (surface : Surface) (s0 : Store)
    (root : Nat) (t : Store) (m : Nat) : Prop :=
  ∀ x, x < s0.size → (x = m ∨ m ∈ parents s0 x) →
    (Rect.ofIntersect (clipAt s0 root x) (Rect.withSize surface.resolution)).nonempty = true →
    K (paintBits (t.node x).flags) = false

/-- The paint bits change at nodes of the subtree of `m` only. -/
def FrameSub (s0 : Store) (t u : Store) (m : Nat) : Prop :=
  ∀ j, paintBits (u.node j).flags ≠ paintBits (t.node j).flags → (j = m ∨ m ∈ parents s0 j)


/-- The contract of `split` the claims about the paint flags rely on. -/
structure SplitSound (surface : Surface) : Prop where
  inside : SplitsInside surface
  covers : SplitCovers surface
  empty : SplitEmpty surface


/-- From the iterator `cur` the loop of `paint_partial_impl` arrives after `n`
bodies at the iterator `next`, whatever follows. -/
def PartialRuns (inner : Nat) (surface : Surface) (root : Nat) (last : Accept)
    (ps : PaintState) (stk : PositionRebuilder) (cur : Accept) (upd : Bool) (n : Nat)
    (res : PaintState) (stk2 : PositionRebuilder) (next : Accept) (upd2 : Bool) : Prop :=
  ∀ F, paint_partial_loop inner surface root last (F + n) ps stk cur upd =
    paint_partial_loop inner surface root last F res stk2 next upd2

/-- What the loop of `paint_partial_impl` does to the subtree of `m` on a
surface with a sound `split`, when no ancestor of `m` carries `PaintDirty` and
the nodes to be found pass the test `paintCovered`: no node of the subtree
whose clip meets the display keeps a paint bit selected by `K`, and the paint
bits change in the subtree only. -/
def SubClean (surface : Surface) (s0 : Store) (root : Nat) (ps res : PaintState) (m : Nat) :
    Prop :=
  ∀ K : Bool × Bool × Bool × Bool → Bool, K noBits = false → SplitSound surface →
    (∀ b ∈ parents s0 m, ps.store.isPaintDirty b = false) →
    CoverInv K surface s0 root ps.store →
    CleanSub K surface s0 root res.store m ∧ FrameSub s0 ps.store res.store m


/-- An iteration budget with which `paint_partial_impl(root, surface)` runs to
its end on a surface whose `split` makes progress: the lengths of the ranges
`traverse` over the tree and the number of pixels of the display. -/
def paintBudget (surface : Surface) (s : Store) (root : Nat) : Nat :=
  (specSeq s (fun _ => false) s.size root).length +
    ((List.range s.size).map (fun m => (specSeq s (fun _ => false) s.size m).length)).sum +
    (Rect.withSize surface.resolution).pixels


/-- The states reached from `s0` through `erase`, `setArea`, `setPosition`,
`setSize`, `Widget::repaint`, `layout`, `insert` of a child whose subtree
carries neither `PaintDirty` nor `PaintChildDirty`, and `paint_partial`.  The
setters and `repaint` are applied to a node whose chain of ancestors ends
(`parents` is shorter than the store), `layout` to a node of a store with well
formed links.  `paint_partial(root, surface)` is applied to a forest without
coordinate overflow in which the nodes beyond the store have no parent, with
`root` parentless at the origin, on a surface whose `split` is sound and makes
progress, when every node of the tree that carries `PaintDirty` or
`PaintChildDirty` has an absolute clip that meets the display and is
`PaintDirty` or a container. -/
inductive PaintReach (hooks : Hooks) (s0 : Store) : Store → Prop where
  | start : PaintReach hooks s0 s0
  | insert (s t : Store) (c : Nat) (pos : Option Nat) (child : Nat) :
      PaintReach hooks s0 s → Cui.insert s c pos child = some t →
      (∀ x, (x = child ∨ child ∈ parents s x) → s.paintFlagged x = false) →
      PaintReach hooks s0 t
  | erase (s t : Store) (c child : Nat) (r : Option Nat) :
      PaintReach hooks s0 s → Cui.erase s c child = some (t, r) → PaintReach hooks s0 t
  | setArea (s : Store) (n : Nat) (area : Rect) :
      PaintReach hooks s0 s → (parents s n).length < s.size →
      PaintReach hooks s0 (Cui.setArea s n area).1
  | setPosition (s : Store) (n : Nat) (relative : Vec2) :
      PaintReach hooks s0 s → (parents s n).length < s.size →
      PaintReach hooks s0 (Cui.setPosition s n relative).1
  | setSize (s : Store) (n : Nat) (size : Vec2) :
      PaintReach hooks s0 s → (parents s n).length < s.size →
      PaintReach hooks s0 (Cui.setSize s n size).1
  | repaint (s : Store) (n : Nat) :
      PaintReach hooks s0 s → (parents s n).length < s.size →
      PaintReach hooks s0 (Widget.repaint s n)
  | layout (s t : Store) (fuel : Nat) (surface : Surface) (node : Nat) :
      PaintReach hooks s0 s → wfLinks s = true → node < s.size →
      Cui.layout hooks fuel surface s node = some t → PaintReach hooks s0 t
  | paint_partial (s : Store) (fuel : Nat) (surface : Surface) (root : Nat) :
      PaintReach hooks s0 s → PaintSetting s root → noOverflow s = true →
      (∀ x, s.size ≤ x → s.parent x = Option.none) →
      SplitProgress surface → SplitSound surface → paintBudget surface s root ≤ fuel →
      (∀ x, x < s.size → (x = root ∨ root ∈ parents s x) → s.paintFlagged x = true →
        visibleOn surface s x = true ∧ s.paintWalked x = true) →
      PaintReach hooks s0 (paint_partial_impl fuel surface s root).store

/-! ## Concrete stores of the claims about the paint flags after `paint_partial` -/

/-- `Container x; Widget d(x); x.setArea({0, 0, 3, 3}); d.setArea({0, 0, 1, 1});
d.repaint();`: the widget `d` is `PaintDirty` and visible at (0,0)-(1,1). -/
def shownDirtyChild : Store :=
  let s := (push_back twoNodes 0 1).getD twoNodes
  let s := (setArea s 0 ⟨⟨0, 0⟩, ⟨3, 3⟩⟩).1
  let s := (setArea s 1 ⟨⟨0, 0⟩, ⟨1, 1⟩⟩).1
  Widget.repaint s 1

/-- That tree after `paint_partial(x, surface)` on a 4 x 4 surface that paints
the whole display at once, and after `d.repaint()` again. -/
def shownRepainted : Store :=
  Widget.repaint (paint_partial_impl 30 (Surface.whole ⟨4, 4⟩) shownDirtyChild 0).store 1

/-- `Container x; Widget d(x); layout(x, surface); paint_partial(x, surface);`
on a 16 x 16 surface that paints the whole display at once, with widgets whose
`preferredSize` is 4 x 8: `x` lies at (0,0)-(15,15), `d` at (0,0)-(3,7), and no
node carries a layout or paint flag. -/
def passedChild : Store :=
  let s := (push_back twoNodes 0 1).getD twoNodes
  let s := (layout fixedSizeHooks 40 (Surface.whole ⟨16, 16⟩) s 0).getD s
  (paint_partial_impl 40 (Surface.whole ⟨16, 16⟩) s 0).store

/-- `passedChild` after `x.setArea({0, 0, 31, 31}); d.setPosition({20, 20});
d.repaint();`: the clip (20,20)-(23,27) of `d` is not empty and lies outside
the display of a 16 x 16 surface. -/
def movedOffDisplay : Store :=
  let s := (setArea passedChild 0 ⟨⟨0, 0⟩, ⟨31, 31⟩⟩).1
  let s := (setPosition s 1 ⟨20, 20⟩).1
  Widget.repaint s 1

/-- `passedChild` after `x.setArea({-5, -5, 20, 20}); d.setPosition({5, 5});
d.repaint();`: the root `x` does not start at the origin and covers the display
of a 16 x 16 surface, the clip of `d` is (0,0)-(3,7). -/
def movedRoot : Store :=
  let s := (setArea passedChild 0 ⟨⟨-5, -5⟩, ⟨20, 20⟩⟩).1
  let s := (setPosition s 1 ⟨5, 5⟩).1
  Widget.repaint s 1

/-- The tree `R > {A, P > {w}}` (addresses 0, 2, 1, 3) laid out and painted on a
16 x 16 surface that paints the whole display, then `A.setArea({0, 0, 3, 3});
P.setArea({4, 0, 7, 7}); w.setArea({0, 4, 3, 7}); paint_partial(R, surface);
A.repaint(); w.repaint();`: no node carries a layout flag, the widgets `A` and
`w` are `PaintDirty`, the clip of `w` is (4,4)-(7,7). -/
def besideDirty : Store :=
  let s := ((push_back fourMixed 0 2).bind (fun s =>
    (push_back s 0 1).bind (fun s => push_back s 1 3))).getD fourMixed
  let s := (layout fixedSizeHooks 40 (Surface.whole ⟨16, 16⟩) s 0).getD s
  let s := (paint_partial_impl 40 (Surface.whole ⟨16, 16⟩) s 0).store
  let s := (setArea s 2 ⟨⟨0, 0⟩, ⟨3, 3⟩⟩).1
  let s := (setArea s 1 ⟨⟨4, 0⟩, ⟨7, 7⟩⟩).1
  let s := (setArea s 3 ⟨⟨0, 4⟩, ⟨3, 7⟩⟩).1
  let s := (paint_partial_impl 40 (Surface.whole ⟨16, 16⟩) s 0).store
  Widget.repaint (Widget.repaint s 2) 3

/-! # Lemmas and theorems -/

/-! ## Geometry and the absolute position -/

theorem inPoint_iff (v : Int) : inPoint v = true ↔ (-32768 ≤ v ∧ v ≤ 32767) := by
  simp [inPoint, pointMin, pointMax]

theorem wrapPoint_of_inPoint {v : Int} (h : inPoint v = true) : wrapPoint v = v := by
  rw [inPoint_iff] at h
  unfold wrapPoint
  omega

theorem inRect_iff (r : Rect) :
    inRect r = true ↔
      (inPoint r.low.x = true ∧ inPoint r.low.y = true) ∧
        inPoint r.high.x = true ∧ inPoint r.high.y = true := by
  simp [inRect, and_assoc]

theorem pmax_comm (a b : Int) : pmax a b = pmax b a := by
  unfold pmax; split <;> split <;> omega

theorem pmin_comm (a b : Int) : pmin a b = pmin b a := by
  unfold pmin; split <;> split <;> omega

theorem pmax_assoc (a b c : Int) : pmax (pmax a b) c = pmax a (pmax b c) := by
  unfold pmax; repeat' split
  all_goals omega

theorem pmin_assoc (a b c : Int) : pmin (pmin a b) c = pmin a (pmin b c) := by
  unfold pmin; repeat' split
  all_goals omega

theorem pmax_add (a b d : Int) : pmax a b + d = pmax (a + d) (b + d) := by
  unfold pmax; split <;> split <;> omega

theorem pmin_add (a b d : Int) : pmin a b + d = pmin (a + d) (b + d) := by
  unfold pmin; split <;> split <;> omega

theorem ofIntersect_comm (a b : Rect) : Rect.ofIntersect a b = Rect.ofIntersect b a := by
  simp [Rect.ofIntersect, vmax, vmin, pmax_comm a.low.x, pmax_comm a.low.y,
    pmin_comm a.high.x, pmin_comm a.high.y]

theorem ofIntersect_assoc (a b c : Rect) :
    Rect.ofIntersect (Rect.ofIntersect a b) c = Rect.ofIntersect a (Rect.ofIntersect b c) := by
  simp [Rect.ofIntersect, vmax, vmin, pmax_assoc, pmin_assoc]

theorem shift_ofIntersect (a b : Rect) (dx dy : Int) :
    (Rect.ofIntersect a b).shift dx dy = Rect.ofIntersect (a.shift dx dy) (b.shift dx dy) := by
  simp [Rect.ofIntersect, Rect.shift, vmax, vmin, pmax_add, pmin_add]

theorem shift_shift (a : Rect) (dx dy ex ey : Int) :
    (a.shift dx dy).shift ex ey = a.shift (dx + ex) (dy + ey) := by
  simp [Rect.shift, add_assoc]

theorem shift_zero (a : Rect) : a.shift 0 0 = a := by
  simp [Rect.shift]

theorem translate_eq_shift (r : Rect) (v : Vec2) (h : inRect (r.shift v.x v.y) = true) :
    r.translate v = r.shift v.x v.y := by
  rw [inRect_iff] at h
  obtain ⟨⟨h1, h2⟩, h3, h4⟩ := h
  simp only [Rect.shift] at h1 h2 h3 h4
  simp [Rect.translate, Rect.shift, Vec2.add, wrapPoint_of_inPoint h1, wrapPoint_of_inPoint h2,
    wrapPoint_of_inPoint h3, wrapPoint_of_inPoint h4]

theorem inPoint_pmax {a b : Int} (ha : inPoint a = true) (hb : inPoint b = true) :
    inPoint (pmax a b) = true := by
  unfold pmax; split <;> assumption

theorem inPoint_pmin {a b : Int} (ha : inPoint a = true) (hb : inPoint b = true) :
    inPoint (pmin a b) = true := by
  unfold pmin; split <;> assumption

theorem inRect_ofIntersect {a b : Rect} (ha : inRect a = true) (hb : inRect b = true) :
    inRect (Rect.ofIntersect a b) = true := by
  rw [inRect_iff] at ha hb ⊢
  obtain ⟨⟨a1, a2⟩, a3, a4⟩ := ha
  obtain ⟨⟨b1, b2⟩, b3, b4⟩ := hb
  exact ⟨⟨inPoint_pmax a1 b1, inPoint_pmax a2 b2⟩, inPoint_pmin a3 b3, inPoint_pmin a4 b4⟩

theorem fitsAlong_ofIntersect (l : List Rect) :
    ∀ a b : Rect, fitsAlong a l = true → fitsAlong b l = true →
      fitsAlong (Rect.ofIntersect a b) l = true := by
  induction l with
  | nil => intro a b _ _; rfl
  | cons c rest ih =>
    intro a b ha hb
    simp only [fitsAlong, Bool.and_eq_true] at ha hb ⊢
    rw [shift_ofIntersect]
    exact ⟨inRect_ofIntersect ha.1 hb.1, ih _ _ ha.2 hb.2⟩

theorem intersectAll_cons_inter (a b : Rect) (l : List Rect) :
    intersectAll (Rect.ofIntersect a b :: l) = Rect.ofIntersect b (intersectAll (a :: l)) := by
  cases l with
  | nil => simp [intersectAll, ofIntersect_comm a b]
  | cons c rest =>
    simp only [intersectAll]
    rw [ofIntersect_comm a b, ofIntersect_assoc]

theorem sumLowX_cons (a : Rect) (l : List Rect) : sumLowX (a :: l) = a.low.x + sumLowX l := by
  simp [sumLowX]

theorem sumLowY_cons (a : Rect) (l : List Rect) : sumLowY (a :: l) = a.low.y + sumLowY l := by
  simp [sumLowY]

theorem absoluteLoop_spec (s : Store) (ps : List Nat) :
    ∀ (c : Rect) (t : Rect),
      fitsAlong c (ps.map (fun j => (s.node j).area)) = true →
      fitsAlong t (ps.map (fun j => (s.node j).area)) = true →
      chainFits (ps.map (fun j => (s.node j).area)) = true →
      absoluteLoop s { clip := c, translation := t.low } ps =
        { clip := intersectAll
            (c.shift (sumLowX (ps.map (fun j => (s.node j).area)))
                (sumLowY (ps.map (fun j => (s.node j).area))) ::
              translatedAreas (ps.map (fun j => (s.node j).area))),
          translation := (t.shift (sumLowX (ps.map (fun j => (s.node j).area)))
                (sumLowY (ps.map (fun j => (s.node j).area)))).low } := by
  induction ps with
  | nil =>
    intro c t _ _ _
    simp [absoluteLoop, sumLowX, sumLowY, translatedAreas, intersectAll, Rect.shift]
  | cons p rest ih =>
    intro c t hc ht hch
    simp only [List.map_cons, fitsAlong, chainFits, Bool.and_eq_true] at hc ht hch
    simp only [absoluteLoop, List.map_cons]
    rw [translate_eq_shift _ _ hc.1]
    have ht' : t.low.add (s.node p).area.low =
        (t.shift (s.node p).area.low.x (s.node p).area.low.y).low := by
      have h := ht.1
      rw [inRect_iff] at h
      obtain ⟨⟨h1, h2⟩, _, _⟩ := h
      simp only [Rect.shift] at h1 h2
      simp [Vec2.add, Rect.shift, wrapPoint_of_inPoint h1, wrapPoint_of_inPoint h2]
    rw [ht']
    rw [ih _ _ (fitsAlong_ofIntersect _ _ _ hch.1.2 hc.2) ht.2 hch.2]
    rw [shift_ofIntersect, intersectAll_cons_inter, shift_shift, shift_shift]
    simp only [translatedAreas, sumLowX_cons, sumLowY_cons, intersectAll]

theorem absolute_eq_spec_of_fits (s : Store) (i : Nat) (h : chainFits (chainAreas s i) = true) :
    absolute s i =
      { clip := specClip (chainAreas s i), translation := specTranslation (chainAreas s i) } := by
  unfold chainAreas at h ⊢
  simp only [List.map_cons, chainFits, Bool.and_eq_true] at h
  unfold absolute
  rw [absoluteLoop_spec s (parents s i) _ _ h.1.2 h.1.2 h.2]
  simp [specClip, specTranslation, translatedAreas, sumLowX_cons, sumLowY_cons, Rect.shift]

/-! ## The traversal with a rebuilder -/

/-! ### Ancestor chains -/

theorem parentChain_none (s : Store) (f : Nat) : parentChain s f Option.none = [] := by
  cases f <;> rfl

theorem parentChain_succ_of_short (s : Store) :
    ∀ (f : Nat) (x : Option Nat), (parentChain s f x).length < f →
      parentChain s (f + 1) x = parentChain s f x := by
  intro f
  induction f with
  | zero => intro x h; simp at h
  | succ k ih =>
    intro x h
    cases x with
    | none => rfl
    | some q =>
      simp only [parentChain, List.length_cons, Nat.add_lt_add_iff_right] at h ⊢
      rw [ih _ h]

theorem parents_of_parent (s : Store) (i p : Nat) (hp : s.parent i = some p)
    (hlen : (parents s i).length < s.size) : parents s i = p :: parents s p := by
  unfold parents at hlen ⊢
  unfold Store.parent at hp
  rw [hp] at hlen ⊢
  cases hsz : s.size with
  | zero => rw [hsz] at hlen; simp at hlen
  | succ k =>
    rw [hsz] at hlen
    simp only [parentChain, List.length_cons, Nat.add_lt_add_iff_right] at hlen ⊢
    rw [parentChain_succ_of_short s k _ hlen]

theorem parents_of_root (s : Store) (i : Nat) (hp : s.parent i = Option.none) :
    parents s i = [] := by
  unfold parents
  unfold Store.parent at hp
  rw [hp, parentChain_none]

/-! ### Well-formedness tests, unfolded -/

theorem wfLinks_at {s : Store} (h : wfLinks s = true) {i : Nat} (hi : i < s.size) :
    (∀ p, s.parent i = some p → p < s.size) ∧
    (s.parent i = Option.none → (s.node i).next_sibling = Option.none) ∧
    (∀ c, (s.node i).first_child = some c → c < s.size ∧ s.parent c = some i) ∧
    (∀ m, (s.node i).next_sibling = some m → m < s.size ∧ s.parent m = s.parent i) ∧
    (parents s i).length < s.size := by
  unfold wfLinks at h
  rw [List.all_eq_true] at h
  have h := h i (List.mem_range.mpr hi)
  simp only [Bool.and_eq_true, decide_eq_true_eq] at h
  obtain ⟨⟨⟨h1, h2⟩, h3⟩, h4⟩ := h
  refine ⟨?_, ?_, ?_, ?_, h4⟩
  · intro p hp; rw [hp] at h1; simpa using h1
  · intro hp; rw [hp] at h1; simpa using h1
  · intro c hc; rw [hc] at h2; simpa using h2
  · intro m hm; rw [hm] at h3; simpa using h3

theorem noOverflow_at {s : Store} (h : noOverflow s = true) {i : Nat} (hi : i < s.size) :
    chainFits (chainAreas s i) = true := by
  unfold noOverflow at h
  rw [List.all_eq_true] at h
  exact h i (List.mem_range.mpr hi)

/-! ### `setClipSpace` changes nothing but the cached clip -/

@[simp] theorem setClipSpace_size (s : Store) (i : Nat) (c : Rect) :
    (setClipSpace s i c).size = s.size := rfl

@[simp] theorem setClipSpace_area (s : Store) (i : Nat) (c : Rect) (j : Nat) :
    ((setClipSpace s i c).node j).area = (s.node j).area := by
  simp only [setClipSpace, Store.modify, Store.set]; split <;> simp_all

@[simp] theorem setClipSpace_parent (s : Store) (i : Nat) (c : Rect) (j : Nat) :
    ((setClipSpace s i c).node j).parent = (s.node j).parent := by
  simp only [setClipSpace, Store.modify, Store.set]; split <;> simp_all

@[simp] theorem setClipSpace_next_sibling (s : Store) (i : Nat) (c : Rect) (j : Nat) :
    ((setClipSpace s i c).node j).next_sibling = (s.node j).next_sibling := by
  simp only [setClipSpace, Store.modify, Store.set]; split <;> simp_all

@[simp] theorem setClipSpace_first_child (s : Store) (i : Nat) (c : Rect) (j : Nat) :
    ((setClipSpace s i c).node j).first_child = (s.node j).first_child := by
  simp only [setClipSpace, Store.modify, Store.set]; split <;> simp_all

@[simp] theorem setClipSpace_flags (s : Store) (i : Nat) (c : Rect) (j : Nat) :
    ((setClipSpace s i c).node j).flags = (s.node j).flags := by
  simp only [setClipSpace, Store.modify, Store.set]; split <;> simp_all

theorem setClipSpace_clip_space (s : Store) (i : Nat) (c : Rect) (j : Nat) :
    ((setClipSpace s i c).node j).clip_space = if j = i then c else (s.node j).clip_space := by
  simp only [setClipSpace, Store.modify, Store.set]; split <;> simp_all

@[simp] theorem setClipSpace_parentChain (s : Store) (i : Nat) (c : Rect) (f : Nat)
    (x : Option Nat) : parentChain (setClipSpace s i c) f x = parentChain s f x := by
  induction f generalizing x with
  | zero => rfl
  | succ k ih =>
    cases x with
    | none => rfl
    | some q => simp [parentChain, ih]

@[simp] theorem setClipSpace_parents (s : Store) (i : Nat) (c : Rect) (j : Nat) :
    parents (setClipSpace s i c) j = parents s j := by
  simp [parents]

@[simp] theorem setClipSpace_absoluteLoop (s : Store) (i : Nat) (c : Rect)
    (acc : AbsolutePosition) (l : List Nat) :
    absoluteLoop (setClipSpace s i c) acc l = absoluteLoop s acc l := by
  induction l generalizing acc with
  | nil => rfl
  | cons p ps ih => simp [absoluteLoop, ih]

@[simp] theorem setClipSpace_absolute (s : Store) (i : Nat) (c : Rect) (j : Nat) :
    absolute (setClipSpace s i c) j = absolute s j := by
  simp [absolute]

@[simp] theorem setClipSpace_chainAreas (s : Store) (i : Nat) (c : Rect) (j : Nat) :
    chainAreas (setClipSpace s i c) j = chainAreas s j := by
  simp [chainAreas]

@[simp] theorem setClipSpace_noOverflow (s : Store) (i : Nat) (c : Rect) :
    noOverflow (setClipSpace s i c) = noOverflow s := by
  simp [noOverflow]

@[simp] theorem setClipSpace_wfLinks (s : Store) (i : Nat) (c : Rect) :
    wfLinks (setClipSpace s i c) = wfLinks s := by
  simp [wfLinks, Store.parent]


/-! ### The rebuilder follows the absolute position -/

theorem fitsAlong_last (l : List Rect) :
    ∀ a : Rect, inRect a = true → fitsAlong a l = true →
      inRect (a.shift (sumLowX l) (sumLowY l)) = true := by
  induction l with
  | nil => intro a ha _; simpa [sumLowX, sumLowY, Rect.shift] using ha
  | cons c rest ih =>
    intro a _ h
    simp only [fitsAlong, Bool.and_eq_true] at h
    have := ih _ h.1 h.2
    rw [shift_shift] at this
    simpa [sumLowX_cons, sumLowY_cons] using this

theorem chainAreas_of_parent (s : Store) (i p : Nat) (hp : s.parent i = some p)
    (hlen : (parents s i).length < s.size) :
    chainAreas s i = (s.node i).area :: chainAreas s p := by
  simp [chainAreas, parents_of_parent s i p hp hlen]

theorem chainAreas_of_root (s : Store) (i : Nat) (hp : s.parent i = Option.none) :
    chainAreas s i = [(s.node i).area] := by
  simp [chainAreas, parents_of_root s i hp]

theorem ofIntersect_all (a : Rect) (h : inRect a = true) : Rect.ofIntersect Rect.all a = a := by
  rw [inRect_iff] at h
  obtain ⟨⟨h1, h2⟩, h3, h4⟩ := h
  rw [inPoint_iff] at h1 h2 h3 h4
  cases a with
  | mk lo hi =>
    cases lo; cases hi
    simp only [Rect.ofIntersect, Rect.all, vmax, vmin, pmax, pmin, Vec2.min, Vec2.max, pointMin,
      pointMax] at *
    simp only [Rect.mk.injEq, Vec2.mk.injEq]
    refine ⟨⟨?_, ?_⟩, ?_, ?_⟩ <;> split <;> omega


theorem push_spec (s : Store) (i : Nat) (hwf : wfLinks s = true) (hov : noOverflow s = true)
    (hi : i < s.size) :
    (stackBefore s i).push s i =
      (setClipSpace s i (absolute s i).clip, asRebuilder (absolute s i)) := by
  have hfit := noOverflow_at hov hi
  obtain ⟨hpar, _, _, _, hlen⟩ := wfLinks_at hwf hi
  cases hp : s.parent i with
  | none =>
    rw [chainAreas_of_root s i hp] at hfit
    simp only [chainFits, Bool.and_eq_true] at hfit
    have ha := hfit.1.1
    have habs : absolute s i =
        { clip := (s.node i).area, translation := (s.node i).area.low } := by
      simp [absolute, parents_of_root s i hp, absoluteLoop]
    have htr : (s.node i).area.translate Vec2.origin = (s.node i).area := by
      rw [translate_eq_shift]
      · exact shift_zero _
      · simpa [Vec2.origin, shift_zero] using ha
    have hlow : Vec2.origin.add (s.node i).area.low = (s.node i).area.low := by
      rw [inRect_iff] at ha
      obtain ⟨⟨h1, h2⟩, _, _⟩ := ha
      simp [Vec2.add, Vec2.origin, wrapPoint_of_inPoint h1, wrapPoint_of_inPoint h2]
    simp only [stackBefore, hp, PositionRebuilder.push, habs, asRebuilder, htr, hlow,
      ofIntersect_all _ ha]
  | some p =>
    have hpi := hpar p hp
    have hfitp := noOverflow_at hov hpi
    have hch := chainAreas_of_parent s i p hp hlen
    rw [hch] at hfit
    have hfit' := hfit
    simp only [chainFits, Bool.and_eq_true] at hfit'
    have hin := fitsAlong_last _ _ hfit'.1.1 hfit'.1.2
    simp only [stackBefore, hp]
    rw [absolute_eq_spec_of_fits s i (by rw [hch]; exact hfit), absolute_eq_spec_of_fits s p hfitp, hch]
    obtain ⟨b, rest, hP⟩ : ∃ b rest, chainAreas s p = b :: rest := ⟨_, _, rfl⟩
    have htr : (s.node i).area.translate (specTranslation (chainAreas s p)) =
        (s.node i).area.shift (sumLowX (chainAreas s p)) (sumLowY (chainAreas s p)) :=
      translate_eq_shift _ _ hin
    have hlow : (specTranslation (chainAreas s p)).add (s.node i).area.low =
        specTranslation ((s.node i).area :: chainAreas s p) := by
      rw [inRect_iff] at hin
      obtain ⟨⟨h1, h2⟩, _, _⟩ := hin
      simp only [Rect.shift] at h1 h2
      simp only [Vec2.add, specTranslation, sumLowX_cons, sumLowY_cons]
      rw [add_comm (sumLowX _), add_comm (sumLowY _), wrapPoint_of_inPoint h1,
        wrapPoint_of_inPoint h2]
    have hclip : specClip ((s.node i).area :: chainAreas s p) =
        Rect.ofIntersect (specClip (chainAreas s p))
          ((s.node i).area.shift (sumLowX (chainAreas s p)) (sumLowY (chainAreas s p))) := by
      rw [ofIntersect_comm]
      simp only [specClip, translatedAreas, hP, intersectAll]
    simp only [PositionRebuilder.push, asRebuilder, htr, hlow, hclip]

theorem pop_spec (s : Store) (i p : Nat) (hwf : wfLinks s = true) (hov : noOverflow s = true)
    (hi : i < s.size) (hp : s.parent i = some p)
    (hc : (s.node p).clip_space = (absolute s p).clip) :
    (asRebuilder (absolute s i)).pop s i = asRebuilder (absolute s p) := by
  have hfit := noOverflow_at hov hi
  obtain ⟨hpar, _, _, _, hlen⟩ := wfLinks_at hwf hi
  have hpi := hpar p hp
  have hfitp := noOverflow_at hov hpi
  have hch := chainAreas_of_parent s i p hp hlen
  have hfitp' := hfitp
  obtain ⟨b, rest, hP⟩ : ∃ b rest, chainAreas s p = b :: rest := ⟨_, _, rfl⟩
  rw [hP] at hfitp'
  simp only [chainFits, Bool.and_eq_true] at hfitp'
  have hin := fitsAlong_last _ _ hfitp'.1.1 hfitp'.1.2
  rw [inRect_iff] at hin
  obtain ⟨⟨h1, h2⟩, _, _⟩ := hin
  simp only [Rect.shift] at h1 h2
  simp only [PositionRebuilder.pop, hp, asRebuilder, hc]
  rw [absolute_eq_spec_of_fits s i hfit, absolute_eq_spec_of_fits s p hfitp, hch]
  simp only [specTranslation, Vec2.sub, sumLowX_cons, sumLowY_cons, hP, add_sub_cancel_left,
    wrapPoint_of_inPoint h1, wrapPoint_of_inPoint h2]


@[simp] theorem setClipSpace_isContainer (s : Store) (i : Nat) (c : Rect) (j : Nat) :
    (setClipSpace s i c).isContainer j = s.isContainer j := by
  simp [Store.isContainer]

@[simp] theorem setClipSpace_pre_or_leaf (s : Store) (i : Nat) (c : Rect) (j : Nat) :
    pre_or_leaf (setClipSpace s i c) j = pre_or_leaf s j := by
  simp [pre_or_leaf]

@[simp] theorem setClipSpace_store_parent (s : Store) (i : Nat) (c : Rect) (j : Nat) :
    (setClipSpace s i c).parent j = s.parent j := by
  simp [Store.parent]

theorem pre_or_leaf_ne_post (s : Store) (i : Nat) : pre_or_leaf s i ≠ AcceptState.Post := by
  unfold pre_or_leaf; split <;> simp

theorem next_sibling_or_parent_inv (s : Store) (i : Nat) (stack : PositionRebuilder)
    (hwf : wfLinks s = true) (hi : i < s.size)
    (hc : ∀ a ∈ parents s i, (s.node a).clip_space = (absolute s a).clip)
    (hst : ∀ p, s.parent i = some p → stack = asRebuilder (absolute s p)) :
    RebuildInv s stack (next_sibling_or_parent s i) := by
  obtain ⟨hpar, hroot, _, hsib, hlen⟩ := wfLinks_at hwf hi
  unfold next_sibling_or_parent
  cases hn : (s.node i).next_sibling with
  | some m =>
    obtain ⟨hm, hpm⟩ := hsib m hn
    have hpars : parents s m = parents s i := by
      unfold parents; unfold Store.parent at hpm; rw [hpm]
    cases hp : s.parent i with
    | none => rw [hroot hp] at hn; simp at hn
    | some p =>
      simp only [RebuildInv, hpars, if_neg (pre_or_leaf_ne_post s m)]
      refine ⟨hm, hc, ?_, trivial⟩
      simp only [stackBefore, hpm, hp]
      exact hst p hp
  | none =>
    cases hp : s.parent i with
    | none => simp [RebuildInv]
    | some p =>
      simp only [RebuildInv, if_true]
      refine ⟨hpar p hp, ?_, hst p hp⟩
      intro a ha
      apply hc
      rw [parents_of_parent s i p hp hlen]
      exact List.mem_cons_of_mem _ ha

theorem first_child_inv (s : Store) (i c : Nat) (hwf : wfLinks s = true) (hi : i < s.size)
    (hc : ∀ a ∈ i :: parents s i, (s.node a).clip_space = (absolute s a).clip)
    (hfc : (s.node i).first_child = some c) :
    RebuildInv s (asRebuilder (absolute s i)) { node := some c, state := pre_or_leaf s c } := by
  obtain ⟨_, _, hchild, _, _⟩ := wfLinks_at hwf hi
  obtain ⟨hcs, hpc⟩ := hchild c hfc
  obtain ⟨_, _, _, _, hlen⟩ := wfLinks_at hwf hcs
  simp only [RebuildInv, if_neg (pre_or_leaf_ne_post s c)]
  refine ⟨hcs, ?_, ?_, trivial⟩
  · rw [parents_of_parent s c i hpc hlen]; exact hc
  · simp only [stackBefore, hpc]

theorem rebuildLoop_sound (last : Accept) :
    ∀ (fuel : Nat) (s : Store) (stack : PositionRebuilder) (cur : Accept),
      wfLinks s = true → noOverflow s = true → RebuildInv s stack cur →
      ∀ v ∈ rebuildLoop last fuel s stack cur,
        v.stack = asRebuilder (absolute v.store v.node) := by
  intro fuel
  induction fuel with
  | zero => intro s stack cur _ _ _ v hv; simp [rebuildLoop] at hv
  | succ k ih =>
    intro s stack cur hwf hov hinv v hv
    unfold rebuildLoop at hv
    split at hv
    · simp at hv
    · cases hnode : cur.node with
      | none => simp [hnode] at hv
      | some i =>
        simp only [hnode] at hv
        simp only [RebuildInv, hnode] at hinv
        obtain ⟨hi, hcache, hstate⟩ := hinv
        cases hs : cur.state with
        | Post =>
          simp only [hs, if_true] at hstate
          simp only [Accept.isPre, Accept.isPost, hs] at hv
          simp only [bne_self_eq_false, Bool.false_eq_true, if_false, List.mem_cons] at hv
          have hpost : (AcceptState.Post != AcceptState.Pre) = true := by decide
          simp only [hpost, if_true] at hv
          rcases hv with hv | hv
          · subst hv; exact hstate
          · refine ih _ _ _ hwf hov ?_ v hv
            simp only [increment, bne_self_eq_false, Bool.false_eq_true, if_false]
            apply next_sibling_or_parent_inv s i _ hwf hi hcache
            intro p hp
            rw [hstate]
            exact pop_spec s i p hwf hov hi hp
              (hcache p (by
                rw [parents_of_parent s i p hp (wfLinks_at hwf hi).2.2.2.2]
                exact List.mem_cons_self _ _))
        | Pre =>
          have hne : ¬ (AcceptState.Pre = AcceptState.Post) := by decide
          simp only [hs, if_neg hne] at hstate
          obtain ⟨hstack, hpl⟩ := hstate
          have hpre : (AcceptState.Pre != AcceptState.Post) = true := by decide
          simp only [Accept.isPre, Accept.isPost, hs, hpre, if_true, bne_self_eq_false,
            Bool.false_eq_true, if_false, List.mem_cons] at hv
          rw [hstack, push_spec s i hwf hov hi] at hv
          rcases hv with hv | hv
          · subst hv; simp
          · refine ih _ _ _ (by simpa using hwf) (by simpa using hov) ?_ v hv
            have hfc : ∃ c, (s.node i).first_child = some c ∧ s.isContainer i = true := by
              unfold pre_or_leaf at hpl
              split at hpl
              · rename_i h
                simp only [Bool.and_eq_true] at h
                obtain ⟨c, hc⟩ := Option.isSome_iff_exists.mp h.2
                exact ⟨c, hc, h.1⟩
              · simp at hpl
            obtain ⟨c, hfc, hcont⟩ := hfc
            simp only [increment, hpre, if_true, next_child, setClipSpace_isContainer, hcont,
              setClipSpace_first_child, hfc]
            have := first_child_inv (setClipSpace s i (absolute s i).clip) i c
              (by simpa using hwf) (by simpa using hi)
              (by
                intro a ha
                simp only [setClipSpace_parents, List.mem_cons] at ha
                rw [setClipSpace_clip_space, setClipSpace_absolute]
                split
                · rename_i h; rw [h]
                · rcases ha with ha | ha
                  · contradiction
                  · exact hcache a ha)
              (by simpa using hfc)
            simpa using this
        | Leaf =>
          have hne : ¬ (AcceptState.Leaf = AcceptState.Post) := by decide
          simp only [hs, if_neg hne] at hstate
          obtain ⟨hstack, hpl⟩ := hstate
          have hpre : (AcceptState.Leaf != AcceptState.Post) = true := by decide
          have hpost : (AcceptState.Leaf != AcceptState.Pre) = true := by decide
          simp only [Accept.isPre, Accept.isPost, hs, hpre, hpost, if_true, List.mem_cons] at hv
          rw [hstack, push_spec s i hwf hov hi] at hv
          rcases hv with hv | hv
          · subst hv; simp
          · refine ih _ _ _ (by simpa using hwf) (by simpa using hov) ?_ v hv
            have hnc : next_child (setClipSpace s i (absolute s i).clip) i = Option.none := by
              unfold pre_or_leaf at hpl
              split at hpl
              · simp at hpl
              · rename_i h
                simp only [next_child, setClipSpace_isContainer, setClipSpace_first_child]
                cases hcont : s.isContainer i with
                | false => simp
                | true =>
                  simp only [hcont, Bool.true_and, Bool.not_eq_true, Option.not_isSome,
                    Option.isNone_iff_eq_none] at h
                  simp [h]
            simp only [increment, hpre, if_true, hnc]
            have hcache' : ∀ a ∈ parents (setClipSpace s i (absolute s i).clip) i,
                ((setClipSpace s i (absolute s i).clip).node a).clip_space =
                  (absolute (setClipSpace s i (absolute s i).clip) a).clip := by
              intro a ha
              simp only [setClipSpace_parents] at ha
              rw [setClipSpace_clip_space, setClipSpace_absolute]
              split
              · rename_i h; rw [h]
              · exact hcache a ha
            apply next_sibling_or_parent_inv _ i _ (by simpa using hwf) (by simpa using hi)
              hcache'
            intro p hp
            have hp' : s.parent i = some p := by simpa using hp
            have := pop_spec (setClipSpace s i (absolute s i).clip) i p (by simpa using hwf)
              (by simpa using hov) (by simpa using hi) hp
              (hcache' p (by
                rw [setClipSpace_parents, parents_of_parent s i p hp'
                  (wfLinks_at hwf hi).2.2.2.2]
                exact List.mem_cons_self _ _))
            simpa using this

/-! ## Paint flag propagation -/

/-! ### Ancestor chains without repetition -/

theorem parentChain_congr (s t : Store) (h : ∀ j, (t.node j).parent = (s.node j).parent)
    (f : Nat) (x : Option Nat) : parentChain t f x = parentChain s f x := by
  induction f generalizing x with
  | zero => rfl
  | succ k ih =>
    cases x with
    | none => rfl
    | some q => simp [parentChain, ih, h]

theorem parents_congr (s t : Store) (hs : t.size = s.size)
    (h : ∀ j, (t.node j).parent = (s.node j).parent) (i : Nat) : parents t i = parents s i := by
  unfold parents
  rw [hs, h, parentChain_congr s t h]

theorem parentChain_add_of_short (s : Store) (f k : Nat) (x : Option Nat)
    (h : (parentChain s f x).length < f) : parentChain s (f + k) x = parentChain s f x := by
  induction k with
  | zero => rfl
  | succ m ih =>
    rw [← Nat.add_assoc, parentChain_succ_of_short s (f + m) x (by rw [ih]; omega), ih]

/-- A chain that contains `q` continues behind `q` with the chain of `q`. -/
theorem parentChain_split (s : Store) (q : Nat) :
    ∀ (f : Nat) (x : Option Nat), q ∈ parentChain s f x →
      ∃ (pre : List Nat) (g : Nat), g < f ∧
        parentChain s f x = pre ++ q :: parentChain s g (s.node q).parent ∧
        pre.length + g + 1 = f := by
  intro f
  induction f with
  | zero => intro x h; simp [parentChain] at h
  | succ k ih =>
    intro x h
    cases x with
    | none => simp [parentChain] at h
    | some y =>
      simp only [parentChain, List.mem_cons] at h
      rcases h with h | h
      · subst h
        exact ⟨[], k, Nat.lt_succ_self k, by simp [parentChain], by simp⟩
      · obtain ⟨pre, g, hg, heq, hl⟩ := ih _ h
        refine ⟨y :: pre, g, by omega, ?_, by simp; omega⟩
        simp [parentChain, heq]

theorem parentChain_nodup (s : Store) :
    ∀ (f : Nat) (x : Option Nat), (parentChain s f x).length < f →
      (parentChain s f x).Nodup := by
  intro f
  induction f with
  | zero => intro x h; simp at h
  | succ k ih =>
    intro x h
    cases x with
    | none => simp [parentChain]
    | some q =>
      simp only [parentChain, List.length_cons, Nat.add_lt_add_iff_right] at h
      simp only [parentChain, List.nodup_cons]
      refine ⟨?_, ih _ h⟩
      intro hq
      obtain ⟨pre, g, hg, heq, hl⟩ := parentChain_split s q k _ hq
      have hshort : (parentChain s g (s.node q).parent).length < g := by
        have := congrArg List.length heq
        simp only [List.length_append, List.length_cons] at this
        omega
      have hsame : parentChain s k (s.node q).parent = parentChain s g (s.node q).parent := by
        have := parentChain_add_of_short s g (k - g) _ hshort
        rwa [Nat.add_sub_cancel' (Nat.le_of_lt hg)] at this
      have := congrArg List.length heq
      rw [hsame] at this
      simp only [List.length_append, List.length_cons] at this
      omega

theorem parents_nodup (s : Store) (i : Nat) (h : (parents s i).length < s.size) :
    (parents s i).Nodup :=
  parentChain_nodup s _ _ h

theorem parents_length_of_parent (s : Store) (i p : Nat) (hp : s.parent i = some p)
    (hlen : (parents s i).length < s.size) : (parents s p).length < s.size := by
  rw [parents_of_parent s i p hp hlen] at hlen
  simp only [List.length_cons] at hlen
  omega


/-! ### Flag updates -/

@[simp] theorem modifyFlags_size (s : Store) (i : Nat) (f : Flags → Flags) :
    (s.modifyFlags i f).size = s.size := rfl

theorem modifyFlags_flags (s : Store) (i : Nat) (f : Flags → Flags) (j : Nat) :
    ((s.modifyFlags i f).node j).flags = if j = i then f (s.node i).flags else (s.node j).flags := by
  simp only [Store.modifyFlags, Store.modify, Store.set]; split <;> simp_all

@[simp] theorem modifyFlags_parent (s : Store) (i : Nat) (f : Flags → Flags) (j : Nat) :
    ((s.modifyFlags i f).node j).parent = (s.node j).parent := by
  simp only [Store.modifyFlags, Store.modify, Store.set]; split <;> simp_all

@[simp] theorem modifyFlags_area (s : Store) (i : Nat) (f : Flags → Flags) (j : Nat) :
    ((s.modifyFlags i f).node j).area = (s.node j).area := by
  simp only [Store.modifyFlags, Store.modify, Store.set]; split <;> simp_all

@[simp] theorem modifyFlags_parents (s : Store) (i : Nat) (f : Flags → Flags) (j : Nat) :
    parents (s.modifyFlags i f) j = parents s j :=
  parents_congr s (s.modifyFlags i f) rfl (fun k => modifyFlags_parent s i f k) j

theorem pathUpTo_subset (s : Store) (l : List Nat) : ∀ a ∈ pathUpTo s l, a ∈ l := by
  induction l with
  | nil => intro a h; simp [pathUpTo] at h
  | cons b rest ih =>
    intro a h
    simp only [pathUpTo] at h
    split at h
    · simp only [List.mem_singleton] at h; simp [h]
    · simp only [List.mem_cons] at h
      rcases h with h | h
      · simp [h]
      · exact List.mem_cons_of_mem _ (ih a h)

theorem pathUpTo_congr (s t : Store) (l : List Nat)
    (h : ∀ j ∈ l, (t.node j).flags = (s.node j).flags) : pathUpTo t l = pathUpTo s l := by
  induction l with
  | nil => rfl
  | cons b rest ih =>
    have hb : t.paintFlagged b = s.paintFlagged b := by
      simp [Store.paintFlagged, Store.isPaintDirty, h b (List.mem_cons_self _ _)]
    simp only [pathUpTo, hb, ih (fun j hj => h j (List.mem_cons_of_mem _ hj))]

/-- The loop of `flag_parent_child_paint_dirty` over a chain without
repetition flags every node of the path and changes no flag outside it. -/
theorem flagParents_spec (l : List Nat) :
    ∀ s : Store, l.Nodup →
      (∀ a ∈ pathUpTo s l, (flagParents s l).paintFlagged a = true) ∧
      (∀ j, j ∉ pathUpTo s l → ((flagParents s l).node j).flags = (s.node j).flags) := by
  induction l with
  | nil => intro s _; simp [pathUpTo, flagParents]
  | cons b rest ih =>
    intro s hnd
    rw [List.nodup_cons] at hnd
    obtain ⟨hb, hrest⟩ := hnd
    by_cases hpd : s.isPaintDirty b = true
    · have hfl : s.paintFlagged b = true := by simp [Store.paintFlagged, hpd]
      simp only [pathUpTo, hfl, if_true, flagParents, hpd, List.mem_singleton]
      refine ⟨fun a ha => by rw [ha]; exact hfl, ?_⟩
      intros; trivial
    · by_cases hcd : (s.node b).flags.PaintChildDirty = true
      · have hfl : s.paintFlagged b = true := by simp [Store.paintFlagged, hcd]
        simp only [pathUpTo, hfl, if_true, flagParents, hpd, hcd, List.mem_singleton]
        by_cases hdv : (s.node b).flags.PaintChildDirtyDiverged = true
        · simp only [hdv, Bool.not_true, Bool.false_eq_true, if_false]
          refine ⟨fun a ha => by rw [ha]; exact hfl, ?_⟩
          intros; trivial
        · simp only [hdv, Bool.not_false, Bool.not_true, Bool.false_eq_true, if_false, if_true]
          refine ⟨fun a ha => ?_, fun j hj => ?_⟩
          · rw [ha]
            simp [Store.paintFlagged, Store.isPaintDirty, modifyFlags_flags, hcd]
          · simp [modifyFlags_flags, hj]
      · have hfl : s.paintFlagged b = false := by
          simp only [Bool.not_eq_true] at hpd hcd
          simp [Store.paintFlagged, hpd, hcd]
        simp only [Bool.not_eq_true] at hpd hcd
        simp only [pathUpTo, hfl, Bool.false_eq_true, if_false, flagParents, hpd, hcd,
          Bool.not_false, if_true, List.mem_cons]
        have hcongr : pathUpTo (s.modifyFlags b
            (fun f => { f with PaintChildDirty := true })) rest = pathUpTo s rest := by
          apply pathUpTo_congr
          intro j hj
          rw [modifyFlags_flags, if_neg]
          intro hjb; rw [hjb] at hj; exact hb hj
        obtain ⟨ih1, ih2⟩ := ih (s.modifyFlags b (fun f => { f with PaintChildDirty := true }))
          hrest
        rw [hcongr] at ih1 ih2
        refine ⟨fun a ha => ?_, fun j hj => ?_⟩
        · rcases ha with ha | ha
          · have hnot : a ∉ pathUpTo s rest := by
              rw [ha]; intro hmem; exact hb (pathUpTo_subset s rest b hmem)
            have := ih2 a hnot
            rw [ha] at this
            simp [Store.paintFlagged, Store.isPaintDirty, this, ha, modifyFlags_flags]
          · exact ih1 a ha
        · simp only [not_or] at hj
          rw [ih2 j hj.2, modifyFlags_flags, if_neg hj.1]

@[simp] theorem flagParents_parent (l : List Nat) :
    ∀ (s : Store) (j : Nat), ((flagParents s l).node j).parent = (s.node j).parent := by
  induction l with
  | nil => intro s j; rfl
  | cons b rest ih =>
    intro s j
    simp only [flagParents]
    split
    · rfl
    · split
      · rw [ih]; simp
      · split
        · simp
        · rfl

@[simp] theorem flagParents_size (l : List Nat) :
    ∀ (s : Store), (flagParents s l).size = s.size := by
  induction l with
  | nil => intro s; rfl
  | cons b rest ih =>
    intro s
    simp only [flagParents]
    split
    · rfl
    · split
      · rw [ih]; simp
      · split
        · simp
        · rfl


/-! ### The setters and `Widget::repaint` -/

theorem setDirtyRepositioned_flags (s : Store) (i j : Nat) :
    ((setDirtyRepositioned s i).node j).flags =
      if j = i then { (s.node i).flags with PaintDirty := true, PaintRepositioned := true }
      else (s.node j).flags := by
  simp only [setDirtyRepositioned, modifyFlags_flags]

theorem repaint_repositioned_spec (s : Store) (n p : Nat) (hp : s.parent n = some p)
    (hlen : (parents s n).length < s.size) :
    (∀ a ∈ setterPath s n, (repaint_repositioned s n).paintFlagged a = true) ∧
    (∀ j, j ∉ setterPath s n → ((repaint_repositioned s n).node j).flags = (s.node j).flags) := by
  have hpar := parents_of_parent s n p hp hlen
  have hnd := parents_nodup s n hlen
  rw [hpar, List.nodup_cons] at hnd
  simp only [setterPath, hpar, repaint_repositioned, hp]
  by_cases hpd : s.isPaintDirty p = true
  · simp only [hpd, if_true, Bool.not_true, Bool.false_eq_true, if_false, List.mem_singleton]
    by_cases hpr : s.isPaintRepositioned p = true
    · simp only [hpr, Bool.not_true, Bool.false_eq_true, if_false]
      refine ⟨fun a ha => by rw [ha]; simp [Store.paintFlagged, hpd], ?_⟩
      intros; trivial
    · simp only [hpr, Bool.not_false, Bool.not_true, if_true]
      refine ⟨fun a ha => ?_, fun j hj => ?_⟩
      · rw [ha]; simp [Store.paintFlagged, Store.isPaintDirty, setDirtyRepositioned_flags]
      · simp [setDirtyRepositioned_flags, hj]
  · simp only [Bool.not_eq_true] at hpd
    simp only [hpd, Bool.not_false, if_true, Bool.false_eq_true, if_false, List.mem_cons,
      flag_parent_child_paint_dirty]
    obtain ⟨h1, h2⟩ := flagParents_spec (parents s p) s hnd.2
    refine ⟨fun a ha => ?_, fun j hj => ?_⟩
    · by_cases hap : a = p
      · rw [hap]; simp [Store.paintFlagged, Store.isPaintDirty, setDirtyRepositioned_flags]
      · rcases ha with ha | ha
        · exact absurd ha hap
        · have := h1 a ha
          simpa [Store.paintFlagged, Store.isPaintDirty, setDirtyRepositioned_flags, hap]
            using this
    · simp only [not_or] at hj
      rw [setDirtyRepositioned_flags, if_neg hj.1, h2 j hj.2]

theorem modify_area_flags (s : Store) (n : Nat) (g : Node → Rect) (j : Nat) :
    ((s.modify n (fun x => { x with area := g x })).node j).flags = (s.node j).flags := by
  simp only [Store.modify, Store.set]; split <;> simp_all

theorem modify_area_parent (s : Store) (n : Nat) (g : Node → Rect) (j : Nat) :
    ((s.modify n (fun x => { x with area := g x })).node j).parent = (s.node j).parent := by
  simp only [Store.modify, Store.set]; split <;> simp_all

theorem modify_area_parents (s : Store) (n : Nat) (g : Node → Rect) (j : Nat) :
    parents (s.modify n (fun x => { x with area := g x })) j = parents s j :=
  parents_congr s (s.modify n (fun x => { x with area := g x })) rfl
    (fun k => modify_area_parent s n g k) j

theorem modify_area_setterPath (s : Store) (n : Nat) (g : Node → Rect) :
    setterPath (s.modify n (fun x => { x with area := g x })) n = setterPath s n := by
  simp only [setterPath, modify_area_parents]
  cases parents s n with
  | nil => rfl
  | cons p above =>
    simp only [Store.isPaintDirty, modify_area_flags]
    rw [pathUpTo_congr s _ above (fun j _ => modify_area_flags s n g j)]

/-- The effect of a geometry change of an attached node on the paint flags. -/
theorem setter_spec (s : Store) (n : Nat) (g : Node → Rect)
    (hlen : (parents s n).length < s.size) (hatt : s.isAttached n = true) :
    (∀ a ∈ setterPath s n,
      (repaint_repositioned (s.modify n (fun x => { x with area := g x })) n).paintFlagged a
        = true) ∧
    (∀ j, j ∉ setterPath s n →
      ((repaint_repositioned (s.modify n (fun x => { x with area := g x })) n).node j).flags
        = (s.node j).flags) := by
  obtain ⟨p, hp⟩ := Option.isSome_iff_exists.mp hatt
  have hp' : (s.modify n (fun x => { x with area := g x })).parent n = some p := by
    simp only [Store.parent, modify_area_parent]; exact hp
  have hlen' : (parents (s.modify n (fun x => { x with area := g x })) n).length <
      (s.modify n (fun x => { x with area := g x })).size := by
    rw [modify_area_parents]; exact hlen
  obtain ⟨h1, h2⟩ := repaint_repositioned_spec _ n p hp' hlen'
  rw [modify_area_setterPath] at h1 h2
  refine ⟨h1, fun j hj => ?_⟩
  rw [h2 j hj, modify_area_flags]

theorem widget_repaint_spec (s : Store) (n : Nat) (hlen : (parents s n).length < s.size)
    (hpd : s.isPaintDirty n = false) :
    (∀ a ∈ repaintPath s n, (Widget.repaint s n).paintFlagged a = true) ∧
    (Widget.repaint s n).isPaintDirty n = true ∧
    (∀ j, j ≠ n → j ∉ repaintPath s n →
      ((Widget.repaint s n).node j).flags = (s.node j).flags) := by
  have hnd := parents_nodup s n hlen
  have hnot : n ∉ parents s n := by
    intro hmem
    obtain ⟨pre, g, hg, heq, hl⟩ := parentChain_split s n _ _ hmem
    have hshort : (parentChain s g (s.node n).parent).length < g := by
      have := congrArg List.length heq
      simp only [List.length_append, List.length_cons] at this
      unfold parents at hlen
      omega
    have hsame := parentChain_add_of_short s g (s.size - g) _ hshort
    rw [Nat.add_sub_cancel' (Nat.le_of_lt hg)] at hsame
    have := congrArg List.length heq
    rw [hsame] at this
    simp only [List.length_append, List.length_cons] at this
    omega
  simp only [Widget.repaint, hpd, Bool.not_false, if_true, flag_parent_child_paint_dirty,
    repaintPath, modifyFlags_parents]
  obtain ⟨h1, h2⟩ := flagParents_spec (parents s n)
    (s.modifyFlags n (fun f => { f with PaintDirty := true })) hnd
  have hcongr : pathUpTo (s.modifyFlags n (fun f => { f with PaintDirty := true }))
      (parents s n) = pathUpTo s (parents s n) := by
    apply pathUpTo_congr
    intro j hj
    rw [modifyFlags_flags, if_neg]
    intro hjn; rw [hjn] at hj; exact hnot hj
  rw [hcongr] at h1 h2
  refine ⟨h1, ?_, fun j hjn hj => ?_⟩
  · have hn : n ∉ pathUpTo s (parents s n) := fun h => hnot (pathUpTo_subset _ _ _ h)
    simp [Store.isPaintDirty, h2 n hn, modifyFlags_flags]
  · rw [h2 j hj, modifyFlags_flags, if_neg hjn]

/-! ### Preservation of the paint invariant -/

theorem anyPaintFlag_of_paintFlagged {s : Store} {i : Nat} (h : s.paintFlagged i = true) :
    s.anyPaintFlag i = true := by
  simp only [Store.paintFlagged, Bool.or_eq_true] at h
  simp only [Store.anyPaintFlag, Bool.or_eq_true]
  exact Or.inl h

/-- The ancestors of an ancestor are ancestors. -/
theorem parents_suffix (s : Store) (n b : Nat) (hlen : (parents s n).length < s.size)
    (hb : b ∈ parents s n) :
    ∃ pre, parents s n = pre ++ b :: parents s b := by
  obtain ⟨pre, g, hg, heq, hl⟩ := parentChain_split s b _ _ hb
  refine ⟨pre, ?_⟩
  have hshort : (parentChain s g (s.node b).parent).length < g := by
    have := congrArg List.length heq
    simp only [List.length_append, List.length_cons] at this
    unfold parents at hlen
    omega
  have hsame := parentChain_add_of_short s g (s.size - g) _ hshort
  rw [Nat.add_sub_cancel' (Nat.le_of_lt hg)] at hsame
  unfold parents
  rw [hsame]
  exact heq

theorem parents_trans (s : Store) (n b a : Nat) (hlen : (parents s n).length < s.size)
    (hb : b ∈ parents s n) (ha : a ∈ parents s b) : a ∈ parents s n := by
  obtain ⟨pre, h⟩ := parents_suffix s n b hlen hb
  rw [h]
  simp [ha]

/-- Under the invariant, an unflagged node of a chain lies on the path: no
node before it stops the walk. -/
theorem mem_pathUpTo_of_unflagged (s : Store) (hinv : PaintInv s) (a : Nat) :
    ∀ (l : List Nat), (∀ pre b post, l = pre ++ b :: post → a ∈ post → a ∈ parents s b) →
      a ∈ l → s.anyPaintFlag a = false → a ∈ pathUpTo s l := by
  intro l
  induction l with
  | nil => intro _ h; simp at h
  | cons c rest ih =>
    intro hsuf hmem hflag
    simp only [pathUpTo]
    by_cases hac : a = c
    · split <;> simp [hac]
    · have hin : a ∈ rest := by
        simp only [List.mem_cons] at hmem
        rcases hmem with h | h
        · exact absurd h hac
        · exact h
      have hc : s.paintFlagged c = false := by
        cases hcf : s.paintFlagged c with
        | false => rfl
        | true =>
          have := hinv c a (hsuf [] c rest rfl hin) hcf
          rw [hflag] at this; exact absurd this (by simp)
      simp only [hc, Bool.false_eq_true, if_false, List.mem_cons]
      right
      apply ih _ hin hflag
      intro pre b post hl hpost
      exact hsuf (c :: pre) b post (by simp [hl]) hpost

theorem parents_suffix_mem (s : Store) (n : Nat) (hlen : (parents s n).length < s.size) :
    ∀ pre b post, parents s n = pre ++ b :: post → ∀ a, a ∈ post → a ∈ parents s b := by
  intro pre b post hl a ha
  have hb : b ∈ parents s n := by rw [hl]; simp
  obtain ⟨pre', h'⟩ := parents_suffix s n b hlen hb
  have hnd := parents_nodup s n hlen
  -- both decompositions split the chain at the only occurrence of `b`
  have : post = parents s b := by
    rw [hl] at h' hnd
    have hnb : b ∉ pre := by
      intro hmem
      rw [List.nodup_append] at hnd
      exact hnd.2.2 hmem (List.mem_cons_self _ _)
    have hnb' : b ∉ pre' := by
      intro hmem
      have hnd' := hnd
      rw [h', List.nodup_append] at hnd'
      exact hnd'.2.2 hmem (List.mem_cons_self _ _)
    have := List.append_eq_append_iff.mp h'
    rcases this with ⟨t, h1, h2⟩ | ⟨t, h1, h2⟩
    · cases t with
      | nil => simp at h2; exact h2
      | cons u t' =>
        simp only [List.cons_append, List.cons.injEq] at h2
        rw [h1, ← h2.1] at hnb'
        simp at hnb'
    · cases t with
      | nil => simp at h2; exact h2.symm
      | cons u t' =>
        simp only [List.cons_append, List.cons.injEq] at h2
        rw [h1, ← h2.1] at hnb
        simp at hnb
  rw [← this]; exact ha

/-- Abstract preservation: flags only grow, the links stay, and every ancestor
of a newly flagged node carries a flag afterwards. -/
theorem paintInv_of_grow (s t : Store) (hinv : PaintInv s)
    (hpar : ∀ x, parents t x = parents s x)
    (hmono : ∀ a, s.anyPaintFlag a = true → t.anyPaintFlag a = true)
    (hnew : ∀ x, s.paintFlagged x = false → t.paintFlagged x = true →
      ∀ a ∈ parents s x, t.anyPaintFlag a = true) : PaintInv t := by
  intro x a ha hx
  rw [hpar] at ha
  cases hsx : s.paintFlagged x with
  | true => exact hmono a (hinv x a ha hsx)
  | false => exact hnew x hsx hx a ha


theorem paintInv_of_propagate (s t : Store) (n : Nat) (hinv : PaintInv s)
    (hlen : (parents s n).length < s.size)
    (hpar : ∀ x, parents t x = parents s x)
    (hmono : ∀ a, s.anyPaintFlag a = true → t.anyPaintFlag a = true)
    (hnew : ∀ x, s.paintFlagged x = false → t.paintFlagged x = true →
      x = n ∨ x ∈ pathUpTo s (parents s n))
    (hpath : ∀ a ∈ pathUpTo s (parents s n), t.paintFlagged a = true) : PaintInv t := by
  apply paintInv_of_grow s t hinv hpar hmono
  intro x hsx htx a ha
  have han : a ∈ parents s n := by
    rcases hnew x hsx htx with h | h
    · rw [← h]; exact ha
    · exact parents_trans s n x a hlen (pathUpTo_subset _ _ _ h) ha
  cases hfa : s.anyPaintFlag a with
  | true => exact hmono a hfa
  | false =>
    apply anyPaintFlag_of_paintFlagged
    apply hpath
    exact mem_pathUpTo_of_unflagged s hinv a _
      (fun pre b post hl hp => parents_suffix_mem s n hlen pre b post hl a hp) han hfa

theorem paintInv_congr (s t : Store) (hinv : PaintInv s)
    (hpar : ∀ x, parents t x = parents s x)
    (hfl : ∀ j, (t.node j).flags = (s.node j).flags) : PaintInv t := by
  apply paintInv_of_grow s t hinv hpar
  · intro a ha
    simpa [Store.anyPaintFlag, Store.isPaintDirty, hfl] using ha
  · intro x hsx htx
    simp only [Store.paintFlagged, Store.isPaintDirty, hfl] at hsx htx
    rw [hsx] at htx; exact absurd htx (by simp)

theorem flagParents_parents (l : List Nat) (s : Store) (x : Nat) :
    parents (flagParents s l) x = parents s x :=
  parents_congr s (flagParents s l) (flagParents_size l s) (fun j => flagParents_parent l s j) x

/-- Setting `PaintDirty` (and possibly `PaintRepositioned`) on `n` and running
`flag_parent_child_paint_dirty` keeps the invariant. -/
theorem paintInv_flag_from (s : Store) (n : Nat) (g : Flags → Flags)
    (hg : ∀ f, (g f).PaintDirty = true ∧ (g f).PaintChildDirty = f.PaintChildDirty ∧
      (g f).PaintChildDirtyDiverged = f.PaintChildDirtyDiverged)
    (hinv : PaintInv s) (hlen : (parents s n).length < s.size) :
    PaintInv (flag_parent_child_paint_dirty (s.modifyFlags n g) n) := by
  have hnd := parents_nodup s n hlen
  have hnot : n ∉ parents s n := by
    intro hmem
    obtain ⟨pre, h⟩ := parents_suffix s n n hlen hmem
    have := congrArg List.length h
    simp only [List.length_append, List.length_cons] at this
    omega
  obtain ⟨h1, h2⟩ := flagParents_spec (parents s n) (s.modifyFlags n g) hnd
  have hcongr : pathUpTo (s.modifyFlags n g) (parents s n) = pathUpTo s (parents s n) := by
    apply pathUpTo_congr
    intro j hj
    rw [modifyFlags_flags, if_neg]
    intro hjn; rw [hjn] at hj; exact hnot hj
  rw [hcongr] at h1 h2
  simp only [flag_parent_child_paint_dirty, modifyFlags_parents]
  apply paintInv_of_propagate s _ n hinv hlen
  · intro x; rw [flagParents_parents, modifyFlags_parents]
  · intro a ha
    by_cases hp : a ∈ pathUpTo s (parents s n)
    · exact anyPaintFlag_of_paintFlagged (h1 a hp)
    · simp only [Store.anyPaintFlag, Store.isPaintDirty, h2 a hp, modifyFlags_flags]
      split
      · rename_i han
        simp only [Store.anyPaintFlag, Store.isPaintDirty, han] at ha
        simp [(hg _).1]
      · exact ha
  · intro x hsx htx
    by_cases hp : x ∈ pathUpTo s (parents s n)
    · exact Or.inr hp
    · left
      by_contra hxn
      simp only [Store.paintFlagged, Store.isPaintDirty, h2 x hp, modifyFlags_flags,
        if_neg hxn] at htx
      simp only [Store.paintFlagged, Store.isPaintDirty] at hsx
      rw [hsx] at htx; exact absurd htx (by simp)
  · exact h1

theorem paintInv_widget_repaint (s : Store) (n : Nat) (hinv : PaintInv s)
    (hlen : (parents s n).length < s.size) : PaintInv (Widget.repaint s n) := by
  unfold Widget.repaint
  split
  · exact paintInv_flag_from s n _ (fun _ => ⟨rfl, rfl, rfl⟩) hinv hlen
  · exact hinv

theorem paintInv_container_repaint (s : Store) (n : Nat) (hinv : PaintInv s)
    (hlen : (parents s n).length < s.size) : PaintInv (Container.repaint s n) :=
  paintInv_flag_from s n _ (fun _ => ⟨rfl, rfl, rfl⟩) hinv hlen

theorem paintInv_setDirtyRepositioned_of_dirty (s : Store) (p : Nat) (hinv : PaintInv s)
    (hp : s.isPaintDirty p = true) : PaintInv (setDirtyRepositioned s p) := by
  apply paintInv_of_grow s _ hinv
  · intro x; exact modifyFlags_parents s p _ x
  · intro a ha
    simp only [Store.anyPaintFlag, Store.isPaintDirty, setDirtyRepositioned_flags] at ha ⊢
    split
    · simp
    · exact ha
  · intro x hsx htx
    simp only [Store.paintFlagged, Store.isPaintDirty, setDirtyRepositioned_flags] at hsx htx
    split at htx
    · rename_i hxp
      rw [hxp] at hsx
      simp only [Store.isPaintDirty] at hp
      rw [hp] at hsx; simp at hsx
    · rw [hsx] at htx; exact absurd htx (by simp)

theorem paintInv_set_after_flag (s : Store) (p : Nat) (hinv : PaintInv s)
    (hlen : (parents s p).length < s.size) :
    PaintInv (setDirtyRepositioned (flag_parent_child_paint_dirty s p) p) := by
  have hnd := parents_nodup s p hlen
  obtain ⟨h1, h2⟩ := flagParents_spec (parents s p) s hnd
  simp only [flag_parent_child_paint_dirty]
  apply paintInv_of_propagate s _ p hinv hlen
  · intro x
    simp only [setDirtyRepositioned, modifyFlags_parents, flagParents_parents]
  · intro a ha
    simp only [Store.anyPaintFlag, Store.isPaintDirty, setDirtyRepositioned_flags]
    split
    · simp
    · by_cases hp : a ∈ pathUpTo s (parents s p)
      · exact anyPaintFlag_of_paintFlagged (h1 a hp)
      · rw [h2 a hp]; exact ha
  · intro x hsx htx
    by_cases hxp : x = p
    · exact Or.inl hxp
    · right
      by_contra hp
      simp only [Store.paintFlagged, Store.isPaintDirty, setDirtyRepositioned_flags,
        if_neg hxp, h2 x hp] at htx
      simp only [Store.paintFlagged, Store.isPaintDirty] at hsx
      rw [hsx] at htx; exact absurd htx (by simp)
  · intro a ha
    have := h1 a ha
    simp only [Store.paintFlagged, Store.isPaintDirty, setDirtyRepositioned_flags] at this ⊢
    split
    · simp
    · exact this

theorem paintInv_repaint_repositioned (s : Store) (n : Nat) (hinv : PaintInv s)
    (hlen : (parents s n).length < s.size) : PaintInv (repaint_repositioned s n) := by
  unfold repaint_repositioned
  cases hp : s.parent n with
  | none =>
    simp only
    split
    · apply paintInv_of_grow s _ hinv
      · intro x; exact modifyFlags_parents s n _ x
      · intro a ha
        simp only [Store.anyPaintFlag, Store.isPaintDirty, setDirtyRepositioned_flags] at ha ⊢
        split
        · simp
        · exact ha
      · intro x hsx htx a ha
        simp only [Store.paintFlagged, Store.isPaintDirty, setDirtyRepositioned_flags]
          at hsx htx
        split at htx
        · rename_i hxn
          rw [hxn, parents_of_root s n hp] at ha
          simp at ha
        · rw [hsx] at htx; exact absurd htx (by simp)
    · exact hinv
  | some p =>
    simp only
    have hlenp := parents_length_of_parent s n p hp hlen
    split
    · exact paintInv_set_after_flag s p hinv hlenp
    · split
      · rename_i hpd _
        simp only [Bool.not_eq_true, Bool.not_eq_false] at hpd
        exact paintInv_setDirtyRepositioned_of_dirty s p hinv (by simpa using hpd)
      · exact hinv


theorem paintInv_modify_area (s : Store) (n : Nat) (g : Node → Rect) (hinv : PaintInv s) :
    PaintInv (s.modify n (fun x => { x with area := g x })) :=
  paintInv_congr s _ hinv (fun x => modify_area_parents s n g x)
    (fun j => modify_area_flags s n g j)

theorem paintInv_setArea (s : Store) (n : Nat) (area : Rect) (hinv : PaintInv s)
    (hlen : (parents s n).length < s.size) : PaintInv (setArea s n area).1 := by
  unfold setArea
  split
  · exact paintInv_repaint_repositioned _ n (paintInv_modify_area s n (fun _ => area) hinv)
      (by rw [modify_area_parents]; exact hlen)
  · exact hinv

theorem paintInv_setPosition (s : Store) (n : Nat) (relative : Vec2) (hinv : PaintInv s)
    (hlen : (parents s n).length < s.size) : PaintInv (setPosition s n relative).1 := by
  unfold setPosition
  split
  · exact paintInv_repaint_repositioned _ n
      (paintInv_modify_area s n (fun x => x.area.relocate relative) hinv)
      (by rw [modify_area_parents]; exact hlen)
  · exact hinv

theorem paintInv_setSize (s : Store) (n : Nat) (size : Vec2) (hinv : PaintInv s)
    (hlen : (parents s n).length < s.size) : PaintInv (setSize s n size).1 := by
  unfold setSize
  split
  · exact paintInv_repaint_repositioned _ n
      (paintInv_modify_area s n (fun x => x.area.resize size) hinv)
      (by rw [modify_area_parents]; exact hlen)
  · exact hinv


/-! ### `reflow`, `erase` and `insert` leave the paint flags alone -/

theorem modify_node (s : Store) (i : Nat) (f : Node → Node) (j : Nat) :
    (s.modify i f).node j = if j = i then f (s.node i) else s.node j := by
  simp only [Store.modify, Store.set]

@[simp] theorem modify_size (s : Store) (i : Nat) (f : Node → Node) :
    (s.modify i f).size = s.size := rfl

theorem reflowParents_parent (l : List Nat) :
    ∀ (s : Store) (j : Nat), ((reflowParents s l).node j).parent = (s.node j).parent := by
  induction l with
  | nil => intro s j; rfl
  | cons b rest ih =>
    intro s j
    simp only [reflowParents]
    split
    · rfl
    · rw [ih]; simp

theorem reflowParents_size (l : List Nat) :
    ∀ (s : Store), (reflowParents s l).size = s.size := by
  induction l with
  | nil => intro s; rfl
  | cons b rest ih =>
    intro s
    simp only [reflowParents]
    split
    · rfl
    · rw [ih]; simp

theorem reflowParents_paintBits (l : List Nat) :
    ∀ (s : Store) (j : Nat),
      paintBits ((reflowParents s l).node j).flags = paintBits (s.node j).flags := by
  induction l with
  | nil => intro s j; rfl
  | cons b rest ih =>
    intro s j
    simp only [reflowParents]
    split
    · rfl
    · rw [ih, modifyFlags_flags]
      split <;> simp_all [paintBits]

theorem reflow_parent (s : Store) (i j : Nat) :
    ((reflow s i).node j).parent = (s.node j).parent := by
  unfold reflow
  split
  · simp [reflowParents_parent]
  · rfl

theorem reflow_size (s : Store) (i : Nat) : (reflow s i).size = s.size := by
  unfold reflow
  split
  · simp [reflowParents_size]
  · rfl

theorem reflow_paintBits (s : Store) (i j : Nat) :
    paintBits ((reflow s i).node j).flags = paintBits (s.node j).flags := by
  unfold reflow
  split
  · rw [modifyFlags_flags]
    split
    · rename_i h
      have := reflowParents_paintBits (parents s i) s i
      rw [h]
      simp only [paintBits] at this ⊢
      exact this
    · exact reflowParents_paintBits _ s j
  · rfl

theorem reflow_parents (s : Store) (i x : Nat) : parents (reflow s i) x = parents s x :=
  parents_congr s (reflow s i) (reflow_size s i) (fun j => reflow_parent s i j) x

theorem paintFlagged_of_paintBits {s t : Store} {j : Nat}
    (h : paintBits (t.node j).flags = paintBits (s.node j).flags) :
    t.paintFlagged j = s.paintFlagged j ∧ t.anyPaintFlag j = s.anyPaintFlag j := by
  simp only [paintBits, Prod.mk.injEq] at h
  simp [Store.paintFlagged, Store.anyPaintFlag, Store.isPaintDirty, h.1, h.2.2.1, h.2.2.2]

theorem paintInv_of_sub (s t : Store) (hinv : PaintInv s)
    (hsub : ∀ x a, a ∈ parents t x → a ∈ parents s x)
    (hfl : ∀ j, paintBits (t.node j).flags = paintBits (s.node j).flags) : PaintInv t := by
  intro x a ha hx
  rw [(paintFlagged_of_paintBits (hfl x)).1] at hx
  rw [(paintFlagged_of_paintBits (hfl a)).2]
  exact hinv x a (hsub x a ha) hx

theorem parentChain_sub (s t : Store)
    (h : ∀ j, (t.node j).parent = (s.node j).parent ∨ (t.node j).parent = Option.none) :
    ∀ (f : Nat) (x : Option Nat) (a : Nat), a ∈ parentChain t f x → a ∈ parentChain s f x := by
  intro f
  induction f with
  | zero => intro x a ha; simp [parentChain] at ha
  | succ k ih =>
    intro x a ha
    cases x with
    | none => simp [parentChain] at ha
    | some q =>
      simp only [parentChain, List.mem_cons] at ha ⊢
      rcases ha with ha | ha
      · exact Or.inl ha
      · right
        rcases h q with hq | hq
        · rw [hq] at ha; exact ih _ _ ha
        · rw [hq, parentChain_none] at ha; simp at ha

theorem KeepsParentFlags.keeps_refl (s : Store) : KeepsParentFlags s s := ⟨rfl, fun _ => ⟨rfl, rfl⟩⟩

theorem KeepsParentFlags.keeps_trans {s t u : Store} (h1 : KeepsParentFlags s t)
    (h2 : KeepsParentFlags t u) : KeepsParentFlags s u :=
  ⟨h2.1.trans h1.1, fun j => ⟨(h2.2 j).1.trans (h1.2 j).1, (h2.2 j).2.trans (h1.2 j).2⟩⟩

theorem keeps_modify (s : Store) (i : Nat) (f : Node → Node)
    (hf : ∀ n, (f n).parent = n.parent ∧ (f n).flags = n.flags) :
    KeepsParentFlags s (s.modify i f) := by
  refine ⟨rfl, fun j => ?_⟩
  rw [modify_node]
  split
  · rename_i h; rw [h]; exact hf _
  · exact ⟨rfl, rfl⟩

theorem erase_fields (s t : Store) (c child : Nat) (r : Option Nat)
    (h : erase s c child = some (t, r)) :
    t.size = s.size ∧
    (∀ j, (t.node j).parent = if j = child then Option.none else (s.node j).parent) ∧
    (∀ j, paintBits (t.node j).flags = paintBits (s.node j).flags) := by
  unfold erase at h
  simp only at h
  split at h
  · simp only [Option.some.injEq, Prod.mk.injEq] at h
    obtain ⟨ht, _⟩ := h
    have key : KeepsParentFlags
        ((reflow s c).modify child (fun n => { n with parent := Option.none })) t := by
      rw [← ht]
      split <;> split <;>
        repeat (first
          | exact KeepsParentFlags.keeps_refl _
          | refine KeepsParentFlags.keeps_trans ?_ (keeps_modify _ _ _ (fun _ => ⟨rfl, rfl⟩)))
    obtain ⟨ksz, kf⟩ := key
    refine ⟨by rw [ksz]; simp [reflow_size], fun j => ?_, fun j => ?_⟩
    · rw [(kf j).1, modify_node]
      split
      · rfl
      · exact reflow_parent s c j
    · rw [(kf j).2, modify_node]
      split
      · rename_i hj; rw [hj]; exact reflow_paintBits s c child
      · exact reflow_paintBits s c j
  · simp at h

theorem paintInv_erase (s t : Store) (c child : Nat) (r : Option Nat)
    (h : erase s c child = some (t, r)) (hinv : PaintInv s) : PaintInv t := by
  obtain ⟨hsz, hpar, hfl⟩ := erase_fields s t c child r h
  apply paintInv_of_sub s t hinv _ hfl
  intro x a ha
  unfold parents at ha ⊢
  rw [hsz] at ha
  have hsub := parentChain_sub s t (fun j => by
    rw [hpar j]; split
    · exact Or.inr rfl
    · exact Or.inl rfl)
  rcases (show (t.node x).parent = (s.node x).parent ∨ (t.node x).parent = Option.none by
    rw [hpar x]; split
    · exact Or.inr rfl
    · exact Or.inl rfl) with hx | hx
  · rw [hx] at ha; exact hsub _ _ _ ha
  · rw [hx, parentChain_none] at ha; simp at ha


theorem insert_fields (s t : Store) (c child : Nat) (pos : Option Nat)
    (h : insert s c pos child = some t) :
    t.size = s.size ∧
    (∀ j, (t.node j).parent = if j = child then some c else (s.node j).parent) ∧
    (∀ j, paintBits (t.node j).flags = paintBits (s.node j).flags) ∧
    s.parent child = Option.none ∧ child ≠ c := by
  unfold insert at h
  simp only at h
  split at h
  · simp at h
  · rename_i hne
    split at h
    · simp at h
    · split at h
      · simp at h
      · rename_i hatt
        split at h
        · simp at h
        · split at h
          · simp at h
          · split at h
            · simp only [Option.some.injEq] at h
              have hroot : s.parent child = Option.none := by
                simpa [Store.isAttached] using hatt
              obtain ⟨X, hX, hk⟩ : ∃ X : Store, t = reflow ((X.modify child
                  (fun n => { n with parent := some c })).modify child
                  (fun n => { n with constraints := Vec2.max, area := Rect.none })) c ∧
                  KeepsParentFlags s X := by
                refine ⟨_, h.symm, ?_⟩
                split <;> split <;>
                  repeat (first
                    | exact KeepsParentFlags.keeps_refl _
                    | refine KeepsParentFlags.keeps_trans ?_
                        (keeps_modify _ _ _ (fun _ => ⟨rfl, rfl⟩)))
              obtain ⟨ksz, kf⟩ := hk
              subst hX
              refine ⟨by simp [reflow_size, ksz], fun j => ?_, fun j => ?_, hroot, hne⟩
              · rw [reflow_parent, modify_node]
                split
                · simp [modify_node]
                · rename_i hj
                  rw [modify_node, if_neg hj, (kf j).1]
              · rw [reflow_paintBits, modify_node]
                split
                · rename_i hj
                  simp only [modify_node, if_true]
                  rw [hj, ← (kf child).2]
                · rename_i hj
                  rw [modify_node, if_neg hj, (kf j).2]
            · simp at h


theorem parentChain_eq_avoid (s t : Store) (child : Nat)
    (h : ∀ j, j ≠ child → (t.node j).parent = (s.node j).parent) :
    ∀ (f : Nat) (y : Option Nat), child ∉ parentChain s f y →
      parentChain t f y = parentChain s f y := by
  intro f
  induction f with
  | zero => intro y _; rfl
  | succ k ih =>
    intro y hy
    cases y with
    | none => rfl
    | some q =>
      simp only [parentChain, List.mem_cons, not_or] at hy ⊢
      have hq : q ≠ child := fun e => hy.1 e.symm
      rw [h q hq, ih _ hy.2]

theorem paintInv_insert (s t : Store) (c child : Nat) (pos : Option Nat)
    (h : insert s c pos child = some t) (hinv : PaintInv s)
    (hclean : ∀ x, (x = child ∨ child ∈ parents s x) → s.paintFlagged x = false) :
    PaintInv t := by
  obtain ⟨hsz, hpar, hfl, _, _⟩ := insert_fields s t c child pos h
  intro x a ha hx
  rw [(paintFlagged_of_paintBits (hfl x)).1] at hx
  rw [(paintFlagged_of_paintBits (hfl a)).2]
  have hxc : x ≠ child := by
    intro e
    rw [hclean x (Or.inl e)] at hx; exact absurd hx (by simp)
  have hnc : child ∉ parents s x := by
    intro e
    rw [hclean x (Or.inr e)] at hx; exact absurd hx (by simp)
  have hsame : parents t x = parents s x := by
    unfold parents at hnc ⊢
    have hx' : (t.node x).parent = (s.node x).parent := by rw [hpar x, if_neg hxc]
    rw [hsz, hx']
    exact parentChain_eq_avoid s t child (fun j hj => by rw [hpar j, if_neg hj]) _ _ hnc
  rw [hsame] at ha
  exact hinv x a ha hx

/-! ## Stores of the same shape: lemmas -/


/-! ### Operations that keep the shape of the store -/

theorem SameShape.refl (s : Store) : SameShape s s :=
  ⟨rfl, fun _ => ⟨rfl, rfl, rfl, rfl, rfl, rfl⟩⟩

theorem SameShape.trans {s t u : Store} (h1 : SameShape s t) (h2 : SameShape t u) :
    SameShape s u := by
  refine ⟨h2.1.trans h1.1, fun j => ?_⟩
  obtain ⟨a1, a2, a3, a4, a5, a6⟩ := h1.2 j
  obtain ⟨b1, b2, b3, b4, b5, b6⟩ := h2.2 j
  exact ⟨b1.trans a1, b2.trans a2, b3.trans a3, b4.trans a4, b5.trans a5, b6.trans a6⟩

theorem SameShape.symm {s t : Store} (h : SameShape s t) : SameShape t s := by
  refine ⟨h.1.symm, fun j => ?_⟩
  obtain ⟨a1, a2, a3, a4, a5, a6⟩ := h.2 j
  exact ⟨a1.symm, a2.symm, a3.symm, a4.symm, a5.symm, a6.symm⟩

theorem sameShape_modify (s : Store) (i : Nat) (f : Node → Node) (hf : KeepsShape f) :
    SameShape s (s.modify i f) := by
  refine ⟨rfl, fun j => ?_⟩
  rw [modify_node]
  split
  · rename_i h; rw [h]; exact hf _
  · exact ⟨rfl, rfl, rfl, rfl, rfl, rfl⟩

theorem sameShape_modifyFlags (s : Store) (i : Nat) (g : Flags → Flags)
    (hg : ∀ f, (g f).WidgetKind = f.WidgetKind) : SameShape s (s.modifyFlags i g) :=
  sameShape_modify s i _ (fun n => ⟨rfl, rfl, rfl, rfl, rfl, hg n.flags⟩)

theorem sameShape_of_modifyFlags {s u : Store} {i : Nat} {g : Flags → Flags}
    (h : SameShape (s.modifyFlags i g) u) (hg : ∀ f, (g f).WidgetKind = f.WidgetKind) :
    SameShape s u :=
  (sameShape_modifyFlags s i g hg).trans h

theorem sameShape_of_modify {s u : Store} {i : Nat} {f : Node → Node}
    (h : SameShape (s.modify i f) u) (hf : KeepsShape f) : SameShape s u :=
  (sameShape_modify s i f hf).trans h

theorem sameShape_reflowParents (l : List Nat) : ∀ s : Store, SameShape s (reflowParents s l) := by
  induction l with
  | nil => intro s; exact SameShape.refl s
  | cons b rest ih =>
    intro s
    simp only [reflowParents]
    split
    · exact SameShape.refl s
    · exact sameShape_of_modifyFlags (ih _) (fun _ => rfl)

theorem sameShape_reflow (s : Store) (i : Nat) : SameShape s (reflow s i) := by
  unfold reflow
  split
  · exact (sameShape_reflowParents _ s).trans (sameShape_modifyFlags _ i _ (fun _ => rfl))
  · exact SameShape.refl s

theorem sameShape_setConstraints (s : Store) (i : Nat) (c : Vec2) :
    SameShape s (setConstraints s i c).1 := by
  unfold setConstraints
  split
  · exact sameShape_of_modify (sameShape_reflow _ i) (fun _ => ⟨rfl, rfl, rfl, rfl, rfl, rfl⟩)
  · exact SameShape.refl s

theorem sameShape_flagParents (l : List Nat) : ∀ s : Store, SameShape s (flagParents s l) := by
  induction l with
  | nil => intro s; exact SameShape.refl s
  | cons b rest ih =>
    intro s
    simp only [flagParents]
    split
    · exact SameShape.refl s
    · split
      · exact sameShape_of_modifyFlags (ih _) (fun _ => rfl)
      · split
        · exact sameShape_modifyFlags s b _ (fun _ => rfl)
        · exact SameShape.refl s

theorem sameShape_setDirtyRepositioned (s : Store) (i : Nat) :
    SameShape s (setDirtyRepositioned s i) :=
  sameShape_modifyFlags s i _ (fun _ => rfl)

theorem sameShape_repaint_repositioned (s : Store) (i : Nat) :
    SameShape s (repaint_repositioned s i) := by
  unfold repaint_repositioned
  split
  · split
    · exact (sameShape_flagParents _ s).trans (sameShape_setDirtyRepositioned _ _)
    · split
      · exact sameShape_setDirtyRepositioned _ _
      · exact SameShape.refl s
  · split
    · exact sameShape_setDirtyRepositioned _ _
    · exact SameShape.refl s

theorem sameShape_setArea (s : Store) (i : Nat) (a : Rect) : SameShape s (setArea s i a).1 := by
  unfold setArea
  split
  · exact sameShape_of_modify (sameShape_repaint_repositioned _ i) (fun _ => ⟨rfl, rfl, rfl, rfl, rfl, rfl⟩)
  · exact SameShape.refl s

theorem sameShape_setPosition (s : Store) (i : Nat) (a : Vec2) :
    SameShape s (setPosition s i a).1 := by
  unfold setPosition
  split
  · exact sameShape_of_modify (sameShape_repaint_repositioned _ i) (fun _ => ⟨rfl, rfl, rfl, rfl, rfl, rfl⟩)
  · exact SameShape.refl s

theorem sameShape_setSize (s : Store) (i : Nat) (a : Vec2) : SameShape s (setSize s i a).1 := by
  unfold setSize
  split
  · exact sameShape_of_modify (sameShape_repaint_repositioned _ i) (fun _ => ⟨rfl, rfl, rfl, rfl, rfl, rfl⟩)
  · exact SameShape.refl s

theorem sameShape_widget_repaint (s : Store) (i : Nat) : SameShape s (Widget.repaint s i) := by
  unfold Widget.repaint
  split
  · exact sameShape_of_modifyFlags (sameShape_flagParents _ _) (fun _ => rfl)
  · exact SameShape.refl s

theorem sameShape_container_repaint (s : Store) (i : Nat) :
    SameShape s (Container.repaint s i) :=
  sameShape_of_modifyFlags (sameShape_flagParents _ _) (fun _ => rfl)

theorem sameShape_repaint_all (s : Store) (i : Nat) : SameShape s (repaint_all s i) := by
  unfold repaint_all NodeAccess.repaint
  simp only
  split <;> split <;>
    first
      | exact sameShape_widget_repaint s i
      | exact sameShape_container_repaint s i
      | exact (sameShape_widget_repaint s i).trans (sameShape_modifyFlags _ i _ (fun _ => rfl))
      | exact (sameShape_container_repaint s i).trans
          (sameShape_modifyFlags _ i _ (fun _ => rfl))

theorem sameShape_reset (s : Store) (i : Nat) : SameShape s (reset s i) :=
  (sameShape_reflow s i).trans (sameShape_repaint_all _ i)

theorem sameShape_clearLayoutDirty (s : Store) (i : Nat) : SameShape s (clearLayoutDirty s i) :=
  sameShape_modifyFlags s i _ (fun _ => rfl)

theorem sameShape_clearPaintDirty (s : Store) (i : Nat) : SameShape s (clearPaintDirty s i) :=
  sameShape_modifyFlags s i _ (fun _ => rfl)

theorem sameShape_setClipSpace (s : Store) (i : Nat) (c : Rect) :
    SameShape s (setClipSpace s i c) :=
  sameShape_modify s i _ (fun _ => ⟨rfl, rfl, rfl, rfl, rfl, rfl⟩)

theorem sameShape_push (s : Store) (st : PositionRebuilder) (i : Nat) :
    SameShape s (st.push s i).1 :=
  sameShape_setClipSpace s i _

/-! ### What depends on the shape only -/

theorem SameShape.parents {s t : Store} (h : SameShape s t) (i : Nat) :
    parents t i = parents s i :=
  parents_congr s t h.1 (fun j => (h.2 j).1) i

theorem SameShape.parent {s t : Store} (h : SameShape s t) (i : Nat) :
    t.parent i = s.parent i := (h.2 i).1

theorem SameShape.isContainer {s t : Store} (h : SameShape s t) (i : Nat) :
    t.isContainer i = s.isContainer i := by
  simp [Store.isContainer, (h.2 i).2.2.2.2.2]

theorem SameShape.isWidget {s t : Store} (h : SameShape s t) (i : Nat) :
    t.isWidget i = s.isWidget i := by
  simp [Store.isWidget, (h.2 i).2.2.2.2.2]

theorem SameShape.isAttached {s t : Store} (h : SameShape s t) (i : Nat) :
    t.isAttached i = s.isAttached i := by
  simp [Store.isAttached, h.parent i]

theorem SameShape.pre_or_leaf {s t : Store} (h : SameShape s t) (i : Nat) :
    pre_or_leaf t i = pre_or_leaf s i := by
  simp [Cui.pre_or_leaf, h.isContainer i, (h.2 i).2.2.2.1]

theorem SameShape.next_child {s t : Store} (h : SameShape s t) (i : Nat) :
    next_child t i = next_child s i := by
  simp [Cui.next_child, h.isContainer i, (h.2 i).2.2.2.1]

theorem SameShape.next_sibling_or_parent {s t : Store} (h : SameShape s t) (i : Nat) :
    next_sibling_or_parent t i = next_sibling_or_parent s i := by
  simp only [Cui.next_sibling_or_parent, (h.2 i).2.1, h.parent i]
  split <;> simp [h.pre_or_leaf]

theorem SameShape.increment {s t : Store} (h : SameShape s t) (i : Nat) (st : AcceptState) :
    increment t i st = increment s i st := by
  simp only [Cui.increment, h.next_child i, h.next_sibling_or_parent i]
  split
  · split <;> simp [h.pre_or_leaf]
  · rfl

theorem SameShape.traverseBegin {s t : Store} (h : SameShape s t) (i : Nat) :
    traverseBegin t i = traverseBegin s i := by
  simp [Cui.traverseBegin, h.pre_or_leaf]

theorem SameShape.traverseEnd {s t : Store} (h : SameShape s t) (i : Nat) :
    traverseEnd t i = traverseEnd s i := h.next_sibling_or_parent i

theorem SameShape.wfLinks {s t : Store} (h : SameShape s t) : wfLinks t = wfLinks s := by
  have hp : ∀ i, t.parent i = s.parent i := h.parent
  have hf : ∀ i, (t.node i).first_child = (s.node i).first_child := fun i => (h.2 i).2.2.2.1
  have hn : ∀ i, (t.node i).next_sibling = (s.node i).next_sibling := fun i => (h.2 i).2.1
  have hpa : ∀ i, Cui.parents t i = Cui.parents s i := h.parents
  simp only [Cui.wfLinks, h.1, hp, hf, hn, hpa]


/-! ### The traversal stays inside the store -/

theorem next_sibling_or_parent_lt {s : Store} (hwf : wfLinks s = true) {i : Nat}
    (hi : i < s.size) {j : Nat} (h : (next_sibling_or_parent s i).node = some j) :
    j < s.size := by
  obtain ⟨hpar, _, _, hsib, _⟩ := wfLinks_at hwf hi
  unfold next_sibling_or_parent at h
  split at h
  · rename_i m hm
    simp only [Option.some.injEq] at h
    rw [← h]; exact (hsib m hm).1
  · simp only at h
    exact hpar j h

theorem increment_lt {s : Store} (hwf : wfLinks s = true) {i : Nat} (hi : i < s.size)
    (st : AcceptState) {j : Nat} (h : (increment s i st).node = some j) : j < s.size := by
  obtain ⟨_, _, hchild, _, _⟩ := wfLinks_at hwf hi
  unfold increment at h
  split at h
  · split at h
    · rename_i c hc
      simp only [Option.some.injEq] at h
      unfold next_child at hc
      split at hc
      · rw [← h]; exact (hchild c hc).1
      · simp at hc
    · exact next_sibling_or_parent_lt hwf hi h
  · exact next_sibling_or_parent_lt hwf hi h

/-! ### Properties that every step of `layout` keeps -/

theorem layout_end_stable {Q : Store → Prop} (hQ : LayoutStable Q) (hooks : Hooks) (s : Store)
    (node current : Nat) (h : Q s) (hc : current < s.size) :
    Q (layout_end hooks s node current).1 ∧
      (layout_end hooks s node current).1.size = s.size := by
  unfold layout_end
  split
  · split
    · exact ⟨hQ.setSize _ _ _ h hc, (sameShape_setSize _ _ _).1⟩
    · exact ⟨hQ.setSize _ _ _ h hc, (sameShape_setSize _ _ _).1⟩
  · exact ⟨hQ.setSize _ _ _ h hc, (sameShape_setSize _ _ _).1⟩

theorem layout_pass_stable {Q : Store → Prop} (hQ : LayoutStable Q) (hooks : Hooks)
    (node : Nat) (s : Store) (i : Nat) (st : AcceptState) (r : LayoutStep)
    (h : Q s) (hi : i < s.size) (hr : layout_pass hooks node s i st = some r) :
    Q r.store ∧ r.node < r.store.size := by
  unfold layout_pass at hr
  simp only at hr
  -- the store after the pre part
  have hpre : ∀ s1 : Store,
      (if st != AcceptState.Post then
        if i ≠ node then
          match s.parent i with
          | some p =>
            if s.isLayoutDirty p then
              some (setConstraints s i (hooks.onLayoutConstrain s p i)).1
            else some s
          | Option.none => Option.none
        else some s
      else some s) = some s1 → Q s1 ∧ s1.size = s.size := by
    intro s1 h1
    split at h1
    · split at h1
      · split at h1
        · split at h1
          · simp only [Option.some.injEq] at h1
            rw [← h1]
            exact ⟨hQ.setConstraints _ _ _ h hi, (sameShape_setConstraints _ _ _).1⟩
          · simp only [Option.some.injEq] at h1; rw [← h1]; exact ⟨h, rfl⟩
        · simp at h1
      · simp only [Option.some.injEq] at h1; rw [← h1]; exact ⟨h, rfl⟩
    · simp only [Option.some.injEq] at h1; rw [← h1]; exact ⟨h, rfl⟩
  split at hr
  · simp at hr
  · rename_i s1 hs1
    obtain ⟨hq1, hsz1⟩ := hpre s1 hs1
    have hi1 : i < s1.size := by rw [hsz1]; exact hi
    split at hr
    · simp only [Option.some.injEq] at hr; rw [← hr]; exact ⟨hq1, hi1⟩
    · split at hr
      · have hq2 := hQ.clearLayoutDirty s1 i hq1 hi1
        have hi2 : i < (clearLayoutDirty s1 i).size := hi1
        split at hr
        · obtain ⟨hq3, hsz3⟩ := layout_end_stable hQ hooks (clearLayoutDirty s1 i) node i hq2 hi2
          have hi3 : i < (layout_end hooks (clearLayoutDirty s1 i) node i).1.size := by
            rw [hsz3]; exact hi2
          split at hr
          · split at hr
            · rename_i p hp
              have hp3 : p < (layout_end hooks (clearLayoutDirty s1 i) node i).1.size :=
                (wfLinks_at (hQ.wf _ hq3) hi3).1 p hp
              split at hr
              · simp only [Option.some.injEq] at hr; rw [← hr]
                exact ⟨hQ.reflow _ _ hq3 hp3, by rw [(sameShape_reflow _ _).1]; exact hp3⟩
              · simp only [Option.some.injEq] at hr; rw [← hr]; exact ⟨hq3, hi3⟩
            · simp at hr
          · simp only [Option.some.injEq] at hr; rw [← hr]; exact ⟨hq3, hi3⟩
        · simp only [Option.some.injEq] at hr; rw [← hr]; exact ⟨hq2, hi2⟩
      · simp only [Option.some.injEq] at hr; rw [← hr]; exact ⟨hq1, hi1⟩

theorem layout_while_stable {Q : Store → Prop} (hQ : LayoutStable Q) (hooks : Hooks)
    (node : Nat) :
    ∀ (fuel : Nat) (s : Store) (i : Nat) (st : AcceptState) (r : LayoutStep),
      Q s → i < s.size → layout_while hooks node fuel s i st = some r →
      Q r.store ∧ r.node < r.store.size := by
  intro fuel
  induction fuel with
  | zero => intro s i st r _ _ hr; simp [layout_while] at hr
  | succ k ih =>
    intro s i st r h hi hr
    unfold layout_while at hr
    split at hr
    · simp at hr
    · rename_i r1 hr1
      obtain ⟨hq1, hn1⟩ := layout_pass_stable hQ hooks node s i st r1 h hi hr1
      split at hr
      · exact ih _ _ _ _ hq1 hn1 hr
      · simp only [Option.some.injEq] at hr; rw [← hr]; exact ⟨hq1, hn1⟩

theorem layout_loop_stable {Q : Store → Prop} (hQ : LayoutStable Q) (hooks : Hooks)
    (node : Nat) (last : Accept) :
    ∀ (fuel : Nat) (s : Store) (cur : Accept) (t : Store),
      Q s → (∀ i, cur.node = some i → i < s.size) →
      layout_loop hooks node last fuel s cur = some t → Q t := by
  intro fuel
  induction fuel with
  | zero =>
    intro s cur t h _ ht
    unfold layout_loop at ht
    split at ht
    · simp only [Option.some.injEq] at ht; rw [← ht]; exact h
    · simp at ht
  | succ k ih =>
    intro s cur t h hcur ht
    unfold layout_loop at ht
    split at ht
    · simp only [Option.some.injEq] at ht; rw [← ht]; exact h
    · split at ht
      · simp at ht
      · rename_i i hi
        split at ht
        · simp at ht
        · rename_i r hr
          obtain ⟨hq, hn⟩ := layout_while_stable hQ hooks node _ s i cur.state r h
            (hcur i hi) hr
          exact ih _ _ _ hq (fun j hj => increment_lt (hQ.wf _ hq) hn _ hj) ht

theorem layout_init_stable {Q : Store → Prop} (hQ : LayoutStable Q) (hooks : Hooks)
    (surface : Surface) (s : Store) (node : Nat) (h : Q s) (hn : node < s.size) :
    Q (layout_init hooks surface s node).1 ∧
      (layout_init hooks surface s node).1.size = s.size := by
  have h2 : ∀ s1 : Store, Q s1 → s1.size = s.size →
      Q (if s1.isWidget node then
          (clearLayoutDirty
            (if !s1.isAttached node then (setSize s1 node (s1.node node).constraints).1
             else (setSize s1 node (hooks.preferredSize s1 node)).1) node, false)
        else (s1, true)).1 ∧
      (if s1.isWidget node then
          (clearLayoutDirty
            (if !s1.isAttached node then (setSize s1 node (s1.node node).constraints).1
             else (setSize s1 node (hooks.preferredSize s1 node)).1) node, false)
        else (s1, true)).1.size = s.size := by
    intro s1 hq1 hsz1
    have hn1 : node < s1.size := by rw [hsz1]; exact hn
    split
    · split
      · refine ⟨hQ.clearLayoutDirty _ _ (hQ.setSize _ _ _ hq1 hn1) ?_, ?_⟩
        · rw [(sameShape_setSize _ _ _).1]; exact hn1
        · show (clearLayoutDirty _ node).size = s.size
          rw [(sameShape_clearLayoutDirty _ _).1, (sameShape_setSize _ _ _).1, hsz1]
      · refine ⟨hQ.clearLayoutDirty _ _ (hQ.setSize _ _ _ hq1 hn1) ?_, ?_⟩
        · rw [(sameShape_setSize _ _ _).1]; exact hn1
        · show (clearLayoutDirty _ node).size = s.size
          rw [(sameShape_clearLayoutDirty _ _).1, (sameShape_setSize _ _ _).1, hsz1]
    · exact ⟨hq1, hsz1⟩
  unfold layout_init
  simp only
  by_cases hc : surface.changed = true
  · simp only [hc, if_true]
    have hr := hQ.reset s node h hn
    have hsz : (reset s node).size = s.size := (sameShape_reset s node).1
    exact h2 _ (hQ.setConstraints _ _ _ hr (by rw [hsz]; exact hn))
      (by rw [(sameShape_setConstraints _ _ _).1, hsz])
  · simp only [hc, if_false]
    by_cases ha : (!s.isAttached node) = true
    · simp only [ha, if_true]
      exact h2 _ (hQ.setConstraints _ _ _ h hn) (sameShape_setConstraints _ _ _).1
    · simp only [ha, if_false]
      exact h2 _ h rfl

theorem layout_stable {Q : Store → Prop} (hQ : LayoutStable Q) (hooks : Hooks) (fuel : Nat)
    (surface : Surface) (s t : Store) (node : Nat) (h : Q s) (hn : node < s.size)
    (ht : layout hooks fuel surface s node = some t) : Q t := by
  unfold layout at ht
  simp only at ht
  obtain ⟨hq, hsz⟩ := layout_init_stable hQ hooks surface s node h hn
  split at ht
  · simp only [Option.some.injEq] at ht; rw [← ht]; exact hq
  · split at ht
    · simp only [Option.some.injEq] at ht; rw [← ht]; exact hq
    · refine layout_loop_stable hQ hooks node _ fuel _ _ t hq ?_ ht
      intro i hi
      simp only [traverseBegin, Option.some.injEq] at hi
      rw [← hi, hsz]; exact hn

/-! ### `layout` keeps the paint invariant -/

theorem paintInv_of_flagged (s t : Store) (hinv : PaintInv s)
    (hpar : ∀ x, parents t x = parents s x)
    (hfl : ∀ j, t.paintFlagged j = s.paintFlagged j ∧ t.anyPaintFlag j = s.anyPaintFlag j) :
    PaintInv t := by
  intro x a ha hx
  rw [(hfl x).1] at hx
  rw [(hfl a).2]
  rw [hpar] at ha
  exact hinv x a ha hx

theorem paintInv_reflow (s : Store) (i : Nat) (hinv : PaintInv s) : PaintInv (reflow s i) :=
  paintInv_of_flagged s _ hinv (reflow_parents s i)
    (fun j => paintFlagged_of_paintBits (reflow_paintBits s i j))

theorem paintInv_setConstraints (s : Store) (i : Nat) (c : Vec2) (hinv : PaintInv s) :
    PaintInv (setConstraints s i c).1 := by
  unfold setConstraints
  split
  · apply paintInv_reflow
    apply paintInv_of_flagged s _ hinv
    · intro x
      exact parents_congr s (s.modify i _) rfl
        (fun j => by rw [modify_node]; split <;> simp_all) x
    · intro j
      have : ((s.modify i (fun n => { n with constraints := c })).node j).flags
          = (s.node j).flags := by
        rw [modify_node]; split
        · rename_i h; rw [h]
        · rfl
      simp [Store.paintFlagged, Store.anyPaintFlag, Store.isPaintDirty, this]
  · exact hinv

theorem paintInv_clearLayoutDirty (s : Store) (i : Nat) (hinv : PaintInv s) :
    PaintInv (clearLayoutDirty s i) := by
  apply paintInv_of_flagged s _ hinv (sameShape_clearLayoutDirty s i).parents
  intro j
  apply paintFlagged_of_paintBits
  unfold clearLayoutDirty
  rw [modifyFlags_flags]
  split
  · rename_i h; rw [h]; rfl
  · rfl

theorem paintInv_repaint_all (s : Store) (i : Nat) (hinv : PaintInv s)
    (hlen : (parents s i).length < s.size) : PaintInv (repaint_all s i) := by
  have h1 : PaintInv (NodeAccess.repaint s i) := by
    unfold NodeAccess.repaint
    split
    · exact paintInv_widget_repaint s i hinv hlen
    · exact paintInv_container_repaint s i hinv hlen
  unfold repaint_all
  simp only
  split
  · apply paintInv_of_flagged _ _ h1 (fun x => modifyFlags_parents _ i _ x)
    intro j
    simp only [Store.paintFlagged, Store.anyPaintFlag, Store.isPaintDirty, modifyFlags_flags]
    split
    · rename_i h; rw [h]; exact ⟨rfl, rfl⟩
    · exact ⟨rfl, rfl⟩
  · exact h1

theorem layoutStable_paint : LayoutStable (fun s => PaintInv s ∧ wfLinks s = true) where
  wf := fun _ h => h.2
  reflow := fun s i h _ =>
    ⟨paintInv_reflow s i h.1, by rw [(sameShape_reflow s i).wfLinks]; exact h.2⟩
  setConstraints := fun s i c h _ =>
    ⟨paintInv_setConstraints s i c h.1, by
      rw [(sameShape_setConstraints s i c).wfLinks]; exact h.2⟩
  setSize := fun s i v h hi =>
    ⟨paintInv_setSize s i v h.1 (wfLinks_at h.2 hi).2.2.2.2, by
      rw [(sameShape_setSize s i v).wfLinks]; exact h.2⟩
  clearLayoutDirty := fun s i h _ =>
    ⟨paintInv_clearLayoutDirty s i h.1, by
      rw [(sameShape_clearLayoutDirty s i).wfLinks]; exact h.2⟩
  reset := fun s i h hi =>
    ⟨paintInv_repaint_all _ i (paintInv_reflow s i h.1) (by
        rw [reflow_parents, reflow_size]; exact (wfLinks_at h.2 hi).2.2.2.2), by
      rw [(sameShape_reset s i).wfLinks]; exact h.2⟩

theorem paintInv_layout (hooks : Hooks) (fuel : Nat) (surface : Surface) (s t : Store)
    (node : Nat) (hinv : PaintInv s) (hwf : wfLinks s = true) (hn : node < s.size)
    (ht : layout hooks fuel surface s node = some t) : PaintInv t :=
  (layout_stable layoutStable_paint hooks fuel surface s t node ⟨hinv, hwf⟩ hn ht).1

theorem paintDirtyCovered_of_paintInv {s : Store} (h : PaintInv s) : PaintDirtyCovered s := by
  intro x a ha hx
  exact h x a ha (by simp [Store.paintFlagged, hx])

theorem twoNodes_parents (x : Nat) : parents twoNodes x = [] := by
  unfold parents twoNodes
  by_cases h : x = 0
  · simp [h, Node.freshContainer, parentChain]
  · simp [h, Node.freshWidget, parentChain]

/-! ### Containment of rectangles -/

theorem contains_iff (r o : Rect) : r.contains o = true ↔
    (r.low.x ≤ o.low.x ∧ o.high.x ≤ r.high.x) ∧ (r.low.y ≤ o.low.y ∧ o.high.y ≤ r.high.y) := by
  simp [Rect.contains]

theorem contains_refl (r : Rect) : r.contains r = true := by
  simp [contains_iff]

theorem contains_trans {a b c : Rect} (h1 : a.contains b = true) (h2 : b.contains c = true) :
    a.contains c = true := by
  rw [contains_iff] at *
  omega

theorem le_pmax_left (a b : Int) : a ≤ pmax a b := by
  unfold pmax; split <;> omega

theorem le_pmax_right (a b : Int) : b ≤ pmax a b := by
  unfold pmax; split <;> omega

theorem pmin_le_left (a b : Int) : pmin a b ≤ a := by
  unfold pmin; split <;> omega

theorem pmin_le_right (a b : Int) : pmin a b ≤ b := by
  unfold pmin; split <;> omega

theorem contains_ofIntersect_left (l r : Rect) : l.contains (Rect.ofIntersect l r) = true := by
  rw [contains_iff]
  simp only [Rect.ofIntersect, vmax, vmin]
  exact ⟨⟨le_pmax_left _ _, pmin_le_left _ _⟩, ⟨le_pmax_left _ _, pmin_le_left _ _⟩⟩

theorem contains_ofIntersect_right (l r : Rect) : r.contains (Rect.ofIntersect l r) = true := by
  rw [contains_iff]
  simp only [Rect.ofIntersect, vmax, vmin]
  exact ⟨⟨le_pmax_right _ _, pmin_le_right _ _⟩, ⟨le_pmax_right _ _, pmin_le_right _ _⟩⟩

/-! ### The rebuilt clip lies inside the absolute clip -/

theorem rebuild_low_step (C a c l T : Int) :
    pmax C (wrapPoint (pmax a (wrapPoint (c + l)) + T)) ≤
      pmax (pmax C (wrapPoint (a + T))) (wrapPoint (c + wrapPoint (T + l))) := by
  unfold pmax wrapPoint
  split_ifs <;> omega

theorem rebuild_high_step (C a c l T : Int) :
    pmin (pmin C (wrapPoint (a + T))) (wrapPoint (c + wrapPoint (T + l))) ≤
      pmin C (wrapPoint (pmin a (wrapPoint (c + l)) + T)) := by
  unfold pmin wrapPoint
  split_ifs <;> omega

theorem inRect_translate (r : Rect) (v : Vec2) : inRect (r.translate v) = true := by
  rw [inRect_iff]
  simp only [Rect.translate, Vec2.add, Rect.shift, inPoint_iff, wrapPoint, pointMin, pointMax]
  omega

theorem absoluteLoop_contains_rebuilt (s : Store) (l : List Nat) :
    (∀ p ∈ l, inRect (s.node p).area = true) →
    ∀ (c : Rect) (t : Vec2), inRect c = true →
      ((absoluteLoop s ⟨c, t⟩ l).clip).contains
        (Rect.ofIntersect (rebuiltChain s l).clip
          (c.translate (rebuiltChain s l).translation)) = true := by
  induction l with
  | nil =>
    intro _ c t hc
    rw [inRect_iff] at hc
    simp only [inPoint_iff] at hc
    rw [contains_iff]
    simp only [absoluteLoop, rebuiltChain, Rect.ofIntersect, Rect.translate, Rect.all, vmax, vmin,
      Vec2.add, Vec2.origin, Vec2.min, Vec2.max, pmax, pmin, wrapPoint, pointMin, pointMax]
    split_ifs <;> omega
  | cons p ps ih =>
    intro hty c t hc
    have hp := hty p (List.mem_cons_self _ _)
    have hc1 : inRect (Rect.ofIntersect (s.node p).area (c.translate (s.node p).area.low))
        = true := inRect_ofIntersect hp (inRect_translate _ _)
    have h := ih (fun q hq => hty q (List.mem_cons_of_mem _ hq)) _
      (t.add (s.node p).area.low) hc1
    simp only [absoluteLoop]
    refine contains_trans h ?_
    rw [contains_iff]
    simp only [rebuiltChain, PositionRebuilder.push, Rect.ofIntersect, Rect.translate, vmax,
      vmin, Vec2.add]
    exact ⟨⟨rebuild_low_step _ _ _ _ _, rebuild_high_step _ _ _ _ _⟩,
      ⟨rebuild_low_step _ _ _ _ _, rebuild_high_step _ _ _ _ _⟩⟩

/-! ### Stores that differ in one cached clip and in cleared paint flags -/

theorem Node.shrinks_refl (n : Node) : Node.shrinks n n :=
  ⟨rfl, rfl, rfl, rfl, rfl, rfl, rfl, id, id, id⟩

theorem Node.shrinks_trans {a b c : Node} (h1 : Node.shrinks a b) (h2 : Node.shrinks b c) :
    Node.shrinks a c := by
  obtain ⟨a1, a2, a3, a4, a5, a6, a7, a8, a9, a10⟩ := h1
  obtain ⟨b1, b2, b3, b4, b5, b6, b7, b8, b9, b10⟩ := h2
  exact ⟨b1.trans a1, b2.trans a2, b3.trans a3, b4.trans a4, b5.trans a5, b6.trans a6,
    b7.trans a7, fun h => a8 (b8 h), fun h => a9 (b9 h), fun h => a10 (b10 h)⟩

theorem PaintFrame.frame_refl (i : Nat) (s : Store) : PaintFrame i s s :=
  ⟨rfl, Node.shrinks_refl _, fun _ _ => rfl⟩

theorem PaintFrame.frame_trans {i : Nat} {s t u : Store} (h1 : PaintFrame i s t)
    (h2 : PaintFrame i t u) : PaintFrame i s u :=
  ⟨h2.1.trans h1.1, Node.shrinks_trans h1.2.1 h2.2.1,
    fun j hj => (h2.2.2 j hj).trans (h1.2.2 j hj)⟩

theorem PaintFrame.shrinks {i : Nat} {s t : Store} (h : PaintFrame i s t) (j : Nat) :
    Node.shrinks (s.node j) (t.node j) := by
  by_cases hj : j = i
  · rw [hj]; exact h.2.1
  · rw [h.2.2 j hj]; exact Node.shrinks_refl _

theorem PaintFrame.sameShape {i : Nat} {s t : Store} (h : PaintFrame i s t) : SameShape s t :=
  ⟨h.1, fun j => by
    obtain ⟨a1, a2, a3, a4, a5, a6, _⟩ := h.shrinks j
    exact ⟨a1, a2, a3, a4, a5, a6⟩⟩

theorem paintFrame_setClipSpace (s : Store) (i : Nat) (c : Rect) :
    PaintFrame i s (setClipSpace s i c) := by
  refine ⟨rfl, ?_, fun j hj => ?_⟩
  · simp only [setClipSpace, modify_node, if_true]
    exact ⟨rfl, rfl, rfl, rfl, rfl, rfl, rfl, id, id, id⟩
  · simp only [setClipSpace, modify_node, if_neg hj]

theorem paintFrame_clearPaintDirty (s : Store) (i : Nat) :
    PaintFrame i s (clearPaintDirty s i) := by
  refine ⟨rfl, ?_, fun j hj => ?_⟩
  · simp only [clearPaintDirty, Store.modifyFlags, modify_node, if_true]
    refine ⟨rfl, rfl, rfl, rfl, rfl, rfl, rfl, ?_, ?_, ?_⟩ <;> intro h <;> simp at h
  · simp only [clearPaintDirty, Store.modifyFlags, modify_node, if_neg hj]

theorem paintFrame_push (s : Store) (st : PositionRebuilder) (i : Nat) :
    PaintFrame i s (st.push s i).1 :=
  paintFrame_setClipSpace s i _

theorem Event.within_mono {a b : Rect} (h : a.contains b = true) {w : Nat} {e : Event}
    (he : Event.within b w e) : Event.within a w e := by
  cases e with
  | begin window => exact contains_trans h he
  | paint widget t clip => exact ⟨he.1, contains_trans h he.2⟩
  | finish => trivial
  | flush => trivial

/-! ### `paint_impl` on a widget -/

theorem same_self (a : Accept) : a.same a = true := by
  simp [Accept.same]

theorem paint_impl_loop_same (cf : Bool) (window : Rect) (last : Accept) (fuel : Nat)
    (ps : PaintState) (stk : PositionRebuilder) :
    paint_impl_loop cf window last fuel ps stk last = ps := by
  cases fuel <;> simp [paint_impl_loop, same_self]

theorem increment_widget (s : Store) (w : Nat) (hw : s.isWidget w = true) (st : AcceptState) :
    increment s w st = next_sibling_or_parent s w := by
  unfold increment next_child
  have : s.isContainer w = false := by
    simp only [Store.isContainer, Store.isWidget] at hw ⊢; simp [hw]
  simp [this]

theorem paint_impl_visit_leaf (window : Rect) (ps : PaintState) (stk : PositionRebuilder)
    (w : Nat) (hw : ps.store.isWidget w = true) :
    PaintFrame w ps.store (paint_impl_visit true window ps stk w AcceptState.Leaf).1.store ∧
    ((paint_impl_visit true window ps stk w AcceptState.Leaf).1.trace = ps.trace ∨
      ∃ t c, (paint_impl_visit true window ps stk w AcceptState.Leaf).1.trace
        = ps.trace ++ [Event.paint w t c] ∧ window.contains c = true) := by
  have hw1 : (stk.push ps.store w).1.isWidget w = true := by
    rw [(sameShape_push ps.store stk w).isWidget]; exact hw
  unfold paint_impl_visit
  simp only [show (AcceptState.Leaf != AcceptState.Post) = true from rfl,
    show (AcceptState.Leaf != AcceptState.Pre) = true from rfl, if_true, hw1]
  split
  · refine ⟨(paintFrame_push _ _ _).frame_trans (paintFrame_clearPaintDirty _ _), Or.inr ⟨_, _, rfl, ?_⟩⟩
    exact contains_ofIntersect_left _ _
  · exact ⟨paintFrame_push _ _ _, Or.inl rfl⟩

theorem paint_impl_loop_leaf (window : Rect) (fuel : Nat) (ps : PaintState)
    (stk : PositionRebuilder) (w : Nat) (hw : ps.store.isWidget w = true) :
    PaintFrame w ps.store (paint_impl_loop true window (traverseEnd ps.store w) fuel ps stk
      ⟨some w, AcceptState.Leaf⟩).store ∧
    ((paint_impl_loop true window (traverseEnd ps.store w) fuel ps stk
        ⟨some w, AcceptState.Leaf⟩).trace = ps.trace ∨
      ∃ t c, (paint_impl_loop true window (traverseEnd ps.store w) fuel ps stk
        ⟨some w, AcceptState.Leaf⟩).trace = ps.trace ++ [Event.paint w t c] ∧
          window.contains c = true) := by
  cases fuel with
  | zero =>
    unfold paint_impl_loop
    split
    · exact ⟨PaintFrame.frame_refl _ _, Or.inl rfl⟩
    · exact ⟨PaintFrame.frame_refl _ _, Or.inl rfl⟩
  | succ k =>
    unfold paint_impl_loop
    split
    · exact ⟨PaintFrame.frame_refl _ _, Or.inl rfl⟩
    · simp only
      obtain ⟨hf, ht⟩ := paint_impl_visit_leaf window ps stk w hw
      have hinc : increment (paint_impl_visit true window ps stk w AcceptState.Leaf).1.store w
          (paint_impl_visit true window ps stk w AcceptState.Leaf).2.2
          = traverseEnd ps.store w := by
        rw [increment_widget _ _ (by rw [hf.sameShape.isWidget]; exact hw)]
        exact hf.sameShape.next_sibling_or_parent w
      rw [hinc, paint_impl_loop_same]
      exact ⟨hf, ht⟩

theorem pre_or_leaf_widget (s : Store) (w : Nat) (hw : s.isWidget w = true) :
    pre_or_leaf s w = AcceptState.Leaf := by
  unfold pre_or_leaf
  have : s.isContainer w = false := by
    simp only [Store.isContainer, Store.isWidget] at hw ⊢; simp [hw]
  simp [this]

theorem paint_impl_leaf (fuel : Nat) (ps : PaintState) (w : Nat) (window : Rect)
    (stk : PositionRebuilder) (hw : ps.store.isWidget w = true) :
    PaintFrame w ps.store (paint_impl true fuel ps w window stk).store ∧
    ∃ evs, (paint_impl true fuel ps w window stk).trace = ps.trace ++ evs ∧
      ∀ e ∈ evs, Event.within window w e := by
  unfold paint_impl
  simp only [traverseBegin, pre_or_leaf_widget _ _ hw]
  obtain ⟨hf, ht⟩ := paint_impl_loop_leaf window fuel
    { ps with trace := ps.trace ++ [Event.begin window] } stk w hw
  have hbegin : Event.within window w (Event.begin window) := contains_refl window
  split
  · refine ⟨hf, ?_⟩
    rcases ht with ht | ⟨t, c, ht, hc⟩
    · refine ⟨[Event.begin window, Event.finish], by simp [ht], ?_⟩
      intro e he
      simp only [List.mem_cons, List.mem_singleton, List.not_mem_nil, or_false] at he
      rcases he with rfl | rfl
      · exact hbegin
      · trivial
    · refine ⟨[Event.begin window, Event.paint w t c, Event.finish], by simp [ht], ?_⟩
      intro e he
      simp only [List.mem_cons, List.mem_singleton, List.not_mem_nil, or_false] at he
      rcases he with rfl | rfl | rfl
      · exact hbegin
      · exact ⟨rfl, hc⟩
      · trivial
  · refine ⟨hf, ?_⟩
    rcases ht with ht | ⟨t, c, ht, hc⟩
    · refine ⟨[Event.begin window], by simp [ht], ?_⟩
      intro e he
      simp only [List.mem_singleton] at he
      rw [he]; exact hbegin
    · refine ⟨[Event.begin window, Event.paint w t c], by simp [ht], ?_⟩
      intro e he
      simp only [List.mem_cons, List.mem_singleton, List.not_mem_nil, or_false] at he
      rcases he with rfl | rfl
      · exact hbegin
      · exact ⟨rfl, hc⟩

theorem splitLoop_leaf (surface : Surface) (inner root w : Nat) (clip : Rect)
    (stk : PositionRebuilder) (hsplit : SplitsInside surface) :
    ∀ (fuel : Nat) (ps : PaintState) (remaining : Rect),
      ps.store.isWidget w = true →
      (remaining.nonempty = true → clip.contains remaining = true) →
      PaintFrame w ps.store (splitLoop surface inner root w clip stk fuel ps remaining).store ∧
      ∃ evs, (splitLoop surface inner root w clip stk fuel ps remaining).trace
          = ps.trace ++ evs ∧ ∀ e ∈ evs, Event.within clip w e := by
  intro fuel
  induction fuel with
  | zero =>
    intro ps remaining _ _
    unfold splitLoop
    split
    · exact ⟨PaintFrame.frame_refl _ _, [], by simp, by simp⟩
    · exact ⟨PaintFrame.frame_refl _ _, [], by simp, by simp⟩
  | succ k ih =>
    intro ps remaining hw hrem
    unfold splitLoop
    split
    · rename_i hne
      have hin := hrem hne
      obtain ⟨h1, h2⟩ := hsplit remaining hne
      have hwin : clip.contains (surface.split remaining).1 = true := contains_trans hin h1
      simp only
      have hinto : paint_into inner ps root w clip (surface.split remaining).1 stk
          = paint_impl true inner ps w (surface.split remaining).1 (stk.pop ps.store w) := by
        unfold paint_into
        rw [if_pos hwin]
      rw [hinto]
      obtain ⟨hf, evs, ht, hev⟩ := paint_impl_leaf inner ps w (surface.split remaining).1
        (stk.pop ps.store w) hw
      have hev1 : ∀ e ∈ evs, Event.within clip w e := fun e he => Event.within_mono hwin (hev e he)
      split
      · obtain ⟨hf2, evs2, ht2, hev2⟩ := ih _ (surface.split remaining).2
          (by rw [hf.sameShape.isWidget]; exact hw)
          (fun hne2 => contains_trans hin (h2 hne2))
        refine ⟨hf.frame_trans hf2, evs ++ evs2, by rw [ht2, ht, List.append_assoc], ?_⟩
        intro e he
        rcases List.mem_append.mp he with he | he
        · exact hev1 e he
        · exact hev2 e he
      · exact ⟨hf, evs, ht, hev1⟩
    · exact ⟨PaintFrame.frame_refl _ _, [], by simp, by simp⟩


/-! ### One body of the loop of `paint_partial_impl` -/

theorem paint_partial_post_outcome (ps : PaintState) (stk : PositionRebuilder) (i : Nat)
    (st : AcceptState) (updated : Bool) (r : PartialStep)
    (hr : paint_partial_post ps stk i st updated = r) :
    PaintFrame i ps.store r.state.store ∧ r.state.trace = ps.trace ∧ r.accept = st ∧
      (if st = AcceptState.Pre then r.state.store = ps.store ∧ r.stack = stk
       else r.stack = stk.pop r.state.store i) := by
  unfold paint_partial_post at hr
  cases st with
  | Pre =>
    simp only [show (AcceptState.Pre != AcceptState.Pre) = false from rfl] at hr
    rw [← hr]
    exact ⟨PaintFrame.frame_refl _ _, rfl, rfl, by simp⟩
  | Post =>
    simp only [show (AcceptState.Post != AcceptState.Pre) = true from rfl, if_true] at hr
    rw [← hr]
    exact ⟨paintFrame_clearPaintDirty _ _, rfl, rfl, by simp⟩
  | Leaf =>
    simp only [show (AcceptState.Leaf != AcceptState.Pre) = true from rfl, if_true] at hr
    rw [← hr]
    exact ⟨paintFrame_clearPaintDirty _ _, rfl, rfl, by simp⟩

theorem paint_partial_visit_outcome (inner : Nat) (surface : Surface) (root : Nat)
    (ps : PaintState) (stk : PositionRebuilder) (i : Nat) (st : AcceptState) (updated : Bool)
    (hsplit : SplitsInside surface)
    (hd : ps.store.isPaintDirty i = true → ps.store.isWidget i = true)
    (hrep : ps.store.isPaintRepositioned i = false)
    (hdiv : ps.store.isChildPaintDirtyDiverged i = false)
    (r : PartialStep) (hr : paint_partial_visit inner surface root ps stk i st updated = r) :
    PaintFrame i ps.store r.state.store ∧
    (r.state.trace = ps.trace ∨
      (st ≠ AcceptState.Post ∧ ps.store.isPaintDirty i = true ∧
        ∃ evs, r.state.trace = ps.trace ++ evs ∧
        ∀ e ∈ evs, Event.within (stk.push ps.store i).2.clip i e)) ∧
    (if st = AcceptState.Post then
        r.accept = AcceptState.Post ∧ r.stack = stk.pop r.state.store i
     else
        (r.accept = AcceptState.Pre ∧ st = AcceptState.Pre ∧ r.stack = (stk.push ps.store i).2 ∧
          (r.state.store.node i).clip_space = (stk.push ps.store i).2.clip) ∨
        ((r.accept = AcceptState.Post ∨ (r.accept = st ∧ st = AcceptState.Leaf)) ∧
          r.stack = (stk.push ps.store i).2.pop r.state.store i)) := by
  by_cases hst : st = AcceptState.Post
  · -- the post visit
    subst hst
    unfold paint_partial_visit at hr
    simp only [show (AcceptState.Post != AcceptState.Post) = false from rfl,
      Bool.false_eq_true, if_false] at hr
    obtain ⟨h1, h2, h3, h4⟩ := paint_partial_post_outcome ps stk i _ updated r hr
    simp only [if_true]
    simp only [show (AcceptState.Post = AcceptState.Pre) = False from by simp, if_false] at h4
    exact ⟨h1, Or.inl h2, h3, h4⟩
  · have hne : (st != AcceptState.Post) = true := by
      cases st <;> simp_all
    simp only [if_neg hst]
    have hpf := paintFrame_push ps.store stk i
    have hflags : ((stk.push ps.store i).1.node i).flags = (ps.store.node i).flags := by
      simp [PositionRebuilder.push]
    have hcs : ((stk.push ps.store i).1.node i).clip_space = (stk.push ps.store i).2.clip := by
      simp [PositionRebuilder.push, setClipSpace_clip_space]
    -- the outcome of the final statement of the body
    have hpost : ∀ r : PartialStep,
        paint_partial_post { ps with store := (stk.push ps.store i).1 } (stk.push ps.store i).2
          i st updated = r →
        PaintFrame i ps.store r.state.store ∧ r.state.trace = ps.trace ∧
        ((r.accept = AcceptState.Pre ∧ st = AcceptState.Pre ∧
            r.stack = (stk.push ps.store i).2 ∧
            (r.state.store.node i).clip_space = (stk.push ps.store i).2.clip) ∨
          ((r.accept = AcceptState.Post ∨ (r.accept = st ∧ st = AcceptState.Leaf)) ∧
            r.stack = (stk.push ps.store i).2.pop r.state.store i)) := by
      intro r hr
      obtain ⟨h1, h2, h3, h4⟩ := paint_partial_post_outcome _ _ i st updated r hr
      refine ⟨hpf.frame_trans h1, h2, ?_⟩
      cases st with
      | Pre =>
        simp only [if_true] at h4
        left
        refine ⟨h3, rfl, h4.2, ?_⟩
        rw [h4.1]; exact hcs
      | Post => exact absurd rfl hst
      | Leaf =>
        simp only [show (AcceptState.Leaf = AcceptState.Pre) = False from by simp,
          if_false] at h4
        right
        exact ⟨Or.inr ⟨h3, rfl⟩, h4⟩
    unfold paint_partial_visit at hr
    simp only [hne, if_true] at hr
    split at hr
    · -- the clip is not empty
      split at hr
      · -- the node is dirty
        rename_i hdirty
        have hdirty0 : ps.store.isPaintDirty i = true := by
          simpa only [Store.isPaintDirty, hflags] using hdirty
        have hw : (stk.push ps.store i).1.isWidget i = true := by
          rw [hpf.sameShape.isWidget]; exact hd hdirty0
        have hrep1 : (stk.push ps.store i).1.isPaintRepositioned i = false := by
          simpa only [Store.isPaintRepositioned, hflags] using hrep
        have haff : affected_area (stk.push ps.store i).1 surface i (stk.push ps.store i).2.clip
            = Rect.ofIntersect (stk.push ps.store i).2.clip
                (Rect.withSize surface.resolution) := by
          simp [affected_area, hrep1]
        rw [haff] at hr
        obtain ⟨hf, evs, ht, hev⟩ := splitLoop_leaf surface inner root i
          (stk.push ps.store i).2.clip (stk.push ps.store i).2 hsplit inner
          { ps with store := (stk.push ps.store i).1 }
          (Rect.ofIntersect (stk.push ps.store i).2.clip (Rect.withSize surface.resolution))
          hw (fun _ => contains_ofIntersect_left _ _)
        rw [← hr]
        refine ⟨(hpf.frame_trans hf).frame_trans (paintFrame_clearPaintDirty _ _), ?_, ?_⟩
        · exact Or.inr ⟨hst, hdirty0, evs, ht, hev⟩
        · exact Or.inr ⟨Or.inl rfl, rfl⟩
      · split at hr
        · rw [← hr]
          exact ⟨hpf, Or.inl rfl, Or.inr ⟨Or.inl rfl, rfl⟩⟩
        · split at hr
          · rename_i hdv
            have : ps.store.isChildPaintDirtyDiverged i = true := by
              simpa only [Store.isChildPaintDirtyDiverged, hflags] using hdv
            rw [hdiv] at this
            exact absurd this (by simp)
          · obtain ⟨h1, h2, h3⟩ := hpost r hr
            exact ⟨h1, Or.inl h2, h3⟩
    · rw [← hr]
      exact ⟨hpf, Or.inl rfl, Or.inr ⟨Or.inl rfl, rfl⟩⟩

/-! ### The loop invariant of `paint_partial_impl` -/

theorem mem_parentChain_lt (s : Store) (hwf : wfLinks s = true) :
    ∀ (f : Nat) (x : Option Nat), (∀ q, x = some q → q < s.size) →
      ∀ a ∈ parentChain s f x, a < s.size := by
  intro f
  induction f with
  | zero => intro x _ a ha; simp [parentChain] at ha
  | succ k ih =>
    intro x hx a ha
    cases x with
    | none => simp [parentChain] at ha
    | some q =>
      simp only [parentChain, List.mem_cons] at ha
      rcases ha with rfl | ha
      · exact hx _ rfl
      · exact ih _ (fun p hp => (wfLinks_at hwf (hx q rfl)).1 p hp) a ha

theorem mem_parents_lt (s : Store) (hwf : wfLinks s = true) (i : Nat) (hi : i < s.size) :
    ∀ a ∈ parents s i, a < s.size :=
  mem_parentChain_lt s hwf _ _ (fun p hp => (wfLinks_at hwf hi).1 p hp)

theorem not_mem_parents_self (s : Store) (i : Nat) (hlen : (parents s i).length < s.size) :
    i ∉ parents s i := by
  intro hmem
  obtain ⟨pre, h⟩ := parents_suffix s i i hlen hmem
  have := congrArg List.length h
  simp only [List.length_append, List.length_cons] at this
  omega

theorem areasTyped_at {s : Store} (h : areasTyped s = true) {i : Nat} (hi : i < s.size) :
    inRect (s.node i).area = true := by
  unfold areasTyped at h
  rw [List.all_eq_true] at h
  exact h i (List.mem_range.mpr hi)

theorem rebuiltChain_typed (s : Store) (l : List Nat) :
    inPoint (rebuiltChain s l).translation.x = true ∧
      inPoint (rebuiltChain s l).translation.y = true := by
  cases l with
  | nil => simp [rebuiltChain, Vec2.origin, inPoint_iff]
  | cons p ps =>
    simp only [rebuiltChain, PositionRebuilder.push, Vec2.add, inPoint_iff, wrapPoint]
    omega

theorem pop_rebuilt (s0 t : Store) (i p : Nat) (hp : t.parent i = some p)
    (ha : (t.node i).area = (s0.node i).area)
    (hc : (t.node p).clip_space = (rebuilt s0 p).clip)
    (hpar : parents s0 i = p :: parents s0 p) :
    (rebuilt s0 i).pop t i = rebuilt s0 p := by
  obtain ⟨h1, h2⟩ := rebuiltChain_typed s0 (p :: parents s0 p)
  rw [inPoint_iff] at h1 h2
  unfold PositionRebuilder.pop
  rw [hp]
  simp only [hc, ha]
  have hi : rebuilt s0 i = ((rebuilt s0 p).push s0 i).2 := by
    simp only [rebuilt, hpar, rebuiltChain]
  rw [hi]
  unfold rebuilt
  generalize rebuiltChain s0 (p :: parents s0 p) = R at h1 h2 ⊢
  obtain ⟨T, C⟩ := R
  simp only [PositionRebuilder.push, Vec2.add, Vec2.sub, PositionRebuilder.mk.injEq, and_true]
  simp only at h1 h2
  obtain ⟨Tx, Ty⟩ := T
  simp only [Vec2.mk.injEq, wrapPoint] at h1 h2 ⊢
  omega

theorem absolute_contains_rebuilt (s : Store) (hwf : wfLinks s = true)
    (hty : areasTyped s = true) (w : Nat) (hw : w < s.size) :
    (absolute s w).clip.contains (rebuilt s w).clip = true := by
  have h := absoluteLoop_contains_rebuilt s (parents s w)
    (fun p hp => areasTyped_at hty (mem_parents_lt s hwf w hw p hp))
    (s.node w).area (s.node w).area.low (areasTyped_at hty hw)
  simpa only [absolute, rebuilt, rebuiltChain, PositionRebuilder.push] using h

theorem stackInv_after_pop (s0 t : Store) (i : Nat) (hwf : wfLinks s0 = true)
    (hi : i < s0.size) (hsh : SameShape s0 t)
    (har : ∀ j, (t.node j).area = (s0.node j).area)
    (hcache : ∀ a ∈ parents s0 i, (t.node a).clip_space = (rebuilt s0 a).clip) :
    StackInv s0 t ((rebuilt s0 i).pop t i) (next_sibling_or_parent s0 i) := by
  obtain ⟨hpar, hroot, _, hsib, hlen⟩ := wfLinks_at hwf hi
  have hpop : ∀ p, s0.parent i = some p → (rebuilt s0 i).pop t i = rebuilt s0 p := by
    intro p hp
    have hpars := parents_of_parent s0 i p hp hlen
    exact pop_rebuilt s0 t i p (by rw [hsh.parent i]; exact hp) (har i)
      (hcache p (by rw [hpars]; exact List.mem_cons_self _ _)) hpars
  unfold next_sibling_or_parent
  cases hn : (s0.node i).next_sibling with
  | some m =>
    obtain ⟨hm, hpm⟩ := hsib m hn
    have hpars : parents s0 m = parents s0 i := by
      unfold parents; unfold Store.parent at hpm; rw [hpm]
    cases hp : s0.parent i with
    | none => rw [hroot hp] at hn; simp at hn
    | some p =>
      simp only [StackInv, hpars, if_neg (pre_or_leaf_ne_post s0 m)]
      refine ⟨hm, hcache, ?_, trivial⟩
      rw [hpop p hp, parents_of_parent s0 i p hp hlen]
      rfl
  | none =>
    cases hp : s0.parent i with
    | none => simp [StackInv]
    | some p =>
      simp only [StackInv, if_true]
      refine ⟨hpar p hp, ?_, hpop p hp⟩
      intro a ha
      apply hcache
      rw [parents_of_parent s0 i p hp hlen]
      exact List.mem_cons_of_mem _ ha

theorem stackInv_descend (s0 t : Store) (i c : Nat) (hwf : wfLinks s0 = true)
    (hi : i < s0.size) (hfc : (s0.node i).first_child = some c)
    (hcache : ∀ a ∈ i :: parents s0 i, (t.node a).clip_space = (rebuilt s0 a).clip) :
    StackInv s0 t (rebuilt s0 i) { node := some c, state := pre_or_leaf s0 c } := by
  obtain ⟨_, _, hchild, _, _⟩ := wfLinks_at hwf hi
  obtain ⟨hcs, hpc⟩ := hchild c hfc
  obtain ⟨_, _, _, _, hlen⟩ := wfLinks_at hwf hcs
  simp only [StackInv, if_neg (pre_or_leaf_ne_post s0 c)]
  refine ⟨hcs, ?_, ?_, trivial⟩
  · rw [parents_of_parent s0 c i hpc hlen]; exact hcache
  · rw [parents_of_parent s0 c i hpc hlen]; rfl

theorem partialInv_visit (s0 : Store) (w : Nat) (hwf : wfLinks s0 = true)
    (hty : areasTyped s0 = true) (hw : s0.isWidget w = true) (hws : w < s0.size)
    (inner : Nat) (surface : Surface) (hsplit : SplitsInside surface) (root : Nat)
    (ps : PaintState) (stk : PositionRebuilder) (i : Nat) (st : AcceptState) (updated : Bool)
    (hinv : PartialInv s0 w ps stk { node := some i, state := st })
    (r : PartialStep) (hr : paint_partial_visit inner surface root ps stk i st updated = r) :
    PartialInv s0 w r.state r.stack (increment r.state.store i r.accept) := by
  obtain ⟨hsh, har, hfl, htr, hstk⟩ := hinv
  simp only [StackInv] at hstk
  obtain ⟨hi, hcache, hstack⟩ := hstk
  obtain ⟨hfd, hfr, hfv⟩ := hfl i hi
  obtain ⟨_, _, _, _, hlen⟩ := wfLinks_at hwf hi
  have hnot := not_mem_parents_self s0 i hlen
  obtain ⟨hf, htrace, hout⟩ := paint_partial_visit_outcome inner surface root ps stk i st
    updated hsplit (fun hd => by rw [hfd hd, hsh.isWidget]; exact hw) hfr hfv r hr
  have hsh2 : SameShape s0 r.state.store := hsh.trans hf.sameShape
  have har2 : ∀ j, (r.state.store.node j).area = (s0.node j).area := fun j =>
    ((hf.shrinks j).2.2.2.2.2.2.1).trans (har j)
  have hcache2 : ∀ a ∈ parents s0 i, (r.state.store.node a).clip_space
      = (rebuilt s0 a).clip := by
    intro a ha
    have hne : a ≠ i := fun h => hnot (h ▸ ha)
    rw [hf.2.2 a hne]
    exact hcache a ha
  have hpush : stk = rebuiltChain s0 (parents s0 i) →
      (stk.push ps.store i).2 = rebuilt s0 i := by
    intro h
    rw [h]
    simp only [PositionRebuilder.push, rebuilt, rebuiltChain, har i]
  refine ⟨hsh2, har2, ?_, ?_, ?_⟩
  · intro j hj
    obtain ⟨h1, h2, h3⟩ := hfl j hj
    obtain ⟨_, _, _, _, _, _, _, g1, g2, g3⟩ := hf.shrinks j
    refine ⟨fun h => h1 (g1 h), ?_, ?_⟩
    · cases hx : r.state.store.isPaintRepositioned j with
      | false => rfl
      | true => rw [← h2]; exact (g2 hx).symm
    · cases hx : r.state.store.isChildPaintDirtyDiverged j with
      | false => rfl
      | true => rw [← h3]; exact (g3 hx).symm
  · rcases htrace with ht | ⟨hst, hd, evs, ht, hev⟩
    · rw [ht]; exact htr
    · rw [ht]
      intro e he
      rcases List.mem_append.mp he with he | he
      · exact htr e he
      · have hiw : i = w := hfd hd
        rw [if_neg hst] at hstack
        have hb := absolute_contains_rebuilt s0 hwf hty w hws
        have := hev e he
        rw [hpush hstack.1, hiw] at this
        exact Event.within_mono hb this
  · rw [hsh2.increment]
    by_cases hst : st = AcceptState.Post
    · rw [if_pos hst] at hout hstack
      rw [hout.1, hout.2, hstack]
      have : increment s0 i AcceptState.Post = next_sibling_or_parent s0 i := by
        simp [increment]
      rw [this]
      exact stackInv_after_pop s0 _ i hwf hi hsh2 har2 hcache2
    · rw [if_neg hst] at hout hstack
      obtain ⟨hstk, hpl⟩ := hstack
      have hp := hpush hstk
      rcases hout with ⟨hacc, hpre, hrs, hcs⟩ | ⟨hacc, hrs⟩
      · -- the traversal descends to the first child
        rw [hacc, hrs, hp]
        rw [hpre] at hpl
        have hpl' := hpl.symm
        unfold pre_or_leaf at hpl'
        split at hpl'
        · rename_i hcont
          simp only [Bool.and_eq_true] at hcont
          obtain ⟨c, hc⟩ := Option.isSome_iff_exists.mp hcont.2
          have hinc : increment s0 i AcceptState.Pre
              = { node := some c, state := pre_or_leaf s0 c } := by
            simp [increment, next_child, hcont.1, hc]
          rw [hinc]
          apply stackInv_descend s0 _ i c hwf hi hc
          intro a ha
          rcases List.mem_cons.mp ha with rfl | ha
          · rw [hcs, hp]
          · exact hcache2 a ha
        · simp at hpl'
      · -- the node has been popped
        have hinc : increment s0 i r.accept = next_sibling_or_parent s0 i := by
          rcases hacc with hacc | ⟨hacc, hleaf⟩
          · rw [hacc]; simp [increment]
          · rw [hacc, hleaf]
            rw [hleaf] at hpl
            have hpl' := hpl.symm
            unfold pre_or_leaf at hpl'
            split at hpl'
            · simp at hpl'
            · rename_i hcont
              have hnc : next_child s0 i = Option.none := by
                unfold next_child
                split
                · rename_i hc
                  simp only [hc, Bool.true_and, Bool.not_eq_true, Option.not_isSome,
                    Option.isNone_iff_eq_none] at hcont
                  exact hcont
                · rfl
              simp [increment, hnc]
        rw [hinc, hrs, hp]
        exact stackInv_after_pop s0 _ i hwf hi hsh2 har2 hcache2

theorem paint_partial_loop_within (s0 : Store) (w : Nat) (hwf : wfLinks s0 = true)
    (hty : areasTyped s0 = true) (hw : s0.isWidget w = true) (hws : w < s0.size)
    (inner : Nat) (surface : Surface) (hsplit : SplitsInside surface) (root : Nat)
    (last : Accept) :
    ∀ (fuel : Nat) (ps : PaintState) (stk : PositionRebuilder) (cur : Accept) (updated : Bool),
      PartialInv s0 w ps stk cur →
      ∀ e ∈ (paint_partial_loop inner surface root last fuel ps stk cur updated).1.trace,
        Event.within (absolute s0 w).clip w e := by
  intro fuel
  induction fuel with
  | zero =>
    intro ps stk cur updated hinv
    unfold paint_partial_loop
    split
    · exact hinv.2.2.2.1
    · exact hinv.2.2.2.1
  | succ k ih =>
    intro ps stk cur updated hinv
    unfold paint_partial_loop
    split
    · exact hinv.2.2.2.1
    · split
      · exact hinv.2.2.2.1
      · rename_i i hi
        have hcur : cur = { node := some i, state := cur.state } := by
          cases cur; simp only at hi; rw [hi]
        rw [hcur] at hinv
        have hstep := partialInv_visit s0 w hwf hty hw hws inner surface hsplit root ps stk i
          cur.state updated hinv _ rfl
        simp only
        split
        · exact ih _ _ _ _ hstep
        · exact hstep.2.2.2.1

/-! ### The tree after `repaint` of one widget -/

theorem noPaintFlags_at {s : Store} (h : noPaintFlags s = true) {i : Nat} (hi : i < s.size) :
    (s.node i).flags.PaintDirty = false ∧ (s.node i).flags.PaintRepositioned = false ∧
    (s.node i).flags.PaintChildDirty = false ∧
    (s.node i).flags.PaintChildDirtyDiverged = false := by
  unfold noPaintFlags at h
  rw [List.all_eq_true] at h
  have := h i (List.mem_range.mpr hi)
  simpa [paintBits] using this

theorem flagParents_clean (l : List Nat) :
    ∀ s : Store, l.Nodup →
      (∀ p ∈ l, (s.node p).flags.PaintDirty = false ∧ (s.node p).flags.PaintChildDirty = false) →
      ∀ j, ((flagParents s l).node j).flags.PaintDirty = (s.node j).flags.PaintDirty ∧
        ((flagParents s l).node j).flags.PaintRepositioned = (s.node j).flags.PaintRepositioned ∧
        ((flagParents s l).node j).flags.PaintChildDirtyDiverged
          = (s.node j).flags.PaintChildDirtyDiverged ∧
        ((flagParents s l).node j).area = (s.node j).area := by
  induction l with
  | nil => intro s _ _ j; exact ⟨rfl, rfl, rfl, rfl⟩
  | cons b rest ih =>
    intro s hnd hcl j
    rw [List.nodup_cons] at hnd
    obtain ⟨hb1, hb2⟩ := hcl b (List.mem_cons_self _ _)
    simp only [flagParents, Store.isPaintDirty, hb1, hb2, Bool.false_eq_true, if_false,
      Bool.not_false, if_true]
    have hrest : ∀ p ∈ rest,
        ((s.modifyFlags b (fun f => { f with PaintChildDirty := true })).node p).flags.PaintDirty
          = false ∧
        ((s.modifyFlags b (fun f => { f with PaintChildDirty := true })).node
          p).flags.PaintChildDirty = false := by
      intro p hp
      have hne : p ≠ b := fun h => hnd.1 (h ▸ hp)
      rw [modifyFlags_flags, if_neg hne]
      exact hcl p (List.mem_cons_of_mem _ hp)
    obtain ⟨h1, h2, h3, h4⟩ := ih _ hnd.2 hrest j
    rw [h1, h2, h3, h4, modifyFlags_flags]
    refine ⟨?_, ?_, ?_, ?_⟩
    · split
      · rename_i h; rw [h]
      · rfl
    · split
      · rename_i h; rw [h]
      · rfl
    · split
      · rename_i h; rw [h]
      · rfl
    · simp only [Store.modifyFlags, modify_node]
      split
      · rename_i h; rw [h]
      · rfl

theorem widget_repaint_clean (s : Store) (w : Nat) (hwf : wfLinks s = true)
    (hclean : noPaintFlags s = true) (hws : w < s.size) :
    (∀ j, ((Widget.repaint s w).node j).area = (s.node j).area) ∧
    (∀ j, j < s.size →
      ((Widget.repaint s w).isPaintDirty j = true → j = w) ∧
      (Widget.repaint s w).isPaintRepositioned j = false ∧
      (Widget.repaint s w).isChildPaintDirtyDiverged j = false) := by
  obtain ⟨_, _, _, _, hlen⟩ := wfLinks_at hwf hws
  have hnd := parents_nodup s w hlen
  have hnot := not_mem_parents_self s w hlen
  have hfp := flagParents_clean (parents s w)
    (s.modifyFlags w (fun f => { f with PaintDirty := true })) hnd (by
      intro p hp
      have hne : p ≠ w := fun h => hnot (h ▸ hp)
      rw [modifyFlags_flags, if_neg hne]
      obtain ⟨h1, _, h3, _⟩ := noPaintFlags_at hclean (mem_parents_lt s hwf w hws p hp)
      exact ⟨h1, h3⟩)
  have heq : Widget.repaint s w = flagParents
      (s.modifyFlags w (fun f => { f with PaintDirty := true })) (parents s w) := by
    unfold Widget.repaint
    have : s.isPaintDirty w = false := (noPaintFlags_at hclean hws).1
    simp only [this, Bool.not_false, if_true, flag_parent_child_paint_dirty, modifyFlags_parents]
  rw [heq]
  refine ⟨fun j => ?_, fun j hj => ?_⟩
  · rw [(hfp j).2.2.2]
    simp only [Store.modifyFlags, modify_node]
    split
    · rename_i h; rw [h]
    · rfl
  · obtain ⟨h1, h2, h3, _⟩ := hfp j
    obtain ⟨c1, c2, _, c4⟩ := noPaintFlags_at hclean hj
    simp only [Store.isPaintDirty, Store.isPaintRepositioned, Store.isChildPaintDirtyDiverged,
      h1, h2, h3, modifyFlags_flags]
    refine ⟨?_, ?_, ?_⟩
    · intro h
      by_contra hne
      rw [if_neg hne, c1] at h
      exact absurd h (by simp)
    · split
      · rename_i h; rw [h] at c2; exact c2
      · exact c2
    · split
      · rename_i h; rw [h] at c4; exact c4
      · exact c4

theorem absoluteLoop_congr (s t : Store) (h : ∀ j, (t.node j).area = (s.node j).area)
    (l : List Nat) : ∀ acc, absoluteLoop t acc l = absoluteLoop s acc l := by
  induction l with
  | nil => intro acc; rfl
  | cons p ps ih => intro acc; simp only [absoluteLoop, h p, ih]

theorem absolute_congr (s t : Store) (hsh : SameShape s t)
    (h : ∀ j, (t.node j).area = (s.node j).area) (i : Nat) : absolute t i = absolute s i := by
  simp only [absolute, hsh.parents, h i, absoluteLoop_congr s t h]

theorem areasTyped_congr (s t : Store) (hsz : t.size = s.size)
    (h : ∀ j, (t.node j).area = (s.node j).area) : areasTyped t = areasTyped s := by
  simp only [areasTyped, hsz, h]

theorem paint_partial_impl_within (surface : Surface) (s0 : Store) (root w fuel : Nat)
    (hwf : wfLinks s0 = true) (hty : areasTyped s0 = true)
    (hfl : ∀ j, j < s0.size → (s0.isPaintDirty j = true → j = w) ∧
      s0.isPaintRepositioned j = false ∧ s0.isChildPaintDirtyDiverged j = false)
    (hroot : root < s0.size) (hpar : s0.parent root = Option.none)
    (hws : w < s0.size) (hw : s0.isWidget w = true) (hsplit : SplitsInside surface) :
    ∀ e ∈ (paint_partial_impl fuel surface s0 root).trace,
      Event.within (absolute s0 w).clip w e := by
  have hinit : PartialInv s0 w { store := s0 } {} (traverseBegin s0 root) := by
    refine ⟨SameShape.refl _, fun _ => rfl, hfl, ?_, ?_⟩
    · intro e he; simp at he
    · simp only [StackInv, traverseBegin, if_neg (pre_or_leaf_ne_post s0 root),
        parents_of_root s0 root hpar]
      exact ⟨hroot, by simp, rfl, trivial⟩
  have hloop := paint_partial_loop_within s0 w hwf hty hw hws fuel surface hsplit root
    (traverseEnd s0 root) fuel _ _ _ false hinit
  unfold paint_partial_impl
  simp only
  split
  · intro e he
    simp only [List.mem_append, List.mem_singleton] at he
    rcases he with he | rfl
    · exact hloop e he
    · trivial
  · exact hloop

/-! ## The layout dirty invariant: `reflow`, `insert`, `erase` -/

theorem layoutFlagged_of_layoutBits {s t : Store} {j : Nat}
    (h : layoutBits (t.node j).flags = layoutBits (s.node j).flags) :
    t.layoutFlagged j = s.layoutFlagged j ∧ t.isLayoutDirty j = s.isLayoutDirty j := by
  simp only [layoutBits, Prod.mk.injEq] at h
  simp [Store.layoutFlagged, Store.isLayoutDirty, Store.isChildLayoutDirty, h.1, h.2]

theorem reflowParents_mono (l : List Nat) :
    ∀ (s : Store) (x : Nat), s.layoutFlagged x = true →
      (reflowParents s l).layoutFlagged x = true := by
  induction l with
  | nil => intro s x h; exact h
  | cons b rest ih =>
    intro s x h
    simp only [reflowParents]
    split
    · exact h
    · apply ih
      simp only [Store.layoutFlagged, Store.isLayoutDirty, Store.isChildLayoutDirty,
        modifyFlags_flags] at h ⊢
      split
      · simp
      · exact h

theorem reflowParents_chain (i : Nat) :
    ∀ (f : Nat) (s : Store) (y : Option Nat), (parentChain s f y).length < f →
      LayoutInvExcept s i y →
      LayoutInvExcept (reflowParents s (parentChain s f y)) i Option.none ∧
        (∀ q, y = some q → (reflowParents s (parentChain s f y)).layoutFlagged q = true) := by
  intro f
  induction f with
  | zero => intro s y h; simp at h
  | succ k ih =>
    intro s y hlen hinv
    cases y with
    | none =>
      simp only [parentChain, reflowParents]
      refine ⟨?_, fun q hq => by simp at hq⟩
      intro x p hx hp
      obtain ⟨h1, h2⟩ := hinv x p hx hp
      refine ⟨h1, fun hf => ?_⟩
      rcases h2 hf with h | h | h
      · exact Or.inl h
      · exact Or.inr (Or.inl h)
      · simp at h
    | some q =>
      simp only [parentChain, List.length_cons, Nat.succ_lt_succ_iff] at hlen
      simp only [parentChain, reflowParents]
      split
      · rename_i hq
        have hfq : s.layoutFlagged q = true := by
          simpa [Store.layoutFlagged] using hq
        refine ⟨?_, fun q' hq' => by simp only [Option.some.injEq] at hq'; rw [← hq']; exact hfq⟩
        intro x p hx hp
        obtain ⟨h1, h2⟩ := hinv x p hx hp
        refine ⟨h1, fun hf => ?_⟩
        rcases h2 hf with h | h | h
        · exact Or.inl h
        · exact Or.inr (Or.inl h)
        · simp only [Option.some.injEq] at h; rw [← h]; exact Or.inl hfq
      · have hpar : ∀ j, ((s.modifyFlags q
            (fun f => { f with LayoutChildDirty := true })).node j).parent
            = (s.node j).parent := fun j => modifyFlags_parent s q _ j
        have hchain : parentChain (s.modifyFlags q
            (fun f => { f with LayoutChildDirty := true })) k (s.node q).parent
            = parentChain s k (s.node q).parent := parentChain_congr s _ hpar k _
        have hfq : (s.modifyFlags q
            (fun f => { f with LayoutChildDirty := true })).layoutFlagged q = true := by
          simp [Store.layoutFlagged, Store.isLayoutDirty, Store.isChildLayoutDirty,
            modifyFlags_flags]
        have hmono : ∀ x, s.layoutFlagged x = true → (s.modifyFlags q
            (fun f => { f with LayoutChildDirty := true })).layoutFlagged x = true := by
          intro x hx
          simp only [Store.layoutFlagged, Store.isLayoutDirty, Store.isChildLayoutDirty,
            modifyFlags_flags] at hx ⊢
          split
          · simp
          · exact hx
        have hinv' : LayoutInvExcept (s.modifyFlags q
            (fun f => { f with LayoutChildDirty := true })) i (s.node q).parent := by
          intro x p hx hp
          have hp' : s.parent x = some p := by
            simpa only [Store.parent, hpar] using hp
          obtain ⟨h1, h2⟩ := hinv x p hx hp'
          refine ⟨h1, fun hf => ?_⟩
          by_cases hxq : x = q
          · right; right
            rw [← hxq]; exact hp'
          · have hfx : s.layoutFlagged x = true := by
              simpa only [Store.layoutFlagged, Store.isLayoutDirty, Store.isChildLayoutDirty,
                modifyFlags_flags, if_neg hxq] using hf
            rcases h2 hfx with h | h | h
            · exact Or.inl (hmono p h)
            · exact Or.inr (Or.inl h)
            · simp only [Option.some.injEq] at h; rw [← h]; exact Or.inl hfq
        have := ih (s.modifyFlags q (fun f => { f with LayoutChildDirty := true }))
          (s.node q).parent (by rw [hchain]; exact hlen) hinv'
        rw [hchain] at this
        refine ⟨this.1, fun q' hq' => ?_⟩
        simp only [Option.some.injEq] at hq'
        rw [← hq']
        exact reflowParents_mono _ _ _ hfq

theorem layoutInv_of_except {s : Store} {i : Nat} (h : LayoutInvExcept s i Option.none)
    (hi : s.layoutFlagged i = true) : LayoutInv s := by
  intro x p hx hp
  obtain ⟨h1, h2⟩ := h x p hx hp
  refine ⟨h1, fun hf => ?_⟩
  rcases h2 hf with h | h | h
  · exact h
  · rw [h]; exact hi
  · simp at h

theorem reflowParents_layout_parent (l : List Nat) (s : Store) (j : Nat) :
    ((reflowParents s l).node j).parent = (s.node j).parent :=
  reflowParents_parent l s j

theorem layoutInv_reflow_of_except (s : Store) (i : Nat)
    (hlen : (parents s i).length < s.size) (h : LayoutInvExcept s i Option.none) :
    LayoutInv (reflow s i) := by
  unfold reflow
  split
  · rename_i hd
    have hex : LayoutInvExcept s i (s.node i).parent := by
      intro x p hx hp
      obtain ⟨h1, h2⟩ := h x p hx hp
      refine ⟨h1, fun hf => ?_⟩
      rcases h2 hf with h | h | h
      · exact Or.inl h
      · exact Or.inr (Or.inl h)
      · simp at h
    obtain ⟨h1, h2⟩ := reflowParents_chain i s.size s (s.node i).parent hlen hex
    intro x p hx hp
    have hsz : (reflowParents s (parents s i)).size = s.size := reflowParents_size _ _
    have hp' : (reflowParents s (parents s i)).parent x = some p := by
      simpa only [Store.parent, modifyFlags_parent] using hp
    have hx' : x < (reflowParents s (parents s i)).size := by
      simpa only [modifyFlags_size] using hx
    obtain ⟨g1, g2⟩ := h1 x p hx' hp'
    refine ⟨by simpa only [modifyFlags_size] using g1, fun hf => ?_⟩
    have hfi : ∀ z, (reflowParents s (parents s i)).layoutFlagged z = true ∨ z = i →
        ((reflowParents s (parents s i)).modifyFlags i
          (fun f => { f with LayoutDirty := true })).layoutFlagged z = true := by
      intro z hz
      simp only [Store.layoutFlagged, Store.isLayoutDirty, Store.isChildLayoutDirty,
        modifyFlags_flags] at hz ⊢
      split
      · simp
      · rename_i hzi
        rcases hz with hz | hz
        · exact hz
        · exact absurd hz hzi
    by_cases hxi : x = i
    · apply hfi; left
      apply h2
      rw [← hxi]
      simpa only [Store.parent, reflowParents_parent] using hp'
    · have hfx : (reflowParents s (parents s i)).layoutFlagged x = true := by
        simpa only [Store.layoutFlagged, Store.isLayoutDirty, Store.isChildLayoutDirty,
          modifyFlags_flags, if_neg hxi] using hf
      apply hfi
      rcases g2 hfx with h | h | h
      · exact Or.inl h
      · exact Or.inr h
      · simp at h
  · rename_i hd
    apply layoutInv_of_except h
    simp only [Bool.not_eq_true, Bool.not_eq_false'] at hd
    simp [Store.layoutFlagged, hd]

theorem layoutInv_except {s : Store} (h : LayoutInv s) (i : Nat) :
    LayoutInvExcept s i Option.none := by
  intro x p hx hp
  obtain ⟨h1, h2⟩ := h x p hx hp
  exact ⟨h1, fun hf => Or.inl (h2 hf)⟩

theorem layoutInv_reflow (s : Store) (i : Nat) (hlen : (parents s i).length < s.size)
    (h : LayoutInv s) : LayoutInv (reflow s i) :=
  layoutInv_reflow_of_except s i hlen (layoutInv_except h i)

/-- Stores with the same size, parents and layout bits have the property together. -/
theorem layoutInv_congr (s t : Store) (hsz : t.size = s.size)
    (hpar : ∀ j, (t.node j).parent = (s.node j).parent)
    (hfl : ∀ j, layoutBits (t.node j).flags = layoutBits (s.node j).flags)
    (h : LayoutInv s) : LayoutInv t := by
  intro x p hx hp
  rw [hsz] at hx ⊢
  have hp' : s.parent x = some p := by simpa only [Store.parent, hpar] using hp
  obtain ⟨h1, h2⟩ := h x p hx hp'
  refine ⟨h1, fun hf => ?_⟩
  rw [(layoutFlagged_of_layoutBits (hfl x)).1] at hf
  rw [(layoutFlagged_of_layoutBits (hfl p)).1]
  exact h2 hf

theorem layoutInv_reflow_congr (s X : Store) (i : Nat) (hsz : X.size = s.size)
    (hpar : ∀ j, (X.node j).parent = (s.node j).parent)
    (hfl : ∀ j, layoutBits (X.node j).flags = layoutBits (s.node j).flags)
    (hlen : (parents s i).length < s.size) (h : LayoutInv s) : LayoutInv (reflow X i) := by
  apply layoutInv_reflow
  · rw [parents_congr s X hsz hpar, hsz]; exact hlen
  · exact layoutInv_congr s X hsz hpar hfl h

theorem layoutInv_setConstraints (s : Store) (i : Nat) (c : Vec2)
    (hlen : (parents s i).length < s.size) (h : LayoutInv s) :
    LayoutInv (setConstraints s i c).1 := by
  unfold setConstraints
  split
  · refine layoutInv_reflow_congr s _ i rfl (fun j => ?_) (fun j => ?_) hlen h
    · rw [modify_node]; split
      · rename_i hj; rw [hj]
      · rfl
    · rw [modify_node]; split
      · rename_i hj; rw [hj]
      · rfl
  · exact h

theorem layoutDirtyCovered_of_layoutInv {s : Store} (h : LayoutInv s) :
    LayoutDirtyCovered s := by
  have key : ∀ (f : Nat) (x : Nat), x < s.size → s.layoutFlagged x = true →
      ∀ a ∈ parentChain s f (s.node x).parent, s.layoutFlagged a = true := by
    intro f
    induction f with
    | zero => intro x _ _ a ha; simp [parentChain] at ha
    | succ k ih =>
      intro x hx hf a ha
      cases hp : (s.node x).parent with
      | none => rw [hp] at ha; simp [parentChain] at ha
      | some p =>
        rw [hp] at ha
        obtain ⟨h1, h2⟩ := h x p hx hp
        simp only [parentChain, List.mem_cons] at ha
        rcases ha with rfl | ha
        · exact h2 hf
        · exact ih p h1 (h2 hf) a ha
  intro x a hx ha hd
  exact key s.size x hx (by simp [Store.layoutFlagged, hd]) a ha

theorem insert_shape (s t : Store) (c child : Nat) (pos : Option Nat)
    (h : insert s c pos child = some t) :
    ∃ X : Store, t = reflow X c ∧ X.size = s.size ∧
      (∀ j, (X.node j).parent = if j = child then some c else (s.node j).parent) ∧
      (∀ j, (X.node j).flags = (s.node j).flags) ∧ child ≠ c := by
  unfold insert at h
  simp only at h
  split at h
  · simp at h
  · rename_i hne
    split at h
    · simp at h
    · split at h
      · simp at h
      · split at h
        · simp at h
        · split at h
          · simp at h
          · split at h
            · simp only [Option.some.injEq] at h
              obtain ⟨X, hX, hk⟩ : ∃ X : Store, t = reflow ((X.modify child
                  (fun n => { n with parent := some c })).modify child
                  (fun n => { n with constraints := Vec2.max, area := Rect.none })) c ∧
                  KeepsParentFlags s X := by
                refine ⟨_, h.symm, ?_⟩
                split <;> split <;>
                  repeat (first
                    | exact KeepsParentFlags.keeps_refl _
                    | refine KeepsParentFlags.keeps_trans ?_
                        (keeps_modify _ _ _ (fun _ => ⟨rfl, rfl⟩)))
              obtain ⟨ksz, kf⟩ := hk
              refine ⟨_, hX, by simp [ksz], fun j => ?_, fun j => ?_, hne⟩
              · rw [modify_node]
                split
                · simp [modify_node]
                · rename_i hj
                  rw [modify_node, if_neg hj, (kf j).1]
              · rw [modify_node]
                split
                · rename_i hj
                  simp only [modify_node, if_true]
                  rw [hj, ← (kf child).2]
                · rename_i hj
                  rw [modify_node, if_neg hj, (kf j).2]
            · simp at h

theorem layoutInv_insert (s t : Store) (c child : Nat) (pos : Option Nat)
    (h : insert s c pos child = some t) (hc : c < s.size)
    (hlen : (parents s c).length < s.size) (hnc : child ∉ parents s c)
    (hinv : LayoutInv s) : LayoutInv t := by
  obtain ⟨X, hX, hsz, hpar, hfl, hne⟩ := insert_shape s t c child pos h
  rw [hX]
  have hparents : parents X c = parents s c := by
    unfold parents at hnc ⊢
    have hc' : (X.node c).parent = (s.node c).parent := by
      rw [hpar c, if_neg (fun e => hne e.symm)]
    rw [hsz, hc']
    exact parentChain_eq_avoid s X child (fun j hj => by rw [hpar j, if_neg hj]) _ _ hnc
  apply layoutInv_reflow_of_except
  · rw [hparents, hsz]; exact hlen
  · intro x p hx hp
    rw [hsz] at hx ⊢
    simp only [Store.parent, hpar] at hp
    have hflag : ∀ j, X.layoutFlagged j = s.layoutFlagged j := by
      intro j
      simp [Store.layoutFlagged, Store.isLayoutDirty, Store.isChildLayoutDirty, hfl]
    by_cases hxc : x = child
    · rw [if_pos hxc] at hp
      simp only [Option.some.injEq] at hp
      rw [← hp]
      exact ⟨hc, fun _ => Or.inr (Or.inl rfl)⟩
    · rw [if_neg hxc] at hp
      obtain ⟨h1, h2⟩ := hinv x p hx hp
      refine ⟨h1, fun hf => Or.inl ?_⟩
      rw [hflag] at hf ⊢
      exact h2 hf

theorem erase_shape (s t : Store) (c child : Nat) (r : Option Nat)
    (h : erase s c child = some (t, r)) :
    t.size = s.size ∧
    (∀ j, (t.node j).parent = if j = child then Option.none else (s.node j).parent) ∧
    (∀ j, (t.node j).flags = ((reflow s c).node j).flags) := by
  unfold erase at h
  simp only at h
  split at h
  · simp only [Option.some.injEq, Prod.mk.injEq] at h
    obtain ⟨ht, _⟩ := h
    have key : KeepsParentFlags
        ((reflow s c).modify child (fun n => { n with parent := Option.none })) t := by
      rw [← ht]
      split <;> split <;>
        repeat (first
          | exact KeepsParentFlags.keeps_refl _
          | refine KeepsParentFlags.keeps_trans ?_ (keeps_modify _ _ _ (fun _ => ⟨rfl, rfl⟩)))
    obtain ⟨ksz, kf⟩ := key
    refine ⟨by rw [ksz]; simp [reflow_size], fun j => ?_, fun j => ?_⟩
    · rw [(kf j).1, modify_node]
      split
      · rfl
      · exact reflow_parent s c j
    · rw [(kf j).2, modify_node]
      split
      · rename_i hj; rw [hj]
      · rfl
  · simp at h

theorem layoutInv_erase (s t : Store) (c child : Nat) (r : Option Nat)
    (h : erase s c child = some (t, r)) (hlen : (parents s c).length < s.size)
    (hinv : LayoutInv s) : LayoutInv t := by
  obtain ⟨hsz, hpar, hfl⟩ := erase_shape s t c child r h
  have hre := layoutInv_reflow s c hlen hinv
  intro x p hx hp
  simp only [Store.parent, hpar] at hp
  split at hp
  · simp at hp
  · rw [hsz] at hx ⊢
    have hx' : x < (reflow s c).size := by rw [reflow_size]; exact hx
    have hp' : (reflow s c).parent x = some p := by
      simpa only [Store.parent, reflow_parent] using hp
    obtain ⟨h1, h2⟩ := hre x p hx' hp'
    rw [reflow_size] at h1
    refine ⟨h1, fun hf => ?_⟩
    simp only [Store.layoutFlagged, Store.isLayoutDirty, Store.isChildLayoutDirty, hfl] at hf ⊢
    exact h2 hf

/-! ## The layout dirty invariant: `layout` -/

/-! ### Forests -/

theorem wfTree_wfLinks {s : Store} (h : wfTree s = true) : wfLinks s = true := by
  unfold wfTree at h
  simp only [Bool.and_eq_true] at h
  exact h.1.1

theorem wfTree_child {s : Store} (h : wfTree s = true) {x p : Nat} (hx : x < s.size)
    (hp : s.parent x = some p) : s.isContainer p = true ∧ x ∈ children s p := by
  unfold wfTree at h
  simp only [Bool.and_eq_true, List.all_eq_true, List.mem_range] at h
  have := h.1.2 x hx
  rw [hp] at this
  simpa using this

theorem wfTree_children {s : Store} (h : wfTree s = true) {p : Nat} (hp : p < s.size) :
    (children s p).Nodup ∧ (children s p).length < s.size ∧
      ∀ x ∈ children s p, x < s.size ∧ s.parent x = some p := by
  unfold wfTree at h
  simp only [Bool.and_eq_true, List.all_eq_true, List.mem_range, decide_eq_true_eq] at h
  obtain ⟨⟨h1, h2⟩, h3⟩ := h.2 p hp
  refine ⟨h1, h2, fun x hx => ?_⟩
  have := h3 x hx
  simpa using this

theorem siblingList_after (s : Store) (i : Nat) (post : List Nat) :
    ∀ (pre : List Nat) (f : Nat) (x : Option Nat),
      siblingList s f x = pre ++ i :: post → (siblingList s f x).length < f →
      match (s.node i).next_sibling with
      | some n => ∃ post', post = n :: post'
      | Option.none => post = [] := by
  intro pre
  induction pre with
  | nil =>
    intro f x h hlen
    cases f with
    | zero => simp at hlen
    | succ k =>
      cases x with
      | none => simp [siblingList] at h
      | some a =>
        simp only [siblingList, List.nil_append, List.cons.injEq] at h
        obtain ⟨rfl, h2⟩ := h
        simp only [siblingList, List.length_cons, Nat.succ_lt_succ_iff] at hlen
        cases hn : (s.node a).next_sibling with
        | none =>
          rw [hn] at h2
          have : post = [] := by
            cases k <;> simp [siblingList] at h2 <;> exact h2
          simpa using this
        | some n =>
          rw [hn] at h2 hlen
          cases k with
          | zero => simp at hlen
          | succ k' =>
            simp only [siblingList] at h2
            exact ⟨_, h2.symm⟩
  | cons b pre' ih =>
    intro f x h hlen
    cases f with
    | zero => simp at hlen
    | succ k =>
      cases x with
      | none => simp [siblingList] at h
      | some a =>
        simp only [siblingList, List.cons_append, List.cons.injEq] at h
        simp only [siblingList, List.length_cons, Nat.succ_lt_succ_iff] at hlen
        exact ih k _ h.2 hlen

theorem children_of_first_child (s : Store) (i c : Nat) (hi : i < s.size)
    (hc : (s.node i).first_child = some c) : ∃ rest, children s i = c :: rest := by
  unfold children
  rw [hc]
  cases hsz : s.size with
  | zero => rw [hsz] at hi; simp at hi
  | succ k => exact ⟨_, rfl⟩

theorem children_of_no_first_child (s : Store) (i : Nat)
    (hc : (s.node i).first_child = Option.none) : children s i = [] := by
  unfold children
  rw [hc]
  cases s.size <;> rfl

theorem pre_or_leaf_of_child {s : Store} (h : wfTree s = true) {x p : Nat} (hx : x < s.size)
    (hp : s.parent x = some p) : pre_or_leaf s p = AcceptState.Pre := by
  obtain ⟨hc, hm⟩ := wfTree_child h hx hp
  unfold pre_or_leaf
  cases hf : (s.node p).first_child with
  | none => rw [children_of_no_first_child s p hf] at hm; simp at hm
  | some c => simp [hc]

theorem parent_ne_self {s : Store} (h : wfLinks s = true) {x p : Nat} (hx : x < s.size)
    (hp : s.parent x = some p) : p ≠ x := by
  obtain ⟨_, _, _, _, hlen⟩ := wfLinks_at h hx
  intro e
  apply not_mem_parents_self s x hlen
  rw [parents_of_parent s x p hp hlen, e]
  exact List.mem_cons_self _ _

theorem pathTo_not_mem {s : Store} (h : wfTree s = true) {node i : Nat} {done : List Nat}
    (hp : PathTo s node i done) :
    i < s.size → ∀ x ∈ done, (parents s x).length ≤ (parents s i).length ∧ x ≠ i := by
  have hwf := wfTree_wfLinks h
  induction hp with
  | root => intro _ x hx; simp at hx
  | child y p pre post dn hpar hch _ ih =>
    intro hy x hx
    obtain ⟨hpr, _, _, _, hlen⟩ := wfLinks_at hwf hy
    have hps := hpr p hpar
    have hdy : parents s y = p :: parents s p := parents_of_parent s y p hpar hlen
    obtain ⟨hnd, _, hmem⟩ := wfTree_children h hps
    rcases List.mem_append.mp hx with hx | hx
    · have hxc : x ∈ children s p := by rw [hch]; simp [hx]
      obtain ⟨hxs, hxp⟩ := hmem x hxc
      have hdx : parents s x = p :: parents s p :=
        parents_of_parent s x p hxp (wfLinks_at hwf hxs).2.2.2.2
      refine ⟨by rw [hdx, hdy], ?_⟩
      intro e
      rw [hch] at hnd
      have := List.nodup_append.mp hnd
      exact this.2.2 hx (by rw [e]; exact List.mem_cons_self _ _)
    · obtain ⟨h1, _⟩ := ih hps x hx
      rw [hdy]
      simp only [List.length_cons]
      refine ⟨by omega, ?_⟩
      intro e
      rw [e, hdy] at h1
      simp only [List.length_cons] at h1
      omega

/-! ### Operations that keep the layout bits -/

theorem SameLayout.layout_refl (s : Store) : SameLayout s s :=
  ⟨SameShape.refl s, fun _ => rfl⟩

theorem SameLayout.layout_trans {s t u : Store} (h1 : SameLayout s t) (h2 : SameLayout t u) :
    SameLayout s u :=
  ⟨h1.1.trans h2.1, fun j => (h2.2 j).trans (h1.2 j)⟩

theorem sameLayout_modify (s : Store) (i : Nat) (f : Node → Node) (hf : KeepsShape f)
    (hl : ∀ n, layoutBits (f n).flags = layoutBits n.flags) : SameLayout s (s.modify i f) := by
  refine ⟨sameShape_modify s i f hf, fun j => ?_⟩
  rw [modify_node]
  split
  · rename_i h; rw [h]; exact hl _
  · rfl

theorem sameLayout_of_modify {s u : Store} {i : Nat} {f : Node → Node}
    (h : SameLayout (s.modify i f) u) (hf : KeepsShape f)
    (hl : ∀ n, layoutBits (f n).flags = layoutBits n.flags) : SameLayout s u :=
  (sameLayout_modify s i f hf hl).layout_trans h

theorem sameLayout_flagParents (l : List Nat) : ∀ s : Store, SameLayout s (flagParents s l) := by
  induction l with
  | nil => intro s; exact SameLayout.layout_refl s
  | cons b rest ih =>
    intro s
    simp only [flagParents]
    split
    · exact SameLayout.layout_refl s
    · split
      · exact sameLayout_of_modify (ih _) (fun _ => ⟨rfl, rfl, rfl, rfl, rfl, rfl⟩)
          (fun _ => rfl)
      · split
        · exact sameLayout_modify s b _ (fun _ => ⟨rfl, rfl, rfl, rfl, rfl, rfl⟩) (fun _ => rfl)
        · exact SameLayout.layout_refl s

theorem sameLayout_setDirtyRepositioned (s : Store) (i : Nat) :
    SameLayout s (setDirtyRepositioned s i) :=
  sameLayout_modify s i _ (fun _ => ⟨rfl, rfl, rfl, rfl, rfl, rfl⟩) (fun _ => rfl)

theorem sameLayout_repaint_repositioned (s : Store) (i : Nat) :
    SameLayout s (repaint_repositioned s i) := by
  unfold repaint_repositioned
  split
  · split
    · exact (sameLayout_flagParents _ s).layout_trans (sameLayout_setDirtyRepositioned _ _)
    · split
      · exact sameLayout_setDirtyRepositioned _ _
      · exact SameLayout.layout_refl s
  · split
    · exact sameLayout_setDirtyRepositioned _ _
    · exact SameLayout.layout_refl s

theorem sameLayout_setSize (s : Store) (i : Nat) (v : Vec2) : SameLayout s (setSize s i v).1 := by
  unfold setSize
  split
  · exact sameLayout_of_modify (sameLayout_repaint_repositioned _ i)
      (fun _ => ⟨rfl, rfl, rfl, rfl, rfl, rfl⟩) (fun _ => rfl)
  · exact SameLayout.layout_refl s

theorem sameLayout_layout_end (hooks : Hooks) (s : Store) (node current : Nat) :
    SameLayout s (layout_end hooks s node current).1 := by
  unfold layout_end
  split
  · split
    · exact sameLayout_setSize _ _ _
    · exact sameLayout_setSize _ _ _
  · exact sameLayout_setSize _ _ _

theorem layout_end_changed (hooks : Hooks) (s : Store) (node current : Nat)
    (h : (layout_end hooks s node current).2 = true) (hc : s.isContainer current = true) :
    current ≠ node := by
  unfold layout_end at h
  rw [if_pos hc] at h
  split at h
  · assumption
  · simp at h

theorem sameLayout_repaint_all (s : Store) (i : Nat) : SameLayout s (repaint_all s i) := by
  have hw : SameLayout s (Widget.repaint s i) := by
    unfold Widget.repaint
    split
    · exact sameLayout_of_modify (sameLayout_flagParents _ _)
        (fun _ => ⟨rfl, rfl, rfl, rfl, rfl, rfl⟩) (fun _ => rfl)
    · exact SameLayout.layout_refl s
  have hc : SameLayout s (Container.repaint s i) := by
    unfold Container.repaint
    exact sameLayout_of_modify (sameLayout_flagParents _ _)
      (fun _ => ⟨rfl, rfl, rfl, rfl, rfl, rfl⟩) (fun _ => rfl)
  have hr : SameLayout s (NodeAccess.repaint s i) := by
    unfold NodeAccess.repaint
    split
    · exact hw
    · exact hc
  unfold repaint_all
  simp only
  split
  · exact hr.layout_trans (sameLayout_modify _ i _ (fun _ => ⟨rfl, rfl, rfl, rfl, rfl, rfl⟩)
      (fun _ => rfl))
  · exact hr

theorem layoutInv_of_sameLayout {s t : Store} (h : SameLayout s t) (hinv : LayoutInv s) :
    LayoutInv t :=
  layoutInv_congr s t h.1.1 (fun j => (h.1.2 j).1) h.2 hinv

theorem SameLayout.flagged {s t : Store} (h : SameLayout s t) (j : Nat) :
    t.layoutFlagged j = s.layoutFlagged j ∧ t.isLayoutDirty j = s.isLayoutDirty j :=
  layoutFlagged_of_layoutBits (h.2 j)

/-! ### One pass of the loop `while (true)` of `layout` -/

theorem reflow_of_flagged_parent (s : Store) (i : Nat)
    (hlen : (parents s i).length < s.size)
    (hp : ∀ p, s.parent i = some p → s.layoutFlagged p = true) :
    reflow s i = if !s.isLayoutDirty i then
        s.modifyFlags i (fun f => { f with LayoutDirty := true })
      else s := by
  unfold reflow
  cases hpar : s.parent i with
  | none => rw [parents_of_root s i hpar]; rfl
  | some p =>
    rw [parents_of_parent s i p hpar hlen]
    have := hp p hpar
    simp only [Store.layoutFlagged] at this
    simp only [reflowParents, this, if_true]

theorem layout_pass_cases (hooks : Hooks) (node : Nat) (t : Store) (i : Nat) (st : AcceptState)
    (r : LayoutStep) (h : layout_pass hooks node t i st = some r) :
    ∃ t1 : Store,
      (t1 = t ∨ (st ≠ AcceptState.Post ∧ i ≠ node ∧ ∃ p c, t.parent i = some p ∧
        t.isLayoutDirty p = true ∧ t1 = (setConstraints t i c).1)) ∧
      ((st ≠ AcceptState.Post ∧ t1.layoutFlagged i = false ∧
          r = { store := t1, node := i, state := AcceptState.Post, again := false }) ∨
       (st = AcceptState.Pre ∧ t1.layoutFlagged i = true ∧
          r = { store := t1, node := i, state := AcceptState.Pre, again := false }) ∨
       (st ≠ AcceptState.Pre ∧ (st = AcceptState.Post ∨ t1.layoutFlagged i = true) ∧
          ∃ t3, SameLayout (clearLayoutDirty t1 i) t3 ∧
            r = { store := t3, node := i, state := st, again := false }) ∨
       (st ≠ AcceptState.Pre ∧ t1.isLayoutDirty i = true ∧
          (t1.isContainer i = true → i ≠ node) ∧
          ∃ t3 p, SameLayout (clearLayoutDirty t1 i) t3 ∧ t3.parent i = some p ∧
            t3.isLayoutDirty p = false ∧
            r = { store := reflow t3 p, node := p, state := AcceptState.Pre, again := true })) := by
  unfold layout_pass at h
  simp only at h
  split at h
  · simp at h
  · rename_i t1 ht1
    refine ⟨t1, ?_, ?_⟩
    · -- the store after the pre part
      split at ht1
      · rename_i hst
        have hst' : st ≠ AcceptState.Post := by
          intro e; rw [e] at hst; simp at hst
        split at ht1
        · rename_i hin
          split at ht1
          · rename_i p hp
            split at ht1
            · rename_i hd
              simp only [Option.some.injEq] at ht1
              exact Or.inr ⟨hst', hin, p, _, hp, hd, ht1.symm⟩
            · simp only [Option.some.injEq] at ht1; exact Or.inl ht1.symm
          · simp at ht1
        · simp only [Option.some.injEq] at ht1; exact Or.inl ht1.symm
      · simp only [Option.some.injEq] at ht1; exact Or.inl ht1.symm
    · split at h
      · -- skip
        rename_i hskip
        simp only [Bool.and_eq_true, Bool.not_eq_true', bne_iff_ne, ne_eq] at hskip
        simp only [Option.some.injEq] at h
        left
        refine ⟨hskip.1.1, ?_, h.symm⟩
        simp [Store.layoutFlagged, hskip.1.2, hskip.2]
      · rename_i hskip
        have hfl : st = AcceptState.Post ∨ t1.layoutFlagged i = true := by
          by_cases hp : st = AcceptState.Post
          · exact Or.inl hp
          · right
            simp only [Bool.and_eq_true, Bool.not_eq_true', bne_iff_ne, ne_eq, not_and,
              Bool.not_eq_false] at hskip
            simp only [Store.layoutFlagged, Bool.or_eq_true]
            by_cases hd : t1.isLayoutDirty i = true
            · exact Or.inl hd
            · simp only [Bool.not_eq_true] at hd
              exact Or.inr (hskip ⟨hp, hd⟩)
        split at h
        · rename_i hpre
          have hst' : st ≠ AcceptState.Pre := by
            intro e; rw [e] at hpre; simp at hpre
          split at h
          · rename_i hdirty
            split at h
            · rename_i hchanged
              split at h
              · rename_i p hp
                split at h
                · rename_i hpd
                  simp only [Option.some.injEq] at h
                  right; right; right
                  refine ⟨hst', hdirty, ?_, _, p, sameLayout_layout_end hooks _ node i, hp,
                    ?_, h.symm⟩
                  · intro hc
                    apply layout_end_changed hooks _ node i hchanged
                    rw [(sameShape_clearLayoutDirty t1 i).isContainer]; exact hc
                  · simpa using hpd
                · simp only [Option.some.injEq] at h
                  right; right; left
                  exact ⟨hst', hfl, _, sameLayout_layout_end hooks _ node i, h.symm⟩
              · simp at h
            · simp only [Option.some.injEq] at h
              right; right; left
              exact ⟨hst', hfl, _, sameLayout_layout_end hooks _ node i, h.symm⟩
          · simp only [Option.some.injEq] at h
            right; right; left
            exact ⟨hst', hfl, _, SameLayout.layout_refl _, h.symm⟩
        · rename_i hpre
          have hst' : st = AcceptState.Pre := by
            cases st <;> simp_all
          simp only [Option.some.injEq] at h
          right; left
          rcases hfl with hp | hf
          · rw [hst'] at hp; simp at hp
          · refine ⟨hst', hf, ?_⟩
            rw [← h, hst']

theorem clearLayoutDirty_flagged (s : Store) (i x : Nat) :
    (clearLayoutDirty s i).layoutFlagged x = if x = i then false else s.layoutFlagged x := by
  simp only [clearLayoutDirty, Store.layoutFlagged, Store.isLayoutDirty,
    Store.isChildLayoutDirty, modifyFlags_flags]
  split <;> simp

theorem layoutInv_clear (s : Store) (i : Nat) (hinv : LayoutInv s)
    (hcc : ∀ x, x < s.size → s.parent x = some i → s.layoutFlagged x = false) :
    LayoutInv (clearLayoutDirty s i) := by
  intro x p hx hp
  have hp' : s.parent x = some p := by
    simpa only [Store.parent, clearLayoutDirty, modifyFlags_parent] using hp
  have hx' : x < s.size := hx
  obtain ⟨h1, h2⟩ := hinv x p hx' hp'
  refine ⟨h1, fun hf => ?_⟩
  rw [clearLayoutDirty_flagged] at hf ⊢
  split at hf
  · simp at hf
  · split
    · rename_i hpi
      rw [hpi] at hp'
      rw [hcc x hx' hp'] at hf
      exact hf
    · exact h2 hf

theorem reflow_flags_of_flagged_parent (s X : Store) (i p : Nat) (hsz : X.size = s.size)
    (hpar : ∀ j, (X.node j).parent = (s.node j).parent)
    (hfl : ∀ j, (X.node j).flags = (s.node j).flags)
    (hlen : (parents s i).length < s.size) (hp : s.parent i = some p)
    (hd : s.isLayoutDirty p = true) :
    ∀ x, x ≠ i → ((reflow X i).node x).flags = (s.node x).flags := by
  intro x hx
  have hre := reflow_of_flagged_parent X i
    (by rw [parents_congr s X hsz hpar, hsz]; exact hlen) (by
      intro q hq
      have hq' : s.parent i = some q := by simpa only [Store.parent, hpar] using hq
      rw [hp] at hq'
      simp only [Option.some.injEq] at hq'
      rw [← hq']
      simp [Store.layoutFlagged, Store.isLayoutDirty, hfl,
        show (s.node p).flags.LayoutDirty = true from hd])
  rw [hre]
  split
  · rw [modifyFlags_flags, if_neg hx, hfl]
  · rw [hfl]

theorem setConstraints_flagged_parent (t : Store) (i : Nat) (c : Vec2) (p : Nat)
    (hlen : (parents t i).length < t.size) (hp : t.parent i = some p)
    (hd : t.isLayoutDirty p = true) :
    ∀ x, x ≠ i → ((setConstraints t i c).1.node x).flags = (t.node x).flags := by
  intro x hx
  unfold setConstraints
  split
  · refine reflow_flags_of_flagged_parent t
      (t.modify i (fun n => { n with constraints := c })) i p rfl (fun j => ?_) (fun j => ?_)
      hlen hp hd x hx
    · rw [modify_node]; split
      · rename_i hj; rw [hj]
      · rfl
    · rw [modify_node]; split
      · rename_i hj; rw [hj]
      · rfl
  · rfl

theorem layoutVisit_pass (hooks : Hooks) (s0 : Store) (node : Nat) (hwf : wfTree s0 = true)
    (hcont : s0.isContainer node = true) (t : Store) (i : Nat) (st : AcceptState)
    (r : LayoutStep) (hv : LayoutVisit s0 node t i st)
    (h : layout_pass hooks node t i st = some r) :
    (r.again = true → LayoutVisit s0 node r.store r.node r.state) ∧
    (r.again = false → LayoutDone s0 node r.store r.node r.state) := by
  have hwfl := wfTree_wfLinks hwf
  have hi := hv.lt
  obtain ⟨hpr, _, _, _, hlen⟩ := wfLinks_at hwfl hi
  have hlent : (parents t i).length < t.size := by
    rw [hv.shape.parents, hv.shape.1]; exact hlen
  obtain ⟨done, hpath, hdone⟩ := hv.path
  obtain ⟨t1, hpre, hcases⟩ := layout_pass_cases hooks node t i st r h
  -- the store after the pre part
  have hA : SameShape s0 t1 ∧ LayoutInv t1 ∧
      (∀ x, x ≠ i → t1.layoutFlagged x = t.layoutFlagged x) ∧
      (st = AcceptState.Post → t1 = t) := by
    rcases hpre with e | ⟨hst, _, p, c, hp, hd, e⟩
    · rw [e]; exact ⟨hv.shape, hv.inv, fun _ _ => rfl, fun _ => rfl⟩
    · rw [e]
      refine ⟨hv.shape.trans (sameShape_setConstraints t i c),
        layoutInv_setConstraints t i c hlent hv.inv, ?_, fun e => absurd e hst⟩
      intro x hx
      simp only [Store.layoutFlagged, Store.isLayoutDirty, Store.isChildLayoutDirty,
        setConstraints_flagged_parent t i c p hlent hp hd x hx]
  obtain ⟨hsh1, hinv1, hfl1, hpost1⟩ := hA
  have hdone1 : ∀ x ∈ done, x ≠ i → t1.layoutFlagged x = false := fun x hx hne => by
    rw [hfl1 x hne]; exact hdone x hx
  -- no child of the node carries a flag when the node is left
  have hcc : st ≠ AcceptState.Pre →
      ∀ x, x < t1.size → t1.parent x = some i → t1.layoutFlagged x = false := by
    intro hst x hx hp
    rw [hsh1.1] at hx
    rw [hsh1.parent] at hp
    by_cases hpo : st = AcceptState.Post
    · rw [hpost1 hpo]; exact hv.post hpo x hx hp
    · have h1 := hv.pre hpo
      rw [pre_or_leaf_of_child hwf hx hp] at h1
      exact absurd h1 hst
  -- the store after the flags of the node are cleared and `layout_end` has run
  have hclear : st ≠ AcceptState.Pre → ∀ t3, SameLayout (clearLayoutDirty t1 i) t3 →
      SameShape s0 t3 ∧ LayoutInv t3 ∧
      (∀ x, t3.layoutFlagged x = if x = i then false else t1.layoutFlagged x) := by
    intro hst t3 h3
    refine ⟨(hsh1.trans (sameShape_clearLayoutDirty t1 i)).trans h3.1,
      layoutInv_of_sameLayout h3 (layoutInv_clear t1 i hinv1 (hcc hst)), fun x => ?_⟩
    rw [(h3.flagged x).1, clearLayoutDirty_flagged]
  rcases hcases with ⟨hst, hf, hr⟩ | ⟨hst, hf, hr⟩ | ⟨hst, hf, t3, h3, hr⟩ |
      ⟨hst, hd, hne, t3, p, h3, hp3, hpd, hr⟩
  · -- skip
    rw [hr]
    refine ⟨fun e => by simp at e, fun _ => ?_⟩
    exact {
      shape := hsh1
      inv := hinv1
      lt := hi
      path := ⟨done, hpath, fun x hx => by
        by_cases hxi : x = i
        · rw [hxi]; exact hf
        · exact hdone1 x hx hxi⟩
      descend := fun e => by simp at e
      clean := fun _ => hf
      leaf := fun e => by simp at e }
  · -- descend
    rw [hr]
    refine ⟨fun e => by simp at e, fun _ => ?_⟩
    exact {
      shape := hsh1
      inv := hinv1
      lt := hi
      path := ⟨done, hpath, fun x hx =>
        hdone1 x hx (pathTo_not_mem hwf hpath hi x hx).2⟩
      descend := fun _ => by
        have := hv.pre (by rw [hst]; simp)
        rw [← this, hst]
      clean := fun e => absurd rfl e
      leaf := fun e => by simp at e }
  · -- the node is left
    obtain ⟨hsh3, hinv3, hfl3⟩ := hclear hst t3 h3
    rw [hr]
    refine ⟨fun e => by simp at e, fun _ => ?_⟩
    exact {
      shape := hsh3
      inv := hinv3
      lt := hi
      path := ⟨done, hpath, fun x hx => by
        rw [hfl3]
        split
        · rfl
        · rename_i hxi; exact hdone1 x hx hxi⟩
      descend := fun e => absurd e hst
      clean := fun _ => by rw [hfl3]; simp
      leaf := fun e => by
        have e' : st = AcceptState.Leaf := e
        have := hv.pre (by rw [e']; simp)
        rw [← this]; exact e' }
  · -- the parent is visited again
    obtain ⟨hsh3, hinv3, hfl3⟩ := hclear hst t3 h3
    have hp0 : s0.parent i = some p := by rw [← hsh3.parent]; exact hp3
    have hps : p < s0.size := hpr p hp0
    have hpi : p ≠ i := parent_ne_self hwfl hi hp0
    have hin : i ≠ node := by
      intro e
      apply hne _ e
      rw [hsh1.isContainer, e]; exact hcont
    -- the parent carries a flag
    have hfp1 : t1.layoutFlagged p = true := by
      have := hinv1 i p (by rw [hsh1.1]; exact hi) (by rw [hsh1.parent]; exact hp0)
      exact this.2 (by simp [Store.layoutFlagged, hd])
    have hfp3 : t3.layoutFlagged p = true := by
      rw [hfl3, if_neg hpi]; exact hfp1
    have hlen3 : (parents t3 p).length < t3.size := by
      rw [hsh3.parents, hsh3.1]; exact (wfLinks_at hwfl hps).2.2.2.2
    have hre := reflow_of_flagged_parent t3 p hlen3 (fun q hq =>
      (hinv3 p q (by rw [hsh3.1]; exact hps) hq).2 hfp3)
    have hre' : reflow t3 p = t3.modifyFlags p (fun f => { f with LayoutDirty := true }) := by
      rw [hre, hpd]; rfl
    have hfl4 : ∀ x, (reflow t3 p).layoutFlagged x = t3.layoutFlagged x := by
      intro x
      rw [hre']
      simp only [Store.layoutFlagged, Store.isLayoutDirty,
        Store.isChildLayoutDirty, modifyFlags_flags]
      split
      · rename_i hxp
        rw [hxp]
        have := hfp3
        simp only [Store.layoutFlagged, Store.isLayoutDirty, Store.isChildLayoutDirty] at this
        simp [this]
      · rfl
    rw [hr]
    refine ⟨fun _ => ?_, fun e => by simp at e⟩
    cases hpath with
    | root => exact absurd rfl hin
    | child y p' pre post dn hpar' hch hp' =>
      rw [hp0] at hpar'
      simp only [Option.some.injEq] at hpar'
      rw [← hpar'] at hp' hch
      exact {
        shape := hsh3.trans (sameShape_reflow t3 p)
        inv := layoutInv_reflow t3 p hlen3 hinv3
        lt := hps
        path := ⟨dn, hp', fun x hx => by
          rw [hfl4, hfl3]
          split
          · rfl
          · rename_i hxi
            exact hdone1 x (List.mem_append_right _ hx) hxi⟩
        post := fun e => by simp at e
        pre := fun _ => (pre_or_leaf_of_child hwf hi hp0).symm }

/-! ### The loops of `layout` -/

theorem layoutVisit_while (hooks : Hooks) (s0 : Store) (node : Nat) (hwf : wfTree s0 = true)
    (hcont : s0.isContainer node = true) :
    ∀ (fuel : Nat) (t : Store) (i : Nat) (st : AcceptState) (r : LayoutStep),
      LayoutVisit s0 node t i st → layout_while hooks node fuel t i st = some r →
      LayoutDone s0 node r.store r.node r.state := by
  intro fuel
  induction fuel with
  | zero => intro t i st r _ h; simp [layout_while] at h
  | succ k ih =>
    intro t i st r hv h
    unfold layout_while at h
    split at h
    · simp at h
    · rename_i r1 hr1
      obtain ⟨h1, h2⟩ := layoutVisit_pass hooks s0 node hwf hcont t i st r1 hv hr1
      split at h
      · rename_i hag
        exact ih _ _ _ r (h1 hag) h
      · rename_i hag
        simp only [Option.some.injEq] at h
        rw [← h]
        exact h2 (by simpa using hag)

theorem layoutDone_increment (s0 : Store) (node : Nat) (hwf : wfTree s0 = true) (t : Store)
    (i : Nat) (st : AcceptState) (hd : LayoutDone s0 node t i st) :
    (t.layoutFlagged node = false ∧ increment t i st = traverseEnd s0 node) ∨
    ∃ j, (increment t i st).node = some j ∧
      LayoutVisit s0 node t j (increment t i st).state := by
  have hwfl := wfTree_wfLinks hwf
  have hi := hd.lt
  obtain ⟨hpr, _, hchild, hsib, _⟩ := wfLinks_at hwfl hi
  obtain ⟨done, hpath, hdone⟩ := hd.path
  rw [hd.shape.increment]
  by_cases hst : st = AcceptState.Pre
  · -- the traversal descends to the first child
    right
    have hpl := hd.descend hst
    unfold pre_or_leaf at hpl
    split at hpl
    · rename_i hc
      simp only [Bool.and_eq_true] at hc
      obtain ⟨c, hfc⟩ := Option.isSome_iff_exists.mp hc.2
      have hinc : increment s0 i st = { node := some c, state := pre_or_leaf s0 c } := by
        simp [increment, next_child, hc.1, hfc, hst]
      rw [hinc]
      obtain ⟨hcs, hpc⟩ := hchild c hfc
      obtain ⟨rest, hrest⟩ := children_of_first_child s0 i c hi hfc
      refine ⟨c, rfl, ?_⟩
      exact {
        shape := hd.shape
        inv := hd.inv
        lt := hcs
        path := ⟨[] ++ done, PathTo.child c i [] rest done hpc (by simpa using hrest) hpath,
          by simpa using hdone⟩
        post := fun e => absurd e (pre_or_leaf_ne_post s0 c)
        pre := fun _ => rfl }
    · simp at hpl
  · have hclean := hd.clean hst
    have hinc : increment s0 i st = next_sibling_or_parent s0 i := by
      cases st with
      | Pre => exact absurd rfl hst
      | Post => simp [increment]
      | Leaf =>
        have hpl := hd.leaf rfl
        unfold pre_or_leaf at hpl
        split at hpl
        · simp at hpl
        · rename_i hc
          have hnc : next_child s0 i = Option.none := by
            unfold next_child
            split
            · rename_i hcont
              simp only [hcont, Bool.true_and, Bool.not_eq_true, Option.not_isSome,
                Option.isNone_iff_eq_none] at hc
              exact hc
            · rfl
          simp [increment, hnc]
    rw [hinc]
    by_cases hin : i = node
    · left; rw [← hin]; exact ⟨hclean, rfl⟩
    · right
      cases hpath with
      | root => exact absurd rfl hin
      | child y p pre post dn hpar hch hp' =>
        have hps := hpr p hpar
        obtain ⟨_, hclen, _⟩ := wfTree_children hwf hps
        have hafter := siblingList_after s0 i post pre s0.size _ hch hclen
        unfold next_sibling_or_parent
        cases hn : (s0.node i).next_sibling with
        | some n =>
          rw [hn] at hafter
          obtain ⟨post', hpost⟩ := hafter
          obtain ⟨hns, hnp⟩ := hsib n hn
          refine ⟨n, rfl, ?_⟩
          exact {
            shape := hd.shape
            inv := hd.inv
            lt := hns
            path := ⟨(pre ++ [i]) ++ dn,
              PathTo.child n p (pre ++ [i]) post' dn (by rw [hnp]; exact hpar)
                (by rw [hch, hpost]; simp) hp',
              fun x hx => by
                simp only [List.mem_append, List.mem_singleton] at hx
                rcases hx with (hx | hx) | hx
                · exact hdone x (List.mem_append_left _ hx)
                · rw [hx]; exact hclean
                · exact hdone x (List.mem_append_right _ hx)⟩
            post := fun e => absurd e (pre_or_leaf_ne_post s0 n)
            pre := fun _ => rfl }
        | none =>
          rw [hn] at hafter
          simp only at hafter
          refine ⟨p, hpar, ?_⟩
          exact {
            shape := hd.shape
            inv := hd.inv
            lt := hps
            path := ⟨dn, hp', fun x hx => hdone x (List.mem_append_right _ hx)⟩
            post := fun _ x hx hxp => by
              obtain ⟨_, hm⟩ := wfTree_child hwf hx hxp
              rw [hch, hafter] at hm
              simp only [List.mem_append, List.mem_singleton] at hm
              rcases hm with hm | hm
              · exact hdone x (List.mem_append_left _ hm)
              · rw [hm]; exact hclean
            pre := fun e => absurd rfl e }

theorem layoutInv_loop (hooks : Hooks) (s0 : Store) (node : Nat) (hwf : wfTree s0 = true)
    (hcont : s0.isContainer node = true) :
    ∀ (fuel : Nat) (t : Store) (cur : Accept) (res : Store),
      LayoutInv t →
      (cur.same (traverseEnd s0 node) = false →
        ∃ i, cur.node = some i ∧ LayoutVisit s0 node t i cur.state) →
      layout_loop hooks node (traverseEnd s0 node) fuel t cur = some res → LayoutInv res := by
  intro fuel
  induction fuel with
  | zero =>
    intro t cur res hinv _ h
    unfold layout_loop at h
    split at h
    · simp only [Option.some.injEq] at h; rw [← h]; exact hinv
    · simp at h
  | succ k ih =>
    intro t cur res hinv hcur h
    unfold layout_loop at h
    split at h
    · simp only [Option.some.injEq] at h; rw [← h]; exact hinv
    · rename_i hsame
      obtain ⟨i, hi, hv⟩ := hcur (by simpa using hsame)
      rw [hi] at h
      simp only at h
      split at h
      · simp at h
      · rename_i r hr
        have hd := layoutVisit_while hooks s0 node hwf hcont _ t i cur.state r hv hr
        refine ih _ _ res hd.inv ?_ h
        intro hns
        rcases layoutDone_increment s0 node hwf r.store r.node r.state hd with ⟨_, he⟩ | hj
        · rw [he, same_self] at hns
          simp at hns
        · exact hj

/-! ### `layout` keeps the layout dirty invariant -/

theorem layout_init_layoutInv (hooks : Hooks) (surface : Surface) (s : Store) (node : Nat)
    (hwf : wfTree s = true) (hn : node < s.size) (hinv : LayoutInv s) :
    LayoutInv (layout_init hooks surface s node).1 ∧
    SameShape s (layout_init hooks surface s node).1 ∧
    ((layout_init hooks surface s node).2 = true → s.isContainer node = true) := by
  have hwfl := wfTree_wfLinks hwf
  have hlen := (wfLinks_at hwfl hn).2.2.2.2
  have hclear : ∀ (s1 : Store) (v : Vec2), LayoutInv s1 → SameShape s s1 →
      s1.isWidget node = true → LayoutInv (clearLayoutDirty (setSize s1 node v).1 node) := by
    intro s1 v hinv1 hsh1 hw
    apply layoutInv_clear _ node (layoutInv_of_sameLayout (sameLayout_setSize s1 node v) hinv1)
    intro x hx hp
    have hsh2 := hsh1.trans (sameShape_setSize s1 node v)
    rw [hsh2.1] at hx
    rw [hsh2.parent] at hp
    obtain ⟨hc, _⟩ := wfTree_child hwf hx hp
    rw [hsh1.isWidget] at hw
    simp only [Store.isContainer, Store.isWidget] at hc hw
    rw [hw] at hc
    simp at hc
  have h2 : ∀ s1 : Store, LayoutInv s1 → SameShape s s1 →
      LayoutInv (if s1.isWidget node then
          (clearLayoutDirty
            (if !s1.isAttached node then (setSize s1 node (s1.node node).constraints).1
             else (setSize s1 node (hooks.preferredSize s1 node)).1) node, false)
        else (s1, true)).1 ∧
      SameShape s (if s1.isWidget node then
          (clearLayoutDirty
            (if !s1.isAttached node then (setSize s1 node (s1.node node).constraints).1
             else (setSize s1 node (hooks.preferredSize s1 node)).1) node, false)
        else (s1, true)).1 ∧
      ((if s1.isWidget node then
          (clearLayoutDirty
            (if !s1.isAttached node then (setSize s1 node (s1.node node).constraints).1
             else (setSize s1 node (hooks.preferredSize s1 node)).1) node, false)
        else (s1, true)).2 = true → s.isContainer node = true) := by
    intro s1 hinv1 hsh1
    by_cases hw : s1.isWidget node = true
    · rw [if_pos hw]
      refine ⟨?_, ?_, fun e => by simp at e⟩
      · split
        · exact hclear s1 _ hinv1 hsh1 hw
        · exact hclear s1 _ hinv1 hsh1 hw
      · split
        · exact (hsh1.trans (sameShape_setSize s1 node _)).trans
            (sameShape_clearLayoutDirty _ node)
        · exact (hsh1.trans (sameShape_setSize s1 node _)).trans
            (sameShape_clearLayoutDirty _ node)
    · rw [if_neg hw]
      refine ⟨hinv1, hsh1, fun _ => ?_⟩
      rw [hsh1.isWidget] at hw
      simp only [Store.isContainer, Store.isWidget] at hw ⊢
      simpa using hw
  have hset : ∀ s1 : Store, LayoutInv s1 → SameShape s s1 →
      LayoutInv (setConstraints s1 node surface.resolution).1 ∧
        SameShape s (setConstraints s1 node surface.resolution).1 := by
    intro s1 hinv1 hsh1
    exact ⟨layoutInv_setConstraints s1 node _ (by rw [hsh1.parents, hsh1.1]; exact hlen) hinv1,
      hsh1.trans (sameShape_setConstraints s1 node _)⟩
  unfold layout_init
  simp only
  by_cases hc : surface.changed = true
  · simp only [hc, if_true]
    have hr : LayoutInv (reset s node) :=
      layoutInv_of_sameLayout (sameLayout_repaint_all _ node) (layoutInv_reflow s node hlen hinv)
    obtain ⟨g1, g2⟩ := hset _ hr (sameShape_reset s node)
    exact h2 _ g1 g2
  · simp only [hc, if_false]
    by_cases ha : (!s.isAttached node) = true
    · simp only [ha, if_true]
      obtain ⟨g1, g2⟩ := hset s hinv (SameShape.refl s)
      exact h2 _ g1 g2
    · simp only [ha, if_false]
      exact h2 s hinv (SameShape.refl s)

theorem layoutInv_layout (hooks : Hooks) (fuel : Nat) (surface : Surface) (s t : Store)
    (node : Nat) (hwf : wfTree s = true) (hn : node < s.size) (hinv : LayoutInv s)
    (ht : layout hooks fuel surface s node = some t) : LayoutInv t := by
  obtain ⟨h1, h2, h3⟩ := layout_init_layoutInv hooks surface s node hwf hn hinv
  unfold layout at ht
  simp only at ht
  split at ht
  · simp only [Option.some.injEq] at ht; rw [← ht]; exact h1
  · rename_i hb
    have hcont : s.isContainer node = true := h3 (by simpa using hb)
    split at ht
    · simp only [Option.some.injEq] at ht; rw [← ht]; exact h1
    · rw [h2.traverseEnd, h2.traverseBegin] at ht
      refine layoutInv_loop hooks s node hwf hcont fuel _ _ t h1 ?_ ht
      intro _
      refine ⟨node, rfl, ?_⟩
      exact {
        shape := h2
        inv := h1
        lt := hn
        path := ⟨[], PathTo.root, fun x hx => by simp at hx⟩
        post := fun e => absurd e (pre_or_leaf_ne_post s node)
        pre := fun _ => rfl }

/-! ## The setters and `insert`: fields -/

theorem SameData.data_refl (s : Store) : SameData s s := fun _ => ⟨rfl, rfl⟩

theorem SameData.data_trans {s t u : Store} (h1 : SameData s t) (h2 : SameData t u) :
    SameData s u :=
  fun j => ⟨(h2 j).1.trans (h1 j).1, (h2 j).2.trans (h1 j).2⟩

theorem sameData_modifyFlags (s : Store) (i : Nat) (g : Flags → Flags) :
    SameData s (s.modifyFlags i g) := by
  intro j
  simp only [Store.modifyFlags, modify_node]
  split
  · rename_i h; rw [h]; exact ⟨rfl, rfl⟩
  · exact ⟨rfl, rfl⟩

theorem sameData_of_modifyFlags {s u : Store} {i : Nat} {g : Flags → Flags}
    (h : SameData (s.modifyFlags i g) u) : SameData s u :=
  (sameData_modifyFlags s i g).data_trans h

theorem sameData_flagParents (l : List Nat) : ∀ s : Store, SameData s (flagParents s l) := by
  induction l with
  | nil => intro s; exact SameData.data_refl s
  | cons b rest ih =>
    intro s
    simp only [flagParents]
    split
    · exact SameData.data_refl s
    · split
      · exact sameData_of_modifyFlags (ih _)
      · split
        · exact sameData_modifyFlags s b _
        · exact SameData.data_refl s

theorem sameData_reflowParents (l : List Nat) : ∀ s : Store, SameData s (reflowParents s l) := by
  induction l with
  | nil => intro s; exact SameData.data_refl s
  | cons b rest ih =>
    intro s
    simp only [reflowParents]
    split
    · exact SameData.data_refl s
    · exact sameData_of_modifyFlags (ih _)

theorem sameData_reflow (s : Store) (i : Nat) : SameData s (reflow s i) := by
  unfold reflow
  split
  · exact (sameData_reflowParents _ s).data_trans (sameData_modifyFlags _ i _)
  · exact SameData.data_refl s

theorem sameData_repaint_repositioned (s : Store) (i : Nat) :
    SameData s (repaint_repositioned s i) := by
  unfold repaint_repositioned setDirtyRepositioned flag_parent_child_paint_dirty
  split
  · split
    · exact (sameData_flagParents _ s).data_trans (sameData_modifyFlags _ _ _)
    · split
      · exact sameData_modifyFlags _ _ _
      · exact SameData.data_refl s
  · split
    · exact sameData_modifyFlags _ _ _
    · exact SameData.data_refl s

theorem reflow_dirty (s : Store) (i : Nat) : (reflow s i).isLayoutDirty i = true := by
  unfold reflow
  split
  · simp [Store.isLayoutDirty, modifyFlags_flags]
  · rename_i h
    simpa using h

theorem flagParents_flags_of_not_mem (l : List Nat) (s : Store) (hnd : l.Nodup) (j : Nat)
    (hj : j ∉ l) : ((flagParents s l).node j).flags = (s.node j).flags :=
  (flagParents_spec l s hnd).2 j (fun h => hj (pathUpTo_subset s l j h))

theorem repaint_repositioned_geometry (s : Store) (n : Nat)
    (hlen : (parents s n).length < s.size) :
    GeometryFlagged s (repaint_repositioned s n) n := by
  unfold GeometryFlagged repaint_repositioned
  cases hp : s.parent n with
  | some p =>
    have hpar := parents_of_parent s n p hp hlen
    have hnd := parents_nodup s n hlen
    have hnot := not_mem_parents_self s n hlen
    rw [hpar] at hnd hnot
    rw [List.nodup_cons] at hnd
    simp only [List.mem_cons, not_or] at hnot
    simp only
    split
    · refine ⟨?_, ?_, ?_⟩
      · simp [Store.isPaintDirty, setDirtyRepositioned_flags]
      · simp [Store.isPaintRepositioned, setDirtyRepositioned_flags]
      · rw [setDirtyRepositioned_flags, if_neg hnot.1]
        exact flagParents_flags_of_not_mem _ s hnd.2 n hnot.2
    · rename_i hd
      split
      · refine ⟨?_, ?_, ?_⟩
        · simp [Store.isPaintDirty, setDirtyRepositioned_flags]
        · simp [Store.isPaintRepositioned, setDirtyRepositioned_flags]
        · rw [setDirtyRepositioned_flags, if_neg hnot.1]
      · rename_i hr
        exact ⟨by simpa using hd, by simpa using hr, rfl⟩
  | none =>
    simp only
    split
    · refine ⟨?_, fun _ => ?_⟩
      · simp [Store.isPaintRepositioned, setDirtyRepositioned_flags]
      · simp [Store.isPaintDirty, setDirtyRepositioned_flags]
    · rename_i hr
      have hr' : s.isPaintRepositioned n = true := by simpa using hr
      refine ⟨hr', fun h => ?_⟩
      rcases h with h | h
      · rw [hr'] at h; simp at h
      · exact h

theorem geometryFlagged_modify_area (s : Store) (n : Nat) (g : Node → Rect)
    (hlen : (parents s n).length < s.size) :
    GeometryFlagged s (repaint_repositioned (s.modify n (fun x => { x with area := g x })) n)
      n := by
  have h := repaint_repositioned_geometry (s.modify n (fun x => { x with area := g x })) n
    (by rw [modify_area_parents]; exact hlen)
  unfold GeometryFlagged at h ⊢
  simp only [Store.parent, modify_area_parent, Store.isPaintRepositioned, Store.isPaintDirty,
    modify_area_flags] at h ⊢
  exact h

theorem resize_size (a : Rect) (v : Vec2) (hx : 0 < v.x) (hy : 0 < v.y)
    (hvx : inPoint v.x = true) (hvy : inPoint v.y = true)
    (hlx : inPoint a.low.x = true) (hly : inPoint a.low.y = true)
    (hfx : a.low.x + v.x ≤ 32768) (hfy : a.low.y + v.y ≤ 32768) :
    (a.resize v).size = v := by
  rw [inPoint_iff] at hlx hly hvx hvy
  have e1 : wrapPoint (wrapPoint (a.low.x + v.x) - 1) = a.low.x + v.x - 1 := by
    unfold wrapPoint; omega
  have e2 : wrapPoint (wrapPoint (a.low.y + v.y) - 1) = a.low.y + v.y - 1 := by
    unfold wrapPoint; omega
  have hne : (a.resize v).empty = false := by
    simp only [Rect.resize, Rect.empty, Vec2.add, Vec2.subP, e1, e2, Bool.or_eq_false_iff,
      decide_eq_false_iff_not, not_lt]
    omega
  simp only [Rect.size, hne, Bool.false_eq_true, if_false]
  simp only [Rect.resize, Vec2.add, Vec2.subP, e1, e2]
  have f1 : wrapPoint (a.low.x + v.x - 1 - a.low.x + 1) = v.x := by
    clear e1 e2 hne
    unfold wrapPoint; omega
  have f2 : wrapPoint (a.low.y + v.y - 1 - a.low.y + 1) = v.y := by
    clear e1 e2 hne
    unfold wrapPoint; omega
  rw [f1, f2]

theorem insert_child_fields (s t : Store) (c child : Nat) (pos : Option Nat)
    (h : insert s c pos child = some t) :
    ∃ X : Store, t = reflow X c ∧ (X.node child).parent = some c ∧
      (X.node child).constraints = Vec2.max ∧ (X.node child).area = Rect.none := by
  unfold insert at h
  simp only at h
  split at h
  · simp at h
  · split at h
    · simp at h
    · split at h
      · simp at h
      · split at h
        · simp at h
        · split at h
          · simp at h
          · split at h
            · simp only [Option.some.injEq] at h
              exact ⟨_, h.symm, by simp [modify_node], by simp [modify_node],
                by simp [modify_node]⟩
            · simp at h

/-! ## The list of children after `insert` -/

theorem siblingList_of_nextLinked (s : Store) :
    ∀ (L : List Nat) (f : Nat), nextLinked s L Option.none → L.length ≤ f →
      siblingList s f L.head? = L := by
  intro L
  induction L with
  | nil => intro f _ _; cases f <;> rfl
  | cons x rest ih =>
    intro f h hlen
    cases f with
    | zero => simp at hlen
    | succ k =>
      simp only [nextLinked] at h
      simp only [List.head?_cons, siblingList, List.cons.injEq, true_and]
      rw [h.1]
      have hm : headOr rest Option.none = rest.head? := by
        cases rest <;> rfl
      rw [hm]
      exact ih k h.2 (by simpa using hlen)

theorem nextLinked_of_linkedFrom (s : Store) :
    ∀ (L : List Nat) (prev : Option Nat), linkedFrom s prev L = true →
      nextLinked s L Option.none := by
  intro L
  induction L with
  | nil => intro _ _; trivial
  | cons x rest ih =>
    intro prev h
    simp only [linkedFrom, Bool.and_eq_true, beq_iff_eq] at h
    refine ⟨?_, ih _ h.2⟩
    rw [h.1.2]
    cases rest <;> rfl

theorem nextLinked_append (s : Store) (B : List Nat) (E : Option Nat) :
    ∀ A : List Nat, nextLinked s (A ++ B) E ↔
      (nextLinked s A (headOr B E) ∧ nextLinked s B E) := by
  intro A
  induction A with
  | nil => simp [nextLinked]
  | cons x rest ih =>
    have hh : headOr (rest ++ B) E = headOr rest (headOr B E) := by
      cases rest <;> rfl
    show ((s.node x).next_sibling = headOr (rest ++ B) E ∧ nextLinked s (rest ++ B) E) ↔ _
    rw [ih, hh]
    simp only [nextLinked, and_assoc]

theorem nextLinked_congr (s t : Store) (E : Option Nat) :
    ∀ L : List Nat, (∀ x ∈ L, (t.node x).next_sibling = (s.node x).next_sibling) →
      nextLinked s L E → nextLinked t L E := by
  intro L
  induction L with
  | nil => intro _ _; trivial
  | cons x rest ih =>
    intro h hl
    simp only [nextLinked] at hl ⊢
    refine ⟨?_, ih (fun y hy => h y (List.mem_cons_of_mem _ hy)) hl.2⟩
    rw [h x (List.mem_cons_self _ _)]; exact hl.1

theorem nextLinked_relink (s t : Store) (E E' : Option Nat) :
    ∀ A : List Nat, nextLinked s A E → A.Nodup →
      (∀ x ∈ A, some x ≠ A.getLast? → (t.node x).next_sibling = (s.node x).next_sibling) →
      (∀ l, A.getLast? = some l → (t.node l).next_sibling = E') →
      nextLinked t A E' := by
  intro A
  induction A with
  | nil => intro _ _ _ _; trivial
  | cons x rest ih =>
    intro hl hnd hsame hlast
    rw [List.nodup_cons] at hnd
    simp only [nextLinked] at hl ⊢
    cases rest with
    | nil =>
      exact ⟨hlast x rfl, trivial⟩
    | cons y r =>
      have hgl : (x :: y :: r).getLast? = (y :: r).getLast? := List.getLast?_cons_cons
      refine ⟨?_, ih hl.2 hnd.2 ?_ ?_⟩
      · rw [hsame x (List.mem_cons_self _ _)]
        · exact hl.1
        · rw [hgl]
          intro e
          exact hnd.1 (List.mem_of_getLast?_eq_some e.symm)
      · intro z hz hne
        exact hsame z (List.mem_cons_of_mem _ hz) (by rw [hgl]; exact hne)
      · intro l hl'
        exact hlast l (by rw [hgl]; exact hl')

theorem linkedFrom_split (s : Store) :
    ∀ (A : List Nat) (prev : Option Nat) (x : Nat) (B : List Nat),
      linkedFrom s prev (A ++ x :: B) = true →
      (s.node x).next_sibling = B.head? ∧
        (s.node x).prev_sibling = (match A.getLast? with | some l => some l | Option.none => prev) := by
  intro A
  induction A with
  | nil =>
    intro prev x B h
    simp only [List.nil_append, linkedFrom, Bool.and_eq_true, beq_iff_eq] at h
    exact ⟨h.1.2, by simpa using h.1.1⟩
  | cons a A' ih =>
    intro prev x B h
    simp only [List.cons_append, linkedFrom, Bool.and_eq_true, beq_iff_eq] at h
    obtain ⟨h1, h2⟩ := ih (some a) x B h.2
    refine ⟨h1, ?_⟩
    rw [h2]
    cases hA : A'.getLast? with
    | none =>
      have : A' = [] := by simpa using hA
      simp [this]
    | some l =>
      have : (a :: A').getLast? = some l := by
        cases A' with
        | nil => simp at hA
        | cons b A'' => simpa [List.getLast?_cons_cons] using hA
      simp [this]

theorem insert_links (s : Store) (c child : Nat) (pos left : Option Nat) (hne : child ≠ c)
    (hpar : s.parent child = Option.none)
    (hnx : (s.node child).next_sibling = Option.none)
    (hpv : (s.node child).prev_sibling = Option.none)
    (hleft : left = match pos with
      | some p => (s.node p).prev_sibling
      | Option.none => (s.node c).last_child)
    (hl : ∀ l, left = some l → l ≠ child ∧ l ≠ c ∧ (s.node c).first_child.isSome = true)
    (hp : ∀ p, pos = some p →
      p ≠ child ∧ p ≠ c ∧ left ≠ some p ∧ (s.node c).last_child.isSome = true) :
    ∃ t, insert s c pos child = some t ∧
      (∀ x, (t.node x).next_sibling =
        if some x = left then some child else if x = child then pos
        else (s.node x).next_sibling) ∧
      (t.node c).first_child =
        (if left = Option.none then some child else (s.node c).first_child) := by
  have hparents : parents s child = [] := parents_of_root s child hpar
  have hatt : s.isAttached child = false := by simp [Store.isAttached, hpar]
  have hcne : c ≠ child := fun e => hne e.symm
  cases pos with
  | none =>
    simp only at hleft
    cases left with
    | none =>
      have hlc : (s.node c).last_child = Option.none := hleft.symm
      have hs : (insert s c Option.none child).isSome = true := by
        unfold insert
        simp [modify_node, hne, hcne, hparents, hatt, hnx, hpv, hlc]
      obtain ⟨t, ht⟩ := Option.isSome_iff_exists.mp hs
      refine ⟨t, ht, ?_⟩
      unfold insert at ht
      simp only [hne, if_false, hparents, List.any_nil, Bool.false_eq_true, hatt, hnx, hpv,
        Option.isSome_none] at ht
      split at ht
      · simp only [Option.some.injEq] at ht
        rw [← ht]
        refine ⟨fun x => ?_, ?_⟩
        · rw [(sameShape_reflow _ c).2 x |>.2.1]
          by_cases hx : x = child
          · simp [modify_node, hx, hne, hnx, hlc]
          · by_cases hxc : x = c
            · simp [modify_node, hxc, hcne, hlc]
            · simp [modify_node, hx, hxc, hlc]
        · rw [(sameShape_reflow _ c).2 c |>.2.2.2.1]
          simp [modify_node, hcne, hlc]
      · simp at ht
    | some l =>
      obtain ⟨hlch, hlc, hfc⟩ := hl l rfl
      have hlcs : (s.node c).last_child = some l := hleft.symm
      obtain ⟨fc, hfc'⟩ := Option.isSome_iff_exists.mp hfc
      have hs : (insert s c Option.none child).isSome = true := by
        unfold insert
        simp [modify_node, hne, hcne, hparents, hatt, hnx, hpv, hlcs, hlch, hlc, Ne.symm hlch, Ne.symm hlc, hfc']
      obtain ⟨t, ht⟩ := Option.isSome_iff_exists.mp hs
      refine ⟨t, ht, ?_⟩
      unfold insert at ht
      simp only [hne, if_false, hparents, List.any_nil, Bool.false_eq_true, hatt, hnx, hpv,
        Option.isSome_none] at ht
      split at ht
      · simp only [Option.some.injEq] at ht
        rw [← ht]
        refine ⟨fun x => ?_, ?_⟩
        · rw [(sameShape_reflow _ c).2 x |>.2.1]
          by_cases hx : x = child
          · simp [modify_node, hx, hne, hnx, Ne.symm hlch, hlcs]
          · by_cases hxl : x = l
            · simp [modify_node, hxl, hlc, hlch, hlcs]
            · by_cases hxc : x = c
              · simp [modify_node, hxc, hcne, Ne.symm hlc, hlcs]
              · simp [modify_node, hx, hxl, hxc, hlcs]
        · rw [(sameShape_reflow _ c).2 c |>.2.2.2.1]
          simp [modify_node, hcne, hlcs, Ne.symm hlc]
      · simp at ht
  | some p =>
    obtain ⟨hpch, hpc, hlp, hlast⟩ := hp p rfl
    obtain ⟨lc, hlc'⟩ := Option.isSome_iff_exists.mp hlast
    simp only at hleft
    cases left with
    | none =>
      have hpp : (s.node p).prev_sibling = Option.none := hleft.symm
      have hs : (insert s c (some p) child).isSome = true := by
        unfold insert
        simp [modify_node, hne, hcne, hparents, hatt, hnx, hpv, hpp, hpch, hpc, Ne.symm hpch, Ne.symm hpc, hlc']
      obtain ⟨t, ht⟩ := Option.isSome_iff_exists.mp hs
      refine ⟨t, ht, ?_⟩
      unfold insert at ht
      simp only [hne, if_false, hparents, List.any_nil, Bool.false_eq_true, hatt, hnx, hpv,
        Option.isSome_none] at ht
      split at ht
      · simp only [Option.some.injEq] at ht
        rw [← ht]
        refine ⟨fun x => ?_, ?_⟩
        · rw [(sameShape_reflow _ c).2 x |>.2.1]
          by_cases hx : x = child
          · simp [modify_node, hx, hne, Ne.symm hpch, hpp, hpc]
          · by_cases hxp : x = p
            · simp [modify_node, hxp, hpc, hpch, hpp]
            · by_cases hxc : x = c
              · simp [modify_node, hxc, hcne, Ne.symm hpc, hpp, hpc]
              · simp [modify_node, hx, hxp, hxc, hpp, hpc]
        · rw [(sameShape_reflow _ c).2 c |>.2.2.2.1]
          simp [modify_node, hcne, hpp, Ne.symm hpc, hpc]
      · simp at ht
    | some l =>
      obtain ⟨hlch, hlc, hfc⟩ := hl l rfl
      obtain ⟨fc, hfc'⟩ := Option.isSome_iff_exists.mp hfc
      have hpp : (s.node p).prev_sibling = some l := hleft.symm
      have hlp' : l ≠ p := fun e => hlp (by rw [e])
      have hs : (insert s c (some p) child).isSome = true := by
        unfold insert
        simp [modify_node, hne, hcne, hparents, hatt, hnx, hpv, hpp, hpch, hpc, Ne.symm hpch, Ne.symm hpc, hlch, hlc, Ne.symm hlch, Ne.symm hlc, hlp', Ne.symm hlp', hfc', hlc']
      obtain ⟨t, ht⟩ := Option.isSome_iff_exists.mp hs
      refine ⟨t, ht, ?_⟩
      unfold insert at ht
      simp only [hne, if_false, hparents, List.any_nil, Bool.false_eq_true, hatt, hnx, hpv,
        Option.isSome_none] at ht
      split at ht
      · simp only [Option.some.injEq] at ht
        rw [← ht]
        refine ⟨fun x => ?_, ?_⟩
        · rw [(sameShape_reflow _ c).2 x |>.2.1]
          by_cases hx : x = child
          · simp [modify_node, hx, hne, Ne.symm hpch, Ne.symm hlch, hpp, hpc]
          · by_cases hxp : x = p
            · simp [modify_node, hxp, hpc, hpch, Ne.symm hlp', hpp]
            · by_cases hxl : x = l
              · simp [modify_node, hxl, hlc, hlch, hlp', hpp, hpc]
              · by_cases hxc : x = c
                · simp [modify_node, hxc, hcne, Ne.symm hpc, Ne.symm hlc, hpp, hpc]
                · simp [modify_node, hx, hxp, hxl, hxc, hpp, hpc]
        · rw [(sameShape_reflow _ c).2 c |>.2.2.2.1]
          simp [modify_node, hcne, hpp, Ne.symm hpc, hpc, Ne.symm hlc]
      · simp at ht

theorem childList_unfold {s : Store} {c : Nat} {L : List Nat} (h : childList s c L = true) :
    (s.node c).first_child = L.head? ∧ (s.node c).last_child = L.getLast? ∧
      linkedFrom s Option.none L = true ∧ L.Nodup ∧ c ∉ L := by
  unfold childList at h
  simp only [Bool.and_eq_true, beq_iff_eq, decide_eq_true_eq] at h
  exact ⟨h.1.1.1.1.1, h.1.1.1.1.2, h.1.1.1.2, h.1.1.2, h.1.2⟩

theorem childList_parent {s : Store} {c : Nat} {L : List Nat} (h : childList s c L = true) :
    ∀ x ∈ L, s.parent x = some c := by
  unfold childList at h
  simp only [Bool.and_eq_true, beq_iff_eq, decide_eq_true_eq, List.all_eq_true] at h
  exact h.2

theorem length_lt_of_nodup (L : List Nat) (n c : Nat) (hnd : L.Nodup)
    (hin : ∀ x ∈ L, x < n) (hc : c < n) (hcL : c ∉ L) : L.length < n := by
  have hnd2 : (c :: L).Nodup := List.nodup_cons.mpr ⟨hcL, hnd⟩
  have hsub : (c :: L).toFinset ⊆ Finset.range n := by
    intro x hx
    rw [List.mem_toFinset, List.mem_cons] at hx
    rw [Finset.mem_range]
    rcases hx with e | hx
    · rw [e]; exact hc
    · exact hin x hx
  have h1 := Finset.card_le_card hsub
  rw [List.toFinset_card_of_nodup hnd2, Finset.card_range, List.length_cons] at h1
  omega

theorem insert_between (s : Store) (c child : Nat) (A B : List Nat)
    (hL : childList s c (A ++ B) = true) (hlen : (A ++ B).length < s.size)
    (hne : child ≠ c) (hnot : child ∉ A ++ B) (hpar : s.parent child = Option.none)
    (hnx : (s.node child).next_sibling = Option.none)
    (hpv : (s.node child).prev_sibling = Option.none) :
    ∃ t, insert s c B.head? child = some t ∧ children t c = A ++ child :: B := by
  obtain ⟨hfc, hlc, hlink, hnd, hcL⟩ := childList_unfold hL
  have hndA : A.Nodup := (List.nodup_append.mp hnd).1
  have hdisj : ∀ x, x ∈ A → x ∈ B → False := fun x ha hb =>
    (List.nodup_append.mp hnd).2.2 ha hb
  -- the node left of the position
  have hleft : A.getLast? = match B.head? with
      | some p => (s.node p).prev_sibling
      | Option.none => (s.node c).last_child := by
    cases B with
    | nil => simp only [List.head?_nil]; rw [hlc, List.append_nil]
    | cons p B' =>
      simp only [List.head?_cons]
      rw [(linkedFrom_split s A Option.none p B' hlink).2]
      cases A.getLast? <;> rfl
  have hAmem : ∀ l, A.getLast? = some l → l ∈ A := fun l h => List.mem_of_getLast?_eq_some h
  obtain ⟨t, ht, hnext, hfirst⟩ := insert_links s c child B.head? A.getLast? hne hpar hnx hpv
    hleft
    (by
      intro l hl
      have hlA := hAmem l hl
      refine ⟨?_, ?_, ?_⟩
      · intro e; exact hnot (by rw [← e]; exact List.mem_append_left _ hlA)
      · intro e; exact hcL (by rw [← e]; exact List.mem_append_left _ hlA)
      · rw [hfc]
        cases A with
        | nil => simp at hlA
        | cons a A' => rfl)
    (by
      intro p hp
      have hpB : p ∈ B := List.mem_of_mem_head? hp
      refine ⟨?_, ?_, ?_, ?_⟩
      · intro e; exact hnot (by rw [← e]; exact List.mem_append_right _ hpB)
      · intro e; exact hcL (by rw [← e]; exact List.mem_append_right _ hpB)
      · intro e; exact hdisj p (hAmem p e) hpB
      · rw [hlc]
        cases hg : (A ++ B).getLast? with
        | none =>
          have : A ++ B = [] := List.getLast?_eq_none_iff.mp hg
          rw [List.append_eq_nil] at this
          rw [this.2] at hpB; simp at hpB
        | some _ => rfl)
  refine ⟨t, ht, ?_⟩
  have hsz : t.size = s.size := (insert_fields s t c child B.head? ht).1
  have hs := nextLinked_of_linkedFrom s _ _ hlink
  rw [nextLinked_append] at hs
  obtain ⟨hsA, hsB⟩ := hs
  -- the links of the new list
  have htA : nextLinked t A (some child) := by
    apply nextLinked_relink s t _ _ A hsA hndA
    · intro x hx hxl
      rw [hnext x, if_neg hxl, if_neg]
      intro e; exact hnot (by rw [← e]; exact List.mem_append_left _ hx)
    · intro l hl
      rw [hnext l, if_pos hl.symm]
  have htB : nextLinked t B Option.none := by
    apply nextLinked_congr s t _ B _ hsB
    intro x hx
    rw [hnext x, if_neg, if_neg]
    · intro e; exact hnot (by rw [← e]; exact List.mem_append_right _ hx)
    · intro e; exact hdisj x (hAmem x e.symm) hx
  have htc : nextLinked t (child :: B) Option.none := by
    refine ⟨?_, htB⟩
    rw [hnext child, if_neg, if_pos rfl]
    · cases B <;> rfl
    · intro e; exact hnot (List.mem_append_left _ (hAmem child e.symm))
  have hall : nextLinked t (A ++ child :: B) Option.none := by
    rw [nextLinked_append]
    exact ⟨htA, htc⟩
  have hhead : (t.node c).first_child = (A ++ child :: B).head? := by
    rw [hfirst]
    cases A with
    | nil => simp
    | cons a A' =>
      have : (a :: A').getLast? ≠ Option.none := by simp
      rw [if_neg this, hfc]; rfl
  unfold children
  rw [hhead]
  apply siblingList_of_nextLinked t _ _ hall
  rw [hsz]
  simp only [List.length_append, List.length_cons] at hlen ⊢
  omega

/-! ### `layout` leaves the subtree without layout flags -/

theorem pathTo_subtree {s : Store} (h : wfTree s = true) {node i : Nat} {done : List Nat}
    (hp : PathTo s node i done) : i < s.size → (i = node ∨ node ∈ parents s i) := by
  induction hp with
  | root => intro _; left; rfl
  | child y p pre post dn hpar hch _ ih =>
    intro hy
    obtain ⟨hpr, _, _, _, hlen⟩ := wfLinks_at (wfTree_wfLinks h) hy
    right
    rw [parents_of_parent s y p hpar hlen]
    rcases ih (hpr p hpar) with e | hm
    · rw [e]; exact List.mem_cons_self _ _
    · exact List.mem_cons_of_mem _ hm

theorem traverseEnd_outside {s : Store} (h : wfTree s = true) {node : Nat} (hn : node < s.size)
    (i : Nat) (hi : i = node ∨ node ∈ parents s i) :
    (traverseEnd s node).node ≠ some i := by
  have hwfl := wfTree_wfLinks h
  obtain ⟨hpr, hroot, _, hsib, hlen⟩ := wfLinks_at hwfl hn
  have hself := not_mem_parents_self s node hlen
  unfold traverseEnd next_sibling_or_parent
  cases hnx : (s.node node).next_sibling with
  | some n =>
    simp only
    intro e
    have e : n = i := Option.some.inj e
    subst e
    obtain ⟨hns, hnp⟩ := hsib n hnx
    cases hp : s.parent node with
    | none => rw [hroot hp] at hnx; cases hnx
    | some p =>
      have hpn : s.parent n = some p := by rw [hnp, hp]
      have hdn : parents s n = p :: parents s p :=
        parents_of_parent s n p hpn (wfLinks_at hwfl hns).2.2.2.2
      have hdnode : parents s node = p :: parents s p := parents_of_parent s node p hp hlen
      rcases hi with e | hm
      · obtain ⟨_, hmem⟩ := wfTree_child h hn hp
        obtain ⟨pre, post, hch⟩ := List.append_of_mem hmem
        obtain ⟨hnd, hclen, _⟩ := wfTree_children h (hpr p hp)
        have hafter := siblingList_after s node post pre s.size _ hch hclen
        rw [hnx] at hafter
        obtain ⟨post', hpost⟩ := hafter
        rw [hch, hpost, e] at hnd
        have := (List.nodup_append.mp hnd).2.1
        simp at this
      · rw [hdn, ← hdnode] at hm; exact hself hm
  | none =>
    simp only
    intro e
    have hp : s.parent node = some i := e
    rcases hi with e2 | hm
    · exact parent_ne_self hwfl hn hp e2
    · apply hself
      rw [parents_of_parent s node i hp hlen]
      exact List.mem_cons_of_mem _ hm

theorem same_node {a b : Accept} (h : a.same b = true) : a.node = b.node := by
  simp only [Accept.same, Bool.and_eq_true, beq_iff_eq] at h
  exact h.1

theorem layoutVisit_not_end {s0 : Store} (hwf : wfTree s0 = true) {node : Nat}
    (hn : node < s0.size) {t : Store} {j : Nat} {st : AcceptState} (cur : Accept)
    (hj : cur.node = some j) (hv : LayoutVisit s0 node t j st) :
    cur.same (traverseEnd s0 node) = false := by
  cases hs : cur.same (traverseEnd s0 node) with
  | false => rfl
  | true =>
    obtain ⟨done, hpath, _⟩ := hv.path
    have := same_node hs
    rw [hj] at this
    exact absurd this.symm (traverseEnd_outside hwf hn j (pathTo_subtree hwf hpath hv.lt))

theorem layout_loop_clean (hooks : Hooks) (s0 : Store) (node : Nat) (hwf : wfTree s0 = true)
    (hn : node < s0.size) (hcont : s0.isContainer node = true) :
    ∀ (fuel : Nat) (t : Store) (cur : Accept) (res : Store),
      SameShape s0 t → LayoutInv t →
      (cur.same (traverseEnd s0 node) = true → t.layoutFlagged node = false) →
      (cur.same (traverseEnd s0 node) = false →
        ∃ i, cur.node = some i ∧ LayoutVisit s0 node t i cur.state) →
      layout_loop hooks node (traverseEnd s0 node) fuel t cur = some res →
      SameShape s0 res ∧ LayoutInv res ∧ res.layoutFlagged node = false := by
  intro fuel
  induction fuel with
  | zero =>
    intro t cur res hsh hinv hend _ h
    unfold layout_loop at h
    split at h
    · rename_i hs
      simp only [Option.some.injEq] at h; rw [← h]; exact ⟨hsh, hinv, hend hs⟩
    · simp at h
  | succ k ih =>
    intro t cur res hsh hinv hend hcur h
    unfold layout_loop at h
    split at h
    · rename_i hs
      simp only [Option.some.injEq] at h; rw [← h]; exact ⟨hsh, hinv, hend hs⟩
    · rename_i hsame
      obtain ⟨i, hi, hv⟩ := hcur (by simpa using hsame)
      rw [hi] at h
      simp only at h
      split at h
      · simp at h
      · rename_i r hr
        have hd := layoutVisit_while hooks s0 node hwf hcont _ t i cur.state r hv hr
        refine ih _ _ res hd.shape hd.inv ?_ ?_ h
        · intro hs
          rcases layoutDone_increment s0 node hwf r.store r.node r.state hd with ⟨hc, _⟩ | hj
          · exact hc
          · obtain ⟨j, hj, hvj⟩ := hj
            rw [layoutVisit_not_end hwf hn _ hj hvj] at hs
            simp at hs
        · intro hns
          rcases layoutDone_increment s0 node hwf r.store r.node r.state hd with ⟨_, he⟩ | hj
          · rw [he, same_self] at hns
            simp at hns
          · exact hj

theorem layout_init_widget_clean (hooks : Hooks) (surface : Surface) (s : Store) (node : Nat)
    (h : (layout_init hooks surface s node).2 = false) :
    (layout_init hooks surface s node).1.layoutFlagged node = false := by
  have key : ∀ X Y : Store,
      (if X.isWidget node then (clearLayoutDirty Y node, false) else (X, true)).2 = false →
      (if X.isWidget node then (clearLayoutDirty Y node, false)
        else (X, true)).1.layoutFlagged node = false := by
    intro X Y hk
    by_cases hw : X.isWidget node = true
    · simp only [hw, if_true, clearLayoutDirty_flagged]
    · simp [hw] at hk
  exact key _ _ h

theorem layout_clean_root (hooks : Hooks) (fuel : Nat) (surface : Surface) (s t : Store)
    (node : Nat) (hwf : wfTree s = true) (hn : node < s.size) (hinv : LayoutInv s)
    (ht : layout hooks fuel surface s node = some t) :
    SameShape s t ∧ LayoutInv t ∧ t.layoutFlagged node = false := by
  obtain ⟨h1, h2, h3⟩ := layout_init_layoutInv hooks surface s node hwf hn hinv
  unfold layout at ht
  simp only at ht
  split at ht
  · rename_i hb
    simp only [Option.some.injEq] at ht; rw [← ht]
    exact ⟨h2, h1, layout_init_widget_clean hooks surface s node (by simpa using hb)⟩
  · rename_i hb
    have hcont : s.isContainer node = true := h3 (by simpa using hb)
    split at ht
    · rename_i hc
      simp only [Option.some.injEq] at ht; rw [← ht]
      refine ⟨h2, h1, ?_⟩
      simp only [Bool.and_eq_true, Bool.not_eq_true'] at hc
      simp [Store.layoutFlagged, hc.1, hc.2]
    · rw [h2.traverseEnd, h2.traverseBegin] at ht
      have hv : LayoutVisit s node (layout_init hooks surface s node).1 node
          (traverseBegin s node).state :=
        { shape := h2
          inv := h1
          lt := hn
          path := ⟨[], PathTo.root, fun x hx => by simp at hx⟩
          post := fun e => absurd e (pre_or_leaf_ne_post s node)
          pre := fun _ => rfl }
      have hne := layoutVisit_not_end hwf hn (traverseBegin s node) rfl hv
      refine layout_loop_clean hooks s node hwf hn hcont fuel _ _ t h2 h1 ?_ ?_ ht
      · intro hs; rw [hne] at hs; simp at hs
      · intro _; exact ⟨node, rfl, hv⟩

theorem layoutInv_ancestors {s : Store} (h : LayoutInv s) {x : Nat} (hx : x < s.size)
    (hf : s.layoutFlagged x = true) : ∀ a ∈ parents s x, s.layoutFlagged a = true := by
  have key : ∀ (f : Nat) (x : Nat), x < s.size → s.layoutFlagged x = true →
      ∀ a ∈ parentChain s f (s.node x).parent, s.layoutFlagged a = true := by
    intro f
    induction f with
    | zero => intro x _ _ a ha; simp [parentChain] at ha
    | succ k ih =>
      intro x hx hf a ha
      cases hp : (s.node x).parent with
      | none => rw [hp] at ha; simp [parentChain] at ha
      | some p =>
        rw [hp] at ha
        obtain ⟨h1, h2⟩ := h x p hx hp
        simp only [parentChain, List.mem_cons] at ha
        rcases ha with rfl | ha
        · exact h2 hf
        · exact ih p h1 (h2 hf) a ha
  exact key s.size x hx hf

/-! ## Two passes in succession -/

/-! ### Painting writes cached clips and paint flags only -/

theorem SamePaint.paint_refl (s : Store) : SamePaint s s := ⟨rfl, fun _ => rfl⟩

theorem SamePaint.paint_trans {s t u : Store} (h1 : SamePaint s t) (h2 : SamePaint t u) :
    SamePaint s u :=
  ⟨h2.1.trans h1.1, fun j => (h2.2 j).trans (h1.2 j)⟩

theorem SamePaint.fields {s t : Store} (h : SamePaint s t) (j : Nat) :
    (t.node j).parent = (s.node j).parent ∧
    (t.node j).next_sibling = (s.node j).next_sibling ∧
    (t.node j).prev_sibling = (s.node j).prev_sibling ∧
    (t.node j).first_child = (s.node j).first_child ∧
    (t.node j).last_child = (s.node j).last_child ∧
    (t.node j).flags.WidgetKind = (s.node j).flags.WidgetKind ∧
    (t.node j).area = (s.node j).area ∧
    (t.node j).constraints = (s.node j).constraints ∧
    (t.node j).flags.LayoutDirty = (s.node j).flags.LayoutDirty ∧
    (t.node j).flags.LayoutChildDirty = (s.node j).flags.LayoutChildDirty := by
  have e := h.2 j
  have e0 := congrArg (fun n : Node => n.parent) e
  have e1 := congrArg (fun n : Node => n.next_sibling) e
  have e2 := congrArg (fun n : Node => n.prev_sibling) e
  have e3 := congrArg (fun n : Node => n.first_child) e
  have e4 := congrArg (fun n : Node => n.last_child) e
  have e5 := congrArg (fun n : Node => n.flags.WidgetKind) e
  have e6 := congrArg (fun n : Node => n.area) e
  have e7 := congrArg (fun n : Node => n.constraints) e
  have e8 := congrArg (fun n : Node => n.flags.LayoutDirty) e
  have e9 := congrArg (fun n : Node => n.flags.LayoutChildDirty) e
  exact ⟨e0, e1, e2, e3, e4, e5, e6, e7, e8, e9⟩

theorem SamePaint.paint_shape {s t : Store} (h : SamePaint s t) : SameShape s t :=
  ⟨h.1, fun j => by
    obtain ⟨a1, a2, a3, a4, a5, a6, _⟩ := h.fields j
    exact ⟨a1, a2, a3, a4, a5, a6⟩⟩

theorem samePaint_setClipSpace (s : Store) (i : Nat) (c : Rect) :
    SamePaint s (setClipSpace s i c) := by
  refine ⟨rfl, fun j => ?_⟩
  simp only [setClipSpace, modify_node]
  split
  · rename_i h; rw [h]; rfl
  · rfl

theorem samePaint_clearPaintDirty (s : Store) (i : Nat) :
    SamePaint s (clearPaintDirty s i) := by
  refine ⟨rfl, fun j => ?_⟩
  simp only [clearPaintDirty, Store.modifyFlags, modify_node]
  split
  · rename_i h; rw [h]; rfl
  · rfl

theorem samePaint_push (s : Store) (st : PositionRebuilder) (i : Nat) :
    SamePaint s (st.push s i).1 :=
  samePaint_setClipSpace s i _

theorem samePaint_paint_impl_visit (cf : Bool) (window : Rect) (ps : PaintState)
    (stk : PositionRebuilder) (i : Nat) (st : AcceptState) :
    SamePaint ps.store (paint_impl_visit cf window ps stk i st).1.store := by
  unfold paint_impl_visit
  simp only
  split
  · split
    · split
      · split
        · exact (samePaint_push _ _ _).paint_trans (samePaint_clearPaintDirty _ _)
        · exact samePaint_push _ _ _
      · exact samePaint_push _ _ _
    · exact samePaint_push _ _ _
  · split
    · exact samePaint_clearPaintDirty _ _
    · exact SamePaint.paint_refl _

theorem samePaint_paint_impl_loop (cf : Bool) (window : Rect) (last : Accept) :
    ∀ (fuel : Nat) (ps : PaintState) (stk : PositionRebuilder) (cur : Accept),
      SamePaint ps.store (paint_impl_loop cf window last fuel ps stk cur).store := by
  intro fuel
  induction fuel with
  | zero =>
    intro ps stk cur
    unfold paint_impl_loop
    split <;> exact SamePaint.paint_refl _
  | succ k ih =>
    intro ps stk cur
    unfold paint_impl_loop
    split
    · exact SamePaint.paint_refl _
    · split
      · exact SamePaint.paint_refl _
      · exact (samePaint_paint_impl_visit cf window ps stk _ cur.state).paint_trans (ih _ _ _)

theorem samePaint_paint_impl (cf : Bool) (fuel : Nat) (ps : PaintState) (node : Nat)
    (window : Rect) (stk : PositionRebuilder) :
    SamePaint ps.store (paint_impl cf fuel ps node window stk).store := by
  unfold paint_impl
  simp only
  split
  · exact samePaint_paint_impl_loop cf window _ fuel _ stk _
  · exact samePaint_paint_impl_loop cf window _ fuel _ stk _

theorem samePaint_paint_into (fuel : Nat) (ps : PaintState) (root current : Nat)
    (clip window : Rect) (stk : PositionRebuilder) :
    SamePaint ps.store (paint_into fuel ps root current clip window stk).store := by
  unfold paint_into
  split
  · exact samePaint_paint_impl _ _ _ _ _ _
  · exact samePaint_paint_impl _ _ _ _ _ _

theorem samePaint_splitLoop (surface : Surface) (inner : Nat) (root current : Nat) (clip : Rect)
    (stk : PositionRebuilder) :
    ∀ (fuel : Nat) (ps : PaintState) (remaining : Rect),
      SamePaint ps.store (splitLoop surface inner root current clip stk fuel ps remaining).store := by
  intro fuel
  induction fuel with
  | zero =>
    intro ps remaining
    unfold splitLoop
    split <;> exact SamePaint.paint_refl _
  | succ k ih =>
    intro ps remaining
    unfold splitLoop
    split
    · simp only
      split
      · exact (samePaint_paint_into _ _ _ _ _ _ _).paint_trans (ih _ _)
      · exact samePaint_paint_into _ _ _ _ _ _ _
    · exact SamePaint.paint_refl _

theorem samePaint_paint_partial_post (ps : PaintState) (stk : PositionRebuilder) (i : Nat)
    (st : AcceptState) (updated : Bool) :
    SamePaint ps.store (paint_partial_post ps stk i st updated).state.store := by
  unfold paint_partial_post
  split
  · exact samePaint_clearPaintDirty _ _
  · exact SamePaint.paint_refl _

theorem samePaint_paint_partial_visit (fuel : Nat) (surface : Surface) (root : Nat)
    (ps : PaintState) (stk : PositionRebuilder) (i : Nat) (st : AcceptState) (updated : Bool) :
    SamePaint ps.store (paint_partial_visit fuel surface root ps stk i st updated).state.store := by
  have hp := samePaint_push ps.store stk i
  unfold paint_partial_visit
  simp only
  split
  · split
    · split
      · exact (hp.paint_trans (samePaint_splitLoop _ _ _ _ _ _ _ _ _)).paint_trans
          (samePaint_clearPaintDirty _ _)
      · split
        · exact hp
        · split
          · split
            · exact (hp.paint_trans (samePaint_paint_into _ _ _ _ _ _ _)).paint_trans
                (samePaint_clearPaintDirty _ _)
            · exact hp.paint_trans (samePaint_paint_partial_post _ _ _ _ _)
          · exact hp.paint_trans (samePaint_paint_partial_post _ _ _ _ _)
    · exact hp
  · exact samePaint_paint_partial_post _ _ _ _ _

theorem samePaint_paint_partial_loop (inner : Nat) (surface : Surface) (root : Nat)
    (last : Accept) :
    ∀ (fuel : Nat) (ps : PaintState) (stk : PositionRebuilder) (cur : Accept) (upd : Bool),
      SamePaint ps.store
        (paint_partial_loop inner surface root last fuel ps stk cur upd).1.store := by
  intro fuel
  induction fuel with
  | zero =>
    intro ps stk cur upd
    unfold paint_partial_loop
    split <;> exact SamePaint.paint_refl _
  | succ k ih =>
    intro ps stk cur upd
    unfold paint_partial_loop
    split
    · exact SamePaint.paint_refl _
    · split
      · exact SamePaint.paint_refl _
      · simp only
        split
        · exact (samePaint_paint_partial_visit _ _ _ _ _ _ _ _).paint_trans (ih _ _ _ _)
        · exact samePaint_paint_partial_visit _ _ _ _ _ _ _ _

theorem samePaint_paint_partial_impl (fuel : Nat) (surface : Surface) (s : Store) (node : Nat) :
    SamePaint s (paint_partial_impl fuel surface s node).store := by
  unfold paint_partial_impl
  simp only
  split
  · exact samePaint_paint_partial_loop fuel surface node _ fuel { store := s } {} _ false
  · exact samePaint_paint_partial_loop fuel surface node _ fuel { store := s } {} _ false

/-! ### A complete `paint_partial_impl` leaves its root idle -/

theorem rootClip_congr {s t : Store} {root : Nat}
    (h : (t.node root).area = (s.node root).area) : rootClip t root = rootClip s root := by
  simp only [rootClip, PositionRebuilder.push, h]

theorem paintIdle_clear (t : Store) (i : Nat) : PaintIdle (clearPaintDirty t i) i := by
  intro _
  simp [Store.isPaintDirty, Store.isChildPaintDirty, clearPaintDirty, modifyFlags_flags]

theorem paint_partial_post_accept (ps : PaintState) (stk : PositionRebuilder) (i : Nat)
    (st : AcceptState) (upd : Bool) :
    (paint_partial_post ps stk i st upd).accept = st ∧
    (st ≠ AcceptState.Pre → PaintIdle (paint_partial_post ps stk i st upd).state.store i) := by
  unfold paint_partial_post
  cases st with
  | Pre => exact ⟨rfl, fun h => absurd rfl h⟩
  | Post =>
    simp only [show (AcceptState.Post != AcceptState.Pre) = true from rfl, if_true]
    exact ⟨trivial, fun _ => paintIdle_clear _ _⟩
  | Leaf =>
    simp only [show (AcceptState.Leaf != AcceptState.Pre) = true from rfl, if_true]
    exact ⟨trivial, fun _ => paintIdle_clear _ _⟩

theorem paint_partial_visit_accept (inner : Nat) (surface : Surface) (root : Nat)
    (ps : PaintState) (stk : PositionRebuilder) (i : Nat) (st : AcceptState) (upd : Bool)
    (r : PartialStep) (hr : paint_partial_visit inner surface root ps stk i st upd = r) :
    (r.accept = AcceptState.Post ∨ r.accept = st) ∧
    ((st ≠ AcceptState.Post → stk = {}) → r.accept ≠ AcceptState.Pre →
      PaintIdle r.state.store i) := by
  have hpost : ∀ (q : PaintState) (k : PositionRebuilder) (r : PartialStep),
      paint_partial_post q k i st upd = r →
      (r.accept = AcceptState.Post ∨ r.accept = st) ∧
      ((st ≠ AcceptState.Post → stk = {}) → r.accept ≠ AcceptState.Pre →
        PaintIdle r.state.store i) := by
    intro q k r hr
    obtain ⟨h1, h2⟩ := paint_partial_post_accept q k i st upd
    rw [hr] at h1 h2
    exact ⟨Or.inr h1, fun _ ha => h2 (by rw [← h1]; exact ha)⟩
  unfold paint_partial_visit at hr
  simp only at hr
  split at hr
  · rename_i hst
    have hst' : st ≠ AcceptState.Post := by
      intro e; rw [e] at hst; simp at hst
    split at hr
    · split at hr
      · rw [← hr]
        exact ⟨Or.inl rfl, fun _ _ => paintIdle_clear _ _⟩
      · rename_i hd
        split at hr
        · rename_i hc
          rw [← hr]
          refine ⟨Or.inl rfl, fun _ _ _ => ⟨by simpa using hd, hc⟩⟩
        · split at hr
          · split at hr
            · rw [← hr]
              exact ⟨Or.inl rfl, fun _ _ => paintIdle_clear _ _⟩
            · exact hpost _ _ r hr
          · exact hpost _ _ r hr
    · rename_i hclip
      rw [← hr]
      refine ⟨Or.inl rfl, fun hs _ hne => ?_⟩
      exfalso
      apply hclip
      rw [hs hst']
      have : rootClip (stk.push ps.store i).1 i = rootClip ps.store i :=
        rootClip_congr ((samePaint_push ps.store stk i).fields i).2.2.2.2.2.2.1
      rw [this] at hne
      exact hne
  · exact hpost _ _ r hr

theorem leaf_increment (s : Store) (i : Nat) (h : pre_or_leaf s i = AcceptState.Leaf) :
    increment s i AcceptState.Leaf = next_sibling_or_parent s i := by
  unfold pre_or_leaf at h
  split at h
  · simp at h
  · rename_i hc
    have hnc : next_child s i = Option.none := by
      unfold next_child
      split
      · rename_i hcont
        simp only [hcont, Bool.true_and, Bool.not_eq_true, Option.not_isSome,
          Option.isNone_iff_eq_none] at hc
        exact hc
      · rfl
    simp [increment, hnc]

theorem paintWalk_increment (s0 : Store) (root : Nat) (hwf : wfTree s0 = true)
    (stk stk2 : PositionRebuilder) (i : Nat) (st a : AcceptState)
    (hw : PaintWalk s0 root stk i st) (ha : a = AcceptState.Post ∨ a = st) :
    (i = root ∧ (st ≠ AcceptState.Post → stk = {}) ∧ a ≠ AcceptState.Pre ∧
      increment s0 i a = traverseEnd s0 root) ∨
    ∃ j, (increment s0 i a).node = some j ∧ PaintWalk s0 root stk2 j (increment s0 i a).state := by
  have hwfl := wfTree_wfLinks hwf
  have hi := hw.lt
  obtain ⟨hpr, _, hchild, hsib, hlen⟩ := wfLinks_at hwfl hi
  have hsubi : i = root ∨ root ∈ parents s0 i := by
    rcases hw.sub with h | h
    · exact Or.inl h.1
    · exact Or.inr h
  by_cases hap : a = AcceptState.Pre
  · -- the traversal descends to the first child
    right
    have hst : st = AcceptState.Pre := by
      rcases ha with h | h
      · rw [h] at hap; cases hap
      · rw [← h]; exact hap
    have hpl : pre_or_leaf s0 i = AcceptState.Pre := by
      rw [← hw.pre (by rw [hst]; simp), hst]
    unfold pre_or_leaf at hpl
    split at hpl
    · rename_i hc
      simp only [Bool.and_eq_true] at hc
      obtain ⟨c, hfc⟩ := Option.isSome_iff_exists.mp hc.2
      have hinc : increment s0 i a = { node := some c, state := pre_or_leaf s0 c } := by
        simp [increment, next_child, hc.1, hfc, hap]
      rw [hinc]
      obtain ⟨hcs, hpc⟩ := hchild c hfc
      refine ⟨c, rfl, ?_⟩
      exact {
        lt := hcs
        sub := by
          right
          rw [parents_of_parent s0 c i hpc (wfLinks_at hwfl hcs).2.2.2.2]
          rcases hsubi with e | hm
          · rw [e]; exact List.mem_cons_self _ _
          · exact List.mem_cons_of_mem _ hm
        pre := fun _ => rfl }
    · simp at hpl
  · have hinc : increment s0 i a = next_sibling_or_parent s0 i := by
      cases a with
      | Pre => exact absurd rfl hap
      | Post => simp [increment]
      | Leaf =>
        have hst : st = AcceptState.Leaf := by
          rcases ha with h | h
          · cases h
          · exact h.symm
        exact leaf_increment s0 i (by rw [← hw.pre (by rw [hst]; simp), hst])
    rw [hinc]
    rcases hw.sub with hroot | hm
    · left
      refine ⟨hroot.1, hroot.2, hap, ?_⟩
      rw [hroot.1]; rfl
    · right
      -- the node has a parent in the subtree
      cases hp : s0.parent i with
      | none => rw [parents_of_root s0 i hp] at hm; simp at hm
      | some p =>
        have hps := hpr p hp
        have hdi : parents s0 i = p :: parents s0 p := parents_of_parent s0 i p hp hlen
        unfold next_sibling_or_parent
        cases hn : (s0.node i).next_sibling with
        | some n =>
          obtain ⟨hns, hnp⟩ := hsib n hn
          refine ⟨n, rfl, ?_⟩
          exact {
            lt := hns
            sub := by
              right
              rw [parents_of_parent s0 n p (by rw [hnp, hp]) (wfLinks_at hwfl hns).2.2.2.2,
                ← hdi]
              exact hm
            pre := fun _ => rfl }
        | none =>
          refine ⟨p, hp, ?_⟩
          simp only
          rw [hdi, List.mem_cons] at hm
          exact {
            lt := hps
            sub := by
              rcases hm with e | hm
              · exact Or.inl ⟨e.symm, fun h => absurd rfl h⟩
              · exact Or.inr hm
            pre := fun h => absurd rfl h }

theorem paintWalk_not_end {s0 : Store} (hwf : wfTree s0 = true) {root : Nat}
    (hn : root < s0.size) {stk : PositionRebuilder} {j : Nat} {st : AcceptState} (cur : Accept)
    (hj : cur.node = some j) (hw : PaintWalk s0 root stk j st) :
    cur.same (traverseEnd s0 root) = false := by
  cases hs : cur.same (traverseEnd s0 root) with
  | false => rfl
  | true =>
    have := same_node hs
    rw [hj] at this
    refine absurd this.symm (traverseEnd_outside hwf hn j ?_)
    rcases hw.sub with h | h
    · exact Or.inl h.1
    · exact Or.inr h

theorem paint_partial_loop_idle (inner : Nat) (surface : Surface) (s0 : Store) (root : Nat)
    (hwf : wfTree s0 = true) (hn : root < s0.size) :
    ∀ (fuel : Nat) (ps : PaintState) (stk : PositionRebuilder) (cur : Accept) (upd : Bool),
      SameShape s0 ps.store →
      (cur.same (traverseEnd s0 root) = true → PaintIdle ps.store root) →
      (cur.same (traverseEnd s0 root) = false →
        ∃ i, cur.node = some i ∧ PaintWalk s0 root stk i cur.state) →
      (paint_partial_loop inner surface root (traverseEnd s0 root) fuel ps stk cur
        upd).1.complete = true →
      0 < fuel + (if cur.same (traverseEnd s0 root) then 1 else 0) ∧
      PaintIdle (paint_partial_loop inner surface root (traverseEnd s0 root) fuel ps stk cur
        upd).1.store root := by
  intro fuel
  induction fuel with
  | zero =>
    intro ps stk cur upd _ hend _ hc
    unfold paint_partial_loop at hc ⊢
    split
    · rename_i hs
      simp only [hs, if_true]
      exact ⟨by omega, hend hs⟩
    · rename_i hs
      rw [if_neg hs] at hc
      simp at hc
  | succ k ih =>
    intro ps stk cur upd hsh hend hcur hc
    refine ⟨by omega, ?_⟩
    unfold paint_partial_loop at hc ⊢
    split
    · rename_i hs
      exact hend hs
    · rename_i hsame
      rw [if_neg hsame] at hc
      obtain ⟨i, hi, hw⟩ := hcur (by simpa using hsame)
      rw [hi] at hc ⊢
      simp only at hc ⊢
      obtain ⟨hacc, hidle⟩ := paint_partial_visit_accept inner surface root ps stk i cur.state
        upd _ rfl
      have hsh2 : SameShape s0
          (paint_partial_visit inner surface root ps stk i cur.state upd).state.store :=
        hsh.trans (samePaint_paint_partial_visit _ _ _ _ _ _ _ _).paint_shape
      split
      · rename_i hcomp
        rw [if_pos hcomp] at hc
        rw [hsh2.increment] at hc ⊢
        refine (ih _ _ _ _ hsh2 ?_ ?_ hc).2
        · intro hs
          rcases paintWalk_increment s0 root hwf stk
            (paint_partial_visit inner surface root ps stk i cur.state upd).stack i cur.state _
            hw hacc with ⟨hr, hstk, hap, _⟩ | ⟨j, hj, hwj⟩
          · subst hr
            exact hidle hstk hap
          · rw [paintWalk_not_end hwf hn _ hj hwj] at hs
            simp at hs
        · intro hns
          rcases paintWalk_increment s0 root hwf stk
            (paint_partial_visit inner surface root ps stk i cur.state upd).stack i cur.state _
            hw hacc with ⟨_, _, _, he⟩ | hj
          · rw [he, same_self] at hns
            simp at hns
          · exact hj
      · rename_i hcomp
        rw [if_neg hcomp] at hc
        exact absurd hc hcomp

theorem paint_partial_impl_idle (fuel : Nat) (surface : Surface) (s0 s1 : Store) (root : Nat)
    (hwf : wfTree s0 = true) (hn : root < s0.size) (hsh : SameShape s0 s1)
    (hc : (paint_partial_impl fuel surface s1 root).complete = true) :
    0 < fuel ∧ PaintIdle (paint_partial_impl fuel surface s1 root).store root := by
  have hw : PaintWalk s0 root {} root (traverseBegin s0 root).state :=
    { lt := hn
      sub := Or.inl ⟨rfl, fun _ => rfl⟩
      pre := fun _ => rfl }
  have hne := paintWalk_not_end hwf hn (traverseBegin s0 root) rfl hw
  have hloop := paint_partial_loop_idle fuel surface s0 root hwf hn fuel { store := s1 } {}
    (traverseBegin s0 root) false hsh (fun hs => by rw [hne] at hs; simp at hs)
    (fun _ => ⟨root, rfl, hw⟩)
  unfold paint_partial_impl at hc ⊢
  simp only at hc ⊢
  rw [hsh.traverseEnd, hsh.traverseBegin] at hc ⊢
  rw [hne] at hloop
  simp only [Bool.false_eq_true, if_false, Nat.add_zero] at hloop
  split
  · rename_i hb
    simp only [Bool.and_eq_true] at hb
    exact hloop hb.1
  · rename_i hb
    rw [if_neg hb] at hc
    exact hloop hc

/-! ### `layout` leaves its root without layout flag and with its constraints -/

theorem setConstraints_constraints_ne (s : Store) (i j : Nat) (c : Vec2) (h : j ≠ i) :
    ((setConstraints s i c).1.node j).constraints = (s.node j).constraints := by
  unfold setConstraints
  split
  · rw [(sameData_reflow _ i j).2, modify_node, if_neg h]
  · rfl

theorem setConstraints_constraints (s : Store) (i : Nat) (c : Vec2) :
    ((setConstraints s i c).1.node i).constraints = c := by
  unfold setConstraints
  split
  · rw [(sameData_reflow _ i i).2, modify_node, if_pos rfl]
  · rename_i h
    simpa using h

theorem setConstraints_area (s : Store) (i j : Nat) (c : Vec2) :
    ((setConstraints s i c).1.node j).area = (s.node j).area := by
  unfold setConstraints
  split
  · rw [(sameData_reflow _ i j).1, modify_node]
    split
    · rename_i h; rw [h]
    · rfl
  · rfl

theorem setSize_constraints (s : Store) (i j : Nat) (v : Vec2) :
    ((setSize s i v).1.node j).constraints = (s.node j).constraints := by
  unfold setSize
  split
  · rw [(sameData_repaint_repositioned _ i j).2, modify_node]
    split
    · rename_i h; rw [h]
    · rfl
  · rfl

theorem setSize_area (s : Store) (i : Nat) (v : Vec2) :
    ((setSize s i v).1.node i).area =
      if (s.node i).area.size ≠ v then (s.node i).area.resize v else (s.node i).area := by
  unfold setSize
  split
  · rw [(sameData_repaint_repositioned _ i i).1, modify_node, if_pos rfl]
  · rfl

theorem layout_end_constraints (hooks : Hooks) (s : Store) (node current j : Nat) :
    ((layout_end hooks s node current).1.node j).constraints = (s.node j).constraints := by
  unfold layout_end
  split
  · split
    · exact setSize_constraints _ _ _ _
    · exact setSize_constraints _ _ _ _
  · exact setSize_constraints _ _ _ _

theorem layout_pass_constraints (hooks : Hooks) (node : Nat) (s : Store) (i : Nat)
    (st : AcceptState) (r : LayoutStep) (hr : layout_pass hooks node s i st = some r) :
    (r.store.node node).constraints = (s.node node).constraints := by
  unfold layout_pass at hr
  simp only at hr
  -- the store after the pre part
  have hpre : ∀ s1 : Store,
      (if st != AcceptState.Post then
        if i ≠ node then
          match s.parent i with
          | some p =>
            if s.isLayoutDirty p then
              some (setConstraints s i (hooks.onLayoutConstrain s p i)).1
            else some s
          | Option.none => Option.none
        else some s
      else some s) = some s1 → (s1.node node).constraints = (s.node node).constraints := by
    intro s1 h1
    split at h1
    · split at h1
      · rename_i hin
        split at h1
        · split at h1
          · simp only [Option.some.injEq] at h1
            rw [← h1]
            exact setConstraints_constraints_ne _ _ _ _ (fun e => hin e.symm)
          · simp only [Option.some.injEq] at h1; rw [← h1]
        · simp at h1
      · simp only [Option.some.injEq] at h1; rw [← h1]
    · simp only [Option.some.injEq] at h1; rw [← h1]
  split at hr
  · simp at hr
  · rename_i s1 hs1
    have h1 := hpre s1 hs1
    have h2 : ((clearLayoutDirty s1 i).node node).constraints = (s.node node).constraints := by
      rw [← h1]; exact (sameData_modifyFlags s1 i _ node).2
    have h3 : ((layout_end hooks (clearLayoutDirty s1 i) node i).1.node node).constraints
        = (s.node node).constraints := by
      rw [layout_end_constraints]; exact h2
    split at hr
    · simp only [Option.some.injEq] at hr; rw [← hr]; exact h1
    · split at hr
      · split at hr
        · split at hr
          · split at hr
            · split at hr
              · simp only [Option.some.injEq] at hr; rw [← hr]
                simp only
                rw [(sameData_reflow _ _ node).2]; exact h3
              · simp only [Option.some.injEq] at hr; rw [← hr]; exact h3
            · simp at hr
          · simp only [Option.some.injEq] at hr; rw [← hr]; exact h3
        · simp only [Option.some.injEq] at hr; rw [← hr]; exact h2
      · simp only [Option.some.injEq] at hr; rw [← hr]; exact h1

theorem layoutWalk_pass (hooks : Hooks) (s0 : Store) (node : Nat) (hwf : wfTree s0 = true)
    (hroot : s0.parent node = Option.none) (t : Store) (i : Nat) (st : AcceptState)
    (r : LayoutStep) (hv : LayoutWalk s0 node t i st)
    (h : layout_pass hooks node t i st = some r) :
    (r.again = true → LayoutWalk s0 node r.store r.node r.state) ∧
    (r.again = false → LayoutLeft s0 node r.store r.node r.state) := by
  have hwfl := wfTree_wfLinks hwf
  have hi := hv.lt
  obtain ⟨hpr, _, _, _, hlen⟩ := wfLinks_at hwfl hi
  obtain ⟨t1, hpre, hcases⟩ := layout_pass_cases hooks node t i st r h
  have hsh1 : SameShape s0 t1 := by
    rcases hpre with e | ⟨_, _, p, c, _, _, e⟩
    · rw [e]; exact hv.shape
    · rw [e]; exact hv.shape.trans (sameShape_setConstraints t i c)
  rcases hcases with ⟨hst, hf, hr⟩ | ⟨hst, hf, hr⟩ | ⟨hst, hfl, t3, hsl, hr⟩ |
    ⟨hst, hd, hcn, t3, p, hsl, hp, hpd, hr⟩
  · rw [hr]
    refine ⟨fun e => by simp at e, fun _ => ?_⟩
    exact {
      shape := hsh1
      lt := hi
      sub := hv.sub
      descend := fun e => by simp at e
      leaf := fun e => by simp at e
      clean := fun _ e => by rw [← e]; exact hf }
  · rw [hr]
    refine ⟨fun e => by simp at e, fun _ => ?_⟩
    exact {
      shape := hsh1
      lt := hi
      sub := hv.sub
      descend := fun _ => (hv.pre (by rw [hst]; simp)).symm.trans hst
      leaf := fun e => by simp at e
      clean := fun e => absurd rfl e }
  · rw [hr]
    refine ⟨fun e => by simp at e, fun _ => ?_⟩
    exact {
      shape := hsh1.trans ((sameShape_clearLayoutDirty t1 i).trans hsl.1)
      lt := hi
      sub := hv.sub
      descend := fun e => absurd e hst
      leaf := fun e => by
        have e' : st = AcceptState.Leaf := e
        rw [← hv.pre (by rw [e']; simp), e']
      clean := fun _ e => by
        rw [← e]
        simp only
        rw [(hsl.flagged i).1, clearLayoutDirty_flagged, if_pos rfl] }
  · rw [hr]
    refine ⟨fun _ => ?_, fun e => by simp at e⟩
    have hsh3 : SameShape s0 t3 := hsh1.trans ((sameShape_clearLayoutDirty t1 i).trans hsl.1)
    have hp0 : s0.parent i = some p := by rw [← hsh3.parent]; exact hp
    have hps := hpr p hp0
    have hin : i ≠ node := by
      intro e; rw [e, hroot] at hp0; cases hp0
    exact {
      shape := hsh3.trans (sameShape_reflow t3 p)
      lt := hps
      sub := by
        rcases hv.sub with e | hm
        · exact absurd e hin
        · rw [parents_of_parent s0 i p hp0 hlen, List.mem_cons] at hm
          rcases hm with e | hm
          · exact Or.inl e.symm
          · exact Or.inr hm
      pre := fun _ => (pre_or_leaf_of_child hwf hi hp0).symm }

theorem layoutWalk_while (hooks : Hooks) (s0 : Store) (node : Nat) (hwf : wfTree s0 = true)
    (hroot : s0.parent node = Option.none) :
    ∀ (fuel : Nat) (t : Store) (i : Nat) (st : AcceptState) (r : LayoutStep),
      LayoutWalk s0 node t i st → layout_while hooks node fuel t i st = some r →
      LayoutLeft s0 node r.store r.node r.state ∧
        (r.store.node node).constraints = (t.node node).constraints := by
  intro fuel
  induction fuel with
  | zero => intro t i st r _ h; simp [layout_while] at h
  | succ k ih =>
    intro t i st r hv h
    unfold layout_while at h
    split at h
    · simp at h
    · rename_i r1 hr1
      obtain ⟨h1, h2⟩ := layoutWalk_pass hooks s0 node hwf hroot t i st r1 hv hr1
      have hc := layout_pass_constraints hooks node t i st r1 hr1
      split at h
      · rename_i hag
        obtain ⟨g1, g2⟩ := ih _ _ _ r (h1 hag) h
        exact ⟨g1, g2.trans hc⟩
      · rename_i hag
        simp only [Option.some.injEq] at h
        rw [← h]
        exact ⟨h2 (by simpa using hag), hc⟩

theorem layoutLeft_increment (s0 : Store) (node : Nat) (hwf : wfTree s0 = true) (t : Store)
    (i : Nat) (st : AcceptState) (hd : LayoutLeft s0 node t i st) :
    (t.layoutFlagged node = false ∧ increment t i st = traverseEnd s0 node) ∨
    ∃ j, (increment t i st).node = some j ∧
      LayoutWalk s0 node t j (increment t i st).state := by
  have hw : PaintWalk s0 node {} i (if st = AcceptState.Pre then st else AcceptState.Post) :=
    { lt := hd.lt
      sub := by
        rcases hd.sub with e | hm
        · left
          refine ⟨e, fun h => ?_⟩
          split at h
          · rfl
          · exact absurd rfl h
        · exact Or.inr hm
      pre := fun h => by
        split at h
        · rename_i e
          rw [if_pos e, hd.descend e]; exact e
        · exact absurd rfl h }
  rw [hd.shape.increment]
  -- a leaf visit and a post visit have the same successor
  have hinc : increment s0 i st =
      increment s0 i (if st = AcceptState.Pre then st else AcceptState.Post) := by
    cases st with
    | Pre => rfl
    | Post => rfl
    | Leaf =>
      rw [leaf_increment s0 i (hd.leaf rfl)]
      simp [increment]
  rw [hinc]
  rcases paintWalk_increment s0 node hwf {} {} i _ _ hw (Or.inr rfl) with
    ⟨hr, _, hap, he⟩ | ⟨j, hj, hwj⟩
  · left
    refine ⟨hd.clean ?_ hr, he⟩
    intro e
    rw [if_pos e] at hap
    exact hap e
  · right
    have hsub : j = node ∨ node ∈ parents s0 j := by
      rcases hwj.sub with h | h
      · exact Or.inl h.1
      · exact Or.inr h
    exact ⟨j, hj, ⟨hd.shape, hwj.lt, hsub, hwj.pre⟩⟩

theorem layoutWalk_not_end {s0 : Store} (hwf : wfTree s0 = true) {node : Nat}
    (hn : node < s0.size) {t : Store} {j : Nat} {st : AcceptState} (cur : Accept)
    (hj : cur.node = some j) (hv : LayoutWalk s0 node t j st) :
    cur.same (traverseEnd s0 node) = false := by
  cases hs : cur.same (traverseEnd s0 node) with
  | false => rfl
  | true =>
    have := same_node hs
    rw [hj] at this
    exact absurd this.symm (traverseEnd_outside hwf hn j hv.sub)

theorem layout_loop_root (hooks : Hooks) (s0 : Store) (node : Nat) (hwf : wfTree s0 = true)
    (hn : node < s0.size) (hroot : s0.parent node = Option.none) :
    ∀ (fuel : Nat) (t : Store) (cur : Accept) (res : Store),
      SameShape s0 t →
      (cur.same (traverseEnd s0 node) = true → t.layoutFlagged node = false) →
      (cur.same (traverseEnd s0 node) = false →
        ∃ i, cur.node = some i ∧ LayoutWalk s0 node t i cur.state) →
      layout_loop hooks node (traverseEnd s0 node) fuel t cur = some res →
      SameShape s0 res ∧ res.layoutFlagged node = false ∧
        (res.node node).constraints = (t.node node).constraints := by
  intro fuel
  induction fuel with
  | zero =>
    intro t cur res hsh hend _ h
    unfold layout_loop at h
    split at h
    · rename_i hs
      simp only [Option.some.injEq] at h; rw [← h]; exact ⟨hsh, hend hs, rfl⟩
    · simp at h
  | succ k ih =>
    intro t cur res hsh hend hcur h
    unfold layout_loop at h
    split at h
    · rename_i hs
      simp only [Option.some.injEq] at h; rw [← h]; exact ⟨hsh, hend hs, rfl⟩
    · rename_i hsame
      obtain ⟨i, hi, hv⟩ := hcur (by simpa using hsame)
      rw [hi] at h
      simp only at h
      split at h
      · simp at h
      · rename_i r hr
        obtain ⟨hd, hc⟩ := layoutWalk_while hooks s0 node hwf hroot _ t i cur.state r hv hr
        have hA : (increment r.store r.node r.state).same (traverseEnd s0 node) = true →
            r.store.layoutFlagged node = false := by
          intro hs
          rcases layoutLeft_increment s0 node hwf r.store r.node r.state hd with ⟨hcl, _⟩ | hj
          · exact hcl
          · obtain ⟨j, hj, hvj⟩ := hj
            rw [layoutWalk_not_end hwf hn _ hj hvj] at hs
            simp at hs
        have hB : (increment r.store r.node r.state).same (traverseEnd s0 node) = false →
            ∃ j, (increment r.store r.node r.state).node = some j ∧
              LayoutWalk s0 node r.store j (increment r.store r.node r.state).state := by
          intro hns
          rcases layoutLeft_increment s0 node hwf r.store r.node r.state hd with ⟨_, he⟩ | hj
          · rw [he, same_self] at hns
            simp at hns
          · exact hj
        obtain ⟨g1, g2, g3⟩ := ih _ _ res hd.shape hA hB h
        exact ⟨g1, g2, g3.trans hc⟩

/-! ### The state of the root after `layout` -/

theorem sameData_repaint_all (s : Store) (i : Nat) : SameData s (repaint_all s i) := by
  have hw : SameData s (Widget.repaint s i) := by
    unfold Widget.repaint flag_parent_child_paint_dirty
    split
    · exact sameData_of_modifyFlags (sameData_flagParents _ _)
    · exact SameData.data_refl s
  have hc : SameData s (Container.repaint s i) := by
    unfold Container.repaint flag_parent_child_paint_dirty
    exact sameData_of_modifyFlags (sameData_flagParents _ _)
  unfold repaint_all NodeAccess.repaint
  simp only
  split <;> split <;>
    first
      | exact hw
      | exact hc
      | exact hw.data_trans (sameData_modifyFlags _ _ _)
      | exact hc.data_trans (sameData_modifyFlags _ _ _)

theorem sameData_clearLayoutDirty (s : Store) (i : Nat) : SameData s (clearLayoutDirty s i) :=
  sameData_modifyFlags s i _

theorem layout_init_root (hooks : Hooks) (surface : Surface) (s : Store) (node : Nat)
    (hroot : s.parent node = Option.none) :
    ∃ X : Store, SameShape s X ∧ (X.node node).constraints = surface.resolution ∧
      (X.node node).area = (s.node node).area ∧
      layout_init hooks surface s node =
        (if X.isWidget node then
          (clearLayoutDirty (setSize X node surface.resolution).1 node, false)
         else (X, true)) ∧
      (surface.changed = false → (s.node node).constraints = surface.resolution → X = s) := by
  have hatt : s.isAttached node = false := by simp [Store.isAttached, hroot]
  have key : ∀ X : Store, SameShape s X → (X.node node).constraints = surface.resolution →
      (if X.isWidget node then
        (clearLayoutDirty
          (if !X.isAttached node then (setSize X node (X.node node).constraints).1
           else (setSize X node (hooks.preferredSize X node)).1) node, false)
       else (X, true)) =
      (if X.isWidget node then
        (clearLayoutDirty (setSize X node surface.resolution).1 node, false)
       else (X, true)) := by
    intro X hsh hc
    rw [hsh.isAttached, hatt, hc]
    rfl
  by_cases hch : surface.changed = true
  · refine ⟨(setConstraints (reset s node) node surface.resolution).1,
      (sameShape_reset s node).trans (sameShape_setConstraints _ _ _),
      setConstraints_constraints _ _ _, ?_, ?_, fun e => by rw [hch] at e; cases e⟩
    · rw [setConstraints_area]
      unfold reset
      rw [(sameData_repaint_all _ node node).1, (sameData_reflow s node node).1]
    · unfold layout_init
      simp only [hch, if_true]
      exact key _ ((sameShape_reset s node).trans (sameShape_setConstraints _ _ _))
        (setConstraints_constraints _ _ _)
  · refine ⟨(setConstraints s node surface.resolution).1, sameShape_setConstraints _ _ _,
      setConstraints_constraints _ _ _, setConstraints_area _ _ _ _, ?_, fun _ e => ?_⟩
    · unfold layout_init
      simp only [hch, hatt, Bool.not_false, if_true, Bool.false_eq_true, if_false]
      exact key _ (sameShape_setConstraints _ _ _) (setConstraints_constraints _ _ _)
    · unfold setConstraints
      rw [if_neg (by simpa using e)]

theorem layout_root_state (hooks : Hooks) (fuel : Nat) (surface : Surface) (s t : Store)
    (node : Nat) (hwf : wfTree s = true) (hn : node < s.size)
    (hroot : s.parent node = Option.none)
    (ht : layout hooks fuel surface s node = some t) :
    SameShape s t ∧ t.layoutFlagged node = false ∧
      (t.node node).constraints = surface.resolution ∧
      (s.isWidget node = true → (t.node node).area =
        if (s.node node).area.size ≠ surface.resolution then
          (s.node node).area.resize surface.resolution
        else (s.node node).area) := by
  obtain ⟨X, hsh, hc, ha, hinit, _⟩ := layout_init_root hooks surface s node hroot
  unfold layout at ht
  simp only at ht
  rw [hinit] at ht
  by_cases hw : X.isWidget node = true
  · simp only [hw, if_true, Bool.not_false] at ht
    simp only [Option.some.injEq] at ht
    rw [← ht]
    refine ⟨hsh.trans ((sameShape_setSize _ _ _).trans (sameShape_clearLayoutDirty _ _)), ?_,
      ?_, fun _ => ?_⟩
    · rw [clearLayoutDirty_flagged, if_pos rfl]
    · rw [(sameData_clearLayoutDirty _ node node).2, setSize_constraints]; exact hc
    · rw [(sameData_clearLayoutDirty _ node node).1, setSize_area, ha]
  · have hw' : s.isWidget node = false := by
      rw [← hsh.isWidget]; simpa using hw
    have hcont : s.isContainer node = true := by
      simp only [Store.isContainer, Store.isWidget] at hw' ⊢
      simp [hw']
    simp only [hw, if_false, Bool.not_true, Bool.false_eq_true] at ht
    split at ht
    · rename_i hcl
      simp only [Option.some.injEq] at ht
      rw [← ht]
      simp only [Bool.and_eq_true, Bool.not_eq_true'] at hcl
      refine ⟨hsh, by simp [Store.layoutFlagged, hcl.1, hcl.2], hc, fun e => ?_⟩
      rw [hw'] at e; cases e
    · rw [hsh.traverseEnd, hsh.traverseBegin] at ht
      have hv : LayoutWalk s node X node (traverseBegin s node).state :=
        { shape := hsh
          lt := hn
          sub := Or.inl rfl
          pre := fun _ => rfl }
      have hne := layoutWalk_not_end hwf hn (traverseBegin s node) rfl hv
      obtain ⟨g1, g2, g3⟩ := layout_loop_root hooks s node hwf hn hroot fuel X _ t hsh
        (fun hs => by rw [hne] at hs; simp at hs) (fun _ => ⟨node, rfl, hv⟩) ht
      refine ⟨g1, g2, g3.trans hc, fun e => ?_⟩
      rw [hw'] at e; cases e

/-! ### A pass on an idle root -/

theorem paint_partial_loop_same (inner : Nat) (surface : Surface) (root : Nat) (last : Accept)
    (fuel : Nat) (ps : PaintState) (stk : PositionRebuilder) (upd : Bool) :
    paint_partial_loop inner surface root last fuel ps stk last upd = (ps, upd) := by
  cases fuel <;> simp [paint_partial_loop, same_self]

theorem paint_partial_visit_idle (inner : Nat) (surface : Surface) (r0 : Nat) (t : Store)
    (root : Nat) (st : AcceptState) (hst : st ≠ AcceptState.Post) (hidle : PaintIdle t root) :
    (paint_partial_visit inner surface r0 { store := t } {} root st false).state.trace = [] ∧
    (paint_partial_visit inner surface r0 { store := t } {} root st false).state.complete
      = true ∧
    (paint_partial_visit inner surface r0 { store := t } {} root st false).accept
      = AcceptState.Post ∧
    (paint_partial_visit inner surface r0 { store := t } {} root st false).updated = false := by
  have hne : (st != AcceptState.Post) = true := by
    cases st <;> simp_all
  have hflags : ((({} : PositionRebuilder).push t root).1.node root).flags
      = (t.node root).flags := by
    simp [PositionRebuilder.push, setClipSpace, modify_node]
  have hkind : (({} : PositionRebuilder).push t root).1.isContainer root = t.isContainer root :=
    (samePaint_push t {} root).paint_shape.isContainer root
  unfold paint_partial_visit
  simp only [hne, if_true]
  split
  · rename_i hclip
    obtain ⟨hd, hc⟩ := hidle hclip
    have hd1 : (({} : PositionRebuilder).push t root).1.isPaintDirty root = false := by
      simpa only [Store.isPaintDirty, hflags] using hd
    have hc1 : (!(({} : PositionRebuilder).push t root).1.isContainer root ||
        !(({} : PositionRebuilder).push t root).1.isChildPaintDirty root) = true := by
      simpa only [Store.isChildPaintDirty, hflags, hkind] using hc
    rw [if_neg (by simp [hd1]), if_pos hc1]
    exact ⟨rfl, rfl, rfl, rfl⟩
  · exact ⟨rfl, rfl, rfl, rfl⟩

theorem paint_partial_idle (fuel : Nat) (surface : Surface) (t : Store) (root : Nat)
    (hf : 0 < fuel) (hidle : PaintIdle t root) :
    (paint_partial_impl fuel surface t root).trace = [] ∧
    (paint_partial_impl fuel surface t root).complete = true := by
  obtain ⟨k, rfl⟩ : ∃ k, fuel = k + 1 := ⟨fuel - 1, by omega⟩
  have hloop : paint_partial_loop (k + 1) surface root (traverseEnd t root) (k + 1)
      { store := t } {} (traverseBegin t root) false
      = (({ store := t } : PaintState), false) ∨
      ((paint_partial_loop (k + 1) surface root (traverseEnd t root) (k + 1)
        { store := t } {} (traverseBegin t root) false).1.trace = [] ∧
       (paint_partial_loop (k + 1) surface root (traverseEnd t root) (k + 1)
        { store := t } {} (traverseBegin t root) false).1.complete = true ∧
       (paint_partial_loop (k + 1) surface root (traverseEnd t root) (k + 1)
        { store := t } {} (traverseBegin t root) false).2 = false) := by
    unfold paint_partial_loop
    split
    · exact Or.inl rfl
    · right
      have hst : (traverseBegin t root).state ≠ AcceptState.Post := pre_or_leaf_ne_post t root
      obtain ⟨h1, h2, h3, h4⟩ := paint_partial_visit_idle (k + 1) surface root t root
        (traverseBegin t root).state hst hidle
      have hsh : SameShape t (paint_partial_visit (k + 1) surface root { store := t } {} root
          (traverseBegin t root).state false).state.store :=
        (samePaint_paint_partial_visit _ _ _ _ _ _ _ _).paint_shape
      simp only [traverseBegin]
      simp only [traverseBegin] at h1 h2 h3 h4 hsh
      rw [if_pos h2, h3, h4]
      have hinc : increment (paint_partial_visit (k + 1) surface root { store := t } {} root
          (pre_or_leaf t root) false).state.store root AcceptState.Post = traverseEnd t root := by
        rw [hsh.increment]
        simp [increment, traverseEnd]
      rw [hinc, paint_partial_loop_same]
      exact ⟨h1, h2, rfl⟩
  unfold paint_partial_impl
  simp only
  rcases hloop with e | ⟨h1, h2, h3⟩
  · rw [e]
    simp
  · rw [h3]
    simp only [Bool.and_false, Bool.false_eq_true, if_false]
    exact ⟨h1, h2⟩

/-! ### The area of a widget at the root -/

theorem inPoint_wrapPoint (v : Int) : inPoint (wrapPoint v) = true := by
  rw [inPoint_iff]
  unfold wrapPoint
  omega

theorem resize_size_of_nonempty (a : Rect) (v : Vec2) (hvx : inPoint v.x = true)
    (hvy : inPoint v.y = true) (hne : (a.resize v).empty = false) : (a.resize v).size = v := by
  rw [inPoint_iff] at hvx hvy
  unfold Rect.size
  rw [hne]
  simp only [Bool.false_eq_true, if_false]
  have e1 : wrapPoint ((a.resize v).high.x - (a.resize v).low.x + 1) = v.x := by
    simp only [Rect.resize, Vec2.add, Vec2.subP]
    unfold wrapPoint
    omega
  have e2 : wrapPoint ((a.resize v).high.y - (a.resize v).low.y + 1) = v.y := by
    simp only [Rect.resize, Vec2.add, Vec2.subP]
    unfold wrapPoint
    omega
  rw [e1, e2]

theorem rootClip_of_typed (s : Store) (root : Nat) (h : inRect (s.node root).area = true) :
    rootClip s root = (s.node root).area := by
  have hz : (s.node root).area.translate Vec2.origin = (s.node root).area := by
    rw [translate_eq_shift _ _ (by rw [show Vec2.origin.x = 0 from rfl,
      show Vec2.origin.y = 0 from rfl, shift_zero]; exact h)]
    exact shift_zero _
  simp only [rootClip, PositionRebuilder.push]
  rw [hz]
  exact ofIntersect_all _ h

theorem inRect_resize (a : Rect) (v : Vec2) (hx : inPoint a.low.x = true)
    (hy : inPoint a.low.y = true) : inRect (a.resize v) = true := by
  rw [inRect_iff]
  exact ⟨⟨hx, hy⟩, inPoint_wrapPoint _, inPoint_wrapPoint _⟩

theorem idle_after_widget_layout (s2 : Store) (root : Nat) (a0 : Rect) (res : Vec2)
    (hw : s2.isWidget root = true) (hidle : PaintIdle s2 root)
    (hx : inPoint a0.low.x = true) (hy : inPoint a0.low.y = true)
    (hrx : inPoint res.x = true) (hry : inPoint res.y = true)
    (ha : (s2.node root).area = if a0.size ≠ res then a0.resize res else a0) :
    PaintIdle (clearLayoutDirty (setSize s2 root res).1 root) root := by
  have hcont : ∀ u : Store, SameShape s2 u → (!u.isContainer root || !u.isChildPaintDirty root)
      = true := by
    intro u hu
    have : u.isWidget root = true := by rw [hu.isWidget]; exact hw
    simp only [Store.isContainer, Store.isWidget] at this ⊢
    simp [this]
  by_cases hsz : (s2.node root).area.size = res
  · have hset : setSize s2 root res = (s2, false) := by
      unfold setSize
      rw [if_neg (by simpa using hsz)]
    rw [hset]
    intro hclip
    have hrc : rootClip (clearLayoutDirty s2 root) root = rootClip s2 root :=
      rootClip_congr (sameData_clearLayoutDirty s2 root root).1
    rw [hrc] at hclip
    refine ⟨?_, hcont _ (sameShape_clearLayoutDirty s2 root)⟩
    have := (hidle hclip).1
    simpa [Store.isPaintDirty, clearLayoutDirty, modifyFlags_flags] using this
  · have h0 : a0.size ≠ res := by
      intro e
      rw [if_neg (by simpa using e)] at ha
      rw [ha] at hsz
      exact hsz e
    rw [if_pos h0] at ha
    have harea : ((clearLayoutDirty (setSize s2 root res).1 root).node root).area
        = a0.resize res := by
      rw [(sameData_clearLayoutDirty _ root root).1, setSize_area, if_pos hsz, ha]
      rfl
    intro hclip
    exfalso
    rw [rootClip_of_typed _ _ (by rw [harea]; exact inRect_resize a0 res hx hy), harea] at hclip
    have hne : (a0.resize res).empty = false := by
      simpa [Rect.nonempty] using hclip
    apply hsz
    rw [ha]
    exact resize_size_of_nonempty a0 res hrx hry hne

/-! ## The component filter -/

theorem bloomFilterHash_ne_zero (t : Nat) : bloomFilterHash t ≠ 0 := by
  unfold bloomFilterHash
  simp only [Nat.zero_or]
  intro h
  have h1 := congrArg (fun n => n.testBit (t % 16)) h
  simp [Nat.testBit_or, Nat.testBit_shiftLeft] at h1

theorem and_or_self_right (f h : Nat) : (f ||| h) &&& h = h := by
  apply Nat.eq_of_testBit_eq
  intro i
  simp only [Nat.testBit_and, Nat.testBit_or]
  cases f.testBit i <;> cases h.testBit i <;> rfl

theorem bloomFilterContains_or_self (f t : Nat) :
    bloomFilterContains (f ||| bloomFilterHash t) t = true := by
  have hh := bloomFilterHash_ne_zero t
  have hne : f ||| bloomFilterHash t ≠ 0 := by
    intro h
    have := and_or_self_right f (bloomFilterHash t)
    rw [h] at this
    simp at this
    exact hh this.symm
  unfold bloomFilterContains
  rw [and_or_self_right]
  simp [hne, hh]

theorem bloomFilterContains_or_mono (f h t : Nat) (hc : bloomFilterContains f t = true) :
    bloomFilterContains (f ||| h) t = true := by
  unfold bloomFilterContains at hc ⊢
  simp only [Bool.and_eq_true, bne_iff_ne, ne_eq] at hc ⊢
  obtain ⟨i, hi⟩ := Nat.ne_zero_implies_bit_true hc.2
  rw [Nat.testBit_and, Bool.and_eq_true] at hi
  have h2 : ((f ||| h) &&& bloomFilterHash t).testBit i = true := by
    simp [Nat.testBit_and, Nat.testBit_or, hi.1, hi.2]
  constructor
  · intro e
    rw [e] at h2
    simp at h2
  · intro e
    rw [e] at h2
    simp at h2

theorem setComp_filter (o : Owner) (off : Int) (c : Component) :
    (o.setComp off c).components_filter = o.components_filter := rfl

theorem attachLoop_filter (off : Int) (type : Nat) :
    ∀ (fuel : Nat) (o : Owner) (itr : Int) (o2 : Owner),
      attachLoop o off type fuel itr = some o2 → o2.components_filter = o.components_filter := by
  intro fuel
  induction fuel with
  | zero => intro o itr o2 h; simp [attachLoop] at h
  | succ k ih =>
    intro o itr o2 h
    unfold attachLoop at h
    simp only at h
    split at h
    · simp only [Option.some.injEq] at h; rw [← h]; rfl
    · split at h
      · simp only [Option.some.injEq] at h; rw [← h]; rfl
      · split at h
        · simp only [Option.some.injEq] at h; rw [← h]; rfl
        · exact ih _ _ _ h

theorem attachComponent_filter (o o2 : Owner) (off : Int) (h : attachComponent o off = some o2) :
    o2.components_filter = o.components_filter ||| bloomFilterHash (o.comp off).type := by
  unfold attachComponent at h
  simp only at h
  split at h
  · simp at h
  · split at h
    · split at h
      · simp only [Option.some.injEq] at h; rw [← h]; rfl
      · split at h
        · simp only [Option.some.injEq] at h; rw [← h]; rfl
        · rw [attachLoop_filter _ _ _ _ _ _ h]
    · simp only [Option.some.injEq] at h; rw [← h]

theorem construct_filter (o o2 : Owner) (off : Int) (t : Nat)
    (h : Component.construct o off t = some o2) :
    o2.components_filter = o.components_filter ||| bloomFilterHash t := by
  unfold Component.construct at h
  split at h
  · rw [attachComponent_filter _ _ _ h]
    simp [Owner.setComp]
  · simp at h

theorem attachSeq_filter :
    ∀ (l : List (Int × Nat)) (o o2 : Owner), attachSeq o l = some o2 →
      (∀ t, bloomFilterContains o.components_filter t = true →
        bloomFilterContains o2.components_filter t = true) ∧
      ∀ p ∈ l, bloomFilterContains o2.components_filter p.2 = true := by
  intro l
  induction l with
  | nil =>
    intro o o2 h
    simp only [attachSeq, Option.some.injEq] at h
    rw [← h]
    exact ⟨fun _ ht => ht, fun p hp => by simp at hp⟩
  | cons q rest ih =>
    intro o o2 h
    simp only [attachSeq] at h
    cases hc : Component.construct o q.1 q.2 with
    | none => rw [hc] at h; simp at h
    | some o1 =>
      rw [hc] at h
      simp only [Option.some_bind] at h
      obtain ⟨h1, h2⟩ := ih o1 o2 h
      have hf := construct_filter o o1 q.1 q.2 hc
      refine ⟨fun t ht => h1 t ?_, fun p hp => ?_⟩
      · rw [hf]; exact bloomFilterContains_or_mono _ _ _ ht
      · rcases List.mem_cons.mp hp with e | hp
        · rw [e]
          apply h1
          rw [hf]
          exact bloomFilterContains_or_self _ _
        · exact h2 p hp

/-! ## The chain of the components of one type -/

theorem siblingChain_of_offLinked (o : Owner) :
    ∀ (L : List Int) (fuel : Nat), offLinked o L → (∀ x ∈ L, x ≠ 0) → L.length ≤ fuel →
      siblingChain o fuel (L.headD 0) = L := by
  intro L
  induction L with
  | nil => intro fuel _ _ _; cases fuel <;> simp [siblingChain]
  | cons x rest ih =>
    intro fuel h hnz hlen
    cases fuel with
    | zero => simp at hlen
    | succ k =>
      have hx : x ≠ 0 := hnz x (List.mem_cons_self _ _)
      simp only [List.headD_cons, siblingChain, if_neg hx, List.cons.injEq, true_and]
      rw [h.1]
      exact ih k h.2 (fun y hy => hnz y (List.mem_cons_of_mem _ hy))
        (by simpa using hlen)

theorem offLinked_congr (o o2 : Owner) :
    ∀ L : List Int, (∀ x ∈ L, (o2.comp x).next_sibling_offset = (o.comp x).next_sibling_offset) →
      offLinked o L → offLinked o2 L := by
  intro L
  induction L with
  | nil => intro _ _; trivial
  | cons x rest ih =>
    intro h hl
    exact ⟨by rw [h x (List.mem_cons_self _ _)]; exact hl.1,
      ih (fun y hy => h y (List.mem_cons_of_mem _ hy)) hl.2⟩

theorem offLinked_suffix (o : Owner) :
    ∀ (A B : List Int), offLinked o (A ++ B) → offLinked o B := by
  intro A
  induction A with
  | nil => intro B h; exact h
  | cons a A' ih => intro B h; exact ih B h.2

theorem construct_same_type (o o2 : Owner) (a x : Int) (t : Nat)
    (hfirst : o.first_component_offset = a) (ha : a ≠ 0) (hta : (o.comp a).type = t)
    (hxa : x ≠ a) (h : Component.construct o x t = some o2) :
    o2.first_component_offset = a ∧
    (∀ y, (o2.comp y).type = if y = x then t else (o.comp y).type) ∧
    (∀ y, (o2.comp y).next_sibling_offset =
      if y = a then x else if y = x then (o.comp a).next_sibling_offset
      else (o.comp y).next_sibling_offset) := by
  unfold Component.construct at h
  split at h
  · unfold attachComponent at h
    simp only at h
    split at h
    · simp at h
    · have hf : (o.setComp x { type := t }).first_component_offset = a := hfirst
      have hty : ((o.setComp x { type := t }).comp x).type = t := by simp [Owner.setComp]
      have htya : ((o.setComp x { type := t }).comp a).type = t := by
        simp [Owner.setComp, Ne.symm hxa, hta]
      simp only [hf, ha, ne_eq, not_false_eq_true, if_true, hty, htya, Nat.lt_irrefl,
        if_false] at h
      simp only [Option.some.injEq] at h
      rw [← h]
      refine ⟨rfl, fun y => ?_, fun y => ?_⟩
      · by_cases hya : y = a
        · simp [Owner.setComp, hya, Ne.symm hxa, hta]
        · by_cases hyx : y = x
          · simp [Owner.setComp, hyx, hxa]
          · simp [Owner.setComp, hya, hyx]
      · by_cases hya : y = a
        · simp [Owner.setComp, hya]
        · by_cases hyx : y = x
          · simp [Owner.setComp, hyx, hxa, Ne.symm hxa]
          · simp [Owner.setComp, hya, hyx]
  · simp at h

theorem construct_ne_zero (o o2 : Owner) (x : Int) (t : Nat)
    (h : Component.construct o x t = some o2) : x ≠ 0 := by
  intro e
  unfold Component.construct at h
  split at h
  · unfold attachComponent at h
    simp [e] at h
  · simp at h

theorem construct_first (a : Int) (t : Nat) (o1 : Owner)
    (hc : Component.construct {} a t = some o1) :
    o1.first_component_offset = a ∧ (o1.comp a).type = t ∧
      (o1.comp a).next_sibling_offset = 0 := by
  have ha0 := construct_ne_zero _ _ _ _ hc
  unfold Component.construct at hc
  split at hc
  · unfold attachComponent at hc
    simp only [ha0, if_false] at hc
    simp only [Owner.setComp, ne_eq, not_true_eq_false, if_false, if_true,
      Option.some.injEq] at hc
    rw [← hc]
    simp
  · simp at hc

theorem attachSeq_same_type (t : Nat) (a : Int) :
    ∀ (rest done : List Int) (o o2 : Owner),
      o.first_component_offset = a → (∀ y ∈ a :: done, (o.comp y).type = t) →
      (∀ y ∈ a :: done, y ≠ 0) →
      offLinked o (a :: done.reverse) → (a :: (done ++ rest)).Nodup →
      attachSeq o (rest.map (fun x => (x, t))) = some o2 →
      offLinked o2 (a :: (done ++ rest).reverse) ∧ (∀ x ∈ a :: (done ++ rest), x ≠ 0) := by
  intro rest
  induction rest with
  | nil =>
    intro done o o2 _ _ hnz hl _ h
    simp only [List.map_nil, attachSeq, Option.some.injEq] at h
    rw [← h, List.append_nil]
    exact ⟨hl, hnz⟩
  | cons x rest ih =>
    intro done o o2 hf hty hnz hl hnd h
    simp only [List.map_cons, attachSeq] at h
    cases hc : Component.construct o x t with
    | none => rw [hc] at h; simp at h
    | some o1 =>
      rw [hc] at h
      simp only [Option.some_bind] at h
      have hx0 := construct_ne_zero o o1 x t hc
      have hnd' : (a :: done ++ [x]).Nodup := by
        have : (a :: (done ++ x :: rest)) = (a :: done ++ [x]) ++ rest := by simp
        rw [this] at hnd
        exact (List.nodup_append.mp hnd).1
      have hxnot : x ∉ a :: done := by
        intro hm
        have := List.nodup_append.mp hnd'
        exact this.2.2 hm (List.mem_singleton_self x)
      have hxa : x ≠ a := fun e => hxnot (by rw [e]; exact List.mem_cons_self _ _)
      have ha0 : a ≠ 0 := hnz a (List.mem_cons_self _ _)
      obtain ⟨g1, g2, g3⟩ := construct_same_type o o1 a x t hf ha0
        (hty a (List.mem_cons_self _ _)) hxa hc
      have hres := ih (done ++ [x]) o1 o2 g1 ?_ ?_ ?_ (by simpa using hnd) h
      · simpa using hres
      · intro y hy
        rw [g2 y]
        split
        · rfl
        · apply hty y
          simp only [List.mem_cons, List.mem_append, List.mem_singleton] at hy ⊢
          tauto
      · intro y hy
        rcases List.mem_cons.mp hy with e | hy
        · rw [e]; exact ha0
        · rcases List.mem_append.mp hy with hy | hy
          · exact hnz y (List.mem_cons_of_mem _ hy)
          · rw [List.mem_singleton.mp hy]; exact hx0
      · -- the chain a, x, then the former chain behind a
        rw [List.reverse_append, List.reverse_singleton, List.singleton_append]
        refine ⟨by rw [g3 a, if_pos rfl]; rfl, ?_, ?_⟩
        · rw [g3 x, if_neg hxa, if_pos rfl]
          exact hl.1
        · apply offLinked_congr o o1 _ _ hl.2
          intro y hy
          have hyd : y ∈ done := List.mem_reverse.mp hy
          have hya : y ≠ a := by
            intro e
            rw [List.nodup_cons] at hnd
            apply hnd.1
            rw [← e]
            exact List.mem_append_left _ hyd
          have hyx : y ≠ x := by
            intro e
            exact hxnot (by rw [← e]; exact List.mem_cons_of_mem _ hyd)
          rw [g3 y, if_neg hya, if_neg hyx]

theorem nodup_offsets_length (l : List Int) (hnd : l.Nodup)
    (hr : ∀ x ∈ l, pointMin ≤ x ∧ x ≤ pointMax) : l.length ≤ offsetFuel := by
  have hinj : (l.map (fun x => (x + 32768).toNat)).Nodup := by
    apply List.Nodup.map_on _ hnd
    intro x hx y hy e
    have h1 := hr x hx
    have h2 := hr y hy
    simp only [pointMin, pointMax] at h1 h2
    simp only at e
    omega
  have hsub : (l.map (fun x => (x + 32768).toNat)).toFinset ⊆ Finset.range 65536 := by
    intro n hn
    rw [List.mem_toFinset, List.mem_map] at hn
    obtain ⟨x, hx, e⟩ := hn
    have h1 := hr x hx
    simp only [pointMin, pointMax] at h1
    rw [Finset.mem_range]
    omega
  have h1 := Finset.card_le_card hsub
  rw [List.toFinset_card_of_nodup hinj, Finset.card_range, List.length_map] at h1
  exact h1

theorem attachSeq_range :
    ∀ (l : List (Int × Nat)) (o o2 : Owner), attachSeq o l = some o2 →
      ∀ p ∈ l, pointMin ≤ p.1 ∧ p.1 ≤ pointMax := by
  intro l
  induction l with
  | nil => intro _ _ _ p hp; simp at hp
  | cons q rest ih =>
    intro o o2 h p hp
    simp only [attachSeq] at h
    cases hc : Component.construct o q.1 q.2 with
    | none => rw [hc] at h; simp at h
    | some o1 =>
      rw [hc] at h
      simp only [Option.some_bind] at h
      rcases List.mem_cons.mp hp with e | hp
      · rw [e]
        unfold Component.construct at hc
        split at hc
        · rename_i hr; exact hr
        · simp at hc
      · exact ih o1 o2 h p hp

/-! ## The list of children after `erase` -/

theorem erase_links (s : Store) (c child : Nat) (left right : Option Nat)
    (hne : child ≠ c) (hpar : s.parent child = some c)
    (hleft : (s.node child).prev_sibling = left) (hright : (s.node child).next_sibling = right)
    (hfc : (s.node c).first_child.isSome = true) (hlc : (s.node c).last_child.isSome = true)
    (hl : ∀ l, left = some l → l ≠ child ∧ l ≠ c)
    (hr : ∀ r, right = some r → r ≠ child ∧ r ≠ c ∧ left ≠ some r) :
    ∃ t, erase s c child = some (t, right) ∧
      (∀ x, (t.node x).next_sibling =
        if some x = left then right else if x = child then Option.none
        else (s.node x).next_sibling) ∧
      (t.node c).first_child = (if left = Option.none then right else (s.node c).first_child) ∧
      t.parent child = Option.none ∧ (t.node child).prev_sibling = Option.none ∧
      t.isLayoutDirty c = true ∧ t.size = s.size := by
  have hsh := sameShape_reflow s c
  have hd := reflow_dirty s c
  have hpar' : (s.node child).parent = some c := hpar
  have hcne : c ≠ child := fun e => hne e.symm
  have hcond : ((s.node child).parent == some c && (s.node c).first_child.isSome &&
      (s.node c).last_child.isSome &&
      (!(s.node child).next_sibling.isSome ||
        (s.node child).prev_sibling != (s.node child).next_sibling)) = true := by
    rw [hpar', hfc, hlc, hleft, hright]
    cases right with
    | none => simp
    | some r =>
      have := (hr r rfl).2.2
      simp [this]
  have hrl : ((reflow s c).node child).prev_sibling = left := by
    rw [(hsh.2 child).2.2.1]; exact hleft
  have hrr : ((reflow s c).node child).next_sibling = right := by
    rw [(hsh.2 child).2.1]; exact hright
  have hsome : (erase s c child).isSome = true := by
    unfold erase
    simp only [hcond, if_true]
    rfl
  obtain ⟨tr, ht⟩ := Option.isSome_iff_exists.mp hsome
  obtain ⟨t, r⟩ := tr
  obtain ⟨hsz, hpt, hft⟩ := erase_shape s t c child r ht
  have hdirty : t.isLayoutDirty c = true := by
    simp only [Store.isLayoutDirty, hft c]
    exact hd
  have hparent : t.parent child = Option.none := by
    simp only [Store.parent, hpt child, if_true]
  have ht0 := ht
  unfold erase at ht
  simp only [hcond, if_true, Option.some.injEq, Prod.mk.injEq] at ht
  obtain ⟨ht1, ht2⟩ := ht
  simp only [modify_node, if_true, hrl, hrr] at ht1 ht2
  refine ⟨t, by rw [ht0, ht2], ?_, ?_, hparent, ?_, hdirty, hsz⟩
  · intro x
    cases left with
    | none =>
      cases right with
      | none =>
        simp only at ht1
        rw [← ht1]
        by_cases hx : x = child
        · simp [modify_node, hx, hne, hrr]
        · by_cases hxc : x = c
          · simp [modify_node, hxc, hcne, (hsh.2 c).2.1]
          · simp [modify_node, hx, hxc, (hsh.2 x).2.1]
      | some r =>
        obtain ⟨hrch, hrc, _⟩ := hr r rfl
        simp only at ht1
        rw [← ht1]
        by_cases hx : x = child
        · simp [modify_node, hx, hne, Ne.symm hrch]
        · by_cases hxr : x = r
          · simp [modify_node, hxr, hrch, hrc, (hsh.2 r).2.1]
          · by_cases hxc : x = c
            · simp [modify_node, hxc, hcne, Ne.symm hrc, (hsh.2 c).2.1]
            · simp [modify_node, hx, hxr, hxc, (hsh.2 x).2.1]
    | some l =>
      obtain ⟨hlch, hlcc⟩ := hl l rfl
      cases right with
      | none =>
        simp only at ht1
        rw [← ht1]
        by_cases hx : x = child
        · simp [modify_node, hx, hne, Ne.symm hlch, hrr]
        · by_cases hxl : x = l
          · simp [modify_node, hxl, hlch, hlcc, (hsh.2 l).2.1]
          · by_cases hxc : x = c
            · simp [modify_node, hxc, hcne, Ne.symm hlcc, (hsh.2 c).2.1]
            · simp [modify_node, hx, hxl, hxc, (hsh.2 x).2.1]
      | some r =>
        obtain ⟨hrch, hrc, hlr⟩ := hr r rfl
        have hlr' : l ≠ r := fun e => hlr (by rw [e])
        simp only at ht1
        rw [← ht1]
        by_cases hx : x = child
        · simp [modify_node, hx, hne, Ne.symm hlch, Ne.symm hrch]
        · by_cases hxl : x = l
          · simp [modify_node, hxl, hlch, hlcc, hlr', (hsh.2 l).2.1]
          · by_cases hxr : x = r
            · simp [modify_node, hxr, hrch, hrc, Ne.symm hlr', (hsh.2 r).2.1]
            · by_cases hxc : x = c
              · simp [modify_node, hxc, hcne, Ne.symm hlcc, Ne.symm hrc, (hsh.2 c).2.1]
              · simp [modify_node, hx, hxl, hxr, hxc, (hsh.2 x).2.1]
  · cases left with
    | none =>
      cases right with
      | none =>
        simp only at ht1
        rw [← ht1]
        simp [modify_node, hcne]
      | some r =>
        obtain ⟨hrch, hrc, _⟩ := hr r rfl
        simp only at ht1
        rw [← ht1]
        simp [modify_node, hcne, Ne.symm hrc]
    | some l =>
      obtain ⟨hlch, hlcc⟩ := hl l rfl
      cases right with
      | none =>
        simp only at ht1
        rw [← ht1]
        simp [modify_node, hcne, Ne.symm hlcc, (hsh.2 c).2.2.2.1]
      | some r =>
        obtain ⟨hrch, hrc, hlr⟩ := hr r rfl
        simp only at ht1
        rw [← ht1]
        simp [modify_node, hcne, Ne.symm hlcc, Ne.symm hrc, (hsh.2 c).2.2.2.1]
  · cases left with
    | none =>
      cases right with
      | none =>
        simp only at ht1
        rw [← ht1]
        simp [modify_node, hne, hrl]
      | some r =>
        obtain ⟨hrch, hrc, _⟩ := hr r rfl
        simp only at ht1
        rw [← ht1]
        simp [modify_node, hne, Ne.symm hrch, hrl]
    | some l =>
      obtain ⟨hlch, hlcc⟩ := hl l rfl
      cases right with
      | none =>
        simp only at ht1
        rw [← ht1]
        simp [modify_node, hne, Ne.symm hlch]
      | some r =>
        obtain ⟨hrch, hrc, hlr⟩ := hr r rfl
        simp only at ht1
        rw [← ht1]
        simp [modify_node, hne, Ne.symm hlch, Ne.symm hrch]

theorem headOr_none (L : List Nat) : headOr L Option.none = L.head? := by
  cases L <;> rfl

theorem erase_between (s : Store) (c x : Nat) (A B : List Nat)
    (hL : childList s c (A ++ x :: B) = true) (hlen : (A ++ B).length ≤ s.size) :
    ∃ t, erase s c x = some (t, B.head?) ∧ children t c = A ++ B ∧
      t.parent x = Option.none ∧ (t.node x).next_sibling = Option.none ∧
      (t.node x).prev_sibling = Option.none ∧ t.isLayoutDirty c = true := by
  obtain ⟨hfc, hlc, hlink, hnd, hcL⟩ := childList_unfold hL
  have hpar := childList_parent hL x (by simp)
  have hndA : A.Nodup := (List.nodup_append.mp hnd).1
  have hxA : x ∉ A := fun h => (List.nodup_append.mp hnd).2.2 h (List.mem_cons_self _ _)
  have hndB : (x :: B).Nodup := (List.nodup_append.mp hnd).2.1
  have hxB : x ∉ B := (List.nodup_cons.mp hndB).1
  have hdisj : ∀ y, y ∈ A → y ∈ B → False := fun y ha hb =>
    (List.nodup_append.mp hnd).2.2 ha (List.mem_cons_of_mem _ hb)
  have hxc : x ≠ c := fun e => hcL (by rw [← e]; simp)
  obtain ⟨hnx, hpv⟩ := linkedFrom_split s A Option.none x B hlink
  have hpv' : (s.node x).prev_sibling = A.getLast? := by
    rw [hpv]; cases A.getLast? <;> rfl
  have hAmem : ∀ l, A.getLast? = some l → l ∈ A := fun l h => List.mem_of_getLast?_eq_some h
  obtain ⟨t, ht, hnext, hfirst, hp, hprev, hdirty, hsz⟩ := erase_links s c x A.getLast? B.head?
    hxc hpar hpv' hnx
    (by
      rw [hfc]
      cases A <;> rfl)
    (by
      rw [hlc]
      cases hg : (A ++ x :: B).getLast? with
      | none =>
        have : A ++ x :: B = [] := List.getLast?_eq_none_iff.mp hg
        simp at this
      | some _ => rfl)
    (by
      intro l hl
      have hlA := hAmem l hl
      exact ⟨fun e => hxA (by rw [← e]; exact hlA),
        fun e => hcL (by rw [← e]; exact List.mem_append_left _ hlA)⟩)
    (by
      intro r hr
      have hrB : r ∈ B := List.mem_of_mem_head? hr
      refine ⟨fun e => hxB (by rw [← e]; exact hrB), fun e => hcL ?_, fun e => ?_⟩
      · rw [← e]
        exact List.mem_append_right _ (List.mem_cons_of_mem _ hrB)
      · exact hdisj r (hAmem r e) hrB)
  refine ⟨t, ht, ?_, hp, ?_, hprev, hdirty⟩
  · have hs := nextLinked_of_linkedFrom s _ _ hlink
    rw [nextLinked_append] at hs
    obtain ⟨hsA, hsxB⟩ := hs
    have hsB : nextLinked s B Option.none := hsxB.2
    have htA : nextLinked t A (headOr B Option.none) := by
      apply nextLinked_relink s t _ _ A hsA hndA
      · intro y hy hyl
        rw [hnext y, if_neg hyl, if_neg]
        intro e; exact hxA (by rw [← e]; exact hy)
      · intro l hl
        rw [hnext l, if_pos hl.symm, headOr_none]
    have htB : nextLinked t B Option.none := by
      apply nextLinked_congr s t _ B _ hsB
      intro y hy
      rw [hnext y, if_neg, if_neg]
      · intro e; exact hxB (by rw [← e]; exact hy)
      · intro e; exact hdisj y (hAmem y e.symm) hy
    have hall : nextLinked t (A ++ B) Option.none := by
      rw [nextLinked_append]
      exact ⟨htA, htB⟩
    have hhead : (t.node c).first_child = (A ++ B).head? := by
      rw [hfirst]
      cases A with
      | nil => simp
      | cons a A' =>
        have : (a :: A').getLast? ≠ Option.none := by simp
        rw [if_neg this, hfc]; rfl
    unfold children
    rw [hhead]
    apply siblingList_of_nextLinked t _ _ hall
    rw [hsz]
    exact hlen
  · rw [hnext x, if_neg, if_pos rfl]
    intro e
    exact hxA (hAmem x e.symm)

/-! ## The range `traverse(node)` -/

theorem runs_nil (s : Store) (sk : Nat → Bool) (last cur : Accept) :
    Runs s sk last cur [] cur := by
  intro F
  simp

theorem runs_append {s : Store} {sk : Nat → Bool} {last a b c : Accept} {L1 L2 : List Accept}
    (h1 : Runs s sk last a L1 b) (h2 : Runs s sk last b L2 c) :
    Runs s sk last a (L1 ++ L2) c := by
  intro F
  have e : F + (L1 ++ L2).length = (F + L2.length) + L1.length := by
    simp only [List.length_append]; omega
  rw [e, h1 (F + L2.length), h2 F, Option.map_map]
  congr 1
  funext l
  simp

theorem runs_step (s : Store) (sk : Nat → Bool) (last cur : Accept) (i : Nat)
    (hs : cur.same last = false) (hi : cur.node = some i) :
    Runs s sk last cur [cur]
      (increment s i (if cur.state == AcceptState.Pre && sk i then AcceptState.Post
        else cur.state)) := by
  intro F
  simp only [List.length_singleton]
  rw [traverseLoop]
  simp only [hs, Bool.false_eq_true, if_false, hi, Accept.skip]
  rfl

theorem leaf_iff (s : Store) (m : Nat) (hm : m < s.size) :
    (s.isWidget m || (children s m).isEmpty) = true ↔ pre_or_leaf s m = AcceptState.Leaf := by
  unfold pre_or_leaf
  simp only [Store.isContainer, Store.isWidget]
  by_cases hw : (s.node m).flags.WidgetKind = true
  · simp [hw]
  · cases hf : (s.node m).first_child with
    | none => simp [children_of_no_first_child s m hf]
    | some c =>
      obtain ⟨rest, hr⟩ := children_of_first_child s m c hm hf
      simp [hr, hw]

theorem not_same_of_node {cur last : Accept} {x : Nat} (hx : cur.node = some x)
    (h : last.node ≠ some x) : cur.same last = false := by
  cases hs : cur.same last with
  | false => rfl
  | true =>
    have := same_node hs
    rw [hx] at this
    exact absurd this.symm h

theorem subtree_child {s : Store} (hwf : wfTree s = true) {m c x : Nat} (hc : c < s.size)
    (hx : x < s.size) (hp : s.parent c = some m) (h : x = c ∨ c ∈ parents s x) :
    x = m ∨ m ∈ parents s x := by
  have hwfl := wfTree_wfLinks hwf
  right
  have hpc : parents s c = m :: parents s m :=
    parents_of_parent s c m hp (wfLinks_at hwfl hc).2.2.2.2
  rcases h with e | hm
  · rw [e, hpc]; exact List.mem_cons_self _ _
  · exact parents_trans s x c m (wfLinks_at hwfl hx).2.2.2.2 hm
      (by rw [hpc]; exact List.mem_cons_self _ _)

theorem node_runs (s : Store) (sk : Nat → Bool) (last : Accept) (hwf : wfTree s = true) :
    ∀ (d m : Nat), m < s.size → s.size ≤ d + (parents s m).length →
      (∀ x, x < s.size → (x = m ∨ m ∈ parents s x) → last.node ≠ some x) →
      Runs s sk last { node := some m, state := pre_or_leaf s m } (specSeq s sk d m)
        (next_sibling_or_parent s m) := by
  have hwfl := wfTree_wfLinks hwf
  intro d
  induction d with
  | zero =>
    intro m hm hd _
    have := (wfLinks_at hwfl hm).2.2.2.2
    omega
  | succ d ih =>
    intro m hm hd hlast
    obtain ⟨_, _, hchild, _, hlen⟩ := wfLinks_at hwfl hm
    have hnl : ∀ st, ({ node := some m, state := st } : Accept).same last = false :=
      fun st => not_same_of_node rfl (hlast m hm (Or.inl rfl))
    cases hpl : pre_or_leaf s m with
    | Post => exact absurd hpl (pre_or_leaf_ne_post s m)
    | Leaf =>
      have hcond := (leaf_iff s m hm).mpr hpl
      have hstep := runs_step s sk last { node := some m, state := AcceptState.Leaf } m
        (hnl _) rfl
      simp only [show (AcceptState.Leaf == AcceptState.Pre) = false from rfl, Bool.false_and,
        Bool.false_eq_true, if_false] at hstep
      rw [leaf_increment s m hpl] at hstep
      simp only [specSeq, hcond, if_true]
      exact hstep
    | Pre =>
      have hcond : (s.isWidget m || (children s m).isEmpty) = false := by
        cases h : (s.isWidget m || (children s m).isEmpty) with
        | false => rfl
        | true => rw [(leaf_iff s m hm).mp h] at hpl; cases hpl
      have hstep := runs_step s sk last { node := some m, state := AcceptState.Pre } m
        (hnl _) rfl
      simp only [show (AcceptState.Pre == AcceptState.Pre) = true from rfl, Bool.true_and]
        at hstep
      by_cases hsk : sk m = true
      · simp only [hsk, if_true] at hstep
        simp only [specSeq, hcond, Bool.false_eq_true, if_false, hsk, if_true]
        have : increment s m AcceptState.Post = next_sibling_or_parent s m := by
          simp [increment]
        rw [this] at hstep
        exact hstep
      · simp only [hsk, Bool.false_eq_true, if_false] at hstep
        simp only [specSeq, hcond, Bool.false_eq_true, if_false, hsk]
        -- the first child
        unfold pre_or_leaf at hpl
        split at hpl
        · rename_i hc
          simp only [Bool.and_eq_true] at hc
          obtain ⟨c1, hfc⟩ := Option.isSome_iff_exists.mp hc.2
          have hinc : increment s m AcceptState.Pre =
              { node := some c1, state := pre_or_leaf s c1 } := by
            simp [increment, next_child, hc.1, hfc]
          rw [hinc] at hstep
          obtain ⟨rest, hrest⟩ := children_of_first_child s m c1 hm hfc
          obtain ⟨_, hclen, hcmem⟩ := wfTree_children hwf hm
          -- the children one after another
          have hsibs : ∀ (cs pre : List Nat) (c : Nat), children s m = pre ++ c :: cs →
              Runs s sk last { node := some c, state := pre_or_leaf s c }
                ((c :: cs).flatMap (specSeq s sk d)) { node := some m, state := AcceptState.Post } := by
            intro cs
            induction cs with
            | nil =>
              intro pre c hch
              obtain ⟨hcs, hcp⟩ := hcmem c (by rw [hch]; simp)
              have hpc : parents s c = m :: parents s m :=
                parents_of_parent s c m hcp (wfLinks_at hwfl hcs).2.2.2.2
              have hr := ih c hcs (by rw [hpc]; simp only [List.length_cons]; omega)
                (fun x hx hsub => hlast x hx (subtree_child hwf hcs hx hcp hsub))
              have hafter := siblingList_after s c [] pre s.size _ hch hclen
              have hnext : next_sibling_or_parent s c =
                  { node := some m, state := AcceptState.Post } := by
                unfold next_sibling_or_parent
                cases hn : (s.node c).next_sibling with
                | some n => rw [hn] at hafter; obtain ⟨_, h⟩ := hafter; cases h
                | none => simp only; rw [hcp]
              rw [hnext] at hr
              simpa using hr
            | cons c' cs' ihcs =>
              intro pre c hch
              obtain ⟨hcs, hcp⟩ := hcmem c (by rw [hch]; simp)
              have hpc : parents s c = m :: parents s m :=
                parents_of_parent s c m hcp (wfLinks_at hwfl hcs).2.2.2.2
              have hr := ih c hcs (by rw [hpc]; simp only [List.length_cons]; omega)
                (fun x hx hsub => hlast x hx (subtree_child hwf hcs hx hcp hsub))
              have hafter := siblingList_after s c (c' :: cs') pre s.size _ hch hclen
              have hnext : next_sibling_or_parent s c =
                  { node := some c', state := pre_or_leaf s c' } := by
                unfold next_sibling_or_parent
                cases hn : (s.node c).next_sibling with
                | some n =>
                  rw [hn] at hafter
                  obtain ⟨_, h⟩ := hafter
                  simp only [List.cons.injEq] at h
                  simp only [h.1]
                | none => rw [hn] at hafter; cases hafter
              rw [hnext] at hr
              have hrest := ihcs (pre ++ [c]) c' (by rw [hch]; simp)
              have := runs_append hr hrest
              simpa using this
          have hall := hsibs rest [] c1 (by simpa using hrest)
          rw [← hrest] at hall
          have hpost := runs_step s sk last { node := some m, state := AcceptState.Post } m
            (hnl _) rfl
          simp only [show (AcceptState.Post == AcceptState.Pre) = false from rfl, Bool.false_and,
            Bool.false_eq_true, if_false] at hpost
          have hincp : increment s m AcceptState.Post = next_sibling_or_parent s m := by
            simp [increment]
          rw [hincp] at hpost
          exact runs_append (runs_append hstep hall) hpost
        · simp at hpl

theorem accept_same_refl (a : Accept) : a.same a = true := by
  simp [Accept.same]

theorem flatMap_congr_mem {α β : Type} (f g : α → List β) :
    ∀ (l : List α), (∀ x ∈ l, f x = g x) → l.flatMap f = l.flatMap g
  | [], _ => rfl
  | a :: l, h => by
    simp only [List.flatMap_cons]
    rw [h a (List.mem_cons_self _ _),
      flatMap_congr_mem f g l (fun x hx => h x (List.mem_cons_of_mem _ hx))]

theorem specSeq_depth (s : Store) (sk : Nat → Bool) (hwf : wfTree s = true) :
    ∀ (d m : Nat), m < s.size → s.size ≤ d + (parents s m).length →
      specSeq s sk (d + 1) m = specSeq s sk d m := by
  have hwfl := wfTree_wfLinks hwf
  intro d
  induction d with
  | zero =>
    intro m hm hd
    have := (wfLinks_at hwfl hm).2.2.2.2
    omega
  | succ d ih =>
    intro m hm hd
    rw [specSeq, specSeq]
    have hc : (children s m).flatMap (specSeq s sk (d + 1)) =
        (children s m).flatMap (specSeq s sk d) := by
      apply flatMap_congr_mem
      intro c hcm
      obtain ⟨hcs, hcp⟩ := (wfTree_children hwf hm).2.2 c hcm
      have hpc : parents s c = m :: parents s m :=
        parents_of_parent s c m hcp (wfLinks_at hwfl hcs).2.2.2.2
      exact ih c hcs (by rw [hpc]; simp only [List.length_cons]; omega)
    rw [hc]

theorem specSeq_unfold (s : Store) (sk : Nat → Bool) (hwf : wfTree s = true) (m : Nat)
    (hm : m < s.size) :
    specSeq s sk s.size m =
      if s.isWidget m || (children s m).isEmpty then
        [{ node := some m, state := AcceptState.Leaf }]
      else if sk m then [{ node := some m, state := AcceptState.Pre }]
      else
        [{ node := some m, state := AcceptState.Pre }] ++
          (children s m).flatMap (specSeq s sk s.size) ++
          [{ node := some m, state := AcceptState.Post }] := by
  have hwfl := wfTree_wfLinks hwf
  obtain ⟨d, hd⟩ : ∃ d, s.size = d + 1 := ⟨s.size - 1, by omega⟩
  have hc : (children s m).flatMap (specSeq s sk (d + 1)) =
      (children s m).flatMap (specSeq s sk d) := by
    apply flatMap_congr_mem
    intro c hcm
    obtain ⟨hcs, hcp⟩ := (wfTree_children hwf hm).2.2 c hcm
    have hpc : parents s c = m :: parents s m :=
      parents_of_parent s c m hcp (wfLinks_at hwfl hcs).2.2.2.2
    exact specSeq_depth s sk hwf d c hcs (by rw [hpc]; simp only [List.length_cons]; omega)
  rw [hd, hc, specSeq]

theorem specSeq_subtree (s : Store) (sk : Nat → Bool) (hwf : wfTree s = true) :
    ∀ (d m : Nat), m < s.size → ∀ a ∈ specSeq s sk d m,
      ∃ x, a.node = some x ∧ x < s.size ∧ (x = m ∨ m ∈ parents s x) := by
  intro d
  induction d with
  | zero =>
    intro m _ a ha
    simp [specSeq] at ha
  | succ d ih =>
    intro m hm a ha
    rw [specSeq] at ha
    have hself : ∀ st, ∃ x, ({ node := some m, state := st } : Accept).node = some x ∧
        x < s.size ∧ (x = m ∨ m ∈ parents s x) := fun st => ⟨m, rfl, hm, Or.inl rfl⟩
    split at ha
    · rw [List.mem_singleton.mp ha]; exact hself _
    · split at ha
      · rw [List.mem_singleton.mp ha]; exact hself _
      · rcases List.mem_append.mp ha with h1 | h1
        · rcases List.mem_append.mp h1 with h2 | h2
          · rw [List.mem_singleton.mp h2]; exact hself _
          · obtain ⟨c, hcm, hac⟩ := List.mem_flatMap.mp h2
            obtain ⟨hcs, hcp⟩ := (wfTree_children hwf hm).2.2 c hcm
            obtain ⟨x, hx, hxs, hsub⟩ := ih c hcs a hac
            exact ⟨x, hx, hxs, subtree_child hwf hcs hxs hcp hsub⟩
        · rw [List.mem_singleton.mp h1]; exact hself _

/-- The loop over `traverse(n)` ends and yields the sequence of the
specification, with the skipped containers reduced to their pre visit. -/
theorem traverse_eq_specSeq (s : Store) (sk : Nat → Bool) (hwf : wfTree s = true) (n : Nat)
    (hn : n < s.size) (F : Nat) (hF : (specSeq s sk s.size n).length ≤ F) :
    traverse s sk F n = some (specSeq s sk s.size n) := by
  have hr := node_runs s sk (traverseEnd s n) hwf s.size n hn (by omega)
    (fun x hx hsub => traverseEnd_outside hwf hn x hsub)
  obtain ⟨k, hk⟩ : ∃ k, F = k + (specSeq s sk s.size n).length := ⟨F - (specSeq s sk s.size n).length, by omega⟩
  have h := hr k
  rw [← hk] at h
  unfold traverse traverseBegin
  rw [h]
  have hend : traverseLoop s sk (traverseEnd s n) k (next_sibling_or_parent s n) = some [] := by
    have : (next_sibling_or_parent s n).same (traverseEnd s n) = true := accept_same_refl _
    cases k with
    | zero => simp [traverseLoop, this]
    | succ k => simp [traverseLoop, this]
  rw [hend]
  simp

/-! ## The ranges `traverse(node, preorder)` and `visit(node)` -/

theorem climb_fuel (s : Store) (hwf : wfLinks s = true) :
    ∀ (f g i : Nat), i < s.size → (parents s i).length < f → (parents s i).length < g →
      next_sibling_or_parent_false s f i = next_sibling_or_parent_false s g i := by
  intro f
  induction f with
  | zero => intro g i _ h; omega
  | succ f ih =>
    intro g i hi hf hg
    cases g with
    | zero => omega
    | succ g =>
      rw [next_sibling_or_parent_false, next_sibling_or_parent_false]
      cases hn : (s.node i).next_sibling with
      | some n => rfl
      | none =>
        cases hp : s.parent i with
        | none => rfl
        | some p =>
          simp only
          obtain ⟨hpr, _, _, _, hlen⟩ := wfLinks_at hwf hi
          have hpi := parents_of_parent s i p hp hlen
          rw [hpi] at hf hg
          simp only [List.length_cons] at hf hg
          exact ih g p (hpr p hp) (by omega) (by omega)

theorem climb_isSome (s : Store) (hwf : wfLinks s = true) :
    ∀ (f i : Nat), i < s.size → (parents s i).length < f →
      (next_sibling_or_parent_false s f i).isSome = true := by
  intro f
  induction f with
  | zero => intro i _ h; omega
  | succ f ih =>
    intro i hi hf
    rw [next_sibling_or_parent_false]
    cases hn : (s.node i).next_sibling with
    | some n => rfl
    | none =>
      cases hp : s.parent i with
      | none => rfl
      | some p =>
        simp only
        obtain ⟨hpr, _, _, _, hlen⟩ := wfLinks_at hwf hi
        have hpi := parents_of_parent s i p hp hlen
        rw [hpi] at hf
        simp only [List.length_cons] at hf
        exact ih p (hpr p hp) (by omega)

theorem climb_shaped (s : Store) :
    ∀ (f i : Nat) (e : Accept), next_sibling_or_parent_false s f i = some e → e.preShaped := by
  intro f
  induction f with
  | zero => intro i e h; simp [next_sibling_or_parent_false] at h
  | succ f ih =>
    intro i e h
    rw [next_sibling_or_parent_false] at h
    cases hn : (s.node i).next_sibling with
    | some n =>
      rw [hn] at h
      simp only [Option.some.injEq] at h
      rw [← h]
      simp [Accept.preShaped, pre_or_leaf_ne_post]
    | none =>
      rw [hn] at h
      cases hp : s.parent i with
      | none =>
        rw [hp] at h
        simp only [Option.some.injEq] at h
        rw [← h]
        simp [Accept.preShaped]
      | some p =>
        rw [hp] at h
        exact ih p e h

theorem mem_parents_of_child {s : Store} (hwf : wfTree s = true) {m c x : Nat} (hc : c < s.size)
    (hx : x < s.size) (hp : s.parent c = some m) (h : x = c ∨ c ∈ parents s x) :
    m ∈ parents s x := by
  have hwfl := wfTree_wfLinks hwf
  have hpc : parents s c = m :: parents s m :=
    parents_of_parent s c m hp (wfLinks_at hwfl hc).2.2.2.2
  rcases h with e | hm
  · rw [e, hpc]; exact List.mem_cons_self _ _
  · exact parents_trans s x c m (wfLinks_at hwfl hx).2.2.2.2 hm
      (by rw [hpc]; exact List.mem_cons_self _ _)

theorem climb_outside (s : Store) (hwf : wfTree s = true) :
    ∀ (f i : Nat) (e : Accept), i < s.size → next_sibling_or_parent_false s f i = some e →
      ∀ x, x < s.size → (x = i ∨ i ∈ parents s x) → e.node ≠ some x := by
  have hwfl := wfTree_wfLinks hwf
  intro f
  induction f with
  | zero => intro i e _ h; simp [next_sibling_or_parent_false] at h
  | succ f ih =>
    intro i e hi h x hx hsub
    rw [next_sibling_or_parent_false] at h
    cases hn : (s.node i).next_sibling with
    | some n =>
      rw [hn] at h
      simp only [Option.some.injEq] at h
      have := traverseEnd_outside hwf hi x hsub
      unfold traverseEnd next_sibling_or_parent at this
      rw [hn] at this
      rw [← h]
      exact this
    | none =>
      rw [hn] at h
      cases hp : s.parent i with
      | none =>
        rw [hp] at h
        simp only [Option.some.injEq] at h
        rw [← h]
        simp
      | some p =>
        rw [hp] at h
        exact ih p e ((wfLinks_at hwfl hi).1 p hp) h x hx
          (Or.inr (mem_parents_of_child hwf hi hx hp hsub))

theorem climb_last_child (s : Store) (hwf : wfLinks s = true) (cf c m : Nat) (hc : c < s.size)
    (hcf : s.size ≤ cf) (hn : (s.node c).next_sibling = Option.none)
    (hp : s.parent c = some m) :
    next_sibling_or_parent_false s cf c = next_sibling_or_parent_false s cf m := by
  obtain ⟨hpr, _, _, _, hlen⟩ := wfLinks_at hwf hc
  have hpc := parents_of_parent s c m hp hlen
  have hlm : (parents s m).length + 1 < s.size := by
    rw [hpc] at hlen; simpa using hlen
  obtain ⟨k, hk⟩ : ∃ k, cf = k + 1 := ⟨cf - 1, by omega⟩
  rw [hk]
  conv_lhs => rw [next_sibling_or_parent_false]
  rw [hn, hp]
  exact climb_fuel s hwf k (k + 1) m (hpr m hp) (by omega) (by omega)

theorem vruns_nil (s : Store) (cf : Nat) (last cur : Option Nat) :
    VRuns s cf last cur [] cur := by
  intro F
  simp

theorem vruns_append {s : Store} {cf : Nat} {last a b c : Option Nat} {L1 L2 : List Nat}
    (h1 : VRuns s cf last a L1 b) (h2 : VRuns s cf last b L2 c) :
    VRuns s cf last a (L1 ++ L2) c := by
  intro F
  have e : F + (L1 ++ L2).length = (F + L2.length) + L1.length := by
    simp only [List.length_append]; omega
  rw [e, h1 (F + L2.length), h2 F, Option.map_map]
  congr 1
  funext l
  simp

theorem vruns_step (s : Store) (cf : Nat) (last : Option Nat) (i : Nat) (nx : Option Nat)
    (hl : last ≠ some i) (hinc : VisitIterator.increment s cf i = some nx) :
    VRuns s cf last (some i) [i] nx := by
  intro F
  simp only [List.length_singleton]
  rw [visitLoop]
  have : ¬ (some i = last) := fun e => hl e.symm
  simp only [this, if_false, hinc, Option.some_bind]
  rfl

theorem visit_runs (s : Store) (cf : Nat) (last : Option Nat) (hwf : wfTree s = true)
    (hcf : s.size ≤ cf) :
    ∀ (d m : Nat), m < s.size → s.size ≤ d + (parents s m).length →
      (∀ x, x < s.size → (x = m ∨ m ∈ parents s x) → last ≠ some x) →
      ∃ e, next_sibling_or_parent_false s cf m = some e ∧
        VRuns s cf last (some m) (preorder s d m) e.node := by
  have hwfl := wfTree_wfLinks hwf
  intro d
  induction d with
  | zero =>
    intro m hm hd _
    have := (wfLinks_at hwfl hm).2.2.2.2
    omega
  | succ d ih =>
    intro m hm hd hlast
    obtain ⟨_, _, hchild, _, hlen⟩ := wfLinks_at hwfl hm
    obtain ⟨e, he⟩ := Option.isSome_iff_exists.mp (climb_isSome s hwfl cf m hm (by omega))
    refine ⟨e, he, ?_⟩
    have hlm := hlast m hm (Or.inl rfl)
    cases hnc : next_child s m with
    | none =>
      have hinc : VisitIterator.increment s cf m = some e.node := by
        simp [VisitIterator.increment, hnc, he]
      have hpre : preorder s (d + 1) m = [m] := by
        rw [preorder]
        unfold next_child at hnc
        split
        · rename_i hcont
          rw [if_pos hcont] at hnc
          rw [children_of_no_first_child s m hnc]
          rfl
        · rfl
      rw [hpre]
      exact vruns_step s cf last m _ hlm hinc
    | some c1 =>
      have hinc : VisitIterator.increment s cf m = some (some c1) := by
        simp [VisitIterator.increment, hnc]
      unfold next_child at hnc
      have hcont : s.isContainer m = true := by
        cases h : s.isContainer m with
        | true => rfl
        | false => rw [h] at hnc; simp at hnc
      rw [if_pos hcont] at hnc
      have hpre : preorder s (d + 1) m = [m] ++ (children s m).flatMap (preorder s d) := by
        rw [preorder, if_pos hcont]; rfl
      rw [hpre]
      obtain ⟨rest, hrest⟩ := children_of_first_child s m c1 hm hnc
      obtain ⟨_, hclen, hcmem⟩ := wfTree_children hwf hm
      have hsibs : ∀ (cs pre : List Nat) (c : Nat), children s m = pre ++ c :: cs →
          VRuns s cf last (some c) ((c :: cs).flatMap (preorder s d)) e.node := by
        intro cs
        induction cs with
        | nil =>
          intro pre c hch
          obtain ⟨hcs, hcp⟩ := hcmem c (by rw [hch]; simp)
          have hpc : parents s c = m :: parents s m :=
            parents_of_parent s c m hcp (wfLinks_at hwfl hcs).2.2.2.2
          obtain ⟨e', he', hr⟩ := ih c hcs (by rw [hpc]; simp only [List.length_cons]; omega)
            (fun x hx hsub => hlast x hx (subtree_child hwf hcs hx hcp hsub))
          have hafter := siblingList_after s c [] pre s.size _ hch hclen
          have hnn : (s.node c).next_sibling = Option.none := by
            cases hn : (s.node c).next_sibling with
            | some n => rw [hn] at hafter; obtain ⟨_, h⟩ := hafter; cases h
            | none => rfl
          rw [climb_last_child s hwfl cf c m hcs hcf hnn hcp, he] at he'
          simp only [Option.some.injEq] at he'
          rw [← he'] at hr
          simpa using hr
        | cons c' cs' ihcs =>
          intro pre c hch
          obtain ⟨hcs, hcp⟩ := hcmem c (by rw [hch]; simp)
          have hpc : parents s c = m :: parents s m :=
            parents_of_parent s c m hcp (wfLinks_at hwfl hcs).2.2.2.2
          obtain ⟨e', he', hr⟩ := ih c hcs (by rw [hpc]; simp only [List.length_cons]; omega)
            (fun x hx hsub => hlast x hx (subtree_child hwf hcs hx hcp hsub))
          have hafter := siblingList_after s c (c' :: cs') pre s.size _ hch hclen
          have hnn : (s.node c).next_sibling = some c' := by
            cases hn : (s.node c).next_sibling with
            | some n =>
              rw [hn] at hafter
              obtain ⟨_, h⟩ := hafter
              simp only [List.cons.injEq] at h
              rw [h.1]
            | none => rw [hn] at hafter; cases hafter
          have hcf1 : ∃ k, cf = k + 1 := ⟨cf - 1, by omega⟩
          obtain ⟨k, hk⟩ := hcf1
          rw [hk, next_sibling_or_parent_false, hnn] at he'
          simp only [Option.some.injEq] at he'
          rw [← he'] at hr
          have hrest := ihcs (pre ++ [c]) c' (by rw [hch]; simp)
          have := vruns_append hr hrest
          simpa using this
      have hall := hsibs rest [] c1 (by simpa using hrest)
      rw [← hrest] at hall
      exact vruns_append (vruns_step s cf last m _ hlm hinc) hall

theorem same_of_shaped {a b : Accept} (ha : a.preShaped) (hb : b.preShaped) :
    a.same b = decide (a.node = b.node) := by
  unfold Accept.preShaped at ha hb
  unfold Accept.same Accept.isPre
  cases han : a.node with
  | none =>
    have hsa := ha.mp han
    cases hbn : b.node with
    | none => have hsb := hb.mp hbn; simp [hsa, hsb]
    | some y => simp
  | some x =>
    cases hbn : b.node with
    | none => simp
    | some y =>
      have hsa : a.state ≠ AcceptState.Post := fun h => by rw [ha.mpr h] at han; cases han
      have hsb : b.state ≠ AcceptState.Post := fun h => by rw [hb.mpr h] at hbn; cases hbn
      have h1 : (a.state != AcceptState.Post) = true := by simp [hsa]
      have h2 : (b.state != AcceptState.Post) = true := by simp [hsb]
      rw [h1, h2]
      by_cases hxy : x = y <;> simp [hxy]

theorem advance_visit (s : Store) (cf : Nat) (cur : Accept) (i : Nat) (hc : cur.preShaped)
    (hi : cur.node = some i) :
    (advance_accept s cf cur).map (fun a => a.node) = VisitIterator.increment s cf i ∧
    ∀ nx, advance_accept s cf cur = some nx → nx.preShaped := by
  have hpre : cur.isPre = true := by
    unfold Accept.isPre
    unfold Accept.preShaped at hc
    have : cur.state ≠ AcceptState.Post := fun h => by rw [hc.mpr h] at hi; cases hi
    simp [this]
  unfold advance_accept VisitIterator.increment
  rw [hi]
  simp only [hpre, if_true]
  cases hnc : next_child s i with
  | some c =>
    refine ⟨rfl, fun nx h => ?_⟩
    simp only [Option.some.injEq] at h
    rw [← h]
    simp [Accept.preShaped]
  | none => exact ⟨rfl, fun nx h => climb_shaped s cf i nx h⟩

theorem pre_eq_visit (s : Store) (cf : Nat) (last : Accept) (hl : last.preShaped) :
    ∀ (f : Nat) (cur : Accept), cur.preShaped →
      (preTraverseLoop s cf last f cur).map (fun l => l.map (fun a => a.node)) =
        (visitLoop s cf last.node f cur.node).map (fun l => l.map some) := by
  intro f
  induction f with
  | zero =>
    intro cur hc
    rw [preTraverseLoop, visitLoop, same_of_shaped hc hl]
    by_cases h : cur.node = last.node <;> simp [h]
  | succ f ih =>
    intro cur hc
    rw [preTraverseLoop, same_of_shaped hc hl]
    by_cases h : cur.node = last.node
    · rw [h]
      cases hln : last.node <;> simp [visitLoop]
    · simp only [h, decide_False, Bool.false_eq_true, if_false]
      cases hn : cur.node with
      | none =>
        rw [hn] at h
        simp [advance_accept, hn, visitLoop, h]
      | some i =>
        obtain ⟨h1, h2⟩ := advance_visit s cf cur i hc hn
        rw [hn] at h
        rw [visitLoop]
        simp only [h, if_false]
        rw [← h1]
        cases ha : advance_accept s cf cur with
        | none => simp
        | some nx =>
          simp only [Option.some_bind, Option.map_some', Option.map_map]
          have := ih nx (h2 nx ha)
          cases hp : preTraverseLoop s cf last f nx with
          | none =>
            rw [hp] at this
            simp only [Option.map_none'] at this
            cases hv : visitLoop s cf last.node f nx.node with
            | none => simp
            | some l => rw [hv] at this; simp at this
          | some l =>
            rw [hp] at this
            simp only [Option.map_some'] at this
            cases hv : visitLoop s cf last.node f nx.node with
            | none => rw [hv] at this; simp at this
            | some l' =>
              rw [hv] at this
              simp only [Option.map_some', Option.some.injEq] at this
              simp [this, hn]

theorem preorder_depth (s : Store) (hwf : wfTree s = true) :
    ∀ (d m : Nat), m < s.size → s.size ≤ d + (parents s m).length →
      preorder s (d + 1) m = preorder s d m := by
  have hwfl := wfTree_wfLinks hwf
  intro d
  induction d with
  | zero =>
    intro m hm hd
    have := (wfLinks_at hwfl hm).2.2.2.2
    omega
  | succ d ih =>
    intro m hm hd
    rw [preorder, preorder]
    have hc : (children s m).flatMap (preorder s (d + 1)) =
        (children s m).flatMap (preorder s d) := by
      apply flatMap_congr_mem
      intro c hcm
      obtain ⟨hcs, hcp⟩ := (wfTree_children hwf hm).2.2 c hcm
      have hpc : parents s c = m :: parents s m :=
        parents_of_parent s c m hcp (wfLinks_at hwfl hcs).2.2.2.2
      exact ih c hcs (by rw [hpc]; simp only [List.length_cons]; omega)
    rw [hc]

theorem preorder_unfold (s : Store) (hwf : wfTree s = true) (m : Nat) (hm : m < s.size) :
    preorder s s.size m =
      m :: (if s.isContainer m then (children s m).flatMap (preorder s s.size) else []) := by
  have hwfl := wfTree_wfLinks hwf
  obtain ⟨d, hd⟩ : ∃ d, s.size = d + 1 := ⟨s.size - 1, by omega⟩
  have hc : (children s m).flatMap (preorder s (d + 1)) =
      (children s m).flatMap (preorder s d) := by
    apply flatMap_congr_mem
    intro c hcm
    obtain ⟨hcs, hcp⟩ := (wfTree_children hwf hm).2.2 c hcm
    have hpc : parents s c = m :: parents s m :=
      parents_of_parent s c m hcp (wfLinks_at hwfl hcs).2.2.2.2
    exact preorder_depth s hwf d c hcs (by rw [hpc]; simp only [List.length_cons]; omega)
  rw [hd, hc, preorder]

theorem preorder_subtree (s : Store) (hwf : wfTree s = true) :
    ∀ (d m : Nat), m < s.size → ∀ x ∈ preorder s d m,
      x < s.size ∧ (x = m ∨ m ∈ parents s x) := by
  intro d
  induction d with
  | zero =>
    intro m _ x hx
    simp [preorder] at hx
  | succ d ih =>
    intro m hm x hx
    rw [preorder] at hx
    rcases List.mem_cons.mp hx with e | h1
    · exact ⟨e ▸ hm, Or.inl e⟩
    · split at h1
      · obtain ⟨c, hcm, hxc⟩ := List.mem_flatMap.mp h1
        obtain ⟨hcs, hcp⟩ := (wfTree_children hwf hm).2.2 c hcm
        obtain ⟨hxs, hsub⟩ := ih c hcs x hxc
        exact ⟨hxs, Or.inr (mem_parents_of_child hwf hcs hxs hcp hsub)⟩
      · simp at h1

theorem child_on_path (s : Store) (hwf : wfLinks s = true) :
    ∀ (k x : Nat), x < s.size → (parents s x).length = k → ∀ m, m ∈ parents s x →
      ∃ c, c < s.size ∧ s.parent c = some m ∧ (x = c ∨ c ∈ parents s x) := by
  intro k
  induction k using Nat.strong_induction_on with
  | _ k ih =>
    intro x hx hk m hm
    obtain ⟨hpr, _, _, _, hlen⟩ := wfLinks_at hwf hx
    cases hp : s.parent x with
    | none => rw [parents_of_root s x hp] at hm; simp at hm
    | some p =>
      have hpx := parents_of_parent s x p hp hlen
      rw [hpx] at hm
      rcases List.mem_cons.mp hm with e | h1
      · exact ⟨x, hx, by rw [hp, e], Or.inl rfl⟩
      · have hlt : (parents s p).length < k := by
          rw [hpx] at hk; simp only [List.length_cons] at hk; omega
        obtain ⟨c, hcs, hcp, hc⟩ := ih _ hlt p (hpr p hp) rfl m h1
        refine ⟨c, hcs, hcp, Or.inr ?_⟩
        rw [hpx]
        rcases hc with e | h2
        · rw [← e]; exact List.mem_cons_self _ _
        · exact List.mem_cons_of_mem _ h2

theorem subtree_preorder (s : Store) (hwf : wfTree s = true) :
    ∀ (d m : Nat), m < s.size → s.size ≤ d + (parents s m).length →
      ∀ x, x < s.size → (x = m ∨ m ∈ parents s x) → x ∈ preorder s d m := by
  have hwfl := wfTree_wfLinks hwf
  intro d
  induction d with
  | zero =>
    intro m hm hd
    have := (wfLinks_at hwfl hm).2.2.2.2
    omega
  | succ d ih =>
    intro m hm hd x hx hsub
    rw [preorder]
    rcases hsub with e | hmem
    · rw [e]; exact List.mem_cons_self _ _
    · obtain ⟨c, hcs, hcp, hc⟩ := child_on_path s hwfl _ x hx rfl m hmem
      obtain ⟨hcont, hcm⟩ := wfTree_child hwf hcs hcp
      have hpc : parents s c = m :: parents s m :=
        parents_of_parent s c m hcp (wfLinks_at hwfl hcs).2.2.2.2
      have := ih c hcs (by rw [hpc]; simp only [List.length_cons]; omega) x hx hc
      rw [if_pos hcont]
      exact List.mem_cons_of_mem _ (List.mem_flatMap.mpr ⟨c, hcm, this⟩)

theorem same_depth_subtrees (s : Store) (hwf : wfLinks s = true) (c c' x : Nat)
    (hx : x < s.size)
    (hd : (parents s c).length = (parents s c').length)
    (h : x = c ∨ c ∈ parents s x) (h' : x = c' ∨ c' ∈ parents s x) : c = c' := by
  have hlen := (wfLinks_at hwf hx).2.2.2.2
  rcases h with e | hm
  · rcases h' with e' | hm'
    · rw [← e, ← e']
    · obtain ⟨pre, hp⟩ := parents_suffix s x c' hlen hm'
      have := congrArg List.length hp
      rw [e] at this
      simp only [List.length_append, List.length_cons] at this
      omega
  · rcases h' with e' | hm'
    · obtain ⟨pre, hp⟩ := parents_suffix s x c hlen hm
      have := congrArg List.length hp
      rw [e'] at this
      simp only [List.length_append, List.length_cons] at this
      omega
    · obtain ⟨pre, hp⟩ := parents_suffix s x c hlen hm
      obtain ⟨pre', hp'⟩ := parents_suffix s x c' hlen hm'
      have hl : pre.length = pre'.length := by
        have h1 := congrArg List.length hp
        have h2 := congrArg List.length hp'
        simp only [List.length_append, List.length_cons] at h1 h2
        omega
      rw [hp] at hp'
      have := (List.append_inj hp' hl).2
      simp only [List.cons.injEq] at this
      exact this.1

theorem preorder_nodup (s : Store) (hwf : wfTree s = true) :
    ∀ (d m : Nat), m < s.size → (preorder s d m).Nodup := by
  have hwfl := wfTree_wfLinks hwf
  intro d
  induction d with
  | zero => intro m _; simp [preorder]
  | succ d ih =>
    intro m hm
    rw [preorder]
    obtain ⟨hnd, _, hcmem⟩ := wfTree_children hwf hm
    have hlen := (wfLinks_at hwfl hm).2.2.2.2
    split
    · rw [List.nodup_cons]
      constructor
      · intro hmem
        obtain ⟨c, hcm, hxc⟩ := List.mem_flatMap.mp hmem
        obtain ⟨hcs, hcp⟩ := hcmem c hcm
        obtain ⟨_, hsub⟩ := preorder_subtree s hwf d c hcs m hxc
        exact not_mem_parents_self s m hlen (mem_parents_of_child hwf hcs hm hcp hsub)
      · rw [List.nodup_flatMap]
        refine ⟨fun c hcm => ih c (hcmem c hcm).1, ?_⟩
        refine List.Pairwise.imp_of_mem ?_ hnd
        intro a b ha hb hab
        intro x hxa hxb
        obtain ⟨has, hap⟩ := hcmem a ha
        obtain ⟨hbs, hbp⟩ := hcmem b hb
        obtain ⟨hxs, hsa⟩ := preorder_subtree s hwf d a has x hxa
        obtain ⟨_, hsb⟩ := preorder_subtree s hwf d b hbs x hxb
        have hda : parents s a = m :: parents s m :=
          parents_of_parent s a m hap (wfLinks_at hwfl has).2.2.2.2
        have hdb : parents s b = m :: parents s m :=
          parents_of_parent s b m hbp (wfLinks_at hwfl hbs).2.2.2.2
        exact hab (same_depth_subtrees s hwfl a b x hxs (by rw [hda, hdb]) hsa hsb)
    · simp

/-- With enough fuel the loop over `visit(n)` yields the pre-order of the
subtree of `n`, and the loop over `traverse(n, preorder)` yields values that
designate the same nodes. -/
theorem visit_eq_preorder (s : Store) (hwf : wfTree s = true) (n : Nat) (hn : n < s.size)
    (F : Nat) (hF : s.size + (preorder s s.size n).length ≤ F) :
    visit s F n = some (preorder s s.size n) ∧
    ∃ L, traversePreorder s F n = some L ∧
      L.map (fun a => a.node) = (preorder s s.size n).map some := by
  have hwfl := wfTree_wfLinks hwf
  obtain ⟨e, he⟩ := Option.isSome_iff_exists.mp (climb_isSome s hwfl F n hn
    (by have := (wfLinks_at hwfl hn).2.2.2.2; omega))
  obtain ⟨e', he', hr⟩ := visit_runs s F e.node hwf (by omega) s.size n hn (by omega)
    (fun x hx hsub => climb_outside s hwf F n e hn he x hx hsub)
  rw [he] at he'
  simp only [Option.some.injEq] at he'
  rw [← he'] at hr
  obtain ⟨k, hk⟩ : ∃ k, F = k + (preorder s s.size n).length :=
    ⟨F - (preorder s s.size n).length, by omega⟩
  have h := hr k
  rw [← hk] at h
  have hend : visitLoop s F e.node k e.node = some [] := by
    cases k with
    | zero => simp [visitLoop]
    | succ k => simp [visitLoop]
  rw [hend] at h
  simp only [Option.map_some', List.append_nil] at h
  have hv : visit s F n = some (preorder s s.size n) := by
    unfold visit
    rw [he]
    exact h
  refine ⟨hv, ?_⟩
  have hshape : e.preShaped := climb_shaped s F n e he
  have hbeg : ({ node := some n, state := pre_or_leaf s n } : Accept).preShaped := by
    simp [Accept.preShaped, pre_or_leaf_ne_post]
  have hp := pre_eq_visit s F e hshape F _ hbeg
  simp only at hp
  rw [h] at hp
  unfold traversePreorder
  rw [he]
  simp only [Option.some_bind]
  cases hl : preTraverseLoop s F e F { node := some n, state := pre_or_leaf s n } with
  | none => rw [hl] at hp; simp at hp
  | some L =>
    rw [hl] at hp
    simp only [Option.map_some', Option.some.injEq] at hp
    exact ⟨L, rfl, hp⟩

/-! ## The loop of `layout` ends -/

theorem lsteps_trans {hooks : Hooks} {node : Nat} {last : Accept} {a b c : Store}
    {ca cb cc : Accept} {K1 K2 : Nat} (h1 : LSteps hooks node last a ca K1 b cb)
    (h2 : LSteps hooks node last b cb K2 c cc) :
    LSteps hooks node last a ca (K1 + K2) c cc := by
  intro F hF
  have e : F + (K1 + K2) = (F + K2) + K1 := by omega
  rw [e, h1 (F + K2) (by omega), h2 F hF]

theorem while_one (hooks : Hooks) (node : Nat) (t : Store) (i : Nat) (st : AcceptState)
    (r : LayoutStep) (h : layout_pass hooks node t i st = some r) (ha : r.again = false) (n : Nat) :
    layout_while hooks node (n + 2) t i st = some r := by
  rw [layout_while, h]
  simp [ha]

theorem while_two (hooks : Hooks) (node : Nat) (t : Store) (i : Nat) (st : AcceptState)
    (r q : LayoutStep) (h : layout_pass hooks node t i st = some r) (ha : r.again = true)
    (h2 : layout_pass hooks node r.store r.node r.state = some q) (hq : q.again = false)
    (n : Nat) :
    layout_while hooks node (n + 2) t i st = some q := by
  rw [layout_while, h]
  simp only [ha, if_true]
  rw [layout_while, h2]
  simp [hq]

theorem lsteps_iter (hooks : Hooks) (node : Nat) (last : Accept) (t : Store) (cur : Accept)
    (i : Nat) (r : LayoutStep) (hs : cur.same last = false) (hi : cur.node = some i)
    (hw : ∀ n, layout_while hooks node (n + 2) t i cur.state = some r) :
    LSteps hooks node last t cur 1 r.store (increment r.store r.node r.state) := by
  intro F hF
  obtain ⟨n, hn⟩ : ∃ n, F = n + 1 := ⟨F - 1, by omega⟩
  rw [hn]
  conv_lhs => rw [layout_loop]
  simp only [hs, Bool.false_eq_true, if_false, hi, hw n]

theorem reflowParents_dirty (l : List Nat) :
    ∀ (s : Store) (x : Nat), (reflowParents s l).isLayoutDirty x = s.isLayoutDirty x := by
  induction l with
  | nil => intro s x; rfl
  | cons b rest ih =>
    intro s x
    simp only [reflowParents]
    split
    · rfl
    · rw [ih]
      simp only [Store.isLayoutDirty, modifyFlags_flags]
      split
      · rename_i e; rw [e]
      · rfl

theorem reflow_dirty_ne (s : Store) (i x : Nat) (h : x ≠ i) :
    (reflow s i).isLayoutDirty x = s.isLayoutDirty x := by
  unfold reflow
  split
  · have : ((reflowParents s (parents s i)).modifyFlags i
        (fun f => { f with LayoutDirty := true })).isLayoutDirty x =
        (reflowParents s (parents s i)).isLayoutDirty x := by
      simp only [Store.isLayoutDirty, modifyFlags_flags, if_neg h]
    rw [this, reflowParents_dirty]
  · rfl

theorem reflow_dirty_mono (s : Store) (i x : Nat) (h : s.isLayoutDirty x = true) :
    (reflow s i).isLayoutDirty x = true := by
  by_cases e : x = i
  · rw [e]; exact reflow_dirty s i
  · rw [reflow_dirty_ne s i x e]; exact h

theorem setConstraints_dirty_ne (s : Store) (i x : Nat) (c : Vec2) (h : x ≠ i) :
    (setConstraints s i c).1.isLayoutDirty x = s.isLayoutDirty x := by
  unfold setConstraints
  split
  · simp only
    rw [reflow_dirty_ne _ i x h]
    simp only [Store.isLayoutDirty, modify_node, if_neg h]
  · rfl

theorem setConstraints_dirty_mono (s : Store) (i x : Nat) (c : Vec2)
    (h : s.isLayoutDirty x = true) : (setConstraints s i c).1.isLayoutDirty x = true := by
  by_cases e : x = i
  · unfold setConstraints
    split
    · rw [e]; exact reflow_dirty _ i
    · exact h
  · rw [setConstraints_dirty_ne s i x c e]; exact h

theorem clearLayoutDirty_dirty_ne (s : Store) (i x : Nat) (h : x ≠ i) :
    (clearLayoutDirty s i).isLayoutDirty x = s.isLayoutDirty x := by
  simp only [clearLayoutDirty, Store.isLayoutDirty, modifyFlags_flags, if_neg h]

theorem dirty_flagged {s : Store} {i : Nat} (h : s.isLayoutDirty i = true) :
    s.layoutFlagged i = true := by
  simp [Store.layoutFlagged, h]

/-- One pass of the loop `while (true)`: the shape is kept, `LayoutDirty` is
taken from no other node than the current one, and a `continue` puts the
iterator at the parent, which did not carry `LayoutDirty` and carries it
afterwards. -/
theorem pass_frame (hooks : Hooks) (node : Nat) (t : Store) (i : Nat) (st : AcceptState)
    (r : LayoutStep) (h : layout_pass hooks node t i st = some r) :
    SameShape t r.store ∧
    (∀ x, (x ≠ i ∨ st = AcceptState.Pre) → t.isLayoutDirty x = true →
      r.store.isLayoutDirty x = true) ∧
    ((r.again = false ∧ r.node = i ∧
        (r.state = st ∨ (st ≠ AcceptState.Post ∧ r.state = AcceptState.Post))) ∨
     (r.again = true ∧ st ≠ AcceptState.Pre ∧ r.state = AcceptState.Pre ∧
        (t.isContainer i = true → i ≠ node) ∧
        ∃ p, t.parent i = some p ∧ r.node = p ∧ (p ≠ i → t.isLayoutDirty p = false) ∧
          r.store.isLayoutDirty p = true)) := by
  obtain ⟨t1, ht1, hr⟩ := layout_pass_cases hooks node t i st r h
  have hsh1 : SameShape t t1 := by
    rcases ht1 with e | ⟨_, _, p, c, _, _, e⟩
    · rw [e]; exact SameShape.refl t
    · rw [e]; exact sameShape_setConstraints _ _ _
  have hm1 : ∀ x, t.isLayoutDirty x = true → t1.isLayoutDirty x = true := by
    intro x hx
    rcases ht1 with e | ⟨_, _, p, c, _, _, e⟩
    · rw [e]; exact hx
    · rw [e]; exact setConstraints_dirty_mono _ _ _ _ hx
  have he1 : ∀ x, x ≠ i → t1.isLayoutDirty x = t.isLayoutDirty x := by
    intro x hx
    rcases ht1 with e | ⟨_, _, p, c, _, _, e⟩
    · rw [e]
    · rw [e]; exact setConstraints_dirty_ne _ _ _ _ hx
  rcases hr with ⟨hst, _, e⟩ | ⟨hst, _, e⟩ | ⟨hst, _, t3, h3, e⟩ | ⟨hst, _, hc, t3, p, h3, hp, hpd, e⟩
  · rw [e]
    exact ⟨hsh1, fun x _ hx => hm1 x hx, Or.inl ⟨rfl, rfl, Or.inr ⟨hst, rfl⟩⟩⟩
  · rw [e]
    exact ⟨hsh1, fun x _ hx => hm1 x hx, Or.inl ⟨rfl, rfl, Or.inl hst.symm⟩⟩
  · rw [e]
    refine ⟨hsh1.trans ((sameShape_clearLayoutDirty t1 i).trans h3.1), ?_,
      Or.inl ⟨rfl, rfl, Or.inl rfl⟩⟩
    intro x hx hd
    rcases hx with hx | hx
    · rw [(h3.flagged x).2, clearLayoutDirty_dirty_ne _ _ _ hx]; exact hm1 x hd
    · exact absurd hx hst
  · rw [e]
    have hsh3 : SameShape t t3 := hsh1.trans ((sameShape_clearLayoutDirty t1 i).trans h3.1)
    refine ⟨hsh3.trans (sameShape_reflow t3 p), ?_, Or.inr ⟨rfl, hst, rfl, ?_, p, ?_, rfl, ?_,
      reflow_dirty t3 p⟩⟩
    · intro x hx hd
      rcases hx with hx | hx
      · apply reflow_dirty_mono
        rw [(h3.flagged x).2, clearLayoutDirty_dirty_ne _ _ _ hx]; exact hm1 x hd
      · exact absurd hx hst
    · intro hci
      apply hc
      rw [hsh1.isContainer]; exact hci
    · rw [← hsh3.parent]; exact hp
    · intro hpi
      rw [(h3.flagged p).2, clearLayoutDirty_dirty_ne _ _ _ hpi, he1 p hpi] at hpd
      exact hpd

/-- A pass at the pre visit of a node that carries `LayoutDirty` leaves the
loop `while (true)` with the iterator at the pre visit of that node. -/
theorem pass_pre_dirty (hooks : Hooks) (node : Nat) (t : Store) (i : Nat) (r : LayoutStep)
    (h : layout_pass hooks node t i AcceptState.Pre = some r)
    (hd : t.isLayoutDirty i = true) :
    r.again = false ∧ r.node = i ∧ r.state = AcceptState.Pre ∧
      r.store.isLayoutDirty i = true := by
  obtain ⟨t1, ht1, hr⟩ := layout_pass_cases hooks node t i AcceptState.Pre r h
  have hm1 : t1.isLayoutDirty i = true := by
    rcases ht1 with e | ⟨_, _, p, c, _, _, e⟩
    · rw [e]; exact hd
    · rw [e]; exact setConstraints_dirty_mono _ _ _ _ hd
  rcases hr with ⟨_, hf, _⟩ | ⟨_, _, e⟩ | ⟨hst, _⟩ | ⟨hst, _⟩
  · rw [dirty_flagged hm1] at hf; cases hf
  · rw [e]; exact ⟨rfl, rfl, rfl, hm1⟩
  · exact absurd rfl hst
  · exact absurd rfl hst

/-- A pass returns: no null parent is dereferenced at a node that is the
container `node` or has a parent. -/
theorem pass_isSome (hooks : Hooks) (node : Nat) (t : Store) (i : Nat) (st : AcceptState)
    (hi : (i = node ∧ t.isContainer node = true) ∨ ∃ p, t.parent i = some p) :
    ∃ r, layout_pass hooks node t i st = some r := by
  cases hr : layout_pass hooks node t i st with
  | some r => exact ⟨r, rfl⟩
  | none =>
    exfalso
    unfold layout_pass at hr
    simp only at hr
    split at hr
    · rename_i hpre
      split at hpre
      · split at hpre
        · rename_i hin
          split at hpre
          · split at hpre <;> simp at hpre
          · rename_i hnone
            rcases hi with ⟨e, _⟩ | ⟨p, hp⟩
            · exact hin e
            · rw [hp] at hnone; cases hnone
        · simp at hpre
      · simp at hpre
    · rename_i t1 ht1
      have hsh1 : SameShape t t1 := by
        split at ht1
        · split at ht1
          · split at ht1
            · split at ht1
              · simp only [Option.some.injEq] at ht1
                rw [← ht1]; exact sameShape_setConstraints _ _ _
              · simp only [Option.some.injEq] at ht1; rw [← ht1]; exact SameShape.refl t
            · simp at ht1
          · simp only [Option.some.injEq] at ht1; rw [← ht1]; exact SameShape.refl t
        · simp only [Option.some.injEq] at ht1; rw [← ht1]; exact SameShape.refl t
      split at hr
      · simp at hr
      · split at hr
        · split at hr
          · split at hr
            · rename_i hchanged
              split at hr
              · split at hr <;> simp at hr
              · rename_i hnone
                have hshe : SameShape t (layout_end hooks (clearLayoutDirty t1 i) node i).1 :=
                  hsh1.trans ((sameShape_clearLayoutDirty t1 i).trans
                    (sameLayout_layout_end hooks _ node i).1)
                rw [hshe.parent] at hnone
                rcases hi with ⟨e, hc⟩ | ⟨p, hp⟩
                · apply layout_end_changed hooks _ node i hchanged _ e
                  rw [(sameShape_clearLayoutDirty t1 i).isContainer, hsh1.isContainer, e]
                  exact hc
                · rw [hp] at hnone; cases hnone
            · simp at hr
          · simp at hr
        · simp at hr

theorem parent_of_sub {s0 : Store} (hwf : wfTree s0 = true) {node m : Nat} (hm : m < s0.size)
    (hsub : m = node ∨ node ∈ parents s0 m) (hne : m ≠ node) :
    ∃ p, s0.parent m = some p ∧ p < s0.size ∧ (p = node ∨ node ∈ parents s0 p) := by
  have hwfl := wfTree_wfLinks hwf
  obtain ⟨hpr, _, _, _, hlen⟩ := wfLinks_at hwfl hm
  rcases hsub with e | hmem
  · exact absurd e hne
  · cases hp : s0.parent m with
    | none => rw [parents_of_root s0 m hp] at hmem; simp at hmem
    | some p =>
      refine ⟨p, rfl, hpr p hp, ?_⟩
      rw [parents_of_parent s0 m p hp hlen] at hmem
      rcases List.mem_cons.mp hmem with e | h
      · exact Or.inl e.symm
      · exact Or.inr h

/-- One round of the loop `for` of `layout` at the visit of `m` in state `st`:
the iterator descends to the first child, or leaves `m` behind, or is put
back to the first child of the parent, which carries `LayoutDirty` then. -/
theorem layout_iter (hooks : Hooks) (s0 : Store) (node : Nat) (hwf : wfTree s0 = true)
    (hn : node < s0.size) (hcont : s0.isContainer node = true) (Inv Fin : Store → Prop)
    (hP : PassInv hooks s0 node Inv Fin) (m : Nat) (st : AcceptState) (t : Store)
    (hm : m < s0.size) (hsub : m = node ∨ node ∈ parents s0 m)
    (hst : st ≠ AcceptState.Post → st = pre_or_leaf s0 m) (hsh : SameShape s0 t)
    (hinv : Inv t) :
    ∃ u, SameShape s0 u ∧
      (∀ x, (x ≠ m ∨ st = AcceptState.Pre) → t.isLayoutDirty x = true →
        u.isLayoutDirty x = true) ∧
      ((st = AcceptState.Pre ∧ Inv u ∧
          LSteps hooks node (traverseEnd s0 node) t { node := some m, state := st } 1 u
            (increment s0 m AcceptState.Pre)) ∨
       ((m = node → Fin u) ∧ (m ≠ node → Inv u) ∧
          LSteps hooks node (traverseEnd s0 node) t { node := some m, state := st } 1 u
            (next_sibling_or_parent s0 m)) ∨
       (st ≠ AcceptState.Pre ∧ m ≠ node ∧ ∃ p, s0.parent m = some p ∧
          t.isLayoutDirty p = false ∧ u.isLayoutDirty p = true ∧ Inv u ∧
          LSteps hooks node (traverseEnd s0 node) t { node := some m, state := st } 1 u
            (increment s0 p AcceptState.Pre))) := by
  have hwfl := wfTree_wfLinks hwf
  have hnl : ({ node := some m, state := st } : Accept).same (traverseEnd s0 node) = false :=
    not_same_of_node rfl (traverseEnd_outside hwf hn m hsub)
  have hex : (m = node ∧ t.isContainer node = true) ∨ ∃ p, t.parent m = some p := by
    by_cases e : m = node
    · exact Or.inl ⟨e, by rw [hsh.isContainer]; exact hcont⟩
    · obtain ⟨p, hp, _⟩ := parent_of_sub hwf hm hsub e
      exact Or.inr ⟨p, by rw [hsh.parent]; exact hp⟩
  obtain ⟨r, hr⟩ := pass_isSome hooks node t m st hex
  obtain ⟨hshr, hfr, hcase⟩ := pass_frame hooks node t m st r hr
  have hshr0 : SameShape s0 r.store := hsh.trans hshr
  rcases hcase with ⟨hag, hnode, hstate⟩ | ⟨hag, hstne, hstate, hcne, p, hp, hnode, hpd, hpd'⟩
  · -- the loop `while (true)` is left after this pass
    have hsteps := lsteps_iter hooks node (traverseEnd s0 node) t { node := some m, state := st }
      m r hnl rfl (while_one hooks node t m st r hr hag)
    rw [hnode, hshr0.increment] at hsteps
    refine ⟨r.store, hshr0, hfr, ?_⟩
    by_cases hpre : r.state = AcceptState.Pre
    · left
      have hst' : st = AcceptState.Pre := by
        rcases hstate with e | ⟨_, e⟩
        · rw [← e]; exact hpre
        · rw [e] at hpre; cases hpre
      rw [hpre] at hsteps
      exact ⟨hst', hP.keep t m st r hsh hm hsub hst hinv hr (Or.inr hpre), hsteps⟩
    · right; left
      have hinc : increment s0 m r.state = next_sibling_or_parent s0 m := by
        cases hrs : r.state with
        | Pre => exact absurd hrs hpre
        | Post => simp [increment]
        | Leaf =>
          rcases hstate with e | ⟨_, e⟩
          · rw [hrs] at e
            have := hst (by rw [← e]; simp)
            rw [← e] at this
            exact leaf_increment s0 m this.symm
          · rw [hrs] at e; cases e
      rw [hinc] at hsteps
      refine ⟨fun e => ?_, fun e => hP.keep t m st r hsh hm hsub hst hinv hr (Or.inl e),
        hsteps⟩
      subst e
      exact hP.fin t st r hsh hst hinv hr hpre
  · -- `continue`: the next pass is the pre visit of the parent
    have hmne : m ≠ node := by
      by_cases hc : t.isContainer m = true
      · exact hcne hc
      · intro e
        rw [e, hsh.isContainer, hcont] at hc
        exact hc rfl
    obtain ⟨p', hp', hps, hpsub⟩ := parent_of_sub hwf hm hsub hmne
    have hpp : p = p' := by
      rw [hsh.parent, hp'] at hp
      exact (Option.some.inj hp).symm
    subst hpp
    have hpm : p ≠ m := parent_ne_self hwfl hm hp'
    have hex2 : (p = node ∧ r.store.isContainer node = true) ∨ ∃ q, r.store.parent p = some q := by
      by_cases e : p = node
      · exact Or.inl ⟨e, by rw [hshr0.isContainer]; exact hcont⟩
      · obtain ⟨q, hq, _⟩ := parent_of_sub hwf hps hpsub e
        exact Or.inr ⟨q, by rw [hshr0.parent]; exact hq⟩
    obtain ⟨q, hq⟩ := pass_isSome hooks node r.store p AcceptState.Pre hex2
    obtain ⟨hshq, hfq, _⟩ := pass_frame hooks node r.store p AcceptState.Pre q hq
    obtain ⟨hqa, hqn, hqs, hqd⟩ := pass_pre_dirty hooks node r.store p q hq hpd'
    have hr2 : layout_pass hooks node r.store r.node r.state = some q := by
      rw [hnode, hstate]; exact hq
    have hsteps := lsteps_iter hooks node (traverseEnd s0 node) t { node := some m, state := st }
      m q hnl rfl (while_two hooks node t m st r q hr hag hr2 hqa)
    have hshq0 : SameShape s0 q.store := hshr0.trans hshq
    rw [hqn, hqs, hshq0.increment] at hsteps
    have hinv1 : Inv r.store := hP.keep t m st r hsh hm hsub hst hinv hr (Or.inl hmne)
    have hinv2 : Inv q.store :=
      hP.keep r.store p AcceptState.Pre q hshr0 hps hpsub
        (fun _ => (pre_or_leaf_of_child hwf hm hp').symm) hinv1 hq (Or.inr hqs)
    refine ⟨q.store, hshq0, ?_, Or.inr (Or.inr ⟨hstne, hmne, p, hp', hpd hpm, hqd, hinv2,
      hsteps⟩)⟩
    intro x hx hd
    exact hfq x (Or.inr rfl) (hfr x hx hd)

theorem child_sub {s0 : Store} (hwf : wfTree s0 = true) {node m c : Nat} (hn : node < s0.size)
    (hc : c < s0.size) (hp : s0.parent c = some m) (hsub : m = node ∨ node ∈ parents s0 m) :
    c ≠ node ∧ node ∈ parents s0 c := by
  have hwfl := wfTree_wfLinks hwf
  have hpc : parents s0 c = m :: parents s0 m :=
    parents_of_parent s0 c m hp (wfLinks_at hwfl hc).2.2.2.2
  have hmem : node ∈ parents s0 c := by
    rw [hpc]
    rcases hsub with e | h
    · rw [e]; exact List.mem_cons_self _ _
    · exact List.mem_cons_of_mem _ h
  refine ⟨fun e => ?_, hmem⟩
  rw [e] at hmem
  exact not_mem_parents_self s0 node (wfLinks_at hwfl hn).2.2.2.2 hmem

theorem not_sub_of_parent {s0 : Store} (hwf : wfTree s0 = true) {m p : Nat} (hm : m < s0.size)
    (hps : p < s0.size) (hp : s0.parent m = some p) : ¬ (p = m ∨ m ∈ parents s0 p) := by
  have hwfl := wfTree_wfLinks hwf
  intro h
  rcases h with e | h
  · exact parent_ne_self hwfl hm hp e
  · have hpm : parents s0 m = p :: parents s0 p :=
      parents_of_parent s0 m p hp (wfLinks_at hwfl hm).2.2.2.2
    apply not_mem_parents_self s0 p (wfLinks_at hwfl hps).2.2.2.2
    exact parents_trans s0 p m p (wfLinks_at hwfl hps).2.2.2.2 h
      (by rw [hpm]; exact List.mem_cons_self _ _)

/-- The children of `m` from `c` on, one after another: the iterator arrives
at the post visit of `m`, or one of them puts it back to the first child with
`m` carrying `LayoutDirty`, which `m` did not carry before. -/
theorem layout_round (hooks : Hooks) (s0 : Store) (node : Nat) (hwf : wfTree s0 = true)
    (hn : node < s0.size) (Inv Fin : Store → Prop) (d m : Nat)
    (ih : ∀ (c : Nat) (t : Store), c < s0.size → (c = node ∨ node ∈ parents s0 c) →
      s0.size ≤ d + (parents s0 c).length → SameShape s0 t → Inv t →
      ∃ K u, LayoutOutcome hooks s0 node Inv Fin c t K u)
    (hm : m < s0.size) (hsub : m = node ∨ node ∈ parents s0 m)
    (hd : s0.size ≤ d + 1 + (parents s0 m).length) :
    ∀ (cs pre : List Nat) (c : Nat) (t : Store), children s0 m = pre ++ c :: cs →
      SameShape s0 t → Inv t →
      ∃ K u, SameShape s0 u ∧ Inv u ∧
        (∀ x, x < s0.size → m ∉ parents s0 x → t.isLayoutDirty x = true →
          u.isLayoutDirty x = true) ∧
        (LSteps hooks node (traverseEnd s0 node) t { node := some c, state := pre_or_leaf s0 c }
            K u { node := some m, state := AcceptState.Post } ∨
         (t.isLayoutDirty m = false ∧ u.isLayoutDirty m = true ∧
          LSteps hooks node (traverseEnd s0 node) t
            { node := some c, state := pre_or_leaf s0 c } K u
            (increment s0 m AcceptState.Pre))) := by
  have hwfl := wfTree_wfLinks hwf
  obtain ⟨_, hclen, hcmem⟩ := wfTree_children hwf hm
  intro cs
  induction cs with
  | nil =>
    intro pre c t hch hsh hinv
    obtain ⟨hcs, hcp⟩ := hcmem c (by rw [hch]; simp)
    have hpc : parents s0 c = m :: parents s0 m :=
      parents_of_parent s0 c m hcp (wfLinks_at hwfl hcs).2.2.2.2
    obtain ⟨hcne, hcsub⟩ := child_sub hwf hn hcs hcp hsub
    obtain ⟨K, u, hshu, hfr, hout⟩ := ih c t hcs (Or.inr hcsub)
      (by rw [hpc]; simp only [List.length_cons]; omega) hsh hinv
    have hframe : ∀ x, x < s0.size → m ∉ parents s0 x → t.isLayoutDirty x = true →
        u.isLayoutDirty x = true := fun x hx hnm hd' =>
      hfr x hx (fun h => hnm (mem_parents_of_child hwf hcs hx hcp h)) hd'
    have hafter := siblingList_after s0 c [] pre s0.size _ hch hclen
    have hnext : next_sibling_or_parent s0 c =
        { node := some m, state := AcceptState.Post } := by
      unfold next_sibling_or_parent
      cases hnx : (s0.node c).next_sibling with
      | some n => rw [hnx] at hafter; obtain ⟨_, h⟩ := hafter; cases h
      | none => simp only; rw [hcp]
    rcases hout with ⟨hst, _, hi⟩ | ⟨p, hp, _, hpd, hpd', hi, hst⟩
    · rw [hnext] at hst
      exact ⟨K, u, hshu, hi hcne, hframe, Or.inl hst⟩
    · rw [hcp] at hp
      have e : m = p := Option.some.inj hp
      subst e
      exact ⟨K, u, hshu, hi, hframe, Or.inr ⟨hpd, hpd', hst⟩⟩
  | cons c' cs' ihcs =>
    intro pre c t hch hsh hinv
    obtain ⟨hcs, hcp⟩ := hcmem c (by rw [hch]; simp)
    have hpc : parents s0 c = m :: parents s0 m :=
      parents_of_parent s0 c m hcp (wfLinks_at hwfl hcs).2.2.2.2
    obtain ⟨hcne, hcsub⟩ := child_sub hwf hn hcs hcp hsub
    obtain ⟨K, u, hshu, hfr, hout⟩ := ih c t hcs (Or.inr hcsub)
      (by rw [hpc]; simp only [List.length_cons]; omega) hsh hinv
    have hframe : ∀ x, x < s0.size → m ∉ parents s0 x → t.isLayoutDirty x = true →
        u.isLayoutDirty x = true := fun x hx hnm hd' =>
      hfr x hx (fun h => hnm (mem_parents_of_child hwf hcs hx hcp h)) hd'
    have hafter := siblingList_after s0 c (c' :: cs') pre s0.size _ hch hclen
    have hnext : next_sibling_or_parent s0 c =
        { node := some c', state := pre_or_leaf s0 c' } := by
      unfold next_sibling_or_parent
      cases hnx : (s0.node c).next_sibling with
      | some n =>
        rw [hnx] at hafter
        obtain ⟨_, h⟩ := hafter
        simp only [List.cons.injEq] at h
        simp only [h.1]
      | none => rw [hnx] at hafter; cases hafter
    have hmself : m ∉ parents s0 m := not_mem_parents_self s0 m (wfLinks_at hwfl hm).2.2.2.2
    rcases hout with ⟨hst, _, hi⟩ | ⟨p, hp, _, hpd, hpd', hi, hst⟩
    · rw [hnext] at hst
      obtain ⟨K2, u2, hsh2, hinv2, hfr2, hout2⟩ :=
        ihcs (pre ++ [c]) c' u (by rw [hch]; simp) hshu (hi hcne)
      refine ⟨K + K2, u2, hsh2, hinv2, fun x hx hnm hd' => hfr2 x hx hnm (hframe x hx hnm hd'),
        ?_⟩
      rcases hout2 with h2 | ⟨hd2, hd2', h2⟩
      · exact Or.inl (lsteps_trans hst h2)
      · right
        refine ⟨?_, hd2', lsteps_trans hst h2⟩
        cases htd : t.isLayoutDirty m with
        | false => rfl
        | true => rw [hframe m hm hmself htd] at hd2; cases hd2
    · rw [hcp] at hp
      have e : m = p := Option.some.inj hp
      subst e
      exact ⟨K, u, hshu, hi, hframe, Or.inr ⟨hpd, hpd', hst⟩⟩

/-- From the first visit of a node of the subtree of `node`, the loop of
`layout(node)` leaves the subtree of that node behind or is put back to the
first child of its parent, in finitely many rounds. -/
theorem layout_process (hooks : Hooks) (s0 : Store) (node : Nat) (hwf : wfTree s0 = true)
    (hn : node < s0.size) (hcont : s0.isContainer node = true) (Inv Fin : Store → Prop)
    (hP : PassInv hooks s0 node Inv Fin) :
    ∀ (d m : Nat) (t : Store), m < s0.size → (m = node ∨ node ∈ parents s0 m) →
      s0.size ≤ d + (parents s0 m).length → SameShape s0 t → Inv t →
      ∃ K u, LayoutOutcome hooks s0 node Inv Fin m t K u := by
  have hwfl := wfTree_wfLinks hwf
  intro d
  induction d with
  | zero =>
    intro m t hm _ hd
    have := (wfLinks_at hwfl hm).2.2.2.2
    omega
  | succ d ih =>
    intro m t hm hsub hd hsh hinv
    -- the visit that ends the subtree of `m`, in state `Post` or `Leaf`
    have finish : ∀ (st : AcceptState) (K : Nat) (u : Store), st ≠ AcceptState.Pre →
        (st ≠ AcceptState.Post → st = pre_or_leaf s0 m) → SameShape s0 u → Inv u →
        (∀ x, x < s0.size → ¬ (x = m ∨ m ∈ parents s0 x) → t.isLayoutDirty x = true →
          u.isLayoutDirty x = true) →
        LSteps hooks node (traverseEnd s0 node) t
          { node := some m, state := pre_or_leaf s0 m } K u { node := some m, state := st } →
        ∃ K' u', LayoutOutcome hooks s0 node Inv Fin m t K' u' := by
      intro st K u hstne hst hshu hinvu hfru hsteps
      obtain ⟨v, hshv, hfrv, hcase⟩ := layout_iter hooks s0 node hwf hn hcont Inv Fin hP m st u
        hm hsub hst hshu hinvu
      have hfr : ∀ x, x < s0.size → ¬ (x = m ∨ m ∈ parents s0 x) →
          t.isLayoutDirty x = true → v.isLayoutDirty x = true := fun x hx hnx hd' =>
        hfrv x (Or.inl (fun e => hnx (Or.inl e))) (hfru x hx hnx hd')
      rcases hcase with ⟨e, _⟩ | ⟨hfin, hi, h1⟩ | ⟨_, hmne, p, hp, hpd, hpd', hi, h1⟩
      · exact absurd e hstne
      · exact ⟨K + 1, v, hshv, hfr, Or.inl ⟨lsteps_trans hsteps h1, hfin, hi⟩⟩
      · refine ⟨K + 1, v, hshv, hfr, Or.inr ⟨p, hp, hmne, ?_, hpd', hi, lsteps_trans hsteps h1⟩⟩
        obtain ⟨p', hp', hps, _⟩ := parent_of_sub hwf hm hsub hmne
        rw [hp] at hp'
        have e : p = p' := Option.some.inj hp'
        subst e
        cases htd : t.isLayoutDirty p with
        | false => rfl
        | true =>
          rw [hfru p hps (not_sub_of_parent hwf hm hps hp) htd] at hpd
          cases hpd
    have hnil : LSteps hooks node (traverseEnd s0 node) t
        { node := some m, state := pre_or_leaf s0 m } 0 t
        { node := some m, state := pre_or_leaf s0 m } := fun F _ => rfl
    cases hpl : pre_or_leaf s0 m with
    | Post => exact absurd hpl (pre_or_leaf_ne_post s0 m)
    | Leaf =>
      rw [hpl] at hnil
      have := finish AcceptState.Leaf 0 t (by simp) (fun _ => hpl.symm) hsh hinv
        (fun x _ _ h => h)
      rw [hpl] at this
      exact this hnil
    | Pre =>
      obtain ⟨u1, hsh1, hfr1, hcase⟩ := layout_iter hooks s0 node hwf hn hcont Inv Fin hP m
        AcceptState.Pre t hm hsub (fun _ => hpl.symm) hsh hinv
      rcases hcase with ⟨_, hinv1, h1⟩ | ⟨hfin, hi, h1⟩ | ⟨hne, _⟩
      · -- the children
        have hcm : s0.isContainer m = true ∧ ∃ c1, (s0.node m).first_child = some c1 := by
          unfold pre_or_leaf at hpl
          split at hpl
          · rename_i hc
            simp only [Bool.and_eq_true] at hc
            exact ⟨hc.1, Option.isSome_iff_exists.mp hc.2⟩
          · cases hpl
        obtain ⟨hmc, c1, hfc⟩ := hcm
        have hinc : increment s0 m AcceptState.Pre =
            { node := some c1, state := pre_or_leaf s0 c1 } := by
          simp [increment, next_child, hmc, hfc]
        rw [hinc] at h1
        obtain ⟨rest, hrest⟩ := children_of_first_child s0 m c1 hm hfc
        have hround := layout_round hooks s0 node hwf hn Inv Fin d m
          (fun c t' hc hcs hcd hct hci => ih c t' hc hcs hcd hct hci) hm hsub (by omega)
          rest [] c1
        have hout : ∀ (K : Nat) (u : Store), SameShape s0 u → Inv u →
            (∀ x, x < s0.size → ¬ (x = m ∨ m ∈ parents s0 x) → t.isLayoutDirty x = true →
              u.isLayoutDirty x = true) →
            LSteps hooks node (traverseEnd s0 node) t { node := some m, state := pre_or_leaf s0 m }
              K u { node := some m, state := AcceptState.Post } →
            ∃ K' u', LayoutOutcome hooks s0 node Inv Fin m t K' u' :=
          fun K u hshu hinvu hfru hs =>
            finish AcceptState.Post K u (by simp) (fun h => absurd rfl h) hshu hinvu hfru hs
        rw [hpl] at hout
        obtain ⟨K2, u2, hsh2, hinv2, hfr2, hout2⟩ := hround u1 (by simpa using hrest) hsh1 hinv1
        have hfr12 : ∀ x, x < s0.size → ¬ (x = m ∨ m ∈ parents s0 x) →
            t.isLayoutDirty x = true → u2.isLayoutDirty x = true := fun x hx hnx hd' =>
          hfr2 x hx (fun h => hnx (Or.inr h)) (hfr1 x (Or.inr rfl) hd')
        rcases hout2 with h2 | ⟨_, hd2, h2⟩
        · have := hout (1 + K2) u2 hsh2 hinv2 hfr12 (lsteps_trans h1 h2)
          exact this
        · rw [hinc] at h2
          obtain ⟨K3, u3, hsh3, hinv3, hfr3, hout3⟩ :=
            hround u2 (by simpa using hrest) hsh2 hinv2
          have hfr13 : ∀ x, x < s0.size → ¬ (x = m ∨ m ∈ parents s0 x) →
              t.isLayoutDirty x = true → u3.isLayoutDirty x = true := fun x hx hnx hd' =>
            hfr3 x hx (fun h => hnx (Or.inr h)) (hfr12 x hx hnx hd')
          rcases hout3 with h3 | ⟨hd3, _⟩
          · have := hout (1 + K2 + K3) u3 hsh3 hinv3 hfr13
              (lsteps_trans (lsteps_trans h1 h2) h3)
            exact this
          · rw [hd2] at hd3; cases hd3
      · -- skipped at the pre visit
        refine ⟨1, u1, hsh1, fun x _ hnx hd' => hfr1 x (Or.inr rfl) hd', Or.inl ⟨?_, hfin, hi⟩⟩
        rw [hpl]; exact h1
      · exact absurd rfl hne

/-- The loop of `layout(node)` ends: from the first visit of `node` it
reaches the end iterator in finitely many rounds, with `Fin`. -/
theorem layout_loop_ends (hooks : Hooks) (s0 : Store) (node : Nat) (hwf : wfTree s0 = true)
    (hn : node < s0.size) (hcont : s0.isContainer node = true) (Inv Fin : Store → Prop)
    (hP : PassInv hooks s0 node Inv Fin) (t : Store) (hsh : SameShape s0 t) (hinv : Inv t) :
    ∃ K u, SameShape s0 u ∧ Fin u ∧ ∀ F, K < F →
      layout_loop hooks node (traverseEnd s0 node) F t (traverseBegin s0 node) = some u := by
  obtain ⟨K, u, hshu, _, hout⟩ := layout_process hooks s0 node hwf hn hcont Inv Fin hP s0.size
    node t hn (Or.inl rfl) (by omega) hsh hinv
  rcases hout with ⟨hst, hfin, _⟩ | ⟨p, _, hne, _⟩
  · refine ⟨K, u, hshu, hfin rfl, fun F hF => ?_⟩
    obtain ⟨k, hk⟩ : ∃ k, F = k + K := ⟨F - K, by omega⟩
    rw [hk]
    unfold traverseBegin
    rw [hst k (by omega)]
    have hs : (next_sibling_or_parent s0 node).same (traverseEnd s0 node) = true :=
      same_self _
    cases k with
    | zero => omega
    | succ k => simp [layout_loop, hs]
  · exact absurd rfl hne

theorem layout_init_shape (hooks : Hooks) (surface : Surface) (s : Store) (node : Nat) :
    SameShape s (layout_init hooks surface s node).1 ∧
    ((layout_init hooks surface s node).2 = true → s.isContainer node = true) := by
  have key : ∀ X : Store, SameShape s X →
      SameShape s (if X.isWidget node then
          (clearLayoutDirty
            (if !X.isAttached node then (setSize X node (X.node node).constraints).1
             else (setSize X node (hooks.preferredSize X node)).1) node, false)
        else (X, true)).1 ∧
      ((if X.isWidget node then
          (clearLayoutDirty
            (if !X.isAttached node then (setSize X node (X.node node).constraints).1
             else (setSize X node (hooks.preferredSize X node)).1) node, false)
        else (X, true)).2 = true → s.isContainer node = true) := by
    intro X hX
    by_cases hw : X.isWidget node = true
    · simp only [hw, if_true]
      refine ⟨?_, fun h => by cases h⟩
      split
      · exact hX.trans ((sameShape_setSize _ _ _).trans (sameShape_clearLayoutDirty _ _))
      · exact hX.trans ((sameShape_setSize _ _ _).trans (sameShape_clearLayoutDirty _ _))
    · simp only [hw, if_false, Bool.false_eq_true]
      refine ⟨hX, fun _ => ?_⟩
      rw [hX.isWidget] at hw
      simp only [Store.isContainer, Store.isWidget] at hw ⊢
      simpa using hw
  unfold layout_init
  simp only
  by_cases hch : surface.changed = true
  · rw [if_pos hch]
    exact key _ ((sameShape_reset s node).trans (sameShape_setConstraints _ _ _))
  · rw [if_neg hch]
    by_cases hat : (!s.isAttached node) = true
    · rw [if_pos hat]
      exact key _ (sameShape_setConstraints _ _ _)
    · rw [if_neg hat]
      exact key _ (SameShape.refl s)

/-- The function `layout(node, surface)` returns on every forest, whatever the
three overridable functions compute: there is an iteration budget from which
on the loops end, and the resulting tree does not depend on the budget. -/
theorem layout_returns (hooks : Hooks) (surface : Surface) (s : Store) (node : Nat)
    (hwf : wfTree s = true) (hn : node < s.size) :
    ∃ u F0, SameShape s u ∧ ∀ F, F0 ≤ F → layout hooks F surface s node = some u := by
  obtain ⟨hsh, hc⟩ := layout_init_shape hooks surface s node
  by_cases h2 : (layout_init hooks surface s node).2 = true
  · by_cases hfl : (!(layout_init hooks surface s node).1.isLayoutDirty node &&
        !(layout_init hooks surface s node).1.isChildLayoutDirty node) = true
    · refine ⟨_, 0, hsh, fun F _ => ?_⟩
      unfold layout
      simp only [h2, Bool.not_true, Bool.false_eq_true, if_false, hfl, if_true]
    · obtain ⟨K, u, hshu, _, hu⟩ := layout_loop_ends hooks s node hwf hn (hc h2)
        (fun _ => True) (fun _ => True)
        { keep := fun _ _ _ _ _ _ _ _ _ _ _ => trivial,
          fin := fun _ _ _ _ _ _ _ _ => trivial }
        (layout_init hooks surface s node).1 hsh trivial
      refine ⟨u, K + 1, hshu, fun F hF => ?_⟩
      unfold layout
      simp only [h2, Bool.not_true, Bool.false_eq_true, if_false, hfl]
      rw [hsh.traverseEnd, hsh.traverseBegin]
      exact hu F (by omega)
  · refine ⟨_, 0, hsh, fun F _ => ?_⟩
    simp only [Bool.not_eq_true] at h2
    simp [layout, h2]

theorem layout_while_count_fst (hooks : Hooks) (node : Nat) :
    ∀ (fuel : Nat) (s : Store) (i : Nat) (st : AcceptState),
      (layout_while_count hooks node fuel s i st).map (fun q => q.1) =
        layout_while hooks node fuel s i st := by
  intro fuel
  induction fuel with
  | zero => intro s i st; rfl
  | succ k ih =>
    intro s i st
    rw [layout_while_count, layout_while]
    cases layout_pass hooks node s i st with
    | none => rfl
    | some r =>
      simp only
      split
      · rw [Option.map_map, ← ih]
        rfl
      · rfl

theorem layout_loop_count_fst (hooks : Hooks) (node : Nat) (last : Accept) :
    ∀ (fuel : Nat) (s : Store) (cur : Accept),
      (layout_loop_count hooks node last fuel s cur).map (fun q => q.1) =
        layout_loop hooks node last fuel s cur := by
  intro fuel
  induction fuel with
  | zero =>
    intro s cur
    rw [layout_loop_count, layout_loop]
    split <;> rfl
  | succ k ih =>
    intro s cur
    rw [layout_loop_count, layout_loop]
    split
    · rfl
    · cases cur.node with
      | none => rfl
      | some i =>
        simp only
        rw [← layout_while_count_fst]
        cases layout_while_count hooks node (k + 1) s i cur.state with
        | none => rfl
        | some q =>
          simp only [Option.map_some']
          rw [Option.map_map, ← ih]
          rfl

/-- The count of the re-evaluations is a ghost value: `layout_count` computes
the tree that `layout` computes. -/
theorem layout_count_fst (hooks : Hooks) (fuel : Nat) (surface : Surface) (s : Store)
    (node : Nat) :
    (layout_count hooks fuel surface s node).map (fun q => q.1) =
      layout hooks fuel surface s node := by
  unfold layout_count layout
  simp only
  split
  · rfl
  · split
    · rfl
    · exact layout_loop_count_fst hooks node _ fuel _ _

/-! ## The size of the root after `layout` -/

theorem setSize_area_ne (s : Store) (i j : Nat) (v : Vec2) (h : j ≠ i) :
    ((setSize s i v).1.node j).area = (s.node j).area := by
  unfold setSize
  split
  · rw [(sameData_repaint_repositioned _ i j).1, modify_node, if_neg h]
  · rfl

theorem layout_end_area_ne (hooks : Hooks) (s : Store) (node current j : Nat)
    (h : j ≠ current) :
    ((layout_end hooks s node current).1.node j).area = (s.node j).area := by
  unfold layout_end
  split
  · split
    · exact setSize_area_ne _ _ _ _ h
    · exact setSize_area_ne _ _ _ _ h
  · exact setSize_area_ne _ _ _ _ h

/-- A pass of the loop `while (true)` at the node `i` leaves the area and the
constraints of every other node as they are. -/
theorem layout_pass_area_ne (hooks : Hooks) (node : Nat) (s : Store) (i : Nat)
    (st : AcceptState) (r : LayoutStep) (hr : layout_pass hooks node s i st = some r)
    (x : Nat) (hx : x ≠ i) :
    (r.store.node x).area = (s.node x).area ∧
      (r.store.node x).constraints = (s.node x).constraints := by
  unfold layout_pass at hr
  simp only at hr
  have hpre : ∀ s1 : Store,
      (if st != AcceptState.Post then
        if i ≠ node then
          match s.parent i with
          | some p =>
            if s.isLayoutDirty p then
              some (setConstraints s i (hooks.onLayoutConstrain s p i)).1
            else some s
          | Option.none => Option.none
        else some s
      else some s) = some s1 →
      (s1.node x).area = (s.node x).area ∧
        (s1.node x).constraints = (s.node x).constraints := by
    intro s1 h1
    split at h1
    · split at h1
      · split at h1
        · split at h1
          · simp only [Option.some.injEq] at h1
            rw [← h1]
            exact ⟨setConstraints_area _ _ _ _, setConstraints_constraints_ne _ _ _ _ hx⟩
          · simp only [Option.some.injEq] at h1; rw [← h1]; exact ⟨rfl, rfl⟩
        · simp at h1
      · simp only [Option.some.injEq] at h1; rw [← h1]; exact ⟨rfl, rfl⟩
    · simp only [Option.some.injEq] at h1; rw [← h1]; exact ⟨rfl, rfl⟩
  split at hr
  · simp at hr
  · rename_i s1 hs1
    have h1 := hpre s1 hs1
    have h2 : ((clearLayoutDirty s1 i).node x).area = (s.node x).area ∧
        ((clearLayoutDirty s1 i).node x).constraints = (s.node x).constraints := by
      rw [(sameData_clearLayoutDirty s1 i x).1, (sameData_clearLayoutDirty s1 i x).2]
      exact h1
    have h3 : ((layout_end hooks (clearLayoutDirty s1 i) node i).1.node x).area
          = (s.node x).area ∧
        ((layout_end hooks (clearLayoutDirty s1 i) node i).1.node x).constraints
          = (s.node x).constraints := by
      rw [layout_end_constraints, layout_end_area_ne _ _ _ _ _ hx]; exact h2
    split at hr
    · simp only [Option.some.injEq] at hr; rw [← hr]; exact h1
    · split at hr
      · split at hr
        · split at hr
          · split at hr
            · split at hr
              · simp only [Option.some.injEq] at hr; rw [← hr]
                simp only
                rw [(sameData_reflow _ _ x).1, (sameData_reflow _ _ x).2]; exact h3
              · simp only [Option.some.injEq] at hr; rw [← hr]; exact h3
            · simp at hr
          · simp only [Option.some.injEq] at hr; rw [← hr]; exact h3
        · simp only [Option.some.injEq] at hr; rw [← hr]; exact h2
      · simp only [Option.some.injEq] at hr; rw [← hr]; exact h1

/-- The pass that ends the visit of the container `node`, which carries
`LayoutDirty`: the flags are cleared and `node` takes the size of its
constraints. -/
theorem layout_pass_root_post (hooks : Hooks) (node : Nat) (t : Store) (st : AcceptState)
    (hc : t.isContainer node = true) (hd : t.isLayoutDirty node = true)
    (hst : st ≠ AcceptState.Pre) :
    layout_pass hooks node t node st =
      some { store := (setSize (clearLayoutDirty t node) node (t.node node).constraints).1,
             node := node, state := st, again := false } := by
  have hc' : (clearLayoutDirty t node).isContainer node = true := by
    rw [(sameShape_clearLayoutDirty t node).isContainer]; exact hc
  have hk : ((clearLayoutDirty t node).node node).constraints = (t.node node).constraints :=
    (sameData_clearLayoutDirty t node node).2
  cases st with
  | Pre => exact absurd rfl hst
  | Post => simp [layout_pass, layout_end, hd, hc', hk]
  | Leaf => simp [layout_pass, layout_end, hd, hc', hk]

theorem rootDirty_passInv (hooks : Hooks) (s0 : Store) (node : Nat)
    (hcont : s0.isContainer node = true) (a0 : Rect) (c0 : Vec2) :
    PassInv hooks s0 node
      (fun t => t.isLayoutDirty node = true ∧ (t.node node).area = a0 ∧
        (t.node node).constraints = c0)
      (fun t => (t.node node).area = (if a0.size ≠ c0 then a0.resize c0 else a0) ∧
        (t.node node).constraints = c0) := by
  constructor
  · intro t i st r hsh _ _ _ hinv hr hcase
    obtain ⟨hd, ha, hc⟩ := hinv
    by_cases e : i = node
    · subst e
      have hrs : r.state = AcceptState.Pre := by
        rcases hcase with h | h
        · exact absurd rfl h
        · exact h
      obtain ⟨t1, ht1, hcs⟩ := layout_pass_cases hooks i t i st r hr
      have e1 : t1 = t := by
        rcases ht1 with e | ⟨_, hne, _⟩
        · exact e
        · exact absurd rfl hne
      rcases hcs with ⟨_, _, e⟩ | ⟨_, _, e⟩ | ⟨hst, _, t3, _, e⟩ | ⟨_, _, hcn, _⟩
      · rw [e] at hrs; cases hrs
      · rw [e, e1]; exact ⟨hd, ha, hc⟩
      · rw [e] at hrs; exact absurd hrs hst
      · exfalso
        apply hcn _ rfl
        rw [e1, hsh.isContainer]; exact hcont
    · obtain ⟨_, hfr, _⟩ := pass_frame hooks node t i st r hr
      obtain ⟨h1, h2⟩ := layout_pass_area_ne hooks node t i st r hr node (fun h => e h.symm)
      exact ⟨hfr node (Or.inl (fun h => e h.symm)) hd, h1.trans ha, h2.trans hc⟩
  · intro t st r hsh _ hinv hr hrs
    obtain ⟨hd, ha, hc⟩ := hinv
    have hst : st ≠ AcceptState.Pre := by
      intro e
      rw [e] at hr
      exact hrs (pass_pre_dirty hooks node t node r hr hd).2.2.1
    have hct : t.isContainer node = true := by rw [hsh.isContainer]; exact hcont
    rw [layout_pass_root_post hooks node t st hct hd hst] at hr
    simp only [Option.some.injEq] at hr
    rw [← hr]
    simp only
    rw [setSize_area, setSize_constraints, (sameData_clearLayoutDirty t node node).1,
      (sameData_clearLayoutDirty t node node).2, ha, hc]
    exact ⟨rfl, rfl⟩

theorem layout_init_dirty (hooks : Hooks) (surface : Surface) (s : Store) (node : Nat)
    (hw : s.isWidget node = false) (x : Nat) (hd : s.isLayoutDirty x = true) :
    (layout_init hooks surface s node).1.isLayoutDirty x = true := by
  have key : ∀ X : Store, SameShape s X → X.isLayoutDirty x = true →
      (if X.isWidget node then
          (clearLayoutDirty
            (if !X.isAttached node then (setSize X node (X.node node).constraints).1
             else (setSize X node (hooks.preferredSize X node)).1) node, false)
        else (X, true)).1.isLayoutDirty x = true := by
    intro X hX hx
    have : X.isWidget node = false := by rw [hX.isWidget]; exact hw
    simp only [this, Bool.false_eq_true, if_false]
    exact hx
  have hreset : (reset s node).isLayoutDirty x = true := by
    unfold reset
    rw [((sameLayout_repaint_all _ node).flagged x).2]
    exact reflow_dirty_mono s node x hd
  unfold layout_init
  simp only
  by_cases hch : surface.changed = true
  · rw [if_pos hch]
    exact key _ ((sameShape_reset s node).trans (sameShape_setConstraints _ _ _))
      (setConstraints_dirty_mono _ _ _ _ hreset)
  · rw [if_neg hch]
    by_cases hat : (!s.isAttached node) = true
    · rw [if_pos hat]
      exact key _ (sameShape_setConstraints _ _ _) (setConstraints_dirty_mono _ _ _ _ hd)
    · rw [if_neg hat]
      exact key _ (SameShape.refl s) hd

/-- The root after `layout`: its constraints are the resolution of the
surface, and its area is resized to the resolution unless it has that size. -/
theorem layout_root_area (hooks : Hooks) (surface : Surface) (s : Store) (node : Nat)
    (hwf : wfTree s = true) (hn : node < s.size) (hroot : s.parent node = Option.none)
    (hd : s.isWidget node = true ∨ s.isLayoutDirty node = true) :
    ∃ u F0, (∀ F, F0 ≤ F → layout hooks F surface s node = some u) ∧
      (u.node node).constraints = surface.resolution ∧
      (u.node node).area =
        if (s.node node).area.size ≠ surface.resolution then
          (s.node node).area.resize surface.resolution
        else (s.node node).area := by
  by_cases hw : s.isWidget node = true
  · obtain ⟨u, F0, _, hu⟩ := layout_returns hooks surface s node hwf hn
    obtain ⟨_, _, hc, ha⟩ := layout_root_state hooks F0 surface s u node hwf hn hroot
      (hu F0 (Nat.le_refl _))
    exact ⟨u, F0, hu, hc, ha hw⟩
  · have hw' : s.isWidget node = false := by simpa using hw
    have hdirty : s.isLayoutDirty node = true := by
      rcases hd with h | h
      · exact absurd h hw
      · exact h
    have hcont : s.isContainer node = true := by
      simp only [Store.isContainer, Store.isWidget] at hw' ⊢
      simp [hw']
    obtain ⟨X, hsh, hc, ha, hinit, _⟩ := layout_init_root hooks surface s node hroot
    have hXw : X.isWidget node = false := by rw [hsh.isWidget]; exact hw'
    rw [hXw] at hinit
    simp only [Bool.false_eq_true, if_false] at hinit
    have hXd : X.isLayoutDirty node = true := by
      have := layout_init_dirty hooks surface s node hw' node hdirty
      rw [hinit] at this
      exact this
    obtain ⟨K, u, _, hfin, hu⟩ := layout_loop_ends hooks s node hwf hn hcont _ _
      (rootDirty_passInv hooks s node hcont (s.node node).area surface.resolution) X hsh
      ⟨hXd, ha, hc⟩
    refine ⟨u, K + 1, fun F hF => ?_, hfin.2, hfin.1⟩
    unfold layout
    simp only [hinit, Bool.not_true, Bool.false_eq_true, if_false, hXd, Bool.false_and]
    rw [hsh.traverseEnd, hsh.traverseBegin]
    exact hu F (by omega)

/-! ## The layout of a tree whose nodes all carry `LayoutDirty` -/

theorem siblingList_congr (s t : Store)
    (h : ∀ j, (t.node j).next_sibling = (s.node j).next_sibling) :
    ∀ (f : Nat) (x : Option Nat), siblingList t f x = siblingList s f x := by
  intro f
  induction f with
  | zero => intro x; rfl
  | succ k ih =>
    intro x
    cases x with
    | none => rfl
    | some c => simp only [siblingList]; rw [h c, ih]

theorem SameShape.children {s t : Store} (h : SameShape s t) (c : Nat) :
    children t c = children s c := by
  unfold Cui.children
  rw [h.1, (h.2 c).2.2.2.1]
  exact siblingList_congr s t (fun j => (h.2 j).2.1) _ _

theorem foldl_congr_mem {α β : Type} (f g : β → α → β) :
    ∀ (l : List α) (b : β), (∀ a ∈ l, ∀ b, f b a = g b a) → l.foldl f b = l.foldl g b
  | [], _, _ => rfl
  | a :: l, b, h => by
    simp only [List.foldl_cons]
    rw [h a (List.mem_cons_self _ _) b]
    exact foldl_congr_mem f g l _ (fun a' ha' => h a' (List.mem_cons_of_mem _ ha'))

theorem onLayoutEnd_congr (s u : Store) (c : Nat) (hch : children u c = children s c)
    (ha : ∀ y ∈ children s c, (u.node y).area = (s.node y).area)
    (hc : (u.node c).constraints = (s.node c).constraints) :
    Container.onLayoutEnd u c = Container.onLayoutEnd s c := by
  unfold Container.onLayoutEnd
  simp only
  rw [hch, hc]
  congr 1
  apply foldl_congr_mem
  intro y hy b
  rw [ha y hy]

theorem pass_pre_root (hooks : Hooks) (node : Nat) (t : Store)
    (hd : t.isLayoutDirty node = true) :
    layout_pass hooks node t node AcceptState.Pre =
      some { store := t, node := node, state := AcceptState.Pre, again := false } := by
  simp [layout_pass, hd]

theorem pass_pre_child (hooks : Hooks) (node : Nat) (t : Store) (m p : Nat) (hne : m ≠ node)
    (hp : t.parent m = some p) (hpd : t.isLayoutDirty p = true)
    (hd : t.isLayoutDirty m = true) :
    layout_pass hooks node t m AcceptState.Pre =
      some { store := (setConstraints t m (hooks.onLayoutConstrain t p m)).1, node := m,
             state := AcceptState.Pre, again := false } := by
  have hd1 := setConstraints_dirty_mono t m m (hooks.onLayoutConstrain t p m) hd
  simp [layout_pass, hne, hp, hpd, hd1]

/-- The pass that ends the visit of a node other than `node` that carries
`LayoutDirty`, as does its parent: the constraints are taken from the parent
at a leaf, the flags are cleared, `layout_end` sets the size, and the loop
`while (true)` is left. -/
theorem pass_post_child (hooks : Hooks) (node : Nat) (t : Store) (m p : Nat)
    (st : AcceptState) (hst : st ≠ AcceptState.Pre) (hne : m ≠ node) (hpm : p ≠ m)
    (hp : t.parent m = some p) (hpd : t.isLayoutDirty p = true)
    (hd : t.isLayoutDirty m = true) :
    layout_pass hooks node t m st =
      some { store := (layout_end hooks (clearLayoutDirty
                (if st = AcceptState.Post then t
                 else (setConstraints t m (hooks.onLayoutConstrain t p m)).1) m) node m).1,
             node := m, state := st, again := false } := by
  have key : ∀ t1 : Store, SameShape t t1 → t1.isLayoutDirty p = true →
      (layout_end hooks (clearLayoutDirty t1 m) node m).1.parent m = some p ∧
      (layout_end hooks (clearLayoutDirty t1 m) node m).1.isLayoutDirty p = true := by
    intro t1 hsh hd1
    have hl := sameLayout_layout_end hooks (clearLayoutDirty t1 m) node m
    constructor
    · rw [hl.1.parent, (sameShape_clearLayoutDirty t1 m).parent, hsh.parent]; exact hp
    · rw [(hl.flagged p).2, clearLayoutDirty_dirty_ne _ _ _ hpm]; exact hd1
  cases st with
  | Pre => exact absurd rfl hst
  | Post =>
    obtain ⟨h1, h2⟩ := key t (SameShape.refl t) hpd
    simp [layout_pass, hd, h1, h2]
  | Leaf =>
    obtain ⟨h1, h2⟩ := key _ (sameShape_setConstraints t m (hooks.onLayoutConstrain t p m))
      (setConstraints_dirty_mono t m p _ hpd)
    have hd1 := setConstraints_dirty_mono t m m (hooks.onLayoutConstrain t p m) hd
    simp [layout_pass, hne, hp, hpd, hd1, h1, h2]

theorem lsteps_pass (hooks : Hooks) (s0 : Store) (node : Nat) (hwf : wfTree s0 = true)
    (hn : node < s0.size) (t : Store) (m : Nat) (st : AcceptState) (X : Store)
    (hsub : m = node ∨ node ∈ parents s0 m) (hshX : SameShape s0 X)
    (hr : layout_pass hooks node t m st =
      some { store := X, node := m, state := st, again := false }) :
    LSteps hooks node (traverseEnd s0 node) t { node := some m, state := st } 1 X
      (increment s0 m st) := by
  have hnl : ({ node := some m, state := st } : Accept).same (traverseEnd s0 node) = false :=
    not_same_of_node rfl (traverseEnd_outside hwf hn m hsub)
  have h := lsteps_iter hooks node (traverseEnd s0 node) t { node := some m, state := st }
    m _ hnl rfl (while_one hooks node t m st _ hr rfl)
  simp only at h
  rw [hshX.increment] at h
  exact h

/-- The tree after the pass that ends the visit of `m`, a node other than
`node`: only `m` changes, its area is given the size that `layout_end`
computes. -/
theorem post_store_data (pref : Nat → Vec2) (node : Nat) (t1 : Store) (m : Nat)
    (hne : m ≠ node) :
    SameShape t1 (layout_end (prefHooks pref) (clearLayoutDirty t1 m) node m).1 ∧
    (∀ x, ((layout_end (prefHooks pref) (clearLayoutDirty t1 m) node m).1.node x).constraints =
      (t1.node x).constraints) ∧
    (∀ x, x ≠ m → ((layout_end (prefHooks pref) (clearLayoutDirty t1 m) node m).1.node x).area =
      (t1.node x).area) ∧
    (∀ x, x ≠ m → t1.isLayoutDirty x = true →
      (layout_end (prefHooks pref) (clearLayoutDirty t1 m) node m).1.isLayoutDirty x = true) ∧
    ((layout_end (prefHooks pref) (clearLayoutDirty t1 m) node m).1.node m).area =
      (t1.node m).area.sized
        (if t1.isWidget m then pref m
         else Container.onLayoutEnd (clearLayoutDirty t1 m) m) := by
  have hl := sameLayout_layout_end (prefHooks pref) (clearLayoutDirty t1 m) node m
  refine ⟨(sameShape_clearLayoutDirty t1 m).trans hl.1, fun x => ?_, fun x hx => ?_,
    fun x hx hd => ?_, ?_⟩
  · rw [layout_end_constraints, (sameData_clearLayoutDirty t1 m x).2]
  · rw [layout_end_area_ne _ _ _ _ _ hx, (sameData_clearLayoutDirty t1 m x).1]
  · rw [(hl.flagged x).2, clearLayoutDirty_dirty_ne _ _ _ hx]; exact hd
  · have hk : (clearLayoutDirty t1 m).isContainer m = !t1.isWidget m := by
      rw [(sameShape_clearLayoutDirty t1 m).isContainer]; rfl
    unfold layout_end
    rw [hk]
    cases hw : t1.isWidget m with
    | true =>
      simp only [Bool.not_true, Bool.false_eq_true, if_false, if_true]
      rw [setSize_area, (sameData_clearLayoutDirty t1 m m).1]
      rfl
    | false =>
      simp only [Bool.not_false, if_true, Bool.false_eq_true, if_false, hne, ne_eq,
        not_false_eq_true]
      rw [setSize_area, (sameData_clearLayoutDirty t1 m m).1]
      rfl

theorem finalAt_congr (pref : Nat → Vec2) (s0 : Store) (a : Rect) (v u : Store) (x : Nat)
    (h : FinalAt pref s0 a v x) (hshv : SameShape s0 v) (hshu : SameShape s0 u)
    (hxa : (u.node x).area = (v.node x).area)
    (hxc : (u.node x).constraints = (v.node x).constraints)
    (hp : ∀ p, s0.parent x = some p → (u.node p).constraints = (v.node p).constraints)
    (hch : ∀ y ∈ children s0 x, (u.node y).area = (v.node y).area) :
    FinalAt pref s0 a u x := by
  obtain ⟨⟨p, hpar, hc⟩, ha⟩ := h
  refine ⟨⟨p, hpar, by rw [hxc, hp p hpar]; exact hc⟩, ?_⟩
  rw [hxa, ha]
  have : Container.onLayoutEnd u x = Container.onLayoutEnd v x := by
    apply onLayoutEnd_congr
    · rw [hshu.children, hshv.children]
    · intro y hy
      rw [hshv.children] at hy
      exact hch y hy
    · exact hxc
  rw [this]

theorem under_cons (s0 : Store) (c : Nat) (cs : List Nat) (x : Nat) :
    Under s0 (c :: cs) x ↔ (x = c ∨ c ∈ parents s0 x) ∨ Under s0 cs x := by
  simp [Under]

theorem under_nil (s0 : Store) (x : Nat) : ¬ Under s0 [] x := by
  simp [Under]

theorem under_children {s0 : Store} (hwf : wfTree s0 = true) {m x : Nat} (hm : m < s0.size)
    (hx : x < s0.size) : Under s0 (children s0 m) x ↔ m ∈ parents s0 x := by
  constructor
  · rintro ⟨c, hc, h⟩
    obtain ⟨hcs, hcp⟩ := (wfTree_children hwf hm).2.2 c hc
    exact mem_parents_of_child hwf hcs hx hcp h
  · intro h
    obtain ⟨c, hcs, hcp, hc⟩ := child_on_path s0 (wfTree_wfLinks hwf) _ x hx rfl m h
    exact ⟨c, (wfTree_child hwf hcs hcp).2, hc⟩

theorem sub_ne_node {s0 : Store} (hwf : wfTree s0 = true) {node c x : Nat}
    (hn : node < s0.size) (hcn : c ≠ node) (hc : node ∈ parents s0 c)
    (h : x = c ∨ c ∈ parents s0 x) : x ≠ node := by
  intro e
  rw [e] at h
  rcases h with e' | h
  · exact hcn e'.symm
  · have hlen := (wfLinks_at (wfTree_wfLinks hwf) hn).2.2.2.2
    exact not_mem_parents_self s0 node hlen (parents_trans s0 node c node hlen h hc)

/-- The children of `m` from `c` on, one after another, in a tree in which
they and their subtrees carry `LayoutDirty`, as does `m`: the iterator arrives
at the post visit of `m`. -/
theorem allDirty_round (pref : Nat → Vec2) (s0 : Store) (node : Nat) (hwf : wfTree s0 = true)
    (hn : node < s0.size) (d m : Nat)
    (ih : ∀ (c : Nat) (t : Store), c < s0.size → (c = node ∨ node ∈ parents s0 c) →
      s0.size ≤ d + (parents s0 c).length → SameShape s0 t →
      (∀ x, x < s0.size → (x = c ∨ c ∈ parents s0 x) → t.isLayoutDirty x = true) →
      (c ≠ node → ∀ p, s0.parent c = some p → t.isLayoutDirty p = true) →
      ∃ K u, AllDirtyOutcome pref s0 node c t K u)
    (hm : m < s0.size) (hsub : m = node ∨ node ∈ parents s0 m)
    (hd : s0.size ≤ d + 1 + (parents s0 m).length) :
    ∀ (cs pre : List Nat) (c : Nat) (v : Store), children s0 m = pre ++ c :: cs →
      SameShape s0 v → v.isLayoutDirty m = true →
      (∀ x, x < s0.size → Under s0 (c :: cs) x → v.isLayoutDirty x = true) →
      ∃ K w, SameShape s0 w ∧
        LSteps (prefHooks pref) node (traverseEnd s0 node) v
          { node := some c, state := pre_or_leaf s0 c } K w
          { node := some m, state := AcceptState.Post } ∧
        (∀ x, x < s0.size → ¬ Under s0 (c :: cs) x →
          (w.node x).area = (v.node x).area ∧
          (w.node x).constraints = (v.node x).constraints ∧
          (v.isLayoutDirty x = true → w.isLayoutDirty x = true)) ∧
        (∀ x, x < s0.size → Under s0 (c :: cs) x → FinalAt pref s0 (v.node x).area w x) := by
  have hwfl := wfTree_wfLinks hwf
  obtain ⟨hnd, hclen, hcmem⟩ := wfTree_children hwf hm
  intro cs
  induction cs with
  | nil =>
    intro pre c v hch hshv hvm hv
    obtain ⟨hcs, hcp⟩ := hcmem c (by rw [hch]; simp)
    have hpc : parents s0 c = m :: parents s0 m :=
      parents_of_parent s0 c m hcp (wfLinks_at hwfl hcs).2.2.2.2
    obtain ⟨hcne, hcsub⟩ := child_sub hwf hn hcs hcp hsub
    obtain ⟨K, u, hshu, hst, hfr, _, hfin⟩ := ih c v hcs (Or.inr hcsub)
      (by rw [hpc]; simp only [List.length_cons]; omega) hshv
      (fun x hx h => hv x hx ((under_cons s0 c [] x).mpr (Or.inl h)))
      (fun _ p hp => by rw [hcp] at hp; rw [← Option.some.inj hp]; exact hvm)
    have hafter := siblingList_after s0 c [] pre s0.size _ hch hclen
    have hnext : next_sibling_or_parent s0 c =
        { node := some m, state := AcceptState.Post } := by
      unfold next_sibling_or_parent
      cases hnx : (s0.node c).next_sibling with
      | some n => rw [hnx] at hafter; obtain ⟨_, h⟩ := hafter; cases h
      | none => simp only; rw [hcp]
    rw [hnext] at hst
    refine ⟨K, u, hshu, hst, fun x hx hnu => ?_, fun x hx hu => ?_⟩
    · exact hfr x hx (fun h => hnu ((under_cons s0 c [] x).mpr (Or.inl h)))
    · rcases (under_cons s0 c [] x).mp hu with h | h
      · exact hfin x hx (sub_ne_node hwf hn hcne hcsub h) h
      · exact absurd h (under_nil s0 x)
  | cons c' cs' ihcs =>
    intro pre c v hch hshv hvm hv
    obtain ⟨hcs, hcp⟩ := hcmem c (by rw [hch]; simp)
    have hpc : parents s0 c = m :: parents s0 m :=
      parents_of_parent s0 c m hcp (wfLinks_at hwfl hcs).2.2.2.2
    obtain ⟨hcne, hcsub⟩ := child_sub hwf hn hcs hcp hsub
    obtain ⟨K, u, hshu, hst, hfr, _, hfin⟩ := ih c v hcs (Or.inr hcsub)
      (by rw [hpc]; simp only [List.length_cons]; omega) hshv
      (fun x hx h => hv x hx ((under_cons s0 c _ x).mpr (Or.inl h)))
      (fun _ p hp => by rw [hcp] at hp; rw [← Option.some.inj hp]; exact hvm)
    have hafter := siblingList_after s0 c (c' :: cs') pre s0.size _ hch hclen
    have hnext : next_sibling_or_parent s0 c =
        { node := some c', state := pre_or_leaf s0 c' } := by
      unfold next_sibling_or_parent
      cases hnx : (s0.node c).next_sibling with
      | some n =>
        rw [hnx] at hafter
        obtain ⟨_, h⟩ := hafter
        simp only [List.cons.injEq] at h
        simp only [h.1]
      | none => rw [hnx] at hafter; cases hafter
    rw [hnext] at hst
    -- the subtrees of the later children do not meet the subtree of `c`
    have hdisj : ∀ x, x < s0.size → Under s0 (c' :: cs') x →
        ¬ (x = c ∨ c ∈ parents s0 x) := by
      rintro x hx ⟨c2, hc2, h2⟩ h1
      obtain ⟨hc2s, hc2p⟩ := hcmem c2 (by rw [hch]; simp [hc2])
      have hpc2 : parents s0 c2 = m :: parents s0 m :=
        parents_of_parent s0 c2 m hc2p (wfLinks_at hwfl hc2s).2.2.2.2
      have e := same_depth_subtrees s0 hwfl c c2 x hx (by rw [hpc, hpc2]) h1 h2
      rw [hch] at hnd
      have hnd2 := (List.nodup_append.mp hnd).2.1
      rw [List.nodup_cons] at hnd2
      exact hnd2.1 (by rw [e]; exact hc2)
    have hmnot : ¬ (m = c ∨ c ∈ parents s0 m) := not_sub_of_parent hwf hcs hm hcp
    obtain ⟨K2, w, hshw, hst2, hfr2, hfin2⟩ := ihcs (pre ++ [c]) c' u (by rw [hch]; simp) hshu
      ((hfr m hm hmnot).2.2 hvm)
      (fun x hx h => (hfr x hx (hdisj x hx h)).2.2
        (hv x hx ((under_cons s0 c _ x).mpr (Or.inr h))))
    refine ⟨K + K2, w, hshw, lsteps_trans hst hst2, fun x hx hnu => ?_, fun x hx hu => ?_⟩
    · have h1 : ¬ (x = c ∨ c ∈ parents s0 x) :=
        fun h => hnu ((under_cons s0 c _ x).mpr (Or.inl h))
      have h2 : ¬ Under s0 (c' :: cs') x :=
        fun h => hnu ((under_cons s0 c _ x).mpr (Or.inr h))
      obtain ⟨a1, a2, a3⟩ := hfr x hx h1
      obtain ⟨b1, b2, b3⟩ := hfr2 x hx h2
      exact ⟨b1.trans a1, b2.trans a2, fun h => b3 (a3 h)⟩
    · rcases (under_cons s0 c _ x).mp hu with h | h
      · have hF := hfin x hx (sub_ne_node hwf hn hcne hcsub h) h
        have hxn : ¬ Under s0 (c' :: cs') x := fun h2 => hdisj x hx h2 h
        obtain ⟨b1, b2, _⟩ := hfr2 x hx hxn
        have hxlen := (wfLinks_at hwfl hx).2.2.2.2
        refine finalAt_congr pref s0 _ u w x hF hshu hshw b1 b2 (fun p hp => ?_)
          (fun y hy => ?_)
        · have hps := (wfLinks_at hwfl hx).1 p hp
          have hpx : parents s0 x = p :: parents s0 p := parents_of_parent s0 x p hp hxlen
          refine (hfr2 p hps ?_).2.1
          rintro ⟨c2, hc2, h2⟩
          apply hxn
          refine ⟨c2, hc2, Or.inr ?_⟩
          rw [hpx]
          rcases h2 with e | h2
          · rw [e]; exact List.mem_cons_self _ _
          · exact List.mem_cons_of_mem _ h2
        · obtain ⟨hys, hyp⟩ := (wfTree_children hwf hx).2.2 y hy
          have hpy : parents s0 y = x :: parents s0 x :=
            parents_of_parent s0 y x hyp (wfLinks_at hwfl hys).2.2.2.2
          refine (hfr2 y hys ?_).1
          rintro ⟨c2, hc2, h2⟩
          have hy1 : y = c ∨ c ∈ parents s0 y := by
            right
            rw [hpy]
            rcases h with e | h
            · rw [e]; exact List.mem_cons_self _ _
            · exact List.mem_cons_of_mem _ h
          exact hdisj y hys ⟨c2, hc2, h2⟩ hy1
      · have hF := hfin2 x hx h
        rw [(hfr x hx (hdisj x hx h)).1] at hF
        exact hF

/-- The pass at the pre visit of a node that carries `LayoutDirty`, as does
its parent: the node takes the constraints of its parent, nothing else
changes, and the iterator descends. -/
theorem allDirty_pre (pref : Nat → Vec2) (s0 : Store) (node : Nat) (hwf : wfTree s0 = true)
    (t : Store) (m : Nat) (hm : m < s0.size) (hsub : m = node ∨ node ∈ parents s0 m)
    (hsh : SameShape s0 t) (hdm : t.isLayoutDirty m = true)
    (hpar : m ≠ node → ∀ p, s0.parent m = some p → t.isLayoutDirty p = true) :
    ∃ U, layout_pass (prefHooks pref) node t m AcceptState.Pre =
        some { store := U, node := m, state := AcceptState.Pre, again := false } ∧
      SameShape s0 U ∧
      (∀ x, (U.node x).area = (t.node x).area ∧ (t.isLayoutDirty x = true →
        U.isLayoutDirty x = true)) ∧
      (∀ x, x ≠ m → (U.node x).constraints = (t.node x).constraints) ∧
      (m = node → (U.node m).constraints = (t.node m).constraints) ∧
      (m ≠ node → ∃ p, s0.parent m = some p ∧
        (U.node m).constraints = (t.node p).constraints) := by
  by_cases e : m = node
  · subst e
    exact ⟨t, pass_pre_root _ m t hdm, hsh, fun x => ⟨rfl, fun h => h⟩, fun x _ => rfl,
      fun _ => rfl, fun h => absurd rfl h⟩
  · obtain ⟨p, hp, _, _⟩ := parent_of_sub hwf hm hsub e
    have hpt : t.parent m = some p := by rw [hsh.parent]; exact hp
    refine ⟨_, pass_pre_child _ node t m p e hpt (hpar e p hp) hdm,
      hsh.trans (sameShape_setConstraints _ _ _),
      fun x => ⟨setConstraints_area _ _ _ _, setConstraints_dirty_mono _ _ _ _⟩,
      fun x hx => setConstraints_constraints_ne _ _ _ _ hx, fun h => absurd h e,
      fun _ => ⟨p, hp, ?_⟩⟩
    rw [setConstraints_constraints]
    rfl

/-- The pass that ends the visit of a node that carries `LayoutDirty`, as does
its parent: at a leaf the node takes the constraints of its parent, and a node
other than `node` is given the preferred size (widget) or the result of
`Container::onLayoutEnd` (container). -/
theorem allDirty_post (pref : Nat → Vec2) (s0 : Store) (node : Nat) (hwf : wfTree s0 = true)
    (hcont : s0.isContainer node = true) (t : Store) (m : Nat) (st : AcceptState)
    (hst : st ≠ AcceptState.Pre) (hm : m < s0.size) (hsub : m = node ∨ node ∈ parents s0 m)
    (hsh : SameShape s0 t) (hdm : t.isLayoutDirty m = true)
    (hpar : m ≠ node → ∀ p, s0.parent m = some p → t.isLayoutDirty p = true) :
    ∃ U, layout_pass (prefHooks pref) node t m st =
        some { store := U, node := m, state := st, again := false } ∧
      SameShape s0 U ∧
      (∀ x, x ≠ m → (U.node x).area = (t.node x).area ∧
        (U.node x).constraints = (t.node x).constraints ∧
        (t.isLayoutDirty x = true → U.isLayoutDirty x = true)) ∧
      (m = node → (U.node m).constraints = (t.node m).constraints) ∧
      (m ≠ node → ∃ p, s0.parent m = some p ∧
        (U.node m).constraints =
          (if st = AcceptState.Post then (t.node m).constraints
           else (t.node p).constraints) ∧
        (U.node m).area = (t.node m).area.sized
          (if s0.isWidget m then pref m else Container.onLayoutEnd U m)) := by
  have hwfl := wfTree_wfLinks hwf
  by_cases e : m = node
  · subst e
    have hct : t.isContainer m = true := by rw [hsh.isContainer]; exact hcont
    refine ⟨_, layout_pass_root_post _ m t st hct hdm hst,
      hsh.trans ((sameShape_clearLayoutDirty t m).trans (sameShape_setSize _ _ _)),
      fun x hx => ⟨?_, ?_, fun hd => ?_⟩, fun _ => ?_, fun h => absurd rfl h⟩
    · rw [setSize_area_ne _ _ _ _ hx, (sameData_clearLayoutDirty t m x).1]
    · rw [setSize_constraints, (sameData_clearLayoutDirty t m x).2]
    · rw [((sameLayout_setSize _ _ _).flagged x).2, clearLayoutDirty_dirty_ne _ _ _ hx]
      exact hd
    · rw [setSize_constraints, (sameData_clearLayoutDirty t m m).2]
  · obtain ⟨p, hp, _, _⟩ := parent_of_sub hwf hm hsub e
    have hpt : t.parent m = some p := by rw [hsh.parent]; exact hp
    have hpm : p ≠ m := parent_ne_self hwfl hm hp
    have hpass := pass_post_child (prefHooks pref) node t m p st hst e hpm hpt (hpar e p hp)
      hdm
    -- the tree after the pre part of the pass
    have key : ∀ t1 : Store, SameShape t t1 →
        (∀ x, (t1.node x).area = (t.node x).area) →
        (∀ x, x ≠ m → (t1.node x).constraints = (t.node x).constraints) →
        (∀ x, t.isLayoutDirty x = true → t1.isLayoutDirty x = true) →
        (t1.node m).constraints =
          (if st = AcceptState.Post then (t.node m).constraints
           else (t.node p).constraints) →
        SameShape s0 (layout_end (prefHooks pref) (clearLayoutDirty t1 m) node m).1 ∧
        (∀ x, x ≠ m →
          ((layout_end (prefHooks pref) (clearLayoutDirty t1 m) node m).1.node x).area =
            (t.node x).area ∧
          ((layout_end (prefHooks pref) (clearLayoutDirty t1 m) node m).1.node x).constraints =
            (t.node x).constraints ∧
          (t.isLayoutDirty x = true →
            (layout_end (prefHooks pref) (clearLayoutDirty t1 m) node m).1.isLayoutDirty x
              = true)) ∧
        (m = node →
          ((layout_end (prefHooks pref) (clearLayoutDirty t1 m) node m).1.node m).constraints =
            (t.node m).constraints) ∧
        (m ≠ node → ∃ p, s0.parent m = some p ∧
          ((layout_end (prefHooks pref) (clearLayoutDirty t1 m) node m).1.node m).constraints =
            (if st = AcceptState.Post then (t.node m).constraints
             else (t.node p).constraints) ∧
          ((layout_end (prefHooks pref) (clearLayoutDirty t1 m) node m).1.node m).area =
            (t.node m).area.sized
              (if s0.isWidget m then pref m
               else Container.onLayoutEnd
                (layout_end (prefHooks pref) (clearLayoutDirty t1 m) node m).1 m)) := by
      intro t1 hsh1 ha1 hc1 hd1 hcm
      obtain ⟨g1, g2, g3, g4, g5⟩ := post_store_data pref node t1 m e
      have hshU := (hsh.trans hsh1).trans g1
      refine ⟨hshU, fun x hx => ⟨(g3 x hx).trans (ha1 x), (g2 x).trans (hc1 x hx),
        fun hd => g4 x hx (hd1 x hd)⟩, fun h => absurd h e, fun _ => ⟨p, hp, ?_, ?_⟩⟩
      · rw [g2 m]; exact hcm
      · rw [g5, ha1 m, (hsh.trans hsh1).isWidget]
        have hcong : Container.onLayoutEnd
            (layout_end (prefHooks pref) (clearLayoutDirty t1 m) node m).1 m =
            Container.onLayoutEnd (clearLayoutDirty t1 m) m := by
          apply onLayoutEnd_congr
          · rw [hshU.children,
              ((hsh.trans hsh1).trans (sameShape_clearLayoutDirty t1 m)).children]
          · intro y hy
            rw [((hsh.trans hsh1).trans (sameShape_clearLayoutDirty t1 m)).children] at hy
            obtain ⟨hys, hyp⟩ := (wfTree_children hwf hm).2.2 y hy
            have hym : y ≠ m := fun h => parent_ne_self hwfl hys hyp (by rw [h])
            rw [g3 y hym, (sameData_clearLayoutDirty t1 m y).1]
          · rw [g2 m, (sameData_clearLayoutDirty t1 m m).2]
        rw [hcong]
    cases st with
    | Pre => exact absurd rfl hst
    | Post =>
      simp only [if_true] at hpass
      have := key t (SameShape.refl t) (fun _ => rfl) (fun _ _ => rfl) (fun _ h => h)
        (by simp)
      exact ⟨_, hpass, this⟩
    | Leaf =>
      simp only [show (AcceptState.Leaf = AcceptState.Post) = False from by simp, if_false]
        at hpass
      have := key _ (sameShape_setConstraints t m _) (fun x => setConstraints_area _ _ _ _)
        (fun x hx => setConstraints_constraints_ne _ _ _ _ hx)
        (fun x h => setConstraints_dirty_mono _ _ _ _ h)
        (by rw [setConstraints_constraints])
      exact ⟨_, hpass, this⟩

theorem leaf_no_sub {s0 : Store} (hwf : wfTree s0 = true) {m x : Nat}
    (hx : x < s0.size) (hpl : pre_or_leaf s0 m = AcceptState.Leaf) : m ∉ parents s0 x := by
  intro h
  obtain ⟨c, hcs, hcp, _⟩ := child_on_path s0 (wfTree_wfLinks hwf) _ x hx rfl m h
  rw [pre_or_leaf_of_child hwf hcs hcp] at hpl
  cases hpl

/-- From the first visit of a node `m` of the subtree of `node`, in a tree in
which the subtree of `m` and the parent of `m` carry `LayoutDirty`, the loop of
`layout(node)` arrives behind the subtree of `m`, with every node of it in its
final state. -/
theorem allDirty_process (pref : Nat → Vec2) (s0 : Store) (node : Nat)
    (hwf : wfTree s0 = true) (hn : node < s0.size) (hcont : s0.isContainer node = true) :
    ∀ (d m : Nat) (t : Store), m < s0.size → (m = node ∨ node ∈ parents s0 m) →
      s0.size ≤ d + (parents s0 m).length → SameShape s0 t →
      (∀ x, x < s0.size → (x = m ∨ m ∈ parents s0 x) → t.isLayoutDirty x = true) →
      (m ≠ node → ∀ p, s0.parent m = some p → t.isLayoutDirty p = true) →
      ∃ K u, AllDirtyOutcome pref s0 node m t K u := by
  have hwfl := wfTree_wfLinks hwf
  intro d
  induction d with
  | zero =>
    intro m t hm _ hd
    have := (wfLinks_at hwfl hm).2.2.2.2
    omega
  | succ d ih =>
    intro m t hm hsub hd hsh hall hpar
    have hdm := hall m hm (Or.inl rfl)
    have hmself : m ∉ parents s0 m := not_mem_parents_self s0 m (wfLinks_at hwfl hm).2.2.2.2
    cases hpl : pre_or_leaf s0 m with
    | Post => exact absurd hpl (pre_or_leaf_ne_post s0 m)
    | Leaf =>
      obtain ⟨U, hpass, hshU, hfrU, hroot, hfinU⟩ := allDirty_post pref s0 node hwf hcont t m
        AcceptState.Leaf (by simp) hm hsub hsh hdm hpar
      have hsteps := lsteps_pass _ s0 node hwf hn t m AcceptState.Leaf U hsub hshU hpass
      rw [leaf_increment s0 m hpl] at hsteps
      refine ⟨1, U, hshU, by rw [hpl]; exact hsteps,
        fun x _ hns => hfrU x (fun e => hns (Or.inl e)), hroot,
        fun x hx hxn hxs => ?_⟩
      rcases hxs with e | h
      · subst e
        obtain ⟨p, hp, hc, ha⟩ := hfinU hxn
        have hpx : p ≠ x := parent_ne_self hwfl hm hp
        refine ⟨⟨p, hp, ?_⟩, ha⟩
        rw [hc, (hfrU p hpx).2.1]
        simp
      · exact absurd h (leaf_no_sub hwf hx hpl)
    | Pre =>
      obtain ⟨t1, hpass1, hsh1, hdata1, hc1, hroot1, hfin1⟩ := allDirty_pre pref s0 node hwf t m
        hm hsub hsh hdm hpar
      have hsteps1 := lsteps_pass _ s0 node hwf hn t m AcceptState.Pre t1 hsub hsh1 hpass1
      have hcm : s0.isContainer m = true ∧ ∃ c1, (s0.node m).first_child = some c1 := by
        unfold pre_or_leaf at hpl
        split at hpl
        · rename_i hc
          simp only [Bool.and_eq_true] at hc
          exact ⟨hc.1, Option.isSome_iff_exists.mp hc.2⟩
        · cases hpl
      obtain ⟨hmc, c1, hfc⟩ := hcm
      have hinc : increment s0 m AcceptState.Pre =
          { node := some c1, state := pre_or_leaf s0 c1 } := by
        simp [increment, next_child, hmc, hfc]
      rw [hinc] at hsteps1
      obtain ⟨rest, hrest⟩ := children_of_first_child s0 m c1 hm hfc
      have hunder : ∀ x, x < s0.size → (Under s0 (c1 :: rest) x ↔ m ∈ parents s0 x) := by
        intro x hx
        rw [← hrest]
        exact under_children hwf hm hx
      obtain ⟨K2, w, hshw, hst2, hfr2, hfin2⟩ := allDirty_round pref s0 node hwf hn d m
        (fun c t' hc hcs hcd hct hca hcp => ih c t' hc hcs hcd hct hca hcp) hm hsub (by omega)
        rest [] c1 t1 (by simpa using hrest) hsh1 ((hdata1 m).2 hdm)
        (fun x hx hu => (hdata1 x).2 (hall x hx (Or.inr ((hunder x hx).mp hu))))
      have hmnu : ¬ Under s0 (c1 :: rest) m := fun h => hmself ((hunder m hm).mp h)
      obtain ⟨hwa, hwc, hwd⟩ := hfr2 m hm hmnu
      have hparw : m ≠ node → ∀ p, s0.parent m = some p → w.isLayoutDirty p = true := by
        intro hne p hp
        have hps := (wfLinks_at hwfl hm).1 p hp
        have hpnu : ¬ Under s0 (c1 :: rest) p := fun h =>
          not_sub_of_parent hwf hm hps hp (Or.inr ((hunder p hps).mp h))
        exact (hfr2 p hps hpnu).2.2 ((hdata1 p).2 (hpar hne p hp))
      obtain ⟨U, hpassU, hshU, hfrU, hrootU, hfinU⟩ := allDirty_post pref s0 node hwf hcont w m
        AcceptState.Post (by simp) hm hsub hshw (hwd ((hdata1 m).2 hdm)) hparw
      have hsteps3 := lsteps_pass _ s0 node hwf hn w m AcceptState.Post U hsub hshU hpassU
      have hincp : increment s0 m AcceptState.Post = next_sibling_or_parent s0 m := by
        simp [increment]
      rw [hincp] at hsteps3
      have hUm : (U.node m).constraints = (w.node m).constraints := by
        by_cases e : m = node
        · exact hrootU e
        · obtain ⟨p, _, hc, _⟩ := hfinU e
          rw [hc]; simp
      refine ⟨1 + K2 + 1, U, hshU,
        by rw [hpl]; exact lsteps_trans (lsteps_trans hsteps1 hst2) hsteps3,
        fun x hx hns => ?_, fun e => ?_, fun x hx hxn hxs => ?_⟩
      · have hxm : x ≠ m := fun e => hns (Or.inl e)
        have hxu : ¬ Under s0 (c1 :: rest) x := fun h => hns (Or.inr ((hunder x hx).mp h))
        obtain ⟨a1, a2, a3⟩ := hfrU x hxm
        obtain ⟨b1, b2, b3⟩ := hfr2 x hx hxu
        exact ⟨a1.trans (b1.trans (hdata1 x).1), a2.trans (b2.trans (hc1 x hxm)),
          fun h => a3 (b3 ((hdata1 x).2 h))⟩
      · rw [hUm, hwc]; exact hroot1 e
      · rcases hxs with e | h
        · subst e
          obtain ⟨p, hp, _, ha⟩ := hfinU hxn
          obtain ⟨p', hp', hc'⟩ := hfin1 hxn
          rw [hp] at hp'
          have e' : p = p' := Option.some.inj hp'
          subst e'
          have hps := (wfLinks_at hwfl hm).1 p hp
          have hpx : p ≠ x := parent_ne_self hwfl hm hp
          have hpnu : ¬ Under s0 (c1 :: rest) p := fun h =>
            not_sub_of_parent hwf hm hps hp (Or.inr ((hunder p hps).mp h))
          refine ⟨⟨p, hp, ?_⟩, ?_⟩
          · rw [hUm, hwc, hc', (hfrU p hpx).2.1, (hfr2 p hps hpnu).2.1, hc1 p hpx]
          · rw [ha, hwa, (hdata1 x).1]
        · have hxm : x ≠ m := fun e => hmself (by rw [e] at h; exact h)
          have hF := hfin2 x hx ((hunder x hx).mpr h)
          rw [(hdata1 x).1] at hF
          obtain ⟨a1, a2, _⟩ := hfrU x hxm
          refine finalAt_congr pref s0 _ w U x hF hshw hshU a1 a2 (fun p hp => ?_)
            (fun y hy => ?_)
          · by_cases e : p = m
            · rw [e]; exact hUm
            · exact (hfrU p e).2.1
          · obtain ⟨hys, hyp⟩ := (wfTree_children hwf hx).2.2 y hy
            have hym : y ≠ m := by
              intro e
              rw [e] at hyp
              exact not_sub_of_parent hwf hm hx hyp (Or.inr h)
            exact (hfrU y hym).1

theorem lsteps_end (hooks : Hooks) (node : Nat) (last : Accept) (t u : Store) (cur : Accept)
    (K : Nat) (h : LSteps hooks node last t cur K u last) (F : Nat) (hF : K < F) :
    layout_loop hooks node last F t cur = some u := by
  obtain ⟨k, hk⟩ : ∃ k, F = k + K := ⟨F - K, by omega⟩
  rw [hk, h k (by omega)]
  cases k with
  | zero => omega
  | succ k => simp [layout_loop, same_self]

theorem layout_init_container (hooks : Hooks) (surface : Surface) (s : Store) (node : Nat)
    (hw : s.isWidget node = false) :
    (layout_init hooks surface s node).2 = true ∧
    ∀ x, ((layout_init hooks surface s node).1.node x).area = (s.node x).area := by
  have key : ∀ X : Store, SameShape s X → (∀ x, (X.node x).area = (s.node x).area) →
      (if X.isWidget node then
          (clearLayoutDirty
            (if !X.isAttached node then (setSize X node (X.node node).constraints).1
             else (setSize X node (hooks.preferredSize X node)).1) node, false)
        else (X, true)).2 = true ∧
      ∀ x, ((if X.isWidget node then
          (clearLayoutDirty
            (if !X.isAttached node then (setSize X node (X.node node).constraints).1
             else (setSize X node (hooks.preferredSize X node)).1) node, false)
        else (X, true)).1.node x).area = (s.node x).area := by
    intro X hX ha
    have : X.isWidget node = false := by rw [hX.isWidget]; exact hw
    simp only [this, Bool.false_eq_true, if_false]
    exact ⟨trivial, ha⟩
  unfold layout_init
  simp only
  by_cases hch : surface.changed = true
  · rw [if_pos hch]
    refine key _ ((sameShape_reset s node).trans (sameShape_setConstraints _ _ _)) (fun x => ?_)
    rw [setConstraints_area]
    unfold reset
    rw [(sameData_repaint_all _ node x).1, (sameData_reflow s node x).1]
  · rw [if_neg hch]
    by_cases hat : (!s.isAttached node) = true
    · rw [if_pos hat]
      exact key _ (sameShape_setConstraints _ _ _) (fun x => setConstraints_area _ _ _ _)
    · rw [if_neg hat]
      exact key _ (SameShape.refl s) (fun _ => rfl)

/-- The function `layout` on a forest in which every node of the subtree of
`node` carries `LayoutDirty`: it returns, and every node of the subtree other
than `node` is in its final state. -/
theorem layout_all_dirty (pref : Nat → Vec2) (surface : Surface) (s : Store) (node : Nat)
    (hwf : wfTree s = true) (hn : node < s.size)
    (hall : ∀ x, x < s.size → (x = node ∨ node ∈ parents s x) → s.isLayoutDirty x = true) :
    ∃ u F0, (∀ F, F0 ≤ F → layout (prefHooks pref) F surface s node = some u) ∧
      SameShape s u ∧
      ∀ x, x < s.size → node ∈ parents s x → FinalAt pref s (s.node x).area u x := by
  have hwfl := wfTree_wfLinks hwf
  by_cases hw : s.isWidget node = true
  · obtain ⟨u, F0, hsh, hu⟩ := layout_returns (prefHooks pref) surface s node hwf hn
    refine ⟨u, F0, hu, hsh, fun x hx h => ?_⟩
    exfalso
    obtain ⟨c, hcs, hcp, _⟩ := child_on_path s hwfl _ x hx rfl node h
    have := (wfTree_child hwf hcs hcp).1
    simp only [Store.isContainer, Store.isWidget] at this hw
    rw [hw] at this
    simp at this
  · have hw' : s.isWidget node = false := by simpa using hw
    have hcont : s.isContainer node = true := by
      simp only [Store.isContainer, Store.isWidget] at hw' ⊢
      simp [hw']
    obtain ⟨hsh, _⟩ := layout_init_shape (prefHooks pref) surface s node
    obtain ⟨h2, harea⟩ := layout_init_container (prefHooks pref) surface s node hw'
    have hdirty := layout_init_dirty (prefHooks pref) surface s node hw'
    obtain ⟨K, u, hshu, hst, _, _, hfin⟩ := allDirty_process pref s node hwf hn hcont s.size
      node (layout_init (prefHooks pref) surface s node).1 hn (Or.inl rfl) (by omega) hsh
      (fun x hx h => hdirty x (hall x hx h)) (fun h => absurd rfl h)
    refine ⟨u, K + 1, fun F hF => ?_, hshu, fun x hx h => ?_⟩
    · unfold layout
      simp only [h2, Bool.not_true, Bool.false_eq_true, if_false,
        hdirty node (hall node hn (Or.inl rfl)), Bool.false_and]
      rw [hsh.traverseEnd, hsh.traverseBegin]
      exact lsteps_end _ node _ _ u _ K hst F (by omega)
    · have hxn : x ≠ node := by
        intro e
        rw [e] at h
        exact not_mem_parents_self s node (wfLinks_at hwfl hn).2.2.2.2 h
      have := hfin x hx hxn (Or.inr h)
      rw [harea x] at this
      exact this

theorem sized_size (a : Rect) (v : Vec2) (h : sizeFits a.low v) : (a.sized v).size = v := by
  obtain ⟨hx, hy, hvx, hvy, hlx, hly, hfx, hfy⟩ := h
  unfold Rect.sized
  split
  · exact resize_size a v hx hy hvx hvy hlx hly hfx hfy
  · rename_i h
    simpa using h

theorem foldl_vmax_nonneg (f : Nat → Vec2) :
    ∀ (l : List Nat) (acc : Vec2), 0 ≤ acc.x → 0 ≤ acc.y →
      0 ≤ (l.foldl (fun size child => vmax size (f child)) acc).x ∧
      0 ≤ (l.foldl (fun size child => vmax size (f child)) acc).y := by
  intro l
  induction l with
  | nil => intro acc hx hy; exact ⟨hx, hy⟩
  | cons a l ih =>
    intro acc hx hy
    simp only [List.foldl_cons]
    apply ih
    · simp only [vmax, pmax]; split <;> omega
    · simp only [vmax, pmax]; split <;> omega

theorem onLayoutEnd_bounds (u : Store) (x : Nat) (hx : 0 ≤ (u.node x).constraints.x)
    (hy : 0 ≤ (u.node x).constraints.y) :
    0 ≤ (Container.onLayoutEnd u x).x ∧
    (Container.onLayoutEnd u x).x ≤ (u.node x).constraints.x ∧
    0 ≤ (Container.onLayoutEnd u x).y ∧
    (Container.onLayoutEnd u x).y ≤ (u.node x).constraints.y := by
  obtain ⟨h1, h2⟩ := foldl_vmax_nonneg (fun child => (u.node child).area.high.addP 1)
    (children u x) Vec2.origin (by simp [Vec2.origin]) (by simp [Vec2.origin])
  unfold Container.onLayoutEnd
  simp only [vmin, pmin]
  refine ⟨?_, ?_, ?_, ?_⟩
  · split <;> assumption
  · split <;> omega
  · split <;> assumption
  · split <;> omega

/-! ## Rectangles as sets of points -/

theorem containsPoint_iff (r : Rect) (p : Vec2) :
    r.containsPoint p = true ↔
      r.low.x ≤ p.x ∧ p.x ≤ r.high.x ∧ r.low.y ≤ p.y ∧ p.y ≤ r.high.y := by
  simp only [Rect.containsPoint, Bool.and_eq_true, decide_eq_true_eq, ge_iff_le]
  constructor
  · rintro ⟨⟨a, b⟩, c, d⟩; exact ⟨a, b, c, d⟩
  · rintro ⟨a, b, c, d⟩; exact ⟨⟨a, b⟩, c, d⟩

theorem containsPoint_ofIntersect (a b : Rect) (p : Vec2) :
    (Rect.ofIntersect a b).containsPoint p = true ↔
      a.containsPoint p = true ∧ b.containsPoint p = true := by
  simp only [containsPoint_iff, Rect.ofIntersect, vmax, vmin, pmax, pmin]
  constructor
  · rintro ⟨h1, h2, h3, h4⟩
    split at h1 <;> split at h2 <;> split at h3 <;> split at h4 <;>
      exact ⟨⟨by omega, by omega, by omega, by omega⟩, by omega, by omega, by omega, by omega⟩
  · rintro ⟨⟨h1, h2, h3, h4⟩, h5, h6, h7, h8⟩
    refine ⟨?_, ?_, ?_, ?_⟩ <;> split <;> omega

theorem nonempty_iff (r : Rect) :
    r.nonempty = true ↔ r.low.x ≤ r.high.x ∧ r.low.y ≤ r.high.y := by
  simp only [Rect.nonempty, Rect.empty, Bool.not_eq_true', Bool.or_eq_false_iff,
    decide_eq_false_iff_not, not_lt]

theorem nonempty_iff_point (r : Rect) :
    r.nonempty = true ↔ ∃ p, r.containsPoint p = true := by
  rw [nonempty_iff]
  constructor
  · intro h
    exact ⟨r.low, (containsPoint_iff r r.low).mpr ⟨le_refl _, h.1, le_refl _, h.2⟩⟩
  · rintro ⟨p, hp⟩
    have := (containsPoint_iff r p).mp hp
    omega

theorem overlaps_iff (a b : Rect) :
    a.overlaps b = true ↔
      a.low.x ≤ b.high.x ∧ b.low.x ≤ a.high.x ∧ a.low.y ≤ b.high.y ∧ b.low.y ≤ a.high.y := by
  simp only [Rect.overlaps, Bool.not_eq_true', Bool.or_eq_false_iff, decide_eq_false_iff_not,
    not_lt, gt_iff_lt]
  constructor
  · rintro ⟨⟨⟨h1, h2⟩, h3⟩, h4⟩; exact ⟨h1, h2, h3, h4⟩
  · rintro ⟨h1, h2, h3, h4⟩; exact ⟨⟨⟨h1, h2⟩, h3⟩, h4⟩

theorem ofIntersect_nonempty_iff (a b : Rect) :
    (Rect.ofIntersect a b).nonempty = true ↔
      a.overlaps b = true ∧ a.nonempty = true ∧ b.nonempty = true := by
  simp only [nonempty_iff, overlaps_iff, Rect.ofIntersect, vmax, vmin, pmax, pmin]
  constructor
  · rintro ⟨h1, h2⟩
    split at h1 <;> split at h1 <;> split at h2 <;> split at h2 <;>
      exact ⟨⟨by omega, by omega, by omega, by omega⟩, ⟨by omega, by omega⟩, by omega, by omega⟩
  · rintro ⟨⟨h1, h2, h3, h4⟩, ⟨h5, h6⟩, h7, h8⟩
    constructor <;> split <;> split <;> omega

/-! ## The rows a raster split returns -/

theorem wrapPoint_of_in (v : Int) (h1 : -32768 ≤ v) (h2 : v ≤ 32767) : wrapPoint v = v := by
  unfold wrapPoint; omega

/-- The unrotated split of a `WxH` raster in a buffer whose quotient
`capacity / w` is representable as `Point`: the window is made of the first
`min(h, capacity / w)` rows, the remainder of the rows below. -/
theorem wxh_split_rows (x0 y0 x1 y1 : Int) (capacity : Nat)
    (hx0 : 0 ≤ x0) (hy0 : 0 ≤ y0) (hx : x0 ≤ x1) (hy : y0 ≤ y1)
    (hx1 : x1 < 32767) (hy1 : y1 < 32767)
    (hcap : x1 - x0 + 1 ≤ (capacity : Int))
    (hfit : (capacity : Int) / (x1 - x0 + 1) ≤ 32767) :
    WxH.split capacity ⟨⟨x0, y0⟩, ⟨x1, y1⟩⟩ =
      (⟨⟨x0, y0⟩, ⟨x1, y0 + min (y1 - y0 + 1) ((capacity : Int) / (x1 - x0 + 1)) - 1⟩⟩,
        ⟨⟨x0, y0 + min (y1 - y0 + 1) ((capacity : Int) / (x1 - x0 + 1))⟩, ⟨x1, y1⟩⟩) ∧
    1 ≤ min (y1 - y0 + 1) ((capacity : Int) / (x1 - x0 + 1)) ∧
    (x1 - x0 + 1) * min (y1 - y0 + 1) ((capacity : Int) / (x1 - x0 + 1)) ≤ capacity := by
  have hw : 0 < x1 - x0 + 1 := by omega
  have hq1 : 1 ≤ (capacity : Int) / (x1 - x0 + 1) := by
    rw [Int.le_ediv_iff_mul_le hw]; omega
  have hmul : (x1 - x0 + 1) * ((capacity : Int) / (x1 - x0 + 1)) ≤ capacity :=
    Int.mul_ediv_self_le (by omega)
  have hne : ¬ (x1 < x0 ∨ y1 < y0) := by omega
  have hsize : (⟨⟨x0, y0⟩, ⟨x1, y1⟩⟩ : Rect).size = ⟨x1 - x0 + 1, y1 - y0 + 1⟩ := by
    simp only [Rect.size, Rect.empty, Bool.or_eq_true, decide_eq_true_eq, if_neg hne]
    rw [wrapPoint_of_in _ (by omega) (by omega), wrapPoint_of_in _ (by omega) (by omega)]
  have htd : Int.tdiv (capacity : Int) (x1 - x0 + 1) = (capacity : Int) / (x1 - x0 + 1) :=
    Int.tdiv_eq_ediv (by omega) (by omega)
  have hk : pmin (y1 - y0 + 1) (wrapPoint (Int.tdiv (capacity : Int) (x1 - x0 + 1))) =
      min (y1 - y0 + 1) ((capacity : Int) / (x1 - x0 + 1)) := by
    rw [htd, wrapPoint_of_in _ (by omega) hfit]
    unfold pmin
    split
    · rw [min_eq_left]; omega
    · rw [min_eq_right]; omega
  have hk1 : min (y1 - y0 + 1) ((capacity : Int) / (x1 - x0 + 1)) ≤ y1 - y0 + 1 :=
    min_le_left _ _
  have hk0 : 1 ≤ min (y1 - y0 + 1) ((capacity : Int) / (x1 - x0 + 1)) :=
    le_min (by omega) hq1
  refine ⟨?_, ?_, ?_⟩
  · simp only [WxH.split, basic_split, hsize, hk]
    generalize min (y1 - y0 + 1) ((capacity : Int) / (x1 - x0 + 1)) = k at hk1 hk0 ⊢
    simp only [Rect.withStart, Vec2.add, Vec2.subP, wrapPoint]
    refine Prod.ext ?_ ?_
    · simp only [Rect.mk.injEq, Vec2.mk.injEq, true_and]
      constructor <;> omega
    · simp only [Rect.mk.injEq, Vec2.mk.injEq, true_and, and_true]
      omega
  · exact le_min (by omega) hq1
  · calc (x1 - x0 + 1) * min (y1 - y0 + 1) ((capacity : Int) / (x1 - x0 + 1))
        ≤ (x1 - x0 + 1) * ((capacity : Int) / (x1 - x0 + 1)) :=
          Int.mul_le_mul_of_nonneg_left (min_le_right _ _) (by omega)
      _ ≤ capacity := hmul

/-! ## A traversal with a rebuilder, relative to its root -/

theorem SameShape.wfTree {s t : Store} (h : SameShape s t) : wfTree t = wfTree s := by
  simp only [Cui.wfTree, h.wfLinks, h.1, h.parent, h.isContainer, h.children]

theorem specSeq_congr {s t : Store} (h : SameShape s t) (sk : Nat → Bool) :
    ∀ (d m : Nat), specSeq t sk d m = specSeq s sk d m := by
  intro d
  induction d with
  | zero => intro m; rfl
  | succ d ih =>
    intro m
    have : specSeq t sk d = specSeq s sk d := funext ih
    simp only [specSeq, h.isWidget, h.children, this]

theorem flatMap_length_le {α β : Type} (f g : α → List β) :
    ∀ (l : List α), (∀ x, (f x).length ≤ (g x).length) →
      (l.flatMap f).length ≤ (l.flatMap g).length
  | [], _ => by simp
  | a :: l, h => by
    simp only [List.flatMap_cons, List.length_append]
    have := flatMap_length_le f g l h
    have := h a
    omega

theorem specSeq_length_le (s : Store) (sk : Nat → Bool) :
    ∀ (d m : Nat), (specSeq s sk d m).length ≤ (specSeq s (fun _ => false) d m).length := by
  intro d
  induction d with
  | zero => intro m; simp [specSeq]
  | succ d ih =>
    intro m
    simp only [specSeq]
    split
    · simp
    · have := flatMap_length_le (specSeq s sk d) (specSeq s (fun _ => false) d) (children s m) ih
      split
      · simp
      · simp only [Bool.false_eq_true, if_false, List.length_append, List.length_cons,
          List.length_nil]
        omega

theorem insideChain_child (s : Store) (r c i : Nat) (hp : s.parent c = some i)
    (hlen : (parents s c).length < s.size) (hc : c ≠ r) :
    insideChain s r c = i :: insideChain s r i := by
  unfold insideChain
  rw [if_neg hc, parents_of_parent s c i hp hlen]
  by_cases hi : i = r
  · simp [upTo, hi]
  · simp [upTo, hi]

theorem beforePush_child (s : Store) (start : PositionRebuilder) (r c i : Nat)
    (hp : s.parent c = some i) (hlen : (parents s c).length < s.size) (hc : c ≠ r) :
    beforePush s start r c = afterPush s start r i := by
  unfold afterPush beforePush
  rw [insideChain_child s r c i hp hlen hc]
  rfl

theorem insideChain_sibling (s : Store) (r m i : Nat) (h : s.parent m = s.parent i)
    (hm : m ≠ r) (hi : i ≠ r) : insideChain s r m = insideChain s r i := by
  unfold insideChain
  rw [if_neg hm, if_neg hi]
  have : parents s m = parents s i := by
    unfold parents; unfold Store.parent at h; rw [h]
  rw [this]

theorem afterPush_typed (s : Store) (start : PositionRebuilder) (r n : Nat) :
    inPoint (afterPush s start r n).translation.x = true ∧
      inPoint (afterPush s start r n).translation.y = true := by
  simp only [afterPush, PositionRebuilder.push, Vec2.add, inPoint_iff, wrapPoint]
  omega

theorem push_of_area (s0 t : Store) (stk : PositionRebuilder) (i : Nat)
    (h : (t.node i).area = (s0.node i).area) :
    stk.push t i = (setClipSpace t i (stk.push s0 i).2.clip, (stk.push s0 i).2) := by
  simp [PositionRebuilder.push, h]

theorem pop_afterPush (s0 t : Store) (start : PositionRebuilder) (r i p : Nat)
    (hp : t.parent i = some p) (ha : (t.node i).area = (s0.node i).area)
    (hc : (t.node p).clip_space = (afterPush s0 start r p).clip)
    (hb : beforePush s0 start r i = afterPush s0 start r p) :
    (afterPush s0 start r i).pop t i = beforePush s0 start r i := by
  obtain ⟨h1, h2⟩ := afterPush_typed s0 start r p
  rw [inPoint_iff] at h1 h2
  unfold PositionRebuilder.pop
  rw [hp]
  simp only [hc, ha]
  have hi : afterPush s0 start r i = ((afterPush s0 start r p).push s0 i).2 := by
    rw [← hb]; rfl
  rw [hi, hb]
  generalize afterPush s0 start r p = R at h1 h2 ⊢
  obtain ⟨T, C⟩ := R
  simp only [PositionRebuilder.push, Vec2.add, Vec2.sub, PositionRebuilder.mk.injEq, and_true]
  simp only at h1 h2
  obtain ⟨Tx, Ty⟩ := T
  simp only [Vec2.mk.injEq, wrapPoint] at h1 h2 ⊢
  omega

theorem inside_ne_root (s0 : Store) (hwf : wfLinks s0 = true) (r c i : Nat) (hc : c < s0.size)
    (hp : s0.parent c = some i) (hin : i = r ∨ r ∈ parents s0 i) : c ≠ r := by
  obtain ⟨_, _, _, _, hlen⟩ := wfLinks_at hwf hc
  have hpc := parents_of_parent s0 c i hp hlen
  intro e
  apply not_mem_parents_self s0 c hlen
  rw [hpc]
  rcases hin with rfl | h
  · rw [e]; exact List.mem_cons_self _ _
  · rw [e]; exact List.mem_cons_of_mem _ h

/-- After the pop of a node the invariant holds at the next value of the
iterator, which is the end of the range when the node is the root of the
traversal. -/
theorem walk_after_pop (s0 t : Store) (start : PositionRebuilder) (r i : Nat)
    (hwf : wfLinks s0 = true) (hi : i < s0.size) (hin : i = r ∨ r ∈ parents s0 i)
    (hsh : SameShape s0 t) (har : ∀ j, (t.node j).area = (s0.node j).area)
    (hcache : ∀ a ∈ insideChain s0 r i,
      (t.node a).clip_space = (afterPush s0 start r a).clip) :
    next_sibling_or_parent s0 i = traverseEnd s0 r ∨
      WalkInv s0 r start t ((afterPush s0 start r i).pop t i) (next_sibling_or_parent s0 i) := by
  by_cases hir : i = r
  · left; rw [hir]; rfl
  · right
    have hrp : r ∈ parents s0 i := hin.resolve_left hir
    obtain ⟨hpar, hroot, _, hsib, hlen⟩ := wfLinks_at hwf hi
    cases hp : s0.parent i with
    | none => rw [parents_of_root s0 i hp] at hrp; simp at hrp
    | some p =>
      have hpars := parents_of_parent s0 i p hp hlen
      have hps := hpar p hp
      have hpin : p = r ∨ r ∈ parents s0 p := by
        rw [hpars] at hrp
        rcases List.mem_cons.mp hrp with e | h
        · exact Or.inl e.symm
        · exact Or.inr h
      have hch := insideChain_child s0 r i p hp hlen hir
      have hb := beforePush_child s0 start r i p hp hlen hir
      have hpop : (afterPush s0 start r i).pop t i = beforePush s0 start r i :=
        pop_afterPush s0 t start r i p (by rw [hsh.parent i]; exact hp) (har i)
          (hcache p (by rw [hch]; exact List.mem_cons_self _ _)) hb
      rw [hpop]
      unfold next_sibling_or_parent
      cases hn : (s0.node i).next_sibling with
      | some m =>
        obtain ⟨hm, hpm⟩ := hsib m hn
        have hmr : m ≠ r := inside_ne_root s0 hwf r m p hm (by rw [hpm]; exact hp) hpin
        have hpars2 : parents s0 m = parents s0 i := by
          unfold parents; unfold Store.parent at hpm; rw [hpm]
        simp only [WalkInv, if_neg (pre_or_leaf_ne_post s0 m)]
        refine ⟨hm, Or.inr (by rw [hpars2]; exact hrp), ?_, ?_, trivial⟩
        · rw [insideChain_sibling s0 r m i hpm hmr hir]; exact hcache
        · unfold beforePush
          rw [insideChain_sibling s0 r m i hpm hmr hir]
      | none =>
        simp only [WalkInv, hp, if_true]
        refine ⟨hps, hpin, ?_, hb⟩
        intro a ha
        apply hcache
        rw [hch]
        exact List.mem_cons_of_mem _ ha

/-- After the push of a container the invariant holds at its first child. -/
theorem walk_descend (s0 t : Store) (start : PositionRebuilder) (r i c : Nat)
    (hwf : wfLinks s0 = true) (hi : i < s0.size) (hin : i = r ∨ r ∈ parents s0 i)
    (hfc : (s0.node i).first_child = some c)
    (hcache : ∀ a ∈ i :: insideChain s0 r i,
      (t.node a).clip_space = (afterPush s0 start r a).clip) :
    WalkInv s0 r start t (afterPush s0 start r i) { node := some c, state := pre_or_leaf s0 c } := by
  obtain ⟨_, _, hchild, _, _⟩ := wfLinks_at hwf hi
  obtain ⟨hcs, hpc⟩ := hchild c hfc
  obtain ⟨_, _, _, _, hlen⟩ := wfLinks_at hwf hcs
  have hcr : c ≠ r := inside_ne_root s0 hwf r c i hcs hpc hin
  simp only [WalkInv, if_neg (pre_or_leaf_ne_post s0 c)]
  refine ⟨hcs, Or.inr ?_, ?_, ?_, trivial⟩
  · rw [parents_of_parent s0 c i hpc hlen]
    rcases hin with e | h
    · rw [e]; exact List.mem_cons_self _ _
    · exact List.mem_cons_of_mem _ h
  · rw [insideChain_child s0 r c i hpc hlen hcr]; exact hcache
  · exact (beforePush_child s0 start r c i hpc hlen hcr).symm


theorem mem_upTo (r : Nat) : ∀ (l : List Nat) (a : Nat), a ∈ upTo r l → a ∈ l
  | [], a, h => by simp [upTo] at h
  | p :: ps, a, h => by
    unfold upTo at h
    split at h
    · simp only [List.mem_singleton] at h; rw [h]; exact List.mem_cons_self _ _
    · rcases List.mem_cons.mp h with e | h'
      · rw [e]; exact List.mem_cons_self _ _
      · exact List.mem_cons_of_mem _ (mem_upTo r ps a h')

theorem mem_insideChain (s : Store) (r n a : Nat) (h : a ∈ insideChain s r n) :
    a ∈ parents s n := by
  unfold insideChain at h
  split at h
  · simp at h
  · exact mem_upTo r _ a h

theorem clearPaintDirty_clip_space (s : Store) (i j : Nat) :
    ((clearPaintDirty s i).node j).clip_space = (s.node j).clip_space := by
  simp only [clearPaintDirty, Store.modifyFlags, Store.modify, Store.set]
  split <;> simp_all

theorem paint_visit_complete (cf : Bool) (window : Rect) (ps : PaintState)
    (stk : PositionRebuilder) (i : Nat) (st : AcceptState) :
    (paint_impl_visit cf window ps stk i st).1.complete = ps.complete := by
  unfold paint_impl_visit
  simp only
  split
  · split
    · split <;> rfl
    · rfl
  · rfl

theorem paint_visit_clip_other (cf : Bool) (window : Rect) (ps : PaintState)
    (stk : PositionRebuilder) (i : Nat) (st : AcceptState) (a : Nat) (ha : a ≠ i) :
    ((paint_impl_visit cf window ps stk i st).1.store.node a).clip_space =
      (ps.store.node a).clip_space := by
  unfold paint_impl_visit
  simp only [PositionRebuilder.push]
  split
  · split
    · split
      · split
        · rw [clearPaintDirty_clip_space, setClipSpace_clip_space, if_neg ha]
        · rw [setClipSpace_clip_space, if_neg ha]
      · rw [setClipSpace_clip_space, if_neg ha]
    · rw [setClipSpace_clip_space, if_neg ha]
  · split
    · rw [clearPaintDirty_clip_space]
    · rfl

/-- One body of the loop of `paint_impl` under the invariant: the call of the
paint hook it makes, and the invariant at the next value of the iterator, which
is the one the range yields when `skip()` is called at the nodes of
`paintSkips`. -/
theorem paint_visit_sim (cf : Bool) (window : Rect) (s0 : Store) (hwf : wfLinks s0 = true)
    (r : Nat) (start : PositionRebuilder) (ps : PaintState) (stk : PositionRebuilder)
    (i : Nat) (st : AcceptState) (hsh : SameShape s0 ps.store)
    (har : ∀ j, (ps.store.node j).area = (s0.node j).area)
    (hinv : WalkInv s0 r start ps.store stk { node := some i, state := st }) :
    (paint_impl_visit cf window ps stk i st).1.trace =
      ps.trace ++ (paintEvent s0 start r window { node := some i, state := st }).toList ∧
    increment s0 i (paint_impl_visit cf window ps stk i st).2.2 =
      increment s0 i (if st == AcceptState.Pre && paintSkips s0 start r window i
        then AcceptState.Post else st) ∧
    (increment s0 i (paint_impl_visit cf window ps stk i st).2.2 = traverseEnd s0 r ∨
      WalkInv s0 r start (paint_impl_visit cf window ps stk i st).1.store
        (paint_impl_visit cf window ps stk i st).2.1
        (increment s0 i (paint_impl_visit cf window ps stk i st).2.2)) := by
  simp only [WalkInv] at hinv
  obtain ⟨hi, hin, hcache, hstk⟩ := hinv
  obtain ⟨_, _, _, _, hlen⟩ := wfLinks_at hwf hi
  have hsp := samePaint_paint_impl_visit cf window ps stk i st
  have hsh2 : SameShape s0 (paint_impl_visit cf window ps stk i st).1.store :=
    hsh.trans hsp.paint_shape
  have har2 : ∀ j, ((paint_impl_visit cf window ps stk i st).1.store.node j).area =
      (s0.node j).area := fun j => by rw [(hsp.fields j).2.2.2.2.2.2.1, har j]
  have hcache2 : ∀ a ∈ insideChain s0 r i,
      ((paint_impl_visit cf window ps stk i st).1.store.node a).clip_space =
        (afterPush s0 start r a).clip := by
    intro a ha
    have hne : a ≠ i := by
      intro e
      apply not_mem_parents_self s0 i hlen
      have := mem_insideChain s0 r i a ha
      rw [e] at this
      exact this
    rw [paint_visit_clip_other cf window ps stk i st a hne]
    exact hcache a ha
  have hpost := walk_after_pop s0 (paint_impl_visit cf window ps stk i st).1.store start r i
    hwf hi hin hsh2 har2 hcache2
  have hnsop : increment s0 i AcceptState.Post = next_sibling_or_parent s0 i := by
    simp [increment]
  by_cases hP : st = AcceptState.Post
  · -- post visit
    subst hP
    simp only [if_true] at hstk
    have hv : (paint_impl_visit cf window ps stk i AcceptState.Post) =
        ({ ps with store := if cf then clearPaintDirty ps.store i else ps.store },
          stk.pop (if cf then clearPaintDirty ps.store i else ps.store) i,
          AcceptState.Post) := by
      simp [paint_impl_visit]
    rw [hv] at hpost ⊢
    simp only at hpost ⊢
    refine ⟨by simp [paintEvent], by simp, ?_⟩
    rw [hnsop, hstk]
    exact hpost
  · simp only [if_neg hP] at hstk
    obtain ⟨hstk, hpl⟩ := hstk
    have hpush : stk.push ps.store i =
        (setClipSpace ps.store i (afterPush s0 start r i).clip, afterPush s0 start r i) := by
      rw [hstk, push_of_area s0 ps.store _ i (har i)]
      rfl
    have hwid : (setClipSpace ps.store i (afterPush s0 start r i).clip).isWidget i =
        s0.isWidget i := by
      rw [← hsh.isWidget i]
      simp [Store.isWidget]
    have hP2 : (st != AcceptState.Post) = true := by
      cases st <;> simp at hP ⊢
    by_cases hne : (Rect.ofIntersect window (afterPush s0 start r i).clip).nonempty = true
    · by_cases hPre : st = AcceptState.Pre
      · -- pre visit of a container that is painted: descend
        subst hPre
        have hv : (paint_impl_visit cf window ps stk i AcceptState.Pre) =
            ({ ps with
                store := setClipSpace ps.store i (afterPush s0 start r i).clip
                trace := if s0.isWidget i then ps.trace ++ [Event.paint i
                  (afterPush s0 start r i).translation
                  (Rect.ofIntersect window (afterPush s0 start r i).clip)] else ps.trace },
              afterPush s0 start r i, AcceptState.Pre) := by
          simp [paint_impl_visit, hpush, hne, hwid]
        rw [hv]
        simp only
        refine ⟨?_, by simp [paintSkips, hne], ?_⟩
        · simp only [paintEvent, hne, Bool.and_true]
          by_cases hw : s0.isWidget i = true
          · simp [hw]
          · simp [hw]
        · right
          have hpl' := hpl.symm
          unfold pre_or_leaf at hpl'
          split at hpl'
          · rename_i hc
            simp only [Bool.and_eq_true] at hc
            obtain ⟨c1, hfc⟩ := Option.isSome_iff_exists.mp hc.2
            have hinc : increment s0 i AcceptState.Pre =
                { node := some c1, state := pre_or_leaf s0 c1 } := by
              simp [increment, next_child, hc.1, hfc]
            rw [hinc]
            apply walk_descend s0 _ start r i c1 hwf hi hin hfc
            intro a ha
            rcases List.mem_cons.mp ha with e | h
            · rw [e, setClipSpace_clip_space, if_pos rfl]
            · have hne2 : a ≠ i := by
                intro e
                apply not_mem_parents_self s0 i hlen
                have := mem_insideChain s0 r i a h
                rw [e] at this
                exact this
              rw [setClipSpace_clip_space, if_neg hne2]
              exact hcache a h
          · cases hpl'
      · -- visit of a leaf that is painted
        have hL : st = AcceptState.Leaf := by
          cases st <;> simp at hP hPre ⊢
        subst hL
        have hv : (paint_impl_visit cf window ps stk i AcceptState.Leaf) =
            ({ ps with
                store := if cf then clearPaintDirty (setClipSpace ps.store i
                  (afterPush s0 start r i).clip) i
                  else setClipSpace ps.store i (afterPush s0 start r i).clip
                trace := if s0.isWidget i then ps.trace ++ [Event.paint i
                  (afterPush s0 start r i).translation
                  (Rect.ofIntersect window (afterPush s0 start r i).clip)] else ps.trace },
              (afterPush s0 start r i).pop (if cf then clearPaintDirty (setClipSpace ps.store i
                  (afterPush s0 start r i).clip) i
                  else setClipSpace ps.store i (afterPush s0 start r i).clip) i,
              AcceptState.Leaf) := by
          simp [paint_impl_visit, hpush, hne, hwid]
        rw [hv] at hpost ⊢
        simp only at hpost ⊢
        refine ⟨?_, by simp, ?_⟩
        · simp only [paintEvent, hne, Bool.and_true]
          by_cases hw : s0.isWidget i = true
          · simp [hw]
          · simp [hw]
        · rw [leaf_increment s0 i hpl.symm]
          exact hpost
    · -- the window does not meet the clip: skip
      simp only [Bool.not_eq_true] at hne
      have hv : (paint_impl_visit cf window ps stk i st) =
          ({ ps with store := setClipSpace ps.store i (afterPush s0 start r i).clip },
            (afterPush s0 start r i).pop
              (setClipSpace ps.store i (afterPush s0 start r i).clip) i,
            AcceptState.Post) := by
        simp [paint_impl_visit, hpush, hne, hP2]
      rw [hv] at hpost ⊢
      simp only at hpost ⊢
      refine ⟨by simp [paintEvent, hne], ?_, ?_⟩
      · rw [hnsop]
        by_cases hPre : st = AcceptState.Pre
        · simp [hPre, paintSkips, hne, increment]
        · have hL : st = AcceptState.Leaf := by
            cases st <;> simp at hP hPre ⊢
          subst hL
          simp only [show (AcceptState.Leaf == AcceptState.Pre) = false from rfl,
            Bool.false_and, Bool.false_eq_true, if_false]
          exact (leaf_increment s0 i hpl.symm).symm
      · rw [hnsop]
        exact hpost

/-- The loop of `paint_impl` follows the range `traverse(r)` with `skip()` at
the nodes of `paintSkips`: when that range ends within the budget, so does the
loop, and the calls of the paint hook are those of `paintEvent` at the values
the range yields. -/
theorem paint_loop_sim (cf : Bool) (window : Rect) (s0 : Store) (hwf : wfLinks s0 = true)
    (r : Nat) (start : PositionRebuilder) :
    ∀ (fuel : Nat) (ps : PaintState) (stk : PositionRebuilder) (cur : Accept) (L : List Accept),
      SameShape s0 ps.store → (∀ j, (ps.store.node j).area = (s0.node j).area) →
      (cur = traverseEnd s0 r ∨ WalkInv s0 r start ps.store stk cur) →
      traverseLoop s0 (paintSkips s0 start r window) (traverseEnd s0 r) fuel cur = some L →
      (paint_impl_loop cf window (traverseEnd s0 r) fuel ps stk cur).complete = ps.complete ∧
      (paint_impl_loop cf window (traverseEnd s0 r) fuel ps stk cur).trace =
        ps.trace ++ L.filterMap (paintEvent s0 start r window) := by
  intro fuel
  induction fuel with
  | zero =>
    intro ps stk cur L _ _ _ hL
    unfold traverseLoop at hL
    unfold paint_impl_loop
    split at hL
    · rename_i hs
      simp only [Option.some.injEq] at hL
      subst hL
      simp [hs]
    · cases hL
  | succ k ih =>
    intro ps stk cur L hsh har hinv hL
    unfold traverseLoop at hL
    unfold paint_impl_loop
    by_cases hs : cur.same (traverseEnd s0 r) = true
    · rw [if_pos hs] at hL ⊢
      simp only [Option.some.injEq] at hL
      subst hL
      simp
    · rw [if_neg hs] at hL ⊢
      have hw : WalkInv s0 r start ps.store stk cur := by
        rcases hinv with e | h
        · rw [e, accept_same_refl] at hs; exact absurd rfl hs
        · exact h
      cases hnode : cur.node with
      | none => rw [hnode] at hL; cases hL
      | some i =>
        rw [hnode] at hL
        simp only at hL ⊢
        have hcur : cur = { node := some i, state := cur.state } := by
          cases cur; simp only at hnode; rw [hnode]
        rw [hcur] at hw
        obtain ⟨h1, h2, h3⟩ := paint_visit_sim cf window s0 hwf r start ps stk i cur.state
          hsh har hw
        have hsp := samePaint_paint_impl_visit cf window ps stk i cur.state
        have hsh2 : SameShape s0 (paint_impl_visit cf window ps stk i cur.state).1.store :=
          hsh.trans hsp.paint_shape
        have har2 : ∀ j, ((paint_impl_visit cf window ps stk i cur.state).1.store.node j).area =
            (s0.node j).area := fun j => by rw [(hsp.fields j).2.2.2.2.2.2.1, har j]
        have hst : (if (cur.state == AcceptState.Pre && paintSkips s0 start r window i) = true
            then (Accept.skip cur).state else cur.state) =
            (if (cur.state == AcceptState.Pre && paintSkips s0 start r window i) = true
              then AcceptState.Post else cur.state) := rfl
        rw [hst, ← h2] at hL
        cases hrest : traverseLoop s0 (paintSkips s0 start r window) (traverseEnd s0 r) k
            (increment s0 i (paint_impl_visit cf window ps stk i cur.state).2.2) with
        | none => rw [hrest] at hL; cases hL
        | some L' =>
          rw [hrest] at hL
          simp only [Option.map_some', Option.some.injEq] at hL
          subst hL
          rw [hsh2.increment]
          obtain ⟨g1, g2⟩ := ih _ _ _ L' hsh2 har2 h3 hrest
          rw [g1, g2, paint_visit_complete, h1]
          refine ⟨rfl, ?_⟩
          rw [List.filterMap_cons]
          rw [← hcur]
          cases paintEvent s0 start r window cur <;> simp

theorem paintEvent_not_begin (s : Store) (start : PositionRebuilder) (r : Nat) (window : Rect) :
    ∀ (L : List Accept) (e : Event), e ∈ L.filterMap (paintEvent s start r window) →
      ∃ w t c, e = Event.paint w t c := by
  intro L e he
  rw [List.mem_filterMap] at he
  obtain ⟨a, _, ha⟩ := he
  unfold paintEvent at ha
  split at ha
  · split at ha
    · simp only [Option.some.injEq] at ha
      exact ⟨_, _, _, ha.symm⟩
    · cases ha
  · cases ha

/-- The function `paint_impl` returns when its budget is not smaller than the
length of the range `traverse(node)`; it calls `begin(window)`, the paint hook
at the values of the range with `skip()` at the nodes of `paintSkips`, and
`end()`. -/
theorem paint_impl_sim (cf : Bool) (fuel : Nat) (ps : PaintState) (node : Nat) (window : Rect)
    (stack : PositionRebuilder) (hwf : wfTree ps.store = true) (hn : node < ps.store.size)
    (hc : ps.complete = true)
    (hF : (specSeq ps.store (paintSkips ps.store stack node window) ps.store.size node).length
      ≤ fuel) :
    (paint_impl cf fuel ps node window stack).complete = true ∧
    (paint_impl cf fuel ps node window stack).trace =
      ps.trace ++ [Event.begin window] ++
        (specSeq ps.store (paintSkips ps.store stack node window) ps.store.size node).filterMap
          (paintEvent ps.store stack node window) ++ [Event.finish] := by
  obtain ⟨t, tr, c⟩ := ps
  simp only at hc hwf hn hF ⊢
  subst hc
  have hwfl := wfTree_wfLinks hwf
  have htr := traverse_eq_specSeq t (paintSkips t stack node window) hwf node hn fuel hF
  unfold traverse at htr
  have hinit : WalkInv t node stack t stack (traverseBegin t node) := by
    unfold WalkInv traverseBegin
    simp only [if_neg (pre_or_leaf_ne_post t node)]
    refine ⟨hn, Or.inl trivial, ?_, ?_, trivial⟩
    · intro a ha; simp [insideChain] at ha
    · simp [beforePush, insideChain, rebuiltFrom]
  obtain ⟨g1, g2⟩ := paint_loop_sim cf window t hwfl node stack fuel
    { store := t, trace := tr ++ [Event.begin window], complete := true } stack
    (traverseBegin t node) _ (SameShape.refl _) (fun _ => rfl) (Or.inr hinit) htr
  unfold paint_impl
  simp only at g1 g2 ⊢
  rw [g1]
  simp only [if_true]
  rw [g2]
  exact ⟨trivial, rfl⟩

/-! ## The loop over the buffer windows -/

theorem pixels_pos (r : Rect) (h : r.nonempty = true) : 0 < r.pixels := by
  have hn := (nonempty_iff r).mp h
  have he : r.empty = false := by
    simpa [Rect.nonempty] using h
  simp only [Rect.pixels, he, Bool.false_eq_true, if_false]
  rw [Int.lt_toNat]
  have h1 : 0 < r.high.x - r.low.x + 1 := by omega
  have h2 : 0 < r.high.y - r.low.y + 1 := by omega
  exact_mod_cast Int.mul_pos h1 h2

theorem pixels_zero (r : Rect) (h : r.pixels = 0) : r.nonempty = false := by
  cases hn : r.nonempty with
  | false => rfl
  | true => have := pixels_pos r hn; omega

theorem splitWindows_fuel (surface : Surface) (hprog : SplitProgress surface) :
    ∀ (n m : Nat) (r : Rect), r.pixels ≤ n → r.pixels ≤ m →
      splitWindows surface n r = splitWindows surface m r := by
  intro n
  induction n with
  | zero =>
    intro m r hn _
    have he := pixels_zero r (by omega)
    cases m with
    | zero => rfl
    | succ m => simp [splitWindows, he]
  | succ n ih =>
    intro m r hn hm
    cases m with
    | zero =>
      have he := pixels_zero r (by omega)
      simp [splitWindows, he]
    | succ m =>
      simp only [splitWindows]
      by_cases hne : r.nonempty = true
      · rw [if_pos hne, if_pos hne]
        have := (hprog r hne).2
        rw [ih m _ (by omega) (by omega)]
      · rw [if_neg hne, if_neg hne]

theorem splitWindows_length (surface : Surface) :
    ∀ (n : Nat) (r : Rect), (splitWindows surface n r).length ≤ n := by
  intro n
  induction n with
  | zero => intro r; simp [splitWindows]
  | succ n ih =>
    intro r
    simp only [splitWindows]
    split
    · simp only [List.length_cons]; have := ih (surface.split r).2; omega
    · simp

theorem beginWindows_append (a b : List Event) :
    beginWindows (a ++ b) = beginWindows a ++ beginWindows b := by
  simp [beginWindows, List.filterMap_append]

theorem beginWindows_paint (l : List Event) (h : ∀ e ∈ l, ∃ w t c, e = Event.paint w t c) :
    beginWindows l = [] := by
  unfold beginWindows
  rw [List.filterMap_eq_nil_iff]
  intro e he
  obtain ⟨w, t, c, rfl⟩ := h e he
  rfl

/-- A call of `paint_impl` on a tree of the shape of `s0` returns within a
budget that depends on the shape alone, and calls `begin` once. -/
theorem paint_impl_returns (s0 : Store) (hwf : wfTree s0 = true) (cf : Bool) (fuel : Nat)
    (ps : PaintState) (node : Nat) (window : Rect) (stack : PositionRebuilder)
    (hsh : SameShape s0 ps.store) (hn : node < s0.size) (hc : ps.complete = true)
    (hF : (specSeq s0 (fun _ => false) s0.size node).length ≤ fuel) :
    (paint_impl cf fuel ps node window stack).complete = true ∧
    beginWindows (paint_impl cf fuel ps node window stack).trace =
      beginWindows ps.trace ++ [window] := by
  have hwf2 : wfTree ps.store = true := by rw [hsh.wfTree]; exact hwf
  have hlen := specSeq_length_le ps.store (paintSkips ps.store stack node window) ps.store.size
    node
  rw [specSeq_congr hsh, specSeq_congr hsh, hsh.1] at hlen
  obtain ⟨g1, g2⟩ := paint_impl_sim cf fuel ps node window stack hwf2 (by rw [hsh.1]; exact hn)
    hc (by rw [specSeq_congr hsh, hsh.1]; omega)
  refine ⟨g1, ?_⟩
  rw [g2, beginWindows_append, beginWindows_append, beginWindows_append,
    beginWindows_paint _ (paintEvent_not_begin _ _ _ _ _)]
  simp [beginWindows, Event.beginWindow]

theorem paint_into_returns (s0 : Store) (hwf : wfTree s0 = true) (inner : Nat)
    (ps : PaintState) (root current : Nat) (clip window : Rect) (stack : PositionRebuilder)
    (hsh : SameShape s0 ps.store) (hroot : root < s0.size) (hcur : current < s0.size)
    (hc : ps.complete = true)
    (hF : (specSeq s0 (fun _ => false) s0.size root).length +
      (specSeq s0 (fun _ => false) s0.size current).length ≤ inner) :
    (paint_into inner ps root current clip window stack).complete = true ∧
    beginWindows (paint_into inner ps root current clip window stack).trace =
      beginWindows ps.trace ++ [window] := by
  unfold paint_into
  split
  · exact paint_impl_returns s0 hwf true inner ps current window _ hsh hcur hc (by omega)
  · exact paint_impl_returns s0 hwf true inner ps root window _ hsh hroot hc (by omega)

theorem splitLoop_returns (surface : Surface) (hprog : SplitProgress surface) (s0 : Store)
    (hwf : wfTree s0 = true) (inner root current : Nat) (clip : Rect)
    (stack : PositionRebuilder) (hroot : root < s0.size) (hcur : current < s0.size)
    (hF : (specSeq s0 (fun _ => false) s0.size root).length +
      (specSeq s0 (fun _ => false) s0.size current).length ≤ inner) :
    ∀ (fuel : Nat) (ps : PaintState) (remaining : Rect), remaining.pixels ≤ fuel →
      SameShape s0 ps.store → ps.complete = true →
      (splitLoop surface inner root current clip stack fuel ps remaining).complete = true ∧
      beginWindows (splitLoop surface inner root current clip stack fuel ps remaining).trace =
        beginWindows ps.trace ++ splitWindows surface fuel remaining := by
  intro fuel
  induction fuel with
  | zero =>
    intro ps remaining hpx _ hc
    have he := pixels_zero remaining (by omega)
    simp [splitLoop, splitWindows, he, hc]
  | succ k ih =>
    intro ps remaining hpx hsh hc
    unfold splitLoop
    simp only [splitWindows]
    by_cases hne : remaining.nonempty = true
    · rw [if_pos hne, if_pos hne]
      obtain ⟨g1, g2⟩ := paint_into_returns s0 hwf inner ps root current clip
        (surface.split remaining).1 stack hsh hroot hcur hc hF
      rw [if_pos g1]
      have hsh2 : SameShape s0 (paint_into inner ps root current clip
          (surface.split remaining).1 stack).store :=
        hsh.trans (samePaint_paint_into _ _ _ _ _ _ _).paint_shape
      have := (hprog remaining hne).2
      obtain ⟨f1, f2⟩ := ih _ (surface.split remaining).2 (by omega) hsh2 g1
      refine ⟨f1, ?_⟩
      rw [f2, g2, List.append_assoc]
      rfl
    · rw [if_neg hne, if_neg hne]
      simp [hc]

theorem whole_progress (resolution : Vec2) : SplitProgress (Surface.whole resolution) := by
  intro area hne
  refine ⟨hne, ?_⟩
  have := pixels_pos area hne
  have h0 : ((Surface.whole resolution).split area).2 = Rect.none := rfl
  rw [h0]
  have : Rect.none.pixels = 0 := by decide
  omega

/-! ## The calls of the paint hook made by `paint_full` -/

theorem paint_visit_flags (window : Rect) (ps : PaintState) (stk : PositionRebuilder)
    (i : Nat) (st : AcceptState) (j : Nat) :
    ((paint_impl_visit false window ps stk i st).1.store.node j).flags =
      (ps.store.node j).flags := by
  unfold paint_impl_visit
  simp only [PositionRebuilder.push, Bool.false_eq_true, if_false]
  split
  · split
    · split <;> simp
    · simp
  · rfl

theorem paint_loop_flags (window : Rect) (last : Accept) :
    ∀ (fuel : Nat) (ps : PaintState) (stk : PositionRebuilder) (cur : Accept) (j : Nat),
      ((paint_impl_loop false window last fuel ps stk cur).store.node j).flags =
        (ps.store.node j).flags := by
  intro fuel
  induction fuel with
  | zero =>
    intro ps stk cur j
    unfold paint_impl_loop
    split <;> rfl
  | succ k ih =>
    intro ps stk cur j
    unfold paint_impl_loop
    split
    · rfl
    · split
      · rfl
      · rw [ih, paint_visit_flags]

theorem paint_full_flags (fuel : Nat) (s : Store) (node : Nat) (clip : Rect) (j : Nat) :
    ((paint_full fuel s node clip).store.node j).flags = (s.node j).flags := by
  unfold paint_full paint_impl
  simp only
  split <;> exact paint_loop_flags _ _ _ _ _ _ _

/-- In a tree without coordinate overflow, the rebuilder pushed down from a
fresh one at a root without parent to a node of its tree holds the position
that `absolute` computes. -/
theorem afterPush_absolute (s : Store) (hwf : wfLinks s = true) (hov : noOverflow s = true)
    (r : Nat) (hroot : s.parent r = Option.none) :
    ∀ (n x : Nat), (parents s x).length = n → x < s.size → (x = r ∨ r ∈ parents s x) →
      afterPush s {} r x = asRebuilder (absolute s x) := by
  intro n
  induction n with
  | zero =>
    intro x hlen hx hin
    have hxr : x = r := by
      rcases hin with e | h
      · exact e
      · rw [List.length_eq_zero] at hlen; rw [hlen] at h; simp at h
    subst hxr
    have h := push_spec s x hwf hov hx
    have hb : beforePush s {} x x = stackBefore s x := by
      simp [beforePush, insideChain, rebuiltFrom, stackBefore, hroot]
    unfold afterPush
    rw [hb, h]
  | succ n ih =>
    intro x hlen hx hin
    obtain ⟨hpar, _, _, _, hl⟩ := wfLinks_at hwf hx
    cases hp : s.parent x with
    | none => rw [parents_of_root s x hp] at hlen; simp at hlen
    | some p =>
      have hpars := parents_of_parent s x p hp hl
      have hxr : x ≠ r := by
        intro e; rw [e, hroot] at hp; cases hp
      have hrp : r ∈ parents s x := hin.resolve_left hxr
      have hpin : p = r ∨ r ∈ parents s p := by
        rw [hpars] at hrp
        rcases List.mem_cons.mp hrp with e | h
        · exact Or.inl e.symm
        · exact Or.inr h
      have hp1 := ih p (by rw [hpars] at hlen; simpa using hlen) (hpar p hp) hpin
      have hb : beforePush s {} r x = stackBefore s x := by
        rw [beforePush_child s {} r x p hp hl hxr, hp1]
        simp [stackBefore, hp]
      have h := push_spec s x hwf hov hx
      unfold afterPush
      rw [hb, h]

/-- The clip of the rebuilder pushed down to a node lies inside the clip of the
rebuilder pushed down to any of its ancestors inside the traversal. -/
theorem afterPush_clip_inside (s : Store) (hwf : wfLinks s = true) (start : PositionRebuilder)
    (r m : Nat) (hmin : m = r ∨ r ∈ parents s m) :
    ∀ (n x : Nat), (parents s x).length = n → x < s.size → m ∈ parents s x →
      ∀ pt, (afterPush s start r x).clip.containsPoint pt = true →
        (afterPush s start r m).clip.containsPoint pt = true := by
  intro n
  induction n with
  | zero =>
    intro x hlen _ hm
    rw [List.length_eq_zero] at hlen; rw [hlen] at hm; simp at hm
  | succ n ih =>
    intro x hlen hx hm pt hpt
    obtain ⟨hpar, _, _, _, hl⟩ := wfLinks_at hwf hx
    cases hp : s.parent x with
    | none => rw [parents_of_root s x hp] at hlen; simp at hlen
    | some p =>
      have hpars := parents_of_parent s x p hp hl
      have hps := hpar p hp
      have hl2 := (wfLinks_at hwf hps).2.2.2.2
      rw [hpars] at hm
      have hpin : p = r ∨ r ∈ parents s p := by
        rcases List.mem_cons.mp hm with e | h
        · rw [← e]; exact hmin
        · rcases hmin with e | h2
          · rw [← e]; exact Or.inr h
          · exact Or.inr (parents_trans s p m r hl2 h h2)
      have hxr : x ≠ r := inside_ne_root s hwf r x p hx hp hpin
      have hb := beforePush_child s start r x p hp hl hxr
      have hpp : (afterPush s start r p).clip.containsPoint pt = true := by
        have : afterPush s start r x = ((afterPush s start r p).push s x).2 := by
          rw [← hb]; rfl
        rw [this] at hpt
        simp only [PositionRebuilder.push] at hpt
        exact ((containsPoint_ofIntersect _ _ pt).mp hpt).1
      rcases List.mem_cons.mp hm with e | h
      · rw [e]; exact hpp
      · exact ih p (by rw [hpars] at hlen; simpa using hlen) hps h pt hpp

theorem filterMap_flatMap_filter {α β γ : Type} (f : α → List β) (g : α → List γ)
    (ev : β → Option Event) (good : γ → Bool) (mk : γ → Event) :
    ∀ (l : List α), (∀ c ∈ l, (f c).filterMap ev = ((g c).filter good).map mk) →
      (l.flatMap f).filterMap ev = ((l.flatMap g).filter good).map mk
  | [], _ => by simp
  | a :: l, h => by
    simp only [List.flatMap_cons, List.filterMap_append, List.filter_append, List.map_append]
    rw [h a (List.mem_cons_self _ _),
      filterMap_flatMap_filter f g ev good mk l (fun c hc => h c (List.mem_cons_of_mem _ hc))]

/-- The calls of the paint hook at the values of the range, with `skip()` at
the containers whose clip does not meet the window, are those for the widgets
of the pre-order whose clip meets the window. -/
theorem paintEvents_preorder (s : Store) (hwf : wfTree s = true) (hov : noOverflow s = true)
    (r : Nat) (hroot : s.parent r = Option.none) (window : Rect) :
    ∀ (d m : Nat), m < s.size → (m = r ∨ r ∈ parents s m) →
      (specSeq s (paintSkips s {} r window) d m).filterMap (paintEvent s {} r window) =
        ((preorder s d m).filter (fun w => s.isWidget w &&
          (Rect.ofIntersect window (absolute s w).clip).nonempty)).map
          (fun w => Event.paint w (absolute s w).translation
            (Rect.ofIntersect window (absolute s w).clip)) := by
  have hwfl := wfTree_wfLinks hwf
  intro d
  induction d with
  | zero => intro m _ _; simp [specSeq, preorder]
  | succ d ih =>
    intro m hm hin
    have hA := afterPush_absolute s hwfl hov r hroot _ m rfl hm hin
    obtain ⟨_, _, hcmem⟩ := wfTree_children hwf hm
    have hl := (wfLinks_at hwfl hm).2.2.2.2
    have hcin : ∀ c ∈ children s m, c < s.size ∧ (c = r ∨ r ∈ parents s c) := by
      intro c hc
      obtain ⟨hcs, hcp⟩ := hcmem c hc
      refine ⟨hcs, Or.inr ?_⟩
      rw [parents_of_parent s c m hcp (wfLinks_at hwfl hcs).2.2.2.2]
      rcases hin with e | h
      · rw [e]; exact List.mem_cons_self _ _
      · exact List.mem_cons_of_mem _ h
    simp only [specSeq, preorder]
    by_cases hleaf : (s.isWidget m || (children s m).isEmpty) = true
    · rw [if_pos hleaf]
      by_cases hw : s.isWidget m = true
      · have hc : s.isContainer m = false := by
          simp only [Store.isContainer, Store.isWidget] at hw ⊢; simp [hw]
        simp only [hc, Bool.false_eq_true, if_false, List.filterMap_cons, List.filterMap_nil,
          paintEvent, hA, asRebuilder, hw, Bool.true_and,
          show (AcceptState.Leaf != AcceptState.Post) = true from rfl, List.filter_cons,
          List.filter_nil]
        by_cases hne : (Rect.ofIntersect window (absolute s m).clip).nonempty = true
        · simp [hne]
        · simp [hne]
      · simp only [Bool.not_eq_true] at hw
        have he : (children s m).isEmpty = true := by simpa [hw] using hleaf
        have he2 : children s m = [] := List.isEmpty_iff.mp he
        simp [paintEvent, hw, he2]
    · rw [if_neg hleaf]
      simp only [Bool.not_eq_true, Bool.or_eq_false_iff] at hleaf
      obtain ⟨hw, hne⟩ := hleaf
      have hc : s.isContainer m = true := by
        simp only [Store.isContainer, Store.isWidget] at hw ⊢; simp [hw]
      simp only [hc, if_true, List.filter_cons, hw, Bool.false_and, Bool.false_eq_true, if_false]
      by_cases hsk : paintSkips s {} r window m = true
      · rw [if_pos hsk]
        have hnone : ∀ x ∈ (children s m).flatMap (preorder s d),
            (s.isWidget x && (Rect.ofIntersect window (absolute s x).clip).nonempty) = false := by
          intro x hx
          rw [List.mem_flatMap] at hx
          obtain ⟨c, hc1, hx1⟩ := hx
          obtain ⟨hcs, hcp⟩ := hcmem c hc1
          obtain ⟨hxs, hxc⟩ := preorder_subtree s hwf d c hcs x hx1
          have hxm : m ∈ parents s x := by
            have := subtree_child hwf hcs hxs hcp hxc
            rcases this with e | h
            · exfalso
              have hpc := parents_of_parent s c m hcp (wfLinks_at hwfl hcs).2.2.2.2
              rcases hxc with e2 | h2
              · rw [e2] at e
                exact parent_ne_self hwfl hcs hcp e.symm
              · apply not_mem_parents_self s x (wfLinks_at hwfl hxs).2.2.2.2
                have : m ∈ parents s c := by rw [hpc]; exact List.mem_cons_self _ _
                rw [← e] at this
                exact parents_trans s x c x (wfLinks_at hwfl hxs).2.2.2.2 h2 this
            · exact h
          have hxin : x = r ∨ r ∈ parents s x := by
            rcases hin with e | h
            · rw [← e]; exact Or.inr hxm
            · exact Or.inr (parents_trans s x m r (wfLinks_at hwfl hxs).2.2.2.2 hxm h)
          have hAx := afterPush_absolute s hwfl hov r hroot _ x rfl hxs hxin
          cases hg : (Rect.ofIntersect window (absolute s x).clip).nonempty with
          | false => simp
          | true =>
            exfalso
            obtain ⟨pt, hpt⟩ := (nonempty_iff_point _).mp hg
            rw [containsPoint_ofIntersect] at hpt
            have h1 : (afterPush s {} r x).clip.containsPoint pt = true := by
              rw [hAx]; exact hpt.2
            have h2 := afterPush_clip_inside s hwfl {} r m hin _ x rfl hxs hxm pt h1
            have h3 : (Rect.ofIntersect window (afterPush s {} r m).clip).nonempty = true :=
              (nonempty_iff_point _).mpr ⟨pt, (containsPoint_ofIntersect _ _ pt).mpr ⟨hpt.1, h2⟩⟩
            simp [paintSkips, h3] at hsk
        rw [List.filter_eq_nil_iff.mpr (fun x hx => by rw [hnone x hx]; simp)]
        simp [paintEvent, hw]
      · rw [if_neg hsk]
        simp only [List.filterMap_append, List.filterMap_cons, List.filterMap_nil, paintEvent, hw,
          Bool.and_false, Bool.false_and, Bool.false_eq_true, if_false, List.nil_append,
          List.append_nil]
        exact filterMap_flatMap_filter _ _ _ _ _ (children s m)
          (fun c hc => ih c (hcin c hc).1 (hcin c hc).2)

/-! ## Push and pop during a traversal -/

/-- The pop of a node other than the root of the traversal gives back the
rebuilder that was there before its push. -/
theorem pop_restores (s0 t : Store) (start : PositionRebuilder) (r i : Nat)
    (hwf : wfLinks s0 = true) (hi : i < s0.size) (hin : i = r ∨ r ∈ parents s0 i)
    (hir : i ≠ r) (hsh : SameShape s0 t) (har : ∀ j, (t.node j).area = (s0.node j).area)
    (hcache : ∀ a ∈ insideChain s0 r i,
      (t.node a).clip_space = (afterPush s0 start r a).clip) :
    (afterPush s0 start r i).pop t i = beforePush s0 start r i := by
  have hrp : r ∈ parents s0 i := hin.resolve_left hir
  obtain ⟨_, _, _, _, hlen⟩ := wfLinks_at hwf hi
  cases hp : s0.parent i with
  | none => rw [parents_of_root s0 i hp] at hrp; simp at hrp
  | some p =>
    have hch := insideChain_child s0 r i p hp hlen hir
    exact pop_afterPush s0 t start r i p (by rw [hsh.parent i]; exact hp) (har i)
      (hcache p (by rw [hch]; exact List.mem_cons_self _ _))
      (beforePush_child s0 start r i p hp hlen hir)

/-- At every body of the loop, the rebuilder before a push is the one pushed
down to the parent of the node, and so is the rebuilder after the pop of a
node other than the root of the traversal. -/
theorem pushPopLoop_sound (s0 : Store) (hwf : wfLinks s0 = true) (r : Nat) :
    ∀ (fuel : Nat) (t : Store) (stk : PositionRebuilder) (cur : Accept),
      SameShape s0 t → (∀ j, (t.node j).area = (s0.node j).area) →
      (cur = traverseEnd s0 r ∨ WalkInv s0 r {} t stk cur) →
      ∀ v ∈ pushPopLoop (traverseEnd s0 r) fuel t stk cur,
        (v.state ≠ AcceptState.Post → v.before = beforePush s0 {} r v.node) ∧
        (v.state = AcceptState.Pre → v.after = afterPush s0 {} r v.node) ∧
        (v.state ≠ AcceptState.Pre → v.node ≠ r → v.after = beforePush s0 {} r v.node) := by
  intro fuel
  induction fuel with
  | zero => intro t stk cur _ _ _ v hv; simp [pushPopLoop] at hv
  | succ k ih =>
    intro t stk cur hsh har hinv v hv
    unfold pushPopLoop at hv
    by_cases hs : cur.same (traverseEnd s0 r) = true
    · rw [if_pos hs] at hv; simp at hv
    · rw [if_neg hs] at hv
      have hw : WalkInv s0 r {} t stk cur := by
        rcases hinv with e | h
        · rw [e, accept_same_refl] at hs; exact absurd rfl hs
        · exact h
      cases hnode : cur.node with
      | none => rw [hnode] at hv; simp at hv
      | some i =>
        rw [hnode] at hv
        simp only at hv
        simp only [WalkInv, hnode] at hw
        obtain ⟨hi, hin, hcache, hstk⟩ := hw
        obtain ⟨_, _, _, _, hlen⟩ := wfLinks_at hwf hi
        have hnotin : ∀ a ∈ insideChain s0 r i, a ≠ i := by
          intro a ha e
          apply not_mem_parents_self s0 i hlen
          have := mem_insideChain s0 r i a ha
          rw [e] at this
          exact this
        have hnsop : increment s0 i AcceptState.Post = next_sibling_or_parent s0 i := by
          simp [increment]
        by_cases hP : cur.state = AcceptState.Post
        · -- post visit: pop
          simp only [hP, if_true] at hstk
          have h1 : cur.isPre = false := by simp [Accept.isPre, hP]
          have h2 : cur.isPost = true := by simp [Accept.isPost, hP]
          simp only [h1, h2, Bool.false_eq_true, if_false, if_true, hP] at hv
          rw [hsh.increment, hnsop] at hv
          rcases List.mem_cons.mp hv with e | hrest
          · subst e
            refine ⟨fun h => absurd rfl h, (fun h => by cases h), fun _ hne => ?_⟩
            simp only at hne ⊢
            rw [hstk]
            exact pop_restores s0 t {} r i hwf hi hin hne hsh har hcache
          · refine ih t _ _ hsh har ?_ v hrest
            rw [hstk]
            exact walk_after_pop s0 t {} r i hwf hi hin hsh har hcache
        · simp only [if_neg hP] at hstk
          obtain ⟨hstk, hpl⟩ := hstk
          have h1 : cur.isPre = true := by
            simp only [Accept.isPre]; cases hc : cur.state <;> simp_all
          have hpush : stk.push t i =
              (setClipSpace t i (afterPush s0 {} r i).clip, afterPush s0 {} r i) := by
            rw [hstk, push_of_area s0 t _ i (har i)]
            rfl
          have hsh1 : SameShape s0 (setClipSpace t i (afterPush s0 {} r i).clip) :=
            hsh.trans (sameShape_setClipSpace _ _ _)
          have har1 : ∀ j, ((setClipSpace t i (afterPush s0 {} r i).clip).node j).area =
              (s0.node j).area := fun j => by rw [setClipSpace_area, har j]
          have hcache1 : ∀ a ∈ insideChain s0 r i,
              ((setClipSpace t i (afterPush s0 {} r i).clip).node a).clip_space =
                (afterPush s0 {} r a).clip := by
            intro a ha
            rw [setClipSpace_clip_space, if_neg (hnotin a ha)]
            exact hcache a ha
          simp only [h1, if_true, hpush] at hv
          by_cases hPre : cur.state = AcceptState.Pre
          · -- pre visit of a container with children: push and descend
            have h2 : cur.isPost = false := by simp [Accept.isPost, hPre]
            simp only [h2, Bool.false_eq_true, if_false, hPre] at hv
            rw [hsh1.increment] at hv
            rcases List.mem_cons.mp hv with e | hrest
            · subst e
              exact ⟨fun _ => hstk, fun _ => rfl, fun h => absurd rfl h⟩
            · refine ih _ _ _ hsh1 har1 (Or.inr ?_) v hrest
              have hpl' := hpl.symm
              rw [hPre] at hpl'
              unfold pre_or_leaf at hpl'
              split at hpl'
              · rename_i hc
                simp only [Bool.and_eq_true] at hc
                obtain ⟨c1, hfc⟩ := Option.isSome_iff_exists.mp hc.2
                have hinc : increment s0 i AcceptState.Pre =
                    { node := some c1, state := pre_or_leaf s0 c1 } := by
                  simp [increment, next_child, hc.1, hfc]
                rw [hinc]
                apply walk_descend s0 _ {} r i c1 hwf hi hin hfc
                intro a ha
                rcases List.mem_cons.mp ha with e | h
                · rw [e, setClipSpace_clip_space, if_pos rfl]
                · exact hcache1 a h
              · cases hpl'
          · -- visit of a leaf: push and pop
            have hL : cur.state = AcceptState.Leaf := by
              cases hc : cur.state <;> simp_all
            have h2 : cur.isPost = true := by simp [Accept.isPost, hL]
            simp only [h2, if_true, hL] at hv
            rw [hsh1.increment, leaf_increment s0 i (by rw [← hpl, hL])] at hv
            rcases List.mem_cons.mp hv with e | hrest
            · subst e
              refine ⟨fun _ => hstk, (fun h => by cases h), fun _ hne => ?_⟩
              simp only at hne ⊢
              exact pop_restores s0 _ {} r i hwf hi hin hne hsh1 har1 hcache1
            · exact ih _ _ _ hsh1 har1
                (walk_after_pop s0 _ {} r i hwf hi hin hsh1 har1 hcache1) v hrest

/-! ## The function `collides` -/

/-- The first loop of `collides` compares the node with itself: an attached
container whose area is not empty and overlaps the bounds of its parent
collides, whatever its siblings. -/
theorem collides_of_container (hook : Nat → Rect → Bool) (s : Store) (node p : Nat)
    (hn : node < s.size) (hp : s.parent node = some p) (hc : s.isContainer node = true)
    (hne : (s.node node).area.nonempty = true)
    (hov : (Rect.withSize (s.node p).area.size).overlaps (s.node node).area = true) :
    collides hook s node = some true := by
  obtain ⟨k, hk⟩ : ∃ k, s.size = k + 1 := ⟨s.size - 1, by omega⟩
  have hw : s.isWidget node = false := by
    simp only [Store.isContainer, Store.isWidget] at hc ⊢; simpa using hc
  have hself : (s.node node).area.overlaps (s.node node).area = true := by
    rw [overlaps_iff]
    have := (nonempty_iff _).mp hne
    omega
  have hr : collidesRight hook s node (Rect.withSize (s.node p).area.size)
      (s.node node).area = true := by
    simp [collidesRight, hk, siblingList, collidesWith, hov, hself, hw]
  simp [collides, hp, hov, hr]

/-! ## The links after `insert` and `erase` -/

theorem setNext_next (s : Store) (i : Nat) (v : Option Nat) (x : Nat) :
    ((s.modify i (fun n => { n with next_sibling := v })).node x).next_sibling =
      if x = i then v else (s.node x).next_sibling := by
  simp only [modify_node]; split <;> rfl

theorem setNext_prev (s : Store) (i : Nat) (v : Option Nat) (x : Nat) :
    ((s.modify i (fun n => { n with next_sibling := v })).node x).prev_sibling = (s.node x).prev_sibling := by
  simp only [modify_node]; split <;> simp_all

theorem setNext_first (s : Store) (i : Nat) (v : Option Nat) (x : Nat) :
    ((s.modify i (fun n => { n with next_sibling := v })).node x).first_child = (s.node x).first_child := by
  simp only [modify_node]; split <;> simp_all

theorem setNext_last (s : Store) (i : Nat) (v : Option Nat) (x : Nat) :
    ((s.modify i (fun n => { n with next_sibling := v })).node x).last_child = (s.node x).last_child := by
  simp only [modify_node]; split <;> simp_all

theorem setNext_parent (s : Store) (i : Nat) (v : Option Nat) (x : Nat) :
    ((s.modify i (fun n => { n with next_sibling := v })).node x).parent = (s.node x).parent := by
  simp only [modify_node]; split <;> simp_all

theorem setPrev_next (s : Store) (i : Nat) (v : Option Nat) (x : Nat) :
    ((s.modify i (fun n => { n with prev_sibling := v })).node x).next_sibling = (s.node x).next_sibling := by
  simp only [modify_node]; split <;> simp_all

theorem setPrev_prev (s : Store) (i : Nat) (v : Option Nat) (x : Nat) :
    ((s.modify i (fun n => { n with prev_sibling := v })).node x).prev_sibling =
      if x = i then v else (s.node x).prev_sibling := by
  simp only [modify_node]; split <;> rfl

theorem setPrev_first (s : Store) (i : Nat) (v : Option Nat) (x : Nat) :
    ((s.modify i (fun n => { n with prev_sibling := v })).node x).first_child = (s.node x).first_child := by
  simp only [modify_node]; split <;> simp_all

theorem setPrev_last (s : Store) (i : Nat) (v : Option Nat) (x : Nat) :
    ((s.modify i (fun n => { n with prev_sibling := v })).node x).last_child = (s.node x).last_child := by
  simp only [modify_node]; split <;> simp_all

theorem setPrev_parent (s : Store) (i : Nat) (v : Option Nat) (x : Nat) :
    ((s.modify i (fun n => { n with prev_sibling := v })).node x).parent = (s.node x).parent := by
  simp only [modify_node]; split <;> simp_all

theorem setFirst_next (s : Store) (i : Nat) (v : Option Nat) (x : Nat) :
    ((s.modify i (fun n => { n with first_child := v })).node x).next_sibling = (s.node x).next_sibling := by
  simp only [modify_node]; split <;> simp_all

theorem setFirst_prev (s : Store) (i : Nat) (v : Option Nat) (x : Nat) :
    ((s.modify i (fun n => { n with first_child := v })).node x).prev_sibling = (s.node x).prev_sibling := by
  simp only [modify_node]; split <;> simp_all

theorem setFirst_first (s : Store) (i : Nat) (v : Option Nat) (x : Nat) :
    ((s.modify i (fun n => { n with first_child := v })).node x).first_child =
      if x = i then v else (s.node x).first_child := by
  simp only [modify_node]; split <;> rfl

theorem setFirst_last (s : Store) (i : Nat) (v : Option Nat) (x : Nat) :
    ((s.modify i (fun n => { n with first_child := v })).node x).last_child = (s.node x).last_child := by
  simp only [modify_node]; split <;> simp_all

theorem setFirst_parent (s : Store) (i : Nat) (v : Option Nat) (x : Nat) :
    ((s.modify i (fun n => { n with first_child := v })).node x).parent = (s.node x).parent := by
  simp only [modify_node]; split <;> simp_all

theorem setLast_next (s : Store) (i : Nat) (v : Option Nat) (x : Nat) :
    ((s.modify i (fun n => { n with last_child := v })).node x).next_sibling = (s.node x).next_sibling := by
  simp only [modify_node]; split <;> simp_all

theorem setLast_prev (s : Store) (i : Nat) (v : Option Nat) (x : Nat) :
    ((s.modify i (fun n => { n with last_child := v })).node x).prev_sibling = (s.node x).prev_sibling := by
  simp only [modify_node]; split <;> simp_all

theorem setLast_first (s : Store) (i : Nat) (v : Option Nat) (x : Nat) :
    ((s.modify i (fun n => { n with last_child := v })).node x).first_child = (s.node x).first_child := by
  simp only [modify_node]; split <;> simp_all

theorem setLast_last (s : Store) (i : Nat) (v : Option Nat) (x : Nat) :
    ((s.modify i (fun n => { n with last_child := v })).node x).last_child =
      if x = i then v else (s.node x).last_child := by
  simp only [modify_node]; split <;> rfl

theorem setLast_parent (s : Store) (i : Nat) (v : Option Nat) (x : Nat) :
    ((s.modify i (fun n => { n with last_child := v })).node x).parent = (s.node x).parent := by
  simp only [modify_node]; split <;> simp_all

theorem setParent_next (s : Store) (i : Nat) (v : Option Nat) (x : Nat) :
    ((s.modify i (fun n => { n with parent := v })).node x).next_sibling = (s.node x).next_sibling := by
  simp only [modify_node]; split <;> simp_all

theorem setParent_prev (s : Store) (i : Nat) (v : Option Nat) (x : Nat) :
    ((s.modify i (fun n => { n with parent := v })).node x).prev_sibling = (s.node x).prev_sibling := by
  simp only [modify_node]; split <;> simp_all

theorem setParent_first (s : Store) (i : Nat) (v : Option Nat) (x : Nat) :
    ((s.modify i (fun n => { n with parent := v })).node x).first_child = (s.node x).first_child := by
  simp only [modify_node]; split <;> simp_all

theorem setParent_last (s : Store) (i : Nat) (v : Option Nat) (x : Nat) :
    ((s.modify i (fun n => { n with parent := v })).node x).last_child = (s.node x).last_child := by
  simp only [modify_node]; split <;> simp_all

theorem setParent_parent (s : Store) (i : Nat) (v : Option Nat) (x : Nat) :
    ((s.modify i (fun n => { n with parent := v })).node x).parent =
      if x = i then v else (s.node x).parent := by
  simp only [modify_node]; split <;> rfl

theorem setClip_next (s : Store) (i : Nat) (v : Rect) (x : Nat) :
    ((s.modify i (fun n => { n with clip_space := v })).node x).next_sibling = (s.node x).next_sibling := by
  simp only [modify_node]; split <;> simp_all

theorem setData_next (s : Store) (i : Nat) (v : Vec2) (a : Rect) (x : Nat) :
    ((s.modify i (fun n => { n with constraints := v, area := a })).node x).next_sibling =
      (s.node x).next_sibling := by
  simp only [modify_node]; split <;> simp_all

theorem reflowLink_next (s : Store) (i x : Nat) :
    ((reflow s i).node x).next_sibling = (s.node x).next_sibling :=
  ((sameShape_reflow s i).2 x).2.1

theorem setClip_prev (s : Store) (i : Nat) (v : Rect) (x : Nat) :
    ((s.modify i (fun n => { n with clip_space := v })).node x).prev_sibling = (s.node x).prev_sibling := by
  simp only [modify_node]; split <;> simp_all

theorem setData_prev (s : Store) (i : Nat) (v : Vec2) (a : Rect) (x : Nat) :
    ((s.modify i (fun n => { n with constraints := v, area := a })).node x).prev_sibling =
      (s.node x).prev_sibling := by
  simp only [modify_node]; split <;> simp_all

theorem reflowLink_prev (s : Store) (i x : Nat) :
    ((reflow s i).node x).prev_sibling = (s.node x).prev_sibling :=
  ((sameShape_reflow s i).2 x).2.2.1

theorem setClip_first (s : Store) (i : Nat) (v : Rect) (x : Nat) :
    ((s.modify i (fun n => { n with clip_space := v })).node x).first_child = (s.node x).first_child := by
  simp only [modify_node]; split <;> simp_all

theorem setData_first (s : Store) (i : Nat) (v : Vec2) (a : Rect) (x : Nat) :
    ((s.modify i (fun n => { n with constraints := v, area := a })).node x).first_child =
      (s.node x).first_child := by
  simp only [modify_node]; split <;> simp_all

theorem reflowLink_first (s : Store) (i x : Nat) :
    ((reflow s i).node x).first_child = (s.node x).first_child :=
  ((sameShape_reflow s i).2 x).2.2.2.1

theorem setClip_last (s : Store) (i : Nat) (v : Rect) (x : Nat) :
    ((s.modify i (fun n => { n with clip_space := v })).node x).last_child = (s.node x).last_child := by
  simp only [modify_node]; split <;> simp_all

theorem setData_last (s : Store) (i : Nat) (v : Vec2) (a : Rect) (x : Nat) :
    ((s.modify i (fun n => { n with constraints := v, area := a })).node x).last_child =
      (s.node x).last_child := by
  simp only [modify_node]; split <;> simp_all

theorem reflowLink_last (s : Store) (i x : Nat) :
    ((reflow s i).node x).last_child = (s.node x).last_child :=
  ((sameShape_reflow s i).2 x).2.2.2.2.1

theorem setClip_parent (s : Store) (i : Nat) (v : Rect) (x : Nat) :
    ((s.modify i (fun n => { n with clip_space := v })).node x).parent = (s.node x).parent := by
  simp only [modify_node]; split <;> simp_all

theorem setData_parent (s : Store) (i : Nat) (v : Vec2) (a : Rect) (x : Nat) :
    ((s.modify i (fun n => { n with constraints := v, area := a })).node x).parent =
      (s.node x).parent := by
  simp only [modify_node]; split <;> simp_all

theorem reflowLink_parent (s : Store) (i x : Nat) :
    ((reflow s i).node x).parent = (s.node x).parent :=
  ((sameShape_reflow s i).2 x).1

theorem erase_all_links (s t : Store) (c child : Nat) (ret : Option Nat)
    (h : erase s c child = some (t, ret))
    (hne : child ≠ c)
    (hl : ∀ l, (s.node child).prev_sibling = some l → l ≠ child ∧ l ≠ c)
    (hr : ∀ r, (s.node child).next_sibling = some r → r ≠ child ∧ r ≠ c ∧
      (s.node child).prev_sibling ≠ some r) :
    ret = (s.node child).next_sibling ∧ t.size = s.size ∧
    (∀ x, (t.node x).next_sibling =
      if some x = (s.node child).prev_sibling then (s.node child).next_sibling
      else if x = child then Option.none else (s.node x).next_sibling) ∧
    (∀ x, (t.node x).prev_sibling =
      if some x = (s.node child).next_sibling then (s.node child).prev_sibling
      else if x = child then Option.none else (s.node x).prev_sibling) ∧
    (∀ x, (t.node x).first_child =
      if x = c ∧ (s.node child).prev_sibling = Option.none then (s.node child).next_sibling
      else (s.node x).first_child) ∧
    (∀ x, (t.node x).last_child =
      if x = c ∧ (s.node child).next_sibling = Option.none then (s.node child).prev_sibling
      else (s.node x).last_child) ∧
    (∀ x, (t.node x).parent = if x = child then Option.none else (s.node x).parent) := by
  have hcne : c ≠ child := fun e => hne e.symm
  obtain ⟨hsz, hpt, _⟩ := erase_shape s t c child ret h
  unfold erase at h
  simp only at h
  split at h
  · simp only [Option.some.injEq, Prod.mk.injEq] at h
    obtain ⟨ht1, ht2⟩ := h
    simp only [setNext_next, setNext_prev, setNext_first, setNext_last, setNext_parent, setPrev_next, setPrev_prev, setPrev_first, setPrev_last, setPrev_parent, setFirst_next, setFirst_prev, setFirst_first, setFirst_last, setFirst_parent, setLast_next, setLast_prev, setLast_first, setLast_last, setLast_parent, setParent_next, setParent_prev, setParent_first, setParent_last, setParent_parent, setClip_next, setData_next, reflowLink_next, setClip_prev, setData_prev, reflowLink_prev, setClip_first, setData_first, reflowLink_first, setClip_last, setData_last, reflowLink_last, setClip_parent, setData_parent, reflowLink_parent] at ht1 ht2
    refine ⟨ht2.symm, hsz, ?_, ?_, ?_, ?_, hpt⟩
    all_goals
      intro x
      rw [← ht1]
      cases hleft : (s.node child).prev_sibling with
      | none =>
        cases hright : (s.node child).next_sibling with
        | none =>
          simp only [setNext_next, setNext_prev, setNext_first, setNext_last, setNext_parent, setPrev_next, setPrev_prev, setPrev_first, setPrev_last, setPrev_parent, setFirst_next, setFirst_prev, setFirst_first, setFirst_last, setFirst_parent, setLast_next, setLast_prev, setLast_first, setLast_last, setLast_parent, setParent_next, setParent_prev, setParent_first, setParent_last, setParent_parent, setClip_next, setData_next, reflowLink_next, setClip_prev, setData_prev, reflowLink_prev, setClip_first, setData_first, reflowLink_first, setClip_last, setData_last, reflowLink_last, setClip_parent, setData_parent, reflowLink_parent]
          by_cases hx : x = child <;> by_cases hxc : x = c <;> simp [hx, hxc, hne, hcne, hleft, hright]
        | some r =>
          obtain ⟨hrch, hrc, _⟩ := hr r hright
          simp only [setNext_next, setNext_prev, setNext_first, setNext_last, setNext_parent, setPrev_next, setPrev_prev, setPrev_first, setPrev_last, setPrev_parent, setFirst_next, setFirst_prev, setFirst_first, setFirst_last, setFirst_parent, setLast_next, setLast_prev, setLast_first, setLast_last, setLast_parent, setParent_next, setParent_prev, setParent_first, setParent_last, setParent_parent, setClip_next, setData_next, reflowLink_next, setClip_prev, setData_prev, reflowLink_prev, setClip_first, setData_first, reflowLink_first, setClip_last, setData_last, reflowLink_last, setClip_parent, setData_parent, reflowLink_parent]
          by_cases hx : x = child <;> by_cases hxc : x = c <;> by_cases hxr : x = r <;>
            simp [hx, hxc, hxr, hne, hcne, hleft, hright, hrch, hrc, Ne.symm hrch, Ne.symm hrc]
      | some l =>
        obtain ⟨hlch, hlcc⟩ := hl l hleft
        cases hright : (s.node child).next_sibling with
        | none =>
          simp only [setNext_next, setNext_prev, setNext_first, setNext_last, setNext_parent, setPrev_next, setPrev_prev, setPrev_first, setPrev_last, setPrev_parent, setFirst_next, setFirst_prev, setFirst_first, setFirst_last, setFirst_parent, setLast_next, setLast_prev, setLast_first, setLast_last, setLast_parent, setParent_next, setParent_prev, setParent_first, setParent_last, setParent_parent, setClip_next, setData_next, reflowLink_next, setClip_prev, setData_prev, reflowLink_prev, setClip_first, setData_first, reflowLink_first, setClip_last, setData_last, reflowLink_last, setClip_parent, setData_parent, reflowLink_parent]
          by_cases hx : x = child <;> by_cases hxc : x = c <;> by_cases hxl : x = l <;>
            simp [hx, hxc, hxl, hne, hcne, hleft, hright, hlch, hlcc, Ne.symm hlch, Ne.symm hlcc]
        | some r =>
          obtain ⟨hrch, hrc, hlr⟩ := hr r hright
          have hlr1 : l ≠ r := fun e => hlr (by rw [hleft, e])
          simp only [setNext_next, setNext_prev, setNext_first, setNext_last, setNext_parent, setPrev_next, setPrev_prev, setPrev_first, setPrev_last, setPrev_parent, setFirst_next, setFirst_prev, setFirst_first, setFirst_last, setFirst_parent, setLast_next, setLast_prev, setLast_first, setLast_last, setLast_parent, setParent_next, setParent_prev, setParent_first, setParent_last, setParent_parent, setClip_next, setData_next, reflowLink_next, setClip_prev, setData_prev, reflowLink_prev, setClip_first, setData_first, reflowLink_first, setClip_last, setData_last, reflowLink_last, setClip_parent, setData_parent, reflowLink_parent]
          by_cases hx : x = child <;> by_cases hxc : x = c <;> by_cases hxl : x = l <;>
            by_cases hxr : x = r <;>
            simp [hx, hxc, hxl, hxr, hne, hcne, hleft, hright, hlch, hlcc, Ne.symm hlch,
              Ne.symm hlcc, hrch, hrc, Ne.symm hrch, Ne.symm hrc, hlr1, Ne.symm hlr1]
  · cases h

theorem insert_all_links (s t : Store) (c child : Nat) (pos : Option Nat)
    (h : insert s c pos child = some t)
    (hl : ∀ l, (match pos with
        | some p => (s.node p).prev_sibling
        | Option.none => (s.node c).last_child) = some l → l ≠ child ∧ l ≠ c)
    (hp : ∀ p, pos = some p → p ≠ child ∧ p ≠ c ∧ (s.node p).prev_sibling ≠ some p) :
    t.size = s.size ∧ child ≠ c ∧ s.parent child = Option.none ∧
    (∀ x, (t.node x).next_sibling =
      if some x = (match pos with
        | some p => (s.node p).prev_sibling
        | Option.none => (s.node c).last_child) then some child
      else if x = child then pos else (s.node x).next_sibling) ∧
    (∀ x, (t.node x).prev_sibling =
      if some x = pos then some child
      else if x = child then (match pos with
        | some p => (s.node p).prev_sibling
        | Option.none => (s.node c).last_child) else (s.node x).prev_sibling) ∧
    (∀ x, (t.node x).first_child =
      if x = c ∧ (match pos with
        | some p => (s.node p).prev_sibling
        | Option.none => (s.node c).last_child) = Option.none then some child
      else (s.node x).first_child) ∧
    (∀ x, (t.node x).last_child =
      if x = c ∧ pos = Option.none then some child else (s.node x).last_child) ∧
    (∀ x, (t.node x).parent = if x = child then some c else (s.node x).parent) := by
  obtain ⟨hsz, hpt, _, hroot, hne⟩ := insert_fields s t c child pos h
  have hcne : c ≠ child := fun e => hne e.symm
  refine ⟨hsz, hne, hroot, ?_⟩
  unfold insert at h
  simp only at h
  split at h
  · simp at h
  · split at h
    · simp at h
    · split at h
      · simp at h
      · split at h
        · simp at h
        · rename_i hnx
          split at h
          · simp at h
          · rename_i hpv
            simp only [Bool.not_eq_true, Option.not_isSome, Option.isNone_iff_eq_none] at hnx hpv
            split at h
            · simp only [Option.some.injEq] at h
              subst h
              refine ⟨?_, ?_, ?_, ?_, hpt⟩
              all_goals
                intro x
                cases pos with
                | none =>
                  simp only at hl ⊢
                  rcases Option.eq_none_or_eq_some (s.node c).last_child with hleft | ⟨l, hleft⟩
                  · simp only [setNext_next, setNext_prev, setNext_first, setNext_last, setNext_parent, setPrev_next, setPrev_prev, setPrev_first, setPrev_last, setPrev_parent, setFirst_next, setFirst_prev, setFirst_first, setFirst_last, setFirst_parent, setLast_next, setLast_prev, setLast_first, setLast_last, setLast_parent, setParent_next, setParent_prev, setParent_first, setParent_last, setParent_parent, setClip_next, setData_next, reflowLink_next, setClip_prev, setData_prev, reflowLink_prev, setClip_first, setData_first, reflowLink_first, setClip_last, setData_last, reflowLink_last, setClip_parent, setData_parent, reflowLink_parent, hleft]
                    by_cases hx : x = child <;> by_cases hxc : x = c <;>
                      simp [hx, hxc, hne, hcne, hnx, hpv]
                  · obtain ⟨hlch, hlc⟩ := hl l hleft
                    simp only [setNext_next, setNext_prev, setNext_first, setNext_last, setNext_parent, setPrev_next, setPrev_prev, setPrev_first, setPrev_last, setPrev_parent, setFirst_next, setFirst_prev, setFirst_first, setFirst_last, setFirst_parent, setLast_next, setLast_prev, setLast_first, setLast_last, setLast_parent, setParent_next, setParent_prev, setParent_first, setParent_last, setParent_parent, setClip_next, setData_next, reflowLink_next, setClip_prev, setData_prev, reflowLink_prev, setClip_first, setData_first, reflowLink_first, setClip_last, setData_last, reflowLink_last, setClip_parent, setData_parent, reflowLink_parent, hleft]
                    by_cases hx : x = child <;> by_cases hxc : x = c <;> by_cases hxl : x = l <;>
                      simp [hx, hxc, hxl, hne, hcne, hnx, hpv, hlch, hlc, Ne.symm hlch,
                        Ne.symm hlc]
                | some p =>
                  obtain ⟨hpch, hpc, hpp⟩ := hp p rfl
                  simp only at hl ⊢
                  rcases Option.eq_none_or_eq_some (s.node p).prev_sibling with hleft | ⟨l, hleft⟩
                  · simp only [setNext_next, setNext_prev, setNext_first, setNext_last, setNext_parent, setPrev_next, setPrev_prev, setPrev_first, setPrev_last, setPrev_parent, setFirst_next, setFirst_prev, setFirst_first, setFirst_last, setFirst_parent, setLast_next, setLast_prev, setLast_first, setLast_last, setLast_parent, setParent_next, setParent_prev, setParent_first, setParent_last, setParent_parent, setClip_next, setData_next, reflowLink_next, setClip_prev, setData_prev, reflowLink_prev, setClip_first, setData_first, reflowLink_first, setClip_last, setData_last, reflowLink_last, setClip_parent, setData_parent, reflowLink_parent, hleft]
                    by_cases hx : x = child <;> by_cases hxc : x = c <;> by_cases hxp : x = p <;>
                      simp [hx, hxc, hxp, hne, hcne, hnx, hpv, hpch, hpc, Ne.symm hpch,
                        Ne.symm hpc]
                  · obtain ⟨hlch, hlc⟩ := hl l hleft
                    have hlp : l ≠ p := fun e => hpp (by rw [hleft, e])
                    simp only [setNext_next, setNext_prev, setNext_first, setNext_last, setNext_parent, setPrev_next, setPrev_prev, setPrev_first, setPrev_last, setPrev_parent, setFirst_next, setFirst_prev, setFirst_first, setFirst_last, setFirst_parent, setLast_next, setLast_prev, setLast_first, setLast_last, setLast_parent, setParent_next, setParent_prev, setParent_first, setParent_last, setParent_parent, setClip_next, setData_next, reflowLink_next, setClip_prev, setData_prev, reflowLink_prev, setClip_first, setData_first, reflowLink_first, setClip_last, setData_last, reflowLink_last, setClip_parent, setData_parent, reflowLink_parent, hleft]
                    by_cases hx : x = child <;> by_cases hxc : x = c <;> by_cases hxp : x = p <;>
                      by_cases hxl : x = l <;>
                      simp [hx, hxc, hxp, hxl, hne, hcne, hnx, hpv, hpch, hpc, Ne.symm hpch,
                        Ne.symm hpc, hlch, hlc, Ne.symm hlch, Ne.symm hlc, hlp, Ne.symm hlp]
            · simp at h

/-! ## Well formed child lists -/

theorem lastOr_eq_getLast : ∀ (L : List Nat) (p : Option Nat), L ≠ [] →
    lastOr L p = L.getLast? := by
  intro L
  induction L with
  | nil => intro p h; exact absurd rfl h
  | cons a L ih =>
    intro p _
    rw [lastOr]
    cases L with
    | nil => rfl
    | cons b L' =>
      rw [ih (some a) (by simp), List.getLast?_cons_cons]

theorem lastOr_none (L : List Nat) : lastOr L Option.none = L.getLast? := by
  cases L with
  | nil => rfl
  | cons a L => exact lastOr_eq_getLast _ _ (by simp)

theorem lastOr_mem (L : List Nat) (p : Option Nat) (l : Nat) (h : lastOr L p = some l) :
    l ∈ L ∨ (L = [] ∧ p = some l) := by
  induction L generalizing p with
  | nil => right; exact ⟨rfl, h⟩
  | cons a L ih =>
    rw [lastOr] at h
    rcases ih (some a) h with h1 | ⟨h1, h2⟩
    · left; exact List.mem_cons_of_mem _ h1
    · left; simp only [Option.some.injEq] at h2; rw [h2]; exact List.mem_cons_self _ _

theorem lastOr_append_cons (A : List Nat) (x : Nat) (p : Option Nat) :
    lastOr (A ++ [x]) p = some x := by
  induction A generalizing p with
  | nil => rfl
  | cons a A ih => simp only [List.cons_append, lastOr]; exact ih _

theorem headOr_append (A B : List Nat) (e : Option Nat) :
    headOr (A ++ B) e = headOr A (headOr B e) := by
  cases A <;> rfl

theorem headOr_mem (L : List Nat) (e : Option Nat) (h : Nat) (hh : headOr L e = some h) :
    h ∈ L ∨ (L = [] ∧ e = some h) := by
  cases L with
  | nil => right; exact ⟨rfl, hh⟩
  | cons a L =>
    left
    simp only [headOr, Option.some.injEq] at hh
    rw [← hh]; exact List.mem_cons_self _ _

theorem linked_iff_linkedFrom (s : Store) :
    ∀ (L : List Nat) (p : Option Nat), linkedFrom s p L = true ↔ Linked s p L Option.none := by
  intro L
  induction L with
  | nil => intro p; simp [linkedFrom, Linked]
  | cons x rest ih =>
    intro p
    simp only [linkedFrom, Linked, Bool.and_eq_true, beq_iff_eq, ih, headOr_none]
    constructor
    · rintro ⟨⟨h1, h2⟩, h3⟩; exact ⟨h1, h2, h3⟩
    · rintro ⟨h1, h2, h3⟩; exact ⟨⟨h1, h2⟩, h3⟩

theorem linked_append (s : Store) (B : List Nat) (e : Option Nat) :
    ∀ (A : List Nat) (p : Option Nat),
      Linked s p (A ++ B) e ↔ Linked s p A (headOr B e) ∧ Linked s (lastOr A p) B e := by
  intro A
  induction A with
  | nil => intro p; simp [Linked, lastOr]
  | cons a A ih =>
    intro p
    have e1 : (a :: A) ++ B = a :: (A ++ B) := rfl
    rw [e1]
    simp only [Linked, lastOr]
    rw [ih (some a), headOr_append]
    constructor
    · rintro ⟨h1, h2, h3, h4⟩; exact ⟨⟨h1, h2, h3⟩, h4⟩
    · rintro ⟨⟨h1, h2, h3⟩, h4⟩; exact ⟨h1, h2, h3, h4⟩

theorem linked_congr (s t : Store) (e : Option Nat) :
    ∀ (L : List Nat) (p : Option Nat), Linked s p L e →
      (∀ y ∈ L, (t.node y).prev_sibling = (s.node y).prev_sibling ∧
        (t.node y).next_sibling = (s.node y).next_sibling) →
      Linked t p L e := by
  intro L
  induction L with
  | nil => intro _ _ _; trivial
  | cons x rest ih =>
    intro p h hy
    obtain ⟨h1, h2, h3⟩ := h
    obtain ⟨e1, e2⟩ := hy x (List.mem_cons_self _ _)
    exact ⟨by rw [e1, h1], by rw [e2, h2],
      ih _ h3 (fun y hm => hy y (List.mem_cons_of_mem _ hm))⟩

/-- The list stays linked when only the successor of its last node changes. -/
theorem linked_set_end (s t : Store) (e e2 : Option Nat) :
    ∀ (A : List Nat) (p : Option Nat), Linked s p A e → A.Nodup →
      (∀ y ∈ A, (t.node y).prev_sibling = (s.node y).prev_sibling) →
      (∀ y ∈ A, some y ≠ A.getLast? → (t.node y).next_sibling = (s.node y).next_sibling) →
      (∀ l, A.getLast? = some l → (t.node l).next_sibling = e2) →
      Linked t p A e2 := by
  intro A
  induction A with
  | nil => intro _ _ _ _ _ _; trivial
  | cons a A ih =>
    intro p h hnd hprev hnext hlast
    obtain ⟨h1, h2, h3⟩ := h
    obtain ⟨haA, hndA⟩ := List.nodup_cons.mp hnd
    refine ⟨by rw [hprev a (List.mem_cons_self _ _), h1], ?_, ?_⟩
    · cases A with
      | nil => exact hlast a rfl
      | cons b A' =>
        rw [hnext a (List.mem_cons_self _ _), h2]
        · rfl
        · intro hl
          have : a ∈ b :: A' := by
            have := List.mem_of_getLast?_eq_some hl.symm
            rcases List.mem_cons.mp this with e1 | e1
            · exact absurd rfl (fun _ : a = a => haA (by
                have hl2 : (b :: A').getLast? = some a := by
                  rw [← List.getLast?_cons_cons]; exact hl.symm
                exact List.mem_of_getLast?_eq_some hl2))
            · exact e1
          exact haA this
    · apply ih _ h3 hndA (fun y hy => hprev y (List.mem_cons_of_mem _ hy))
      · intro y hy hne
        apply hnext y (List.mem_cons_of_mem _ hy)
        cases A with
        | nil => simp at hy
        | cons b A' => rw [List.getLast?_cons_cons]; exact hne
      · intro l hl
        apply hlast
        cases A with
        | nil => simp at hl
        | cons b A' => rw [List.getLast?_cons_cons]; exact hl

/-- The list stays linked when only the predecessor of its first node
changes. -/
theorem linked_set_start (s t : Store) (e p p2 : Option Nat) (B : List Nat)
    (h : Linked s p B e) (hnd : B.Nodup)
    (hnext : ∀ y ∈ B, (t.node y).next_sibling = (s.node y).next_sibling)
    (hprev : ∀ y ∈ B, some y ≠ B.head? → (t.node y).prev_sibling = (s.node y).prev_sibling)
    (hfirst : ∀ b, B.head? = some b → (t.node b).prev_sibling = p2) :
    Linked t p2 B e := by
  cases B with
  | nil => trivial
  | cons b B' =>
    obtain ⟨_, h2, h3⟩ := h
    obtain ⟨hbB, _⟩ := List.nodup_cons.mp hnd
    refine ⟨hfirst b rfl, by rw [hnext b (List.mem_cons_self _ _), h2], ?_⟩
    apply linked_congr s t e B' _ h3
    intro y hy
    refine ⟨hprev y (List.mem_cons_of_mem _ hy) ?_, hnext y (List.mem_cons_of_mem _ hy)⟩
    simp only [List.head?_cons, ne_eq, Option.some.injEq]
    intro e1
    exact hbB (e1 ▸ hy)

theorem childList_intro (s : Store) (c : Nat) (L : List Nat)
    (h1 : (s.node c).first_child = L.head?) (h2 : (s.node c).last_child = L.getLast?)
    (h3 : Linked s Option.none L Option.none) (h4 : L.Nodup) (h5 : c ∉ L)
    (h6 : ∀ x ∈ L, s.parent x = some c) : childList s c L = true := by
  unfold childList
  simp only [Bool.and_eq_true, beq_iff_eq, decide_eq_true_eq, List.all_eq_true]
  exact ⟨⟨⟨⟨⟨h1, h2⟩, (linked_iff_linkedFrom s L _).mpr h3⟩, h4⟩, h5⟩, h6⟩

theorem children_of_childList (s : Store) (c : Nat) (L : List Nat)
    (h : childList s c L = true) (hc : c < s.size) (hin : ∀ x ∈ L, x < s.size) :
    children s c = L := by
  obtain ⟨hfc, _, hlink, hnd, hcL⟩ := childList_unfold h
  have hlen := length_lt_of_nodup L s.size c hnd hin hc hcL
  unfold children
  rw [hfc]
  exact siblingList_of_nextLinked s L s.size (nextLinked_of_linkedFrom s L _ hlink) (by omega)

theorem wfLists_iff (s : Store) : wfLists s = true ↔ ListsWF s := by
  unfold wfLists ListsWF
  simp only [Bool.and_eq_true, List.all_eq_true, List.mem_range, decide_eq_true_eq,
    Bool.or_eq_true, Bool.not_eq_true', beq_eq_false_iff_ne, ne_eq, List.contains_eq_any_beq,
    List.any_eq_true, beq_iff_eq]
  constructor
  · rintro ⟨h1, h2⟩
    refine ⟨fun c hc => ⟨children s c, (h1 c hc).1.1, (h1 c hc).1.2, fun x hx hp => ?_⟩,
      fun x hx hp => ?_, fun x p hx hp => ?_⟩
    · rcases (h1 c hc).2 x hx with h | h
      · exact absurd hp h
      · obtain ⟨y, hy, e⟩ := h
        rw [e]; exact hy
    · have := h2 x hx
      rw [hp] at this
      simpa using this
    · have := h2 x hx
      rw [hp] at this
      simpa using this
  · rintro ⟨h1, h2, h3⟩
    refine ⟨fun c hc => ?_, fun x hx => ?_⟩
    · obtain ⟨L, hL, hin, hall⟩ := h1 c hc
      rw [children_of_childList s c L hL hc hin]
      refine ⟨⟨hL, hin⟩, fun x hx => ?_⟩
      by_cases hp : s.parent x = some c
      · right; exact ⟨x, hall x hx hp, rfl⟩
      · left; exact hp
    · cases hp : s.parent x with
      | none => simpa using h2 x hx hp
      | some p => simpa using h3 x p hx hp

theorem erase_guard (s t : Store) (c child : Nat) (ret : Option Nat)
    (h : erase s c child = some (t, ret)) : s.parent child = some c := by
  unfold erase at h
  simp only at h
  split at h
  · rename_i hg
    simp only [Bool.and_eq_true, beq_iff_eq] at hg
    exact hg.1.1.1
  · cases h

theorem lastOpt_append_cons (A B : List Nat) (x : Nat) :
    (A ++ x :: B).getLast? = (x :: B).getLast? := by
  rw [List.getLast?_append]
  cases h : (x :: B).getLast? with
  | none => simp at h
  | some l => rfl

theorem headOpt_append_cons (A B : List Nat) (x : Nat) (hA : A ≠ []) :
    (A ++ x :: B).head? = A.head? := by
  cases A with
  | nil => exact absurd rfl hA
  | cons a A => rfl

/-- `Container::erase` keeps the child lists well formed. -/
theorem erase_preserves (s t : Store) (c child : Nat) (ret : Option Nat) (hwf : ListsWF s)
    (hc : c < s.size) (hch : child < s.size) (h : erase s c child = some (t, ret)) :
    ListsWF t := by
  obtain ⟨hlists, hfree, hpin⟩ := hwf
  have hpc := erase_guard s t c child ret h
  obtain ⟨L, hL, hin, hall⟩ := hlists c hc
  obtain ⟨A, B, hAB⟩ := List.append_of_mem (hall child hch hpc)
  subst hAB
  obtain ⟨hfc, hlc, hlink, hnd, hcL⟩ := childList_unfold hL
  have hpar := childList_parent hL
  have hndA : A.Nodup := (List.nodup_append.mp hnd).1
  have hndB : B.Nodup := (List.nodup_cons.mp (List.nodup_append.mp hnd).2.1).2
  have hxA : child ∉ A := fun h => (List.nodup_append.mp hnd).2.2 h (List.mem_cons_self _ _)
  have hxB : child ∉ B := (List.nodup_cons.mp (List.nodup_append.mp hnd).2.1).1
  have hdisj : ∀ y, y ∈ A → y ∈ B → False := fun y ha hb =>
    (List.nodup_append.mp hnd).2.2 ha (List.mem_cons_of_mem _ hb)
  have hxc : child ≠ c := fun e => hcL (by rw [← e]; simp)
  obtain ⟨hnx, hpv0⟩ := linkedFrom_split s A Option.none child B hlink
  have hpv : (s.node child).prev_sibling = A.getLast? := by
    rw [hpv0]; cases A.getLast? <;> rfl
  have hAmem : ∀ l, A.getLast? = some l → l ∈ A := fun l h => List.mem_of_getLast?_eq_some h
  have hBmem : ∀ r, B.head? = some r → r ∈ B := fun r h => List.mem_of_mem_head? h
  have hparA : ∀ y ∈ A, s.parent y = some c := fun y hy => hpar y (List.mem_append_left _ hy)
  have hparB : ∀ y ∈ B, s.parent y = some c := fun y hy =>
    hpar y (List.mem_append_right _ (List.mem_cons_of_mem _ hy))
  have hcA : c ∉ A := fun h => hcL (List.mem_append_left _ h)
  have hcB : c ∉ B := fun h => hcL (List.mem_append_right _ (List.mem_cons_of_mem _ h))
  obtain ⟨_, hsz, fnext, fprev, ffirst, flast, fparent⟩ := erase_all_links s t c child ret h hxc
    (by
      intro l hl
      rw [hpv] at hl
      have := hAmem l hl
      exact ⟨fun e => hxA (e ▸ this), fun e => hcA (e ▸ this)⟩)
    (by
      intro r hr
      rw [hnx] at hr
      have := hBmem r hr
      refine ⟨fun e => hxB (e ▸ this), fun e => hcB (e ▸ this), ?_⟩
      rw [hpv]
      intro e
      exact hdisj r (hAmem r e) this)
  rw [hnx, hpv] at fnext fprev ffirst flast
  -- the links of the nodes of A, of B and of the other nodes
  have hneA : ∀ y ∈ A, y ≠ child := fun y hy e => hxA (e ▸ hy)
  have hneB : ∀ y ∈ B, y ≠ child := fun y hy e => hxB (e ▸ hy)
  have nextA : ∀ y ∈ A, some y ≠ A.getLast? → (t.node y).next_sibling = (s.node y).next_sibling := by
    intro y hy hne
    rw [fnext y, if_neg hne, if_neg (hneA y hy)]
  have prevA : ∀ y ∈ A, (t.node y).prev_sibling = (s.node y).prev_sibling := by
    intro y hy
    rw [fprev y, if_neg (fun e => hdisj y hy (hBmem y e.symm)), if_neg (hneA y hy)]
  have nextB : ∀ y ∈ B, (t.node y).next_sibling = (s.node y).next_sibling := by
    intro y hy
    rw [fnext y, if_neg (fun e => hdisj y (hAmem y e.symm) hy), if_neg (hneB y hy)]
  have prevB : ∀ y ∈ B, some y ≠ B.head? → (t.node y).prev_sibling = (s.node y).prev_sibling := by
    intro y hy hne
    rw [fprev y, if_neg hne, if_neg (hneB y hy)]
  have other : ∀ y, s.parent y ≠ some c →
      (t.node y).prev_sibling = (s.node y).prev_sibling ∧
        (t.node y).next_sibling = (s.node y).next_sibling := by
    intro y hy
    have hyc : y ≠ child := fun e => hy (e ▸ hpc)
    constructor
    · rw [fprev y, if_neg (fun e => hy (hparB y (hBmem y e.symm))), if_neg hyc]
    · rw [fnext y, if_neg (fun e => hy (hparA y (hAmem y e.symm))), if_neg hyc]
  have hs := (linked_iff_linkedFrom s _ _).mp hlink
  rw [linked_append] at hs
  obtain ⟨hsA, hsx⟩ := hs
  obtain ⟨_, _, hsB⟩ := hsx
  refine ⟨fun c2 hc2 => ?_, fun x hx hp => ?_, fun x p hx hp => ?_⟩
  · rw [hsz] at hc2
    by_cases e : c2 = c
    · subst e
      refine ⟨A ++ B, childList_intro t c2 _ ?_ ?_ ?_ ?_ ?_ ?_, ?_, ?_⟩
      · rw [ffirst c2]
        cases A with
        | nil => simp
        | cons a A' =>
          have : ¬ (c2 = c2 ∧ (a :: A').getLast? = Option.none) := by simp
          rw [if_neg this, hfc]; rfl
      · rw [flast c2]
        cases B with
        | nil => simp
        | cons b B' =>
          have : ¬ (c2 = c2 ∧ (b :: B').head? = Option.none) := by simp
          rw [if_neg this, hlc, lastOpt_append_cons, lastOpt_append_cons,
            List.getLast?_cons_cons]
      · rw [linked_append]
        constructor
        · apply linked_set_end s t _ _ A _ hsA hndA prevA nextA
          intro l hl
          rw [fnext l, if_pos hl.symm, headOr_none]
        · apply linked_set_start s t _ _ _ B hsB hndB nextB prevB
          intro b hb
          rw [fprev b, if_pos hb.symm, lastOr_none]
      · exact List.Nodup.sublist
          (List.Sublist.append (List.Sublist.refl A) (List.sublist_cons_self child B)) hnd
      · intro hm
        rcases List.mem_append.mp hm with h1 | h1
        · exact hcA h1
        · exact hcB h1
      · intro x hx
        have hxch : x ≠ child := by
          rcases List.mem_append.mp hx with h1 | h1
          · exact hneA x h1
          · exact hneB x h1
        simp only [Store.parent]
        rw [fparent x, if_neg hxch]
        rcases List.mem_append.mp hx with h1 | h1
        · exact hparA x h1
        · exact hparB x h1
      · intro x hx
        rw [hsz]
        rcases List.mem_append.mp hx with h1 | h1
        · exact hin x (List.mem_append_left _ h1)
        · exact hin x (List.mem_append_right _ (List.mem_cons_of_mem _ h1))
      · intro x hx hp
        rw [hsz] at hx
        simp only [Store.parent] at hp
        rw [fparent x] at hp
        by_cases hxch : x = child
        · rw [if_pos hxch] at hp; cases hp
        · rw [if_neg hxch] at hp
          have := hall x hx hp
          rcases List.mem_append.mp this with h1 | h1
          · exact List.mem_append_left _ h1
          · rcases List.mem_cons.mp h1 with h2 | h2
            · exact absurd h2 hxch
            · exact List.mem_append_right _ h2
    · obtain ⟨L2, hL2, hin2, hall2⟩ := hlists c2 hc2
      obtain ⟨hfc2, hlc2, hlink2, hnd2, hcL2⟩ := childList_unfold hL2
      have hpar2 := childList_parent hL2
      have hne2 : ∀ y ∈ L2, s.parent y ≠ some c := by
        intro y hy hp
        rw [hpar2 y hy] at hp
        exact e (Option.some.inj hp)
      refine ⟨L2, childList_intro t c2 _ ?_ ?_ ?_ hnd2 hcL2 ?_, ?_, ?_⟩
      · rw [ffirst c2, if_neg (fun h => e h.1), hfc2]
      · rw [flast c2, if_neg (fun h => e h.1), hlc2]
      · exact linked_congr s t _ L2 _ ((linked_iff_linkedFrom s _ _).mp hlink2)
          (fun y hy => other y (hne2 y hy))
      · intro x hx
        simp only [Store.parent]
        have hxch : x ≠ child := fun e2 => hne2 x hx (e2 ▸ hpc)
        rw [fparent x, if_neg hxch]
        exact hpar2 x hx
      · intro x hx; rw [hsz]; exact hin2 x hx
      · intro x hx hp
        rw [hsz] at hx
        simp only [Store.parent] at hp
        rw [fparent x] at hp
        by_cases hxch : x = child
        · rw [if_pos hxch] at hp; cases hp
        · rw [if_neg hxch] at hp
          exact hall2 x hx hp
  · rw [hsz] at hx
    simp only [Store.parent] at hp
    rw [fparent x] at hp
    by_cases hxch : x = child
    · subst hxch
      constructor
      · rw [fnext x, if_neg (fun e => hxA (hAmem x e.symm)), if_pos rfl]
      · rw [fprev x, if_neg (fun e => hxB (hBmem x e.symm)), if_pos rfl]
    · rw [if_neg hxch] at hp
      have hnc : s.parent x ≠ some c := by
        intro e; simp only [Store.parent] at e; rw [hp] at e; cases e
      obtain ⟨e1, e2⟩ := other x hnc
      rw [e1, e2]
      exact hfree x hx hp
  · rw [hsz] at hx ⊢
    simp only [Store.parent] at hp
    rw [fparent x] at hp
    by_cases hxch : x = child
    · rw [if_pos hxch] at hp; cases hp
    · rw [if_neg hxch] at hp
      exact hpin x p hx hp

/-- The links after `Container::insert`, in terms of the node `left` of the
position. -/
theorem insert_links_left (s t : Store) (c child : Nat) (pos left : Option Nat)
    (h : insert s c pos child = some t)
    (hS : ∀ p, pos = some p → (s.node p).prev_sibling = left)
    (hN : pos = Option.none → (s.node c).last_child = left)
    (hl : ∀ l, left = some l → l ≠ child ∧ l ≠ c)
    (hp : ∀ p, pos = some p → p ≠ child ∧ p ≠ c ∧ (s.node p).prev_sibling ≠ some p) :
    t.size = s.size ∧ child ≠ c ∧ s.parent child = Option.none ∧
    (∀ x, (t.node x).next_sibling =
      if some x = left then some child
      else if x = child then pos else (s.node x).next_sibling) ∧
    (∀ x, (t.node x).prev_sibling =
      if some x = pos then some child
      else if x = child then left else (s.node x).prev_sibling) ∧
    (∀ x, (t.node x).first_child =
      if x = c ∧ left = Option.none then some child
      else (s.node x).first_child) ∧
    (∀ x, (t.node x).last_child =
      if x = c ∧ pos = Option.none then some child else (s.node x).last_child) ∧
    (∀ x, (t.node x).parent = if x = child then some c else (s.node x).parent) := by
  cases pos with
  | none =>
    have e := hN rfl
    subst e
    exact insert_all_links s t c child Option.none h hl hp
  | some p =>
    have e := hS p rfl
    subst e
    exact insert_all_links s t c child (some p) h hl hp

/-- `Container::insert` at a position of the list of children keeps the child
lists well formed. -/
theorem insert_preserves (s t : Store) (c child : Nat) (pos : Option Nat) (hwf : ListsWF s)
    (hc : c < s.size) (hch : child < s.size)
    (hpos : ∀ p, pos = some p → p < s.size ∧ s.parent p = some c)
    (h : insert s c pos child = some t) : ListsWF t := by
  obtain ⟨hlists, hfree, hpin⟩ := hwf
  obtain ⟨_, _, _, hroot, hne⟩ := insert_fields s t c child pos h
  obtain ⟨hnx0, hpv0⟩ := hfree child hch hroot
  obtain ⟨L, hL, hin, hall⟩ := hlists c hc
  have hnotL : child ∉ L := by
    intro hm
    have := childList_parent hL child hm
    rw [hroot] at this
    cases this
  obtain ⟨A, B, hAB, hB⟩ : ∃ A B, L = A ++ B ∧ B.head? = pos := by
    cases pos with
    | none => exact ⟨L, [], by simp, rfl⟩
    | some p =>
      obtain ⟨hp1, hp2⟩ := hpos p rfl
      obtain ⟨A, B', hAB⟩ := List.append_of_mem (hall p hp1 hp2)
      exact ⟨A, p :: B', hAB, rfl⟩
  subst hAB
  obtain ⟨hfc, hlc, hlink, hnd, hcL⟩ := childList_unfold hL
  have hpar := childList_parent hL
  have hndA : A.Nodup := (List.nodup_append.mp hnd).1
  have hndB : B.Nodup := (List.nodup_append.mp hnd).2.1
  have hxA : child ∉ A := fun h => hnotL (List.mem_append_left _ h)
  have hxB : child ∉ B := fun h => hnotL (List.mem_append_right _ h)
  have hdisj : ∀ y, y ∈ A → y ∈ B → False := fun y ha hb =>
    (List.nodup_append.mp hnd).2.2 ha hb
  have hAmem : ∀ l, A.getLast? = some l → l ∈ A := fun l h => List.mem_of_getLast?_eq_some h
  have hBmem : ∀ r, B.head? = some r → r ∈ B := fun r h => List.mem_of_mem_head? h
  have hparA : ∀ y ∈ A, s.parent y = some c := fun y hy => hpar y (List.mem_append_left _ hy)
  have hparB : ∀ y ∈ B, s.parent y = some c := fun y hy => hpar y (List.mem_append_right _ hy)
  have hcA : c ∉ A := fun h => hcL (List.mem_append_left _ h)
  have hcB : c ∉ B := fun h => hcL (List.mem_append_right _ h)
  have hneA : ∀ y ∈ A, y ≠ child := fun y hy e => hxA (e ▸ hy)
  have hneB : ∀ y ∈ B, y ≠ child := fun y hy e => hxB (e ▸ hy)
  -- the node left of the position
  have hS : ∀ p, pos = some p → (s.node p).prev_sibling = A.getLast? := by
    intro p hp
    rw [← hB] at hp
    cases B with
    | nil => cases hp
    | cons b B' =>
      simp only [List.head?_cons] at hp
      have e := Option.some.inj hp
      subst e
      rw [(linkedFrom_split s A Option.none b B' hlink).2]
      cases A.getLast? <;> rfl
  have hN : pos = Option.none → (s.node c).last_child = A.getLast? := by
    intro hp
    rw [← hB] at hp
    cases B with
    | nil => rw [hlc, List.append_nil]
    | cons b B' => cases hp
  obtain ⟨hsz, _, _, fnext, fprev, ffirst, flast, fparent⟩ :=
    insert_links_left s t c child pos A.getLast? h hS hN
    (by
      intro l hl
      have := hAmem l hl
      exact ⟨hneA l this, fun e => hcA (e ▸ this)⟩)
    (by
      intro p hp
      have hpB : p ∈ B := hBmem p (by rw [hB, hp])
      refine ⟨hneB p hpB, fun e => hcB (e ▸ hpB), ?_⟩
      rw [hS p hp]
      intro e
      exact hdisj p (hAmem p e) hpB)
  rw [← hB] at fnext fprev flast
  have nextA : ∀ y ∈ A, some y ≠ A.getLast? → (t.node y).next_sibling = (s.node y).next_sibling := by
    intro y hy hne
    rw [fnext y, if_neg hne, if_neg (hneA y hy)]
  have prevA : ∀ y ∈ A, (t.node y).prev_sibling = (s.node y).prev_sibling := by
    intro y hy
    rw [fprev y, if_neg (fun e => hdisj y hy (hBmem y e.symm)), if_neg (hneA y hy)]
  have nextB : ∀ y ∈ B, (t.node y).next_sibling = (s.node y).next_sibling := by
    intro y hy
    rw [fnext y, if_neg (fun e => hdisj y (hAmem y e.symm) hy), if_neg (hneB y hy)]
  have prevB : ∀ y ∈ B, some y ≠ B.head? → (t.node y).prev_sibling = (s.node y).prev_sibling := by
    intro y hy hne
    rw [fprev y, if_neg hne, if_neg (hneB y hy)]
  have other : ∀ y, s.parent y ≠ some c → y ≠ child →
      (t.node y).prev_sibling = (s.node y).prev_sibling ∧
        (t.node y).next_sibling = (s.node y).next_sibling := by
    intro y hy hyc
    constructor
    · rw [fprev y, if_neg (fun e => hy (hparB y (hBmem y e.symm))), if_neg hyc]
    · rw [fnext y, if_neg (fun e => hy (hparA y (hAmem y e.symm))), if_neg hyc]
  have hs := (linked_iff_linkedFrom s _ _).mp hlink
  rw [linked_append] at hs
  obtain ⟨hsA, hsB⟩ := hs
  refine ⟨fun c2 hc2 => ?_, fun x hx hp => ?_, fun x p hx hp => ?_⟩
  · rw [hsz] at hc2
    by_cases e : c2 = c
    · subst e
      refine ⟨A ++ child :: B, childList_intro t c2 _ ?_ ?_ ?_ ?_ ?_ ?_, ?_, ?_⟩
      · rw [ffirst c2]
        cases A with
        | nil => simp
        | cons a A' =>
          have : ¬ (c2 = c2 ∧ (a :: A').getLast? = Option.none) := by simp
          rw [if_neg this, hfc]; rfl
      · rw [flast c2, lastOpt_append_cons]
        cases B with
        | nil => simp
        | cons b B' =>
          have : ¬ (c2 = c2 ∧ (b :: B').head? = Option.none) := by simp
          rw [if_neg this, hlc, lastOpt_append_cons, List.getLast?_cons_cons]
      · rw [linked_append]
        constructor
        · apply linked_set_end s t _ _ A _ hsA hndA prevA nextA
          intro l hl
          rw [fnext l, if_pos hl.symm]
          rfl
        · refine ⟨?_, ?_, ?_⟩
          · rw [fprev child, if_neg (fun e => hxB (hBmem child e.symm)), if_pos rfl,
              lastOr_none]
          · rw [fnext child, if_neg (fun e => hxA (hAmem child e.symm)), if_pos rfl,
              headOr_none]
          · apply linked_set_start s t _ _ _ B hsB hndB nextB prevB
            intro b hb
            rw [fprev b, if_pos hb.symm]
      · rw [List.nodup_append]
        refine ⟨hndA, List.nodup_cons.mpr ⟨hxB, hndB⟩, ?_⟩
        intro y hy hy2
        rcases List.mem_cons.mp hy2 with h1 | h1
        · exact hneA y hy h1
        · exact hdisj y hy h1
      · intro hm
        rcases List.mem_append.mp hm with h1 | h1
        · exact hcA h1
        · rcases List.mem_cons.mp h1 with h2 | h2
          · exact hne h2.symm
          · exact hcB h2
      · intro x hx
        simp only [Store.parent]
        rw [fparent x]
        by_cases hxch : x = child
        · rw [if_pos hxch]
        · rw [if_neg hxch]
          rcases List.mem_append.mp hx with h1 | h1
          · exact hparA x h1
          · rcases List.mem_cons.mp h1 with h2 | h2
            · exact absurd h2 hxch
            · exact hparB x h2
      · intro x hx
        rw [hsz]
        rcases List.mem_append.mp hx with h1 | h1
        · exact hin x (List.mem_append_left _ h1)
        · rcases List.mem_cons.mp h1 with h2 | h2
          · rw [h2]; exact hch
          · exact hin x (List.mem_append_right _ h2)
      · intro x hx hp
        rw [hsz] at hx
        simp only [Store.parent] at hp
        rw [fparent x] at hp
        by_cases hxch : x = child
        · rw [hxch]; simp
        · rw [if_neg hxch] at hp
          have := hall x hx hp
          rcases List.mem_append.mp this with h1 | h1
          · exact List.mem_append_left _ h1
          · exact List.mem_append_right _ (List.mem_cons_of_mem _ h1)
    · obtain ⟨L2, hL2, hin2, hall2⟩ := hlists c2 hc2
      obtain ⟨hfc2, hlc2, hlink2, hnd2, hcL2⟩ := childList_unfold hL2
      have hpar2 := childList_parent hL2
      have hne2 : ∀ y ∈ L2, s.parent y ≠ some c := by
        intro y hy hp
        rw [hpar2 y hy] at hp
        exact e (Option.some.inj hp)
      have hne3 : ∀ y ∈ L2, y ≠ child := by
        intro y hy e2
        have := hpar2 y hy
        rw [e2, hroot] at this
        cases this
      refine ⟨L2, childList_intro t c2 _ ?_ ?_ ?_ hnd2 hcL2 ?_, ?_, ?_⟩
      · rw [ffirst c2, if_neg (fun h => e h.1), hfc2]
      · rw [flast c2, if_neg (fun h => e h.1), hlc2]
      · exact linked_congr s t _ L2 _ ((linked_iff_linkedFrom s _ _).mp hlink2)
          (fun y hy => other y (hne2 y hy) (hne3 y hy))
      · intro x hx
        simp only [Store.parent]
        rw [fparent x, if_neg (hne3 x hx)]
        exact hpar2 x hx
      · intro x hx; rw [hsz]; exact hin2 x hx
      · intro x hx hp
        rw [hsz] at hx
        simp only [Store.parent] at hp
        rw [fparent x] at hp
        by_cases hxch : x = child
        · rw [if_pos hxch] at hp
          exact absurd (Option.some.inj hp).symm e
        · rw [if_neg hxch] at hp
          exact hall2 x hx hp
  · rw [hsz] at hx
    simp only [Store.parent] at hp
    rw [fparent x] at hp
    by_cases hxch : x = child
    · rw [if_pos hxch] at hp; cases hp
    · rw [if_neg hxch] at hp
      have hnc : s.parent x ≠ some c := by
        intro e; simp only [Store.parent] at e; rw [hp] at e; cases e
      obtain ⟨e1, e2⟩ := other x hnc hxch
      rw [e1, e2]
      exact hfree x hx hp
  · rw [hsz] at hx ⊢
    simp only [Store.parent] at hp
    rw [fparent x] at hp
    by_cases hxch : x = child
    · rw [if_pos hxch] at hp
      rw [← Option.some.inj hp]; exact hc
    · rw [if_neg hxch] at hp
      exact hpin x p hx hp

/-- `Node::detach` keeps the child lists well formed. -/
theorem detach_preserves (s t : Store) (i : Nat) (hwf : ListsWF s) (hi : i < s.size)
    (h : detach s i = some t) : ListsWF t := by
  unfold detach at h
  rcases Option.eq_none_or_eq_some (s.parent i) with hp | ⟨p, hp⟩
  · rw [hp] at h
    simp only [Option.some.injEq] at h
    rw [← h]; exact hwf
  · rw [hp] at h
    simp only at h
    rcases Option.eq_none_or_eq_some (erase s p i) with he | ⟨⟨t2, ret⟩, he⟩
    · rw [he] at h; cases h
    · rw [he] at h
      simp only [Option.map_some', Option.some.injEq] at h
      subst h
      exact erase_preserves s t2 p i ret hwf (hwf.2.2 i p hi hp) hi he

theorem detach_size (s t : Store) (i : Nat) (h : detach s i = some t) : t.size = s.size := by
  unfold detach at h
  rcases Option.eq_none_or_eq_some (s.parent i) with hp | ⟨p, hp⟩
  · rw [hp] at h
    simp only [Option.some.injEq] at h
    rw [← h]
  · rw [hp] at h
    simp only at h
    rcases Option.eq_none_or_eq_some (erase s p i) with he | ⟨⟨t2, ret⟩, he⟩
    · rw [he] at h; cases h
    · rw [he] at h
      simp only [Option.map_some', Option.some.injEq] at h
      subst h
      exact (erase_fields s t2 p i ret he).1

/-- In well formed child lists the node behind a node is a node of the store
that has this node before it. -/
theorem lists_next (s : Store) (hwf : ListsWF s) (a b : Nat) (ha : a < s.size)
    (h : (s.node a).next_sibling = some b) :
    b < s.size ∧ (s.node b).prev_sibling = some a := by
  obtain ⟨hlists, hfree, hpin⟩ := hwf
  rcases Option.eq_none_or_eq_some (s.parent a) with hp | ⟨c, hp⟩
  · rw [(hfree a ha hp).1] at h; cases h
  · obtain ⟨L, hL, hin, hall⟩ := hlists c (hpin a c ha hp)
    obtain ⟨A, B, hAB⟩ := List.append_of_mem (hall a ha hp)
    subst hAB
    obtain ⟨_, _, hlink, _, _⟩ := childList_unfold hL
    have hs := (linked_iff_linkedFrom s _ _).mp hlink
    rw [linked_append] at hs
    obtain ⟨_, hnx, hrest⟩ := hs.2
    rw [h] at hnx
    cases B with
    | nil => cases hnx
    | cons b2 B2 =>
      simp only [headOr, Option.some.injEq] at hnx
      subst hnx
      exact ⟨hin b (by simp), hrest.1⟩

/-- In well formed child lists the node before a node is a node of the store
that has this node behind it. -/
theorem lists_prev (s : Store) (hwf : ListsWF s) (a b : Nat) (hb : b < s.size)
    (h : (s.node b).prev_sibling = some a) :
    a < s.size ∧ (s.node a).next_sibling = some b := by
  obtain ⟨hlists, hfree, hpin⟩ := hwf
  rcases Option.eq_none_or_eq_some (s.parent b) with hp | ⟨c, hp⟩
  · rw [(hfree b hb hp).2] at h; cases h
  · obtain ⟨L, hL, hin, hall⟩ := hlists c (hpin b c hb hp)
    obtain ⟨A, B, hAB⟩ := List.append_of_mem (hall b hb hp)
    subst hAB
    obtain ⟨_, _, hlink, _, _⟩ := childList_unfold hL
    have hs := (linked_iff_linkedFrom s _ _).mp hlink
    rw [linked_append] at hs
    obtain ⟨hA, hpv, _⟩ := hs
    rw [h, lastOr_none] at hpv
    obtain ⟨A2, hA2⟩ : ∃ A2, A = A2 ++ [a] := by
      rcases List.eq_nil_or_concat A with e | ⟨A2, a2, e⟩
      · rw [e] at hpv; cases hpv
      · refine ⟨A2, ?_⟩
        rw [e, List.concat_eq_append] at hpv ⊢
        rw [lastOpt_append_cons] at hpv
        simp only [List.getLast?_singleton, Option.some.injEq] at hpv
        rw [hpv]
    subst hA2
    rw [linked_append] at hA
    obtain ⟨_, _, hnx, _⟩ := hA
    refine ⟨hin a (by simp), ?_⟩
    rw [hnx]; rfl

/-- The first child has no node before it and the last child no node behind
it. -/
theorem lists_ends (s : Store) (hwf : ListsWF s) (c : Nat) (hc : c < s.size) :
    (∀ f, (s.node c).first_child = some f → (s.node f).prev_sibling = Option.none) ∧
    (∀ l, (s.node c).last_child = some l → (s.node l).next_sibling = Option.none) := by
  obtain ⟨L, hL, hin, hall⟩ := hwf.1 c hc
  obtain ⟨hfc, hlc, hlink, _, _⟩ := childList_unfold hL
  constructor
  · intro f hf
    rw [hfc] at hf
    cases L with
    | nil => cases hf
    | cons x B =>
      simp only [List.head?_cons, Option.some.injEq] at hf
      subst hf
      simp only [linkedFrom, Bool.and_eq_true, beq_iff_eq] at hlink
      exact hlink.1.1
  · intro l hl
    rw [hlc] at hl
    rcases List.eq_nil_or_concat L with e | ⟨A2, a2, e⟩
    · rw [e] at hl; cases hl
    · rw [e, List.concat_eq_append] at hl hlink
      rw [lastOpt_append_cons] at hl
      simp only [List.getLast?_singleton, Option.some.injEq] at hl
      subst hl
      exact (linkedFrom_split s A2 Option.none a2 [] hlink).1

/-- The loop of `Container::clear` keeps the child lists well formed. -/
theorem clearLoop_preserves : ∀ (fuel : Nat) (s t : Store) (cur : Option Nat),
    ListsWF s → (∀ x, cur = some x → x < s.size) → clearLoop fuel s cur = some t →
    ListsWF t := by
  intro fuel
  induction fuel with
  | zero =>
    intro s t cur hwf hcur h
    cases cur with
    | none => simp only [clearLoop, Option.some.injEq] at h; rw [← h]; exact hwf
    | some x => simp [clearLoop] at h
  | succ n ih =>
    intro s t cur hwf hcur h
    cases cur with
    | none => simp only [clearLoop, Option.some.injEq] at h; rw [← h]; exact hwf
    | some x =>
      simp only [clearLoop] at h
      rcases Option.eq_none_or_eq_some (detach s x) with hd | ⟨t2, hd⟩
      · rw [hd] at h; cases h
      · rw [hd] at h
        simp only [Option.some_bind] at h
        refine ih t2 t _ (detach_preserves s t2 x hwf (hcur x rfl) hd) ?_ h
        intro y hy
        rw [detach_size s t2 x hd]
        exact (lists_next s hwf x y (hcur x rfl) hy).1

/-- `Container::clear` keeps the child lists well formed. -/
theorem clear_preserves (s t : Store) (c : Nat) (hwf : ListsWF s) (hc : c < s.size)
    (h : Container.clear s c = some t) : ListsWF t := by
  unfold Container.clear at h
  rcases Option.eq_none_or_eq_some (clearLoop s.size s (s.node c).first_child) with hd | ⟨t2, hd⟩
  · rw [hd] at h; cases h
  · rw [hd] at h
    simp only [Option.some_bind] at h
    split at h
    · simp only [Option.some.injEq] at h
      subst h
      refine clearLoop_preserves _ s t2 _ hwf ?_ hd
      intro x hx
      obtain ⟨L, hL, hin, _⟩ := hwf.1 c hc
      obtain ⟨hfc, _⟩ := childList_unfold hL
      rw [hfc] at hx
      exact hin x (List.mem_of_mem_head? hx)
    · cases h

/-- The loop of `Container::clear` detaches every child when its budget is at
least the number of children. -/
theorem clearLoop_returns (c : Nat) : ∀ (fuel : Nat) (s : Store) (B : List Nat),
    ListsWF s → c < s.size → childList s c B = true → (∀ x ∈ B, x < s.size) →
    B.length ≤ fuel →
    ∃ t, clearLoop fuel s B.head? = some t ∧ (t.node c).first_child = Option.none := by
  intro fuel
  induction fuel with
  | zero =>
    intro s B hwf hc hB hin hlen
    cases B with
    | nil => exact ⟨s, rfl, (childList_unfold hB).1⟩
    | cons x B2 => simp at hlen
  | succ n ih =>
    intro s B hwf hc hB hin hlen
    cases B with
    | nil => exact ⟨s, rfl, (childList_unfold hB).1⟩
    | cons x B2 =>
      have hlt := length_lt_of_nodup (x :: B2) s.size c (childList_unfold hB).2.2.2.1 hin hc
        (childList_unfold hB).2.2.2.2
      obtain ⟨t, he, hch, _⟩ := erase_between s c x [] B2 hB (by
        simp only [List.nil_append, List.length_cons] at hlt ⊢; omega)
      have hwt := erase_preserves s t c x _ hwf hc (hin x (by simp)) he
      have hsz := (erase_fields s t c x _ he).1
      have hd : detach s x = some t := by
        unfold detach
        rw [childList_parent hB x (by simp)]
        simp only [he, Option.map_some']
      have hnx : (s.node x).next_sibling = B2.head? :=
        (linkedFrom_split s [] Option.none x B2 (childList_unfold hB).2.2.1).1
      obtain ⟨L2, hL2, hin2, _⟩ := hwt.1 c (by rw [hsz]; exact hc)
      have e2 := children_of_childList t c L2 hL2 (by rw [hsz]; exact hc) hin2
      rw [hch, List.nil_append] at e2
      subst e2
      obtain ⟨u, hu, hfin⟩ := ih t B2 hwt (by rw [hsz]; exact hc) hL2 hin2
        (by simp only [List.length_cons] at hlen; omega)
      refine ⟨u, ?_, hfin⟩
      simp only [List.head?_cons, clearLoop, hd, Option.some_bind, hnx]
      exact hu

/-- `Container::clear` returns on well formed child lists. -/
theorem clear_returns (s : Store) (c : Nat) (hwf : ListsWF s) (hc : c < s.size) :
    ∃ t, Container.clear s c = some t := by
  obtain ⟨L, hL, hin, _⟩ := hwf.1 c hc
  obtain ⟨hfc, _, _, hnd, hcL⟩ := childList_unfold hL
  have hlt := length_lt_of_nodup L s.size c hnd hin hc hcL
  obtain ⟨t, ht, hfin⟩ := clearLoop_returns c s.size s L hwf hc hL hin (by omega)
  refine ⟨t, ?_⟩
  unfold Container.clear
  rw [hfc, ht]
  simp only [Option.some_bind, hfin, Option.isNone_none, if_true]

/-- A call with valid arguments keeps the child lists well formed. -/
theorem op_preserves (s t : Store) (op : ListOp) (hwf : ListsWF s)
    (hv : op.valid s = true) (h : op.apply s = some t) : ListsWF t := by
  cases op with
  | insert c pos child =>
    simp only [ListOp.valid, Bool.and_eq_true, decide_eq_true_eq] at hv
    refine insert_preserves s t c child pos hwf hv.1.1 hv.1.2 ?_ h
    intro p hp
    have := hv.2
    rw [hp] at this
    simpa using this
  | push_back c child =>
    simp only [ListOp.valid, Bool.and_eq_true, decide_eq_true_eq] at hv
    exact insert_preserves s t c child Option.none hwf hv.1 hv.2 (fun p hp => by cases hp) h
  | push_front c child =>
    simp only [ListOp.valid, Bool.and_eq_true, decide_eq_true_eq] at hv
    refine insert_preserves s t c child _ hwf hv.1 hv.2 ?_ h
    intro p hp
    obtain ⟨L, hL, hin, _⟩ := hwf.1 c hv.1
    rw [(childList_unfold hL).1] at hp
    have hm := List.mem_of_mem_head? hp
    exact ⟨hin p hm, childList_parent hL p hm⟩
  | erase c child =>
    simp only [ListOp.valid, Bool.and_eq_true, decide_eq_true_eq] at hv
    simp only [ListOp.apply] at h
    rcases Option.eq_none_or_eq_some (erase s c child) with he | ⟨⟨t2, ret⟩, he⟩
    · rw [he] at h; cases h
    · rw [he] at h
      simp only [Option.map_some', Option.some.injEq] at h
      subst h
      exact erase_preserves s t2 c child ret hwf hv.1 hv.2 he
  | detach i =>
    simp only [ListOp.valid, decide_eq_true_eq] at hv
    exact detach_preserves s t i hwf hv h
  | clear c =>
    simp only [ListOp.valid, decide_eq_true_eq] at hv
    exact clear_preserves s t c hwf hv h

/-- A sequence of calls with valid arguments keeps the child lists well
formed. -/
theorem ops_preserve : ∀ (ops : List ListOp) (s t : Store), ListsWF s →
    applyOps s ops = some t → ListsWF t := by
  intro ops
  induction ops with
  | nil =>
    intro s t hwf h
    simp only [applyOps, Option.some.injEq] at h
    rw [← h]; exact hwf
  | cons op rest ih =>
    intro s t hwf h
    simp only [applyOps] at h
    split at h
    · rename_i hv
      rcases Option.eq_none_or_eq_some (op.apply s) with he | ⟨t2, he⟩
      · rw [he] at h; cases h
      · rw [he] at h
        simp only [Option.some_bind] at h
        exact ih t2 t (op_preserves s t2 op hwf hv he) h
    · cases h

/-! ### The iteration budget of `layout` -/

theorem layout_while_more (hooks : Hooks) (node : Nat) :
    ∀ (fuel : Nat) (s : Store) (i : Nat) (st : AcceptState) (r : LayoutStep),
      layout_while hooks node fuel s i st = some r →
      layout_while hooks node (fuel + 1) s i st = some r := by
  intro fuel
  induction fuel with
  | zero => intro s i st r h; simp [layout_while] at h
  | succ k ih =>
    intro s i st r h
    unfold layout_while at h ⊢
    cases hp : layout_pass hooks node s i st with
    | none => rw [hp] at h; simp at h
    | some r1 =>
      rw [hp] at h
      simp only at h ⊢
      by_cases hag : r1.again = true
      · rw [if_pos hag] at h ⊢
        exact ih _ _ _ r h
      · rw [if_neg hag] at h ⊢
        exact h

theorem layout_loop_more (hooks : Hooks) (node : Nat) (last : Accept) :
    ∀ (fuel : Nat) (s : Store) (cur : Accept) (res : Store),
      layout_loop hooks node last fuel s cur = some res →
      layout_loop hooks node last (fuel + 1) s cur = some res := by
  intro fuel
  induction fuel with
  | zero =>
    intro s cur res h
    unfold layout_loop at h ⊢
    by_cases hs : cur.same last = true
    · rw [if_pos hs] at h ⊢; exact h
    · rw [if_neg hs] at h; cases h
  | succ k ih =>
    intro s cur res h
    unfold layout_loop at h
    by_cases hs : cur.same last = true
    · rw [if_pos hs] at h
      unfold layout_loop
      rw [if_pos hs]; exact h
    · rw [if_neg hs] at h
      cases hn : cur.node with
      | none => rw [hn] at h; simp at h
      | some i =>
        rw [hn] at h
        simp only at h
        cases hw : layout_while hooks node (k + 1) s i cur.state with
        | none => rw [hw] at h; simp at h
        | some r =>
          rw [hw] at h
          simp only at h
          have hw2 := layout_while_more hooks node (k + 1) s i cur.state r hw
          have h2 := ih _ _ res h
          rw [layout_loop, if_neg hs, hn]
          simp only
          rw [hw2]
          exact h2

theorem layout_more (hooks : Hooks) (surface : Surface) (s u : Store) (node : Nat) :
    ∀ (k fuel : Nat), layout hooks fuel surface s node = some u →
      layout hooks (fuel + k) surface s node = some u := by
  intro k
  induction k with
  | zero => intro fuel h; exact h
  | succ k ih =>
    intro fuel h
    have h1 := ih fuel h
    unfold layout at h1 ⊢
    simp only at h1 ⊢
    split
    · rename_i hb; rw [if_pos hb] at h1; exact h1
    · rename_i hb
      rw [if_neg hb] at h1
      split
      · rename_i hc; rw [if_pos hc] at h1; exact h1
      · rename_i hc
        rw [if_neg hc] at h1
        exact layout_loop_more hooks node _ _ _ _ u h1

/-- The result of `layout` does not depend on the iteration budget when the
budget is large enough for `layout` to return. -/
theorem layout_budget (hooks : Hooks) (surface : Surface) (s u v : Store) (node : Nat)
    (F G : Nat) (hu : layout hooks F surface s node = some u)
    (hv : layout hooks G surface s node = some v) : u = v := by
  have h1 := layout_more hooks surface s u node G F hu
  have h2 := layout_more hooks surface s v node F G hv
  rw [Nat.add_comm] at h2
  rw [h1] at h2
  exact Option.some.inj h2

/-! ### The tree marked dirty as a whole -/

theorem sameShape_markAll (s : Store) : SameShape s (markAll s) :=
  ⟨rfl, fun _ => ⟨rfl, rfl, rfl, rfl, rfl, rfl⟩⟩

theorem sameData_markAll (s : Store) : SameData s (markAll s) := fun _ => ⟨rfl, rfl⟩

theorem markAll_dirty (s : Store) (x : Nat) : (markAll s).isLayoutDirty x = true := rfl

/-! ### An invariant of the loop of `layout` that may use the place of the traversal -/

theorem layout_while_keeps (hooks : Hooks) (s0 : Store) (node : Nat) (hwf : wfTree s0 = true)
    (hcont : s0.isContainer node = true) (Inv : Store → Prop)
    (keep : ∀ (t : Store) (i : Nat) (st : AcceptState) (r : LayoutStep),
      LayoutVisit s0 node t i st → Inv t → layout_pass hooks node t i st = some r →
      Inv r.store) :
    ∀ (fuel : Nat) (t : Store) (i : Nat) (st : AcceptState) (r : LayoutStep),
      LayoutVisit s0 node t i st → Inv t → layout_while hooks node fuel t i st = some r →
      Inv r.store := by
  intro fuel
  induction fuel with
  | zero => intro t i st r _ _ h; simp [layout_while] at h
  | succ k ih =>
    intro t i st r hv hinv h
    unfold layout_while at h
    split at h
    · simp at h
    · rename_i r1 hr1
      obtain ⟨h1, _⟩ := layoutVisit_pass hooks s0 node hwf hcont t i st r1 hv hr1
      have hk := keep t i st r1 hv hinv hr1
      split at h
      · rename_i hag
        exact ih _ _ _ r (h1 hag) hk h
      · simp only [Option.some.injEq] at h
        rw [← h]
        exact hk

theorem layout_loop_keeps (hooks : Hooks) (s0 : Store) (node : Nat) (hwf : wfTree s0 = true)
    (hcont : s0.isContainer node = true) (Inv : Store → Prop)
    (keep : ∀ (t : Store) (i : Nat) (st : AcceptState) (r : LayoutStep),
      LayoutVisit s0 node t i st → Inv t → layout_pass hooks node t i st = some r →
      Inv r.store) :
    ∀ (fuel : Nat) (t : Store) (cur : Accept) (res : Store), Inv t →
      (cur.same (traverseEnd s0 node) = false →
        ∃ i, cur.node = some i ∧ LayoutVisit s0 node t i cur.state) →
      layout_loop hooks node (traverseEnd s0 node) fuel t cur = some res → Inv res := by
  intro fuel
  induction fuel with
  | zero =>
    intro t cur res hinv _ h
    unfold layout_loop at h
    split at h
    · simp only [Option.some.injEq] at h; rw [← h]; exact hinv
    · simp at h
  | succ k ih =>
    intro t cur res hinv hcur h
    unfold layout_loop at h
    split at h
    · simp only [Option.some.injEq] at h; rw [← h]; exact hinv
    · rename_i hsame
      obtain ⟨i, hi, hv⟩ := hcur (by simpa using hsame)
      rw [hi] at h
      simp only at h
      split at h
      · simp at h
      · rename_i r hr
        have hd := layoutVisit_while hooks s0 node hwf hcont _ t i cur.state r hv hr
        have hk := layout_while_keeps hooks s0 node hwf hcont Inv keep _ t i cur.state r hv
          hinv hr
        refine ih _ _ res hk ?_ h
        intro hns
        rcases layoutDone_increment s0 node hwf r.store r.node r.state hd with ⟨_, he⟩ | hj
        · rw [he, same_self] at hns
          simp at hns
        · exact hj

/-! ### One pass of the loop on a tree whose constraints agree -/

theorem setSize_unchanged (s : Store) (i : Nat) (v : Vec2) (h : (setSize s i v).2 = false) :
    (setSize s i v).1 = s := by
  unfold setSize at h ⊢
  split
  · rename_i hne; rw [if_pos hne] at h; cases h
  · rfl

theorem layout_end_unchanged (hooks : Hooks) (s : Store) (node current : Nat)
    (h : (layout_end hooks s node current).2 = false) (hne : current ≠ node) :
    (layout_end hooks s node current).1 = s := by
  unfold layout_end at h ⊢
  split
  · rename_i hc
    rw [if_pos hc] at h
    simp only [hne, ne_eq, not_false_eq_true, if_true] at h ⊢
    exact setSize_unchanged _ _ _ h
  · rename_i hc
    rw [if_neg hc] at h
    exact setSize_unchanged _ _ _ h

theorem layout_end_area (pref : Nat → Vec2) (s : Store) (node i : Nat) :
    ((layout_end (prefHooks pref) s node i).1.node i).area =
      (s.node i).area.sized
        (if s.isContainer i then
          (if i ≠ node then Container.onLayoutEnd s i else (s.node i).constraints)
         else pref i) := by
  unfold layout_end Rect.sized
  by_cases hc : s.isContainer i = true
  · simp only [hc, if_true]
    by_cases hne : i ≠ node
    · simp only [hne, ne_eq, not_false_eq_true, if_true]
      rw [setSize_area]; rfl
    · simp only [hne, if_false]
      rw [setSize_area]
  · simp only [hc, Bool.false_eq_true, if_false]
    rw [setSize_area]; rfl

/-- One pass of the loop `while (true)` of `layout` at a node whose constraints
are those of its parent: the pre part changes nothing. -/
theorem pass_consistent (pref : Nat → Vec2) (node : Nat) (t : Store) (i : Nat)
    (st : AcceptState) (r : LayoutStep)
    (hc : i ≠ node → ∀ p, t.parent i = some p →
      (t.node p).constraints = (t.node i).constraints)
    (h : layout_pass (prefHooks pref) node t i st = some r) :
    r.store = t ∨
    (st ≠ AcceptState.Pre ∧ t.isLayoutDirty i = false ∧ r.store = clearLayoutDirty t i) ∨
    (st ≠ AcceptState.Pre ∧ t.isLayoutDirty i = true ∧
      ((r.store = (layout_end (prefHooks pref) (clearLayoutDirty t i) node i).1 ∧
          ((layout_end (prefHooks pref) (clearLayoutDirty t i) node i).2 = true →
            ∃ p, (layout_end (prefHooks pref) (clearLayoutDirty t i) node i).1.parent i =
                some p ∧
              (layout_end (prefHooks pref) (clearLayoutDirty t i) node i).1.isLayoutDirty p =
                true)) ∨
       ((layout_end (prefHooks pref) (clearLayoutDirty t i) node i).2 = true ∧
          ∃ p, (layout_end (prefHooks pref) (clearLayoutDirty t i) node i).1.parent i =
              some p ∧
            (layout_end (prefHooks pref) (clearLayoutDirty t i) node i).1.isLayoutDirty p =
              false ∧
            r.store = reflow (layout_end (prefHooks pref) (clearLayoutDirty t i) node i).1
              p))) := by
  have hset : i ≠ node → ∀ p, t.parent i = some p →
      (setConstraints t i ((prefHooks pref).onLayoutConstrain t p i)).1 = t := by
    intro hne p hp
    have := hc hne p hp
    simp only [setConstraints, prefHooks, Hooks.base, this, ne_eq, not_true_eq_false, if_false]
  unfold layout_pass at h
  simp only at h
  split at h
  · simp at h
  · rename_i t1 ht1
    have e1 : t1 = t := by
      split at ht1
      · split at ht1
        · rename_i hin
          split at ht1
          · rename_i p hp
            split at ht1
            · simp only [Option.some.injEq] at ht1
              rw [← ht1]; exact hset hin p hp
            · simp only [Option.some.injEq] at ht1; exact ht1.symm
          · simp at ht1
        · simp only [Option.some.injEq] at ht1; exact ht1.symm
      · simp only [Option.some.injEq] at ht1; exact ht1.symm
    subst e1
    split at h
    · simp only [Option.some.injEq] at h
      left; rw [← h]
    · split at h
      · rename_i hpre
        have hst' : st ≠ AcceptState.Pre := by
          intro e; rw [e] at hpre; simp at hpre
        split at h
        · rename_i hdirty
          right; right
          refine ⟨hst', hdirty, ?_⟩
          split at h
          · rename_i hchanged
            split at h
            · rename_i p hp
              split at h
              · rename_i hpd
                simp only [Option.some.injEq] at h
                right
                refine ⟨hchanged, p, hp, by simpa using hpd, ?_⟩
                rw [← h]
              · rename_i hpd
                simp only [Option.some.injEq] at h
                left
                refine ⟨by rw [← h], fun _ => ⟨p, hp, by simpa using hpd⟩⟩
            · simp at h
          · rename_i hchanged
            simp only [Option.some.injEq] at h
            left
            refine ⟨by rw [← h], fun hb => absurd hb hchanged⟩
        · rename_i hdirty
          simp only [Option.some.injEq] at h
          right; left
          refine ⟨hst', by simpa using hdirty, by rw [← h]⟩
      · simp only [Option.some.injEq] at h
        left; rw [← h]

theorem layoutTarget_congr (pref : Nat → Vec2) (s0 : Store) (hwf : wfTree s0 = true)
    (node : Nat) (R : Vec2) (t z : Store) (x : Nat) (hx : x < s0.size)
    (ht : SameShape s0 t) (hz : SameShape s0 z)
    (hc : (z.node x).constraints = (t.node x).constraints)
    (ha : ∀ y, y < s0.size → s0.parent y = some x → (z.node y).area = (t.node y).area) :
    layoutTarget pref s0 node R z x = layoutTarget pref s0 node R t x := by
  unfold layoutTarget
  split
  · rfl
  · split
    · rfl
    · apply onLayoutEnd_congr t z x
      · rw [hz.children, ht.children]
      · intro y hy
        rw [ht.children] at hy
        obtain ⟨hys, hyp⟩ := (wfTree_children hwf hx).2.2 y hy
        exact ha y hys hyp
      · exact hc

theorem clearLayoutDirty_dirty_self (s : Store) (i : Nat) :
    (clearLayoutDirty s i).isLayoutDirty i = false := by
  simp [clearLayoutDirty, Store.isLayoutDirty, modifyFlags_flags]

/-- Every pass of the loop `while (true)` of `layout` keeps `ReflowInv`. -/
theorem reflowInv_keep (pref : Nat → Vec2) (s0 : Store) (node : Nat) (hwf : wfTree s0 = true)
    (hcont : s0.isContainer node = true) (R : Vec2) (a0 : Nat → Rect)
    (t : Store) (i : Nat) (st : AcceptState) (r : LayoutStep)
    (hv : LayoutVisit s0 node t i st) (hinv : ReflowInv pref s0 node R a0 t)
    (h : layout_pass (prefHooks pref) node t i st = some r) :
    ReflowInv pref s0 node R a0 r.store := by
  have hwfl := wfTree_wfLinks hwf
  have hi := hv.lt
  have hsh := hv.shape
  obtain ⟨done, hpath, _⟩ := hv.path
  have hsub : i = node ∨ node ∈ parents s0 i := pathTo_subtree hwf hpath hi
  have hci := (hinv i hi hsub).1
  have hc : i ≠ node → ∀ p, t.parent i = some p →
      (t.node p).constraints = (t.node i).constraints := by
    intro hne p hp
    obtain ⟨p', hp', hps, hpsub⟩ := parent_of_sub hwf hi hsub hne
    rw [hsh.parent, hp'] at hp
    have e := Option.some.inj hp
    subst e
    rw [(hinv p' hps hpsub).1, hci]
  have hself : s0.parent i ≠ some i := fun e => parent_ne_self hwfl hi e rfl
  rcases pass_consistent pref node t i st r hc h with e | ⟨hst, hd, e⟩ | ⟨hst, hd, hcase⟩
  · rw [e]; exact hinv
  · -- the flags of `i` are cleared
    rw [e]
    intro x hx hxs
    obtain ⟨c1, c2, c3⟩ := hinv x hx hxs
    have htar : layoutTarget pref s0 node R (clearLayoutDirty t i) x =
        layoutTarget pref s0 node R t x :=
      layoutTarget_congr pref s0 hwf node R t _ x hx hsh
        (hsh.trans (sameShape_clearLayoutDirty t i))
        (sameData_clearLayoutDirty t i x).2 (fun y _ _ => (sameData_clearLayoutDirty t i y).1)
    rw [htar, (sameData_clearLayoutDirty t i x).1, (sameData_clearLayoutDirty t i x).2]
    by_cases hxi : x = i
    · subst hxi
      refine ⟨c1, fun hd2 => ?_, fun _ => ⟨(c3 hd).1, Or.inr ?_⟩⟩
      · rw [clearLayoutDirty_dirty_self] at hd2; cases hd2
      · rw [clearLayoutDirty_flagged, if_pos rfl]
    · rw [clearLayoutDirty_dirty_ne t i x hxi, clearLayoutDirty_flagged, if_neg hxi]
      exact ⟨c1, c2, c3⟩
  · -- `layout_end` gives `i` its size
    have hl := sameLayout_layout_end (prefHooks pref) (clearLayoutDirty t i) node i
    have hca := layout_end_area pref (clearLayoutDirty t i) node i
    have hcc := layout_end_constraints (prefHooks pref) (clearLayoutDirty t i) node i
    have hcn := layout_end_area_ne (prefHooks pref) (clearLayoutDirty t i) node i
    have hcu := layout_end_unchanged (prefHooks pref) (clearLayoutDirty t i) node i
    have hch := layout_end_changed (prefHooks pref) (clearLayoutDirty t i) node i
    cases hle : layout_end (prefHooks pref) (clearLayoutDirty t i) node i with
    | mk X b =>
    rw [hle] at hl hca hcc hcn hcu hch hcase
    simp only at hl hca hcc hcn hcu hch hcase
    have hXsh : SameShape s0 X := (hsh.trans (sameShape_clearLayoutDirty t i)).trans hl.1
    have hXc : ∀ x, (X.node x).constraints = (t.node x).constraints := by
      intro x; rw [hcc x, (sameData_clearLayoutDirty t i x).2]
    have hXne : ∀ x, x ≠ i → (X.node x).area = (t.node x).area := by
      intro x hx; rw [hcn x hx, (sameData_clearLayoutDirty t i x).1]
    have hXd : ∀ x, X.isLayoutDirty x = if x = i then false else t.isLayoutDirty x := by
      intro x
      rw [(hl.flagged x).2]
      by_cases e : x = i
      · rw [if_pos e, e]; exact clearLayoutDirty_dirty_self t i
      · rw [if_neg e]; exact clearLayoutDirty_dirty_ne t i x e
    have hXf : ∀ x, X.layoutFlagged x = if x = i then false else t.layoutFlagged x := by
      intro x
      rw [(hl.flagged x).1]
      exact clearLayoutDirty_flagged t i x
    have hcl : (clearLayoutDirty t i).isContainer i = s0.isContainer i :=
      (hsh.trans (sameShape_clearLayoutDirty t i)).isContainer i
    have hXi : (X.node i).area = (a0 i).sized (layoutTarget pref s0 node R t i) := by
      rw [hca, (sameData_clearLayoutDirty t i i).1, (hinv i hi hsub).2.1 hd]
      congr 1
      unfold layoutTarget
      by_cases hin : i = node
      · rw [hcl, hin, hcont]
        simp only [if_true, ne_eq, not_true_eq_false, if_false]
        rw [(sameData_clearLayoutDirty t node node).2, ← hin]
        exact hci
      · rw [hcl, if_neg hin]
        by_cases hw : s0.isWidget i = true
        · have : s0.isContainer i = false := by
            simp only [Store.isContainer, Store.isWidget] at hw ⊢
            simp [hw]
          rw [this, if_pos hw]
          simp
        · have : s0.isContainer i = true := by
            simp only [Store.isContainer, Store.isWidget] at hw ⊢
            simpa using hw
          rw [this, if_neg hw]
          simp only [if_true, ne_eq, hin, not_false_eq_true]
          exact onLayoutEnd_congr t (clearLayoutDirty t i) i
            ((sameShape_clearLayoutDirty t i).children i)
            (fun y _ => (sameData_clearLayoutDirty t i y).1)
            (sameData_clearLayoutDirty t i i).2
    have htarX : ∀ x, x < s0.size →
        (s0.parent i ≠ some x ∨ (X.node i).area = (t.node i).area) →
        layoutTarget pref s0 node R X x = layoutTarget pref s0 node R t x := by
      intro x hx hor
      refine layoutTarget_congr pref s0 hwf node R t X x hx hsh hXsh (hXc x) ?_
      intro y _ hyp
      by_cases e : y = i
      · subst e
        rcases hor with h1 | h1
        · exact absurd hyp h1
        · exact h1
      · exact hXne y e
    rcases hcase with ⟨hr, hb1⟩ | ⟨hb, p, hp, hpd, hr⟩
    · -- the loop `while (true)` is left
      rw [hr]
      intro x hx hxs
      obtain ⟨c1, c2, c3⟩ := hinv x hx hxs
      by_cases hxi : x = i
      · subst hxi
        refine ⟨by rw [hXc]; exact c1, fun hd2 => ?_, fun _ => ⟨?_, Or.inr ?_⟩⟩
        · rw [hXd, if_pos rfl] at hd2; cases hd2
        · rw [hXi, htarX x hx (Or.inl hself)]
        · rw [hXf, if_pos rfl]
      · rw [hXc, hXne x hxi, hXd, if_neg hxi, hXf, if_neg hxi]
        refine ⟨c1, c2, fun hnd => ?_⟩
        have htar : layoutTarget pref s0 node R X x = layoutTarget pref s0 node R t x := by
          apply htarX x hx
          by_cases hpx : s0.parent i = some x
          · right
            have hine : i ≠ node := by
              intro e
              rw [e] at hpx
              rw [e] at hi
              exact not_sub_of_parent hwf hi hx hpx hxs
            cases hb : b with
            | false =>
              rw [hcu hb hine]
              exact (sameData_clearLayoutDirty t i i).1
            | true =>
              obtain ⟨p, hp, hpd⟩ := hb1 hb
              rw [hXsh.parent, hpx] at hp
              have e := Option.some.inj hp
              subst e
              rw [hXd, if_neg hxi, hnd] at hpd
              cases hpd
          · left; exact hpx
        rw [htar]
        exact c3 hnd
    · -- `continue`: the parent of `i` is given `LayoutDirty`
      have hine : i ≠ node := by
        intro e
        apply hch hb (by rw [hcl, e]; exact hcont)
        exact e
      obtain ⟨p', hp', hps, hpsub⟩ := parent_of_sub hwf hi hsub hine
      have hpp : p = p' := by
        rw [hXsh.parent, hp'] at hp
        exact (Option.some.inj hp).symm
      subst hpp
      have hpi : p ≠ i := parent_ne_self hwfl hi hp'
      have htp : t.parent i = some p := by rw [hsh.parent]; exact hp'
      have hfp : t.layoutFlagged p = true :=
        (hv.inv i p (by rw [hsh.1]; exact hi) htp).2 (dirty_flagged hd)
      have htd : t.isLayoutDirty p = false := by
        rw [hXd, if_neg hpi] at hpd; exact hpd
      have hre : reflow X p = X.modifyFlags p (fun f => { f with LayoutDirty := true }) := by
        rw [reflow_of_flagged_parent X p
          (by rw [hXsh.parents, hXsh.1]; exact (wfLinks_at hwfl hps).2.2.2.2) ?_]
        · simp [hpd]
        · intro q hq
          have hq0 : s0.parent p = some q := by rw [← hXsh.parent]; exact hq
          have hqi : q ≠ i := by
            intro e
            rw [e] at hq0
            apply not_sub_of_parent hwf hi hps hp'
            right
            rw [parents_of_parent s0 p i hq0 (wfLinks_at hwfl hps).2.2.2.2]
            exact List.mem_cons_self _ _
          rw [hXf, if_neg hqi]
          exact (hv.inv p q (by rw [hsh.1]; exact hps) (by rw [hsh.parent]; exact hq0)).2 hfp
      rw [hr, hre]
      have hYs : SameShape s0 (X.modifyFlags p (fun f => { f with LayoutDirty := true })) :=
        hXsh.trans (sameShape_modifyFlags X p _ (fun _ => rfl))
      have hYdata := sameData_modifyFlags X p (fun f => { f with LayoutDirty := true })
      have hYd : ∀ x, (X.modifyFlags p (fun f => { f with LayoutDirty := true })).isLayoutDirty x
          = if x = p then true else X.isLayoutDirty x := by
        intro x
        simp only [Store.isLayoutDirty, modifyFlags_flags]
        split <;> rfl
      have hYf : ∀ x, x ≠ p →
          (X.modifyFlags p (fun f => { f with LayoutDirty := true })).layoutFlagged x
          = X.layoutFlagged x := by
        intro x hx
        simp only [Store.layoutFlagged, Store.isLayoutDirty, Store.isChildLayoutDirty,
          modifyFlags_flags, if_neg hx]
      have htarY : ∀ x, x < s0.size →
          layoutTarget pref s0 node R (X.modifyFlags p (fun f => { f with LayoutDirty := true }))
            x = layoutTarget pref s0 node R X x := by
        intro x hx
        exact layoutTarget_congr pref s0 hwf node R X _ x hx hXsh hYs (hYdata x).2
          (fun y _ _ => (hYdata y).1)
      intro x hx hxs
      obtain ⟨c1, c2, c3⟩ := hinv x hx hxs
      rw [(hYdata x).1, (hYdata x).2, hYd, htarY x hx]
      by_cases hxp : x = p
      · subst hxp
        rw [if_pos rfl, hXc, hXne x hpi]
        refine ⟨c1, fun _ => ?_, fun e => by cases e⟩
        rcases (c3 htd).2 with h1 | h1
        · exact h1
        · rw [hfp] at h1; cases h1
      · rw [if_neg hxp, hYf x hxp]
        by_cases hxi : x = i
        · subst hxi
          refine ⟨by rw [hXc]; exact c1, fun hd2 => ?_, fun _ => ⟨?_, Or.inr ?_⟩⟩
          · rw [hXd, if_pos rfl] at hd2; cases hd2
          · rw [hXi, htarX x hx (Or.inl hself)]
          · rw [hXf, if_pos rfl]
        · rw [hXc, hXne x hxi, hXd, if_neg hxi, hXf, if_neg hxi]
          refine ⟨c1, c2, fun hnd => ?_⟩
          rw [htarX x hx (Or.inl (fun e => hxp (by rw [hp'] at e; exact (Option.some.inj e).symm)))]
          exact c3 hnd

/-! ### The tree after calls of `reflow` -/

theorem foldl_reflow_facts (s0 : Store) (hwf : wfLinks s0 = true) :
    ∀ (D : List Nat) (s : Store), (∀ x ∈ D, x < s0.size) → SameShape s0 s → LayoutInv s →
      SameShape s0 (D.foldl reflow s) ∧ SameData s (D.foldl reflow s) ∧
      LayoutInv (D.foldl reflow s) ∧
      (∀ x, s.isLayoutDirty x = true ∨ x ∈ D → (D.foldl reflow s).isLayoutDirty x = true) := by
  intro D
  induction D with
  | nil =>
    intro s _ hsh hinv
    refine ⟨hsh, SameData.data_refl s, hinv, fun x hx => ?_⟩
    rcases hx with h | h
    · exact h
    · cases h
  | cons d D ih =>
    intro s hD hsh hinv
    have hd : d < s0.size := hD d (List.mem_cons_self _ _)
    have hlen : (parents s d).length < s.size := by
      rw [hsh.parents, hsh.1]; exact (wfLinks_at hwf hd).2.2.2.2
    obtain ⟨h1, h2, h3, h4⟩ := ih (reflow s d) (fun x hx => hD x (List.mem_cons_of_mem _ hx))
      (hsh.trans (sameShape_reflow s d)) (layoutInv_reflow s d hlen hinv)
    simp only [List.foldl_cons]
    refine ⟨h1, (sameData_reflow s d).data_trans h2, h3, fun x hx => ?_⟩
    apply h4
    rcases hx with h | h
    · exact Or.inl (reflow_dirty_mono s d x h)
    · rcases List.mem_cons.mp h with e | h
      · left; rw [e]; exact reflow_dirty s d
      · exact Or.inr h

/-! ### The beginning of `layout` on a tree whose constraints agree -/

theorem layout_init_consistent (hooks : Hooks) (surface : Surface) (s : Store) (node : Nat)
    (hw : s.isWidget node = false) (hroot : s.parent node = Option.none)
    (hc : (s.node node).constraints = surface.resolution) :
    (layout_init hooks surface s node).1 = if surface.changed then reset s node else s := by
  have hatt : s.isAttached node = false := by simp [Store.isAttached, hroot]
  have hrc : ((reset s node).node node).constraints = surface.resolution := by
    unfold reset
    rw [(sameData_repaint_all _ node node).2, (sameData_reflow s node node).2]
    exact hc
  have hrw : (reset s node).isWidget node = false := by
    rw [(sameShape_reset s node).isWidget]; exact hw
  unfold layout_init
  by_cases hch : surface.changed = true
  · simp only [hch, if_true, setConstraints, hrc, ne_eq, not_true_eq_false, if_false, hrw,
      Bool.false_eq_true]
  · simp only [hch, Bool.false_eq_true, if_false, hatt, Bool.not_false, if_true, setConstraints,
      hc, ne_eq, not_true_eq_false, hw]

theorem reflowInv_reset (pref : Nat → Vec2) (s : Store) (hwf : wfTree s = true) (node : Nat)
    (R : Vec2) (hinit : ReflowInv pref s node R (fun x => (s.node x).area) s) :
    ReflowInv pref s node R (fun x => (s.node x).area) (reset s node) := by
  have hdata : SameData s (reset s node) := by
    unfold reset
    exact (sameData_reflow s node).data_trans (sameData_repaint_all _ node)
  have hdirty : ∀ x, x ≠ node → (reset s node).isLayoutDirty x = s.isLayoutDirty x := by
    intro x hx
    unfold reset
    rw [((sameLayout_repaint_all (reflow s node) node).flagged x).2, reflow_dirty_ne s node x hx]
  intro x hx hxs
  obtain ⟨c1, c2, c3⟩ := hinit x hx hxs
  have htar : layoutTarget pref s node R (reset s node) x = layoutTarget pref s node R s x :=
    layoutTarget_congr pref s hwf node R s _ x hx (SameShape.refl s) (sameShape_reset s node)
      (hdata x).2 (fun y _ _ => (hdata y).1)
  rw [(hdata x).1, (hdata x).2, htar]
  refine ⟨c1, fun _ => rfl, fun hnd => ⟨?_, Or.inl rfl⟩⟩
  by_cases e : x = node
  · exfalso
    have : (reset s node).isLayoutDirty node = true := by
      unfold reset
      rw [((sameLayout_repaint_all (reflow s node) node).flagged node).2]
      exact reflow_dirty s node
    rw [e, this] at hnd
    cases hnd
  · rw [hdirty x e] at hnd
    exact (c3 hnd).1

/-- The equations `Settled` hold when `layout` returns on a tree that has the
property `ReflowInv`. -/
theorem reflow_settled (pref : Nat → Vec2) (surface : Surface) (s : Store) (root : Nat)
    (hwf : wfTree s = true) (hn : root < s.size) (hroot : s.parent root = Option.none)
    (hlinv : LayoutInv s)
    (hinit : ReflowInv pref s root surface.resolution (fun x => (s.node x).area) s)
    (F : Nat) (v : Store) (h : layout (prefHooks pref) F surface s root = some v) :
    SameShape s v ∧ Settled pref s root surface.resolution (fun x => (s.node x).area) v := by
  have hwfl := wfTree_wfLinks hwf
  obtain ⟨hsh, hlv, hclean⟩ := layout_clean_root (prefHooks pref) F surface s v root hwf hn
    hlinv h
  refine ⟨hsh, ?_⟩
  by_cases hw : s.isWidget root = true
  · -- a widget: the subtree is the root
    obtain ⟨_, _, hc, ha⟩ := layout_root_state (prefHooks pref) F surface s v root hwf hn hroot h
    intro x hx hxs
    have hxr : x = root := by
      rcases hxs with e | hm
      · exact e
      · exfalso
        obtain ⟨c, hcs, hcp, _⟩ := child_on_path s hwfl _ x hx rfl root hm
        have := (wfTree_child hwf hcs hcp).1
        simp only [Store.isContainer, Store.isWidget] at this hw
        rw [hw] at this
        simp at this
    subst hxr
    refine ⟨hc, ?_⟩
    rw [ha hw]
    simp only [layoutTarget, if_true, Rect.sized]
  · have hw' : s.isWidget root = false := by simpa using hw
    have hcont : s.isContainer root = true := by
      simp only [Store.isContainer, Store.isWidget] at hw' ⊢
      simp [hw']
    have hcr := (hinit root hn (Or.inl rfl)).1
    have hX := layout_init_consistent (prefHooks pref) surface s root hw' hroot hcr
    obtain ⟨h1, h2, _⟩ := layout_init_layoutInv (prefHooks pref) surface s root hwf hn hlinv
    have hXinv : ReflowInv pref s root surface.resolution (fun x => (s.node x).area)
        (layout_init (prefHooks pref) surface s root).1 := by
      rw [hX]
      split
      · exact reflowInv_reset pref s hwf root _ hinit
      · exact hinit
    have hfinal : ReflowInv pref s root surface.resolution (fun x => (s.node x).area) v := by
      unfold layout at h
      simp only at h
      split at h
      · simp only [Option.some.injEq] at h; rw [← h]; exact hXinv
      · split at h
        · simp only [Option.some.injEq] at h; rw [← h]; exact hXinv
        · rw [h2.traverseEnd, h2.traverseBegin] at h
          have hv : LayoutVisit s root (layout_init (prefHooks pref) surface s root).1 root
              (traverseBegin s root).state :=
            { shape := h2
              inv := h1
              lt := hn
              path := ⟨[], PathTo.root, fun x hx => by simp at hx⟩
              post := fun e => absurd e (pre_or_leaf_ne_post s root)
              pre := fun _ => rfl }
          exact layout_loop_keeps (prefHooks pref) s root hwf hcont
            (ReflowInv pref s root surface.resolution (fun x => (s.node x).area))
            (fun t i st r hv hi hr =>
              reflowInv_keep pref s root hwf hcont _ _ t i st r hv hi hr)
            F _ _ v hXinv (fun _ => ⟨root, rfl, hv⟩) h
    have hclear : ∀ x, x < s.size → (x = root ∨ root ∈ parents s x) →
        v.isLayoutDirty x = false := by
      intro x hx hsub
      have hcl : v.layoutFlagged x = false := by
        rcases hsub with e | hm
        · rw [e]; exact hclean
        · cases hf : v.layoutFlagged x with
          | false => rfl
          | true =>
            have := layoutInv_ancestors hlv (by rw [hsh.1]; exact hx) hf root
              (by rw [hsh.parents]; exact hm)
            rw [hclean] at this
            cases this
      simp only [Store.layoutFlagged, Bool.or_eq_false_iff] at hcl
      exact hcl.1
    intro x hx hxs
    obtain ⟨c1, _, c3⟩ := hfinal x hx hxs
    exact ⟨c1, (c3 (hclear x hx hxs)).1⟩

/-! ### The tree marked dirty as a whole, laid out -/

theorem constraints_from_root (s u : Store) (root : Nat) (R : Vec2) (hwf : wfTree s = true)
    (hr : (u.node root).constraints = R)
    (hstep : ∀ x, x < s.size → root ∈ parents s x →
      ∃ p, s.parent x = some p ∧ (u.node x).constraints = (u.node p).constraints) :
    ∀ (k x : Nat), x < s.size → (parents s x).length = k → (x = root ∨ root ∈ parents s x) →
      (u.node x).constraints = R := by
  have hwfl := wfTree_wfLinks hwf
  intro k
  induction k using Nat.strong_induction_on with
  | _ k ih =>
    intro x hx hk hxs
    by_cases e : x = root
    · rw [e]; exact hr
    · have hm : root ∈ parents s x := by
        rcases hxs with h | h
        · exact absurd h e
        · exact h
      obtain ⟨p, hp, hc⟩ := hstep x hx hm
      obtain ⟨p', hp', hps, hpsub⟩ := parent_of_sub hwf hx hxs e
      rw [hp] at hp'
      have e2 := Option.some.inj hp'
      subst e2
      have hpl : parents s x = p :: parents s p :=
        parents_of_parent s x p hp (wfLinks_at hwfl hx).2.2.2.2
      rw [hc]
      exact ih (parents s p).length (by rw [← hk, hpl]; simp) p hps rfl hpsub

/-- Layout of the tree marked dirty as a whole returns, and the equations
`Settled` hold for its result. -/
theorem full_settled (pref : Nat → Vec2) (surface : Surface) (s : Store) (root : Nat)
    (hwf : wfTree s = true) (hn : root < s.size) (hroot : s.parent root = Option.none) :
    ∃ u F0, (∀ F, F0 ≤ F → layout (prefHooks pref) F surface (markAll s) root = some u) ∧
      SameShape s u ∧ Settled pref s root surface.resolution (fun x => (s.node x).area) u := by
  have hwfl := wfTree_wfLinks hwf
  have hsm := sameShape_markAll s
  have hwfm : wfTree (markAll s) = true := by rw [hsm.wfTree]; exact hwf
  obtain ⟨u, F0, hu, hshu, hfin⟩ := layout_all_dirty pref surface (markAll s) root hwfm hn
    (fun x _ _ => rfl)
  obtain ⟨u2, F2, hu2, hc2, ha2⟩ := layout_root_area (prefHooks pref) surface (markAll s) root
    hwfm hn hroot (Or.inr rfl)
  have e : u2 = u := layout_budget _ _ _ _ _ _ F2 F0 (hu2 F2 (Nat.le_refl _))
    (hu F0 (Nat.le_refl _))
  subst e
  have hcons := constraints_from_root s u2 root surface.resolution hwf hc2 (by
    intro x hx hm
    obtain ⟨⟨p, hp, hc⟩, _⟩ := hfin x hx (by rw [hsm.parents]; exact hm)
    exact ⟨p, hp, hc⟩)
  refine ⟨u2, F0, hu, hsm.trans hshu, fun x hx hxs => ⟨hcons _ x hx rfl hxs, ?_⟩⟩
  by_cases e : x = root
  · subst e
    simp only [layoutTarget, if_true, Rect.sized]
    exact ha2
  · have hm : root ∈ parents s x := by
      rcases hxs with h | h
      · exact absurd h e
      · exact h
    obtain ⟨_, ha⟩ := hfin x hx (by rw [hsm.parents]; exact hm)
    simp only [layoutTarget, if_neg e]
    exact ha

/-- The equations `Settled` have one solution. -/
theorem settled_unique (pref : Nat → Vec2) (s0 : Store) (root : Nat) (R : Vec2)
    (a0 : Nat → Rect) (v u : Store) (hwf : wfTree s0 = true) (hn : root < s0.size)
    (hv : SameShape s0 v) (hu : SameShape s0 u) (sv : Settled pref s0 root R a0 v)
    (su : Settled pref s0 root R a0 u) :
    ∀ x, x < s0.size → (x = root ∨ root ∈ parents s0 x) →
      (v.node x).area = (u.node x).area ∧ (v.node x).constraints = (u.node x).constraints := by
  have hwfl := wfTree_wfLinks hwf
  have key : ∀ (d x : Nat), x < s0.size → s0.size ≤ d + (parents s0 x).length →
      (x = root ∨ root ∈ parents s0 x) → (v.node x).area = (u.node x).area := by
    intro d
    induction d with
    | zero =>
      intro x hx hd
      have := (wfLinks_at hwfl hx).2.2.2.2
      omega
    | succ d ih =>
      intro x hx hd hxs
      rw [(sv x hx hxs).2, (su x hx hxs).2]
      congr 1
      refine layoutTarget_congr pref s0 hwf root R u v x hx hu hv ?_ ?_
      · rw [(sv x hx hxs).1, (su x hx hxs).1]
      · intro y hy hyp
        have hpl : parents s0 y = x :: parents s0 x :=
          parents_of_parent s0 y x hyp (wfLinks_at hwfl hy).2.2.2.2
        exact ih y hy (by rw [hpl]; simp only [List.length_cons]; omega)
          (Or.inr (child_sub hwf hn hy hyp hxs).2)
  intro x hx hxs
  exact ⟨key s0.size x hx (by omega) hxs, by rw [(sv x hx hxs).1, (su x hx hxs).1]⟩

theorem sameGeometry_at {s u : Store} (h : sameGeometry s u = true) (x : Nat) (hx : x < s.size) :
    (u.node x).area = (s.node x).area ∧ (u.node x).constraints = (s.node x).constraints := by
  unfold sameGeometry at h
  rw [List.all_eq_true] at h
  have := h x (List.mem_range.mpr hx)
  simpa using this

/-- A tree at a layout fixpoint satisfies the equations `Settled` itself. -/
theorem fixpoint_settled (pref : Nat → Vec2) (surface : Surface) (s : Store) (root fuel : Nat)
    (hwf : wfTree s = true) (hn : root < s.size) (hroot : s.parent root = Option.none)
    (hfix : isLayoutFixpoint pref surface s root fuel = true) :
    Settled pref s root surface.resolution (fun x => (s.node x).area) s := by
  obtain ⟨u, F0, hu, hshu, hset⟩ := full_settled pref surface s root hwf hn hroot
  unfold isLayoutFixpoint at hfix
  cases hl : layout (prefHooks pref) fuel surface (markAll s) root with
  | none => rw [hl] at hfix; cases hfix
  | some f =>
    rw [hl] at hfix
    simp only at hfix
    have e : f = u := layout_budget _ _ _ _ _ _ fuel F0 hl (hu F0 (Nat.le_refl _))
    subst e
    intro x hx hxs
    obtain ⟨c, a⟩ := hset x hx hxs
    obtain ⟨ga, gc⟩ := sameGeometry_at hfix x hx
    have htar : layoutTarget pref s root surface.resolution s x =
        layoutTarget pref s root surface.resolution f x :=
      layoutTarget_congr pref s hwf root _ f s x hx hshu (SameShape.refl s) gc.symm
        (fun y hy _ => (sameGeometry_at hfix y hy).1.symm)
    rw [htar, ← gc]
    refine ⟨c, ?_⟩
    rw [← a]
    exact ga.symm

/-! ## The place of the iterator of a traversal -/

theorem inSubtree_iff (s : Store) (node x : Nat) :
    inSubtree s node x = true ↔ (x = node ∨ node ∈ parents s x) := by
  simp [inSubtree]

theorem cursor_descend (s : Store) (hwf : wfLinks s = true) (r i : Nat) (hi : i < s.size)
    (hin : i = r ∨ r ∈ parents s i) (hpre : pre_or_leaf s i = AcceptState.Pre) :
    ∃ c, increment s i AcceptState.Pre = { node := some c, state := pre_or_leaf s c } ∧
      c < s.size ∧ s.parent c = some i ∧ c ≠ r ∧ r ∈ parents s c ∧
      insideChain s r c = i :: insideChain s r i := by
  obtain ⟨_, _, hchild, _, _⟩ := wfLinks_at hwf hi
  unfold pre_or_leaf at hpre
  split at hpre
  · rename_i hc
    simp only [Bool.and_eq_true] at hc
    obtain ⟨hcont, hfc⟩ := hc
    obtain ⟨c, hc⟩ := Option.isSome_iff_exists.mp hfc
    obtain ⟨hcs, hpc⟩ := hchild c hc
    obtain ⟨_, _, _, _, hlen⟩ := wfLinks_at hwf hcs
    have hcr : c ≠ r := inside_ne_root s hwf r c i hcs hpc hin
    refine ⟨c, ?_, hcs, hpc, hcr, ?_, insideChain_child s r c i hpc hlen hcr⟩
    · simp [increment, next_child, hcont, hc]
    · rw [parents_of_parent s c i hpc hlen]
      rcases hin with e | h
      · rw [e]; exact List.mem_cons_self _ _
      · exact List.mem_cons_of_mem _ h
  · cases hpre

theorem increment_leave (s : Store) (i : Nat) (st : AcceptState) (hst : st ≠ AcceptState.Pre)
    (hleaf : st = AcceptState.Leaf → pre_or_leaf s i = AcceptState.Leaf) :
    increment s i st = next_sibling_or_parent s i := by
  cases st with
  | Pre => exact absurd rfl hst
  | Post => simp [increment]
  | Leaf =>
    have h := hleaf rfl
    unfold pre_or_leaf at h
    split at h
    · cases h
    · rename_i hc
      simp only [Bool.and_eq_true, not_and, Bool.not_eq_true] at hc
      unfold increment next_child
      by_cases hcont : s.isContainer i = true
      · have := hc hcont
        have hn : (s.node i).first_child = Option.none := by
          cases hf : (s.node i).first_child with
          | none => rfl
          | some c => rw [hf] at this; simp at this
        simp [hcont, hn]
      · simp [hcont]

theorem cursor_leave (s : Store) (hwf : wfLinks s = true) (r i : Nat) (hi : i < s.size)
    (hin : i = r ∨ r ∈ parents s i) :
    (i = r ∧ next_sibling_or_parent s i = traverseEnd s r) ∨
    (i ≠ r ∧ ∃ p, s.parent i = some p ∧ p < s.size ∧ (p = r ∨ r ∈ parents s p) ∧
      insideChain s r i = p :: insideChain s r p ∧
      ((∃ m, next_sibling_or_parent s i = { node := some m, state := pre_or_leaf s m } ∧
          m < s.size ∧ m ≠ r ∧ r ∈ parents s m ∧ s.parent m = some p ∧
          insideChain s r m = insideChain s r i) ∨
        next_sibling_or_parent s i = { node := some p, state := AcceptState.Post })) := by
  by_cases hir : i = r
  · left; exact ⟨hir, by rw [hir]; rfl⟩
  · right
    refine ⟨hir, ?_⟩
    have hrp : r ∈ parents s i := hin.resolve_left hir
    obtain ⟨hpar, _, _, hsib, hlen⟩ := wfLinks_at hwf hi
    cases hp : s.parent i with
    | none => rw [parents_of_root s i hp] at hrp; simp at hrp
    | some p =>
      have hpars := parents_of_parent s i p hp hlen
      have hps := hpar p hp
      have hpin : p = r ∨ r ∈ parents s p := by
        rw [hpars] at hrp
        rcases List.mem_cons.mp hrp with e | h
        · exact Or.inl e.symm
        · exact Or.inr h
      refine ⟨p, rfl, hps, hpin, insideChain_child s r i p hp hlen hir, ?_⟩
      unfold next_sibling_or_parent
      cases hn : (s.node i).next_sibling with
      | some m =>
        left
        obtain ⟨hm, hpm⟩ := hsib m hn
        have hmr : m ≠ r := inside_ne_root s hwf r m p hm (by rw [hpm]; exact hp) hpin
        have hpars2 : parents s m = parents s i := by
          unfold parents; unfold Store.parent at hpm; rw [hpm]
        exact ⟨m, rfl, hm, hmr, by rw [hpars2]; exact hrp, by rw [hpm]; exact hp,
          insideChain_sibling s r m i hpm hmr hir⟩
      | none =>
        right
        simp only [hp]

theorem countP_le_of_imp (p q : Nat → Bool) :
    ∀ l : List Nat, (∀ x ∈ l, p x = true → q x = true) → l.countP p ≤ l.countP q
  | [], _ => by simp
  | a :: l, h => by
    have ih := countP_le_of_imp p q l (fun x hx => h x (List.mem_cons_of_mem _ hx))
    have ha := h a (List.mem_cons_self _ _)
    simp only [List.countP_cons]
    cases hp : p a with
    | false => simp only [Bool.false_eq_true, if_false]; split <;> omega
    | true => simp only [ha hp, if_true]; omega

theorem countP_lt_of_imp (p q : Nat → Bool) (y : Nat) (hq : q y = true) (hp : p y = false) :
    ∀ l : List Nat, (∀ x ∈ l, p x = true → q x = true) → y ∈ l → l.countP p + 1 ≤ l.countP q
  | [], _, hy => by simp at hy
  | a :: l, h, hy => by
    have hle := countP_le_of_imp p q l (fun x hx => h x (List.mem_cons_of_mem _ hx))
    simp only [List.countP_cons]
    rcases List.mem_cons.mp hy with e | hm
    · subst e
      simp only [hq, hp, if_true, Bool.false_eq_true, if_false]
      omega
    · have ih := countP_lt_of_imp p q y hq hp l
        (fun x hx => h x (List.mem_cons_of_mem _ hx)) hm
      have ha := h a (List.mem_cons_self _ _)
      cases hpa : p a with
      | false => simp only [Bool.false_eq_true, if_false]; split <;> omega
      | true => simp only [ha hpa, if_true]; omega

theorem pendingIn_le (s0 : Store) (node : Nat) (t u : Store)
    (h : ∀ x, x < s0.size → (x = node ∨ node ∈ parents s0 x) → u.awaitsChild x = true →
      t.awaitsChild x = true) :
    pendingIn s0 node u ≤ pendingIn s0 node t := by
  unfold pendingIn
  apply countP_le_of_imp
  intro x hx hp
  simp only [Bool.and_eq_true] at hp ⊢
  exact ⟨hp.1, h x (List.mem_range.mp hx) ((inSubtree_iff s0 node x).mp hp.1) hp.2⟩

theorem pendingIn_lt (s0 : Store) (node : Nat) (t u : Store) (p : Nat) (hp : p < s0.size)
    (hin : p = node ∨ node ∈ parents s0 p) (hpt : t.awaitsChild p = true)
    (hpu : u.awaitsChild p = false)
    (h : ∀ x, x < s0.size → (x = node ∨ node ∈ parents s0 x) → u.awaitsChild x = true →
      t.awaitsChild x = true) :
    pendingIn s0 node u + 1 ≤ pendingIn s0 node t := by
  unfold pendingIn
  apply countP_lt_of_imp _ _ p
  · simp only [Bool.and_eq_true]
    exact ⟨(inSubtree_iff s0 node p).mpr hin, hpt⟩
  · simp [hpu]
  · intro x hx hq
    simp only [Bool.and_eq_true] at hq ⊢
    exact ⟨hq.1, h x (List.mem_range.mp hx) ((inSubtree_iff s0 node x).mp hq.1) hq.2⟩
  · exact List.mem_range.mpr hp


/-! ## The number of the re-evaluations of a parent in `layout` -/

theorem reflowParents_flags_out (l : List Nat) :
    ∀ (s : Store) (x : Nat), x ∉ l → ((reflowParents s l).node x).flags = (s.node x).flags := by
  induction l with
  | nil => intro s x _; rfl
  | cons b rest ih =>
    intro s x hx
    simp only [List.mem_cons, not_or] at hx
    simp only [reflowParents]
    split
    · rfl
    · rw [ih _ x hx.2, modifyFlags_flags, if_neg hx.1]

theorem reflow_flags_out (s : Store) (i x : Nat) (hx : x ≠ i) (hxp : x ∉ parents s i) :
    ((reflow s i).node x).flags = (s.node x).flags := by
  unfold reflow
  split
  · rw [modifyFlags_flags, if_neg hx, reflowParents_flags_out _ _ _ hxp]
  · rfl

theorem reflow_flagged_mono (s : Store) (i x : Nat) (h : s.layoutFlagged x = true) :
    (reflow s i).layoutFlagged x = true := by
  unfold reflow
  split
  · have h1 := reflowParents_mono (parents s i) s x h
    simp only [Store.layoutFlagged, Store.isLayoutDirty, Store.isChildLayoutDirty,
      modifyFlags_flags] at h1 ⊢
    split
    · simp
    · exact h1
  · exact h

theorem awaitsChild_of_flags {s t : Store} {x : Nat}
    (hk : (t.node x).flags.WidgetKind = (s.node x).flags.WidgetKind)
    (h : layoutBits (t.node x).flags = layoutBits (s.node x).flags) :
    t.awaitsChild x = s.awaitsChild x := by
  simp only [layoutBits, Prod.mk.injEq] at h
  simp [Store.awaitsChild, Store.isContainer, Store.isLayoutDirty, Store.isChildLayoutDirty,
    h.1, h.2, hk]

theorem awaitsChild_of_eq {s t : Store} {x : Nat} (h : (t.node x).flags = (s.node x).flags) :
    t.awaitsChild x = s.awaitsChild x :=
  awaitsChild_of_flags (by rw [h]) (by rw [h])

theorem awaitsChild_not_dirty {s : Store} {x : Nat} (h : s.isLayoutDirty x = true) :
    s.awaitsChild x = false := by
  simp [Store.awaitsChild, h]

theorem setConstraints_awaits (t : Store) (i : Nat) (c : Vec2)
    (h : (setConstraints t i c).1.awaitsChild i = true) : t.awaitsChild i = true := by
  unfold setConstraints at h
  split at h
  · simp only at h
    rw [awaitsChild_not_dirty (reflow_dirty _ i)] at h
    cases h
  · exact h

theorem clearLayoutDirty_awaits (s : Store) (i : Nat) :
    (clearLayoutDirty s i).awaitsChild i = false := by
  simp [Store.awaitsChild, clearLayoutDirty, Store.isChildLayoutDirty, modifyFlags_flags]

theorem clearLayoutDirty_flags_ne (s : Store) (i x : Nat) (h : x ≠ i) :
    ((clearLayoutDirty s i).node x).flags = (s.node x).flags := by
  simp only [clearLayoutDirty, modifyFlags_flags, if_neg h]

theorem mem_insideChain_ne (s : Store) (hwf : wfLinks s = true) (r i a : Nat) (hi : i < s.size)
    (h : a ∈ insideChain s r i) : a ≠ i := by
  intro e
  have := mem_insideChain s r i a h
  rw [e] at this
  exact not_mem_parents_self s i (wfLinks_at hwf hi).2.2.2.2 this

theorem repeat_pass (hooks : Hooks) (s0 : Store) (node : Nat) (hwf : wfTree s0 = true)
    (hcont : s0.isContainer node = true) (t : Store) (i : Nat) (st : AcceptState)
    (r : LayoutStep) (hv : RepeatInv s0 node t i st)
    (h : layout_pass hooks node t i st = some r) :
    pendingIn s0 node r.store + (if r.again then 1 else 0) ≤ pendingIn s0 node t ∧
    SameShape s0 r.store ∧
    (r.again = true → RepeatInv s0 node r.store r.node r.state) ∧
    (r.again = false → r.node = i ∧
      (∀ a ∈ insideChain s0 node i, r.store.layoutFlagged a = true) ∧
      (r.state = AcceptState.Pre →
        pre_or_leaf s0 i = AcceptState.Pre ∧ r.store.layoutFlagged i = true) ∧
      (r.state = AcceptState.Leaf → pre_or_leaf s0 i = AcceptState.Leaf)) := by
  have hwfl := wfTree_wfLinks hwf
  obtain ⟨hsh, hi, hin, hchain, hpre⟩ := hv
  have hwft : wfLinks t = true := by rw [hsh.wfLinks]; exact hwfl
  have hit : i < t.size := by rw [hsh.1]; exact hi
  have hlen : (parents t i).length < t.size := (wfLinks_at hwft hit).2.2.2.2
  obtain ⟨t1, ht1, hr⟩ := layout_pass_cases hooks node t i st r h
  have hsh1 : SameShape t t1 := by
    rcases ht1 with e | ⟨_, _, p, c, _, _, e⟩
    · rw [e]; exact SameShape.refl t
    · rw [e]; exact sameShape_setConstraints _ _ _
  have hfl1 : ∀ x, x ≠ i → (t1.node x).flags = (t.node x).flags := by
    intro x hx
    rcases ht1 with e | ⟨_, _, p, c, hp, hd, e⟩
    · rw [e]
    · rw [e]; exact setConstraints_flagged_parent t i c p hlen hp hd x hx
  have haw1 : ∀ x, t1.awaitsChild x = true → t.awaitsChild x = true := by
    intro x hx
    by_cases hxi : x = i
    · rw [hxi] at hx ⊢
      rcases ht1 with e | ⟨_, _, p, c, _, _, e⟩
      · rw [e] at hx; exact hx
      · rw [e] at hx; exact setConstraints_awaits t i c hx
    · rw [awaitsChild_of_eq (hfl1 x hxi)] at hx; exact hx
  have hch1 : ∀ a ∈ insideChain s0 node i, t1.layoutFlagged a = true := by
    intro a ha
    have hne := mem_insideChain_ne s0 hwfl node i a hi ha
    have := hchain a ha
    simp only [Store.layoutFlagged, Store.isLayoutDirty, Store.isChildLayoutDirty,
      hfl1 a hne] at this ⊢
    exact this
  have hs01 : SameShape s0 t1 := hsh.trans hsh1
  -- the store after `clearLayoutDirty` and a change that keeps the layout flags
  have hpost : ∀ t3, SameLayout (clearLayoutDirty t1 i) t3 →
      SameShape s0 t3 ∧
      (∀ x, t3.awaitsChild x = true → x ≠ i ∧ t.awaitsChild x = true) ∧
      (∀ x, x ≠ i → t3.layoutFlagged x = t1.layoutFlagged x) ∧
      (∀ x, x ≠ i → t3.awaitsChild x = t1.awaitsChild x) := by
    intro t3 h3
    have hsh3 : SameShape s0 t3 := hs01.trans ((sameShape_clearLayoutDirty t1 i).trans h3.1)
    have haw : ∀ x, t3.awaitsChild x = (clearLayoutDirty t1 i).awaitsChild x := fun x =>
      awaitsChild_of_flags (h3.1.2 x).2.2.2.2.2 (h3.2 x)
    refine ⟨hsh3, ?_, ?_, ?_⟩
    · intro x hx
      rw [haw] at hx
      have hxi : x ≠ i := by
        intro e; rw [e, clearLayoutDirty_awaits] at hx; cases hx
      rw [awaitsChild_of_eq (clearLayoutDirty_flags_ne t1 i x hxi)] at hx
      exact ⟨hxi, haw1 x hx⟩
    · intro x hx
      rw [(h3.flagged x).1, clearLayoutDirty_flagged, if_neg hx]
    · intro x hx
      rw [haw, awaitsChild_of_eq (clearLayoutDirty_flags_ne t1 i x hx)]
  rcases hr with ⟨hst, hf, e⟩ | ⟨hst, hf, e⟩ | ⟨hst, _, t3, h3, e⟩ |
    ⟨hst, _, hc, t3, p, h3, hp, hpd, e⟩
  · rw [e]
    refine ⟨?_, hs01, ?_, ?_⟩
    · simp only [Bool.false_eq_true, if_false, Nat.add_zero]
      exact pendingIn_le s0 node t t1 (fun x _ _ hx => haw1 x hx)
    · intro hag; cases hag
    · intro _
      refine ⟨rfl, hch1, ?_, ?_⟩
      · intro e2; cases e2
      · intro e2; cases e2
  · rw [e]
    refine ⟨?_, hs01, ?_, ?_⟩
    · simp only [Bool.false_eq_true, if_false, Nat.add_zero]
      exact pendingIn_le s0 node t t1 (fun x _ _ hx => haw1 x hx)
    · intro hag; cases hag
    · intro _
      refine ⟨rfl, hch1, ?_, ?_⟩
      · intro _
        have := hpre (by rw [hst]; simp)
        rw [hst] at this
        exact ⟨this.symm, hf⟩
      · intro e2; cases e2
  · rw [e]
    obtain ⟨hsh3, haw3, hfl3, _⟩ := hpost t3 h3
    refine ⟨?_, hsh3, ?_, ?_⟩
    · simp only [Bool.false_eq_true, if_false, Nat.add_zero]
      exact pendingIn_le s0 node t t3 (fun x _ _ hx => (haw3 x hx).2)
    · intro hag; cases hag
    · intro _
      refine ⟨rfl, ?_, ?_, ?_⟩
      · intro a ha
        rw [hfl3 a (mem_insideChain_ne s0 hwfl node i a hi ha)]
        exact hch1 a ha
      · intro e2; exact absurd e2 hst
      · intro e2
        simp only at e2
        have := hpre (by rw [e2]; simp)
        rw [e2] at this
        exact this.symm
  · rw [e]
    obtain ⟨hsh3, haw3, hfl3, haw3e⟩ := hpost t3 h3
    have hine : i ≠ node := by
      intro e2
      exact hc (by rw [e2, hs01.isContainer]; exact hcont) e2
    have hp0 : s0.parent i = some p := by rw [← hsh3.parent]; exact hp
    have hpi : p ≠ i := fun e2 => parent_ne_self hwfl hi hp0 e2
    obtain ⟨hpc, _⟩ := wfTree_child hwf hi hp0
    rcases cursor_leave s0 hwfl node i hi hin with ⟨e2, _⟩ | ⟨_, q, hq, hps, hpin, hchi, _⟩
    · exact absurd e2 hine
    · rw [hp0] at hq
      simp only [Option.some.injEq] at hq
      subst hq
      have hpf1 : t1.layoutFlagged p = true :=
        hch1 p (by rw [hchi]; exact List.mem_cons_self _ _)
      have hpf3 : t3.layoutFlagged p = true := by rw [hfl3 p hpi]; exact hpf1
      have hpa3 : t3.awaitsChild p = true := by
        have hk : t3.isContainer p = true := by rw [hsh3.isContainer]; exact hpc
        simp only [Store.layoutFlagged, Bool.or_eq_true] at hpf3
        rcases hpf3 with h1 | h1
        · rw [hpd] at h1; cases h1
        · simp [Store.awaitsChild, hk, h1, hpd]
      have hpat : t.awaitsChild p = true := (haw3 p hpa3).2
      have hw3 : wfLinks t3 = true := by rw [hsh3.wfLinks]; exact hwfl
      have hp3 : p < t3.size := by rw [hsh3.1]; exact hps
      have hlenp : (parents t3 p).length < t3.size := (wfLinks_at hw3 hp3).2.2.2.2
      -- `reflow` of the parent changes the flags of the parent only, inside the subtree
      have hre : ∀ x, (x = node ∨ node ∈ parents s0 x) → x < s0.size → x ≠ p →
          ((reflow t3 p).node x).flags = (t3.node x).flags := by
        intro x hx hxs hxp
        by_cases hpn : p = node
        · apply reflow_flags_out _ _ _ hxp
          rw [hsh3.parents, hpn]
          intro hmem
          rcases hx with e2 | h2
          · exact hxp (by rw [e2, hpn])
          · exact not_mem_parents_self s0 x (wfLinks_at hwfl hxs).2.2.2.2
              (parents_trans s0 x node x (wfLinks_at hwfl hxs).2.2.2.2 h2 hmem)
        · have hrefl := reflow_of_flagged_parent t3 p hlenp (by
            intro g hg
            have hg0 : s0.parent p = some g := by rw [← hsh3.parent]; exact hg
            rcases cursor_leave s0 hwfl node p hps hpin with ⟨e2, _⟩ | ⟨_, g2, hg2, _, _, hchp, _⟩
            · exact absurd e2 hpn
            · rw [hg0] at hg2
              simp only [Option.some.injEq] at hg2
              subst hg2
              have hgm : g ∈ insideChain s0 node i := by
                rw [hchi, hchp]
                exact List.mem_cons_of_mem _ (List.mem_cons_self _ _)
              rw [hfl3 g (mem_insideChain_ne s0 hwfl node i g hi hgm)]
              exact hch1 g hgm)
          rw [hrefl]
          split
          · rw [modifyFlags_flags, if_neg hxp]
          · rfl
      refine ⟨?_, hsh3.trans (sameShape_reflow t3 p), fun _ => ?_, ?_⟩
      rotate_left 2
      · intro hag; cases hag
      · simp only [if_true]
        apply pendingIn_lt s0 node t (reflow t3 p) p hps hpin hpat
          (awaitsChild_not_dirty (reflow_dirty t3 p))
        intro x hxs hx hxa
        have hxp : x ≠ p := by
          intro e2
          rw [e2, awaitsChild_not_dirty (reflow_dirty t3 p)] at hxa
          cases hxa
        rw [awaitsChild_of_eq (hre x hx hxs hxp)] at hxa
        exact (haw3 x hxa).2
      · refine ⟨hsh3.trans (sameShape_reflow t3 p), hps, hpin, ?_, fun _ =>
          (pre_or_leaf_of_child hwf hi hp0).symm⟩
        intro a ha
        apply reflow_flagged_mono
        have ham : a ∈ insideChain s0 node i := by
          rw [hchi]; exact List.mem_cons_of_mem _ ha
        rw [hfl3 a (mem_insideChain_ne s0 hwfl node i a hi ham)]
        exact hch1 a ham


theorem repeat_while (hooks : Hooks) (s0 : Store) (node : Nat) (hwf : wfTree s0 = true)
    (hcont : s0.isContainer node = true) :
    ∀ (fuel : Nat) (t : Store) (i : Nat) (st : AcceptState) (q : LayoutStep × Nat),
      RepeatInv s0 node t i st → layout_while_count hooks node fuel t i st = some q →
      pendingIn s0 node q.1.store + q.2 ≤ pendingIn s0 node t ∧
      SameShape s0 q.1.store ∧
      (increment s0 q.1.node q.1.state = traverseEnd s0 node ∨
        ∃ j, (increment s0 q.1.node q.1.state).node = some j ∧
          RepeatInv s0 node q.1.store j (increment s0 q.1.node q.1.state).state) := by
  have hwfl := wfTree_wfLinks hwf
  intro fuel
  induction fuel with
  | zero => intro t i st q _ h; simp [layout_while_count] at h
  | succ k ih =>
    intro t i st q hv h
    unfold layout_while_count at h
    split at h
    · simp at h
    · rename_i r hr
      obtain ⟨hle, hshr, hag, hdone⟩ := repeat_pass hooks s0 node hwf hcont t i st r hv hr
      by_cases ha : r.again = true
      · rw [if_pos ha] at h
        simp only [ha, if_true] at hle
        cases hq : layout_while_count hooks node k r.store r.node r.state with
        | none => rw [hq] at h; simp at h
        | some q1 =>
          rw [hq] at h
          simp only [Option.map_some', Option.some.injEq] at h
          obtain ⟨h1, h2, h3⟩ := ih _ _ _ q1 (hag ha) hq
          rw [← h]
          simp only
          exact ⟨by omega, h2, h3⟩
      · rw [if_neg ha] at h
        simp only [Option.some.injEq] at h
        simp only [Bool.not_eq_true] at ha
        simp only [ha, Bool.false_eq_true, if_false, Nat.add_zero] at hle
        obtain ⟨hnode, hch, hP, hL⟩ := hdone ha
        rw [← h]
        simp only [Nat.add_zero]
        refine ⟨hle, hshr, ?_⟩
        rw [hnode]
        by_cases hst : r.state = AcceptState.Pre
        · right
          obtain ⟨hpl, hfi⟩ := hP hst
          obtain ⟨c, hinc, hcs, hpc, hcr, hrc, hcc⟩ :=
            cursor_descend s0 hwfl node i hv.lt hv.inside hpl
          rw [hst, hinc]
          refine ⟨c, rfl, hshr, hcs, Or.inr hrc, ?_, fun _ => rfl⟩
          intro a ha2
          rw [hcc] at ha2
          rcases List.mem_cons.mp ha2 with e | hm
          · rw [e]; exact hfi
          · exact hch a hm
        · rw [increment_leave s0 i r.state hst hL]
          rcases cursor_leave s0 hwfl node i hv.lt hv.inside with ⟨_, e⟩ |
            ⟨_, p, hp, hps, hpin, hchi, hnext⟩
          · exact Or.inl e
          · right
            rcases hnext with ⟨m, hm, hms, hmr, hrm, _, hcm⟩ | hm
            · rw [hm]
              refine ⟨m, rfl, hshr, hms, Or.inr hrm, ?_, fun _ => rfl⟩
              intro a ha2
              rw [hcm] at ha2
              exact hch a ha2
            · rw [hm]
              refine ⟨p, rfl, hshr, hps, hpin, ?_, fun e => absurd rfl e⟩
              intro a ha2
              exact hch a (by rw [hchi]; exact List.mem_cons_of_mem _ ha2)

theorem repeat_loop (hooks : Hooks) (s0 : Store) (node : Nat) (hwf : wfTree s0 = true)
    (hcont : s0.isContainer node = true) :
    ∀ (fuel : Nat) (t : Store) (cur : Accept) (res : Store × Nat), SameShape s0 t →
      (cur.same (traverseEnd s0 node) = false →
        ∃ i, cur.node = some i ∧ RepeatInv s0 node t i cur.state) →
      layout_loop_count hooks node (traverseEnd s0 node) fuel t cur = some res →
      pendingIn s0 node res.1 + res.2 ≤ pendingIn s0 node t := by
  intro fuel
  induction fuel with
  | zero =>
    intro t cur res _ _ h
    unfold layout_loop_count at h
    split at h
    · simp only [Option.some.injEq] at h; rw [← h]; simp
    · simp at h
  | succ k ih =>
    intro t cur res hsh hcur h
    unfold layout_loop_count at h
    split at h
    · simp only [Option.some.injEq] at h; rw [← h]; simp
    · rename_i hsame
      obtain ⟨i, hi, hv⟩ := hcur (by simpa using hsame)
      rw [hi] at h
      simp only at h
      split at h
      · simp at h
      · rename_i q hq
        obtain ⟨h1, h2, h3⟩ := repeat_while hooks s0 node hwf hcont _ t i cur.state q hv hq
        cases hl : layout_loop_count hooks node (traverseEnd s0 node) k q.1.store
            (increment q.1.store q.1.node q.1.state) with
        | none => rw [hl] at h; simp at h
        | some x =>
          rw [hl] at h
          simp only [Option.map_some', Option.some.injEq] at h
          have hx := ih q.1.store _ x h2 (by
            intro hns
            rw [h2.increment] at hns ⊢
            rcases h3 with e | hj
            · rw [e, same_self] at hns; cases hns
            · exact hj) hl
          rw [← h]
          simp only
          omega

theorem pendingIn_shape {s t : Store} (h : SameShape s t) (node : Nat) (u : Store) :
    pendingIn t node u = pendingIn s node u := by
  unfold pendingIn inSubtree
  rw [h.1]
  congr 1
  funext x
  rw [h.parents]

theorem reflow_awaits_sub (s : Store) (hwf : wfLinks s = true) (node x : Nat) (hx : x < s.size)
    (hin : x = node ∨ node ∈ parents s x) (h : (reflow s node).awaitsChild x = true) :
    s.awaitsChild x = true := by
  by_cases hxn : x = node
  · rw [hxn, awaitsChild_not_dirty (reflow_dirty s node)] at h; cases h
  · have hout : x ∉ parents s node := by
      intro hm
      have hl := (wfLinks_at hwf hx).2.2.2.2
      exact not_mem_parents_self s x hl
        (parents_trans s x node x hl (hin.resolve_left hxn) hm)
    rw [awaitsChild_of_eq (reflow_flags_out s node x hxn hout)] at h
    exact h

theorem setConstraints_awaits_sub (s : Store) (hwf : wfLinks s = true) (node x : Nat)
    (c : Vec2) (hx : x < s.size) (hin : x = node ∨ node ∈ parents s x)
    (h : (setConstraints s node c).1.awaitsChild x = true) : s.awaitsChild x = true := by
  unfold setConstraints at h
  split at h
  · simp only at h
    have hsh : SameShape s (s.modify node (fun n => { n with constraints := c })) :=
      sameShape_modify s node _ (fun n => ⟨rfl, rfl, rfl, rfl, rfl, rfl⟩)
    have h2 := reflow_awaits_sub _ (by rw [hsh.wfLinks]; exact hwf) node x
      (by rw [hsh.1]; exact hx) (by rw [hsh.parents]; exact hin) h
    have hfl : ((s.modify node (fun n => { n with constraints := c })).node x).flags =
        (s.node x).flags := by
      rw [modify_node]; split
      · rename_i e; rw [e]
      · rfl
    rw [awaitsChild_of_eq hfl] at h2
    exact h2
  · exact h

theorem layout_init_awaits (hooks : Hooks) (surface : Surface) (s : Store) (node : Nat)
    (hwf : wfLinks s = true) (h2 : (layout_init hooks surface s node).2 = true) (x : Nat)
    (hx : x < s.size) (hin : x = node ∨ node ∈ parents s x)
    (h : (layout_init hooks surface s node).1.awaitsChild x = true) :
    s.awaitsChild x = true := by
  have key : ∀ X : Store, (X.awaitsChild x = true → s.awaitsChild x = true) →
      (if X.isWidget node then
          (clearLayoutDirty
            (if !X.isAttached node then (setSize X node (X.node node).constraints).1
             else (setSize X node (hooks.preferredSize X node)).1) node, false)
        else (X, true)).2 = true →
      (if X.isWidget node then
          (clearLayoutDirty
            (if !X.isAttached node then (setSize X node (X.node node).constraints).1
             else (setSize X node (hooks.preferredSize X node)).1) node, false)
        else (X, true)).1.awaitsChild x = true → s.awaitsChild x = true := by
    intro X hX hb ha
    by_cases hw : X.isWidget node = true
    · rw [if_pos hw] at hb; cases hb
    · rw [if_neg hw] at ha; exact hX ha
  unfold layout_init at h h2
  simp only at h h2
  by_cases hch : surface.changed = true
  · rw [if_pos hch] at h h2
    refine key _ ?_ h2 h
    intro ha
    have hsh : SameShape s (reset s node) := sameShape_reset s node
    have h3 := setConstraints_awaits_sub _ (by rw [hsh.wfLinks]; exact hwf) node x _
      (by rw [hsh.1]; exact hx) (by rw [hsh.parents]; exact hin) ha
    unfold reset at h3
    have hsl := sameLayout_repaint_all (reflow s node) node
    rw [awaitsChild_of_flags (hsl.1.2 x).2.2.2.2.2 (hsl.2 x)] at h3
    exact reflow_awaits_sub s hwf node x hx hin h3
  · rw [if_neg hch] at h h2
    by_cases hat : (!s.isAttached node) = true
    · rw [if_pos hat] at h h2
      exact key _ (setConstraints_awaits_sub s hwf node x _ hx hin) h2 h
    · rw [if_neg hat] at h h2
      exact key _ id h2 h

theorem layout_count_bounded (hooks : Hooks) (surface : Surface) (s : Store) (node : Nat)
    (hwf : wfTree s = true) (hn : node < s.size) (F : Nat) (q : Store × Nat)
    (h : layout_count hooks F surface s node = some q) : q.2 ≤ pendingContainers s node := by
  have hwfl := wfTree_wfLinks hwf
  obtain ⟨hsh, hc⟩ := layout_init_shape hooks surface s node
  unfold layout_count at h
  simp only at h
  split at h
  · simp only [Option.some.injEq] at h; rw [← h]; simp
  · rename_i h2'
    have h2 : (layout_init hooks surface s node).2 = true := by
      cases hb : (layout_init hooks surface s node).2 with
      | true => rfl
      | false => rw [hb] at h2'; simp at h2'
    split at h
    · simp only [Option.some.injEq] at h; rw [← h]; simp
    · have hwf1 : wfTree (layout_init hooks surface s node).1 = true := by
        rw [hsh.wfTree]; exact hwf
      have hcont : (layout_init hooks surface s node).1.isContainer node = true := by
        rw [hsh.isContainer]; exact hc h2
      have hinit : RepeatInv (layout_init hooks surface s node).1 node
          (layout_init hooks surface s node).1 node
          (traverseBegin (layout_init hooks surface s node).1 node).state :=
        { shape := SameShape.refl _
          lt := by rw [hsh.1]; exact hn
          inside := Or.inl rfl
          chain := by intro a ha; simp [insideChain] at ha
          pre := fun _ => rfl }
      have hb := repeat_loop hooks _ node hwf1 hcont F _ _ q (SameShape.refl _)
        (fun _ => ⟨node, rfl, hinit⟩) h
      rw [pendingIn_shape hsh, pendingIn_shape hsh] at hb
      have hle : pendingIn s node (layout_init hooks surface s node).1 ≤ pendingIn s node s :=
        pendingIn_le s node s _ (fun x hx hin ha =>
          layout_init_awaits hooks surface s node hwfl h2 x hx hin ha)
      unfold pendingContainers
      omega

/-! ## The chains of the components of an owner -/

theorem setComp_comp (o : Owner) (x : Int) (c : Component) (y : Int) :
    (o.setComp x c).comp y = if y = x then c else o.comp y := rfl

theorem setComp_first (o : Owner) (x : Int) (c : Component) :
    (o.setComp x c).first_component_offset = o.first_component_offset := rfl

theorem linkSibling_comp (o : Owner) (x h : Int) (hne : h ≠ x) (y : Int) :
    (linkSibling o x h).comp y =
      if y = h then { o.comp h with next_sibling_offset := x }
      else if y = x then { o.comp x with next_sibling_offset := (o.comp h).next_sibling_offset }
      else o.comp y := by
  unfold linkSibling
  simp only [setComp_comp]
  by_cases e1 : y = h
  · simp [e1, hne]
  · simp [e1]

theorem linkSibling_first (o : Owner) (x h : Int) :
    (linkSibling o x h).first_component_offset = o.first_component_offset := rfl

theorem strangerLinked_congr (o o2 : Owner) :
    ∀ L : List Int,
      (∀ x ∈ L, (o2.comp x).next_stranger_offset = (o.comp x).next_stranger_offset) →
      strangerLinked o L → strangerLinked o2 L := by
  intro L
  induction L with
  | nil => intro _ _; trivial
  | cons x rest ih =>
    intro h hl
    exact ⟨by rw [h x (List.mem_cons_self _ _)]; exact hl.1,
      ih (fun y hy => h y (List.mem_cons_of_mem _ hy)) hl.2⟩

theorem strangerLinked_suffix (o : Owner) :
    ∀ (A B : List Int), strangerLinked o (A ++ B) → strangerLinked o B := by
  intro A
  induction A with
  | nil => intro B h; exact h
  | cons a A' ih => intro B h; exact ih B h.2

/-- The loop of `attachComponent` arrives at the component of the type. -/
theorem attachLoop_found (o : Owner) (x : Int) (t : Nat) (h : Int) (B : List Int) :
    ∀ (A : List Int) (fuel : Nat) (prev : Int) (o2 : Owner),
      strangerLinked o (prev :: A ++ h :: B) → (∀ y ∈ A, (o.comp y).type < t ∧ y ≠ 0) →
      (o.comp h).type = t → h ≠ 0 →
      attachLoop o x t fuel prev = some o2 → o2 = linkSibling o x h := by
  intro A
  induction A with
  | nil =>
    intro fuel prev o2 hl _ hth h0 hr
    cases fuel with
    | zero => simp [attachLoop] at hr
    | succ k =>
      have hn : (o.comp prev).next_stranger_offset = h := hl.1
      simp only [attachLoop, hn, h0, if_false, hth, gt_iff_lt, Nat.lt_irrefl, if_true,
        Option.some.injEq] at hr
      rw [← hr]
      rfl
  | cons a A ih =>
    intro fuel prev o2 hl hA hth h0 hr
    cases fuel with
    | zero => simp [attachLoop] at hr
    | succ k =>
      have hn : (o.comp prev).next_stranger_offset = a := hl.1
      obtain ⟨hta, ha0⟩ := hA a (List.mem_cons_self _ _)
      have h1 : ¬ (o.comp a).type > t := by omega
      have h2 : ¬ t = (o.comp a).type := by omega
      simp only [attachLoop, hn, ha0, if_false, h1, h2] at hr
      exact ih k a o2 hl.2 (fun y hy => hA y (List.mem_cons_of_mem _ hy)) hth h0 hr

/-- The loop of `attachComponent` arrives at the end of the list. -/
theorem attachLoop_end (o : Owner) (x : Int) (t : Nat) :
    ∀ (A : List Int) (fuel : Nat) (prev : Int) (o2 : Owner),
      strangerLinked o (prev :: A) → (∀ y ∈ A, (o.comp y).type < t ∧ y ≠ 0) →
      attachLoop o x t fuel prev = some o2 →
      o2 = o.setComp ((prev :: A).getLastD prev)
        { o.comp ((prev :: A).getLastD prev) with next_stranger_offset := x } := by
  intro A
  induction A with
  | nil =>
    intro fuel prev o2 hl _ hr
    cases fuel with
    | zero => simp [attachLoop] at hr
    | succ k =>
      have hn : (o.comp prev).next_stranger_offset = 0 := hl.1
      simp only [attachLoop, hn, if_true, Option.some.injEq] at hr
      rw [← hr]
      rfl
  | cons a A ih =>
    intro fuel prev o2 hl hA hr
    cases fuel with
    | zero => simp [attachLoop] at hr
    | succ k =>
      have hn : (o.comp prev).next_stranger_offset = a := hl.1
      obtain ⟨hta, ha0⟩ := hA a (List.mem_cons_self _ _)
      have h1 : ¬ (o.comp a).type > t := by omega
      have h2 : ¬ t = (o.comp a).type := by omega
      simp only [attachLoop, hn, ha0, if_false, h1, h2] at hr
      have := ih k a o2 hl.2 (fun y hy => hA y (List.mem_cons_of_mem _ hy)) hr
      rw [this]
      simp [List.getLastD]


theorem ofType_append (D : List (Int × Nat)) (x : Int) (t t' : Nat) :
    ofType (D ++ [(x, t)]) t' = ofType D t' ++ (if t = t' then [x] else []) := by
  unfold ofType
  rw [List.filter_append, List.map_append]
  by_cases e : t = t'
  · simp [e]
  · simp [e]

theorem mem_ofType (D : List (Int × Nat)) (t : Nat) (y : Int) :
    y ∈ ofType D t ↔ (y, t) ∈ D := by
  unfold ofType
  simp only [List.mem_map, List.mem_filter, beq_iff_eq]
  constructor
  · rintro ⟨p, ⟨hp, e⟩, e2⟩
    have : p = (y, t) := by
      cases p; simp only at e e2; rw [e, e2]
    rw [← this]; exact hp
  · intro h
    exact ⟨(y, t), ⟨h, rfl⟩, rfl⟩

theorem mem_headThenLatest (L : List Int) (y : Int) : y ∈ headThenLatest L ↔ y ∈ L := by
  cases L with
  | nil => simp [headThenLatest]
  | cons a rest => simp [headThenLatest]

theorem headThenLatest_append (a : Int) (rest : List Int) (x : Int) :
    headThenLatest ((a :: rest) ++ [x]) = a :: x :: rest.reverse := by
  simp [headThenLatest]

theorem chain_nodup (o : Owner) (C : List Int)
    (h : (C.map (fun x => (o.comp x).type)).Pairwise (fun a b => a < b)) : C.Nodup := by
  rw [List.pairwise_map] at h
  exact h.imp (fun {a b} hab e => by rw [e] at hab; omega)

theorem ofType_nil_of_absent (D : List (Int × Nat)) (t : Nat) (h : ∀ p ∈ D, p.2 ≠ t) :
    ofType D t = [] := by
  unfold ofType
  rw [List.map_eq_nil_iff, List.filter_eq_nil_iff]
  intro p hp
  simp only [beq_iff_eq]
  exact h p hp

/-- The construction of a component whose type is present: the component is
linked behind the first constructed component of the type. -/
theorem chainInv_link (o o2 : Owner) (D : List (Int × Nat)) (C : List Int) (x : Int) (t : Nat)
    (a : Int) (rest : List Int) (hinv : ChainInv o D C) (hx0 : x ≠ 0)
    (hfresh : ∀ p ∈ D, p.1 ≠ x) (hnd : (D.map (fun p => p.1)).Nodup)
    (ha : ofType D t = a :: rest) (hf : o2.first_component_offset = o.first_component_offset)
    (hc : ∀ y, o2.comp y =
      if y = a then { o.comp a with next_sibling_offset := x }
      else if y = x then { type := t, next_sibling_offset := (o.comp a).next_sibling_offset }
      else o.comp y) :
    ChainInv o2 (D ++ [(x, t)]) C := by
  obtain ⟨h1, h2, h3, h4, h5, h6, h7, h8⟩ := hinv
  have haD : (a, t) ∈ D := (mem_ofType D t a).mp (by rw [ha]; exact List.mem_cons_self _ _)
  have hax : a ≠ x := hfresh (a, t) haD
  have hxC : x ∉ C := fun hm => by
    obtain ⟨p, hp, e⟩ := h4 x hm
    exact hfresh p hp e
  have hty : ∀ y, y ≠ x → (o2.comp y).type = (o.comp y).type := by
    intro y hy
    rw [hc y]
    by_cases e : y = a
    · rw [if_pos e, e]
    · rw [if_neg e, if_neg hy]
  have hstr : ∀ y, y ≠ x → (o2.comp y).next_stranger_offset = (o.comp y).next_stranger_offset := by
    intro y hy
    rw [hc y]
    by_cases e : y = a
    · rw [if_pos e, e]
    · rw [if_neg e, if_neg hy]
  have hsibl : ∀ y, y ≠ x → y ≠ a →
      (o2.comp y).next_sibling_offset = (o.comp y).next_sibling_offset := by
    intro y hy hya
    rw [hc y, if_neg hya, if_neg hy]
  refine ⟨by rw [hf]; exact h1, ?_, ?_, ?_, ?_, ?_, ?_, ?_⟩
  · exact strangerLinked_congr o o2 C (fun y hy => hstr y (fun e => hxC (e ▸ hy))) h2
  · have : C.map (fun y => (o2.comp y).type) = C.map (fun y => (o.comp y).type) :=
      List.map_congr_left (fun y hy => hty y (fun e => hxC (e ▸ hy)))
    rw [this]; exact h3
  · intro y hy
    obtain ⟨p, hp, e⟩ := h4 y hy
    exact ⟨p, List.mem_append_left _ hp, e⟩
  · intro p hp
    rcases List.mem_append.mp hp with hp | hp
    · rw [hty p.1 (hfresh p hp)]; exact h5 p hp
    · rw [List.mem_singleton.mp hp]
      simp only
      rw [hc x, if_neg (Ne.symm hax), if_pos rfl]
  · intro p hp
    rcases List.mem_append.mp hp with hp | hp
    · exact h6 p hp
    · rw [List.mem_singleton.mp hp]; exact hx0
  · intro t' b rest' hb
    rw [ofType_append] at hb
    by_cases e : t = t'
    · rw [if_pos e, ← e, ha] at hb
      simp only [List.cons_append, List.cons.injEq] at hb
      rw [← hb.1]
      exact h7 t a rest ha
    · rw [if_neg e, List.append_nil] at hb
      exact h7 t' b rest' hb
  · intro t'
    rw [ofType_append]
    by_cases e : t = t'
    · rw [if_pos e, ← e, ha, headThenLatest_append]
      have hold := h8 t
      rw [ha] at hold
      simp only [headThenLatest] at hold
      refine ⟨?_, ?_, ?_⟩
      · rw [hc a, if_pos rfl]; rfl
      · rw [hc x, if_neg (Ne.symm hax), if_pos rfl]
        exact hold.1
      · apply offLinked_congr o o2 _ _ hold.2
        intro y hy
        have hyr : y ∈ rest := List.mem_reverse.mp hy
        have hyD : (y, t) ∈ D := (mem_ofType D t y).mp (by rw [ha]; exact List.mem_cons_of_mem _ hyr)
        apply hsibl y (hfresh (y, t) hyD)
        intro e2
        -- the offsets of the components of the type are distinct
        have hnd2 : (ofType D t).Nodup := by
          unfold ofType
          have := hnd.sublist (List.Sublist.map (fun p : Int × Nat => p.1)
            (List.filter_sublist (l := D) (p := fun p => p.2 == t)))
          exact this
        rw [ha, List.nodup_cons] at hnd2
        exact hnd2.1 (e2 ▸ hyr)
    · rw [if_neg e, List.append_nil]
      apply offLinked_congr o o2 _ _ (h8 t')
      intro y hy
      have hyD : (y, t') ∈ D := (mem_ofType D t' y).mp ((mem_headThenLatest _ y).mp hy)
      apply hsibl y (hfresh (y, t') hyD)
      intro e2
      have h1' := h5 (y, t') hyD
      have h2' := h5 (a, t) haD
      simp only at h1' h2'
      rw [e2, h2'] at h1'
      exact e h1'

/-- The construction of a component of a new type that is linked into the
list `components()`: in front of it when `before = true`, behind it
otherwise. -/
theorem chainInv_new (o o2 : Owner) (D : List (Int × Nat)) (C C2 : List Int) (x : Int) (t : Nat)
    (hinv : ChainInv o D C) (hx0 : x ≠ 0) (hfresh : ∀ p ∈ D, p.1 ≠ x)
    (hnew : ofType D t = [])
    (hC2 : (C2 = x :: C ∧ ∀ y ∈ C, t < (o.comp y).type) ∨
      (C2 = C ++ [x] ∧ ∀ y ∈ C, (o.comp y).type < t))
    (hf : o2.first_component_offset = C2.headD 0) (hl : strangerLinked o2 C2)
    (hcx : (o2.comp x).type = t ∧ (o2.comp x).next_sibling_offset = 0)
    (hc : ∀ y, y ≠ x → (o2.comp y).type = (o.comp y).type ∧
      (o2.comp y).next_sibling_offset = (o.comp y).next_sibling_offset) :
    ChainInv o2 (D ++ [(x, t)]) C2 := by
  obtain ⟨h1, h2, h3, h4, h5, h6, h7, h8⟩ := hinv
  have hxC : x ∉ C := fun hm => by
    obtain ⟨p, hp, e⟩ := h4 x hm
    exact hfresh p hp e
  have hmap : C.map (fun y => (o2.comp y).type) = C.map (fun y => (o.comp y).type) :=
    List.map_congr_left (fun y hy => (hc y (fun e => hxC (e ▸ hy))).1)
  have hmem : ∀ y, y ∈ C2 ↔ y = x ∨ y ∈ C := by
    intro y
    rcases hC2 with ⟨e, _⟩ | ⟨e, _⟩
    · rw [e]; simp
    · rw [e]; simp [or_comm]
  refine ⟨hf, hl, ?_, ?_, ?_, ?_, ?_, ?_⟩
  · rcases hC2 with ⟨e, hlt⟩ | ⟨e, hlt⟩
    · rw [e, List.map_cons, List.pairwise_cons, hmap]
      refine ⟨?_, h3⟩
      intro b hb
      obtain ⟨y, hy, e2⟩ := List.mem_map.mp hb
      rw [hcx.1, ← e2]
      exact hlt y hy
    · rw [e, List.map_append, List.pairwise_append, hmap]
      refine ⟨h3, by simp, ?_⟩
      intro b hb c hcm
      obtain ⟨y, hy, e2⟩ := List.mem_map.mp hb
      simp only [List.map_cons, List.map_nil, List.mem_singleton] at hcm
      rw [hcm, hcx.1, ← e2]
      exact hlt y hy
  · intro y hy
    rcases (hmem y).mp hy with e | hy
    · exact ⟨(x, t), List.mem_append_right _ (List.mem_singleton_self _), e.symm⟩
    · obtain ⟨p, hp, e⟩ := h4 y hy
      exact ⟨p, List.mem_append_left _ hp, e⟩
  · intro p hp
    rcases List.mem_append.mp hp with hp | hp
    · rw [(hc p.1 (hfresh p hp)).1]; exact h5 p hp
    · rw [List.mem_singleton.mp hp]; exact hcx.1
  · intro p hp
    rcases List.mem_append.mp hp with hp | hp
    · exact h6 p hp
    · rw [List.mem_singleton.mp hp]; exact hx0
  · intro t' b rest' hb
    rw [ofType_append] at hb
    by_cases e : t = t'
    · rw [if_pos e, ← e, hnew] at hb
      simp only [List.nil_append, List.cons.injEq] at hb
      rw [← hb.1]
      exact (hmem x).mpr (Or.inl rfl)
    · rw [if_neg e, List.append_nil] at hb
      exact (hmem b).mpr (Or.inr (h7 t' b rest' hb))
  · intro t'
    rw [ofType_append]
    by_cases e : t = t'
    · rw [if_pos e, ← e, hnew]
      exact ⟨hcx.2, trivial⟩
    · rw [if_neg e, List.append_nil]
      apply offLinked_congr o o2 _ _ (h8 t')
      intro y hy
      have hyD : (y, t') ∈ D := (mem_ofType D t' y).mp ((mem_headThenLatest _ y).mp hy)
      exact (hc y (hfresh (y, t') hyD)).2


theorem getLastD_mem (c0 : Int) : ∀ C : List Int, (c0 :: C).getLastD c0 ∈ c0 :: C
  | [] => by simp [List.getLastD]
  | c1 :: C => by
    have := getLastD_mem c1 C
    have e : (c0 :: c1 :: C).getLastD c0 = (c1 :: C).getLastD c1 := by
      simp [List.getLastD]
    rw [e]
    exact List.mem_cons_of_mem _ this

theorem strangerLinked_snoc (o o2 : Owner) (x : Int) :
    ∀ (C : List Int) (c0 : Int), strangerLinked o (c0 :: C) → (c0 :: C).Nodup →
      (∀ y ∈ c0 :: C, (o2.comp y).next_stranger_offset =
        if y = (c0 :: C).getLastD c0 then x else (o.comp y).next_stranger_offset) →
      (o2.comp x).next_stranger_offset = 0 → strangerLinked o2 (c0 :: C ++ [x]) := by
  intro C
  induction C with
  | nil =>
    intro c0 _ _ hc hx
    have := hc c0 (List.mem_cons_self _ _)
    simp [List.getLastD] at this
    exact ⟨by simpa using this, hx, trivial⟩
  | cons c1 C ih =>
    intro c0 hl hnd hc hx
    have e : (c0 :: c1 :: C).getLastD c0 = (c1 :: C).getLastD c1 := by
      simp [List.getLastD]
    have hne : c0 ≠ (c1 :: C).getLastD c1 := by
      intro e2
      rw [List.nodup_cons] at hnd
      apply hnd.1
      rw [e2]
      exact getLastD_mem c1 C
    refine ⟨?_, ?_⟩
    · rw [hc c0 (List.mem_cons_self _ _), e, if_neg hne]
      exact hl.1
    · apply ih c1 hl.2 (List.nodup_cons.mp hnd).2 _ hx
      intro y hy
      rw [hc y (List.mem_cons_of_mem _ hy), e]

theorem chain_unique (o : Owner) :
    ∀ C : List Int, (C.map (fun x => (o.comp x).type)).Pairwise (fun a b => a < b) →
      ∀ y z : Int, y ∈ C → z ∈ C → (o.comp y).type = (o.comp z).type → y = z := by
  intro C
  induction C with
  | nil => intro _ y z hy; simp at hy
  | cons c C ih =>
    intro h y z hy hz e
    rw [List.map_cons, List.pairwise_cons] at h
    rcases List.mem_cons.mp hy with e1 | h1
    · rcases List.mem_cons.mp hz with e2 | h2
      · rw [e1, e2]
      · have := h.1 _ (List.mem_map.mpr ⟨z, h2, rfl⟩)
        rw [e1] at e
        omega
    · rcases List.mem_cons.mp hz with e2 | h2
      · have := h.1 _ (List.mem_map.mpr ⟨y, h1, rfl⟩)
        rw [e2] at e
        omega
      · exact ih h.2 y z h1 h2 e


theorem attachComponent_cases (o1 o2 : Owner) (x : Int) (h : attachComponent o1 x = some o2) :
    x ≠ 0 ∧
    ((o1.first_component_offset = 0 ∧
        o2 = { withFilter o1 (o1.comp x).type with first_component_offset := x }) ∨
     (o1.first_component_offset ≠ 0 ∧
        (o1.comp x).type < (o1.comp o1.first_component_offset).type ∧
        o2 = { (withFilter o1 (o1.comp x).type).setComp x
            { o1.comp x with next_stranger_offset := o1.first_component_offset } with
          first_component_offset := x }) ∨
     (o1.first_component_offset ≠ 0 ∧
        (o1.comp x).type = (o1.comp o1.first_component_offset).type ∧
        o2 = linkSibling (withFilter o1 (o1.comp x).type) x o1.first_component_offset) ∨
     (o1.first_component_offset ≠ 0 ∧
        (o1.comp o1.first_component_offset).type < (o1.comp x).type ∧
        attachLoop (withFilter o1 (o1.comp x).type) x (o1.comp x).type offsetFuel
          o1.first_component_offset = some o2)) := by
  unfold attachComponent at h
  split at h
  · simp at h
  · rename_i hx0
    refine ⟨hx0, ?_⟩
    simp only at h
    split at h
    · rename_i hf
      have hf' : o1.first_component_offset ≠ 0 := hf
      split at h
      · rename_i hlt
        right; left
        simp only [Option.some.injEq] at h
        exact ⟨hf', hlt, h.symm⟩
      · rename_i hlt
        split at h
        · rename_i he
          right; right; left
          simp only [Option.some.injEq] at h
          exact ⟨hf', he, h.symm⟩
        · rename_i he
          right; right; right
          have hlt' : ¬ (o1.comp x).type < (o1.comp o1.first_component_offset).type := hlt
          have he' : ¬ (o1.comp x).type = (o1.comp o1.first_component_offset).type := he
          exact ⟨hf', by omega, h⟩
    · rename_i hf
      left
      have hf' : ¬ o1.first_component_offset ≠ 0 := hf
      simp only [Option.some.injEq] at h
      exact ⟨by simpa using hf', h.symm⟩


theorem attach_chainInv (o o1 o2 : Owner) (D : List (Int × Nat)) (C : List Int) (x : Int)
    (t : Nat) (hinv : ChainInv o D C) (hfresh : ∀ p ∈ D, p.1 ≠ x)
    (hnd : (D.map (fun p => p.1)).Nodup)
    (hord : (∃ p ∈ D, p.2 = t) ∨ (∀ p ∈ D, t < p.2) ∨ (∀ p ∈ D, p.2 < t))
    (hf1 : o1.first_component_offset = o.first_component_offset)
    (hc1 : ∀ y, o1.comp y = if y = x then { type := t } else o.comp y)
    (h : attachComponent o1 x = some o2) : ∃ C2, ChainInv o2 (D ++ [(x, t)]) C2 := by
  obtain ⟨hx0, hcases⟩ := attachComponent_cases o1 o2 x h
  have hxt : (o1.comp x).type = t := by rw [hc1 x, if_pos rfl]
  have hxs : (o1.comp x).next_sibling_offset = 0 := by rw [hc1 x, if_pos rfl]
  have hxn : (o1.comp x).next_stranger_offset = 0 := by rw [hc1 x, if_pos rfl]
  rw [hxt] at hcases
  have hxC : x ∉ C := fun hm => by
    obtain ⟨p, hp, e⟩ := hinv.sub x hm
    exact hfresh p hp e
  have hcC : ∀ y, y ≠ x → o1.comp y = o.comp y := by
    intro y hy
    rw [hc1 y, if_neg hy]
  have hCx : ∀ y ∈ C, y ≠ x := fun y hy e => hxC (e ▸ hy)
  have hC0 : ∀ y ∈ C, y ≠ 0 := by
    intro y hy
    obtain ⟨p, hp, e⟩ := hinv.sub y hy
    rw [← e]; exact hinv.dnz p hp
  have hCD : ∀ y ∈ C, ∃ p ∈ D, p.1 = y ∧ p.2 = (o.comp y).type := by
    intro y hy
    obtain ⟨p, hp, e⟩ := hinv.sub y hy
    exact ⟨p, hp, e, by rw [← e]; exact (hinv.types p hp).symm⟩
  -- the first constructed component of a type that is present
  have hhead : ∀ p ∈ D, ∃ a rest, ofType D p.2 = a :: rest ∧ a ∈ C ∧ (o.comp a).type = p.2 := by
    intro p hp
    have hm : p.1 ∈ ofType D p.2 := (mem_ofType D p.2 p.1).mpr hp
    cases hof : ofType D p.2 with
    | nil => rw [hof] at hm; simp at hm
    | cons a rest =>
      refine ⟨a, rest, rfl, hinv.heads p.2 a rest hof, ?_⟩
      have : (a, p.2) ∈ D := (mem_ofType D p.2 a).mp (by rw [hof]; exact List.mem_cons_self _ _)
      exact hinv.types _ this
  have hnewOf : (∀ y ∈ C, (o.comp y).type ≠ t) → ofType D t = [] := by
    intro hne
    apply ofType_nil_of_absent
    intro p hp e
    obtain ⟨a, _, _, haC, hat⟩ := hhead p hp
    exact hne a haC (by rw [hat, e])
  -- a component linked behind the first one of its type
  have hlink : ∀ a, a ∈ C → (o.comp a).type = t →
      o2 = linkSibling (withFilter o1 t) x a → ChainInv o2 (D ++ [(x, t)]) C := by
    intro a haC hat e
    obtain ⟨p, hp, hpa, hpt⟩ := hCD a haC
    obtain ⟨b, rest, hof, hbC, hbt⟩ := hhead p hp
    have hba : b = a := chain_unique o C hinv.sorted b a hbC haC (by rw [hbt, hpt])
    rw [hpt, hat, hba] at hof
    have hax : a ≠ x := hCx a haC
    refine chainInv_link o o2 D C x t a rest hinv hx0 hfresh hnd hof (by rw [e]; exact hf1) ?_
    intro y
    rw [e, linkSibling_comp _ _ _ hax]
    show (if y = a then { o1.comp a with next_sibling_offset := x }
      else if y = x then { o1.comp x with next_sibling_offset := (o1.comp a).next_sibling_offset }
      else o1.comp y) = _
    by_cases e1 : y = a
    · rw [if_pos e1, if_pos e1, hcC a hax]
    · rw [if_neg e1, if_neg e1]
      by_cases e2 : y = x
      · rw [if_pos e2, if_pos e2, hc1 x, if_pos rfl, hcC a hax]
      · rw [if_neg e2, if_neg e2, hcC y e2]
  cases hC : C with
  | nil =>
    rcases hcases with ⟨_, e⟩ | ⟨hf, _⟩ | ⟨hf, _⟩ | ⟨hf, _⟩
    · refine ⟨[x], chainInv_new o o2 D C [x] x t hinv hx0 hfresh
        (hnewOf (by rw [hC]; intro y hy; simp at hy))
        (Or.inl ⟨by rw [hC], by rw [hC]; intro y hy; simp at hy⟩) ?_ ?_ ?_ ?_⟩
      · rw [e]; rfl
      · rw [e]; exact ⟨hxn, trivial⟩
      · rw [e]; exact ⟨hxt, hxs⟩
      · intro y hy
        rw [e]
        show (o1.comp y).type = _ ∧ (o1.comp y).next_sibling_offset = _
        rw [hcC y hy]
        exact ⟨rfl, rfl⟩
    all_goals
      exfalso; apply hf; rw [hf1, hinv.first, hC]; rfl
  | cons c0 Cs =>
    have hc0C : c0 ∈ C := by rw [hC]; exact List.mem_cons_self _ _
    have hfz : o1.first_component_offset = c0 := by rw [hf1, hinv.first, hC]; rfl
    have hc00 : c0 ≠ 0 := hC0 c0 hc0C
    have hc0x : c0 ≠ x := hCx c0 hc0C
    have hct : (o1.comp c0).type = (o.comp c0).type := by rw [hcC c0 hc0x]
    have hsorted := hinv.sorted
    rw [hC, List.map_cons, List.pairwise_cons] at hsorted
    rw [hfz, hct] at hcases
    rcases hcases with ⟨hf, _⟩ | ⟨_, hlt, e⟩ | ⟨_, he, e⟩ | ⟨_, hlt, hloop⟩
    · exact absurd hf hc00
    · -- a new first component
      have hall : ∀ y ∈ C, t < (o.comp y).type := by
        intro y hy
        rw [hC] at hy
        rcases List.mem_cons.mp hy with e1 | h1
        · rw [e1]; exact hlt
        · have := hsorted.1 _ (List.mem_map.mpr ⟨y, h1, rfl⟩)
          omega
      refine ⟨x :: C, chainInv_new o o2 D C (x :: C) x t hinv hx0 hfresh
        (hnewOf (fun y hy => by have := hall y hy; omega)) (Or.inl ⟨rfl, hall⟩) ?_ ?_ ?_ ?_⟩
      · rw [e]; rfl
      · rw [e]
        refine ⟨?_, ?_⟩
        · show ((if x = x then ({ o1.comp x with next_stranger_offset := c0 } : Component)
            else o1.comp x)).next_stranger_offset = C.headD 0
          rw [if_pos rfl, hC]; rfl
        · apply strangerLinked_congr o _ C _ hinv.linked
          intro y hy
          show ((if y = x then ({ o1.comp x with next_stranger_offset := c0 } : Component)
            else o1.comp y)).next_stranger_offset = _
          rw [if_neg (hCx y hy), hcC y (hCx y hy)]
      · rw [e]
        show ((if x = x then ({ o1.comp x with next_stranger_offset := c0 } : Component)
            else o1.comp x)).type = t ∧
          ((if x = x then ({ o1.comp x with next_stranger_offset := c0 } : Component)
            else o1.comp x)).next_sibling_offset = 0
        rw [if_pos rfl]
        exact ⟨hxt, hxs⟩
      · intro y hy
        rw [e]
        show ((if y = x then ({ o1.comp x with next_stranger_offset := c0 } : Component)
            else o1.comp y)).type = _ ∧
          ((if y = x then ({ o1.comp x with next_stranger_offset := c0 } : Component)
            else o1.comp y)).next_sibling_offset = _
        rw [if_neg hy, hcC y hy]
        exact ⟨rfl, rfl⟩
    · exact ⟨C, hlink c0 hc0C he.symm e⟩
    · -- the loop over the list of the components
      have hl1 : strangerLinked (withFilter o1 t) C := by
        apply strangerLinked_congr o _ C _ hinv.linked
        intro y hy
        show (o1.comp y).next_stranger_offset = _
        rw [hcC y (hCx y hy)]
      have hty1 : ∀ y ∈ C, ((withFilter o1 t).comp y).type = (o.comp y).type := by
        intro y hy
        show (o1.comp y).type = _
        rw [hcC y (hCx y hy)]
      rcases hord with ⟨p, hp, hpt⟩ | hmin | hmax
      · obtain ⟨a, rest, hof, haC, hat⟩ := hhead p hp
        rw [hpt] at hat
        have hac0 : a ≠ c0 := by
          intro e1; rw [e1] at hat; omega
        have haCs : a ∈ Cs := by
          rw [hC] at haC
          exact (List.mem_cons.mp haC).resolve_left hac0
        obtain ⟨A, B, hsplit⟩ := List.append_of_mem haCs
        have hAlt : ∀ y ∈ A, ((withFilter o1 t).comp y).type < t ∧ y ≠ 0 := by
          intro y hy
          have hyC : y ∈ C := by
            rw [hC, hsplit]
            exact List.mem_cons_of_mem _ (List.mem_append_left _ hy)
          refine ⟨?_, hC0 y hyC⟩
          rw [hty1 y hyC]
          have hp2 := hsorted.2
          rw [hsplit, List.map_append, List.pairwise_append] at hp2
          have := hp2.2.2 _ (List.mem_map.mpr ⟨y, hy, rfl⟩) _
            (List.mem_map.mpr ⟨a, List.mem_cons_self _ _, rfl⟩)
          omega
        have hfound := attachLoop_found (withFilter o1 t) x t a B A offsetFuel c0 o2
          (by rw [hC, hsplit] at hl1; exact hl1) hAlt (by rw [hty1 a haC]; exact hat)
          (hC0 a haC) hloop
        exact ⟨C, hlink a haC hat hfound⟩
      · exfalso
        obtain ⟨p, hp, _, hpt⟩ := hCD c0 hc0C
        have := hmin p hp
        omega
      · have hall : ∀ y ∈ C, (o.comp y).type < t := by
          intro y hy
          obtain ⟨p, hp, _, hpt⟩ := hCD y hy
          have := hmax p hp
          omega
        have hend := attachLoop_end (withFilter o1 t) x t Cs offsetFuel c0 o2
          (by rw [hC] at hl1; exact hl1)
          (fun y hy => by
            have hyC : y ∈ C := by rw [hC]; exact List.mem_cons_of_mem _ hy
            exact ⟨by rw [hty1 y hyC]; exact hall y hyC, hC0 y hyC⟩) hloop
        have hlastC : (c0 :: Cs).getLastD c0 ∈ C := by rw [hC]; exact getLastD_mem c0 Cs
        have hlx : (c0 :: Cs).getLastD c0 ≠ x := hCx _ hlastC
        have hcomp : ∀ y, o2.comp y =
            if y = (c0 :: Cs).getLastD c0 then
              { o1.comp ((c0 :: Cs).getLastD c0) with next_stranger_offset := x }
            else o1.comp y := by
          intro y
          rw [hend]
          rfl
        refine ⟨C ++ [x], chainInv_new o o2 D C (C ++ [x]) x t hinv hx0 hfresh
          (hnewOf (fun y hy => by have := hall y hy; omega)) (Or.inr ⟨rfl, hall⟩) ?_ ?_ ?_ ?_⟩
        · rw [hend, hC]
          show o1.first_component_offset = _
          rw [hfz]; rfl
        · rw [hC]
          apply strangerLinked_snoc o o2 x Cs c0 (by rw [← hC]; exact hinv.linked)
            (by rw [← hC]; exact chain_nodup o C hinv.sorted)
          · intro y hy
            rw [hcomp y]
            by_cases e1 : y = (c0 :: Cs).getLastD c0
            · rw [if_pos e1, if_pos e1]
            · rw [if_neg e1, if_neg e1, hcC y (hCx y (by rw [hC]; exact hy))]
          · rw [hcomp x, if_neg (Ne.symm hlx)]
            exact hxn
        · rw [hcomp x, if_neg (Ne.symm hlx)]
          exact ⟨hxt, hxs⟩
        · intro y hy
          rw [hcomp y]
          by_cases e1 : y = (c0 :: Cs).getLastD c0
          · rw [if_pos e1, ← e1, hcC y hy]
            exact ⟨rfl, rfl⟩
          · rw [if_neg e1, hcC y hy]
            exact ⟨rfl, rfl⟩

theorem construct_chainInv (o o2 : Owner) (D : List (Int × Nat)) (C : List Int) (x : Int)
    (t : Nat) (hinv : ChainInv o D C) (hfresh : ∀ p ∈ D, p.1 ≠ x)
    (hnd : (D.map (fun p => p.1)).Nodup)
    (hord : (∃ p ∈ D, p.2 = t) ∨ (∀ p ∈ D, t < p.2) ∨ (∀ p ∈ D, p.2 < t))
    (h : Component.construct o x t = some o2) : ∃ C2, ChainInv o2 (D ++ [(x, t)]) C2 := by
  unfold Component.construct at h
  split at h
  · exact attach_chainInv o (o.setComp x { type := t }) o2 D C x t hinv hfresh hnd hord rfl
      (fun y => rfl) h
  · simp at h

theorem attachSeq_chainInv :
    ∀ (l D : List (Int × Nat)) (o o2 : Owner) (C : List Int), ChainInv o D C →
      ((D ++ l).map (fun p => p.1)).Nodup → keepsOrder (D.map (fun p => p.2)).reverse l = true →
      attachSeq o l = some o2 → ∃ C2, ChainInv o2 (D ++ l) C2 := by
  intro l
  induction l with
  | nil =>
    intro D o o2 C hinv _ _ h
    simp only [attachSeq, Option.some.injEq] at h
    rw [← h, List.append_nil]
    exact ⟨C, hinv⟩
  | cons q rest ih =>
    intro D o o2 C hinv hnd hord h
    simp only [attachSeq] at h
    cases hc : Component.construct o q.1 q.2 with
    | none => rw [hc] at h; simp at h
    | some o1 =>
      rw [hc] at h
      simp only [Option.some_bind] at h
      simp only [keepsOrder, Bool.and_eq_true, Bool.or_eq_true, List.all_eq_true,
        decide_eq_true_eq] at hord
      obtain ⟨hq, hrest⟩ := hord
      have hnd1 : (D.map (fun p => p.1)).Nodup := by
        rw [List.map_append] at hnd
        exact (List.nodup_append.mp hnd).1
      have hfresh : ∀ p ∈ D, p.1 ≠ q.1 := by
        intro p hp e
        rw [List.map_append, List.map_cons] at hnd
        have := (List.nodup_append.mp hnd).2.2
        exact this (List.mem_map.mpr ⟨p, hp, rfl⟩) (by rw [e]; exact List.mem_cons_self _ _)
      have hord1 : (∃ p ∈ D, p.2 = q.2) ∨ (∀ p ∈ D, q.2 < p.2) ∨ (∀ p ∈ D, p.2 < q.2) := by
        rcases hq with (hq | hq) | hq
        · left
          simp only [List.contains_iff_exists_mem_beq, List.mem_reverse, List.mem_map,
            beq_iff_eq] at hq
          obtain ⟨u, ⟨p, hp, e⟩, e2⟩ := hq
          exact ⟨p, hp, by rw [e, e2]⟩
        · right; left
          intro p hp
          exact hq p.2 (List.mem_reverse.mpr (List.mem_map.mpr ⟨p, hp, rfl⟩))
        · right; right
          intro p hp
          exact hq p.2 (List.mem_reverse.mpr (List.mem_map.mpr ⟨p, hp, rfl⟩))
      have hq2 : (q.1, q.2) = q := rfl
      obtain ⟨C1, hinv1⟩ := construct_chainInv o o1 D C q.1 q.2 hinv hfresh hnd1 hord1 hc
      rw [hq2] at hinv1
      have hD : D ++ q :: rest = (D ++ [q]) ++ rest := by simp
      rw [hD]
      apply ih (D ++ [q]) o1 o2 C1 hinv1 (by rw [← hD]; exact hnd) _ h
      have : ((D ++ [q]).map (fun p => p.2)).reverse = q.2 :: (D.map (fun p => p.2)).reverse := by
        simp
      rw [this]
      exact hrest

theorem chainInv_empty : ChainInv {} [] [] :=
  { first := rfl
    linked := trivial
    sorted := List.Pairwise.nil
    sub := fun x hx => by simp at hx
    types := fun p hp => by simp at hp
    dnz := fun p hp => by simp at hp
    heads := fun t a rest h => by simp [ofType] at h
    sib := fun t => by simp [ofType, headThenLatest, offLinked] }

/-! ## Layout with overriding functions that change the tree -/

theorem layout_pass_split (hooks : Hooks) (node : Nat) (s : Store) (i : Nat)
    (st : AcceptState) :
    layout_pass hooks node s i st =
      (layout_pass_pre hooks node s i st).bind (fun t => layout_pass_rest hooks node t i st) := by
  by_cases h1 : (st != AcceptState.Post) = true
  · by_cases h2 : i = node
    · simp only [layout_pass, layout_pass_pre, h1, h2, if_true, ne_eq, not_true_eq_false,
        if_false, Option.some_bind, layout_pass_rest]
    · cases hp : s.parent i with
      | none =>
        simp only [layout_pass, layout_pass_pre, h1, h2, if_true, ne_eq, not_false_eq_true,
          hp, Option.none_bind]
      | some p =>
        by_cases h3 : s.isLayoutDirty p = true
        · simp only [layout_pass, layout_pass_pre, h1, h2, if_true, ne_eq, not_false_eq_true,
            hp, h3, Option.some_bind, layout_pass_rest]
        · simp only [layout_pass, layout_pass_pre, h1, h2, if_true, ne_eq, not_false_eq_true,
            hp, h3, Option.some_bind, layout_pass_rest, Bool.false_eq_true, if_false]
  · simp only [layout_pass, layout_pass_pre, h1, Bool.false_eq_true, if_false,
      Option.some_bind, layout_pass_rest]

theorem overrides_pass_split {σ : Type} (ov : Overrides σ) (node : Nat) (w : σ) (s : Store)
    (i : Nat) (st : AcceptState) :
    ov.layout_pass node w s i st =
      (ov.layout_pass_pre node w s i st).bind (fun q => ov.layout_pass_rest node q i st) := by
  by_cases h1 : (st != AcceptState.Post) = true
  · by_cases h2 : i = node
    · simp only [Overrides.layout_pass, Overrides.layout_pass_pre, h1, h2, if_true, ne_eq,
        not_true_eq_false, if_false, Option.some_bind, Overrides.layout_pass_rest]
    · cases hp : s.parent i with
      | none =>
        simp only [Overrides.layout_pass, Overrides.layout_pass_pre, h1, h2, if_true, ne_eq,
          not_false_eq_true, hp, Option.none_bind]
      | some p =>
        by_cases h3 : s.isLayoutDirty p = true
        · simp only [Overrides.layout_pass, Overrides.layout_pass_pre, h1, h2, if_true, ne_eq,
            not_false_eq_true, hp, h3, Option.some_bind, Overrides.layout_pass_rest]
        · simp only [Overrides.layout_pass, Overrides.layout_pass_pre, h1, h2, if_true, ne_eq,
            not_false_eq_true, hp, h3, Option.some_bind, Overrides.layout_pass_rest,
            Bool.false_eq_true, if_false]
  · simp only [Overrides.layout_pass, Overrides.layout_pass_pre, h1, Bool.false_eq_true,
      if_false, Option.some_bind, Overrides.layout_pass_rest]


theorem ofHooks_quiet (hooks : Hooks) : (Overrides.ofHooks hooks).Quiet :=
  ⟨fun _ s _ => SameLayout.layout_refl s, fun _ s _ _ => SameLayout.layout_refl s,
    fun _ s _ => SameLayout.layout_refl s⟩


/-! ### Functions that leave the tree as it is -/

theorem ofHooks_layout_end (hooks : Hooks) (s : Store) (node i : Nat) :
    (Overrides.ofHooks hooks).layout_end () s node i =
      (((), (layout_end hooks s node i).1), (layout_end hooks s node i).2) := by
  unfold Overrides.layout_end layout_end Overrides.ofHooks
  by_cases hc : s.isContainer i = true
  · by_cases hn : i = node
    · subst hn
      simp [hc]
    · simp [hc, hn]
  · simp [hc]

theorem ofHooks_pass_pre (hooks : Hooks) (node : Nat) (s : Store) (i : Nat) (st : AcceptState) :
    (Overrides.ofHooks hooks).layout_pass_pre node () s i st =
      (layout_pass_pre hooks node s i st).map (fun t => ((), t)) := by
  unfold Overrides.layout_pass_pre layout_pass_pre Overrides.ofHooks
  by_cases h1 : (st != AcceptState.Post) = true
  · by_cases h2 : i = node
    · simp [h1, h2]
    · cases hp : s.parent i with
      | none => simp [h1, h2]
      | some p =>
        by_cases h3 : s.isLayoutDirty p = true
        · simp [h1, h2, h3]
        · simp [h1, h2, h3]
  · simp [h1]

theorem ofHooks_pass_rest (hooks : Hooks) (node : Nat) (s : Store) (i : Nat) (st : AcceptState) :
    (Overrides.ofHooks hooks).layout_pass_rest node ((), s) i st =
      (layout_pass_rest hooks node s i st).map (fun r => ((), r)) := by
  unfold Overrides.layout_pass_rest layout_pass_rest
  by_cases hskip : (st != AcceptState.Post && !s.isLayoutDirty i && !s.isChildLayoutDirty i)
      = true
  · simp only [hskip, if_true, Option.map_some']
  · have hb : (if (st != AcceptState.Post && s.isLayoutDirty i && s.isContainer i) = true then
        (Overrides.ofHooks hooks).onLayoutBegin () s i else ((), s)) = ((), s) := by
      split <;> rfl
    simp only [hskip, Bool.false_eq_true, if_false, hb, ofHooks_layout_end]
    by_cases hpre : (st != AcceptState.Pre) = true
    · simp only [hpre, if_true]
      by_cases hd : s.isLayoutDirty i = true
      · simp only [hd, if_true]
        by_cases hch : (layout_end hooks (clearLayoutDirty s i) node i).2 = true
        · simp only [hch, if_true]
          cases hp : (layout_end hooks (clearLayoutDirty s i) node i).1.parent i with
          | none => rfl
          | some p =>
            simp only
            split <;> rfl
        · simp only [hch, Bool.false_eq_true, if_false, Option.map_some']
      · simp only [hd, Bool.false_eq_true, if_false, Option.map_some']
    · simp only [hpre, Bool.false_eq_true, if_false, Option.map_some']

theorem ofHooks_layout_pass (hooks : Hooks) (node : Nat) (s : Store) (i : Nat)
    (st : AcceptState) :
    (Overrides.ofHooks hooks).layout_pass node () s i st =
      (layout_pass hooks node s i st).map (fun r => ((), r)) := by
  rw [overrides_pass_split, layout_pass_split, ofHooks_pass_pre]
  cases layout_pass_pre hooks node s i st with
  | none => rfl
  | some t =>
    simp only [Option.map_some', Option.some_bind]
    exact ofHooks_pass_rest hooks node t i st

theorem ofHooks_layout_while (hooks : Hooks) (node : Nat) :
    ∀ (fuel : Nat) (s : Store) (i : Nat) (st : AcceptState),
      (Overrides.ofHooks hooks).layout_while node fuel () s i st =
        (layout_while hooks node fuel s i st).map (fun r => ((), r)) := by
  intro fuel
  induction fuel with
  | zero => intro s i st; rfl
  | succ k ih =>
    intro s i st
    rw [Overrides.layout_while, layout_while, ofHooks_layout_pass]
    cases layout_pass hooks node s i st with
    | none => rfl
    | some r =>
      simp only [Option.map_some']
      split
      · exact ih _ _ _
      · rfl

theorem ofHooks_layout_loop (hooks : Hooks) (node : Nat) (last : Accept) :
    ∀ (fuel : Nat) (s : Store) (cur : Accept),
      (Overrides.ofHooks hooks).layout_loop node last fuel () s cur =
        (layout_loop hooks node last fuel s cur).map (fun t => ((), t)) := by
  intro fuel
  induction fuel with
  | zero =>
    intro s cur
    rw [Overrides.layout_loop, layout_loop]
    split <;> rfl
  | succ k ih =>
    intro s cur
    rw [Overrides.layout_loop, layout_loop]
    split
    · rfl
    · cases cur.node with
      | none => rfl
      | some i =>
        simp only
        rw [ofHooks_layout_while]
        cases layout_while hooks node (k + 1) s i cur.state with
        | none => rfl
        | some r =>
          simp only [Option.map_some']
          exact ih _ _

/-- The function `layout` with overriding functions that leave the tree as it
is computes what `layout` with `Hooks` computes. -/
theorem ofHooks_layout (hooks : Hooks) (fuel : Nat) (surface : Surface) (s : Store)
    (node : Nat) :
    (Overrides.ofHooks hooks).layout fuel surface () s node =
      (layout hooks fuel surface s node).map (fun t => ((), t)) := by
  unfold Overrides.layout layout
  have hinit : (Overrides.ofHooks hooks).layout_init surface () s node =
      layout_init hooks surface s node := rfl
  simp only [hinit]
  split
  · rfl
  · split
    · rfl
    · exact ofHooks_layout_loop hooks node _ fuel _ _

/-! ## The paint flags after `paint_impl<true>` -/

theorem paintBits_clearPaintDirty (s : Store) (i j : Nat) :
    paintBits ((clearPaintDirty s i).node j).flags =
      if j = i then noBits else paintBits (s.node j).flags := by
  unfold clearPaintDirty
  rw [modifyFlags_flags]
  split
  · rfl
  · rfl

theorem paint_visit_store (window : Rect) (s0 : Store) (r : Nat) (start : PositionRebuilder)
    (ps : PaintState) (stk : PositionRebuilder) (i : Nat) (st : AcceptState)
    (har : ∀ j, (ps.store.node j).area = (s0.node j).area)
    (hinv : WalkInv s0 r start ps.store stk { node := some i, state := st }) (j : Nat) :
    paintBits ((paint_impl_visit true window ps stk i st).1.store.node j).flags =
      (if clearsAt s0 start r window j { node := some i, state := st } then noBits
        else paintBits (ps.store.node j).flags) ∧
    (((paint_impl_visit true window ps stk i st).1.store.node j).clip_space =
        (ps.store.node j).clip_space ∨
      (j < s0.size ∧ (j = r ∨ r ∈ parents s0 j) ∧
        ((paint_impl_visit true window ps stk i st).1.store.node j).clip_space =
          (afterPush s0 start r j).clip)) := by
  simp only [WalkInv] at hinv
  obtain ⟨hi, hin, _, hstk⟩ := hinv
  by_cases hP : st = AcceptState.Post
  · subst hP
    simp only [paint_impl_visit, show (AcceptState.Post != AcceptState.Post) = false from rfl,
      Bool.false_eq_true, if_false, if_true, clearsAt]
    rw [paintBits_clearPaintDirty, clearPaintDirty_clip_space]
    refine ⟨?_, Or.inl rfl⟩
    by_cases e : j = i
    · simp [e]
    · have : (some i == some j) = false := by simp; exact fun h => e h.symm
      simp [e, this]
  · simp only [if_neg hP] at hstk
    obtain ⟨hb, _⟩ := hstk
    have hne : (st != AcceptState.Post) = true := by cases st <;> simp_all
    have hpush : stk.push ps.store i =
        (setClipSpace ps.store i (afterPush s0 start r i).clip, afterPush s0 start r i) := by
      rw [push_of_area s0 ps.store stk i (har i), hb]
      rfl
    simp only [paint_impl_visit, hne, if_true, hpush]
    by_cases hc : (Rect.ofIntersect window (afterPush s0 start r i).clip).nonempty = true
    · have hsk : paintSkips s0 start r window i = false := by simp [paintSkips, hc]
      simp only [hc, if_true]
      cases st with
      | Post => exact absurd rfl hP
      | Pre =>
        simp only [show (AcceptState.Pre != AcceptState.Pre) = false from rfl,
          Bool.false_eq_true, if_false, clearsAt, setClipSpace_flags, setClipSpace_clip_space]
        constructor
        · simp
        · by_cases e : j = i
          · right; rw [if_pos e, e]; exact ⟨hi, hin, rfl⟩
          · left; rw [if_neg e]
      | Leaf =>
        simp only [show (AcceptState.Leaf != AcceptState.Pre) = true from rfl, if_true,
          clearsAt]
        rw [paintBits_clearPaintDirty, clearPaintDirty_clip_space, setClipSpace_flags,
          setClipSpace_clip_space]
        constructor
        · by_cases e : j = i
          · subst e; simp [hsk]
          · have : (some i == some j) = false := by simp; exact fun h => e h.symm
            simp [e, this]
        · by_cases e : j = i
          · right; rw [if_pos e, e]; exact ⟨hi, hin, rfl⟩
          · left; rw [if_neg e]
    · have hsk : paintSkips s0 start r window i = true := by simp [paintSkips, hc]
      simp only [hc, Bool.false_eq_true, if_false, clearsAt, setClipSpace_flags,
        setClipSpace_clip_space]
      constructor
      · by_cases e : j = i
        · subst e
          cases st with
          | Post => exact absurd rfl hP
          | Pre => simp
          | Leaf => simp [hsk]
        · have : (some i == some j) = false := by simp; exact fun h => e h.symm
          simp [this]
      · by_cases e : j = i
        · right; rw [if_pos e, e]; exact ⟨hi, hin, rfl⟩
        · left; rw [if_neg e]

theorem paint_loop_store (window : Rect) (s0 : Store) (hwf : wfLinks s0 = true)
    (r : Nat) (start : PositionRebuilder) :
    ∀ (fuel : Nat) (ps : PaintState) (stk : PositionRebuilder) (cur : Accept) (L : List Accept),
      SameShape s0 ps.store → (∀ j, (ps.store.node j).area = (s0.node j).area) →
      (cur = traverseEnd s0 r ∨ WalkInv s0 r start ps.store stk cur) →
      traverseLoop s0 (paintSkips s0 start r window) (traverseEnd s0 r) fuel cur = some L →
      ∀ j,
        paintBits ((paint_impl_loop true window (traverseEnd s0 r) fuel ps stk cur).store.node
            j).flags =
          (if L.any (clearsAt s0 start r window j) then noBits
            else paintBits (ps.store.node j).flags) ∧
        (((paint_impl_loop true window (traverseEnd s0 r) fuel ps stk cur).store.node
            j).clip_space = (ps.store.node j).clip_space ∨
          (j < s0.size ∧ (j = r ∨ r ∈ parents s0 j) ∧
            ((paint_impl_loop true window (traverseEnd s0 r) fuel ps stk cur).store.node
              j).clip_space = (afterPush s0 start r j).clip)) := by
  intro fuel
  induction fuel with
  | zero =>
    intro ps stk cur L _ _ _ hL j
    unfold traverseLoop at hL
    unfold paint_impl_loop
    split at hL
    · rename_i hs
      simp only [Option.some.injEq] at hL
      subst hL
      simp [hs]
    · cases hL
  | succ k ih =>
    intro ps stk cur L hsh har hinv hL j
    unfold traverseLoop at hL
    unfold paint_impl_loop
    by_cases hs : cur.same (traverseEnd s0 r) = true
    · rw [if_pos hs] at hL ⊢
      simp only [Option.some.injEq] at hL
      subst hL
      simp
    · rw [if_neg hs] at hL ⊢
      have hw : WalkInv s0 r start ps.store stk cur := by
        rcases hinv with e | h
        · rw [e, accept_same_refl] at hs; exact absurd rfl hs
        · exact h
      cases hnode : cur.node with
      | none => rw [hnode] at hL; cases hL
      | some i =>
        rw [hnode] at hL
        simp only at hL ⊢
        have hcur : cur = { node := some i, state := cur.state } := by
          cases cur; simp only at hnode; rw [hnode]
        rw [hcur] at hw
        obtain ⟨_, h2, h3⟩ := paint_visit_sim true window s0 hwf r start ps stk i cur.state
          hsh har hw
        obtain ⟨v1, v2⟩ := paint_visit_store window s0 r start ps stk i cur.state har hw j
        have hsp := samePaint_paint_impl_visit true window ps stk i cur.state
        have hsh2 : SameShape s0 (paint_impl_visit true window ps stk i cur.state).1.store :=
          hsh.trans hsp.paint_shape
        have har2 : ∀ j, ((paint_impl_visit true window ps stk i cur.state).1.store.node j).area =
            (s0.node j).area := fun j => by rw [(hsp.fields j).2.2.2.2.2.2.1, har j]
        have hst : (if (cur.state == AcceptState.Pre && paintSkips s0 start r window i) = true
            then (Accept.skip cur).state else cur.state) =
            (if (cur.state == AcceptState.Pre && paintSkips s0 start r window i) = true
              then AcceptState.Post else cur.state) := rfl
        rw [hst, ← h2] at hL
        cases hrest : traverseLoop s0 (paintSkips s0 start r window) (traverseEnd s0 r) k
            (increment s0 i (paint_impl_visit true window ps stk i cur.state).2.2) with
        | none => rw [hrest] at hL; cases hL
        | some L' =>
          rw [hrest] at hL
          simp only [Option.map_some', Option.some.injEq] at hL
          subst hL
          rw [hsh2.increment]
          obtain ⟨g1, g2⟩ := ih _ _ _ L' hsh2 har2 h3 hrest j
          rw [g1, v1]
          constructor
          · rw [List.any_cons, ← hcur]
            cases clearsAt s0 start r window j cur <;>
              cases L'.any (clearsAt s0 start r window j) <;> simp
          · rcases g2 with g2 | g2
            · rw [g2]; exact v2
            · exact Or.inr g2

theorem specSeq_post_unskipped (s : Store) (sk : Nat → Bool) :
    ∀ (d m : Nat) (a : Accept), a ∈ specSeq s sk d m → a.state = AcceptState.Post →
      ∀ x, a.node = some x → sk x = false := by
  intro d
  induction d with
  | zero => intro m a ha; simp [specSeq] at ha
  | succ d ih =>
    intro m a ha hst x hx
    rw [specSeq] at ha
    split at ha
    · rw [List.mem_singleton.mp ha] at hst; cases hst
    · split at ha
      · rw [List.mem_singleton.mp ha] at hst; cases hst
      · rename_i hsk
        rcases List.mem_append.mp ha with h1 | h1
        · rcases List.mem_append.mp h1 with h2 | h2
          · rw [List.mem_singleton.mp h2] at hst; cases hst
          · obtain ⟨c, _, hac⟩ := List.mem_flatMap.mp h2
            exact ih c a hac hst x hx
        · rw [List.mem_singleton.mp h1] at hx
          simp only [Option.some.injEq] at hx
          rw [← hx]
          simpa using hsk

theorem specSeq_self (s : Store) (sk : Nat → Bool) (hwf : wfTree s = true) (m : Nat)
    (hm : m < s.size) (hsk : sk m = false) :
    ({ node := some m, state := AcceptState.Leaf } : Accept) ∈ specSeq s sk s.size m ∨
    ({ node := some m, state := AcceptState.Post } : Accept) ∈ specSeq s sk s.size m := by
  rw [specSeq_unfold s sk hwf m hm]
  split
  · left; simp
  · right; simp [hsk]

theorem specSeq_reaches (s : Store) (sk : Nat → Bool) (hwf : wfTree s = true) (m : Nat) :
    ∀ (n j : Nat), (parents s j).length = n → j < s.size → (j = m ∨ m ∈ parents s j) →
      (∀ a ∈ insideChain s m j, sk a = false) →
      ∀ a ∈ specSeq s sk s.size j, a ∈ specSeq s sk s.size m := by
  have hwfl := wfTree_wfLinks hwf
  intro n
  induction n with
  | zero =>
    intro j hlen _ hin _ a ha
    rcases hin with e | h
    · rw [← e]; exact ha
    · rw [List.length_eq_zero] at hlen; rw [hlen] at h; simp at h
  | succ n ih =>
    intro j hlen hj hin hchain a ha
    by_cases hjm : j = m
    · rw [← hjm]; exact ha
    · have hmp := hin.resolve_left hjm
      obtain ⟨hpar, _, _, _, hl⟩ := wfLinks_at hwfl hj
      cases hp : s.parent j with
      | none => rw [parents_of_root s j hp] at hlen; simp at hlen
      | some p =>
        have hpars := parents_of_parent s j p hp hl
        have hps := hpar p hp
        have hpin : p = m ∨ m ∈ parents s p := by
          rw [hpars] at hmp
          rcases List.mem_cons.mp hmp with e | h
          · exact Or.inl e.symm
          · exact Or.inr h
        have hch := insideChain_child s m j p hp hl hjm
        have hskp : sk p = false := hchain p (by rw [hch]; exact List.mem_cons_self _ _)
        apply ih p (by rw [hpars] at hlen; simpa using hlen) hps hpin
          (fun b hb => hchain b (by rw [hch]; exact List.mem_cons_of_mem _ hb))
        obtain ⟨hcont, hmem⟩ := wfTree_child hwf hj hp
        rw [specSeq_unfold s sk hwf p hps]
        have hnl : (s.isWidget p || (children s p).isEmpty) = false := by
          have h1 : s.isWidget p = false := by
            simp only [Store.isContainer, Bool.not_eq_true'] at hcont
            exact hcont
          have h2 : (children s p).isEmpty = false := by
            cases hc : children s p with
            | nil => rw [hc] at hmem; simp at hmem
            | cons _ _ => rfl
          simp [h1, h2]
        rw [hnl]
        simp only [Bool.false_eq_true, if_false, hskp]
        apply List.mem_append_left
        apply List.mem_append_right
        exact List.mem_flatMap.mpr ⟨j, hmem, ha⟩

/-- The nodes on which a complete `paint_impl<true>` calls `clearPaintDirty`:
those of the subtree whose clip and the clips of whose ancestors inside the
traversal meet the window. -/
theorem clears_any (s : Store) (hwf : wfTree s = true) (start : PositionRebuilder)
    (c : Nat) (hc : c < s.size) (window : Rect) (j : Nat) :
    ((specSeq s (paintSkips s start c window) s.size c).any (clearsAt s start c window j) = true →
      j < s.size ∧ (j = c ∨ c ∈ parents s j) ∧ paintSkips s start c window j = false) ∧
    (j < s.size → (j = c ∨ c ∈ parents s j) →
      (∀ a ∈ j :: insideChain s c j, paintSkips s start c window a = false) →
      (specSeq s (paintSkips s start c window) s.size c).any (clearsAt s start c window j)
        = true) := by
  constructor
  · intro h
    rw [List.any_eq_true] at h
    obtain ⟨a, ha, hca⟩ := h
    obtain ⟨x, hx, hxs, hsub⟩ := specSeq_subtree s _ hwf s.size c hc a ha
    simp only [clearsAt, Bool.and_eq_true, beq_iff_eq, Bool.or_eq_true, Bool.not_eq_true'] at hca
    obtain ⟨hn, hst⟩ := hca
    rw [hn] at hx
    simp only [Option.some.injEq] at hx
    subst hx
    refine ⟨hxs, hsub, ?_⟩
    rcases hst with h1 | h1
    · exact specSeq_post_unskipped s _ s.size c a ha h1 j hn
    · exact h1.2
  · intro hj hin hchain
    rw [List.any_eq_true]
    have hskj := hchain j (List.mem_cons_self _ _)
    have hsub := specSeq_reaches s (paintSkips s start c window) hwf c _ j rfl hj hin
      (fun a ha => hchain a (List.mem_cons_of_mem _ ha))
    rcases specSeq_self s (paintSkips s start c window) hwf j hj hskj with h | h
    · exact ⟨_, hsub _ h, by simp [clearsAt, hskj]⟩
    · exact ⟨_, hsub _ h, by simp [clearsAt]⟩

theorem paintEvent_unskipped (s : Store) (start : PositionRebuilder) (r : Nat) (window : Rect)
    (L : List Accept) (w : Nat) (t : Vec2) (cl : Rect)
    (h : Event.paint w t cl ∈ L.filterMap (paintEvent s start r window)) :
    (∃ a ∈ L, a.node = some w) ∧ paintSkips s start r window w = false := by
  rw [List.mem_filterMap] at h
  obtain ⟨a, haL, ha⟩ := h
  refine ⟨?_, ?_⟩
  · refine ⟨a, haL, ?_⟩
    unfold paintEvent at ha
    split at ha
    · rename_i i hi
      split at ha
      · simp only [Option.some.injEq, Event.paint.injEq] at ha
        rw [hi, ha.1]
      · cases ha
    · cases ha
  unfold paintEvent at ha
  split at ha
  · rename_i i _
    split at ha
    · rename_i hcond
      simp only [Option.some.injEq, Event.paint.injEq] at ha
      obtain ⟨e, _, _⟩ := ha
      subst e
      simp only [Bool.and_eq_true] at hcond
      simp [paintSkips, hcond.2]
    · cases ha
  · cases ha

/-- A complete call of `paint_impl<true>` on the node `c` of a forest: the
paint flags it clears, the cached clips it writes and the paint hooks it
calls. -/
theorem paint_impl_effect (s0 : Store) (hwf : wfTree s0 = true) (fuel : Nat) (ps : PaintState)
    (c : Nat) (window : Rect) (start : PositionRebuilder)
    (hsh : SameShape s0 ps.store) (har : ∀ j, (ps.store.node j).area = (s0.node j).area)
    (hc : c < s0.size) (hcomp : ps.complete = true)
    (hF : (specSeq s0 (fun _ => false) s0.size c).length ≤ fuel) :
    (paint_impl true fuel ps c window start).complete = true ∧
    (∀ j, j < s0.size → (j = c ∨ c ∈ parents s0 j) →
      (∀ a ∈ j :: insideChain s0 c j, paintSkips s0 start c window a = false) →
      paintBits ((paint_impl true fuel ps c window start).store.node j).flags = noBits) ∧
    (∀ j, paintBits ((paint_impl true fuel ps c window start).store.node j).flags =
        paintBits (ps.store.node j).flags ∨
      (paintBits ((paint_impl true fuel ps c window start).store.node j).flags = noBits ∧
        j < s0.size ∧ (j = c ∨ c ∈ parents s0 j) ∧ paintSkips s0 start c window j = false)) ∧
    (∀ j, ((paint_impl true fuel ps c window start).store.node j).clip_space =
        (ps.store.node j).clip_space ∨
      (j < s0.size ∧ (j = c ∨ c ∈ parents s0 j) ∧
        ((paint_impl true fuel ps c window start).store.node j).clip_space =
          (afterPush s0 start c j).clip)) ∧
    (∃ evs, (paint_impl true fuel ps c window start).trace = ps.trace ++ evs ∧
      ∀ w t cl, Event.paint w t cl ∈ evs →
        w < s0.size ∧ (w = c ∨ c ∈ parents s0 w) ∧ paintSkips s0 start c window w = false) := by
  obtain ⟨st0, tr0, cm0⟩ := ps
  simp only at hsh har hcomp ⊢
  subst hcomp
  have hwfl := wfTree_wfLinks hwf
  have hlen := specSeq_length_le s0 (paintSkips s0 start c window) s0.size c
  have htr := traverse_eq_specSeq s0 (paintSkips s0 start c window) hwf c hc fuel (by omega)
  unfold traverse at htr
  have hinit : WalkInv s0 c start st0 start (traverseBegin s0 c) := by
    unfold WalkInv traverseBegin
    simp only [if_neg (pre_or_leaf_ne_post s0 c)]
    refine ⟨hc, Or.inl trivial, ?_, ?_, trivial⟩
    · intro a ha; simp [insideChain] at ha
    · simp [beforePush, insideChain, rebuiltFrom]
  obtain ⟨g1, g2⟩ := paint_loop_sim true window s0 hwfl c start fuel
    { store := st0, trace := tr0 ++ [Event.begin window], complete := true } start
    (traverseBegin s0 c) _ hsh har (Or.inr hinit) htr
  have g3 := paint_loop_store window s0 hwfl c start fuel
    { store := st0, trace := tr0 ++ [Event.begin window], complete := true } start
    (traverseBegin s0 c) _ hsh har (Or.inr hinit) htr
  have hca := clears_any s0 hwf start c hc window
  have hdef : paint_impl true fuel { store := st0, trace := tr0, complete := true } c window start =
      (if (paint_impl_loop true window (traverseEnd s0 c) fuel
          { store := st0, trace := tr0 ++ [Event.begin window], complete := true } start
          (traverseBegin s0 c)).complete = true then
        { (paint_impl_loop true window (traverseEnd s0 c) fuel
          { store := st0, trace := tr0 ++ [Event.begin window], complete := true } start
          (traverseBegin s0 c)) with
          trace := (paint_impl_loop true window (traverseEnd s0 c) fuel
          { store := st0, trace := tr0 ++ [Event.begin window], complete := true } start
          (traverseBegin s0 c)).trace ++ [Event.finish] }
      else paint_impl_loop true window (traverseEnd s0 c) fuel
          { store := st0, trace := tr0 ++ [Event.begin window], complete := true } start
          (traverseBegin s0 c)) := by
    unfold paint_impl
    simp only [hsh.traverseEnd, hsh.traverseBegin]
  simp only at g1 g2
  rw [hdef, g1]
  simp only [if_true]
  refine ⟨g1, ?_, ?_, ?_, ?_⟩
  · intro j hj hin hchain
    rw [(g3 j).1, (hca j).2 hj hin hchain]
    rfl
  · intro j
    rw [(g3 j).1]
    cases hany : (specSeq s0 (paintSkips s0 start c window) s0.size c).any
        (clearsAt s0 start c window j) with
    | false => left; rfl
    | true => right; exact ⟨rfl, (hca j).1 hany⟩
  · intro j
    exact (g3 j).2
  · refine ⟨[Event.begin window] ++
      (specSeq s0 (paintSkips s0 start c window) s0.size c).filterMap
        (paintEvent s0 start c window) ++ [Event.finish], ?_, ?_⟩
    · rw [g2]; simp
    · intro w t cl hmem
      simp only [List.mem_append, List.mem_singleton, List.mem_cons, List.not_mem_nil,
        or_false] at hmem
      rcases hmem with (h | h) | h
      · cases h
      · obtain ⟨⟨a, haL, han⟩, hs⟩ := paintEvent_unskipped s0 start c window _ w t cl h
        obtain ⟨x, hx, hxs, hsub⟩ := specSeq_subtree s0 _ hwf s0.size c hc a haL
        rw [han] at hx
        simp only [Option.some.injEq] at hx
        subst hx
        exact ⟨hxs, hsub, hs⟩
      · cases h

/-! ## The rebuilders of the calls of `paint_impl` made by `paint_into` -/

theorem afterPush_self (s : Store) (start : PositionRebuilder) (c : Nat) :
    afterPush s start c c = (start.push s c).2 := by
  simp [afterPush, beforePush, insideChain, rebuiltFrom]

theorem afterPush_rebase (s : Store) (hwf : wfLinks s = true) (root c : Nat)
    (start1 start2 : PositionRebuilder) (hcin : c = root ∨ root ∈ parents s c)
    (h : afterPush s start1 c c = afterPush s start2 root c) :
    ∀ (n j : Nat), (parents s j).length = n → j < s.size → (j = c ∨ c ∈ parents s j) →
      afterPush s start1 c j = afterPush s start2 root j := by
  intro n
  induction n with
  | zero =>
    intro j hlen _ hin
    rcases hin with e | h'
    · rw [e]; exact h
    · rw [List.length_eq_zero] at hlen; rw [hlen] at h'; simp at h'
  | succ n ih =>
    intro j hlen hj hin
    by_cases hjc : j = c
    · rw [hjc]; exact h
    · have hcp := hin.resolve_left hjc
      obtain ⟨hpar, _, _, _, hl⟩ := wfLinks_at hwf hj
      cases hp : s.parent j with
      | none => rw [parents_of_root s j hp] at hlen; simp at hlen
      | some p =>
        have hpars := parents_of_parent s j p hp hl
        have hps := hpar p hp
        have hl2 := (wfLinks_at hwf hps).2.2.2.2
        have hpin : p = c ∨ c ∈ parents s p := by
          rw [hpars] at hcp
          rcases List.mem_cons.mp hcp with e | h'
          · exact Or.inl e.symm
          · exact Or.inr h'
        have hproot : p = root ∨ root ∈ parents s p := by
          rcases hpin with e | h'
          · rw [e]; exact hcin
          · rcases hcin with e | h2
            · rw [← e]; exact Or.inr h'
            · exact Or.inr (parents_trans s p c root hl2 h' h2)
        have hjr : j ≠ root := inside_ne_root s hwf root j p hj hp hproot
        have e1 := ih p (by rw [hpars] at hlen; simpa using hlen) hps hpin
        unfold afterPush
        rw [beforePush_child s start1 c j p hp hl hjc, beforePush_child s start2 root j p hp hl hjr,
          e1]

theorem push_root_origin (s : Store) (root : Nat)
    (horigin : (s.node root).area.low = Vec2.origin)
    (htyped : inRect (s.node root).area = true) :
    (({} : PositionRebuilder).push s root).2 =
      { translation := Vec2.origin, clip := (s.node root).area } ∧
    ((({} : PositionRebuilder).push s root).2.push s root).2 =
      (({} : PositionRebuilder).push s root).2 := by
  have htr : (s.node root).area.translate Vec2.origin = (s.node root).area := by
    rw [inRect_iff] at htyped
    obtain ⟨⟨h1, h2⟩, h3, h4⟩ := htyped
    simp only [Rect.translate, Vec2.add, Vec2.origin, add_zero, wrapPoint_of_inPoint h1,
      wrapPoint_of_inPoint h2, wrapPoint_of_inPoint h3, wrapPoint_of_inPoint h4]
  have hself : ∀ a : Rect, Rect.ofIntersect a a = a := by
    intro a
    simp [Rect.ofIntersect, vmax, vmin, pmax, pmin]
  have h1 : (({} : PositionRebuilder).push s root).2 =
      { translation := Vec2.origin, clip := (s.node root).area } := by
    simp only [PositionRebuilder.push, htr, horigin, ofIntersect_all _ htyped]
    rfl
  refine ⟨h1, ?_⟩
  rw [h1]
  simp only [PositionRebuilder.push, htr, horigin, hself]
  rfl

/-- The three rebuilders `paint_into` starts `paint_impl` with give every node
of the painted subtree the clip it has in the traversal of
`paint_partial_impl`. -/
theorem clip_inplace (s : Store) (root : Nat) (hs : PaintSetting s root) (c : Nat)
    (hcin : c = root ∨ root ∈ parents s c) (j : Nat) (hj : j < s.size)
    (hin : j = c ∨ c ∈ parents s j) :
    (c ≠ root → afterPush s (beforePush s {} root c) c j = afterPush s {} root j) ∧
    (c = root → afterPush s (afterPush s {} root root) c j = afterPush s {} root j) := by
  have hwfl := wfTree_wfLinks hs.wf
  constructor
  · intro _
    apply afterPush_rebase s hwfl root c _ _ hcin ?_ _ j rfl hj hin
    rw [afterPush_self]
    rfl
  · intro e
    subst e
    apply afterPush_rebase s hwfl c c _ _ (Or.inl rfl) ?_ _ j rfl hj hin
    rw [afterPush_self, afterPush_self]
    exact (push_root_origin s c hs.origin hs.typed).2

theorem clipAt_inside (s : Store) (hwf : wfLinks s = true) (root a x : Nat)
    (ha : a = root ∨ root ∈ parents s a) (hx : x < s.size) (hax : x = a ∨ a ∈ parents s x)
    (pt : Vec2) (h : (clipAt s root x).containsPoint pt = true) :
    (clipAt s root a).containsPoint pt = true := by
  rcases hax with e | hm
  · rw [← e]; exact h
  · exact afterPush_clip_inside s hwf {} root a ha _ x rfl hx hm pt h

theorem meets_of_point (w c : Rect) (pt : Vec2) (h1 : w.containsPoint pt = true)
    (h2 : c.containsPoint pt = true) : (Rect.ofIntersect w c).nonempty = true :=
  (nonempty_iff_point _).mpr ⟨pt, (containsPoint_ofIntersect w c pt).mpr ⟨h1, h2⟩⟩

theorem point_of_meets (w c : Rect) (h : (Rect.ofIntersect w c).nonempty = true) :
    ∃ pt, w.containsPoint pt = true ∧ c.containsPoint pt = true := by
  obtain ⟨pt, hpt⟩ := (nonempty_iff_point _).mp h
  exact ⟨pt, (containsPoint_ofIntersect w c pt).mp hpt⟩

theorem insideChain_sub (s : Store) (hwf : wfLinks s = true) (r : Nat) :
    ∀ (n j : Nat), (parents s j).length = n → j < s.size → (j = r ∨ r ∈ parents s j) →
      ∀ a ∈ insideChain s r j, a < s.size ∧ (a = r ∨ r ∈ parents s a) ∧ a ∈ parents s j := by
  intro n
  induction n with
  | zero =>
    intro j hlen _ hin a ha
    have := mem_insideChain s r j a ha
    rw [List.length_eq_zero] at hlen
    rw [hlen] at this
    simp at this
  | succ n ih =>
    intro j hlen hj hin a ha
    by_cases hjr : j = r
    · rw [hjr] at ha; simp [insideChain] at ha
    · have hrp := hin.resolve_left hjr
      obtain ⟨hpar, _, _, _, hl⟩ := wfLinks_at hwf hj
      cases hp : s.parent j with
      | none => rw [parents_of_root s j hp] at hlen; simp at hlen
      | some p =>
        have hpars := parents_of_parent s j p hp hl
        have hps := hpar p hp
        have hpin : p = r ∨ r ∈ parents s p := by
          rw [hpars] at hrp
          rcases List.mem_cons.mp hrp with e | h'
          · exact Or.inl e.symm
          · exact Or.inr h'
        rw [insideChain_child s r j p hp hl hjr] at ha
        rcases List.mem_cons.mp ha with e | h'
        · rw [e]; exact ⟨hps, hpin, by rw [hpars]; exact List.mem_cons_self _ _⟩
        · obtain ⟨g1, g2, g3⟩ := ih p (by rw [hpars] at hlen; simpa using hlen) hps hpin a h'
          exact ⟨g1, g2, by rw [hpars]; exact List.mem_cons_of_mem _ g3⟩

theorem subtree_trans (s : Store) (hwf : wfLinks s = true) (r m j : Nat) (hj : j < s.size)
    (hm : m = r ∨ r ∈ parents s m) (hjm : j = m ∨ m ∈ parents s j) :
    j = r ∨ r ∈ parents s j := by
  rcases hjm with e | h
  · rw [e]; exact hm
  · rcases hm with e | h2
    · rw [← e]; exact Or.inr h
    · exact Or.inr (parents_trans s j m r (wfLinks_at hwf hj).2.2.2.2 h h2)

/-- A complete call of `paint_impl<true>` on the node `c` of the tree of
`root`, from a rebuilder that gives the nodes of the subtree of `c` the clips
they have in the traversal of `paint_partial_impl`. -/
theorem paint_from_effect (s0 : Store) (root : Nat) (hs : PaintSetting s0 root) (fuel : Nat)
    (ps : PaintState) (c : Nat) (window : Rect) (start : PositionRebuilder)
    (hsh : SameShape s0 ps.store) (har : ∀ j, (ps.store.node j).area = (s0.node j).area)
    (hc : c < s0.size) (hcin : c = root ∨ root ∈ parents s0 c) (hcomp : ps.complete = true)
    (hF : (specSeq s0 (fun _ => false) s0.size c).length ≤ fuel)
    (hstart : ∀ j, j < s0.size → (j = c ∨ c ∈ parents s0 j) →
      afterPush s0 start c j = afterPush s0 {} root j)
    (res : PaintState) (hres : paint_impl true fuel ps c window start = res) :
    res.complete = true ∧
    (∀ j, j < s0.size → (j = c ∨ c ∈ parents s0 j) →
      (Rect.ofIntersect window (clipAt s0 root j)).nonempty = true →
      paintBits (res.store.node j).flags = noBits) ∧
    (∀ j, paintBits (res.store.node j).flags = paintBits (ps.store.node j).flags ∨
      (paintBits (res.store.node j).flags = noBits ∧ j < s0.size ∧
        (j = c ∨ c ∈ parents s0 j) ∧
        (Rect.ofIntersect window (clipAt s0 root j)).nonempty = true)) ∧
    (∀ j, (res.store.node j).clip_space = (ps.store.node j).clip_space ∨
      (res.store.node j).clip_space = clipAt s0 root j) ∧
    (∃ evs, res.trace = ps.trace ++ evs ∧
      ∀ w t cl, Event.paint w t cl ∈ evs → w < s0.size ∧ (w = c ∨ c ∈ parents s0 w) ∧
        (Rect.ofIntersect window (clipAt s0 root w)).nonempty = true) := by
  have hwfl := wfTree_wfLinks hs.wf
  obtain ⟨g1, g2, g3, g4, evs, g5, g6⟩ :=
    paint_impl_effect s0 hs.wf fuel ps c window start hsh har hc hcomp hF
  rw [hres] at g1 g2 g3 g4 g5
  have hskip : ∀ j, j < s0.size → (j = c ∨ c ∈ parents s0 j) →
      (paintSkips s0 start c window j = false ↔
        (Rect.ofIntersect window (clipAt s0 root j)).nonempty = true) := by
    intro j hj hin
    simp only [paintSkips, hstart j hj hin, clipAt, Bool.not_eq_false']
  refine ⟨g1, ?_, ?_, ?_, evs, g5, ?_⟩
  · intro j hj hin hmeet
    apply g2 j hj hin
    intro a ha
    rcases List.mem_cons.mp ha with e | h
    · rw [e]; exact (hskip j hj hin).mpr hmeet
    · obtain ⟨has, hac, haj⟩ := insideChain_sub s0 hwfl c _ j rfl hj hin a h
      rw [hskip a has hac]
      obtain ⟨pt, hp1, hp2⟩ := point_of_meets _ _ hmeet
      exact meets_of_point _ _ pt hp1
        (clipAt_inside s0 hwfl root a j (subtree_trans s0 hwfl root c a has hcin hac) hj
          (Or.inr haj) pt hp2)
  · intro j
    rcases g3 j with h | ⟨h1, h2, h3, h4⟩
    · exact Or.inl h
    · exact Or.inr ⟨h1, h2, h3, (hskip j h2 h3).mp h4⟩
  · intro j
    rcases g4 j with h | ⟨h1, h2, h3⟩
    · exact Or.inl h
    · right; rw [h3, hstart j h1 h2]; rfl
  · intro w t cl hmem
    obtain ⟨h1, h2, h3⟩ := g6 w t cl hmem
    exact ⟨h1, h2, (hskip w h1 h2).mp h3⟩

/-! ## The steps of `paint_partial_impl` -/

theorem PaintStep.step_refl (s0 : Store) (root : Nat) (ps : PaintState)
    (h : ps.complete = true) : PaintStep s0 root ps ps :=
  { complete := h
    same := SamePaint.paint_refl _
    bits := fun _ => Or.inl rfl
    cache := fun _ => Or.inl rfl
    trace := ⟨[], by simp, fun _ _ _ h => by simp at h⟩ }

theorem PaintStep.step_trans {s0 : Store} {root : Nat} {a b c : PaintState}
    (h1 : PaintStep s0 root a b) (h2 : PaintStep s0 root b c) : PaintStep s0 root a c :=
  { complete := h2.complete
    same := h1.same.paint_trans h2.same
    bits := fun j => by
      rcases h2.bits j with e | e
      · rw [e]; exact h1.bits j
      · exact Or.inr e
    cache := fun j => by
      rcases h2.cache j with e | e
      · rw [e]; exact h1.cache j
      · exact Or.inr e
    trace := by
      obtain ⟨e1, t1, p1⟩ := h1.trace
      obtain ⟨e2, t2, p2⟩ := h2.trace
      refine ⟨e1 ++ e2, by rw [t2, t1, List.append_assoc], ?_⟩
      intro w t cl hmem
      rcases List.mem_append.mp hmem with h | h
      · exact p1 w t cl h
      · exact p2 w t cl h }

theorem nonempty_of_meets (w c : Rect) (h : (Rect.ofIntersect w c).nonempty = true) :
    c.nonempty = true :=
  ((ofIntersect_nonempty_iff w c).mp h).2.2

theorem pop_root (s : Store) (stk : PositionRebuilder) (root : Nat)
    (h : s.parent root = Option.none) : stk.pop s root = stk := by
  unfold PositionRebuilder.pop
  rw [h]

/-- A call of `paint_into` made by `paint_partial_impl` at the node `m`. -/
theorem paint_into_effect (s0 : Store) (root : Nat) (hs : PaintSetting s0 root) (inner : Nat)
    (ps : PaintState) (m : Nat) (clip window : Rect) (hm : m < s0.size)
    (hmin : m = root ∨ root ∈ parents s0 m) (hsp : SamePaint s0 ps.store)
    (hcomp : ps.complete = true)
    (hcache : ∀ a ∈ insideChain s0 root m, (ps.store.node a).clip_space = clipAt s0 root a)
    (hF : (specSeq s0 (fun _ => false) s0.size root).length +
      (specSeq s0 (fun _ => false) s0.size m).length ≤ inner)
    (res : PaintState)
    (hres : paint_into inner ps root m clip window (afterPush s0 {} root m) = res) :
    PaintStep s0 root ps res ∧
    (∀ j, j < s0.size → (j = m ∨ m ∈ parents s0 j) →
      (Rect.ofIntersect window (clipAt s0 root j)).nonempty = true →
      paintBits (res.store.node j).flags = noBits) ∧
    (∀ j, paintBits (res.store.node j).flags ≠ paintBits (ps.store.node j).flags →
      (Rect.ofIntersect window (clipAt s0 root j)).nonempty = true ∧
      (clip.contains window = true → (j = m ∨ m ∈ parents s0 j))) := by
  have hwfl := wfTree_wfLinks hs.wf
  have hsh : SameShape s0 ps.store := hsp.paint_shape
  have har : ∀ j, (ps.store.node j).area = (s0.node j).area :=
    fun j => (hsp.fields j).2.2.2.2.2.2.1
  have hsame : SamePaint ps.store res.store := by
    rw [← hres]; exact samePaint_paint_into _ _ _ _ _ _ _
  -- the call of `paint_impl` that is made
  have key : ∃ c start, c < s0.size ∧ (c = root ∨ root ∈ parents s0 c) ∧
      (specSeq s0 (fun _ => false) s0.size c).length ≤ inner ∧
      (∀ j, j < s0.size → (j = c ∨ c ∈ parents s0 j) →
        afterPush s0 start c j = afterPush s0 {} root j) ∧
      paint_impl true inner ps c window start = res ∧
      (∀ j, j < s0.size → (j = m ∨ m ∈ parents s0 j) → (j = c ∨ c ∈ parents s0 j)) ∧
      (clip.contains window = true → c = m) := by
    unfold paint_into at hres
    by_cases hcw : clip.contains window = true
    · rw [if_pos hcw] at hres
      by_cases hmr : m = root
      · refine ⟨m, afterPush s0 {} root root, hm, hmin, by omega, ?_, ?_, fun _ _ h => h,
          fun _ => rfl⟩
        · intro j hj hin
          exact (clip_inplace s0 root hs m hmin j hj hin).2 hmr
        · rw [← hres, hmr, pop_root _ _ root (by rw [hsh.parent]; exact hs.top)]
      · refine ⟨m, beforePush s0 {} root m, hm, hmin, by omega, ?_, ?_, fun _ _ h => h,
          fun _ => rfl⟩
        · intro j hj hin
          exact (clip_inplace s0 root hs m hmin j hj hin).1 hmr
        · rw [← hres, pop_restores s0 ps.store {} root m hwfl hm hmin hmr hsh har hcache]
    · rw [if_neg hcw] at hres
      refine ⟨root, {}, hs.lt, Or.inl rfl, by omega, fun _ _ _ => rfl, hres, ?_,
        fun h => absurd h hcw⟩
      intro j hj hin
      exact subtree_trans s0 hwfl root m j hj hmin hin
  obtain ⟨c, start, hc, hcin, hFc, hstart, hcall, hsub, hcm⟩ := key
  obtain ⟨g1, g2, g3, g4, evs, g5, g6⟩ := paint_from_effect s0 root hs inner ps c window start
    hsh har hc hcin hcomp hFc hstart res hcall
  refine ⟨?_, ?_, ?_⟩
  · exact {
      complete := g1
      same := hsame
      bits := fun j => by
        rcases g3 j with h | ⟨h1, h2, h3, h4⟩
        · exact Or.inl h
        · exact Or.inr ⟨h1, h2, subtree_trans s0 hwfl root c j h2 hcin h3,
            nonempty_of_meets _ _ h4⟩
      cache := g4
      trace := ⟨evs, g5, fun w t cl hmem => by
        obtain ⟨h1, h2, h3⟩ := g6 w t cl hmem
        exact ⟨h1, subtree_trans s0 hwfl root c w h1 hcin h2, nonempty_of_meets _ _ h3⟩⟩ }
  · intro j hj hin hmeet
    exact g2 j hj (hsub j hj hin) hmeet
  · intro j hne
    rcases g3 j with h | ⟨_, _, h3, h4⟩
    · exact absurd h hne
    · exact ⟨h4, fun hcw => by rw [← hcm hcw]; exact h3⟩

theorem cache_kept {s0 : Store} {root : Nat} {ps res : PaintState}
    (h : PaintStep s0 root ps res) (l : List Nat)
    (hc : ∀ a ∈ l, (ps.store.node a).clip_space = clipAt s0 root a) :
    ∀ a ∈ l, (res.store.node a).clip_space = clipAt s0 root a := by
  intro a ha
  rcases h.cache a with e | e
  · rw [e]; exact hc a ha
  · exact e

/-- The loop `while (remaining)` of `paint_partial_impl` at the node `m`. -/
theorem splitLoop_effect (surface : Surface) (hprog : SplitProgress surface) (s0 : Store)
    (root : Nat) (hs : PaintSetting s0 root) (inner : Nat) (m : Nat) (clip : Rect)
    (hm : m < s0.size) (hmin : m = root ∨ root ∈ parents s0 m)
    (hF : (specSeq s0 (fun _ => false) s0.size root).length +
      (specSeq s0 (fun _ => false) s0.size m).length ≤ inner) :
    ∀ (fuel : Nat) (ps : PaintState) (remaining : Rect), remaining.pixels ≤ fuel →
      SamePaint s0 ps.store → ps.complete = true →
      (∀ a ∈ insideChain s0 root m, (ps.store.node a).clip_space = clipAt s0 root a) →
      ∀ res, splitLoop surface inner root m clip (afterPush s0 {} root m) fuel ps remaining
          = res →
        PaintStep s0 root ps res ∧
        (SplitCovers surface → ∀ j, j < s0.size → (j = m ∨ m ∈ parents s0 j) →
          ∀ pt, remaining.containsPoint pt = true → (clipAt s0 root j).containsPoint pt = true →
            paintBits (res.store.node j).flags = noBits) ∧
        (SplitsInside surface → (remaining.nonempty = true → clip.contains remaining = true) →
          ∀ j, paintBits (res.store.node j).flags ≠ paintBits (ps.store.node j).flags →
            (j = m ∨ m ∈ parents s0 j)) := by
  intro fuel
  induction fuel with
  | zero =>
    intro ps remaining hpx _ hcomp _ res hres
    have he := pixels_zero remaining (by omega)
    unfold splitLoop at hres
    rw [he] at hres
    simp only [Bool.false_eq_true, if_false] at hres
    subst hres
    refine ⟨PaintStep.step_refl s0 root ps hcomp, ?_, ?_⟩
    · intro _ j _ _ pt hpt _
      have := (nonempty_iff_point remaining).mpr ⟨pt, hpt⟩
      rw [he] at this; cases this
    · intro _ _ j hne
      exact absurd rfl hne
  | succ k ih =>
    intro ps remaining hpx hsp hcomp hcache res hres
    unfold splitLoop at hres
    by_cases hne : remaining.nonempty = true
    · rw [if_pos hne] at hres
      simp only at hres
      obtain ⟨p1, p2, p3⟩ := paint_into_effect s0 root hs inner ps m clip
        (surface.split remaining).1 hm hmin hsp hcomp hcache hF _ rfl
      rw [if_pos p1.complete] at hres
      have hlt := (hprog remaining hne).2
      obtain ⟨q1, q2, q3⟩ := ih _ (surface.split remaining).2 (by omega)
        (hsp.paint_trans p1.same) p1.complete (cache_kept p1 _ hcache) res hres
      refine ⟨p1.step_trans q1, ?_, ?_⟩
      · intro hcov j hj hin pt hpt hcl
        rcases hcov remaining pt hpt with h | h
        · have hmid := p2 j hj hin (meets_of_point _ _ pt h hcl)
          rcases q1.bits j with e | e
          · rw [e]; exact hmid
          · exact e.1
        · exact q2 hcov j hj hin pt h hcl
      · intro hin hrc j hnej
        obtain ⟨hw, hr⟩ := hin remaining hne
        by_cases hmid : paintBits ((paint_into inner ps root m clip (surface.split remaining).1
            (afterPush s0 {} root m)).store.node j).flags = paintBits (ps.store.node j).flags
        · apply q3 hin (fun h2 => contains_trans (hrc hne) (hr h2)) j
          rw [hmid]; exact hnej
        · exact (p3 j hmid).2 (contains_trans (hrc hne) hw)
    · rw [if_neg hne] at hres
      subst hres
      refine ⟨PaintStep.step_refl s0 root ps hcomp, ?_, ?_⟩
      · intro _ j _ _ pt hpt _
        have := (nonempty_iff_point remaining).mpr ⟨pt, hpt⟩
        exact absurd this hne
      · intro _ _ j hnej
        exact absurd rfl hnej

/-! ## Ancestors -/

theorem insideChain_top (s : Store) (hwf : wfLinks s = true) (root : Nat)
    (htop : s.parent root = Option.none) :
    ∀ (n j : Nat), (parents s j).length = n → j < s.size → (j = root ∨ root ∈ parents s j) →
      insideChain s root j = parents s j := by
  intro n
  induction n with
  | zero =>
    intro j hlen _ hin
    rcases hin with e | h
    · rw [e, parents_of_root s root htop]; simp [insideChain]
    · rw [List.length_eq_zero] at hlen; rw [hlen] at h; simp at h
  | succ n ih =>
    intro j hlen hj hin
    by_cases hjr : j = root
    · rw [hjr, parents_of_root s root htop]; simp [insideChain]
    · have hrp := hin.resolve_left hjr
      obtain ⟨hpar, _, _, _, hl⟩ := wfLinks_at hwf hj
      cases hp : s.parent j with
      | none => rw [parents_of_root s j hp] at hlen; simp at hlen
      | some p =>
        have hpars := parents_of_parent s j p hp hl
        have hpin : p = root ∨ root ∈ parents s p := by
          rw [hpars] at hrp
          rcases List.mem_cons.mp hrp with e | h'
          · exact Or.inl e.symm
          · exact Or.inr h'
        rw [insideChain_child s root j p hp hl hjr,
          ih p (by rw [hpars] at hlen; simpa using hlen) (hpar p hp) hpin, hpars]

theorem ancestors_comparable (s : Store) (hwf : wfLinks s = true) :
    ∀ (n x : Nat), (parents s x).length = n → x < s.size →
      ∀ a m, a ∈ parents s x → m ∈ parents s x → a = m ∨ m ∈ parents s a ∨ a ∈ parents s m := by
  intro n
  induction n with
  | zero =>
    intro x hlen _ a m ha _
    rw [List.length_eq_zero] at hlen; rw [hlen] at ha; simp at ha
  | succ n ih =>
    intro x hlen hx a m ha hm
    obtain ⟨hpar, _, _, _, hl⟩ := wfLinks_at hwf hx
    cases hp : s.parent x with
    | none => rw [parents_of_root s x hp] at hlen; simp at hlen
    | some p =>
      have hpars := parents_of_parent s x p hp hl
      rw [hpars] at ha hm
      rcases List.mem_cons.mp ha with e1 | h1
      · rcases List.mem_cons.mp hm with e2 | h2
        · left; rw [e1, e2]
        · right; left; rw [e1]; exact h2
      · rcases List.mem_cons.mp hm with e2 | h2
        · right; right; rw [e2]; exact h1
        · exact ih p (by rw [hpars] at hlen; simpa using hlen) (hpar p hp) a m h1 h2

theorem leaf_no_descendant (s : Store) (hwf : wfTree s = true) (m : Nat)
    (hleaf : pre_or_leaf s m = AcceptState.Leaf) :
    ∀ (n x : Nat), (parents s x).length = n → x < s.size → m ∉ parents s x := by
  have hwfl := wfTree_wfLinks hwf
  intro n
  induction n with
  | zero =>
    intro x hlen _ hm
    rw [List.length_eq_zero] at hlen; rw [hlen] at hm; simp at hm
  | succ n ih =>
    intro x hlen hx hm
    obtain ⟨hpar, _, _, _, hl⟩ := wfLinks_at hwfl hx
    cases hp : s.parent x with
    | none => rw [parents_of_root s x hp] at hlen; simp at hlen
    | some p =>
      have hpars := parents_of_parent s x p hp hl
      rw [hpars] at hm
      rcases List.mem_cons.mp hm with e | h
      · have := pre_or_leaf_of_child hwf hx hp
        rw [← e, hleaf] at this
        cases this
      · exact ih p (by rw [hpars] at hlen; simpa using hlen) (hpar p hp) h

/-! ## The nodes that `paint_partial_impl` finds -/

theorem any_congr_mem {α : Type} (f g : α → Bool) :
    ∀ (l : List α), (∀ a ∈ l, f a = g a) → l.any f = l.any g
  | [], _ => rfl
  | a :: l, h => by
    simp only [List.any_cons]
    rw [h a (List.mem_cons_self _ _),
      any_congr_mem f g l (fun b hb => h b (List.mem_cons_of_mem _ hb))]

theorem all_congr_mem {α : Type} (f g : α → Bool) :
    ∀ (l : List α), (∀ a ∈ l, f a = g a) → l.all f = l.all g
  | [], _ => rfl
  | a :: l, h => by
    simp only [List.all_cons]
    rw [h a (List.mem_cons_self _ _),
      all_congr_mem f g l (fun b hb => h b (List.mem_cons_of_mem _ hb))]

theorem paintWalked_congr {t u : Store} (hsh : SameShape t u) (b : Nat)
    (h : paintBits (u.node b).flags = paintBits (t.node b).flags) :
    u.paintWalked b = t.paintWalked b := by
  simp only [paintBits, Prod.mk.injEq] at h
  obtain ⟨h1, _, h3, h4⟩ := h
  simp only [Store.paintWalked, Store.isPaintDirty, Store.isChildPaintDirty, hsh.isContainer,
    h1, h3, h4]

theorem paintCovered_congr {t u : Store} (hwf : wfLinks t = true) (hsh : SameShape t u)
    (x : Nat) (hx : x < t.size)
    (h : ∀ b ∈ x :: parents t x, paintBits (u.node b).flags = paintBits (t.node b).flags) :
    paintCovered u x = paintCovered t x := by
  have hl := (wfLinks_at hwf hx).2.2.2.2
  unfold paintCovered
  simp only [hsh.parents]
  apply any_congr_mem
  intro a ha
  have hsub : ∀ b ∈ a :: parents t a, b ∈ x :: parents t x := by
    intro b hb
    rcases List.mem_cons.mp ha with e | h1
    · rw [e] at hb; exact hb
    · rcases List.mem_cons.mp hb with e | h2
      · rw [e]; exact List.mem_cons_of_mem _ h1
      · exact List.mem_cons_of_mem _ (parents_trans t x a b hl h1 h2)
  have h1 : u.isPaintDirty a = t.isPaintDirty a := by
    have := h a ha
    simp only [paintBits, Prod.mk.injEq] at this
    exact this.1
  have h2 : (a :: parents t a).all (fun b => u.paintWalked b) =
      (a :: parents t a).all (fun b => t.paintWalked b) := by
    apply all_congr_mem
    intro b hb
    exact paintWalked_congr hsh b (h b (hsub b hb))
  rw [h1, h2]

theorem paintCovered_iff (t : Store) (x : Nat) :
    paintCovered t x = true ↔
      ∃ a, (a = x ∨ (a ∈ parents t x ∧ t.isPaintDirty a = true)) ∧
        ∀ b ∈ a :: parents t a, t.paintWalked b = true := by
  unfold paintCovered
  rw [List.any_eq_true]
  constructor
  · rintro ⟨a, ha, hc⟩
    simp only [Bool.and_eq_true, Bool.or_eq_true, decide_eq_true_eq, List.all_eq_true] at hc
    refine ⟨a, ?_, hc.2⟩
    rcases hc.1 with e | hd
    · exact Or.inl e
    · rcases List.mem_cons.mp ha with e | h
      · exact Or.inl e
      · exact Or.inr ⟨h, hd⟩
  · rintro ⟨a, ha, hc⟩
    refine ⟨a, ?_, ?_⟩
    · rcases ha with e | ⟨h, _⟩
      · rw [e]; exact List.mem_cons_self _ _
      · exact List.mem_cons_of_mem _ h
    · simp only [Bool.and_eq_true, Bool.or_eq_true, decide_eq_true_eq, List.all_eq_true]
      refine ⟨?_, hc⟩
      rcases ha with e | ⟨_, hd⟩
      · exact Or.inl e
      · exact Or.inr hd

theorem coverInv_step (K : Bool × Bool × Bool × Bool → Bool) (hK : K noBits = false)
    (surface : Surface) (s0 : Store) (root : Nat) (hwf : wfLinks s0 = true) (t u : Store)
    (m : Nat) (hst : SameShape s0 t) (htu : SameShape t u)
    (hmono : ∀ j, paintBits (u.node j).flags = paintBits (t.node j).flags ∨
      paintBits (u.node j).flags = noBits)
    (hframe : FrameSub s0 t u m) (hclean : CleanSub K surface s0 root u m)
    (hinv : CoverInv K surface s0 root t) : CoverInv K surface s0 root u := by
  intro x hx hin hvis hk
  have hxm : ¬ (x = m ∨ m ∈ parents s0 x) := by
    intro h
    rw [hclean x hx h hvis] at hk
    cases hk
  have hbx : paintBits (u.node x).flags = paintBits (t.node x).flags := by
    rcases hmono x with e | e
    · exact e
    · rw [e, hK] at hk; cases hk
  have hcov := hinv x hx hin hvis (by rw [← hbx]; exact hk)
  have hwft : wfLinks t = true := by rw [hst.wfLinks]; exact hwf
  rw [paintCovered_congr hwft htu x (by rw [hst.1]; exact hx)]
  · exact hcov
  · intro b hb
    by_contra hne
    have hsub := hframe b hne
    apply hxm
    rw [hst.parents] at hb
    rcases List.mem_cons.mp hb with e | h
    · rw [← e]; exact hsub
    · right
      rcases hsub with e | h2
      · rw [← e]; exact h
      · exact parents_trans s0 x b m (wfLinks_at hwf hx).2.2.2.2 h h2

theorem cleanSub_of_hidden (K : Bool × Bool × Bool × Bool → Bool) (surface : Surface)
    (s0 : Store) (root : Nat) (hwf : wfLinks s0 = true) (t : Store) (m : Nat)
    (hmin : m = root ∨ root ∈ parents s0 m)
    (hempty : (clipAt s0 root m).nonempty = false) : CleanSub K surface s0 root t m := by
  intro x hx hin hvis
  obtain ⟨pt, hp1, _⟩ := point_of_meets _ _ hvis
  have := clipAt_inside s0 hwf root m x hmin hx hin pt hp1
  have hne := (nonempty_iff_point _).mpr ⟨pt, this⟩
  rw [hempty] at hne
  cases hne

theorem cleanSub_of_unwalked (K : Bool × Bool × Bool × Bool → Bool) (surface : Surface)
    (s0 : Store) (root : Nat) (hwf : wfLinks s0 = true) (t : Store) (m : Nat)
    (hst : SameShape s0 t) (hmin : m = root ∨ root ∈ parents s0 m)
    (hopen : ∀ b ∈ parents s0 m, t.isPaintDirty b = false)
    (hun : t.paintWalked m = false) (hinv : CoverInv K surface s0 root t) :
    CleanSub K surface s0 root t m := by
  intro x hx hin hvis
  cases hk : K (paintBits (t.node x).flags) with
  | false => rfl
  | true =>
    exfalso
    have hxr := subtree_trans s0 hwf root m x hx hmin hin
    have hcov := hinv x hx hxr hvis hk
    rw [paintCovered_iff] at hcov
    obtain ⟨a, ha, hall⟩ := hcov
    simp only [hst.parents] at ha hall
    have hwalk : m ∉ a :: parents s0 a := by
      intro hm
      rw [hall m hm] at hun
      cases hun
    rcases ha with e | ⟨hax, hd⟩
    · apply hwalk
      rw [e]
      rcases hin with e2 | h2
      · rw [e2]; exact List.mem_cons_self _ _
      · exact List.mem_cons_of_mem _ h2
    · rcases hin with e2 | h2
      · rw [e2] at hax
        rw [hopen a hax] at hd
        cases hd
      · rcases ancestors_comparable s0 hwf _ x rfl hx a m hax h2 with e3 | h3 | h3
        · apply hwalk; rw [e3]; exact List.mem_cons_self _ _
        · exact hwalk (List.mem_cons_of_mem _ h3)
        · rw [hopen a h3] at hd
          cases hd

/-! ## The area painted for a node -/

theorem pixels_mono (a b : Rect) (h : a.contains b = true) : b.pixels ≤ a.pixels := by
  unfold Rect.pixels
  by_cases hb : b.empty = true
  · simp [hb]
  · have hbn : b.nonempty = true := by simp [Rect.nonempty, hb]
    have hb2 := (nonempty_iff b).mp hbn
    have hc := (contains_iff a b).mp h
    have han : a.nonempty = true := by
      rw [nonempty_iff]; omega
    have ha : a.empty = false := by
      simpa [Rect.nonempty] using han
    simp only [hb, ha, Bool.false_eq_true, if_false]
    apply Int.toNat_le_toNat
    apply Int.mul_le_mul <;> omega

theorem affected_pixels (t : Store) (surface : Surface) (m : Nat) (clip : Rect) :
    (affected_area t surface m clip).pixels ≤ (Rect.withSize surface.resolution).pixels := by
  unfold affected_area
  split
  · exact Nat.le_refl _
  · exact pixels_mono _ _ (contains_ofIntersect_right _ _)

theorem affected_inside (t : Store) (surface : Surface) (m : Nat) (clip : Rect)
    (h : t.isAttached m = true) : clip.contains (affected_area t surface m clip) = true := by
  unfold affected_area
  simp only [h, Bool.not_true, Bool.false_and, Bool.false_eq_true, if_false]
  exact contains_ofIntersect_left _ _

theorem affected_covers (t : Store) (surface : Surface) (m : Nat) (clip : Rect) (pt : Vec2)
    (h1 : clip.containsPoint pt = true)
    (h2 : (Rect.withSize surface.resolution).containsPoint pt = true) :
    (affected_area t surface m clip).containsPoint pt = true := by
  unfold affected_area
  split
  · exact h2
  · exact (containsPoint_ofIntersect _ _ pt).mpr ⟨h1, h2⟩

/-! ## One body of the loop of `paint_partial_impl`, with the paint flags -/

theorem clip_step (s0 : Store) (root : Nat) (ps : PaintState) (m : Nat)
    (hcomp : ps.complete = true) :
    PaintStep s0 root ps { ps with store := setClipSpace ps.store m (clipAt s0 root m) } :=
  { complete := hcomp
    same := samePaint_setClipSpace _ _ _
    bits := fun j => Or.inl (by simp)
    cache := fun j => by
      simp only [setClipSpace_clip_space]
      by_cases e : j = m
      · right; rw [if_pos e, e]
      · left; rw [if_neg e]
    trace := ⟨[], by simp, fun _ _ _ h => by simp at h⟩ }

theorem clear_step (s0 : Store) (root : Nat) (ps : PaintState) (m : Nat)
    (hcomp : ps.complete = true) (hm : m < s0.size) (hmin : m = root ∨ root ∈ parents s0 m)
    (hne : (clipAt s0 root m).nonempty = true) :
    PaintStep s0 root ps { ps with store := clearPaintDirty ps.store m } :=
  { complete := hcomp
    same := samePaint_clearPaintDirty _ _
    bits := fun j => by
      simp only [paintBits_clearPaintDirty]
      by_cases e : j = m
      · right; rw [if_pos e, e]; exact ⟨rfl, hm, hmin, hne⟩
      · left; rw [if_neg e]
    cache := fun j => Or.inl (clearPaintDirty_clip_space _ _ _)
    trace := ⟨[], by simp, fun _ _ _ h => by simp at h⟩ }

theorem cleanSub_congr (K : Bool × Bool × Bool × Bool → Bool) (surface : Surface) (s0 : Store)
    (root : Nat) (t u : Store) (m : Nat)
    (h : ∀ j, paintBits (u.node j).flags = paintBits (t.node j).flags)
    (hc : CleanSub K surface s0 root t m) : CleanSub K surface s0 root u m := by
  intro x hx hin hvis
  rw [h x]
  exact hc x hx hin hvis

theorem frameSub_of_eq (s0 t u : Store) (m : Nat)
    (h : ∀ j, paintBits (u.node j).flags = paintBits (t.node j).flags) : FrameSub s0 t u m :=
  fun j hne => absurd (h j) hne

theorem window_nonempty_of_meets (w c : Rect) (h : (Rect.ofIntersect w c).nonempty = true) :
    w.nonempty = true :=
  ((ofIntersect_nonempty_iff w c).mp h).2.1

theorem attached_of_inside (s : Store) (root m : Nat) (hmr : m ≠ root)
    (hmin : m = root ∨ root ∈ parents s m) : s.isAttached m = true := by
  have h := hmin.resolve_left hmr
  unfold Store.isAttached
  cases hp : s.parent m with
  | none => rw [parents_of_root s m hp] at h; simp at h
  | some p => rfl

theorem visit_push (s0 : Store) (root : Nat) (ps : PaintState) (m : Nat)
    (hsp : SamePaint s0 ps.store) :
    (beforePush s0 {} root m).push ps.store m =
      (setClipSpace ps.store m (clipAt s0 root m), afterPush s0 {} root m) := by
  rw [push_of_area s0 ps.store _ m ((hsp.fields m).2.2.2.2.2.2.1)]
  rfl

/-- The body of the loop of `paint_partial_impl` at the first visit of the node
`m`: the traversal descends with the paint bits as they are, or it leaves the
node, and then no node of its subtree whose clip meets the display is left with
a paint bit. -/
theorem partial_visit_pre (surface : Surface) (hprog : SplitProgress surface) (s0 : Store)
    (root : Nat) (hs : PaintSetting s0 root) (inner : Nat)
    (hinner : ∀ m, m < s0.size → (specSeq s0 (fun _ => false) s0.size root).length +
      (specSeq s0 (fun _ => false) s0.size m).length ≤ inner)
    (hpix : (Rect.withSize surface.resolution).pixels ≤ inner)
    (ps : PaintState) (m : Nat) (st : AcceptState) (upd : Bool)
    (hm : m < s0.size) (hmin : m = root ∨ root ∈ parents s0 m)
    (hst : st = pre_or_leaf s0 m)
    (hsp : SamePaint s0 ps.store) (hcomp : ps.complete = true)
    (hcache : ∀ a ∈ insideChain s0 root m, (ps.store.node a).clip_space = clipAt s0 root a)
    (r : PartialStep)
    (hr : paint_partial_visit inner surface root ps (beforePush s0 {} root m) m st upd = r) :
    PaintStep s0 root ps r.state ∧
    (r.state.store.node m).clip_space = clipAt s0 root m ∧
    ((r.accept = AcceptState.Pre ∧ st = AcceptState.Pre ∧ r.stack = afterPush s0 {} root m ∧
        (∀ j, paintBits (r.state.store.node j).flags = paintBits (ps.store.node j).flags) ∧
        ps.store.isPaintDirty m = false ∧ (clipAt s0 root m).nonempty = true) ∨
     (r.accept ≠ AcceptState.Pre ∧ (r.accept = AcceptState.Leaf → st = AcceptState.Leaf) ∧
        r.stack = (afterPush s0 {} root m).pop r.state.store m ∧
        ∀ K : Bool × Bool × Bool × Bool → Bool, K noBits = false → SplitSound surface →
          (∀ b ∈ parents s0 m, ps.store.isPaintDirty b = false) →
          CoverInv K surface s0 root ps.store →
          CleanSub K surface s0 root r.state.store m ∧ FrameSub s0 ps.store r.state.store m)) := by
  have hwfl := wfTree_wfLinks hs.wf
  have hne : (st != AcceptState.Post) = true := by
    have := pre_or_leaf_ne_post s0 m
    rw [← hst] at this
    cases st <;> simp_all
  have h01 := clip_step s0 root ps m hcomp
  have hsp1 : SamePaint s0 (setClipSpace ps.store m (clipAt s0 root m)) :=
    hsp.paint_trans h01.same
  have hcache1 := cache_kept h01 _ hcache
  have hb1 : ∀ j, paintBits ((setClipSpace ps.store m (clipAt s0 root m)).node j).flags =
      paintBits (ps.store.node j).flags := fun j => by simp
  have hcs1 : ((setClipSpace ps.store m (clipAt s0 root m)).node m).clip_space =
      clipAt s0 root m := by simp [setClipSpace_clip_space]
  have hA : (afterPush s0 {} root m).clip = clipAt s0 root m := rfl
  have hfl : ∀ j, ((setClipSpace ps.store m (clipAt s0 root m)).node j).flags =
      (ps.store.node j).flags := fun j => by simp
  -- the subtree of the root is the whole tree
  have hroot_frame : ∀ (a b : PaintState), PaintStep s0 root a b → m = root →
      FrameSub s0 a.store b.store m := by
    intro a b hab e j hnej
    rcases hab.bits j with h | ⟨_, _, h3, _⟩
    · exact absurd h hnej
    · rw [e]; exact h3
  -- the statement that ends the body
  have hpost : ∀ r : PartialStep, (clipAt s0 root m).nonempty = true →
      ps.store.isPaintDirty m = false →
      paint_partial_post { ps with store := setClipSpace ps.store m (clipAt s0 root m) }
        (afterPush s0 {} root m) m st upd = r →
      PaintStep s0 root ps r.state ∧
      (r.state.store.node m).clip_space = clipAt s0 root m ∧
      ((r.accept = AcceptState.Pre ∧ st = AcceptState.Pre ∧ r.stack = afterPush s0 {} root m ∧
          (∀ j, paintBits (r.state.store.node j).flags = paintBits (ps.store.node j).flags) ∧
          ps.store.isPaintDirty m = false ∧ (clipAt s0 root m).nonempty = true) ∨
       (r.accept ≠ AcceptState.Pre ∧ (r.accept = AcceptState.Leaf → st = AcceptState.Leaf) ∧
          r.stack = (afterPush s0 {} root m).pop r.state.store m ∧
          ∀ K : Bool × Bool × Bool × Bool → Bool, K noBits = false → SplitSound surface →
            (∀ b ∈ parents s0 m, ps.store.isPaintDirty b = false) →
            CoverInv K surface s0 root ps.store →
            CleanSub K surface s0 root r.state.store m ∧
              FrameSub s0 ps.store r.state.store m)) := by
    intro r hC hnd hr
    unfold paint_partial_post at hr
    by_cases hpre : st = AcceptState.Pre
    · have : (st != AcceptState.Pre) = false := by rw [hpre]; rfl
      rw [this] at hr
      simp only [Bool.false_eq_true, if_false] at hr
      subst hr
      exact ⟨h01, hcs1, Or.inl ⟨hpre, hpre, rfl, hb1, hnd, hC⟩⟩
    · have hl : st = AcceptState.Leaf := by
        cases st with
        | Pre => exact absurd rfl hpre
        | Post => simp at hne
        | Leaf => rfl
      have : (st != AcceptState.Pre) = true := by rw [hl]; rfl
      rw [this] at hr
      simp only [if_true] at hr
      subst hr
      have h12 := clear_step s0 root
        { ps with store := setClipSpace ps.store m (clipAt s0 root m) } m hcomp hm hmin hC
      refine ⟨h01.step_trans h12, ?_, Or.inr ⟨?_, fun _ => hl, rfl, ?_⟩⟩
      · simp only [clearPaintDirty_clip_space]; exact hcs1
      · simp only [hl]; exact fun h => by cases h
      · intro K hK _ _ _
        constructor
        · intro x hx hin _
          have hxm : x = m := by
            rcases hin with e | h
            · exact e
            · exact absurd h (leaf_no_descendant s0 hs.wf m (by rw [← hst, hl]) _ x rfl hx)
          simp only [paintBits_clearPaintDirty, if_pos hxm]
          exact hK
        · intro j hnej
          by_cases e : j = m
          · exact Or.inl e
          · simp only [paintBits_clearPaintDirty, if_neg e, hb1] at hnej
            exact absurd rfl hnej
  unfold paint_partial_visit at hr
  rw [if_pos hne] at hr
  simp only [visit_push s0 root ps m hsp, hA] at hr
  by_cases hC : (clipAt s0 root m).nonempty = true
  · rw [if_pos hC] at hr
    by_cases hd : ps.store.isPaintDirty m = true
    · -- the node is painted window by window
      have hd1 : (setClipSpace ps.store m (clipAt s0 root m)).isPaintDirty m = true := by
        simp only [Store.isPaintDirty, hfl]; exact hd
      rw [if_pos hd1] at hr
      obtain ⟨q1, q2, q3⟩ := splitLoop_effect surface hprog s0 root hs inner m (clipAt s0 root m)
        hm hmin (hinner m hm) inner
        { ps with store := setClipSpace ps.store m (clipAt s0 root m) }
        (affected_area (setClipSpace ps.store m (clipAt s0 root m)) surface m (clipAt s0 root m))
        (Nat.le_trans (affected_pixels _ _ _ _) hpix) hsp1 hcomp hcache1 _ rfl
      have h23 := clear_step s0 root _ m q1.complete hm hmin hC
      subst hr
      refine ⟨h01.step_trans (q1.step_trans h23), ?_, Or.inr ⟨by simp, by simp, rfl, ?_⟩⟩
      · simp only [clearPaintDirty_clip_space]
        rcases q1.cache m with e | e
        · rw [e]; exact hcs1
        · exact e
      · intro K hK hsound _ _
        constructor
        · intro x hx hin hvis
          simp only [paintBits_clearPaintDirty]
          by_cases e : x = m
          · rw [if_pos e]; exact hK
          · rw [if_neg e]
            obtain ⟨pt, hp1, hp2⟩ := point_of_meets _ _ hvis
            rw [q2 hsound.covers x hx hin pt
              (affected_covers _ _ _ _ pt (clipAt_inside s0 hwfl root m x hmin hx hin pt hp1) hp2)
              hp1]
            exact hK
        · intro j hnej
          by_cases e : j = m
          · exact Or.inl e
          · simp only [paintBits_clearPaintDirty, if_neg e] at hnej
            by_cases hmr : m = root
            · apply hroot_frame _ _ q1 hmr j
              simp only [hb1]
              exact hnej
            · apply q3 hsound.inside
                (fun _ => affected_inside _ _ _ _ (by
                  have := attached_of_inside s0 root m hmr hmin
                  rw [← hsp1.paint_shape.isAttached] at this
                  exact this)) j
              simp only [hb1]
              exact hnej
    · have hd0 : ps.store.isPaintDirty m = false := by simpa using hd
      have hd1 : (setClipSpace ps.store m (clipAt s0 root m)).isPaintDirty m = false := by
        simp only [Store.isPaintDirty, hfl]; exact hd0
      rw [hd1] at hr
      simp only [Bool.false_eq_true, if_false] at hr
      have hcont1 : (setClipSpace ps.store m (clipAt s0 root m)).isContainer m =
          ps.store.isContainer m := by simp only [Store.isContainer, hfl]
      have hcpd1 : (setClipSpace ps.store m (clipAt s0 root m)).isChildPaintDirty m =
          ps.store.isChildPaintDirty m := by simp only [Store.isChildPaintDirty, hfl]
      rw [hcont1, hcpd1] at hr
      by_cases hw : (!ps.store.isContainer m || !ps.store.isChildPaintDirty m) = true
      · -- the node is left at once
        rw [if_pos hw] at hr
        subst hr
        refine ⟨h01, hcs1, Or.inr ⟨by simp, by simp, rfl, ?_⟩⟩
        intro K _ _ hopen hinv
        have hun : ps.store.paintWalked m = false := by
          simp only [Store.paintWalked, hd0, Bool.false_or]
          cases h1 : ps.store.isContainer m <;> cases h2 : ps.store.isChildPaintDirty m <;>
            simp_all
        exact ⟨cleanSub_congr K surface s0 root _ _ m hb1
            (cleanSub_of_unwalked K surface s0 root hwfl ps.store m hsp.paint_shape hmin hopen
              hun hinv),
          frameSub_of_eq s0 _ _ m hb1⟩
      · rw [if_neg hw] at hr
        by_cases hdiv : (setClipSpace ps.store m (clipAt s0 root m)).isChildPaintDirtyDiverged m
            = true
        · rw [if_pos hdiv] at hr
          by_cases hfit : (!(surface.split (affected_area
              (setClipSpace ps.store m (clipAt s0 root m)) surface m
              (clipAt s0 root m))).2.nonempty) = true
          · -- the whole container is painted in one window
            rw [if_pos hfit] at hr
            obtain ⟨p1, p2, p3⟩ := paint_into_effect s0 root hs inner
              { ps with store := setClipSpace ps.store m (clipAt s0 root m) } m
              (clipAt s0 root m) (surface.split (affected_area
                (setClipSpace ps.store m (clipAt s0 root m)) surface m
                (clipAt s0 root m))).1 hm hmin hsp1 hcomp hcache1 (hinner m hm) _ rfl
            have h23 := clear_step s0 root _ m p1.complete hm hmin hC
            subst hr
            refine ⟨h01.step_trans (p1.step_trans h23), ?_,
              Or.inr ⟨by simp, by simp, rfl, ?_⟩⟩
            · simp only [clearPaintDirty_clip_space]
              rcases p1.cache m with e | e
              · rw [e]; exact hcs1
              · exact e
            · intro K hK hsound _ _
              have hrem : (surface.split (affected_area
                  (setClipSpace ps.store m (clipAt s0 root m)) surface m
                  (clipAt s0 root m))).2.nonempty = false := by simpa using hfit
              constructor
              · intro x hx hin hvis
                simp only [paintBits_clearPaintDirty]
                by_cases e : x = m
                · rw [if_pos e]; exact hK
                · rw [if_neg e]
                  obtain ⟨pt, hp1, hp2⟩ := point_of_meets _ _ hvis
                  have hpa := affected_covers (setClipSpace ps.store m (clipAt s0 root m))
                    surface m _ pt (clipAt_inside s0 hwfl root m x hmin hx hin pt hp1) hp2
                  rcases hsound.covers _ pt hpa with h | h
                  · rw [p2 x hx hin (meets_of_point _ _ pt h hp1)]
                    exact hK
                  · have := (nonempty_iff_point _).mpr ⟨pt, h⟩
                    rw [hrem] at this
                    cases this
              · intro j hnej
                by_cases e : j = m
                · exact Or.inl e
                · simp only [paintBits_clearPaintDirty, if_neg e] at hnej
                  by_cases hmr : m = root
                  · apply hroot_frame _ _ p1 hmr j
                    simp only [hb1]
                    exact hnej
                  · have hch : paintBits ((paint_into inner
                        { ps with store := setClipSpace ps.store m (clipAt s0 root m) } root m
                        (clipAt s0 root m) (surface.split (affected_area
                          (setClipSpace ps.store m (clipAt s0 root m)) surface m
                          (clipAt s0 root m))).1 (afterPush s0 {} root m)).store.node j).flags ≠
                        paintBits ((setClipSpace ps.store m (clipAt s0 root m)).node j).flags := by
                      rw [hb1]; exact hnej
                    obtain ⟨hmeet, hsub⟩ := p3 j hch
                    apply hsub
                    have hatt : (setClipSpace ps.store m (clipAt s0 root m)).isAttached m
                        = true := by
                      have := attached_of_inside s0 root m hmr hmin
                      rw [← hsp1.paint_shape.isAttached] at this
                      exact this
                    by_cases hrn : (affected_area (setClipSpace ps.store m (clipAt s0 root m))
                        surface m (clipAt s0 root m)).nonempty = true
                    · exact contains_trans (affected_inside _ _ _ _ hatt)
                        (hsound.inside _ hrn).1
                    · have := hsound.empty _ (by simpa using hrn)
                      rw [window_nonempty_of_meets _ _ hmeet] at this
                      cases this
          · rw [if_neg hfit] at hr
            exact hpost r hC hd0 hr
        · rw [if_neg hdiv] at hr
          exact hpost r hC hd0 hr
  · -- the clip is empty
    rw [if_neg hC] at hr
    subst hr
    refine ⟨h01, hcs1, Or.inr ⟨by simp, by simp, rfl, ?_⟩⟩
    intro K _ _ _ _
    exact ⟨cleanSub_of_hidden K surface s0 root hwfl _ m hmin (by simpa using hC),
      frameSub_of_eq s0 _ _ m hb1⟩

/-! ## The loop of `paint_partial_impl`, subtree by subtree -/

theorem partial_loop_step (inner : Nat) (surface : Surface) (root : Nat) (last : Accept)
    (F : Nat) (ps : PaintState) (stk : PositionRebuilder) (m : Nat) (st : AcceptState)
    (upd : Bool) (hlast : last.node ≠ some m)
    (hc : (paint_partial_visit inner surface root ps stk m st upd).state.complete = true) :
    paint_partial_loop inner surface root last (F + 1) ps stk { node := some m, state := st } upd =
      paint_partial_loop inner surface root last F
        (paint_partial_visit inner surface root ps stk m st upd).state
        (paint_partial_visit inner surface root ps stk m st upd).stack
        (increment (paint_partial_visit inner surface root ps stk m st upd).state.store m
          (paint_partial_visit inner surface root ps stk m st upd).accept)
        (paint_partial_visit inner surface root ps stk m st upd).updated := by
  rw [paint_partial_loop]
  have hs : ({ node := some m, state := st } : Accept).same last = false :=
    not_same_of_node rfl hlast
  simp only [hs, Bool.false_eq_true, if_false, hc, if_true]

theorem specSeq_pos (s : Store) (d m : Nat) : 1 ≤ (specSeq s (fun _ => false) (d + 1) m).length := by
  rw [specSeq]
  split
  · simp
  · simp

theorem specSeq_pre_length (s : Store) (d m : Nat) (h : pre_or_leaf s m = AcceptState.Pre)
    (hm : m < s.size) :
    (specSeq s (fun _ => false) (d + 1) m).length =
      1 + ((children s m).flatMap (specSeq s (fun _ => false) d)).length + 1 := by
  have hcond : (s.isWidget m || (children s m).isEmpty) = false := by
    cases hc : (s.isWidget m || (children s m).isEmpty) with
    | false => rfl
    | true => rw [(leaf_iff s m hm).mp hc] at h; cases h
  rw [specSeq]
  simp only [hcond, Bool.false_eq_true, if_false, List.length_append, List.length_cons,
    List.length_nil]

theorem child_of_descendant (s : Store) (hwf : wfTree s = true) (m : Nat) :
    ∀ (n x : Nat), (parents s x).length = n → x < s.size → m ∈ parents s x →
      ∃ c, c ∈ children s m ∧ (x = c ∨ c ∈ parents s x) := by
  have hwfl := wfTree_wfLinks hwf
  intro n
  induction n with
  | zero =>
    intro x hlen _ hm
    rw [List.length_eq_zero] at hlen; rw [hlen] at hm; simp at hm
  | succ n ih =>
    intro x hlen hx hm
    obtain ⟨hpar, _, _, _, hl⟩ := wfLinks_at hwfl hx
    cases hp : s.parent x with
    | none => rw [parents_of_root s x hp] at hlen; simp at hlen
    | some p =>
      have hpars := parents_of_parent s x p hp hl
      rw [hpars] at hm
      rcases List.mem_cons.mp hm with e | h
      · refine ⟨x, ?_, Or.inl rfl⟩
        rw [e]
        exact (wfTree_child hwf hx hp).2
      · obtain ⟨c, hc, hsub⟩ := ih p (by rw [hpars] at hlen; simpa using hlen) (hpar p hp) h
        refine ⟨c, hc, Or.inr ?_⟩
        rw [hpars]
        rcases hsub with e | h2
        · rw [e]; exact List.mem_cons_self _ _
        · exact List.mem_cons_of_mem _ h2

theorem PaintStep.dirty_mono {s0 : Store} {root : Nat} {a b : PaintState}
    (h : PaintStep s0 root a b) (j : Nat) (hj : a.store.isPaintDirty j = false) :
    b.store.isPaintDirty j = false := by
  rcases h.bits j with e | e
  · simp only [paintBits, Prod.mk.injEq] at e
    simp only [Store.isPaintDirty] at hj ⊢
    rw [e.1]; exact hj
  · simp only [paintBits, noBits, Prod.mk.injEq] at e
    simp only [Store.isPaintDirty]
    exact e.1.1

theorem PaintStep.mono {s0 : Store} {root : Nat} {a b : PaintState}
    (h : PaintStep s0 root a b) (j : Nat) :
    paintBits (b.store.node j).flags = paintBits (a.store.node j).flags ∨
      paintBits (b.store.node j).flags = noBits := by
  rcases h.bits j with e | e
  · exact Or.inl e
  · exact Or.inr e.1

theorem PaintStep.clean_mono {s0 : Store} {root : Nat} {a b : PaintState}
    (h : PaintStep s0 root a b) (K : Bool × Bool × Bool × Bool → Bool) (hK : K noBits = false)
    (surface : Surface) (x : Nat) (hc : CleanSub K surface s0 root a.store x) :
    CleanSub K surface s0 root b.store x := by
  intro y hy hin hvis
  rcases h.mono y with e | e
  · rw [e]; exact hc y hy hin hvis
  · rw [e]; exact hK

theorem FrameSub.sub_trans {s0 t u v : Store} {m : Nat} (h1 : FrameSub s0 t u m)
    (h2 : FrameSub s0 u v m) : FrameSub s0 t v m := by
  intro j hne
  by_cases e : paintBits (u.node j).flags = paintBits (t.node j).flags
  · apply h2 j; rw [e]; exact hne
  · exact h1 j e

theorem FrameSub.frame_up {s0 t u : Store} {c m : Nat} (hwf : wfLinks s0 = true)
    (hc : c < s0.size) (hp : s0.parent c = some m) (h : FrameSub s0 t u c)
    (hsz : ∀ j, paintBits (u.node j).flags ≠ paintBits (t.node j).flags → j < s0.size) :
    FrameSub s0 t u m := by
  intro j hne
  right
  have hpc := parents_of_parent s0 c m hp (wfLinks_at hwf hc).2.2.2.2
  rcases h j hne with e | h2
  · rw [e, hpc]; exact List.mem_cons_self _ _
  · exact parents_trans s0 j c m (wfLinks_at hwf (hsz j hne)).2.2.2.2 h2
      (by rw [hpc]; exact List.mem_cons_self _ _)

theorem PaintStep.changed_lt {s0 : Store} {root : Nat} {a b : PaintState}
    (h : PaintStep s0 root a b) (j : Nat)
    (hne : paintBits (b.store.node j).flags ≠ paintBits (a.store.node j).flags) :
    j < s0.size := by
  rcases h.bits j with e | e
  · exact absurd e hne
  · exact e.2.1

theorem coverInv_congr (K : Bool × Bool × Bool × Bool → Bool) (surface : Surface) (s0 : Store)
    (root : Nat) (hwf : wfLinks s0 = true) (t u : Store) (hst : SameShape s0 t)
    (htu : SameShape t u)
    (h : ∀ j, paintBits (u.node j).flags = paintBits (t.node j).flags)
    (hinv : CoverInv K surface s0 root t) : CoverInv K surface s0 root u := by
  intro x hx hin hvis hk
  have hwft : wfLinks t = true := by rw [hst.wfLinks]; exact hwf
  rw [paintCovered_congr hwft htu x (by rw [hst.1]; exact hx) (fun b _ => h b)]
  exact hinv x hx hin hvis (by rw [← h x]; exact hk)

theorem partialRuns_trans {inner : Nat} {surface : Surface} {root : Nat} {last : Accept}
    {p1 p2 p3 : PaintState} {s1 s2 s3 : PositionRebuilder} {c1 c2 c3 : Accept}
    {u1 u2 u3 : Bool} {n1 n2 : Nat}
    (h1 : PartialRuns inner surface root last p1 s1 c1 u1 n1 p2 s2 c2 u2)
    (h2 : PartialRuns inner surface root last p2 s2 c2 u2 n2 p3 s3 c3 u3) :
    PartialRuns inner surface root last p1 s1 c1 u1 (n1 + n2) p3 s3 c3 u3 := by
  intro F
  have e : F + (n1 + n2) = (F + n2) + n1 := by omega
  rw [e, h1 (F + n2), h2 F]

theorem partial_visit_post (inner : Nat) (surface : Surface) (root : Nat) (ps : PaintState)
    (stk : PositionRebuilder) (m : Nat) (upd : Bool) :
    paint_partial_visit inner surface root ps stk m AcceptState.Post upd =
      { state := { ps with store := clearPaintDirty ps.store m },
        stack := stk.pop (clearPaintDirty ps.store m) m,
        accept := AcceptState.Post, updated := upd } := by
  unfold paint_partial_visit paint_partial_post
  rfl

/-- The loop of `paint_partial_impl` over the subtree of a node `m` of the tree:
it arrives at the iterator that follows the subtree after at most as many
bodies as the range `traverse(m)` has values. -/
theorem partial_runs (surface : Surface) (hprog : SplitProgress surface) (s0 : Store)
    (root : Nat) (hs : PaintSetting s0 root) (inner : Nat)
    (hinner : ∀ m, m < s0.size → (specSeq s0 (fun _ => false) s0.size root).length +
      (specSeq s0 (fun _ => false) s0.size m).length ≤ inner)
    (hpix : (Rect.withSize surface.resolution).pixels ≤ inner) :
    ∀ (d m : Nat), m < s0.size → s0.size ≤ d + (parents s0 m).length →
      (m = root ∨ root ∈ parents s0 m) →
      ∀ (ps : PaintState) (upd : Bool), SamePaint s0 ps.store → ps.complete = true →
        (∀ a ∈ insideChain s0 root m, (ps.store.node a).clip_space = clipAt s0 root a) →
        ∃ (n : Nat) (res : PaintState) (stk2 : PositionRebuilder) (upd2 : Bool),
          n ≤ (specSeq s0 (fun _ => false) d m).length ∧
          PartialRuns inner surface root (traverseEnd s0 root) ps (beforePush s0 {} root m)
            { node := some m, state := pre_or_leaf s0 m } upd n res stk2
            (next_sibling_or_parent s0 m) upd2 ∧
          (m ≠ root → stk2 = beforePush s0 {} root m) ∧
          PaintStep s0 root ps res ∧ SubClean surface s0 root ps res m := by
  have hwfl := wfTree_wfLinks hs.wf
  intro d
  induction d with
  | zero =>
    intro m hm hd
    have := (wfLinks_at hwfl hm).2.2.2.2
    omega
  | succ d ih =>
    intro m hm hd hmin ps upd hsp hcomp hcache
    have hlast : (traverseEnd s0 root).node ≠ some m := traverseEnd_outside hs.wf hs.lt m hmin
    obtain ⟨v1, v2, v3⟩ := partial_visit_pre surface hprog s0 root hs inner hinner hpix ps m
      (pre_or_leaf s0 m) upd hm hmin rfl hsp hcomp hcache _ rfl
    have hstep := fun F => partial_loop_step inner surface root (traverseEnd s0 root) F ps
      (beforePush s0 {} root m) m (pre_or_leaf s0 m) upd hlast v1.complete
    generalize hrdef : paint_partial_visit inner surface root ps (beforePush s0 {} root m) m
      (pre_or_leaf s0 m) upd = r at v1 v2 v3 hstep
    have hsp_r : SamePaint s0 r.state.store := hsp.paint_trans v1.same
    have hsh_r : SameShape s0 r.state.store := hsp_r.paint_shape
    have har_r : ∀ j, (r.state.store.node j).area = (s0.node j).area :=
      fun j => (hsp_r.fields j).2.2.2.2.2.2.1
    rcases v3 with ⟨ha, hst, hstk, hbits, hnd, hC⟩ | ⟨ha, hleaf, hstk, hB⟩
    · -- the traversal descends
      obtain ⟨_, _, hchild, _, hlen⟩ := wfLinks_at hwfl hm
      have hpl := hst
      unfold pre_or_leaf at hpl
      split at hpl
      · rename_i hc
        simp only [Bool.and_eq_true] at hc
        obtain ⟨c1, hfc⟩ := Option.isSome_iff_exists.mp hc.2
        have hinc : increment s0 m AcceptState.Pre =
            { node := some c1, state := pre_or_leaf s0 c1 } := by
          simp [increment, next_child, hc.1, hfc]
        obtain ⟨rest, hrest⟩ := children_of_first_child s0 m c1 hm hfc
        obtain ⟨_, hclen, hcmem⟩ := wfTree_children hs.wf hm
        -- the children one after another
        have hsibs : ∀ (cs pre : List Nat) (c : Nat), children s0 m = pre ++ c :: cs →
            ∀ (ps : PaintState) (upd : Bool), SamePaint s0 ps.store → ps.complete = true →
              (ps.store.node m).clip_space = clipAt s0 root m →
              (∀ a ∈ insideChain s0 root m, (ps.store.node a).clip_space = clipAt s0 root a) →
              ∃ (n : Nat) (res : PaintState) (upd2 : Bool),
                n ≤ ((c :: cs).flatMap (specSeq s0 (fun _ => false) d)).length ∧
                PartialRuns inner surface root (traverseEnd s0 root) ps
                  (afterPush s0 {} root m) { node := some c, state := pre_or_leaf s0 c } upd n
                  res (afterPush s0 {} root m) { node := some m, state := AcceptState.Post }
                  upd2 ∧
                PaintStep s0 root ps res ∧
                (∀ K : Bool × Bool × Bool × Bool → Bool, K noBits = false →
                  SplitSound surface →
                  (∀ b ∈ m :: parents s0 m, ps.store.isPaintDirty b = false) →
                  CoverInv K surface s0 root ps.store →
                  (∀ x ∈ c :: cs, CleanSub K surface s0 root res.store x) ∧
                    FrameSub s0 ps.store res.store m) := by
          intro cs
          induction cs with
          | nil =>
            intro pre c hch ps upd hsp hcomp hcm hcache
            obtain ⟨hcs, hcp⟩ := hcmem c (by rw [hch]; simp)
            have hl := (wfLinks_at hwfl hcs).2.2.2.2
            have hpc : parents s0 c = m :: parents s0 m := parents_of_parent s0 c m hcp hl
            have hcr : c ≠ root := inside_ne_root s0 hwfl root c m hcs hcp hmin
            have hcin : c = root ∨ root ∈ parents s0 c :=
              subtree_trans s0 hwfl root m c hcs hmin
                (Or.inr (by rw [hpc]; exact List.mem_cons_self _ _))
            have hch2 := insideChain_child s0 root c m hcp hl hcr
            obtain ⟨n, res, stk2, upd2, hn, hruns, hstk2, hpstep, hBc⟩ :=
              ih c hcs (by rw [hpc]; simp only [List.length_cons]; omega) hcin ps upd hsp hcomp
                (by
                  intro a ha
                  rw [hch2] at ha
                  rcases List.mem_cons.mp ha with e | h
                  · rw [e]; exact hcm
                  · exact hcache a h)
            have hafter := siblingList_after s0 c [] pre s0.size _ hch hclen
            have hnext : next_sibling_or_parent s0 c =
                { node := some m, state := AcceptState.Post } := by
              unfold next_sibling_or_parent
              cases hn : (s0.node c).next_sibling with
              | some n => rw [hn] at hafter; obtain ⟨_, h⟩ := hafter; cases h
              | none => simp only; rw [hcp]
            rw [hnext, beforePush_child s0 {} root c m hcp hl hcr] at hruns
            rw [hstk2 hcr, beforePush_child s0 {} root c m hcp hl hcr] at hruns
            refine ⟨n, res, upd2, by simpa using hn, hruns, hpstep, ?_⟩
            intro K hK hsound hopen hcov
            obtain ⟨g1, g2⟩ := hBc K hK hsound (by rw [hpc]; exact hopen) hcov
            refine ⟨?_, g2.frame_up hwfl hcs hcp (fun j hne => hpstep.changed_lt j hne)⟩
            intro x hx
            rw [List.mem_singleton.mp hx]
            exact g1
          | cons c2 cs2 ihcs =>
            intro pre c hch ps upd hsp hcomp hcm hcache
            obtain ⟨hcs, hcp⟩ := hcmem c (by rw [hch]; simp)
            have hl := (wfLinks_at hwfl hcs).2.2.2.2
            have hpc : parents s0 c = m :: parents s0 m := parents_of_parent s0 c m hcp hl
            have hcr : c ≠ root := inside_ne_root s0 hwfl root c m hcs hcp hmin
            have hcin : c = root ∨ root ∈ parents s0 c :=
              subtree_trans s0 hwfl root m c hcs hmin
                (Or.inr (by rw [hpc]; exact List.mem_cons_self _ _))
            have hch2 := insideChain_child s0 root c m hcp hl hcr
            obtain ⟨n, res, stk2, upd2, hn, hruns, hstk2, hpstep, hBc⟩ :=
              ih c hcs (by rw [hpc]; simp only [List.length_cons]; omega) hcin ps upd hsp hcomp
                (by
                  intro a ha
                  rw [hch2] at ha
                  rcases List.mem_cons.mp ha with e | h
                  · rw [e]; exact hcm
                  · exact hcache a h)
            have hafter := siblingList_after s0 c (c2 :: cs2) pre s0.size _ hch hclen
            have hnext : next_sibling_or_parent s0 c =
                { node := some c2, state := pre_or_leaf s0 c2 } := by
              unfold next_sibling_or_parent
              cases hn : (s0.node c).next_sibling with
              | some n =>
                rw [hn] at hafter
                obtain ⟨_, h⟩ := hafter
                simp only [List.cons.injEq] at h
                simp only [h.1]
              | none => rw [hn] at hafter; cases hafter
            rw [hnext, beforePush_child s0 {} root c m hcp hl hcr] at hruns
            rw [hstk2 hcr, beforePush_child s0 {} root c m hcp hl hcr] at hruns
            have hcm2 : (res.store.node m).clip_space = clipAt s0 root m := by
              rcases hpstep.cache m with e | e
              · rw [e]; exact hcm
              · exact e
            obtain ⟨n2, res2, upd3, hn2, hruns2, hpstep2, hB2⟩ :=
              ihcs (pre ++ [c]) c2 (by rw [hch]; simp) res upd2 (hsp.paint_trans hpstep.same)
                hpstep.complete hcm2 (cache_kept hpstep _ hcache)
            refine ⟨n + n2, res2, upd3, ?_, partialRuns_trans hruns hruns2,
              hpstep.step_trans hpstep2, ?_⟩
            · simp only [List.flatMap_cons, List.length_append] at hn2 ⊢
              omega
            · intro K hK hsound hopen hcov
              obtain ⟨g1, g2⟩ := hBc K hK hsound (by rw [hpc]; exact hopen) hcov
              have hcov2 : CoverInv K surface s0 root res.store :=
                coverInv_step K hK surface s0 root hwfl ps.store res.store c hsp.paint_shape
                  hpstep.same.paint_shape hpstep.mono g2 g1 hcov
              obtain ⟨k1, k2⟩ := hB2 K hK hsound
                (fun b hb => hpstep.dirty_mono b (hopen b hb)) hcov2
              refine ⟨?_, (g2.frame_up hwfl hcs hcp
                (fun j hne => hpstep.changed_lt j hne)).sub_trans k2⟩
              intro x hx
              rcases List.mem_cons.mp hx with e | h
              · rw [e]; exact hpstep2.clean_mono K hK surface c g1
              · exact k1 x h
        obtain ⟨n, res, upd2, hn, hruns, hpstep, hBch⟩ :=
          hsibs rest [] c1 (by simpa using hrest) r.state r.updated hsp_r v1.complete v2
            (cache_kept v1 _ hcache)
        -- the post visit
        have hpv := partial_visit_post inner surface root res (afterPush s0 {} root m) m upd2
        have hsp2 : SamePaint s0 res.store := hsp_r.paint_trans hpstep.same
        have hfin := clear_step s0 root res m hpstep.complete hm hmin hC
        have hsp3 : SamePaint s0 (clearPaintDirty res.store m) := hsp2.paint_trans hfin.same
        have hpoststep : PartialRuns inner surface root (traverseEnd s0 root) res
            (afterPush s0 {} root m) { node := some m, state := AcceptState.Post } upd2 1
            { res with store := clearPaintDirty res.store m }
            ((afterPush s0 {} root m).pop (clearPaintDirty res.store m) m)
            (next_sibling_or_parent s0 m) upd2 := by
          intro F
          rw [partial_loop_step inner surface root (traverseEnd s0 root) F res
            (afterPush s0 {} root m) m AcceptState.Post upd2 hlast
            (by rw [hpv]; exact hpstep.complete), hpv]
          simp only
          rw [hsp3.paint_shape.increment]
          simp [increment]
        have hprestep : PartialRuns inner surface root (traverseEnd s0 root) ps
            (beforePush s0 {} root m) { node := some m, state := pre_or_leaf s0 m } upd 1
            r.state (afterPush s0 {} root m) { node := some c1, state := pre_or_leaf s0 c1 }
            r.updated := by
          intro F
          rw [hstep F, hstk, ha, hsh_r.increment, hinc]
        refine ⟨1 + n + 1, { res with store := clearPaintDirty res.store m }, _, upd2, ?_,
          partialRuns_trans (partialRuns_trans hprestep hruns) hpoststep, ?_,
          v1.step_trans (hpstep.step_trans hfin), ?_⟩
        · rw [specSeq_pre_length s0 d m hst hm, hrest]
          omega
        · intro hmr
          exact pop_restores s0 _ {} root m hwfl hm hmin hmr hsp3.paint_shape
            (fun j => (hsp3.fields j).2.2.2.2.2.2.1)
            (cache_kept hfin _ (cache_kept hpstep _ (cache_kept v1 _ hcache)))
        · intro K hK hsound hopen hcov
          have hcov1 : CoverInv K surface s0 root r.state.store :=
            coverInv_congr K surface s0 root hwfl ps.store r.state.store hsp.paint_shape
              v1.same.paint_shape hbits hcov
          have hd1 : ∀ j, ps.store.isPaintDirty j = false → r.state.store.isPaintDirty j = false :=
            fun j hj => v1.dirty_mono j hj
          obtain ⟨g1, g2⟩ := hBch K hK hsound (by
            intro b hb
            rcases List.mem_cons.mp hb with e | h
            · rw [e]; exact hd1 m hnd
            · exact hd1 b (hopen b h)) hcov1
          constructor
          · intro x hx hin hvis
            simp only [paintBits_clearPaintDirty]
            by_cases e : x = m
            · rw [if_pos e]; exact hK
            · rw [if_neg e]
              obtain ⟨c, hc, hsub⟩ := child_of_descendant s0 hs.wf m _ x rfl hx
                (hin.resolve_left e)
              exact g1 c (by rw [← hrest]; exact hc) x hx hsub hvis
          · intro j hnej
            by_cases e : j = m
            · exact Or.inl e
            · simp only [paintBits_clearPaintDirty, if_neg e] at hnej
              apply g2 j
              rw [hbits]
              exact hnej
      · cases hpl
    · -- the traversal leaves the node
      refine ⟨1, r.state, r.stack, r.updated, specSeq_pos s0 d m, ?_, ?_, v1, ?_⟩
      · intro F
        rw [hstep F, hsh_r.increment, increment_leave s0 m r.accept ha hleaf]
      · intro hmr
        rw [hstk]
        exact pop_restores s0 r.state.store {} root m hwfl hm hmin hmr hsh_r har_r
          (cache_kept v1 _ hcache)
      · exact hB

/-! ## The whole call of `paint_partial_impl` -/

theorem le_sum_map_range (f : Nat → Nat) : ∀ (n m : Nat), m < n →
    f m ≤ ((List.range n).map f).sum := by
  intro n
  induction n with
  | zero => intro m h; omega
  | succ n ih =>
    intro m h
    rw [List.range_succ, List.map_append, List.sum_append]
    simp only [List.map_cons, List.map_nil, List.sum_cons, List.sum_nil, Nat.add_zero]
    by_cases e : m = n
    · rw [e]; omega
    · have := ih m (by omega); omega

/-- On a surface whose `split` makes progress, `paint_partial_impl(root,
surface)` runs to its end within the budget `paintBudget`. -/
theorem paint_partial_effect (surface : Surface) (hprog : SplitProgress surface) (s0 : Store)
    (root : Nat) (hs : PaintSetting s0 root) (fuel : Nat)
    (hfuel : paintBudget surface s0 root ≤ fuel) :
    ∃ res : PaintState, PaintStep s0 root { store := s0 } res ∧
      SubClean surface s0 root { store := s0 } res root ∧
      (paint_partial_impl fuel surface s0 root).store = res.store ∧
      (paint_partial_impl fuel surface s0 root).complete = true ∧
      ((paint_partial_impl fuel surface s0 root).trace = res.trace ∨
        (paint_partial_impl fuel surface s0 root).trace = res.trace ++ [Event.flush]) := by
  have hwfl := wfTree_wfLinks hs.wf
  unfold paintBudget at hfuel
  have hinner : ∀ m, m < s0.size → (specSeq s0 (fun _ => false) s0.size root).length +
      (specSeq s0 (fun _ => false) s0.size m).length ≤ fuel := by
    intro m hm
    have := le_sum_map_range (fun m => (specSeq s0 (fun _ => false) s0.size m).length) s0.size m hm
    simp only at this
    omega
  obtain ⟨n, res, stk2, upd2, hn, hruns, _, hstep, hB⟩ :=
    partial_runs surface hprog s0 root hs fuel hinner (by omega) s0.size root hs.lt (by omega)
      (Or.inl rfl) { store := s0 } false (SamePaint.paint_refl s0) rfl
      (by intro a ha; simp [insideChain] at ha)
  refine ⟨res, hstep, hB, ?_⟩
  have hb : beforePush s0 {} root root = {} := by
    simp [beforePush, insideChain, rebuiltFrom]
  have hloop : paint_partial_loop fuel surface root (traverseEnd s0 root) fuel { store := s0 } {}
      (traverseBegin s0 root) false = (res, upd2) := by
    obtain ⟨F, hF⟩ : ∃ F, fuel = F + n := ⟨fuel - n, by omega⟩
    have := hruns F
    rw [hb, ← hF] at this
    unfold traverseBegin
    rw [this]
    exact paint_partial_loop_same _ _ _ _ _ _ _ _
  unfold paint_partial_impl
  simp only [hloop, hstep.complete, Bool.true_and]
  cases upd2
  · simp [hstep.complete]
  · simp [hstep.complete]

/-! ## The paint flags after `paint_partial`, in terms of `absolute` -/

theorem clipAt_absolute (s : Store) (root : Nat) (hs : PaintSetting s root)
    (hov : noOverflow s = true) (x : Nat) (hx : x < s.size)
    (hin : x = root ∨ root ∈ parents s x) : clipAt s root x = (absolute s x).clip := by
  unfold clipAt
  rw [afterPush_absolute s (wfTree_wfLinks hs.wf) hov root hs.top _ x rfl hx hin]
  rfl

theorem whole_sound (resolution : Vec2) : SplitSound (Surface.whole resolution) :=
  { inside := fun r _ => ⟨contains_refl r, fun h => by
      have : ((Surface.whole resolution).split r).2 = Rect.none := rfl
      rw [this] at h
      exact absurd h (by decide)⟩
    covers := fun _ _ h => Or.inl h
    empty := fun _ h => h }

/-- On a surface with a sound `split`, after `paint_partial(root, surface)` no
node of the tree whose absolute clip meets the display carries a paint bit
selected by `K`, when the nodes that carried one passed the test
`paintCovered`. -/
theorem paint_partial_clears (K : Bool × Bool × Bool × Bool → Bool) (hK : K noBits = false)
    (surface : Surface) (hprog : SplitProgress surface) (hsound : SplitSound surface)
    (s : Store) (root : Nat) (hs : PaintSetting s root) (hov : noOverflow s = true)
    (hcov : ∀ x, x < s.size → (x = root ∨ root ∈ parents s x) → visibleOn surface s x = true →
      K (paintBits (s.node x).flags) = true → paintCovered s x = true)
    (fuel : Nat) (hfuel : paintBudget surface s root ≤ fuel) :
    (paint_partial_impl fuel surface s root).complete = true ∧
    (∀ x, x < s.size → (x = root ∨ root ∈ parents s x) → visibleOn surface s x = true →
      K (paintBits ((paint_partial_impl fuel surface s root).store.node x).flags) = false) ∧
    (∀ x, paintBits ((paint_partial_impl fuel surface s root).store.node x).flags =
        paintBits (s.node x).flags ∨
      (paintBits ((paint_partial_impl fuel surface s root).store.node x).flags = noBits ∧
        x < s.size ∧ (x = root ∨ root ∈ parents s x))) ∧
    SamePaint s (paint_partial_impl fuel surface s root).store := by
  obtain ⟨res, hstep, hB, hstore, hcomp, _⟩ :=
    paint_partial_effect surface hprog s root hs fuel hfuel
  have hinv : CoverInv K surface s root s := by
    intro x hx hin hvis hk
    apply hcov x hx hin _ hk
    unfold visibleOn
    rw [← clipAt_absolute s root hs hov x hx hin]
    exact hvis
  obtain ⟨hclean, _⟩ := hB K hK hsound
    (by intro b hb; rw [parents_of_root s root hs.top] at hb; simp at hb) hinv
  refine ⟨hcomp, ?_, ?_, ?_⟩
  · intro x hx hin hvis
    rw [hstore]
    apply hclean x hx hin
    unfold visibleOn at hvis
    rw [clipAt_absolute s root hs hov x hx hin]
    exact hvis
  · intro x
    rw [hstore]
    rcases hstep.bits x with e | ⟨e1, e2, e3, _⟩
    · exact Or.inl e
    · exact Or.inr ⟨e1, e2, e3⟩
  · rw [hstore]
    exact hstep.same

/-- In a forest the proper ancestors of a node are containers. -/
theorem parents_container (s : Store) (hwf : wfTree s = true) :
    ∀ (n x : Nat), (parents s x).length = n → x < s.size →
      ∀ b ∈ parents s x, s.isContainer b = true := by
  have hwfl := wfTree_wfLinks hwf
  intro n
  induction n with
  | zero =>
    intro x hlen _ b hb
    rw [List.length_eq_zero.mp hlen] at hb
    simp at hb
  | succ k ih =>
    intro x hlen hx b hb
    cases hp : s.parent x with
    | none => rw [parents_of_root s x hp] at hb; simp at hb
    | some p =>
      have hxl := (wfLinks_at hwfl hx).2.2.2.2
      have hpp := parents_of_parent s x p hp hxl
      have hps := (wfLinks_at hwfl hx).1 p hp
      rw [hpp] at hb hlen
      rcases List.mem_cons.mp hb with e | h
      · rw [e]; exact (wfTree_child hwf hx hp).1
      · simp only [List.length_cons, Nat.add_right_cancel_iff] at hlen
        exact ih p hlen hps b h

/-- The step `paint_partial` keeps the paint invariant. -/
theorem paintInv_paint_partial (surface : Surface) (hprog : SplitProgress surface)
    (hsound : SplitSound surface) (s : Store) (root : Nat) (hs : PaintSetting s root)
    (hov : noOverflow s = true) (hout : ∀ x, s.size ≤ x → s.parent x = Option.none)
    (fuel : Nat) (hfuel : paintBudget surface s root ≤ fuel)
    (hflag : ∀ x, x < s.size → (x = root ∨ root ∈ parents s x) → s.paintFlagged x = true →
      visibleOn surface s x = true ∧ s.paintWalked x = true)
    (hinv : PaintInv s) : PaintInv (paint_partial_impl fuel surface s root).store := by
  have hwfl := wfTree_wfLinks hs.wf
  have hK : ∀ f : Flags, (fun b : Bool × Bool × Bool × Bool => b.1 || b.2.2.1) (paintBits f)
      = (f.PaintDirty || f.PaintChildDirty) := fun f => rfl
  obtain ⟨_, hclean, hframe, hsame⟩ :=
    paint_partial_clears (fun b => b.1 || b.2.2.1) rfl surface hprog hsound s root hs hov
      (by
        intro x hx hin _ hk
        have hfx : s.paintFlagged x = true := by
          rw [hK] at hk
          simpa [Store.paintFlagged, Store.isPaintDirty] using hk
        rw [paintCovered_iff]
        refine ⟨x, Or.inl rfl, ?_⟩
        intro b hb
        rcases List.mem_cons.mp hb with e | h
        · rw [e]; exact (hflag x hx hin hfx).2
        · have hfb := hinv x b h hfx
          have hcb := parents_container s hs.wf _ x rfl hx b h
          simp only [Store.anyPaintFlag, Bool.or_eq_true] at hfb
          simp only [Store.paintWalked, Store.isChildPaintDirty, hcb, Bool.true_and,
            Bool.or_eq_true]
          rcases hfb with (h1 | h1) | h1
          · exact Or.inl h1
          · exact Or.inr (Or.inl h1)
          · exact Or.inr (Or.inr h1))
      fuel hfuel
  have hpar : ∀ x, parents (paint_partial_impl fuel surface s root).store x = parents s x :=
    fun x => hsame.paint_shape.parents x
  have hfl : ∀ x, (paint_partial_impl fuel surface s root).store.paintFlagged x = true →
      s.paintFlagged x = true ∧ ¬ (x < s.size ∧ (x = root ∨ root ∈ parents s x)) := by
    intro x hx
    have hbits : paintBits ((paint_partial_impl fuel surface s root).store.node x).flags
        = paintBits (s.node x).flags := by
      rcases hframe x with h | h
      · exact h
      · exfalso
        have : (paint_partial_impl fuel surface s root).store.paintFlagged x = false := by
          have h1 := h.1
          simp only [paintBits, noBits, Prod.mk.injEq] at h1
          simp [Store.paintFlagged, Store.isPaintDirty, h1.1, h1.2.2.1]
        rw [this] at hx; exact absurd hx (by simp)
    have hsx : s.paintFlagged x = true := by
      rw [← (paintFlagged_of_paintBits hbits).1]; exact hx
    refine ⟨hsx, ?_⟩
    rintro ⟨hlt, hin⟩
    have hc : (fun b : Bool × Bool × Bool × Bool => b.1 || b.2.2.1)
        (paintBits ((paint_partial_impl fuel surface s root).store.node x).flags) = false :=
      hclean x hlt hin (hflag x hlt hin hsx).1
    rw [hK] at hc
    simp only [Store.paintFlagged, Store.isPaintDirty] at hx
    rw [hc] at hx; exact absurd hx (by simp)
  intro x a ha hx
  rw [hpar] at ha
  obtain ⟨hsx, hnot⟩ := hfl x hx
  have hxs : x < s.size := by
    by_contra hge
    rw [parents_of_root s x (hout x (Nat.le_of_not_lt hge))] at ha
    simp at ha
  have hxl := (wfLinks_at hwfl hxs).2.2.2.2
  have hsa := hinv x a ha hsx
  have hbits : paintBits ((paint_partial_impl fuel surface s root).store.node a).flags
      = paintBits (s.node a).flags := by
    rcases hframe a with h | h
    · exact h
    · exfalso
      apply hnot
      refine ⟨hxs, Or.inr ?_⟩
      rcases h.2.2 with e | h2
      · rw [← e]; exact ha
      · exact parents_trans s x a root hxl ha h2
  rw [(paintFlagged_of_paintBits hbits).2]
  exact hsa

/-- The nodes beyond the two nodes of `shownDirtyChild` have no parent. -/
theorem shownDirtyChild_outside (x : Nat) (hx : shownDirtyChild.size ≤ x) :
    shownDirtyChild.parent x = Option.none := by
  have hsome : (insert twoNodes 0 Option.none 1).isSome = true := by decide
  cases hins : insert twoNodes 0 Option.none 1 with
  | none => rw [hins] at hsome; simp at hsome
  | some t =>
    have hsize : shownDirtyChild.size = 2 := by decide
    rw [hsize] at hx
    have hdef : shownDirtyChild = Widget.repaint
        (setArea (setArea t 0 ⟨⟨0, 0⟩, ⟨3, 3⟩⟩).1 1 ⟨⟨0, 0⟩, ⟨1, 1⟩⟩).1 1 := by
      unfold shownDirtyChild push_back
      rw [hins]; rfl
    rw [hdef, (sameShape_widget_repaint _ 1).parent, (sameShape_setArea _ 1 _).parent,
      (sameShape_setArea _ 0 _).parent]
    obtain ⟨_, hpar, _⟩ := insert_fields twoNodes t 0 1 Option.none hins
    unfold Store.parent
    rw [hpar x, if_neg (by omega)]
    unfold twoNodes
    simp only
    rw [if_neg (by omega)]
    rfl

/-! ## Claims about insertion, components and positions -/

/-- C1 (defect of `Container::insert`): the unattached root `a` of the tree
`a > b` is a proper ancestor of `b`, yet `b.insert(b.end(), a)` passes every
assertion, the pedantic cycle check included (it walks `parents(child)`, which
is empty for an unattached child), and links `a` under `b`: afterwards each of
the two nodes is the parent of the other. -/
theorem insert_links_unattached_root_under_descendant :
    nestedContainers.parent 0 = Option.none ∧
    is_transitive_parent nestedContainers 0 1 = true ∧
    (insert nestedContainers 1 Option.none 0).map (fun t => (t.parent 0, t.parent 1)) =
      some (some 1, some 0) := by
  decide

/-- C2 (defect of `NodeImpl::attachComponent`): after components of the types
1, 3 and 2 are constructed in this order on one owner, the component of type 2
(at offset 24) is attached, but `find(2)` returns null: the loop links it behind
the component of the greater type 3, and `find` stops at the first greater
type. -/
theorem find_misses_attached_type :
    (attachAll {} 8 [1, 3, 2]).map (fun o => ((o.comp 24).type, find o 2)) =
      some (2, Option.none) := by
  decide

/-- C3 (same defect of `NodeImpl::attachComponent`): constructing components of
the types 1, 3, 2 yields the stranger chain 1, 3, 2, which is not ascending,
and constructing a second component of type 2 yields 1, 3, 2, 2, where type 2
occurs twice. -/
theorem stranger_chain_not_ascending :
    (attachAll {} 8 [1, 3, 2]).map (fun o => (components o).map (fun c => (o.comp c).type)) =
      some [1, 3, 2] ∧
    (attachAll {} 8 [1, 3, 2, 2]).map
      (fun o => (components o).map (fun c => (o.comp c).type)) = some [1, 3, 2, 2] := by
  decide

/-- C4: in a well formed store without coordinate overflow, at every visit of
the loop over `traverse(root)` that pushes on pre visits and pops on post
visits, starting with a fresh rebuilder at a root without parent, the clip and
the translation of the rebuilder are those of `absolute(current)`. -/
theorem rebuilder_matches_absolute (s : Store) (root fuel : Nat) (hroot : root < s.size)
    (hpar : s.parent root = Option.none) (hwf : wfLinks s = true)
    (hov : noOverflow s = true) :
    ∀ v ∈ rebuildTrace s root fuel,
      v.stack.clip = (absolute v.store v.node).clip ∧
        v.stack.translation = (absolute v.store v.node).translation := by
  intro v hv
  have h := rebuildLoop_sound (traverseEnd s root) fuel s {} (traverseBegin s root) hwf hov
    (by
      simp only [RebuildInv, traverseBegin, if_neg (pre_or_leaf_ne_post s root)]
      refine ⟨hroot, ?_, ?_, trivial⟩
      · rw [parents_of_root s root hpar]; simp
      · simp only [stackBefore, hpar]) v hv
  rw [h]
  exact ⟨rfl, rfl⟩

set_option maxRecDepth 100000 in
/-- Witness of C4: the tree of the unit test satisfies the hypotheses, its loop
makes the six visits Pre a, Pre b, Leaf c1, Leaf c2, Post b, Post a, and at
each of them the rebuilder agrees with `absolute`. -/
theorem rebuilder_matches_absolute_witness :
    (0 < positionTestTree.size ∧ positionTestTree.parent 0 = Option.none ∧
      wfLinks positionTestTree = true ∧ noOverflow positionTestTree = true) ∧
    (rebuildTrace positionTestTree 0 10).map (fun v => (v.node, v.state)) =
      [(0, AcceptState.Pre), (1, AcceptState.Pre), (2, AcceptState.Leaf),
        (3, AcceptState.Leaf), (1, AcceptState.Post), (0, AcceptState.Post)] ∧
    ∀ v ∈ rebuildTrace positionTestTree 0 10,
      v.stack.clip = (absolute v.store v.node).clip ∧
        v.stack.translation = (absolute v.store v.node).translation :=
  ⟨by decide, by decide,
    rebuilder_matches_absolute positionTestTree 0 10 (by decide) (by decide) (by decide)
      (by decide)⟩

/-- C5 as stated fails: in the chain `a > b > c1` of `overflowTree` the area of
`b` translated by the origin of `a` leaves the range of `Point`; `absolute`
yields the non-empty clip (20000,0)-(25000,10) for `c1`, while the intersection
of the translated areas is empty. -/
theorem absolute_differs_from_spec_on_overflow :
    (absolute overflowTree 2).clip = ⟨⟨20000, 0⟩, ⟨25000, 10⟩⟩ ∧
    specClip (chainAreas overflowTree 2) = ⟨⟨40000, 0⟩, ⟨25000, 10⟩⟩ ∧
    absolute overflowTree 2 ≠
      { clip := specClip (chainAreas overflowTree 2),
        translation := specTranslation (chainAreas overflowTree 2) } := by
  decide

/-- C5, amended: when no coordinate sum along the ancestor chain of `n`
overflows `Point`, `absolute(n).translation` is the sum of `area().low` over
`n` and its ancestors and `absolute(n).clip` is the intersection of the areas
of `n` and of its ancestors, each translated by the sum of `area().low` of its
own proper ancestors. -/
theorem absolute_eq_spec (s : Store) (i : Nat) (h : chainFits (chainAreas s i) = true) :
    absolute s i =
      { clip := specClip (chainAreas s i), translation := specTranslation (chainAreas s i) } := by
  unfold chainAreas at h ⊢
  simp only [List.map_cons, chainFits, Bool.and_eq_true] at h
  unfold absolute
  rw [absoluteLoop_spec s (parents s i) _ _ h.1.2 h.1.2 h.2]
  simp [specClip, specTranslation, translatedAreas, sumLowX_cons, sumLowY_cons, Rect.shift]

/-- Witness of C5: the two examples of the claim, the grandchild `c1` of the
unit test without and with active clipping. -/
theorem absolute_eq_spec_witness :
    (chainFits (chainAreas positionTestTree 2) = true ∧
      (absolute positionTestTree 2).clip = ⟨⟨30, 30⟩, ⟨80, 80⟩⟩) ∧
    (chainFits (chainAreas clippingTestTree 2) = true ∧
      (absolute clippingTestTree 2).clip = ⟨⟨0, 0⟩, ⟨60, 60⟩⟩) :=
  ⟨⟨by decide, by rw [absolute_eq_spec positionTestTree 2 (by decide)]; decide⟩,
    ⟨by decide, by rw [absolute_eq_spec clippingTestTree 2 (by decide)]; decide⟩⟩

/-! ## Claims about the dirty flags -/

/-- C7 as stated fails: in `oneDirty` the parent `P` of `n` already carries
`PaintChildDirty`, so the path of the claim is `[P]`; `n.setArea` with a new
value nevertheless changes the flags of `R`, which lies outside that path (it
receives `PaintChildDirtyDiverged`). -/
theorem setArea_changes_flag_outside_claimed_path :
    oneDirty.isAttached 2 = true ∧ (oneDirty.node 2).area ≠ ⟨⟨0, 0⟩, ⟨3, 8⟩⟩ ∧
    repaintPath oneDirty 2 = [1] ∧
    ((setArea oneDirty 2 ⟨⟨0, 0⟩, ⟨3, 8⟩⟩).1.node 0).flags ≠ (oneDirty.node 0).flags := by
  decide

/-- C7, amended: for a node `n` with a complete ancestor chain, after a value
changing `setArea`, `setPosition` or `setSize` on the attached `n` every
ancestor from the parent up to and including the nearest one that already
carried `PaintDirty`, or that lies above the parent and already carried
`PaintChildDirty`, carries `PaintDirty` or `PaintChildDirty`, and no flag of a
node outside that path changes; after `Widget::repaint` on a node that was not
`PaintDirty` the same holds for the path that ends at the nearest ancestor
that already carried `PaintDirty` or `PaintChildDirty`, `n` itself excepted. -/
theorem paint_flags_after_change (s : Store) (n : Nat)
    (hlen : (parents s n).length < s.size) :
    (s.isAttached n = true →
      ∀ s' : Store,
        ((∃ area, (s.node n).area ≠ area ∧ s' = (setArea s n area).1) ∨
         (∃ relative, (s.node n).area.low ≠ relative ∧ s' = (setPosition s n relative).1) ∨
         (∃ size, (s.node n).area.size ≠ size ∧ s' = (setSize s n size).1)) →
        (∀ a ∈ setterPath s n, s'.paintFlagged a = true) ∧
        (∀ j, j ∉ setterPath s n → (s'.node j).flags = (s.node j).flags)) ∧
    (s.isPaintDirty n = false →
      (∀ a ∈ repaintPath s n, (Widget.repaint s n).paintFlagged a = true) ∧
      (∀ j, j ≠ n → j ∉ repaintPath s n →
        ((Widget.repaint s n).node j).flags = (s.node j).flags)) := by
  refine ⟨fun hatt s' hs' => ?_, fun hpd => ?_⟩
  · rcases hs' with ⟨area, hne, rfl⟩ | ⟨relative, hne, rfl⟩ | ⟨size, hne, rfl⟩
    · simp only [setArea, if_pos hne]
      exact setter_spec s n (fun _ => area) hlen hatt
    · simp only [setPosition, if_pos hne]
      exact setter_spec s n (fun x => x.area.relocate relative) hlen hatt
    · simp only [setSize, if_pos hne]
      exact setter_spec s n (fun x => x.area.resize size) hlen hatt
  · obtain ⟨h1, _, h3⟩ := widget_repaint_spec s n hlen hpd
    exact ⟨h1, h3⟩

set_option maxRecDepth 100000 in
/-- Witness of C7: `n.setArea` in `oneDirty`; the path is `[P, R]`. -/
theorem paint_flags_after_change_witness :
    ((parents oneDirty 2).length < oneDirty.size ∧ oneDirty.isAttached 2 = true ∧
      (oneDirty.node 2).area ≠ ⟨⟨0, 0⟩, ⟨3, 8⟩⟩ ∧ setterPath oneDirty 2 = [1, 0]) ∧
    ((∀ a ∈ setterPath oneDirty 2,
        (setArea oneDirty 2 ⟨⟨0, 0⟩, ⟨3, 8⟩⟩).1.paintFlagged a = true) ∧
      (∀ j, j ∉ setterPath oneDirty 2 →
        ((setArea oneDirty 2 ⟨⟨0, 0⟩, ⟨3, 8⟩⟩).1.node j).flags = (oneDirty.node j).flags)) :=
  ⟨by decide,
    (paint_flags_after_change oneDirty 2 (by decide)).1 (by decide) _
      (Or.inl ⟨⟨⟨0, 0⟩, ⟨3, 8⟩⟩, by decide, rfl⟩)⟩

/-! ## Claims about partial painting -/

set_option maxRecDepth 100000 in
/-- C9 (code defect).  On a 16 x 16 `BitRasterSurface` with a buffer of 16
bytes, `paint_partial` on the tree `R > P > {n, w}` with `n` at (0,0)-(3,7) and
`w` at (4,0)-(7,15), both `PaintDirty`, runs to its end, opens the single
window (0,0)-(7,7) and clears `PaintDirty` of `w`, whose visible region
(4,0)-(7,15) is not contained in that window. -/
theorem paint_partial_clears_unpainted_widget :
    twoDirty.isPaintDirty 3 = true ∧
    (absolute twoDirty 3).clip = ⟨⟨4, 0⟩, ⟨7, 15⟩⟩ ∧
    (paint_partial_impl 20 (Surface.bitCompressed ⟨16, 16⟩ 16) twoDirty 0).complete = true ∧
    (paint_partial_impl 20 (Surface.bitCompressed ⟨16, 16⟩ 16) twoDirty 0).trace
      = [Event.begin ⟨⟨0, 0⟩, ⟨7, 7⟩⟩,
          Event.paint 2 ⟨0, 0⟩ ⟨⟨0, 0⟩, ⟨3, 7⟩⟩,
          Event.paint 3 ⟨4, 0⟩ ⟨⟨4, 0⟩, ⟨7, 7⟩⟩,
          Event.finish, Event.flush] ∧
    (paint_partial_impl 20 (Surface.bitCompressed ⟨16, 16⟩ 16)
      twoDirty 0).store.isPaintDirty 3 = false ∧
    Rect.contains ⟨⟨0, 0⟩, ⟨7, 7⟩⟩ (absolute twoDirty 3).clip = false := by
  decide

/-- C10.  In a tree with well formed links whose nodes carry no paint flag,
after `w.repaint()` on a widget `w` and `paint_partial(root, surface)` on the
root of the tree, with a surface whose `split` returns sub-rectangles of the
requested area, every window passed to `surface.begin` and every `Canvas` clip
is contained in the clip of `absolute(w)`, and `paint` is called on no widget
other than `w`; this holds for every iteration budget. -/
theorem paint_partial_single_widget_within (surface : Surface) (s : Store) (root w fuel : Nat)
    (hwf : wfLinks s = true) (hty : areasTyped s = true) (hclean : noPaintFlags s = true)
    (hroot : root < s.size) (hpar : s.parent root = Option.none)
    (hws : w < s.size) (hw : s.isWidget w = true) (hsplit : SplitsInside surface) :
    ∀ e ∈ (paint_partial_impl fuel surface (Widget.repaint s w) root).trace,
      Event.within (absolute s w).clip w e := by
  have hsh := sameShape_widget_repaint s w
  obtain ⟨har, hfl⟩ := widget_repaint_clean s w hwf hclean hws
  have habs := absolute_congr s _ hsh har w
  rw [← habs]
  apply paint_partial_impl_within surface (Widget.repaint s w) root w fuel
  · rw [hsh.wfLinks]; exact hwf
  · rw [areasTyped_congr s _ hsh.1 har]; exact hty
  · intro j hj; rw [hsh.1] at hj; exact hfl j hj
  · rw [hsh.1]; exact hroot
  · rw [hsh.parent]; exact hpar
  · rw [hsh.1]; exact hws
  · rw [hsh.isWidget]; exact hw
  · exact hsplit

set_option maxRecDepth 100000 in
/-- Witness of C10: the painted tree `R > P > {n, w}`, `w.repaint()`, and
`paint_partial(R, surface)` on a 16 x 16 surface with the `split` of the base
class; the calls are `begin`, `paint` of `w`, `end`, `flush`. -/
theorem paint_partial_single_widget_within_witness :
    (paint_partial_impl 20 (Surface.whole ⟨16, 16⟩) (Widget.repaint paintedTree 3) 0).trace
      = [Event.begin ⟨⟨4, 0⟩, ⟨7, 15⟩⟩, Event.paint 3 ⟨4, 0⟩ ⟨⟨4, 0⟩, ⟨7, 15⟩⟩,
          Event.finish, Event.flush] ∧
    ∀ e ∈ (paint_partial_impl 20 (Surface.whole ⟨16, 16⟩) (Widget.repaint paintedTree 3)
        0).trace, Event.within (absolute paintedTree 3).clip 3 e := by
  refine ⟨by decide, ?_⟩
  apply paint_partial_single_widget_within (Surface.whole ⟨16, 16⟩) paintedTree 0 3 20
  · decide
  · decide
  · decide
  · decide
  · decide
  · decide
  · decide
  · intro r _
    refine ⟨contains_refl r, fun h => ?_⟩
    have hn : Rect.none.nonempty = false := by decide
    simp only [Surface.whole, Surface.wholeSplit, hn] at h
    exact absurd h (by simp)

/-! ## Claims about the layout flags -/

/-- C6.  In every tree state reached from freshly constructed containers and
widgets through `insert`, `push_back`, `push_front`, `erase`, `detach`,
`setConstraints`, `reflow` and `layout`, every proper ancestor of a node that
carries `LayoutDirty` carries `LayoutDirty` or `LayoutChildDirty`. -/
theorem layout_dirty_covered_of_reach (hooks : Hooks) (s : Store)
    (h : LayoutReach hooks s) : LayoutDirtyCovered s := by
  have hinv : LayoutInv s := by
    induction h with
    | fresh s hs =>
      intro x p _ hp
      rcases hs x with e | e <;>
        simp [Store.parent, e, Node.freshContainer, Node.freshWidget] at hp
    | insert s t c pos child _ hc hlen hnc hins ih =>
      exact layoutInv_insert s t c child pos hins hc hlen hnc ih
    | push_back s t c child _ hc hlen hnc hins ih =>
      exact layoutInv_insert s t c child Option.none hins hc hlen hnc ih
    | push_front s t c child _ hc hlen hnc hins ih =>
      exact layoutInv_insert s t c child _ hins hc hlen hnc ih
    | erase s t c child r _ hlen her ih => exact layoutInv_erase s t c child r her hlen ih
    | detach s t i _ hlen hdet ih =>
      unfold detach at hdet
      split at hdet
      · rename_i p hp
        cases he : Cui.erase s p i with
        | none => rw [he] at hdet; simp at hdet
        | some tr =>
          rw [he] at hdet
          simp only [Option.map_some', Option.some.injEq] at hdet
          rw [← hdet]
          exact layoutInv_erase s tr.1 p i tr.2 he (hlen p hp) ih
      · simp only [Option.some.injEq] at hdet; rw [← hdet]; exact ih
    | setConstraints s n c _ hlen ih => exact layoutInv_setConstraints s n c hlen ih
    | reflow s n _ hlen ih => exact layoutInv_reflow s n hlen ih
    | layout s t fuel surface node _ hwf hn ht ih =>
      exact layoutInv_layout hooks fuel surface s t node hwf hn ih ht
  exact layoutDirtyCovered_of_layoutInv hinv

set_option maxRecDepth 100000 in
/-- Witness of C6: `Container x; Widget d(x); layout(x, surface);
d.setConstraints({5, 5});` leaves `d` with `LayoutDirty` and `x` with
`LayoutChildDirty`. -/
theorem layout_dirty_covered_of_reach_witness :
    LayoutReach Hooks.base constrainedTwo ∧ constrainedTwo.isLayoutDirty 1 = true ∧
      parents constrainedTwo 1 = [0] ∧ LayoutDirtyCovered constrainedTwo := by
  have h0 : LayoutReach Hooks.base twoNodes := by
    apply LayoutReach.fresh
    intro i
    by_cases hi : i = 0
    · left; simp [twoNodes, hi]
    · right; simp [twoNodes, hi]
  have hsome : (push_back twoNodes 0 1).isSome = true := by decide
  have hins : push_back twoNodes 0 1 = some attachedTwo := by
    unfold attachedTwo
    cases h : push_back twoNodes 0 1 with
    | none => rw [h] at hsome; simp at hsome
    | some t => rfl
  have h1 : LayoutReach Hooks.base attachedTwo :=
    LayoutReach.push_back twoNodes attachedTwo 0 1 h0 (by decide) (by decide) (by decide) hins
  have hsome2 : (layout Hooks.base 10 (Surface.whole ⟨10, 10⟩) attachedTwo 0).isSome = true := by
    decide
  have hlay : layout Hooks.base 10 (Surface.whole ⟨10, 10⟩) attachedTwo 0 = some laidOutTwo := by
    unfold laidOutTwo
    cases h : layout Hooks.base 10 (Surface.whole ⟨10, 10⟩) attachedTwo 0 with
    | none => rw [h] at hsome2; simp at hsome2
    | some t => rfl
  have h2 : LayoutReach Hooks.base laidOutTwo :=
    LayoutReach.layout attachedTwo laidOutTwo 10 (Surface.whole ⟨10, 10⟩) 0 h1 (by decide)
      (by decide) hlay
  have h3 : LayoutReach Hooks.base constrainedTwo :=
    LayoutReach.setConstraints laidOutTwo 1 ⟨5, 5⟩ h2 (by decide)
  exact ⟨h3, by decide, by decide, layout_dirty_covered_of_reach Hooks.base constrainedTwo h3⟩

/-! ## Claims about the setters and `insert` -/

/-- Counterexample to C16 as stated: `setArea` on the attached widget `w` of
the painted tree `R > P > {n, w}` returns true and leaves `w` without
`PaintDirty`; its parent `P` carries `PaintDirty` and `PaintRepositioned`. -/
theorem setArea_leaves_attached_node_clean :
    (setArea paintedTree 3 ⟨⟨20, 20⟩, ⟨25, 25⟩⟩).2 = true ∧
    paintedTree.parent 3 = some 1 ∧
    (setArea paintedTree 3 ⟨⟨20, 20⟩, ⟨25, 25⟩⟩).1.isPaintDirty 3 = false ∧
    (setArea paintedTree 3 ⟨⟨20, 20⟩, ⟨25, 25⟩⟩).1.isPaintRepositioned 3 = false ∧
    (setArea paintedTree 3 ⟨⟨20, 20⟩, ⟨25, 25⟩⟩).1.isPaintDirty 1 = true ∧
    (setArea paintedTree 3 ⟨⟨20, 20⟩, ⟨25, 25⟩⟩).1.isPaintRepositioned 1 = true := by
  decide

/-- C16 (amended).  After `setArea`, `setPosition` or `setSize` changed the
geometry of a node `n` whose chain of ancestors ends: when `n` is attached, its
parent carries `PaintDirty` and `PaintRepositioned` and the flags of `n` are
unchanged; when `n` has no parent, `n` carries `PaintRepositioned`, and
`PaintDirty` unless it carried `PaintRepositioned` without `PaintDirty`
before. -/
theorem geometry_change_flags (s : Store) (n : Nat) (hlen : (parents s n).length < s.size) :
    (∀ area, (setArea s n area).2 = true → GeometryFlagged s (setArea s n area).1 n) ∧
    (∀ relative, (setPosition s n relative).2 = true →
      GeometryFlagged s (setPosition s n relative).1 n) ∧
    (∀ size, (setSize s n size).2 = true → GeometryFlagged s (setSize s n size).1 n) := by
  refine ⟨fun area h => ?_, fun relative h => ?_, fun size h => ?_⟩
  · unfold setArea at h ⊢
    split
    · exact geometryFlagged_modify_area s n _ hlen
    · rename_i hne; rw [if_neg hne] at h; simp at h
  · unfold setPosition at h ⊢
    split
    · exact geometryFlagged_modify_area s n _ hlen
    · rename_i hne; rw [if_neg hne] at h; simp at h
  · unfold setSize at h ⊢
    split
    · exact geometryFlagged_modify_area s n _ hlen
    · rename_i hne; rw [if_neg hne] at h; simp at h

/-- Witness of C16 (amended): the attached widget `w` of the painted tree and
the widget without parent. -/
theorem geometry_change_flags_witness :
    (parents paintedTree 3).length < paintedTree.size ∧
    GeometryFlagged paintedTree (setArea paintedTree 3 ⟨⟨20, 20⟩, ⟨25, 25⟩⟩).1 3 :=
  ⟨by decide, (geometry_change_flags paintedTree 3 (by decide)).1 _ (by decide)⟩

/-- Counterexample to C17 as stated: on a widget at `{32767, 0}`,
`setSize({2, 2})` returns true and `area().size()` is `{0, 0}` afterwards. -/
theorem setSize_overflow_loses_size :
    (edgeWidget.node 0).area.low = ⟨32767, 0⟩ ∧
    (setSize edgeWidget 0 ⟨2, 2⟩).2 = true ∧
    ((setSize edgeWidget 0 ⟨2, 2⟩).1.node 0).area.size = ⟨0, 0⟩ := by
  decide

/-- C17 (amended).  For each of `setArea`, `setPosition`, `setSize` and
`setConstraints`: when the argument equals the current area, `area().low`,
`area().size()` or `constraints()`, the call returns false and the store is
unchanged; otherwise it returns true and the accessor returns the new value,
for `setSize` when both components of the size are positive and the resized
rectangle stays within the range of `Point`. -/
theorem setters_change_detection (s : Store) (n : Nat) :
    (∀ area, ((s.node n).area = area → setArea s n area = (s, false)) ∧
      ((s.node n).area ≠ area →
        (setArea s n area).2 = true ∧ ((setArea s n area).1.node n).area = area)) ∧
    (∀ relative, ((s.node n).area.low = relative → setPosition s n relative = (s, false)) ∧
      ((s.node n).area.low ≠ relative →
        (setPosition s n relative).2 = true ∧
          ((setPosition s n relative).1.node n).area.low = relative)) ∧
    (∀ size, ((s.node n).area.size = size → setSize s n size = (s, false)) ∧
      ((s.node n).area.size ≠ size →
        (setSize s n size).2 = true ∧
          (0 < size.x → 0 < size.y → inPoint size.x = true → inPoint size.y = true →
            inPoint (s.node n).area.low.x = true → inPoint (s.node n).area.low.y = true →
            (s.node n).area.low.x + size.x ≤ 32768 → (s.node n).area.low.y + size.y ≤ 32768 →
            ((setSize s n size).1.node n).area.size = size))) ∧
    (∀ c, ((s.node n).constraints = c → setConstraints s n c = (s, false)) ∧
      ((s.node n).constraints ≠ c →
        (setConstraints s n c).2 = true ∧ ((setConstraints s n c).1.node n).constraints = c)) := by
  refine ⟨fun area => ⟨fun h => ?_, fun h => ?_⟩, fun relative => ⟨fun h => ?_, fun h => ?_⟩,
    fun size => ⟨fun h => ?_, fun h => ?_⟩, fun c => ⟨fun h => ?_, fun h => ?_⟩⟩
  · simp [setArea, h]
  · simp only [setArea, if_pos h, true_and]
    rw [(sameData_repaint_repositioned _ n n).1]
    simp [modify_node]
  · simp [setPosition, h]
  · simp only [setPosition, if_pos h, true_and]
    rw [(sameData_repaint_repositioned _ n n).1]
    simp [modify_node, Rect.relocate]
  · simp [setSize, h]
  · simp only [setSize, if_pos h, true_and]
    intro hx hy hvx hvy hlx hly hfx hfy
    rw [(sameData_repaint_repositioned _ n n).1]
    simp only [modify_node, if_true]
    exact resize_size _ _ hx hy hvx hvy hlx hly hfx hfy
  · simp [setConstraints, h]
  · simp only [setConstraints, if_pos h, true_and]
    rw [(sameData_reflow _ n n).2]
    simp [modify_node]

/-- Witness of C17 (amended): `Widget w; w.setSize({2, 3});` returns true and
`area().size()` is `{2, 3}` afterwards. -/
theorem setters_change_detection_witness :
    (setSize oneWidget 0 ⟨2, 3⟩).2 = true ∧
    ((setSize oneWidget 0 ⟨2, 3⟩).1.node 0).area.size = ⟨2, 3⟩ :=
  ⟨(((setters_change_detection oneWidget 0).2.2.1 ⟨2, 3⟩).2 (by decide)).1,
    (((setters_change_detection oneWidget 0).2.2.1 ⟨2, 3⟩).2 (by decide)).2
      (by decide) (by decide) (by decide) (by decide) (by decide) (by decide) (by decide)
      (by decide)⟩

/-- C18 (code defect).  `Widget w; w.setSize({0, 5}); w.setSize({0, 5});`: the
second call returns true again (the area is empty, so `area().size()` is
`{0, 0}`), while the flags and the area of `w` stay as the first call left
them. -/
theorem setSize_twice_reports_change :
    (setSize oneWidget 0 ⟨0, 5⟩).2 = true ∧
    ((setSize oneWidget 0 ⟨0, 5⟩).1.node 0).area.size = ⟨0, 0⟩ ∧
    (setSize (setSize oneWidget 0 ⟨0, 5⟩).1 0 ⟨0, 5⟩).2 = true ∧
    ((setSize (setSize oneWidget 0 ⟨0, 5⟩).1 0 ⟨0, 5⟩).1.node 0).flags
      = ((setSize oneWidget 0 ⟨0, 5⟩).1.node 0).flags ∧
    ((setSize (setSize oneWidget 0 ⟨0, 5⟩).1 0 ⟨0, 5⟩).1.node 0).area
      = ((setSize oneWidget 0 ⟨0, 5⟩).1.node 0).area := by
  decide

/-- C20.  After a successful `c.insert(pos, child)` the parent of `child` is
`c`, its constraints are `Vec2::max()`, its area is `Rect::none()`, and `c`
carries `LayoutDirty`. -/
theorem insert_resets_child (s t : Store) (c child : Nat) (pos : Option Nat)
    (h : insert s c pos child = some t) :
    t.parent child = some c ∧ (t.node child).constraints = Vec2.max ∧
      (t.node child).area = Rect.none ∧ t.isLayoutDirty c = true := by
  obtain ⟨X, hX, h1, h2, h3⟩ := insert_child_fields s t c child pos h
  rw [hX]
  refine ⟨?_, ?_, ?_, reflow_dirty X c⟩
  · simp only [Store.parent, reflow_parent]; exact h1
  · rw [(sameData_reflow X c child).2]; exact h2
  · rw [(sameData_reflow X c child).1]; exact h3

/-- Witness of C20: `Container x; Widget d; x.insert(x.end(), d);`. -/
theorem insert_resets_child_witness :
    insert twoNodes 0 Option.none 1 = some attachedTwo ∧
    (attachedTwo.parent 1 = some 0 ∧ (attachedTwo.node 1).constraints = Vec2.max ∧
      (attachedTwo.node 1).area = Rect.none ∧ attachedTwo.isLayoutDirty 0 = true) := by
  have hsome : (insert twoNodes 0 Option.none 1).isSome = true := by decide
  have hins : insert twoNodes 0 Option.none 1 = some attachedTwo := by
    unfold attachedTwo push_back
    cases h : insert twoNodes 0 Option.none 1 with
    | none => rw [h] at hsome; simp at hsome
    | some t => rfl
  exact ⟨hins, insert_resets_child twoNodes attachedTwo 0 1 Option.none hins⟩

/-! ## Claims about the list of children -/

/-- C19: let `L` be the list of children of the container `c` and `child` an
unattached node other than `c`, without sibling links.  `insert` at the
position of `L[i]` (at `end()` for `i = L.length`) succeeds, returns an
iterator that designates `child`, and leaves the list of children
`L[0..i) ++ [child] ++ L[i..]`, from which removing `child` gives `L` back;
`push_back` leaves `L ++ [child]` and `push_front` leaves `[child] ++ L`. -/
theorem insert_child_list (s : Store) (c child : Nat) (L : List Nat)
    (hL : childList s c L = true) (hc : c < s.size) (hin : ∀ x ∈ L, x < s.size)
    (hne : child ≠ c) (hpar : s.parent child = Option.none)
    (hnx : (s.node child).next_sibling = Option.none)
    (hpv : (s.node child).prev_sibling = Option.none) :
    (∀ i, i ≤ L.length → ∃ t, Container.insert s c L[i]? child = some (t, child) ∧
      children t c = L.take i ++ child :: L.drop i ∧
      (children t c).filter (fun x => x != child) = L) ∧
    (∃ t, push_back s c child = some t ∧ children t c = L ++ [child]) ∧
    (∃ t, push_front s c child = some t ∧ children t c = child :: L) := by
  obtain ⟨hfc, _, _, hnd, hcL⟩ := childList_unfold hL
  have hnot : child ∉ L := by
    intro hm
    have := childList_parent hL child hm
    rw [hpar] at this
    cases this
  have hlen : L.length < s.size := length_lt_of_nodup L s.size c hnd hin hc hcL
  refine ⟨?_, ?_, ?_⟩
  · intro i _
    have hsplit : L.take i ++ L.drop i = L := List.take_append_drop i L
    obtain ⟨t, ht, hch⟩ := insert_between s c child (L.take i) (L.drop i)
      (by rw [hsplit]; exact hL) (by rw [hsplit]; exact hlen) hne
      (by rw [hsplit]; exact hnot) hpar hnx hpv
    rw [List.head?_drop] at ht
    refine ⟨t, ?_, hch, ?_⟩
    · simp only [Container.insert, ht, Option.map_some']
    · rw [hch]
      have hkeep : ∀ M : List Nat, (∀ x ∈ M, x ∈ L) →
          M.filter (fun x => x != child) = M := by
        intro M hM
        rw [List.filter_eq_self]
        intro x hx
        have : x ≠ child := fun e => hnot (by rw [← e]; exact hM x hx)
        simpa using this
      rw [List.filter_append, List.filter_cons]
      simp only [bne_self_eq_false, Bool.false_eq_true, if_false]
      rw [hkeep _ (fun x hx => List.mem_of_mem_take hx),
        hkeep _ (fun x hx => List.mem_of_mem_drop hx), hsplit]
  · obtain ⟨t, ht, hch⟩ := insert_between s c child L []
      (by rw [List.append_nil]; exact hL) (by rw [List.append_nil]; exact hlen) hne
      (by rw [List.append_nil]; exact hnot) hpar hnx hpv
    exact ⟨t, ht, hch⟩
  · obtain ⟨t, ht, hch⟩ := insert_between s c child [] L hL hlen hne hnot hpar hnx hpv
    refine ⟨t, ?_, hch⟩
    unfold push_front
    rw [hfc]; exact ht

/-- C19, witness: the theorem applies to `Container a; Container b(a);
Container c(a); Container d;` with `L = [b, c]` and the unattached `d`. -/
theorem insert_child_list_witness :
    (∀ i, i ≤ [1, 2].length → ∃ t, Container.insert twoChildren 0 [1, 2][i]? 3 = some (t, 3) ∧
      children t 0 = [1, 2].take i ++ 3 :: [1, 2].drop i ∧
      (children t 0).filter (fun x => x != 3) = [1, 2]) ∧
    (∃ t, push_back twoChildren 0 3 = some t ∧ children t 0 = [1, 2] ++ [3]) ∧
    (∃ t, push_front twoChildren 0 3 = some t ∧ children t 0 = 3 :: [1, 2]) :=
  insert_child_list twoChildren 0 3 [1, 2] (by decide) (by decide) (by decide) (by decide)
    (by decide) (by decide) (by decide)

/-! ## Claims about a pass of `layout` and `paint_partial` -/

set_option maxRecDepth 100000 in
/-- C15 (code defect).  In the tree `x > {u, v}` laid out and painted on a
16 x 16 surface no node carries a layout or paint flag and the absolute clip of
`u` is (0,0)-(3,7).  After `x.erase(u)`, `layout` returns and `paint_partial`
runs to its end without a call on the surface: no window is painted. -/
theorem erase_repaints_nothing :
    twoWidgetsPainted.map (fun s =>
      (List.range 3).map (fun i => (layoutBits (s.node i).flags, paintBits (s.node i).flags)))
      = some (List.replicate 3 ((false, false), (false, false, false, false))) ∧
    twoWidgetsPainted.map (fun s => children s 0) = some [1, 2] ∧
    twoWidgetsPainted.map (fun s => (absolute s 1).clip) = some ⟨⟨0, 0⟩, ⟨3, 7⟩⟩ ∧
    twoWidgetsPainted.map (fun s => (absolute s 2).clip) = some ⟨⟨4, 0⟩, ⟨7, 7⟩⟩ ∧
    (twoWidgetsPainted.bind (fun s => erase s 0 1)).map (fun r => children r.1 0) = some [2] ∧
    childErased.map (fun s =>
      (paint_partial_impl 20 (Surface.whole ⟨16, 16⟩) s 0).complete) = some true ∧
    childErased.map (fun s =>
      (paint_partial_impl 20 (Surface.whole ⟨16, 16⟩) s 0).trace) = some [] := by
  decide

/-! ## Claims about the result of `layout` -/

/-! ## Claims about two passes in succession -/

/-- C14: let `root` be a node without parent of a forest whose areas are
representable, and let `layout(root, surface)` return and the following
`paint_partial(root, surface)` run to its end.  Then a second `layout` on a
surface of the same resolution whose `changed()` is false returns, and the
second `paint_partial` runs to its end without any call: no `paint` of a
widget, no `begin`, no `end` and no `flush`. -/
theorem second_pass_paints_nothing (hooks : Hooks) (fuel : Nat) (surface surface2 : Surface)
    (s s1 : Store) (root : Nat) (hwf : wfTree s = true) (hn : root < s.size)
    (hroot : s.parent root = Option.none) (htyped : areasTyped s = true)
    (hres : inPoint surface.resolution.x = true ∧ inPoint surface.resolution.y = true)
    (hch : surface2.changed = false) (hres2 : surface2.resolution = surface.resolution)
    (h1 : layout hooks fuel surface s root = some s1)
    (h2 : (paint_partial_impl fuel surface s1 root).complete = true) :
    ∃ s3, layout hooks fuel surface2 (paint_partial_impl fuel surface s1 root).store root
        = some s3 ∧
      (paint_partial_impl fuel surface2 s3 root).trace = [] ∧
      (paint_partial_impl fuel surface2 s3 root).complete = true := by
  obtain ⟨hsh1, hfl1, hc1, hw1⟩ := layout_root_state hooks fuel surface s s1 root hwf hn hroot h1
  obtain ⟨hfuel, hidle⟩ := paint_partial_impl_idle fuel surface s s1 root hwf hn hsh1 h2
  have hsp := samePaint_paint_partial_impl fuel surface s1 root
  obtain ⟨_, _, _, _, _, _, harea, hcon, hld, hlcd⟩ := hsp.fields root
  have hsh2 : SameShape s (paint_partial_impl fuel surface s1 root).store :=
    hsh1.trans hsp.paint_shape
  have hroot2 : (paint_partial_impl fuel surface s1 root).store.parent root = Option.none := by
    rw [hsh2.parent]; exact hroot
  have hc2 : ((paint_partial_impl fuel surface s1 root).store.node root).constraints
      = surface2.resolution := by
    rw [hcon, hc1, hres2]
  have hfl2 : (paint_partial_impl fuel surface s1 root).store.layoutFlagged root = false := by
    simp only [Store.layoutFlagged, Store.isLayoutDirty, Store.isChildLayoutDirty, hld, hlcd]
    exact hfl1
  obtain ⟨X, _, _, _, hinit, hX⟩ := layout_init_root hooks surface2
    (paint_partial_impl fuel surface s1 root).store root hroot2
  rw [hX hch hc2] at hinit
  unfold layout
  simp only
  rw [hinit]
  by_cases hw : (paint_partial_impl fuel surface s1 root).store.isWidget root = true
  · simp only [hw, if_true, Bool.not_false]
    refine ⟨_, rfl, paint_partial_idle fuel surface2 _ root hfuel ?_⟩
    have hws : s.isWidget root = true := by rw [← hsh2.isWidget]; exact hw
    have ht := areasTyped_at htyped hn
    rw [inRect_iff] at ht
    rw [hres2]
    exact idle_after_widget_layout _ root (s.node root).area surface.resolution hw hidle
      ht.1.1 ht.1.2 hres.1 hres.2 (by rw [harea]; exact hw1 hws)
  · simp only [hw, if_false, Bool.not_true, Bool.false_eq_true]
    simp only [Store.layoutFlagged, Bool.or_eq_false_iff] at hfl2
    simp only [hfl2.1, hfl2.2, Bool.not_false, Bool.and_self, if_true]
    exact ⟨_, rfl, paint_partial_idle fuel surface2 _ root hfuel hidle⟩

set_option maxRecDepth 100000 in
/-- C14, witness: the theorem applies to the tree `x > {u, v}` of a container
and two widgets of preferred size 4 x 8, laid out and painted on a 16 x 16
surface that paints the whole display at once. -/
theorem second_pass_paints_nothing_witness :
    ∃ s1 s3, layout fixedSizeHooks 20 (Surface.whole ⟨16, 16⟩) layoutTestTree 0 = some s1 ∧
      (paint_partial_impl 20 (Surface.whole ⟨16, 16⟩) s1 0).trace ≠ [] ∧
      layout fixedSizeHooks 20 (Surface.whole ⟨16, 16⟩)
        (paint_partial_impl 20 (Surface.whole ⟨16, 16⟩) s1 0).store 0 = some s3 ∧
      (paint_partial_impl 20 (Surface.whole ⟨16, 16⟩) s3 0).trace = [] ∧
      (paint_partial_impl 20 (Surface.whole ⟨16, 16⟩) s3 0).complete = true := by
  have hsome : (layout fixedSizeHooks 20 (Surface.whole ⟨16, 16⟩) layoutTestTree 0).isSome
      = true := by decide
  obtain ⟨s1, h1⟩ := Option.isSome_iff_exists.mp hsome
  have hc : (layout fixedSizeHooks 20 (Surface.whole ⟨16, 16⟩) layoutTestTree 0).map
      (fun s1 => (paint_partial_impl 20 (Surface.whole ⟨16, 16⟩) s1 0).complete)
      = some true := by decide
  have ht : (layout fixedSizeHooks 20 (Surface.whole ⟨16, 16⟩) layoutTestTree 0).map
      (fun s1 => decide ((paint_partial_impl 20 (Surface.whole ⟨16, 16⟩) s1 0).trace ≠ []))
      = some true := by decide
  rw [h1] at hc ht
  simp only [Option.map_some', Option.some.injEq, decide_eq_true_eq] at hc ht
  obtain ⟨s3, h3, h4, h5⟩ := second_pass_paints_nothing fixedSizeHooks 20
    (Surface.whole ⟨16, 16⟩) (Surface.whole ⟨16, 16⟩) layoutTestTree s1 0 (by decide)
    (by decide) (by decide) (by decide) (by decide) rfl rfl h1 hc
  exact ⟨s1, s3, h1, ht, h3, h4, h5⟩

/-! ## Claims about the component filter and the chains of components -/

/-- C27: after components are constructed one after another on a new node (at
any offsets, of any types), `bloomFilterContains(components_filter_, t)` is true
for the type `t` of every one of them; and on a node without components it is
false for every `t` and `find` returns null without walking a chain. -/
theorem filter_has_no_false_negative (l : List (Int × Nat)) (o : Owner)
    (h : attachSeq {} l = some o) :
    (∀ p ∈ l, bloomFilterContains o.components_filter p.2 = true) ∧
    (∀ t, bloomFilterContains ({} : Owner).components_filter t = false ∧
      find {} t = Option.none) := by
  refine ⟨(attachSeq_filter l {} o h).2, fun t => ⟨rfl, rfl⟩⟩

/-- C27, witness: components of the types 1, 3, 2 at the offsets 8, 16, 24. -/
theorem filter_has_no_false_negative_witness :
    ∃ o, attachSeq {} [(8, 1), (16, 3), (24, 2)] = some o ∧
      (∀ p ∈ [((8 : Int), 1), (16, 3), (24, 2)],
        bloomFilterContains o.components_filter p.2 = true) := by
  have hs : (attachSeq {} [(8, 1), (16, 3), (24, 2)]).isSome = true := by decide
  obtain ⟨o, ho⟩ := Option.isSome_iff_exists.mp hs
  exact ⟨o, ho, (filter_has_no_false_negative _ o ho).1⟩

/-- C25 (same defect of `NodeImpl::attachComponent` as C2 and C3): after
components of the types 1, 3 and 2 are constructed in this order on one owner,
the component at offset 24 has type 2, but `each` of type 2 yields nothing;
`each` of the types 1 and 3 yields one component. -/
theorem each_misses_attached_type :
    (attachAll {} 8 [1, 3, 2]).map (fun o => ((o.comp 24).type, each o 2, each o 1, each o 3)) =
      some (2, [], [8], [16]) := by
  decide

/-- Counterexample to C26 as stated: of three components of one type at the
offsets 8, 16, 24, constructed in this order, the siblings of the second are
the second alone and those of the third are the third and the second; only the
siblings of the first are all three. -/
theorem siblings_of_later_component :
    (attachAll {} 8 [5, 5, 5]).map (fun o => (siblings o 16, siblings o 24, siblings o 8)) =
      some ([16], [24, 16], [8, 24, 16]) := by
  decide

/-! ## Claims about `erase` and `detach` -/

/-- C21: let `L = A ++ x :: B` be the list of children of the container `c`.
`c.erase(x)` and `x.detach()` succeed with the same result: the list of
children is `A ++ B`, `x` has neither parent nor sibling links, the returned
iterator designates the former next sibling of `x` (`end()` when `B` is empty),
and `c` carries `LayoutDirty`.  `detach()` on a node without parent changes
nothing. -/
theorem erase_child_list (s : Store) (c : Nat) (L : List Nat)
    (hL : childList s c L = true) (hc : c < s.size) (hin : ∀ y ∈ L, y < s.size) :
    (∀ A x B, L = A ++ x :: B →
      ∃ t, erase s c x = some (t, B.head?) ∧ detach s x = some t ∧
        children t c = A ++ B ∧ t.parent x = Option.none ∧
        (t.node x).next_sibling = Option.none ∧ (t.node x).prev_sibling = Option.none ∧
        t.isLayoutDirty c = true) ∧
    (∀ n, s.parent n = Option.none → detach s n = some s) := by
  obtain ⟨_, _, _, hnd, hcL⟩ := childList_unfold hL
  have hlen : L.length < s.size := length_lt_of_nodup L s.size c hnd hin hc hcL
  refine ⟨fun A x B hsplit => ?_, fun n hn => ?_⟩
  · rw [hsplit] at hL hlen
    obtain ⟨t, ht, h1, h2, h3, h4, h5⟩ := erase_between s c x A B hL
      (by
        simp only [List.length_append, List.length_cons] at hlen ⊢
        omega)
    refine ⟨t, ht, ?_, h1, h2, h3, h4, h5⟩
    have hpar := childList_parent hL x (by simp)
    unfold detach
    rw [hpar]
    simp only [ht, Option.map_some']
  · unfold detach
    rw [hn]

/-- C21, witness: `Container a; Container b(a); Container c(a); Container d;`
with the list of children `[b, c]` of `a`. -/
theorem erase_child_list_witness :
    (∀ A x B, [1, 2] = A ++ x :: B →
      ∃ t, erase twoChildren 0 x = some (t, B.head?) ∧ detach twoChildren x = some t ∧
        children t 0 = A ++ B ∧ t.parent x = Option.none ∧
        (t.node x).next_sibling = Option.none ∧ (t.node x).prev_sibling = Option.none ∧
        t.isLayoutDirty 0 = true) ∧
    (∀ n, twoChildren.parent n = Option.none → detach twoChildren n = some twoChildren) :=
  erase_child_list twoChildren 0 [1, 2] (by decide) (by decide) (by decide)

/-! ## Claims about the ranges of `traverse.hpp` -/

/-- C22: in a well-formed tree the loop over `traverse(n)` ends, and the values
it yields are exactly `seq(n)`: `[Leaf m]` for a widget or a container without
children, `[Pre m] ++ seq(c_1) ++ ... ++ seq(c_k) ++ [Post m]` for a container
with the children `c_1..c_k` in list order.  Every yielded value designates a
node of the subtree of `n`, whether or not `n` has siblings or a parent. -/
theorem traverse_yields_seq (s : Store) (hwf : wfTree s = true) (n : Nat) (hn : n < s.size) :
    (∃ F0, ∀ F, F0 ≤ F →
      traverse s (fun _ => false) F n = some (specSeq s (fun _ => false) s.size n)) ∧
    (∀ a ∈ specSeq s (fun _ => false) s.size n,
      ∃ x, a.node = some x ∧ x < s.size ∧ (x = n ∨ n ∈ parents s x)) ∧
    (∀ m, m < s.size → specSeq s (fun _ => false) s.size m =
      if s.isWidget m || (children s m).isEmpty then
        [{ node := some m, state := AcceptState.Leaf }]
      else
        [{ node := some m, state := AcceptState.Pre }] ++
          (children s m).flatMap (specSeq s (fun _ => false) s.size) ++
          [{ node := some m, state := AcceptState.Post }]) := by
  refine ⟨⟨_, fun F hF => traverse_eq_specSeq s _ hwf n hn F hF⟩,
    specSeq_subtree s _ hwf s.size n hn, ?_⟩
  intro m hm
  rw [specSeq_unfold s _ hwf m hm]
  simp

/-- C22, witness: the container 1 of the painted tree `0 > 1 > {2, 3}` has the
parent 0; `traverse` of it yields `Pre 1, Leaf 2, Leaf 3, Post 1`. -/
theorem traverse_yields_seq_witness :
    wfTree paintedTree = true ∧ 1 < paintedTree.size ∧
    specSeq paintedTree (fun _ => false) paintedTree.size 1 =
      [⟨some 1, AcceptState.Pre⟩, ⟨some 2, AcceptState.Leaf⟩, ⟨some 3, AcceptState.Leaf⟩,
        ⟨some 1, AcceptState.Post⟩] ∧
    ∃ F0, ∀ F, F0 ≤ F → traverse paintedTree (fun _ => false) F 1 =
      some (specSeq paintedTree (fun _ => false) paintedTree.size 1) :=
  ⟨by decide, by decide, by decide,
    (traverse_yields_seq paintedTree (by decide) 1 (by decide)).1⟩

/-- C23: with `skip()` called at the pre visit of the containers selected by
`sk`, the loop over `traverse(n)` ends and yields the sequence in which a
skipped container contributes its pre visit alone: none of its descendants and
no post visit of it.  The iterator that follows a skipped pre visit is the one
that follows the post visit of that container. -/
theorem skip_jumps_over_subtree (s : Store) (sk : Nat → Bool) (hwf : wfTree s = true) (n : Nat)
    (hn : n < s.size) :
    (∃ F0, ∀ F, F0 ≤ F → traverse s sk F n = some (specSeq s sk s.size n)) ∧
    (∀ m, m < s.size → specSeq s sk s.size m =
      if s.isWidget m || (children s m).isEmpty then
        [{ node := some m, state := AcceptState.Leaf }]
      else if sk m then [{ node := some m, state := AcceptState.Pre }]
      else
        [{ node := some m, state := AcceptState.Pre }] ++
          (children s m).flatMap (specSeq s sk s.size) ++
          [{ node := some m, state := AcceptState.Post }]) ∧
    (∀ m, increment s m (Accept.skip { node := some m, state := AcceptState.Pre }).state =
        increment s m AcceptState.Post ∧
      increment s m AcceptState.Post = next_sibling_or_parent s m) :=
  ⟨⟨_, fun F hF => traverse_eq_specSeq s sk hwf n hn F hF⟩,
    fun m hm => specSeq_unfold s sk hwf m hm,
    fun _ => ⟨rfl, by simp [increment]⟩⟩

/-- C23, witness: in the painted tree `0 > 1 > {2, 3}` with `skip()` at the
pre visit of the container 1, `traverse` of the root yields
`Pre 0, Pre 1, Post 0`. -/
theorem skip_jumps_over_subtree_witness :
    wfTree paintedTree = true ∧ 0 < paintedTree.size ∧
    specSeq paintedTree (fun m => m == 1) paintedTree.size 0 =
      [⟨some 0, AcceptState.Pre⟩, ⟨some 1, AcceptState.Pre⟩, ⟨some 0, AcceptState.Post⟩] ∧
    ∃ F0, ∀ F, F0 ≤ F → traverse paintedTree (fun m => m == 1) F 0 =
      some (specSeq paintedTree (fun m => m == 1) paintedTree.size 0) :=
  ⟨by decide, by decide, by decide,
    (skip_jumps_over_subtree paintedTree (fun m => m == 1) (by decide) 0 (by decide)).1⟩

/-- C24: in a well-formed tree the loops over `traverse(n, preorder)` and over
`visit(n)` end and yield the same sequence of nodes: the depth-first pre-order
of the subtree of `n` with the children in list order.  That sequence contains
every node of the subtree of `n` exactly once and no other node. -/
theorem preorder_and_visit_agree (s : Store) (hwf : wfTree s = true) (n : Nat)
    (hn : n < s.size) :
    (∃ F0, ∀ F, F0 ≤ F →
      visit s F n = some (preorder s s.size n) ∧
      ∃ L, traversePreorder s F n = some L ∧
        L.map (fun a => a.node) = (preorder s s.size n).map some) ∧
    (preorder s s.size n).Nodup ∧
    (∀ x, x ∈ preorder s s.size n ↔ x < s.size ∧ (x = n ∨ n ∈ parents s x)) ∧
    (∀ m, m < s.size → preorder s s.size m =
      m :: (if s.isContainer m then (children s m).flatMap (preorder s s.size) else [])) :=
  ⟨⟨_, fun F hF => visit_eq_preorder s hwf n hn F hF⟩,
    preorder_nodup s hwf s.size n hn,
    fun x => ⟨fun hx => preorder_subtree s hwf s.size n hn x hx,
      fun hx => subtree_preorder s hwf s.size n hn (by omega) x hx.1 hx.2⟩,
    fun m hm => preorder_unfold s hwf m hm⟩

/-- C24, witness: the container 1 of the painted tree `0 > 1 > {2, 3}` has the
parent 0; both ranges yield the nodes 1, 2, 3. -/
theorem preorder_and_visit_agree_witness :
    wfTree paintedTree = true ∧ 1 < paintedTree.size ∧
    preorder paintedTree paintedTree.size 1 = [1, 2, 3] ∧
    ∃ F0, ∀ F, F0 ≤ F →
      visit paintedTree F 1 = some (preorder paintedTree paintedTree.size 1) ∧
      ∃ L, traversePreorder paintedTree F 1 = some L ∧
        L.map (fun a => a.node) = (preorder paintedTree paintedTree.size 1).map some :=
  ⟨by decide, by decide, by decide,
    (preorder_and_visit_agree paintedTree (by decide) 1 (by decide)).1⟩

/-! ## Claims about the layout pass -/

/-- C30, counterexample: in the tree `R > {A1 > w1, .., A4 > w4}` of depth 2,
laid out once and with the four widgets given an area and constraints
afterwards, one call of `layout` with the functions of the base classes
re-evaluates a parent four times, once for each container `A`. -/
theorem repeats_exceed_depth :
    wfTree combDirty = true ∧ treeDepth combDirty = 2 ∧
    (layout_count Hooks.base 40 (Surface.whole ⟨16, 16⟩) combDirty 0).map (fun q => q.2) =
      some 4 ∧
    ((layout_count Hooks.base 40 (Surface.whole ⟨16, 16⟩) combDirty 0).map (fun q => q.1)).isSome
      = (layout Hooks.base 40 (Surface.whole ⟨16, 16⟩) combDirty 0).isSome := by
  refine ⟨by decide, by decide, by decide, ?_⟩
  rw [layout_count_fst]

/-- C28, counterexample: a container and a widget without parent whose area
starts at x = 32767, laid out on a 2 x 2 surface.  The constraints are the
resolution, the area is empty and its size is 0 x 0. -/
theorem root_size_overflows :
    edgeContainer.isLayoutDirty 0 = true ∧ edgeWidget.isWidget 0 = true ∧
    (layout Hooks.base 20 (Surface.whole ⟨2, 2⟩) edgeContainer 0).map
      (fun u => ((u.node 0).constraints, (u.node 0).area.size)) = some (⟨2, 2⟩, ⟨0, 0⟩) ∧
    (layout Hooks.base 20 (Surface.whole ⟨2, 2⟩) edgeWidget 0).map
      (fun u => ((u.node 0).constraints, (u.node 0).area.size)) = some (⟨2, 2⟩, ⟨0, 0⟩) := by
  decide

/-- C28 (amended): `layout(root, surface)` on a root without parent that is a
widget, or a container that carries `LayoutDirty`, returns; afterwards the
constraints of the root are the resolution of the surface and the size of its
area is the resolution, for a resolution with positive components that added
to the top left corner of the area does not leave the range of `Point`. -/
theorem root_takes_resolution (hooks : Hooks) (surface : Surface) (s : Store) (node : Nat)
    (hwf : wfTree s = true) (hn : node < s.size) (hroot : s.parent node = Option.none)
    (hd : s.isWidget node = true ∨ s.isLayoutDirty node = true)
    (hx : 0 < surface.resolution.x) (hy : 0 < surface.resolution.y)
    (hrx : inPoint surface.resolution.x = true) (hry : inPoint surface.resolution.y = true)
    (hlx : inPoint (s.node node).area.low.x = true)
    (hly : inPoint (s.node node).area.low.y = true)
    (hfx : (s.node node).area.low.x + surface.resolution.x ≤ 32768)
    (hfy : (s.node node).area.low.y + surface.resolution.y ≤ 32768) :
    ∃ u F0, (∀ F, F0 ≤ F → layout hooks F surface s node = some u) ∧
      (u.node node).constraints = surface.resolution ∧
      (u.node node).area.size = surface.resolution := by
  obtain ⟨u, F0, hu, hc, ha⟩ := layout_root_area hooks surface s node hwf hn hroot hd
  refine ⟨u, F0, hu, hc, ?_⟩
  rw [ha]
  split
  · exact resize_size _ _ hx hy hrx hry hlx hly hfx hfy
  · rename_i h
    simpa using h

/-- C28, witness: a default constructed container, which carries `LayoutDirty`
and has its area at the origin, on a 16 x 16 surface. -/
theorem root_takes_resolution_witness :
    wfTree oneContainer = true ∧ oneContainer.isLayoutDirty 0 = true ∧
    ∃ u F0, (∀ F, F0 ≤ F →
        layout Hooks.base F (Surface.whole ⟨16, 16⟩) oneContainer 0 = some u) ∧
      (u.node 0).constraints = ⟨16, 16⟩ ∧ (u.node 0).area.size = ⟨16, 16⟩ :=
  ⟨by decide, by decide,
    root_takes_resolution Hooks.base (Surface.whole ⟨16, 16⟩) oneContainer 0 (by decide)
      (by decide) (by decide) (Or.inr (by decide)) (by decide) (by decide) (by decide)
      (by decide) (by decide) (by decide) (by decide) (by decide)⟩

/-- C29, counterexample: in the freshly built tree `r > c > w`, every node of
which carries `LayoutDirty`, with `w` moved to (5, 0), `layout` with the
functions of the base classes leaves the container `c` with an area of size
0 x 0 while `Container::onLayoutEnd` computes 5 x 0 for it; and a widget of
preferred size 2 x 2 whose area starts at x = 32767 is left with an area of
size 0 x 0. -/
theorem layout_size_lost :
    (∀ x, x < 3 → threeDeepTree.isLayoutDirty x = true) ∧
    (layout Hooks.base 20 (Surface.whole ⟨16, 16⟩) (setPosition threeDeepTree 2 ⟨5, 0⟩).1 0).map
      (fun u => ((u.node 1).constraints, Container.onLayoutEnd u 1, (u.node 1).area.size)) =
      some (⟨16, 16⟩, ⟨5, 0⟩, ⟨0, 0⟩) ∧
    (layout (prefHooks (fun _ => ⟨2, 2⟩)) 20 (Surface.whole ⟨16, 16⟩)
        (setPosition threeDeepTree 2 ⟨32767, 0⟩).1 0).map
      (fun u => (u.node 2).area.size) = some ⟨0, 0⟩ := by
  refine ⟨by decide, by decide, by decide⟩

/-- C29 (amended): on a forest in which every node of the subtree of `node`
carries `LayoutDirty`, with containers of the base class and widgets of
preferred size `pref w`, `layout(node, surface)` returns.  Afterwards the
constraints of every node of the subtree other than `node` are those of its
parent; the size of the area of a widget is its preferred size and the size of
the area of a container is the result of `Container::onLayoutEnd`, the minimum
of its constraints and the maximum of (0, 0) and `area().high + 1` over its
children, whenever that size has positive components and fits in the range of
`Point` from the top left corner of the area; the result of
`Container::onLayoutEnd` lies between (0, 0) and the constraints when these
are not negative. -/
theorem default_layout_sizes (pref : Nat → Vec2) (surface : Surface) (s : Store) (node : Nat)
    (hwf : wfTree s = true) (hn : node < s.size)
    (hall : ∀ x, x < s.size → (x = node ∨ node ∈ parents s x) → s.isLayoutDirty x = true) :
    ∃ u F0, (∀ F, F0 ≤ F → layout (prefHooks pref) F surface s node = some u) ∧
      ∀ x p, x < s.size → node ∈ parents s x → s.parent x = some p →
        (u.node x).constraints = (u.node p).constraints ∧
        (s.isWidget x = true → sizeFits (s.node x).area.low (pref x) →
          (u.node x).area.size = pref x) ∧
        (s.isContainer x = true →
          Container.onLayoutEnd u x =
            vmin ((children u x).foldl
              (fun size child => vmax size ((u.node child).area.high.addP 1)) Vec2.origin)
              (u.node x).constraints ∧
          (sizeFits (s.node x).area.low (Container.onLayoutEnd u x) →
            (u.node x).area.size = Container.onLayoutEnd u x) ∧
          (0 ≤ (u.node x).constraints.x → 0 ≤ (u.node x).constraints.y →
            0 ≤ (Container.onLayoutEnd u x).x ∧
            (Container.onLayoutEnd u x).x ≤ (u.node x).constraints.x ∧
            0 ≤ (Container.onLayoutEnd u x).y ∧
            (Container.onLayoutEnd u x).y ≤ (u.node x).constraints.y)) := by
  obtain ⟨u, F0, hu, _, hfin⟩ := layout_all_dirty pref surface s node hwf hn hall
  refine ⟨u, F0, hu, fun x p hx hsub hp => ?_⟩
  obtain ⟨⟨p', hp', hc⟩, ha⟩ := hfin x hx hsub
  rw [hp] at hp'
  have e : p = p' := Option.some.inj hp'
  subst e
  refine ⟨hc, fun hw hfit => ?_, fun hcx => ⟨rfl, fun hfit => ?_, onLayoutEnd_bounds u x⟩⟩
  · rw [ha, hw]
    exact sized_size _ _ hfit
  · have hw : s.isWidget x = false := by
      simp only [Store.isContainer, Store.isWidget] at hcx ⊢
      simpa using hcx
    rw [ha, hw]
    exact sized_size _ _ hfit

/-- C29, witness: the freshly built tree `r > c > w` with a widget of preferred
size 4 x 8 on a 16 x 16 surface. -/
theorem default_layout_sizes_witness :
    wfTree threeDeepTree = true ∧
    (∀ x, x < threeDeepTree.size → (x = 0 ∨ 0 ∈ parents threeDeepTree x) →
      threeDeepTree.isLayoutDirty x = true) ∧
    ∃ u F0, (∀ F, F0 ≤ F →
        layout (prefHooks (fun _ => ⟨4, 8⟩)) F (Surface.whole ⟨16, 16⟩) threeDeepTree 0 = some u) ∧
      ∀ x p, x < threeDeepTree.size → 0 ∈ parents threeDeepTree x →
        threeDeepTree.parent x = some p →
        (u.node x).constraints = (u.node p).constraints ∧
        (threeDeepTree.isWidget x = true →
          sizeFits (threeDeepTree.node x).area.low ((fun _ => (⟨4, 8⟩ : Vec2)) x) →
          (u.node x).area.size = (fun _ => (⟨4, 8⟩ : Vec2)) x) ∧
        (threeDeepTree.isContainer x = true →
          Container.onLayoutEnd u x =
            vmin ((children u x).foldl
              (fun size child => vmax size ((u.node child).area.high.addP 1)) Vec2.origin)
              (u.node x).constraints ∧
          (sizeFits (threeDeepTree.node x).area.low (Container.onLayoutEnd u x) →
            (u.node x).area.size = Container.onLayoutEnd u x) ∧
          (0 ≤ (u.node x).constraints.x → 0 ≤ (u.node x).constraints.y →
            0 ≤ (Container.onLayoutEnd u x).x ∧
            (Container.onLayoutEnd u x).x ≤ (u.node x).constraints.x ∧
            0 ≤ (Container.onLayoutEnd u x).y ∧
            (Container.onLayoutEnd u x).y ≤ (u.node x).constraints.y)) :=
  ⟨by decide, by decide,
    default_layout_sizes (fun _ => ⟨4, 8⟩) (Surface.whole ⟨16, 16⟩) threeDeepTree 0 (by decide)
      (by decide) (by decide)⟩

/-! ## Claims about rectangles -/

/-- C35, counterexample: the empty rectangle `Rect::none()` overlaps the
rectangle (-5,-5)-(5,5), although it contains no point and the intersection of
the two is empty. -/
theorem none_overlaps_nonempty :
    Rect.none.overlaps ⟨⟨-5, -5⟩, ⟨5, 5⟩⟩ = true ∧ Rect.none.empty = true ∧
    (Rect.ofIntersect Rect.none ⟨⟨-5, -5⟩, ⟨5, 5⟩⟩).nonempty = false ∧
    ∀ p, Rect.none.containsPoint p = false := by
  refine ⟨by decide, by decide, by decide, fun p => ?_⟩
  cases h : Rect.none.containsPoint p with
  | false => rfl
  | true =>
    have := (containsPoint_iff Rect.none p).mp h
    simp only [Rect.none] at this
    omega

/-- C35 (amended): for all rectangles `a` and `b`, some point is contained in
both iff `Rect::ofIntersect(a, b)` is not empty, iff `a.overlaps(b)` and
neither `a` nor `b` is empty; hence for rectangles that are not empty,
`a.overlaps(b)` is true iff some point is contained in both. -/
theorem overlaps_iff_common_point (a b : Rect) :
    ((∃ p, a.containsPoint p = true ∧ b.containsPoint p = true) ↔
      (Rect.ofIntersect a b).nonempty = true) ∧
    ((Rect.ofIntersect a b).nonempty = true ↔
      (a.overlaps b = true ∧ a.nonempty = true ∧ b.nonempty = true)) ∧
    (a.nonempty = true → b.nonempty = true →
      (a.overlaps b = true ↔ ∃ p, a.containsPoint p = true ∧ b.containsPoint p = true)) := by
  have h1 : (∃ p, a.containsPoint p = true ∧ b.containsPoint p = true) ↔
      (Rect.ofIntersect a b).nonempty = true := by
    rw [nonempty_iff_point]
    constructor
    · rintro ⟨p, hp⟩; exact ⟨p, (containsPoint_ofIntersect a b p).mpr hp⟩
    · rintro ⟨p, hp⟩; exact ⟨p, (containsPoint_ofIntersect a b p).mp hp⟩
  refine ⟨h1, ofIntersect_nonempty_iff a b, fun ha hb => ?_⟩
  rw [h1, ofIntersect_nonempty_iff]
  constructor
  · intro h; exact ⟨h, ha, hb⟩
  · intro h; exact h.1

/-- C35 (amended), witness: the rectangles (0,0)-(3,3) and (2,2)-(5,5). -/
theorem overlaps_iff_common_point_witness :
    (⟨⟨0, 0⟩, ⟨3, 3⟩⟩ : Rect).nonempty = true ∧ (⟨⟨2, 2⟩, ⟨5, 5⟩⟩ : Rect).nonempty = true ∧
    ((⟨⟨0, 0⟩, ⟨3, 3⟩⟩ : Rect).overlaps ⟨⟨2, 2⟩, ⟨5, 5⟩⟩ = true ↔
      ∃ p, (⟨⟨0, 0⟩, ⟨3, 3⟩⟩ : Rect).containsPoint p = true ∧
        (⟨⟨2, 2⟩, ⟨5, 5⟩⟩ : Rect).containsPoint p = true) :=
  ⟨by decide, by decide,
    (overlaps_iff_common_point ⟨⟨0, 0⟩, ⟨3, 3⟩⟩ ⟨⟨2, 2⟩, ⟨5, 5⟩⟩).2.2 (by decide) (by decide)⟩

/-- C36: for all rectangles `a`, `b` and every point `p`,
`Rect::ofIntersect(a, b)` contains `p` iff `a` and `b` contain it; `a.clip(b)`
contains the same points as `Rect::ofIntersect(a, b)`; and
`Rect::ofIntersect(Rect::all(), a)` is `a`, for `a` with coordinates of the
type `Point`. -/
theorem intersect_is_meet (a b : Rect) :
    (∀ p, (Rect.ofIntersect a b).containsPoint p = true ↔
      (a.containsPoint p = true ∧ b.containsPoint p = true)) ∧
    (∀ p, (a.clip b).containsPoint p = (Rect.ofIntersect a b).containsPoint p) ∧
    (inRect a = true → Rect.ofIntersect Rect.all a = a) := by
  refine ⟨containsPoint_ofIntersect a b, fun p => ?_, fun ha => ?_⟩
  · rw [Bool.eq_iff_iff, containsPoint_ofIntersect]
    unfold Rect.clip
    by_cases ho : a.overlaps b = true
    · rw [if_pos ho]
      have := containsPoint_ofIntersect b a p
      simp only [Rect.ofIntersect] at this
      rw [this]
      exact And.comm
    · rw [if_neg ho]
      have hn : ¬ (a.overlaps b = true ∧ a.nonempty = true ∧ b.nonempty = true) :=
        fun h => ho h.1
      rw [← ofIntersect_nonempty_iff, nonempty_iff_point] at hn
      constructor
      · intro h
        have := (containsPoint_iff Rect.none p).mp h
        simp only [Rect.none] at this
        omega
      · intro h
        exact absurd ⟨p, (containsPoint_ofIntersect a b p).mpr h⟩ hn
  · rw [inRect_iff] at ha
    simp only [inPoint, pointMin, pointMax, Bool.and_eq_true, decide_eq_true_eq] at ha
    simp only [Rect.ofIntersect, Rect.all, Vec2.min, Vec2.max, vmax, vmin, pmax, pmin,
      pointMin, pointMax]
    have e1 : (if (-32768 : Int) < a.low.x then a.low.x else -32768) = a.low.x := by
      split <;> omega
    have e2 : (if (-32768 : Int) < a.low.y then a.low.y else -32768) = a.low.y := by
      split <;> omega
    have e3 : (if (32767 : Int) < a.high.x then 32767 else a.high.x) = a.high.x := by
      split <;> omega
    have e4 : (if (32767 : Int) < a.high.y then 32767 else a.high.y) = a.high.y := by
      split <;> omega
    rw [e1, e2, e3, e4]

/-- C36, witness: `Rect::ofIntersect(Rect::all(), a)` for `a` = (2,2)-(5,5). -/
theorem intersect_is_meet_witness :
    inRect ⟨⟨2, 2⟩, ⟨5, 5⟩⟩ = true ∧
    Rect.ofIntersect Rect.all ⟨⟨2, 2⟩, ⟨5, 5⟩⟩ = ⟨⟨2, 2⟩, ⟨5, 5⟩⟩ :=
  ⟨by decide, (intersect_is_meet ⟨⟨2, 2⟩, ⟨5, 5⟩⟩ Rect.none).2.2 (by decide)⟩

/-! ## Claims about the raster split -/

/-- C32 fails on the code: on a 320 x 240 display with a buffer for the whole
display (76800 elements, as `capacity(resolution)` gives), the unrotated `WxH`
split of the non-empty area (0,0)-(1,9) of width 2 narrows 76800 / 2 = 38400
to the `Point` -27136, returns an empty window instead of the 10 rows of the
area, and leaves the remainder (0,-27136)-(1,9), which is not empty and not
inside the display. -/
theorem split_narrows_row_count :
    (⟨⟨0, 0⟩, ⟨1, 9⟩⟩ : Rect).nonempty = true ∧
    (Rect.withSize ⟨320, 240⟩).contains ⟨⟨0, 0⟩, ⟨1, 9⟩⟩ = true ∧
    WxH.capacity ⟨320, 240⟩ = 76800 ∧
    (⟨⟨0, 0⟩, ⟨1, 9⟩⟩ : Rect).size = ⟨2, 10⟩ ∧
    WxH.split 76800 ⟨⟨0, 0⟩, ⟨1, 9⟩⟩ = (⟨⟨0, 0⟩, ⟨1, -27137⟩⟩, ⟨⟨0, -27136⟩, ⟨1, 9⟩⟩) ∧
    (WxH.split 76800 ⟨⟨0, 0⟩, ⟨1, 9⟩⟩).1.nonempty = false ∧
    (WxH.split 76800 ⟨⟨0, 0⟩, ⟨1, 9⟩⟩).2.nonempty = true ∧
    (Rect.withSize ⟨320, 240⟩).contains (WxH.split 76800 ⟨⟨0, 0⟩, ⟨1, 9⟩⟩).2 = false := by
  decide

/-- C39 fails on the code.  A `BitRasterSurface` of resolution 9 x 8 with a
buffer of 9 bytes (one row of the display takes 2 bytes) splits the whole
display into the single window (0,0)-(8,7), for which `capacity(window.size(),
rotation)` is 16: the assertion `used <= buffer_.size()` of `begin` fails.  A
`WxH` surface of resolution 10 x 10 with a buffer of 65536 elements splits the
area (0,0)-(1,4) into the window (0,0)-(1,32767), whose `used` exceeds the
buffer as well. -/
theorem split_window_exceeds_buffer :
    ((Rect.withSize (RasterSurface.resolution
        { characteristics := Characteristics.BitCompressed, resolution_ := ⟨9, 8⟩,
          buffer := 9 })).contains ⟨⟨0, 0⟩, ⟨8, 7⟩⟩ = true ∧
      RasterSurface.capacity Characteristics.BitCompressed ⟨9, 1⟩ Rotation.Rotate_0 = 2 ∧
      RasterSurface.split
        { characteristics := Characteristics.BitCompressed, resolution_ := ⟨9, 8⟩,
          buffer := 9 } ⟨⟨0, 0⟩, ⟨8, 7⟩⟩ = (⟨⟨0, 0⟩, ⟨8, 7⟩⟩, ⟨⟨0, 8⟩, ⟨8, 7⟩⟩) ∧
      RasterSurface.used
        { characteristics := Characteristics.BitCompressed, resolution_ := ⟨9, 8⟩,
          buffer := 9 } ⟨⟨0, 0⟩, ⟨8, 7⟩⟩ = 16) ∧
    ((Rect.withSize (RasterSurface.resolution
        { characteristics := Characteristics.WxH, resolution_ := ⟨10, 10⟩,
          buffer := 65536 })).contains ⟨⟨0, 0⟩, ⟨1, 4⟩⟩ = true ∧
      (RasterSurface.split
        { characteristics := Characteristics.WxH, resolution_ := ⟨10, 10⟩,
          buffer := 65536 } ⟨⟨0, 0⟩, ⟨1, 4⟩⟩).1 = ⟨⟨0, 0⟩, ⟨1, 32767⟩⟩ ∧
      65536 < RasterSurface.used
        { characteristics := Characteristics.WxH, resolution_ := ⟨10, 10⟩,
          buffer := 65536 } ⟨⟨0, 0⟩, ⟨1, 32767⟩⟩) := by
  decide

/-! ## Claims about the loop over the buffer windows -/

/-- C31: for a surface whose `split`, given an area that is not empty, returns
a window that is not empty and leaves a remainder with fewer pixels, the loop
`while (remaining)` of `paint_partial_impl` on a well-formed tree ends within
as many iterations as `remaining` has pixels: with that budget (and a budget
for the traversals of `paint_impl` that depends on the shape of the tree
alone) it runs to its end, and the windows passed to `surface.begin` are, one
per call of `split` and in order, the windows `split` returns until the area
is empty. -/
theorem window_loop_terminates (surface : Surface) (hprog : SplitProgress surface)
    (ps : PaintState) (hwf : wfTree ps.store = true) (root current : Nat)
    (hroot : root < ps.store.size) (hcur : current < ps.store.size)
    (hc : ps.complete = true) (clip : Rect) (stack : PositionRebuilder) (remaining : Rect) :
    (splitWindows surface remaining.pixels remaining).length ≤ remaining.pixels ∧
    (∀ n, remaining.pixels ≤ n →
      splitWindows surface n remaining = splitWindows surface remaining.pixels remaining) ∧
    ∃ inner0, ∀ inner fuel, inner0 ≤ inner → remaining.pixels ≤ fuel →
      (splitLoop surface inner root current clip stack fuel ps remaining).complete = true ∧
      beginWindows (splitLoop surface inner root current clip stack fuel ps remaining).trace =
        beginWindows ps.trace ++ splitWindows surface remaining.pixels remaining := by
  refine ⟨splitWindows_length surface _ _,
    fun n hn => splitWindows_fuel surface hprog n _ remaining hn (le_refl _),
    (specSeq ps.store (fun _ => false) ps.store.size root).length +
      (specSeq ps.store (fun _ => false) ps.store.size current).length, ?_⟩
  intro inner fuel hin hfuel
  obtain ⟨g1, g2⟩ := splitLoop_returns surface hprog ps.store hwf inner root current clip stack
    hroot hcur hin fuel ps remaining hfuel (SameShape.refl _) hc
  refine ⟨g1, ?_⟩
  rw [g2, splitWindows_fuel surface hprog fuel _ remaining hfuel (le_refl _)]

/-- C31, witness: the widget `w` (address 3) of the tree `R > P > {n, w}` after
`w.repaint()`, on a surface with the `split` of the base class, with
`remaining` the clip (4,0)-(7,15) of `w`. -/
theorem window_loop_terminates_witness :
    wfTree oneDirty = true ∧ 0 < oneDirty.size ∧ 3 < oneDirty.size ∧
    (Rect.pixels ⟨⟨4, 0⟩, ⟨7, 15⟩⟩ = 64) ∧
    (∃ inner0, ∀ inner fuel, inner0 ≤ inner → Rect.pixels ⟨⟨4, 0⟩, ⟨7, 15⟩⟩ ≤ fuel →
      (splitLoop (Surface.whole ⟨16, 16⟩) inner 0 3 ⟨⟨4, 0⟩, ⟨7, 15⟩⟩ {} fuel
        { store := oneDirty } ⟨⟨4, 0⟩, ⟨7, 15⟩⟩).complete = true ∧
      beginWindows (splitLoop (Surface.whole ⟨16, 16⟩) inner 0 3 ⟨⟨4, 0⟩, ⟨7, 15⟩⟩ {} fuel
        { store := oneDirty } ⟨⟨4, 0⟩, ⟨7, 15⟩⟩).trace =
        beginWindows [] ++ splitWindows (Surface.whole ⟨16, 16⟩)
          (Rect.pixels ⟨⟨4, 0⟩, ⟨7, 15⟩⟩) ⟨⟨4, 0⟩, ⟨7, 15⟩⟩) :=
  ⟨by decide, by decide, by decide, by decide,
    (window_loop_terminates (Surface.whole ⟨16, 16⟩) (whole_progress _) { store := oneDirty }
      (by decide) 0 3 (by decide) (by decide) rfl ⟨⟨4, 0⟩, ⟨7, 15⟩⟩ {} ⟨⟨4, 0⟩, ⟨7, 15⟩⟩).2.2⟩

/-! ## Claims about `paint_full` -/

set_option maxRecDepth 100000 in
/-- C33 fails on the code in two ways.  `paint_full` starts with a fresh
rebuilder: called on the container `P` of the tree `R > P > w`, whose parent
`R` has the origin (5,5), it passes the translation (11,11) and the clip
(11,11)-(13,13) to the paint hook of `w`, whose absolute translation is
(16,16) and whose absolute clip is (16,16)-(18,18).  And in a tree whose
coordinate sums leave the range of `Point`, `paint_full` of the root makes no
call of the paint hook of `w` although the clip of `absolute(w)` is not
empty. -/
theorem paint_full_ignores_ancestors :
    (wfTree offsetTree = true ∧ noOverflow offsetTree = true ∧
      offsetTree.parent 1 = some 0 ∧ offsetTree.isWidget 2 = true ∧
      (paint_full 20 offsetTree 1 Rect.all).trace =
        [Event.begin Rect.all, Event.paint 2 ⟨11, 11⟩ ⟨⟨11, 11⟩, ⟨13, 13⟩⟩, Event.finish] ∧
      absolute offsetTree 2 = { clip := ⟨⟨16, 16⟩, ⟨18, 18⟩⟩, translation := ⟨16, 16⟩ }) ∧
    (wfTree overflowWidgetTree = true ∧ overflowWidgetTree.parent 0 = Option.none ∧
      overflowWidgetTree.isWidget 2 = true ∧
      (paint_full 20 overflowWidgetTree 0 Rect.all).trace =
        [Event.begin Rect.all, Event.finish] ∧
      (Rect.ofIntersect Rect.all (absolute overflowWidgetTree 2).clip).nonempty = true) := by
  decide

/-- C33 (amended): in a well-formed tree without coordinate overflow,
`paint_full(node, surface, clip)` on a node without parent returns, leaves the
flag word of every node unchanged, and between `surface.begin(clip)` and
`surface.end()` invokes the paint hook exactly for the widgets of the subtree
of `node` whose absolute clip meets `clip`, once each, in depth-first
child-list order (the pre-order), each with a `Canvas` whose clip is the
intersection and whose translation is the absolute translation of the
widget. -/
theorem paint_full_paints_visible (s : Store) (hwf : wfTree s = true)
    (hov : noOverflow s = true) (node : Nat) (hn : node < s.size)
    (hroot : s.parent node = Option.none) (clip : Rect) :
    (∃ F0, ∀ F, F0 ≤ F →
      (paint_full F s node clip).complete = true ∧
      (paint_full F s node clip).trace =
        [Event.begin clip] ++
          ((preorder s s.size node).filter (fun w => s.isWidget w &&
            (Rect.ofIntersect clip (absolute s w).clip).nonempty)).map
            (fun w => Event.paint w (absolute s w).translation
              (Rect.ofIntersect clip (absolute s w).clip)) ++ [Event.finish] ∧
      ∀ j, ((paint_full F s node clip).store.node j).flags = (s.node j).flags) ∧
    (preorder s s.size node).Nodup ∧
    (∀ x, x ∈ preorder s s.size node ↔ x < s.size ∧ (x = node ∨ node ∈ parents s x)) ∧
    (∀ m, m < s.size → preorder s s.size m =
      m :: (if s.isContainer m then (children s m).flatMap (preorder s s.size) else [])) := by
  refine ⟨⟨(specSeq s (paintSkips s {} node clip) s.size node).length, fun F hF => ?_⟩,
    preorder_nodup s hwf s.size node hn,
    fun x => ⟨fun hx => preorder_subtree s hwf s.size node hn x hx,
      fun hx => subtree_preorder s hwf s.size node hn (by omega) x hx.1 hx.2⟩,
    fun m hm => preorder_unfold s hwf m hm⟩
  obtain ⟨g1, g2⟩ := paint_impl_sim false F { store := s } node clip {} hwf hn rfl hF
  refine ⟨g1, ?_, fun j => paint_full_flags F s node clip j⟩
  unfold paint_full
  rw [g2, paintEvents_preorder s hwf hov node hroot clip s.size node hn (Or.inl rfl)]
  rfl

set_option maxRecDepth 100000 in
/-- C33 (amended), witness: `paint_full` of the root of the tree `R > P > w`
with the areas (5,5)-(50,50), (10,10)-(30,30), (1,1)-(3,3). -/
theorem paint_full_paints_visible_witness :
    wfTree offsetTree = true ∧ noOverflow offsetTree = true ∧ 0 < offsetTree.size ∧
    offsetTree.parent 0 = Option.none ∧
    (preorder offsetTree offsetTree.size 0).filter (fun w => offsetTree.isWidget w &&
      (Rect.ofIntersect Rect.all (absolute offsetTree w).clip).nonempty) = [2] ∧
    ∃ F0, ∀ F, F0 ≤ F →
      (paint_full F offsetTree 0 Rect.all).complete = true ∧
      (paint_full F offsetTree 0 Rect.all).trace =
        [Event.begin Rect.all] ++
          ((preorder offsetTree offsetTree.size 0).filter (fun w => offsetTree.isWidget w &&
            (Rect.ofIntersect Rect.all (absolute offsetTree w).clip).nonempty)).map
            (fun w => Event.paint w (absolute offsetTree w).translation
              (Rect.ofIntersect Rect.all (absolute offsetTree w).clip)) ++ [Event.finish] ∧
      ∀ j, ((paint_full F offsetTree 0 Rect.all).store.node j).flags =
        (offsetTree.node j).flags :=
  ⟨by decide, by decide, by decide, by decide, by decide,
    (paint_full_paints_visible offsetTree (by decide) (by decide) 0 (by decide) (by decide)
      Rect.all).1⟩

/-! ## Claims about `PositionRebuilder` -/

/-- Push and pop of the nodes below the root: during a traversal of a
well-formed tree that pushes each node at its pre visit and pops it at its post
visit, starting from a fresh `PositionRebuilder`, for every node `n` other than
the root of the traversal the rebuilder after `pop(n)` is the rebuilder before
`push(n)` (for a leaf both happen in one body of the loop, otherwise in the
bodies of the pre and of the post visit); hence pushing `n` again after its pop
gives the rebuilder that followed its first push. -/
theorem pop_restores_before_push (s : Store) (hwf : wfLinks s = true) (root fuel : Nat)
    (hroot : root < s.size) :
    (∀ v ∈ pushPopTrace s root fuel, v.node ≠ root → v.state = AcceptState.Leaf →
      v.after = v.before) ∧
    (∀ a ∈ pushPopTrace s root fuel, ∀ b ∈ pushPopTrace s root fuel,
      a.node = b.node → a.node ≠ root → a.state = AcceptState.Pre →
      b.state = AcceptState.Post →
      b.after = a.before ∧ (b.after.push s b.node).2 = a.after) := by
  have hinit : WalkInv s root {} s {} (traverseBegin s root) := by
    unfold WalkInv traverseBegin
    simp only [if_neg (pre_or_leaf_ne_post s root)]
    refine ⟨hroot, Or.inl trivial, ?_, ?_, trivial⟩
    · intro a ha; simp [insideChain] at ha
    · simp [beforePush, insideChain, rebuiltFrom]
  have key := pushPopLoop_sound s hwf root fuel s {} (traverseBegin s root) (SameShape.refl _)
    (fun _ => rfl) (Or.inr hinit)
  constructor
  · intro v hv hne hL
    obtain ⟨k1, _, k3⟩ := key v hv
    rw [k1 (by rw [hL]; simp), k3 (by rw [hL]; simp) hne]
  · intro a ha b hb hab hne hA hB
    obtain ⟨a1, a2, _⟩ := key a ha
    obtain ⟨_, _, b3⟩ := key b hb
    rw [a1 (by rw [hA]; simp), a2 hA, b3 (by rw [hB]; simp) (by rw [← hab]; exact hne), hab]
    exact ⟨rfl, rfl⟩

set_option maxRecDepth 100000 in
/-- Push and pop of the nodes below the root in the traversal of the tree
`R > P > w` from `R`. -/
theorem pop_restores_before_push_witness :
    wfLinks offsetTree = true ∧ 0 < offsetTree.size ∧
    (pushPopTrace offsetTree 0 10).map (fun v => (v.node, v.state)) =
      [(0, AcceptState.Pre), (1, AcceptState.Pre), (2, AcceptState.Leaf),
        (1, AcceptState.Post), (0, AcceptState.Post)] ∧
    ((∀ v ∈ pushPopTrace offsetTree 0 10, v.node ≠ 0 → v.state = AcceptState.Leaf →
      v.after = v.before) ∧
    (∀ a ∈ pushPopTrace offsetTree 0 10, ∀ b ∈ pushPopTrace offsetTree 0 10,
      a.node = b.node → a.node ≠ 0 → a.state = AcceptState.Pre →
      b.state = AcceptState.Post →
      b.after = a.before ∧ (b.after.push offsetTree b.node).2 = a.after)) :=
  ⟨by decide, by decide, by decide,
    pop_restores_before_push offsetTree (by decide) 0 10 (by decide)⟩

/-! ## Claims about `collides` -/

set_option maxRecDepth 100000 in
/-- C34 fails on the code.  The range `node.siblings()` starts at the node
itself, so the first loop compares the node with itself: for the only child
`b` of `a`, a container whose area (0,0)-(3,3) lies inside the bounds of `a`,
`collides(b)` returns true, and so does `collides(d)` for an only child `d`
that is a widget with the `collides` of the base class.  When the first loop
finds nothing, the second loop dereferences the previous sibling of the first
child, a null pointer: for the same widget with a `collides` that returns
false the function does not return false. -/
theorem collides_counts_the_node_itself :
    (wfTree onlyChildTree = true ∧ onlyChildTree.parent 1 = some 0 ∧
      children onlyChildTree 0 = [1] ∧
      collides (fun _ _ => true) onlyChildTree 1 = some true) ∧
    (wfTree onlyWidgetTree = true ∧ onlyWidgetTree.parent 1 = some 0 ∧
      children onlyWidgetTree 0 = [1] ∧ onlyWidgetTree.isWidget 1 = true ∧
      collides (fun _ _ => true) onlyWidgetTree 1 = some true ∧
      collides (fun _ _ => false) onlyWidgetTree 1 = Option.none) := by
  decide

/-! ## Claim C38 -/

/-- C38: a sequence of calls of `insert`, `push_back`, `push_front`, `erase`,
`detach` and `clear` with valid arguments on a store whose child lists are well
formed leaves them well formed.  For every container, the first child has no
previous sibling and the last child has no next sibling; following
`next_sibling_` from `first_child_` ends at `last_child_`, visits no node twice
and visits exactly the nodes whose parent is the container; `clear` returns on
it; `a.next_sibling_ == b` holds exactly when `b.prev_sibling_ == a`; and a node
without parent has no sibling links. -/
theorem lists_stay_well_formed (s t : Store) (ops : List ListOp)
    (hwf : wfLists s = true) (h : applyOps s ops = some t) :
    wfLists t = true ∧
    (∀ c, c < t.size →
      (∀ f, (t.node c).first_child = some f → (t.node f).prev_sibling = Option.none) ∧
      (∀ l, (t.node c).last_child = some l → (t.node l).next_sibling = Option.none) ∧
      (children t c).head? = (t.node c).first_child ∧
      (children t c).getLast? = (t.node c).last_child ∧
      (children t c).Nodup ∧
      (∀ x, x < t.size → (x ∈ children t c ↔ t.parent x = some c)) ∧
      (Container.clear t c).isSome = true) ∧
    (∀ a b, a < t.size → b < t.size →
      ((t.node a).next_sibling = some b ↔ (t.node b).prev_sibling = some a)) ∧
    (∀ a b, a < t.size → (t.node a).next_sibling = some b → b < t.size) ∧
    (∀ a b, b < t.size → (t.node b).prev_sibling = some a → a < t.size) ∧
    (∀ x, x < t.size → t.parent x = Option.none →
      (t.node x).next_sibling = Option.none ∧ (t.node x).prev_sibling = Option.none) := by
  have hw := ops_preserve ops s t ((wfLists_iff s).mp hwf) h
  refine ⟨(wfLists_iff t).mpr hw, fun c hc => ?_, fun a b ha hb => ?_, fun a b ha hn => ?_,
    fun a b hb hp => ?_, hw.2.1⟩
  · obtain ⟨L, hL, hin, hall⟩ := hw.1 c hc
    have e := children_of_childList t c L hL hc hin
    obtain ⟨hfc, hlc, _, hnd, _⟩ := childList_unfold hL
    obtain ⟨t2, ht2⟩ := clear_returns t c hw hc
    rw [e]
    refine ⟨(lists_ends t hw c hc).1, (lists_ends t hw c hc).2, hfc.symm, hlc.symm, hnd,
      fun x hx => ⟨childList_parent hL x, hall x hx⟩, ?_⟩
    rw [ht2]; rfl
  · exact ⟨fun hn => (lists_next t hw a b ha hn).2, fun hp => (lists_prev t hw a b hb hp).2⟩
  · exact (lists_next t hw a b ha hn).1
  · exact (lists_prev t hw a b hb hp).1

/-- C38, witness: the sequence `sampleOps` on the tree `twoChildren`. -/
theorem lists_stay_well_formed_witness :
    wfLists twoChildren = true ∧
    ∃ t, applyOps twoChildren sampleOps = some t ∧ wfLists t = true ∧
      children t 0 = [] ∧ children t 3 = [2] := by
  have hsome : (applyOps twoChildren sampleOps).isSome = true := by decide
  obtain ⟨t, ht⟩ := Option.isSome_iff_exists.mp hsome
  have hch : (applyOps twoChildren sampleOps).map (fun t => (children t 0, children t 3))
      = some ([], [2]) := by decide
  rw [ht] at hch
  simp only [Option.map_some', Option.some.injEq, Prod.mk.injEq] at hch
  exact ⟨by decide, t, ht, (lists_stay_well_formed twoChildren t sampleOps (by decide) ht).1,
    hch.1, hch.2⟩

/-! ## Claim C37 -/

/-- C37: let a forest of containers of the base class and of widgets with the
preferred sizes `pref0` carry no layout flag and be at a layout fixpoint for a
surface, let `root` be a node without parent, let `reflow()` be called on the
nodes of a list `D`, and let the preferred sizes be `pref` afterwards, where
every widget whose preferred size has changed is in `D`.  Then
`layout(root, surface)` returns, `layout` of the same tree with every node
marked `LayoutDirty` returns, and both leave every node of the tree of `root`
with the same area, the same size of the area and the same constraints; every
container below `root` has the area that `Container::onLayoutEnd`, evaluated on
the final tree, gives it. -/
theorem reflow_layout_matches_full (pref0 pref : Nat → Vec2) (surface : Surface) (s0 : Store)
    (root fuel0 : Nat) (D : List Nat)
    (hwf : wfTree s0 = true) (hn : root < s0.size) (hroot : s0.parent root = Option.none)
    (hflags : ∀ x, x < s0.size → s0.layoutFlagged x = false)
    (hfix : isLayoutFixpoint pref0 surface s0 root fuel0 = true)
    (hD : ∀ x ∈ D, x < s0.size)
    (hchg : ∀ w, w < s0.size → s0.isWidget w = true → pref w ≠ pref0 w → w ∈ D) :
    ∃ v u F0,
      (∀ F, F0 ≤ F →
        layout (prefHooks pref) F surface (D.foldl reflow s0) root = some v ∧
        layout (prefHooks pref) F surface (markAll (D.foldl reflow s0)) root = some u) ∧
      (∀ x, x < s0.size → (x = root ∨ root ∈ parents s0 x) →
        (v.node x).area = (u.node x).area ∧ (v.node x).area.size = (u.node x).area.size ∧
        (v.node x).constraints = (u.node x).constraints) ∧
      (∀ c, c < s0.size → root ∈ parents s0 c → s0.isContainer c = true →
        (v.node c).area = (s0.node c).area.sized (Container.onLayoutEnd v c)) := by
  have hwfl := wfTree_wfLinks hwf
  have hlinv0 : LayoutInv s0 := fun x p hx hp =>
    ⟨(wfLinks_at hwfl hx).1 p hp, fun hf => by rw [hflags x hx] at hf; cases hf⟩
  obtain ⟨hsh1, hdata1, hlinv1, hdirty1⟩ :=
    foldl_reflow_facts s0 hwfl D s0 hD (SameShape.refl s0) hlinv0
  have hset0 := fixpoint_settled pref0 surface s0 root fuel0 hwf hn hroot hfix
  generalize D.foldl reflow s0 = s1 at hsh1 hdata1 hlinv1 hdirty1 ⊢
  have hwf1 : wfTree s1 = true := by rw [hsh1.wfTree]; exact hwf
  have hn1 : root < s1.size := by rw [hsh1.1]; exact hn
  have hroot1 : s1.parent root = Option.none := by rw [hsh1.parent]; exact hroot
  have hinit : ReflowInv pref s1 root surface.resolution (fun x => (s1.node x).area) s1 := by
    intro x hx hxs
    have hx0 : x < s0.size := by rw [← hsh1.1]; exact hx
    have hxs0 : x = root ∨ root ∈ parents s0 x := by rw [← hsh1.parents]; exact hxs
    obtain ⟨c, a⟩ := hset0 x hx0 hxs0
    refine ⟨by rw [(hdata1 x).2]; exact c, fun _ => rfl, fun hnd => ⟨?_, Or.inl rfl⟩⟩
    have htar : layoutTarget pref s1 root surface.resolution s1 x =
        layoutTarget pref0 s0 root surface.resolution s0 x := by
      unfold layoutTarget
      rw [hsh1.isWidget]
      by_cases e : x = root
      · rw [if_pos e, if_pos e]
      · rw [if_neg e, if_neg e]
        by_cases hw : s0.isWidget x = true
        · rw [if_pos hw, if_pos hw]
          by_contra hne
          have := hdirty1 x (Or.inr (hchg x hx0 hw hne))
          rw [hnd] at this
          cases this
        · rw [if_neg hw, if_neg hw]
          exact onLayoutEnd_congr s0 s1 x (hsh1.children x) (fun y _ => (hdata1 y).1)
            (hdata1 x).2
    rw [htar]
    simp only [(hdata1 x).1]
    exact a
  obtain ⟨v, F1, _, hv⟩ := layout_returns (prefHooks pref) surface s1 root hwf1 hn1
  obtain ⟨hshv, hsv⟩ := reflow_settled pref surface s1 root hwf1 hn1 hroot1 hlinv1 hinit F1 v
    (hv F1 (Nat.le_refl _))
  obtain ⟨u, F2, hu, hshu, hsu⟩ := full_settled pref surface s1 root hwf1 hn1 hroot1
  have huniq := settled_unique pref s1 root surface.resolution _ v u hwf1 hn1 hshv hshu hsv hsu
  refine ⟨v, u, F1 + F2, fun F hF => ⟨hv F (by omega), hu F (by omega)⟩, ?_, ?_⟩
  · intro x hx hxs
    have := huniq x (by rw [hsh1.1]; exact hx) (by rw [hsh1.parents]; exact hxs)
    exact ⟨this.1, by rw [this.1], this.2⟩
  · intro c hc hm hcont
    have hne : c ≠ root := by
      intro e
      rw [e] at hm
      exact not_mem_parents_self s0 root (wfLinks_at hwfl hn).2.2.2.2 hm
    have hw : s1.isWidget c = false := by
      rw [hsh1.isWidget]
      simp only [Store.isContainer, Store.isWidget] at hcont ⊢
      simpa using hcont
    have := (hsv c (by rw [hsh1.1]; exact hc) (Or.inr (by rw [hsh1.parents]; exact hm))).2
    simp only [layoutTarget, if_neg hne, hw, Bool.false_eq_true, if_false, (hdata1 c).1] at this
    exact this

/-- C37, witness: in the tree `r > c > w` laid out on a 16 x 16 surface with a
widget of preferred size 4 x 8, the widget asks for 6 x 2 after `w.reflow()`. -/
theorem reflow_layout_matches_full_witness :
    wfTree settledTree = true ∧
    isLayoutFixpoint (fun _ => ⟨4, 8⟩) (Surface.whole ⟨16, 16⟩) settledTree 0 20 = true ∧
    ∃ v u F0,
      (∀ F, F0 ≤ F →
        layout (prefHooks (fun _ => ⟨6, 2⟩)) F (Surface.whole ⟨16, 16⟩)
          ([2].foldl reflow settledTree) 0 = some v ∧
        layout (prefHooks (fun _ => ⟨6, 2⟩)) F (Surface.whole ⟨16, 16⟩)
          (markAll ([2].foldl reflow settledTree)) 0 = some u) ∧
      (∀ x, x < settledTree.size → (x = 0 ∨ 0 ∈ parents settledTree x) →
        (v.node x).area = (u.node x).area ∧ (v.node x).area.size = (u.node x).area.size ∧
        (v.node x).constraints = (u.node x).constraints) ∧
      (∀ c, c < settledTree.size → 0 ∈ parents settledTree c →
        settledTree.isContainer c = true →
        (v.node c).area = (settledTree.node c).area.sized (Container.onLayoutEnd v c)) :=
  ⟨by decide, by decide,
    reflow_layout_matches_full (fun _ => ⟨4, 8⟩) (fun _ => ⟨6, 2⟩) (Surface.whole ⟨16, 16⟩)
      settledTree 0 20 [2] (by decide) (by decide) (by decide) (by decide) (by decide)
      (by decide) (by decide)⟩

set_option maxRecDepth 100000 in
/-- C40 (code defect): `pop` does nothing for a node without parent, and
`paint_into` relies on it.  In the traversal of the tree `R > P > w`, whose
root `R` has the area (5,5)-(50,50), the rebuilder is fresh before `push(R)`
and holds the translation (5,5) and the clip (5,5)-(50,50) after `pop(R)`;
pushing `R` again gives the translation (10,10) and the clip (10,10)-(50,50),
which is not `absolute(R).clip`, the equality `push` asserts.  After
`R.repaint()` on the painted tree, `paint_partial(R, surface)` paints in place:
it pops and pushes `R` and calls the paint hook of `w` with the translation
(21,21) and the clip (21,21)-(23,23), while `absolute(w)` is the translation
(16,16) with the clip (16,16)-(18,18). -/
theorem repush_shifts_root :
    wfTree offsetTree = true ∧ noOverflow offsetTree = true ∧
    offsetTree.parent 0 = Option.none ∧
    (offsetTree.node 0).area = ⟨⟨5, 5⟩, ⟨50, 50⟩⟩ ∧
    (pushPopTrace offsetTree 0 10).map (fun v => (v.node, v.state)) =
      [(0, AcceptState.Pre), (1, AcceptState.Pre), (2, AcceptState.Leaf),
        (1, AcceptState.Post), (0, AcceptState.Post)] ∧
    (pushPopTrace offsetTree 0 10).head?.map (fun v => v.before) = some {} ∧
    (pushPopTrace offsetTree 0 10).getLast?.map (fun v => v.after) =
      some ⟨⟨5, 5⟩, ⟨⟨5, 5⟩, ⟨50, 50⟩⟩⟩ ∧
    ((⟨⟨5, 5⟩, ⟨⟨5, 5⟩, ⟨50, 50⟩⟩⟩ : PositionRebuilder).pop offsetTree 0) =
      ⟨⟨5, 5⟩, ⟨⟨5, 5⟩, ⟨50, 50⟩⟩⟩ ∧
    ((⟨⟨5, 5⟩, ⟨⟨5, 5⟩, ⟨50, 50⟩⟩⟩ : PositionRebuilder).push offsetTree 0).2 =
      ⟨⟨10, 10⟩, ⟨⟨10, 10⟩, ⟨50, 50⟩⟩⟩ ∧
    (absolute offsetTree 0).clip = ⟨⟨5, 5⟩, ⟨50, 50⟩⟩ ∧
    (List.range 3).map (fun i => paintBits (rootRepainted.node i).flags) =
      [(true, false, false, false), (false, false, false, false),
        (false, false, false, false)] ∧
    (List.range 3).map (fun i => (rootRepainted.node i).area) =
      (List.range 3).map (fun i => (offsetTree.node i).area) ∧
    (absolute rootRepainted 2).translation = ⟨16, 16⟩ ∧
    (absolute rootRepainted 2).clip = ⟨⟨16, 16⟩, ⟨18, 18⟩⟩ ∧
    (paint_partial_impl 20 (Surface.whole ⟨64, 64⟩) rootRepainted 0).complete = true ∧
    (paint_partial_impl 20 (Surface.whole ⟨64, 64⟩) rootRepainted 0).trace =
      [Event.begin ⟨⟨5, 5⟩, ⟨50, 50⟩⟩,
        Event.paint 2 ⟨21, 21⟩ ⟨⟨21, 21⟩, ⟨23, 23⟩⟩, Event.finish, Event.flush] := by
  decide

/-- C30 (amended): on every forest, `layout(node, surface)` with the functions
of the base classes `Widget` and `Container` returns (from some iteration
budget on the loops end, with one and the same tree), and the number of the
forced re-evaluations of a parent it performs is at most the number of the
containers in the subtree of `node` that carry `LayoutChildDirty` and not
`LayoutDirty` when `layout` is called. -/
theorem layout_repeats_bounded (surface : Surface) (s : Store) (node : Nat)
    (hwf : wfTree s = true) (hn : node < s.size) :
    ∃ u F0, ∀ F, F0 ≤ F → layout Hooks.base F surface s node = some u ∧
      ∃ k, layout_count Hooks.base F surface s node = some (u, k) ∧
        k ≤ pendingContainers s node := by
  obtain ⟨u, F0, _, hu⟩ := layout_returns Hooks.base surface s node hwf hn
  refine ⟨u, F0, fun F hF => ⟨hu F hF, ?_⟩⟩
  have hfst := layout_count_fst Hooks.base F surface s node
  rw [hu F hF] at hfst
  cases hq : layout_count Hooks.base F surface s node with
  | none => rw [hq] at hfst; simp at hfst
  | some q =>
    rw [hq] at hfst
    simp only [Option.map_some', Option.some.injEq] at hfst
    refine ⟨q.2, ?_, layout_count_bounded Hooks.base surface s node hwf hn F q hq⟩
    rw [← hfst]

set_option maxRecDepth 100000 in
/-- C30 (amended), witness: the tree of the counterexample is a forest in which
the five containers carry `LayoutChildDirty` and not `LayoutDirty`; `layout`
returns on it and re-evaluates a parent four times. -/
theorem layout_repeats_bounded_witness :
    wfTree combDirty = true ∧ 0 < combDirty.size ∧ pendingContainers combDirty 0 = 5 ∧
    (layout_count Hooks.base 40 (Surface.whole ⟨16, 16⟩) combDirty 0).map (fun q => q.2) =
      some 4 ∧
    ∃ u F0, ∀ F, F0 ≤ F → layout Hooks.base F (Surface.whole ⟨16, 16⟩) combDirty 0 = some u ∧
      ∃ k, layout_count Hooks.base F (Surface.whole ⟨16, 16⟩) combDirty 0 = some (u, k) ∧
        k ≤ pendingContainers combDirty 0 :=
  ⟨by decide, by decide, by decide, by decide,
    layout_repeats_bounded (Surface.whole ⟨16, 16⟩) combDirty 0 (by decide) (by decide)⟩

/-- C26 (amended).  Let components be constructed one after another, at
distinct offsets, on a new owner, the type of each one being the type of a
component constructed before it, or less than the types of all of them, or
greater than the types of all of them.  For every type, let `a` be the first
constructed component of the type and `rest` the others in the order of their
construction.  The siblings of `a` are all of them: `a`, then the others from
the last constructed to the earliest.  The siblings of another one are itself
and the ones of the type constructed before it, the first excepted. -/
theorem siblings_from_first (l : List (Int × Nat)) (o : Owner)
    (hnd : (l.map (fun p => p.1)).Nodup) (hord : keepsOrder [] l = true)
    (h : attachSeq {} l = some o) (t : Nat) (a : Int) (rest : List Int)
    (ht : ofType l t = a :: rest) :
    siblings o a = a :: rest.reverse ∧
    ∀ pre x post, rest = pre ++ x :: post → siblings o x = x :: pre.reverse := by
  obtain ⟨C, hinv⟩ := attachSeq_chainInv l [] {} o [] chainInv_empty (by simpa using hnd)
    (by simpa using hord) h
  rw [List.nil_append] at hinv
  have hl := hinv.sib t
  rw [ht] at hl
  simp only [headThenLatest] at hl
  have hrange := attachSeq_range _ _ _ h
  have hmem : ∀ y ∈ a :: rest, (y, t) ∈ l := by
    intro y hy
    exact (mem_ofType l t y).mp (by rw [ht]; exact hy)
  have hnd2 : (a :: rest).Nodup := by
    rw [← ht]
    unfold ofType
    exact hnd.sublist (List.Sublist.map (fun p : Int × Nat => p.1)
      (List.filter_sublist (l := l) (p := fun p => p.2 == t)))
  have hlen : (a :: rest).length ≤ offsetFuel := by
    apply nodup_offsets_length _ hnd2
    intro y hy
    exact hrange (y, t) (hmem y hy)
  have hnz : ∀ y ∈ a :: rest, y ≠ 0 := fun y hy => hinv.dnz (y, t) (hmem y hy)
  refine ⟨?_, fun pre x post hsplit => ?_⟩
  · have := siblingChain_of_offLinked o (a :: rest.reverse) offsetFuel hl
      (by
        intro y hy
        apply hnz y
        simp only [List.mem_cons, List.mem_reverse] at hy ⊢
        exact hy)
      (by simpa using hlen)
    simpa [siblings] using this
  · have hrev : a :: rest.reverse = (a :: post.reverse) ++ (x :: pre.reverse) := by
      rw [hsplit]
      simp
    rw [hrev] at hl
    have hsuf := offLinked_suffix o _ _ hl
    have := siblingChain_of_offLinked o (x :: pre.reverse) offsetFuel hsuf
      (by
        intro y hy
        apply hnz y
        rw [hsplit]
        simp only [List.mem_cons, List.mem_reverse, List.mem_append] at hy ⊢
        tauto)
      (by
        have : (x :: pre.reverse).length ≤ (a :: rest).length := by
          rw [hsplit]
          simp only [List.length_cons, List.length_reverse, List.length_append]
          omega
        omega)
    simpa [siblings] using this

/-- C26 (amended), witness: components of the types 5, 7, 5, 7, 5, 3 at the
offsets 8, 16, 24, 32, 40, 48.  The siblings of the first component of type 5
are the three components of type 5, those of the last one of type 5 are the
last and the second. -/
theorem siblings_from_first_witness :
    ([(8, 5), (16, 7), (24, 5), (32, 7), (40, 5), (48, 3)].map
      (fun p : Int × Nat => p.1)).Nodup ∧
    keepsOrder [] [(8, 5), (16, 7), (24, 5), (32, 7), (40, 5), (48, 3)] = true ∧
    ofType [(8, 5), (16, 7), (24, 5), (32, 7), (40, 5), (48, 3)] 5 = [8, 24, 40] ∧
    ∃ o, attachSeq {} [(8, 5), (16, 7), (24, 5), (32, 7), (40, 5), (48, 3)] = some o ∧
      siblings o 8 = [8, 40, 24] ∧ siblings o 40 = [40, 24] := by
  have hs : (attachSeq {} [(8, 5), (16, 7), (24, 5), (32, 7), (40, 5), (48, 3)]).isSome
      = true := by decide
  obtain ⟨o, ho⟩ := Option.isSome_iff_exists.mp hs
  have h := siblings_from_first [(8, 5), (16, 7), (24, 5), (32, 7), (40, 5), (48, 3)] o
    (by decide) (by decide) ho 5 8 [24, 40] (by decide)
  exact ⟨by decide, by decide, by decide, o, ho, h.1, h.2 [24] 40 [] rfl⟩

/-- The order of construction that C26 (amended) leaves out: a component whose
type lies between the types constructed before it is linked into the list
`components()` behind a component of a greater type (the defect of
`attachComponent` of C2), and a later component of its type is not linked to
it.  With the types 1, 5, 3, 3 at the offsets 8, 16, 24, 32 the siblings of the
component at 24 are that component alone. -/
theorem siblings_after_misplaced_type :
    keepsOrder [] [(8, 1), (16, 5), (24, 3), (32, 3)] = false ∧
    (attachSeq {} [(8, 1), (16, 5), (24, 3), (32, 3)]).map
      (fun o => (components o, siblings o 24, siblings o 32)) =
      some ([8, 16, 32, 24], [24], [32]) := by
  decide

set_option maxRecDepth 100000 in
/-- Counterexample to C8 as stated.  (1) After `Container x; Widget d(x);
d.repaint(); x.setArea({0, 0, 9, 9}); paint_partial(x, surface)` the widget `d`
(whose clip is empty) still carries `PaintDirty` while its parent `x` carries
none of the three flags.  (2) After `x.setArea; paint_partial(x, surface);
d.setArea; x.push_back(d)` the inserted widget `d` carries `PaintDirty` under
the parent `x` that carries none of them.  (3) In `movedOffDisplay` the clip
(20,20)-(23,27) of `d` lies outside the display of the 16 x 16 surface:
`paint_partial` leaves `d` with `PaintDirty` under `x` without flag.  (4) In
`movedRoot` the root `x` lies at (-5,-5)-(20,20) and `d` is visible at
(0,0)-(3,7): `paint_partial` leaves `d` with `PaintDirty` under `x` without
flag.  (5) On a 16 x 16 `BitRasterSurface` with a buffer of 16 bytes, whose
`split` returns the window (0,0)-(7,3) for the area (0,0)-(3,3),
`paint_partial` on `besideDirty` leaves the visible widget `w` with
`PaintDirty` under `P` and `R` without flag. -/
theorem paint_dirty_child_under_clean_parent :
    (fun t : Store => (parents t 1, t.isPaintDirty 1, t.anyPaintFlag 0))
      (paint_partial_impl 10 (Surface.whole ⟨10, 10⟩) hiddenDirtyChild 0).store
      = ([0], true, false) ∧
    dirtyChildInserted.map (fun t => (parents t 1, t.isPaintDirty 1, t.anyPaintFlag 0))
      = some ([0], true, false) ∧
    ((absolute movedOffDisplay 1).clip = ⟨⟨20, 20⟩, ⟨23, 27⟩⟩ ∧
      (fun t : Store => (parents t 1, t.isPaintDirty 1, t.anyPaintFlag 0))
        (paint_partial_impl 40 (Surface.whole ⟨16, 16⟩) movedOffDisplay 0).store
        = ([0], true, false)) ∧
    ((movedRoot.node 0).area = ⟨⟨-5, -5⟩, ⟨20, 20⟩⟩ ∧
      (absolute movedRoot 1).clip = ⟨⟨0, 0⟩, ⟨3, 7⟩⟩ ∧
      (fun t : Store => (parents t 1, t.isPaintDirty 1, t.anyPaintFlag 0))
        (paint_partial_impl 40 (Surface.whole ⟨16, 16⟩) movedRoot 0).store
        = ([0], true, false)) ∧
    ((absolute besideDirty 3).clip = ⟨⟨4, 4⟩, ⟨7, 7⟩⟩ ∧
      ((Surface.bitCompressed ⟨16, 16⟩ 16).split ⟨⟨0, 0⟩, ⟨3, 3⟩⟩).1 = ⟨⟨0, 0⟩, ⟨7, 3⟩⟩ ∧
      (fun t : Store => (parents t 3, t.isPaintDirty 3, t.anyPaintFlag 1, t.anyPaintFlag 0))
        (paint_partial_impl 40 (Surface.bitCompressed ⟨16, 16⟩ 16) besideDirty 0).store
        = ([1, 0], true, false, false)) := by
  decide

/-- C8 (amended).  From a state in which every proper ancestor of a node that
carries `PaintDirty` or `PaintChildDirty` carries one of `PaintDirty`,
`PaintChildDirty`, `PaintChildDirtyDiverged`, every state reached through `erase`, `setArea`,
`setPosition`, `setSize`, `Widget::repaint`, `layout`, `insert` of a child
whose subtree carries neither `PaintDirty` nor `PaintChildDirty`, and
`paint_partial` on a surface with a sound `split` of a tree whose root lies at
the origin and in which every node that carries `PaintDirty` or
`PaintChildDirty` is visible on the display and is `PaintDirty` or a
container, has that property again, and so every proper ancestor of a node that
carries `PaintDirty` carries one of `PaintDirty`, `PaintChildDirty`,
`PaintChildDirtyDiverged`. -/
theorem paint_dirty_covered_of_reach (hooks : Hooks) (s0 s : Store) (h0 : PaintInv s0)
    (h : PaintReach hooks s0 s) : PaintInv s ∧ PaintDirtyCovered s := by
  have hinv : PaintInv s := by
    induction h with
    | start => exact h0
    | insert s t c pos child _ hins hclean ih => exact paintInv_insert s t c child pos hins ih hclean
    | erase s t c child r _ her ih => exact paintInv_erase s t c child r her ih
    | setArea s n area _ hlen ih => exact paintInv_setArea s n area ih hlen
    | setPosition s n relative _ hlen ih => exact paintInv_setPosition s n relative ih hlen
    | setSize s n size _ hlen ih => exact paintInv_setSize s n size ih hlen
    | repaint s n _ hlen ih => exact paintInv_widget_repaint s n ih hlen
    | layout s t fuel surface node _ hwf hn ht ih =>
      exact paintInv_layout hooks fuel surface s t node ih hwf hn ht
    | paint_partial s fuel surface root _ hs hov hout hprog hsound hfuel hflag ih =>
      exact paintInv_paint_partial surface hprog hsound s root hs hov hout fuel hfuel hflag ih
  exact ⟨hinv, paintDirtyCovered_of_paintInv hinv⟩

set_option maxRecDepth 100000 in
/-- Witness of C8 (amended): from the two fresh nodes, `Container x; Widget
d(x); x.setArea({0, 0, 3, 3}); d.setArea({0, 0, 1, 1}); d.repaint();
paint_partial(x, surface); d.repaint();` on a 4 x 4 surface.  Before
`paint_partial` the nodes `d` and `x` carry `PaintDirty`, after it neither
carries a paint flag, and after the last `repaint` the widget `d` carries
`PaintDirty` and `x` carries `PaintChildDirty`. -/
theorem paint_dirty_covered_of_reach_witness :
    PaintInv twoNodes ∧ PaintReach Hooks.base twoNodes shownRepainted ∧
      (shownDirtyChild.isPaintDirty 1 = true ∧ shownDirtyChild.isPaintDirty 0 = true ∧
        paintBits ((paint_partial_impl 30 (Surface.whole ⟨4, 4⟩) shownDirtyChild 0).store.node 1).flags
          = noBits ∧
        paintBits ((paint_partial_impl 30 (Surface.whole ⟨4, 4⟩) shownDirtyChild 0).store.node 0).flags
          = noBits ∧
        shownRepainted.isPaintDirty 1 = true ∧ shownRepainted.isChildPaintDirty 0 = true) ∧
      (PaintInv shownRepainted ∧ PaintDirtyCovered shownRepainted) := by
  have h0 : PaintInv twoNodes := by
    intro x a ha; rw [twoNodes_parents] at ha; simp at ha
  have hr : PaintReach Hooks.base twoNodes shownRepainted := by
    have hsome : (insert twoNodes 0 Option.none 1).isSome = true := by decide
    have hins : insert twoNodes 0 Option.none 1
        = some ((push_back twoNodes 0 1).getD twoNodes) := by
      unfold push_back
      cases h : insert twoNodes 0 Option.none 1 with
      | none => rw [h] at hsome; simp at hsome
      | some t => rfl
    have h1 : PaintReach Hooks.base twoNodes ((push_back twoNodes 0 1).getD twoNodes) :=
      PaintReach.insert twoNodes _ 0 Option.none 1 PaintReach.start hins (by
        intro x hx
        rw [twoNodes_parents] at hx
        rcases hx with rfl | hx
        · decide
        · simp at hx)
    have h2 := PaintReach.setArea _ 0 ⟨⟨0, 0⟩, ⟨3, 3⟩⟩ h1 (by decide)
    have h3 := PaintReach.setArea _ 1 ⟨⟨0, 0⟩, ⟨1, 1⟩⟩ h2 (by decide)
    have h4 : PaintReach Hooks.base twoNodes shownDirtyChild :=
      PaintReach.repaint _ 1 h3 (by decide)
    have h5 := PaintReach.paint_partial shownDirtyChild 30 (Surface.whole ⟨4, 4⟩) 0 h4
      { wf := by decide, lt := by decide, top := by decide, origin := by decide,
        typed := by decide }
      (by decide) shownDirtyChild_outside (whole_progress _) (whole_sound _) (by decide)
      (by
        intro x hx _ _
        have hsize : shownDirtyChild.size = 2 := by decide
        rw [hsize] at hx
        interval_cases x <;> decide)
    exact PaintReach.repaint _ 1 h5 (by decide)
  exact ⟨h0, hr, by decide,
    paint_dirty_covered_of_reach Hooks.base twoNodes shownRepainted h0 hr⟩

end Cui
